import Mathlib


/-!
# Glucose core (community-bumping variant): a shallow embedding of `core/Solver.cc`

The solver state is an explicit record, every member function of `Solver.cc` is a
function on that record.  A result `none` stands for an aborted run: a failed
`assert`, an access outside a vector, or an exhausted iteration budget.

Values of type `double` that are parameters, scores or averages are exact fractions
(`Frac`).  The activities of variables and clauses and the random generator are not
computed: the order they induce and the random numbers are read from a stream
`Oracle`, indexed by the counter `tick` of the state, so that every theorem holds for
every behaviour of these heuristics.
-/

namespace Glucose

/-! ## Literals, truth values, clauses (types of `core/SolverTypes.h`) -/

/-- Modelled from the spec: the three-valued truth type of section 4.1
(`lbool` of `SolverTypes.h`, which is not part of the sources at hand). -/
inductive lbool where
  | l_True
  | l_False
  | l_Undef
deriving DecidableEq, Repr

/-- Modelled from the spec: a literal is a signed variable (section 3); `sign = true`
is the negative literal, as in `mkLit(v, sign)`. -/
structure Lit where
  var : Nat
  sign : Bool
deriving DecidableEq, Repr

/-- The literal `mkLit(v, sign)`. -/
def mkLit (v : Nat) (sign : Bool) : Lit := ⟨v, sign⟩

/-- Negation `~p`. -/
def Lit.neg (p : Lit) : Lit := ⟨p.var, !p.sign⟩

/-- The integer code `toInt(p) = 2 * var + sign` by which literals are ordered. -/
def Lit.toInt (p : Lit) : Nat := 2 * p.var + (if p.sign then 1 else 0)

/-- The truth value `lbool(b)`. -/
def lbool.ofBool (b : Bool) : lbool := if b then lbool.l_True else lbool.l_False

/-- The operation `lbool ^ bool`: a set sign flips `l_True` and `l_False`. -/
def lbool.xor (a : lbool) (b : Bool) : lbool :=
  match a, b with
  | lbool.l_Undef, _ => lbool.l_Undef
  | a, false => a
  | lbool.l_True, true => lbool.l_False
  | lbool.l_False, true => lbool.l_True

/-- Modelled from the spec: a clause is an ordered sequence of literals with the
header fields of section 3 (`Clause` of `SolverTypes.h`). -/
structure Clause where
  lits : List Lit
  learnt : Bool
  lbd : Nat
  canBeDel : Bool
  seen : Bool
  oneWatched : Bool
  mark : Nat
  exported : Nat
  sizeWithoutSelectors : Nat
deriving DecidableEq, Repr

/-- The clause written by `ca.alloc(ps, learnt)`. -/
def Clause.alloc (ps : List Lit) (learnt : Bool) : Clause :=
  { lits := ps, learnt := learnt, lbd := 0, canBeDel := true, seen := false,
    oneWatched := false, mark := 0, exported := 0, sizeWithoutSelectors := 0 }

/-- The size `c.size()`. -/
def Clause.size (c : Clause) : Nat := c.lits.length

/-- Modelled from the spec: a watcher is a clause reference with a blocker literal. -/
structure Watcher where
  cref : Nat
  blocker : Lit
deriving DecidableEq, Repr

/-- The per-variable record `VarData`: reason (`none` is `CRef_Undef`) and level. -/
structure VarData where
  reason : Option Nat
  level : Nat
deriving DecidableEq, Repr

/-- Modelled from the spec: a watch map (`OccLists` of `SolverTypes.h`, section 4.3):
one watcher list per literal and the list of smudged literals. -/
structure OccLists where
  occs : Lit → List Watcher
  dirties : List Lit

/-- The empty watch map. -/
def OccLists.empty : OccLists := { occs := fun _ => [], dirties := [] }

/-- The operation `occs[p].push(w)`. -/
def OccLists.push (o : OccLists) (p : Lit) (w : Watcher) : OccLists :=
  { o with occs := Function.update o.occs p (o.occs p ++ [w]) }

/-- The operation `occs[p] := ws`. -/
def OccLists.set (o : OccLists) (p : Lit) (ws : List Watcher) : OccLists :=
  { o with occs := Function.update o.occs p ws }

/-- The operation `smudge(p)`: mark the list of `p` for the next `cleanAll`. -/
def OccLists.smudge (o : OccLists) (p : Lit) : OccLists :=
  if p ∈ o.dirties then o else { o with dirties := o.dirties ++ [p] }

/-- The operation `cleanAll()`: drop from every smudged list the watchers whose clause
is marked deleted. -/
def OccLists.cleanAll (o : OccLists) (deleted : Watcher → Bool) : OccLists :=
  { occs := fun p => if p ∈ o.dirties then (o.occs p).filter (fun w => !deleted w)
                     else o.occs p,
    dirties := [] }

/-- Removal `remove(ws, w)` of `mtl/Alg.h`: the first watcher with the same clause
reference is taken out (watchers compare by reference); `none` if there is none. -/
def removeWatcher (ws : List Watcher) (cr : Nat) : Option (List Watcher) :=
  if ws.any (fun w => w.cref == cr) then some (ws.eraseP (fun w => w.cref == cr))
  else none

/-! ## Numbers of type `double`, bounded queues, heuristic inputs -/

/-- A finite value of the C++ type `double`, as the exact fraction `num / (den + 1)`:
the real parameters and the averages of the restart policy, the random numbers, and the
finite centrality scores.  Rounding is not modelled. -/
structure Frac where
  num : Int
  den : Nat
deriving DecidableEq, Repr

/-- The fraction of a natural number. -/
def Frac.ofNat (n : Nat) : Frac := ⟨n, 0⟩

/-- The fraction `n / d` of two natural numbers, `d` positive. -/
def Frac.ratio (n d : Nat) : Frac := ⟨n, d - 1⟩

/-- The comparison `a < b`, cross-multiplied. -/
def Frac.lt (a b : Frac) : Bool := decide (a.num * (b.den + 1) < b.num * (a.den + 1))

/-- The product `a * b`. -/
def Frac.mul (a b : Frac) : Frac := ⟨a.num * b.num, (a.den + 1) * (b.den + 1) - 1⟩

/-- A value of the C++ type `double` as `fscanf("%lf")` reads it: a finite number, an
infinity, or NaN ("not a number").  The centrality scores are such values; they are
only stored, copied and compared. -/
inductive Double where
  | num (q : Frac)
  | posInf
  | negInf
  | nan
deriving DecidableEq, Repr

/-- The double of a natural number. -/
def Double.ofNat (n : Nat) : Double := Double.num (Frac.ofNat n)

/-- The comparison `a > b` of two values of type `double` (IEEE 754): it is false as
soon as one of them is NaN. -/
def Double.gt : Double → Double → Bool
  | Double.num x, Double.num y => Frac.lt y x
  | Double.posInf, Double.num _ => true
  | Double.posInf, Double.negInf => true
  | Double.num _, Double.negInf => true
  | _, _ => false

/-- The comparison `a == b` of two values of type `double` (IEEE 754): NaN is equal to
nothing, not even to itself. -/
def Double.eq : Double → Double → Bool
  | Double.num x, Double.num y => !Frac.lt x y && !Frac.lt y x
  | Double.posInf, Double.posInf => true
  | Double.negInf, Double.negInf => true
  | _, _ => false

/-- Modelled from the spec: a fixed-capacity ring buffer of unsigned integers with a
running sum (`bqueue` of `core/BoundedQueues.h`); the oldest element is first. -/
structure bqueue where
  elems : List Nat
  maxsize : Nat
deriving DecidableEq, Repr

/-- The operation `initSize(size)`. -/
def bqueue.initSize (size : Nat) : bqueue := { elems := [], maxsize := size }

/-- The operation `push(x)`: a full queue drops its oldest element. -/
def bqueue.push (q : bqueue) (x : Nat) : bqueue :=
  if q.elems.length = q.maxsize then { q with elems := q.elems.tail ++ [x] }
  else { q with elems := q.elems ++ [x] }

/-- The test `isvalid()`: the queue is full. -/
def bqueue.isvalid (q : bqueue) : Bool := decide (q.elems.length = q.maxsize)

/-- The average `getavg()` of the elements (0 for the empty queue). -/
def bqueue.getavg (q : bqueue) : Frac := Frac.ratio q.elems.sum q.elems.length

/-- The operation `fastclear()`. -/
def bqueue.fastclear (q : bqueue) : bqueue := { q with elems := [] }

/-- Modelled from the spec: the heuristic inputs that are not computed.  At the time
`t` (the counter `tick`), `varAct t v` is the rank of the activity of the variable `v`
and `claAct t cr` the rank of the activity of the clause `cr` (a greater rank is a
greater activity), `drand t` is the number in `[0, 1)` returned by the random
generator, and `gc t` tells whether the wasted part of the clause arena exceeds the
fraction `garbage_frac`. -/
structure Oracle where
  varAct : Nat → Nat → Nat
  claAct : Nat → Nat → Nat
  drand : Nat → Frac
  gc : Nat → Bool

/-! ## The solver state -/

/-- The user-settable parameters and mode flags of `Solver`. -/
structure Options where
  incremental : Bool
  nbVarsInitialFormula : Nat
  useUnaryWatched : Bool
  promoteOneWatchedClause : Bool
  certifiedUNSAT : Bool
  remove_satisfied : Bool
  reduceOnSize : Bool
  reduceOnSizeSize : Nat
  ccmin_mode : Nat
  phase_saving : Nat
  lbSizeMinimizingClause : Nat
  lbLBDMinimizingClause : Nat
  lbLBDFrozenClause : Nat
  specialIncReduceDB : Nat
  incReduceDB : Nat
  K : Frac
  R : Frac
  random_var_freq : Frac
  rnd_pol : Bool

/-- The statistics counters of `Solver`. -/
structure Stats where
  clauses_literals : Nat
  learnts_literals : Nat
  max_literals : Nat
  tot_literals : Nat
  propagations : Nat
  decisions : Nat
  conflicts : Nat
  conflictsRestarts : Nat
  starts : Nat
  solves : Nat
  sumDecisionLevels : Nat
  originalClausesSeen : Nat
  nbPromoted : Nat
  nbRemovedClauses : Nat
  nbReducedClauses : Nat
  nbReduceDB : Nat
  nbDL2 : Nat
  nbBin : Nat
  nbUn : Nat
  rnd_decisions : Nat
  nbstopsrestarts : Nat
  nbstopsrestartssame : Nat
  lastblockatrestart : Nat
  bridge_decisions : Nat
  highcenter_decisions : Nat
  mutualbrgcenter_decisions : Nat
  nbSatCalls : Nat
  nbUnsatCalls : Nat

/-- The members of `Solver` that the functions below read or write.  The field
`bumps` records the activity bumps in order (variable, inflated increment or not),
`tick` counts the heuristic choices taken so far.  The per-variable tables are total
functions; each of them has `nVars` entries in the C++ code (one `push` per `newVar`),
so an index is inside a table if and only if it is below `nVars`. -/
structure Solver where
  ok : Bool
  nVars : Nat
  assigns : Nat → lbool
  vardata : Nat → VarData
  polarity : Nat → Bool
  decision : Nat → Bool
  seen : Nat → Bool
  permDiff : Nat → Nat
  MYFLAG : Nat
  trail : List Lit
  trail_lim : List Nat
  qhead : Nat
  ca : Nat → Clause
  caSize : Nat
  clauses : List Nat
  learnts : List Nat
  unaryWatchedClauses : List Nat
  watches : OccLists
  watchesBin : OccLists
  unaryWatches : OccLists
  order_heap : List Nat
  analyze_toclear : List Lit
  analyze_stack : List Lit
  lastDecisionLevel : List Lit
  assumptions : List Lit
  model : List lbool
  conflict : List Lit
  highcenter : Nat → Bool
  bumps : List (Nat × Bool)
  nbclausesbeforereduce : Nat
  curRestart : Nat
  simpDB_assigns : Int
  simpDB_props : Int
  opts : Options
  stats : Stats
  tick : Nat
  lbdQueue : bqueue
  trailQueue : bqueue
  sumLBD : Nat
  lastLearntClause : Option Nat
  asynch_interrupt : Bool
  conflict_budget : Int
  propagation_budget : Int
  cmtys : Nat → Int
  cmtystruct : Nat → Int
  cmtybridges : Nat → Int
  cmtydec : Nat → Int
  cmtycentrality : Nat → Double
  centrality : Nat → Double
  sortedcentrality : Nat → Double
  sorted_central_vars : Nat → Int
  bridges : Nat → Bool
  numbridges : Nat → Int
  sortednumbridges : Nat → Int
  bridgearrangedliterals : Nat → Int
  literaldecisions : Nat → Int

/-- The default options of the constructor `Solver::Solver()`. -/
def Options.default : Options :=
  { incremental := false, nbVarsInitialFormula := 2147483647,
    useUnaryWatched := false, promoteOneWatchedClause := true,
    certifiedUNSAT := false, remove_satisfied := true,
    reduceOnSize := false, reduceOnSizeSize := 12,
    ccmin_mode := 2, phase_saving := 2,
    lbSizeMinimizingClause := 30, lbLBDMinimizingClause := 6,
    lbLBDFrozenClause := 30, specialIncReduceDB := 1000, incReduceDB := 300,
    K := Frac.ratio 8 10, R := Frac.ratio 14 10, random_var_freq := Frac.ofNat 0,
    rnd_pol := false }

/-- All counters at zero. -/
def Stats.zero : Stats :=
  { clauses_literals := 0, learnts_literals := 0, max_literals := 0,
    tot_literals := 0, propagations := 0, decisions := 0, conflicts := 0,
    conflictsRestarts := 0, starts := 0, solves := 0, sumDecisionLevels := 0,
    originalClausesSeen := 0, nbPromoted := 0, nbRemovedClauses := 0,
    nbReducedClauses := 0, nbReduceDB := 0, nbDL2 := 0, nbBin := 0, nbUn := 0,
    rnd_decisions := 0, nbstopsrestarts := 0, nbstopsrestartssame := 0,
    lastblockatrestart := 0, bridge_decisions := 0, highcenter_decisions := 0,
    mutualbrgcenter_decisions := 0, nbSatCalls := 0, nbUnsatCalls := 0 }

/-- The state built by the constructor `Solver::Solver()` with the default options. -/
def Solver.init : Solver :=
  { ok := true, nVars := 0,
    assigns := fun _ => lbool.l_Undef,
    vardata := fun _ => ⟨none, 0⟩,
    polarity := fun _ => false, decision := fun _ => false,
    seen := fun _ => false, permDiff := fun _ => 0, MYFLAG := 0,
    trail := [], trail_lim := [], qhead := 0,
    ca := fun _ => Clause.alloc [] false, caSize := 0,
    clauses := [], learnts := [], unaryWatchedClauses := [],
    watches := OccLists.empty, watchesBin := OccLists.empty,
    unaryWatches := OccLists.empty,
    order_heap := [], analyze_toclear := [], analyze_stack := [],
    lastDecisionLevel := [], assumptions := [], model := [], conflict := [],
    highcenter := fun _ => false, bumps := [],
    nbclausesbeforereduce := 2000, curRestart := 1,
    simpDB_assigns := -1, simpDB_props := 0,
    opts := Options.default, stats := Stats.zero, tick := 0,
    lbdQueue := bqueue.initSize 50, trailQueue := bqueue.initSize 5000, sumLBD := 0,
    lastLearntClause := none, asynch_interrupt := false,
    conflict_budget := -1, propagation_budget := -1,
    cmtys := fun _ => 0, cmtystruct := fun _ => 0, cmtybridges := fun _ => 0,
    cmtydec := fun _ => 0, cmtycentrality := fun _ => Double.ofNat 0,
    centrality := fun _ => Double.ofNat 0, sortedcentrality := fun _ => Double.ofNat 0,
    sorted_central_vars := fun _ => 0, bridges := fun _ => false,
    numbridges := fun _ => 0, sortednumbridges := fun _ => 0,
    bridgearrangedliterals := fun _ => 0, literaldecisions := fun _ => 0 }

/-! ## Minor methods (inline members of `core/Solver.h`) -/

/-- The value `value(x)` of a variable. -/
def Solver.valueVar (s : Solver) (x : Nat) : lbool := s.assigns x

/-- The value `value(p)` of a literal: `assigns[var(p)] ^ sign(p)`. -/
def Solver.value (s : Solver) (p : Lit) : lbool := (s.assigns p.var).xor p.sign

/-- The level `level(x)`. -/
def Solver.level (s : Solver) (x : Nat) : Nat := (s.vardata x).level

/-- The reason `reason(x)`; `none` is `CRef_Undef`. -/
def Solver.reason (s : Solver) (x : Nat) : Option Nat := (s.vardata x).reason

/-- The current level `decisionLevel()`, the size of `trail_lim`. -/
def Solver.decisionLevel (s : Solver) : Nat := s.trail_lim.length

/-- The operation `newDecisionLevel()`: push the trail size on `trail_lim`. -/
def Solver.newDecisionLevel (s : Solver) : Solver :=
  { s with trail_lim := s.trail_lim ++ [s.trail.length] }

/-- The test `isSelector(v)`: in incremental mode the variables from
`nbVarsInitialFormula` on are selectors. -/
def Solver.isSelector (s : Solver) (v : Nat) : Bool :=
  s.opts.incremental && decide (s.opts.nbVarsInitialFormula ≤ v)

/-- The operation `insertVarOrder(x)`: put `x` in the order heap if it is a decision
variable that is not in it. -/
def Solver.insertVarOrder (s : Solver) (x : Nat) : Solver :=
  if x ∉ s.order_heap ∧ s.decision x = true then
    { s with order_heap := s.order_heap ++ [x] }
  else s

/-- The operation `setDecisionVar(v, b)` (the counter `dec_vars` is left out). -/
def Solver.setDecisionVar (s : Solver) (v : Nat) (b : Bool) : Solver :=
  Solver.insertVarOrder { s with decision := Function.update s.decision v b } v

/-- Replace the literals of the clause `cr`, keeping its header. -/
def Solver.setLits (s : Solver) (cr : Nat) (ls : List Lit) : Solver :=
  { s with ca := Function.update s.ca cr { s.ca cr with lits := ls } }

/-- The operation `watches[l].push(w)`. -/
def Solver.pushWatch (s : Solver) (l : Lit) (w : Watcher) : Solver :=
  { s with watches := s.watches.push l w }

/-- The operation `unaryWatches[l].push(w)`. -/
def Solver.pushUnaryWatch (s : Solver) (l : Lit) (w : Watcher) : Solver :=
  { s with unaryWatches := s.unaryWatches.push l w }

/-- The assignment `qhead = n`. -/
def Solver.setQhead (s : Solver) (n : Nat) : Solver := { s with qhead := n }

/-- Modelled from the spec: the test `locked(c)` of `Solver.h` for the clause stored at
`cr` (its first literal is true and has this clause as reason). -/
def Solver.locked (s : Solver) (cr : Nat) : Bool :=
  match (s.ca cr).lits with
  | [] => false
  | c0 :: _ => decide (s.value c0 = lbool.l_True) && decide (s.reason c0.var = some cr)

/-- The activity bump `varBumpActivity(v, inc)`, recorded as an event: the variable
and whether the inflated increment `var_inc * 1.1` was used. -/
def Solver.varBumpActivity (s : Solver) (v : Nat) (inflated : Bool) : Solver :=
  { s with bumps := s.bumps ++ [(v, inflated)] }

/-! ## Creating variables, attaching clauses -/

/-- The function `Solver::newVar(sign, dvar)`: returns the new variable and state. -/
def newVar (s : Solver) (sign : Bool) (dvar : Bool) : Nat × Solver :=
  let v := s.nVars
  let s1 : Solver :=
    { s with
      nVars := v + 1,
      watches := (s.watches.set (mkLit v false) []).set (mkLit v true) [],
      watchesBin := (s.watchesBin.set (mkLit v false) []).set (mkLit v true) [],
      unaryWatches := (s.unaryWatches.set (mkLit v false) []).set (mkLit v true) [],
      assigns := Function.update s.assigns v lbool.l_Undef,
      vardata := Function.update s.vardata v ⟨none, 0⟩,
      seen := Function.update s.seen v false,
      permDiff := Function.update s.permDiff v 0,
      polarity := Function.update s.polarity v sign,
      highcenter := Function.update s.highcenter v false,
      centrality := Function.update s.centrality v (Double.ofNat 0),
      sortedcentrality := Function.update s.sortedcentrality v (Double.ofNat 0),
      cmtycentrality := Function.update s.cmtycentrality v (Double.ofNat 0),
      sorted_central_vars := Function.update s.sorted_central_vars v 0,
      cmtys := Function.update s.cmtys v 0,
      bridges := Function.update s.bridges v false,
      numbridges := Function.update s.numbridges v 0,
      sortednumbridges := Function.update s.sortednumbridges v 0,
      literaldecisions := Function.update s.literaldecisions v 0,
      cmtystruct := Function.update s.cmtystruct v 0,
      cmtybridges := Function.update s.cmtybridges v 0,
      cmtydec := Function.update s.cmtydec v 0,
      bridgearrangedliterals := Function.update s.bridgearrangedliterals v 0 }
  (v, s1.setDecisionVar v dvar)

/-- The function `Solver::attachClause(cr)`. -/
def attachClause (s : Solver) (cr : Nat) : Option Solver :=
  let c := s.ca cr
  match c.lits with
  | c0 :: c1 :: rest =>
    let s1 : Solver :=
      if rest = [] then
        { s with watchesBin := (s.watchesBin.push c0.neg ⟨cr, c1⟩).push c1.neg ⟨cr, c0⟩ }
      else
        { s with watches := (s.watches.push c0.neg ⟨cr, c1⟩).push c1.neg ⟨cr, c0⟩ }
    some (if c.learnt then
            { s1 with stats := { s1.stats with
                learnts_literals := s1.stats.learnts_literals + c.size } }
          else
            { s1 with stats := { s1.stats with
                clauses_literals := s1.stats.clauses_literals + c.size } })
  | _ => none

/-- The function `Solver::attachClausePurgatory(cr)`. -/
def attachClausePurgatory (s : Solver) (cr : Nat) : Option Solver :=
  match (s.ca cr).lits with
  | c0 :: c1 :: _ => some { s with unaryWatches := s.unaryWatches.push c0.neg ⟨cr, c1⟩ }
  | _ => none

/-- The function `Solver::uncheckedEnqueue(p, from)`. -/
def uncheckedEnqueue (s : Solver) (p : Lit) (cfrom : Option Nat) : Option Solver :=
  if s.value p = lbool.l_Undef then
    some { s with
      assigns := Function.update s.assigns p.var (lbool.ofBool (!p.sign)),
      vardata := Function.update s.vardata p.var ⟨cfrom, s.decisionLevel⟩,
      trail := s.trail ++ [p] }
  else none

/-! ## Unit propagation -/

/-- The scan `for (k = 2; k < c.size(); k++) if (value(c[k]) != l_False)` of the
default mode, over the literals from position 2 on: the offset of the first literal
that is not false. -/
def findNonFalse (s : Solver) : List Lit → Option Nat
  | [] => none
  | l :: ls =>
    if s.value l ≠ lbool.l_False then some 0
    else (findNonFalse s ls).map (fun k => k + 1)

/-- The scan of the incremental mode below the assumption levels: the offset of the
first literal that is true or a non-selector and not false, else of the last literal
that is not false (`choosenPos`). -/
def findWatchSel (s : Solver) : Nat → Option Nat → List Lit → Option Nat
  | _, ch, [] => ch
  | k, ch, l :: ls =>
    if s.value l ≠ lbool.l_False then
      if s.value l = lbool.l_True ∨ s.isSelector l.var = false then some k
      else findWatchSel s (k + 1) (some k) ls
    else findWatchSel s (k + 1) ch ls

/-- The choice of the replacement watch among `c[2..]`, in both modes. -/
def findWatch (s : Solver) (rest : List Lit) : Option Nat :=
  if s.opts.incremental then
    if s.assumptions.length < s.decisionLevel then findNonFalse s rest
    else findWatchSel s 0 none rest
  else findNonFalse s rest

/-- The loop of `propagate` over the binary watchers of `p`: a false blocker returns
its clause at once, an unassigned blocker is enqueued with the clause as reason. -/
def propagateBin : List Watcher → Solver → Option (Option Nat × Solver)
  | [], s => some (none, s)
  | w :: ws, s =>
    if s.value w.blocker = lbool.l_False then some (some w.cref, s)
    else if s.value w.blocker = lbool.l_Undef then
      match uncheckedEnqueue s w.blocker (some w.cref) with
      | none => none
      | some s1 => propagateBin ws s1
    else propagateBin ws s

/-- What the visit of one watcher leaves: the watcher is kept (`*j++ = w`), the
watcher is dropped from the list because the clause found another watch
(`goto NextClause`), or the clause is conflicting. -/
inductive WatchOutcome where
  | keep (w : Watcher) (s : Solver)
  | moved (s : Solver)
  | conflict (cr : Nat) (w : Watcher) (s : Solver)

/-- The state after the visit. -/
def WatchOutcome.state : WatchOutcome → Solver
  | WatchOutcome.keep _ s => s
  | WatchOutcome.moved s => s
  | WatchOutcome.conflict _ _ s => s

/-- The body of the loop of `propagate` over the long watchers of `p`, for the
watcher `w`.  Pushing onto the list under iteration is an abort. -/
def longStep (p : Lit) (w : Watcher) (s : Solver) : Option WatchOutcome :=
  if s.value w.blocker = lbool.l_True then some (WatchOutcome.keep w s)
  else
    let cr := w.cref
    let c := s.ca cr
    if c.oneWatched then none
    else
      match c.lits with
      | c0 :: c1 :: rest =>
        let false_lit := p.neg
        let first := if c0 = false_lit then c1 else c0
        let second := if c0 = false_lit then false_lit else c1
        if second ≠ false_lit then none
        else
          let s1 := s.setLits cr (first :: second :: rest)
          let w1 : Watcher := ⟨cr, first⟩
          if first ≠ w.blocker ∧ s1.value first = lbool.l_True then
            some (WatchOutcome.keep w1 s1)
          else
            match findWatch s1 rest with
            | some k =>
              match rest.get? k with
              | none => none
              | some x =>
                if x.neg = p then none
                else
                  let s2 := s1.setLits cr (first :: x :: rest.set k false_lit)
                  some (WatchOutcome.moved (s2.pushWatch x.neg w1))
            | none =>
              if s1.value first = lbool.l_False then
                some (WatchOutcome.conflict cr w1 (s1.setQhead s1.trail.length))
              else
                match uncheckedEnqueue s1 first (some cr) with
                | none => none
                | some s2 => some (WatchOutcome.keep w1 s2)
      | _ => none

/-- The loop of `propagate` over the long watchers of `p`.  Arguments: the watchers
not yet visited (`i .. end`), the watchers kept so far (`ws .. j`), the current
`confl`.  Returns `confl`, the compacted list and the state; on a conflict the
watchers not yet visited are copied. -/
def propagateLong (p : Lit) :
    List Watcher → List Watcher → Option Nat → Solver →
      Option (Option Nat × List Watcher × Solver)
  | [], kept, confl, s => some (confl, kept, s)
  | w :: ws, kept, confl, s =>
    match longStep p w s with
    | none => none
    | some (WatchOutcome.keep w1 s1) => propagateLong p ws (kept ++ [w1]) confl s1
    | some (WatchOutcome.moved s1) => propagateLong p ws kept confl s1
    | some (WatchOutcome.conflict cr w1 s1) => some (some cr, (kept ++ [w1]) ++ ws, s1)

/-- The index of a literal of greatest level among `c[1..]`, as found by the scan
`if (level(var(c[k])) > maxlevel)` of the promotion step. -/
def maxLevelIndex (s : Solver) : List Lit → Nat → Option (Nat × Nat) → Option (Nat × Nat)
  | [], _, best => best
  | l :: ls, k, best =>
    match best with
    | none => maxLevelIndex s ls (k + 1) (some (k, s.level l.var))
    | some (i, m) =>
      if m < s.level l.var then maxLevelIndex s ls (k + 1) (some (k, s.level l.var))
      else maxLevelIndex s ls (k + 1) (some (i, m))

/-- The promotion of a conflicting one-watched clause `c0 :: rest` stored at `cr`:
a literal of greatest level among `c[1..]` is swapped to position 1 and the clause is
attached as a two-watched clause (the removal of its unary watcher is done by the
caller, on the list under iteration). -/
def promoteClause (s : Solver) (cr : Nat) (c0 : Lit) (rest : List Lit) : Option Solver :=
  if rest.any (fun l => decide (s.level c0.var < s.level l.var)) then none
  else
    match maxLevelIndex s rest 1 none with
    | none => none
    | some (index, _) =>
      match rest with
      | [] => none
      | r1 :: _ =>
        match rest.get? (index - 1) with
        | none => none
        | some li =>
          let s2 : Solver :=
            { s with stats := { s.stats with nbPromoted := s.stats.nbPromoted + 1 } }
          let s3 := s2.setLits cr (c0 :: (rest.set (index - 1) r1).set 0 li)
          match attachClause s3 cr with
          | none => none
          | some s4 =>
            let c4 : Clause := { s4.ca cr with oneWatched := false, exported := 2 }
            some { s4 with ca := Function.update s4.ca cr c4 }

/-- The body of the loop of `propagateUnaryWatches(p)` for the watcher `w`. -/
def unaryStep (p : Lit) (w : Watcher) (s : Solver) : Option WatchOutcome :=
  if s.value w.blocker = lbool.l_True then some (WatchOutcome.keep w s)
  else
    let cr := w.cref
    let c := s.ca cr
    if c.oneWatched = false then none
    else
      match c.lits with
      | c0 :: rest =>
        let false_lit := p.neg
        if c0 ≠ false_lit then none
        else
          let w1 : Watcher := ⟨cr, c0⟩
          match findNonFalse s rest with
          | some k =>
            match rest.get? k with
            | none => none
            | some x =>
              if x.neg = p then none
              else
                let s2 := s.setLits cr (x :: rest.set k false_lit)
                some (WatchOutcome.moved (s2.pushUnaryWatch x.neg w1))
          | none =>
            let s1 := s.setQhead s.trail.length
            if s.opts.promoteOneWatchedClause then
              match promoteClause s1 cr c0 rest with
              | none => none
              | some s2 => some (WatchOutcome.conflict cr w1 s2)
            else some (WatchOutcome.conflict cr w1 s1)
      | [] => none

/-- The function `Solver::propagateUnaryWatches(p)`, over the unary watchers of `p`;
same arguments as `propagateLong`.  On a conflict with promotion the unary watcher of
the clause is removed from the list (`detachClausePurgatory(cr, true)`). -/
def propagateUnaryLoop (p : Lit) :
    List Watcher → List Watcher → Option Nat → Solver →
      Option (Option Nat × List Watcher × Solver)
  | [], kept, confl, s => some (confl, kept, s)
  | w :: ws, kept, confl, s =>
    match unaryStep p w s with
    | none => none
    | some (WatchOutcome.keep w1 s1) => propagateUnaryLoop p ws (kept ++ [w1]) confl s1
    | some (WatchOutcome.moved s1) => propagateUnaryLoop p ws kept confl s1
    | some (WatchOutcome.conflict cr w1 s1) =>
      if s.opts.promoteOneWatchedClause then
        match removeWatcher ((kept ++ [w1]) ++ ws) cr with
        | none => none
        | some all1 => some (some cr, all1, s1)
      else some (some cr, (kept ++ [w1]) ++ ws, s1)

/-- The body of `Solver::propagateUnaryWatches(p)`: run the loop on `unaryWatches[p]`
and store the compacted list. -/
def propagateUnaryWatches (s : Solver) (p : Lit) : Option (Option Nat × Solver) :=
  match propagateUnaryLoop p (s.unaryWatches.occs p) [] none s with
  | none => none
  | some (confl, kept, s1) =>
    some (confl, { s1 with unaryWatches := s1.unaryWatches.set p kept })

/-- The test `WatcherDeleted(ca)`: the clause of the watcher is marked deleted. -/
def Solver.watcherDeleted (s : Solver) (w : Watcher) : Bool :=
  decide ((s.ca w.cref).mark = 1)

/-- The three calls `watches.cleanAll(); watchesBin.cleanAll(); unaryWatches.cleanAll()`
at the start of `propagate`. -/
def Solver.cleanAllWatches (s : Solver) : Solver :=
  { s with watches := s.watches.cleanAll s.watcherDeleted,
           watchesBin := s.watchesBin.cleanAll s.watcherDeleted,
           unaryWatches := s.unaryWatches.cleanAll s.watcherDeleted }

/-- The `while (qhead < trail.size())` loop of `propagate`, with its local variables
`confl` and `num_props`; the first argument bounds the number of iterations. -/
def propagateLoop : Nat → Option Nat → Nat → Solver → Option (Option Nat × Solver)
  | 0, _, _, _ => none
  | fuel + 1, confl, num_props, s =>
    if s.qhead < s.trail.length then
      match s.trail.get? s.qhead with
      | none => none
      | some p =>
        let s0 : Solver := { s with qhead := s.qhead + 1 }
        match propagateBin (s0.watchesBin.occs p) s0 with
        | none => none
        | some (some cr, s1) => some (some cr, s1)
        | some (none, s1) =>
          match propagateLong p (s1.watches.occs p) [] confl s1 with
          | none => none
          | some (confl1, kept, s2) =>
            let s3 : Solver := { s2 with watches := s2.watches.set p kept }
            if s3.opts.useUnaryWatched = true ∧ confl1 = none then
              match propagateUnaryWatches s3 p with
              | none => none
              | some (confl2, s4) => propagateLoop fuel confl2 (num_props + 1) s4
            else propagateLoop fuel confl1 (num_props + 1) s3
    else
      some (confl,
        { s with stats := { s.stats with propagations := s.stats.propagations + num_props },
                 simpDB_props := s.simpDB_props - num_props })

/-- The function `Solver::propagate()`: the conflicting clause (`none` is
`CRef_Undef`) and the new state.  Each iteration takes one literal off the queue and
only unassigned variables are enqueued, so `nVars + trail.size() + 1` iterations are
enough whenever all variables are below `nVars`. -/
def propagate (s : Solver) : Option (Option Nat × Solver) :=
  propagateLoop (s.nVars + s.trail.length + 1) none 0 s.cleanAllWatches

/-! ## Adding clauses -/

/-- The order `sort(ps)` puts on literals: by integer code. -/
def sortLits (ps : List Lit) : List Lit :=
  ps.insertionSort (fun a b => a.toInt ≤ b.toInt)

/-- The simplification loop of `addClause_` over the sorted literals, with the last
kept literal `p` (`none` is `lit_Undef`) and the kept literals: `none` when the clause
is satisfied or a tautology (`return true`), else the kept literals. -/
def addClauseLoop (s : Solver) : List Lit → Option Lit → List Lit → Option (List Lit)
  | [], _, out => some out
  | l :: ls, p, out =>
    if s.value l = lbool.l_True ∨ some l = p.map Lit.neg then none
    else if s.value l ≠ lbool.l_False ∧ some l ≠ p then
      addClauseLoop s ls (some l) (out ++ [l])
    else addClauseLoop s ls p out

/-- The function `Solver::addClause_(ps)`: the returned flag and the new state (the
lines written to the certificate file are left out). -/
def addClause_ (s : Solver) (ps : List Lit) : Option (Bool × Solver) :=
  if s.decisionLevel ≠ 0 then none
  else if s.ok = false then some (false, s)
  else
    match addClauseLoop s (sortLits ps) none [] with
    | none => some (true, s)
    | some [] => some (false, { s with ok := false })
    | some [l] =>
      match uncheckedEnqueue s l none with
      | none => none
      | some s1 =>
        match propagate s1 with
        | none => none
        | some (confl, s2) =>
          some (decide (confl = none), { s2 with ok := decide (confl = none) })
    | some out =>
      let cr := s.caSize
      let s1 : Solver :=
        { s with ca := Function.update s.ca cr (Clause.alloc out false),
                 caSize := s.caSize + 1,
                 clauses := s.clauses ++ [cr] }
      match attachClause s1 cr with
      | none => none
      | some s2 => some (true, s2)

/-! ## Backtracking -/

/-- The loop of `cancelUntil` from the end of the trail down to `trail_lim[level]`,
over the removed literals in reverse trail order with their indices. -/
def cancelLoop (lastLim : Nat) : List (Nat × Lit) → Solver → Solver
  | [], s => s
  | (c, l) :: rest, s =>
    let x := l.var
    let s1 : Solver := { s with assigns := Function.update s.assigns x lbool.l_Undef }
    let s2 : Solver :=
      if 1 < s.opts.phase_saving ∨ (s.opts.phase_saving = 1 ∧ lastLim < c) then
        { s1 with polarity := Function.update s1.polarity x l.sign }
      else s1
    cancelLoop lastLim rest (s2.insertVarOrder x)

/-- The function `Solver::cancelUntil(level)`. -/
def cancelUntil (s : Solver) (level : Nat) : Solver :=
  if level < s.decisionLevel then
    let lim := s.trail_lim.getD level 0
    let removed := ((s.trail.enum).drop lim).reverse
    let s1 := cancelLoop (s.trail_lim.getLastD 0) removed s
    { s1 with qhead := lim,
              trail := s1.trail.take lim,
              trail_lim := s1.trail_lim.take level }
  else s

end Glucose


namespace Glucose

/-! ## LBD computation -/

/-- The stamping loop of `computeLBD` in the default mode: every level not yet stamped
with `flag` is stamped and counted.  Arguments: the literals still to visit, `permDiff`,
`nblevels`. -/
def lbdLoop (s : Solver) (flag : Nat) : List Lit → (Nat → Nat) → Nat → (Nat → Nat) × Nat
  | [], pd, n => (pd, n)
  | l :: ls, pd, n =>
    if pd (s.level l.var) ≠ flag then
      lbdLoop s flag ls (Function.update pd (s.level l.var) flag) (n + 1)
    else lbdLoop s flag ls pd n

/-- The stamping loop of `computeLBD` in the incremental mode: selectors are skipped and
the loop stops after `bound` counted literals.  Arguments: the literals still to visit,
`nbDone`, `permDiff`, `nblevels`. -/
def lbdLoopInc (s : Solver) (flag : Nat) (bound : Int) :
    List Lit → Nat → (Nat → Nat) → Nat → (Nat → Nat) × Nat
  | [], _, pd, n => (pd, n)
  | l :: ls, nbDone, pd, n =>
    if bound ≤ (nbDone : Int) then (pd, n)
    else if s.isSelector l.var then lbdLoopInc s flag bound ls nbDone pd n
    else if pd (s.level l.var) ≠ flag then
      lbdLoopInc s flag bound ls (nbDone + 1) (Function.update pd (s.level l.var) flag) (n + 1)
    else lbdLoopInc s flag bound ls (nbDone + 1) pd n

/-- The common body of the two overloads of `computeLBD`, with the bound on the counted
literals of the incremental mode: `MYFLAG` is incremented, the levels are stamped in
`permDiff` and counted; the result depends on `reduceOnSize`. -/
def computeLBDCore (s : Solver) (lits : List Lit) (bound : Int) : Nat × Solver :=
  let r :=
    if s.opts.incremental then lbdLoopInc s (s.MYFLAG + 1) bound lits 0 s.permDiff 0
    else lbdLoop s (s.MYFLAG + 1) lits s.permDiff 0
  (if s.opts.reduceOnSize = false then r.2
   else if lits.length < s.opts.reduceOnSizeSize then lits.length
   else lits.length + r.2,
   { s with MYFLAG := s.MYFLAG + 1, permDiff := r.1 })

/-- The function `Solver::computeLBD(lits, end)`; `end = -1` stands for `lits.size()`. -/
def computeLBD (s : Solver) (lits : List Lit) (endIdx : Int) : Nat × Solver :=
  computeLBDCore s lits (if endIdx = -1 then (lits.length : Int) else endIdx)

/-- The function `Solver::computeLBD(c)` for a clause. -/
def computeLBDClause (s : Solver) (c : Clause) : Nat × Solver :=
  computeLBDCore s c.lits (c.sizeWithoutSelectors : Int)

/-! ## Minimisation with binary resolution -/

/-- The loop `permDiff[var(out_learnt[i])] = MYFLAG` over the literals after the
first. -/
def markLits (flag : Nat) : List Lit → (Nat → Nat) → (Nat → Nat)
  | [], pd => pd
  | l :: ls, pd => markLits flag ls (Function.update pd l.var flag)

/-- The loop over the binary watchers of `p`: a blocker that is stamped and true is
counted and its stamp is set to `MYFLAG - 1`.  Arguments: the watchers still to visit,
`permDiff`, `nb`. -/
def countBinImplied (s : Solver) (flag : Nat) :
    List Watcher → (Nat → Nat) → Nat → (Nat → Nat) × Nat
  | [], pd, nb => (pd, nb)
  | w :: ws, pd, nb =>
    if pd w.blocker.var = flag ∧ s.value w.blocker = lbool.l_True then
      countBinImplied s flag ws (Function.update pd w.blocker.var (flag - 1)) (nb + 1)
    else countBinImplied s flag ws pd nb

/-- The loop that moves the literals whose stamp is not `MYFLAG` to the tail of
`out_learnt`: `bound` is `out_learnt.size() - nb`; a swap leaves `i` in place
(`i--` followed by `i++`) and decrements `l`.  The first argument bounds the number of
iterations; an index outside the vector is an abort. -/
def binSwapLoop (pd : Nat → Nat) (flag : Nat) (bound : Int) :
    Nat → Nat → Int → List Lit → Option (List Lit)
  | 0, _, _, _ => none
  | fuel + 1, i, l, out =>
    if (i : Int) < bound then
      match out.get? i with
      | none => none
      | some oi =>
        if pd oi.var ≠ flag then
          if l < 0 then none
          else
            match out.get? l.toNat with
            | none => none
            | some ol => binSwapLoop pd flag bound fuel i (l - 1) ((out.set l.toNat oi).set i ol)
        else binSwapLoop pd flag bound fuel (i + 1) l out
    else some out

/-- The function `Solver::minimisationWithBinaryResolution(out_learnt)`: the new
`out_learnt` and state.  The swap loop does at most one step per position and per
swapped literal, hence `2 * size + 1` iterations are enough. -/
def minimisationWithBinaryResolution (s : Solver) (out_learnt : List Lit) :
    Option (List Lit × Solver) :=
  let r := computeLBD s out_learnt (-1)
  let s1 := r.2
  match out_learnt with
  | [] => none
  | o0 :: rest =>
    if r.1 ≤ s1.opts.lbLBDMinimizingClause then
      let flag := s1.MYFLAG + 1
      let c := countBinImplied s1 flag (s1.watchesBin.occs o0.neg)
        (markLits flag rest s1.permDiff) 0
      let s2 : Solver := { s1 with MYFLAG := flag, permDiff := c.1 }
      if 0 < c.2 then
        let s3 : Solver :=
          { s2 with stats := { s2.stats with
              nbReducedClauses := s2.stats.nbReducedClauses + 1 } }
        match binSwapLoop c.1 flag ((out_learnt.length : Int) - (c.2 : Int))
            (2 * out_learnt.length + 1) 1 ((out_learnt.length : Int) - 1) out_learnt with
        | none => none
        | some out2 =>
          if c.2 ≤ out2.length then some (out2.take (out2.length - c.2), s3) else none
      else some (out_learnt, s2)
    else some (out_learnt, s1)

/-! ## Conflict analysis -/

/-- The special case for binary clauses of `analyze` and `litRedundant`: the true
literal of a binary clause is put first
(`if (c.size() == 2 && value(c[0]) == l_False) { assert(value(c[1]) == l_True); swap }`). -/
def swapBinary (s : Solver) (cr : Nat) : Option Solver :=
  match (s.ca cr).lits with
  | [c0, c1] =>
    if s.value c0 = lbool.l_False then
      if s.value c1 = lbool.l_True then some (s.setLits cr [c1, c0]) else none
    else some s
  | _ => some s

/-- The head of the loop body of `analyze` for the clause `confl`, before the loop over
its literals: the binary special case (not for the conflicting clause itself, where
`p` is `lit_Undef`), the `seen` mark of an original clause, and the update of the LBD of
a learnt clause.  Clause activities (`claBumpActivity`) are heuristic values that are
not part of the state. -/
def analyzeClause (s : Solver) (cr : Nat) (p : Option Lit) : Option Solver :=
  match (if p.isSome then swapBinary s cr else some s) with
  | none => none
  | some s1 =>
    let c := s1.ca cr
    let s2 : Solver :=
      if c.learnt then s1
      else if c.seen = false then
        { s1 with
          stats := { s1.stats with originalClausesSeen := s1.stats.originalClausesSeen + 1 },
          ca := Function.update s1.ca cr { c with seen := true } }
      else s1
    let c2 := s2.ca cr
    if c2.learnt = true ∧ 2 < c2.lbd then
      let r := computeLBDClause s2 c2
      let s3 := r.2
      if r.1 + 1 < c2.lbd then
        let c3 : Clause :=
          if c2.lbd ≤ s3.opts.lbLBDFrozenClause then { c2 with canBeDel := false } else c2
        let c4 : Clause := { c3 with lbd := r.1 }
        some { s3 with ca := Function.update s3.ca cr c4 }
      else some s3
    else some s2

/-- The body of the loop of `analyze` over the literals of a clause, for the literal
`q`.  Arguments and result: the state, `pathC`, the literals pushed on `out_learnt`
after its first position, `selectors`. -/
def analyzeLit (s : Solver) (q : Lit) (pathC : Int) (out sel : List Lit) :
    Option (Solver × Int × List Lit × List Lit) :=
  if s.seen q.var = false then
    if s.level q.var = 0 then some (s, pathC, out, sel)
    else
      let s1 : Solver :=
        if s.isSelector q.var = false then
          if s.highcenter q.var = true ∧ s.stats.decisions < 100000 then
            s.varBumpActivity q.var true
          else s.varBumpActivity q.var false
        else s
      let s2 : Solver := { s1 with seen := Function.update s1.seen q.var true }
      if s.decisionLevel ≤ s.level q.var then
        let learntReason : Bool :=
          match s.reason q.var with
          | none => false
          | some r => (s.ca r).learnt
        if s.isSelector q.var = false ∧ learntReason = true then
          some ({ s2 with lastDecisionLevel := s2.lastDecisionLevel ++ [q] },
            pathC + 1, out, sel)
        else some (s2, pathC + 1, out, sel)
      else if s.isSelector q.var = true then
        if s.value q = lbool.l_False then some (s2, pathC, out, sel ++ [q]) else none
      else some (s2, pathC, out ++ [q], sel)
  else some (s, pathC, out, sel)

/-- The loop `for (j = ...; j < c.size(); j++)` of `analyze` over the literals. -/
def analyzeLits : List Lit → Solver → Int → List Lit → List Lit →
    Option (Solver × Int × List Lit × List Lit)
  | [], s, pathC, out, sel => some (s, pathC, out, sel)
  | q :: qs, s, pathC, out, sel =>
    match analyzeLit s q pathC out sel with
    | none => none
    | some (s1, pathC1, out1, sel1) => analyzeLits qs s1 pathC1 out1 sel1

/-- The `do ... while (pathC > 0)` loop of `analyze` after its first pass, as a walk
down the trail: the first argument is `index + 1`.  A trail literal that is not seen is
skipped (`while (!seen[var(trail[index--])])`); a seen one is the next `p`: its mark is
cleared and `pathC` decremented; when `pathC > 0` the reason of `p` is resolved upon
(binary special case, marks, loop over its literals from position 1) and the walk goes
on.  Walking below the trail is an abort.  Returns the state, the last `p`, the literals
pushed on `out_learnt`, and `selectors`. -/
def analyzeWalk : Nat → Solver → Int → List Lit → List Lit →
    Option (Solver × Lit × List Lit × List Lit)
  | 0, _, _, _, _ => none
  | k + 1, s, pathC, out, sel =>
    match s.trail.get? k with
    | none => none
    | some p =>
      if s.seen p.var = true then
        let s1 : Solver := { s with seen := Function.update s.seen p.var false }
        if 0 < pathC - 1 then
          match s1.reason p.var with
          | none => none
          | some cr =>
            match analyzeClause s1 cr (some p) with
            | none => none
            | some s2 =>
              match analyzeLits ((s2.ca cr).lits.drop 1) s2 (pathC - 1) out sel with
              | none => none
              | some (s3, pathC3, out3, sel3) => analyzeWalk k s3 pathC3 out3 sel3
        else some (s1, p, out, sel)
      else analyzeWalk k s pathC out sel

/-- The first part of `analyze`: the resolution loop, entered with the conflicting
clause and `p = lit_Undef`; `out_learnt` and `selectors` are empty at entry.  Returns
the state, the last `p`, the literals of `out_learnt` after its first position, and
`selectors`. -/
def analyzeResolve (s : Solver) (confl : Nat) : Option (Solver × Lit × List Lit × List Lit) :=
  match analyzeClause s confl none with
  | none => none
  | some s1 =>
    match analyzeLits (s1.ca confl).lits s1 0 [] [] with
    | none => none
    | some (s2, pathC, out, sel) => analyzeWalk s2.trail.length s2 pathC out sel

/-- The loop over the literals `c[1..]` of `litRedundant`: an unseen literal above
level 0 with a reason and a level in `abstract_levels` is marked and pushed on
`analyze_stack` and `analyze_toclear`; the flag is `false` when a literal fails this
test, with the state at that point. -/
def redundantLits (abs : List Nat) : List Lit → Solver → Bool × Solver
  | [], s => (true, s)
  | p :: ps, s =>
    if s.seen p.var = false ∧ 0 < s.level p.var then
      if s.reason p.var ≠ none ∧ (s.level p.var % 32) ∈ abs then
        redundantLits abs ps
          { s with seen := Function.update s.seen p.var true,
                   analyze_stack := s.analyze_stack ++ [p],
                   analyze_toclear := s.analyze_toclear ++ [p] }
      else (false, s)
    else redundantLits abs ps s

/-- The loop `seen[var(l)] = 0` over a list of literals. -/
def clearSeen : List Lit → (Nat → Bool) → (Nat → Bool)
  | [], seen => seen
  | l :: ls, seen => clearSeen ls (Function.update seen l.var false)

/-- The `while (analyze_stack.size() > 0)` loop of `litRedundant`; the first argument
bounds the number of iterations, `top` is the size of `analyze_toclear` at entry. -/
def litRedundantLoop (abs : List Nat) (top : Nat) : Nat → Solver → Option (Bool × Solver)
  | 0, _ => none
  | fuel + 1, s =>
    match s.analyze_stack.getLast? with
    | none => some (true, s)
    | some q =>
      match s.reason q.var with
      | none => none
      | some cr =>
        let s1 : Solver := { s with analyze_stack := s.analyze_stack.dropLast }
        match swapBinary s1 cr with
        | none => none
        | some s2 =>
          match redundantLits abs ((s2.ca cr).lits.drop 1) s2 with
          | (true, s3) => litRedundantLoop abs top fuel s3
          | (false, s3) =>
            some (false,
              { s3 with seen := clearSeen (s3.analyze_toclear.drop top) s3.seen,
                        analyze_toclear := s3.analyze_toclear.take top })

/-- Modelled from the spec: the level fingerprint `abstractLevel(x)` (a bit of a 32-bit
word chosen by the level, section 4.5) is the level modulo 32, and `abstract_levels` is
the list of the fingerprints present. -/
def abstractLevels (s : Solver) (lits : List Lit) : List Nat :=
  lits.map (fun l => s.level l.var % 32)

/-- The function `Solver::litRedundant(p, abstract_levels)`.  Every iteration pops a
literal, and every pushed literal is a newly marked assigned variable, so
`trail.size() + 2` iterations are enough when the literals of reasons are assigned. -/
def litRedundant (s : Solver) (p : Lit) (abs : List Nat) : Option (Bool × Solver) :=
  litRedundantLoop abs s.analyze_toclear.length (s.trail.length + 2)
    { s with analyze_stack := [p] }

/-- The minimisation loop of `ccmin_mode == 2` over `out_learnt[1..]`: a literal is
kept when it has no reason or is not redundant.  Arguments: the literals still to
visit, the literals kept. -/
def minimizeDeep (abs : List Nat) : List Lit → List Lit → Solver → Option (List Lit × Solver)
  | [], kept, s => some (kept, s)
  | l :: ls, kept, s =>
    if s.reason l.var = none then minimizeDeep abs ls (kept ++ [l]) s
    else
      match litRedundant s l abs with
      | none => none
      | some (true, s1) => minimizeDeep abs ls kept s1
      | some (false, s1) => minimizeDeep abs ls (kept ++ [l]) s1

/-- The test of `ccmin_mode == 1` for a literal with the reason clause `c`: some literal
of the clause (from position 0 for a binary clause, from position 1 otherwise) is
neither seen nor at level 0. -/
def keepBasic (s : Solver) (c : Clause) : Bool :=
  (c.lits.drop (if c.size = 2 then 0 else 1)).any
    (fun q => !s.seen q.var && decide (0 < s.level q.var))

/-- The minimisation loop of `ccmin_mode == 1` over `out_learnt[1..]`. -/
def minimizeBasic (s : Solver) (lits : List Lit) : List Lit :=
  lits.filter (fun l =>
    match s.reason l.var with
    | none => true
    | some r => keepBasic s (s.ca r))

/-- The second part of `analyze`: `out_learnt[0] = ~p`, the selectors are appended,
`analyze_toclear` is set, the clause is minimised according to `ccmin_mode` and, in the
default mode for a small clause, by binary resolution. -/
def analyzeMinimize (s : Solver) (p : Lit) (out sel : List Lit) :
    Option (List Lit × Solver) :=
  let out_learnt := p.neg :: (out ++ sel)
  let s1 : Solver := { s with analyze_toclear := out_learnt }
  let r : Option (List Lit × Solver) :=
    if s1.opts.ccmin_mode = 2 then
      minimizeDeep (abstractLevels s1 (out ++ sel)) (out ++ sel) [] s1
    else if s1.opts.ccmin_mode = 1 then some (minimizeBasic s1 (out ++ sel), s1)
    else some (out ++ sel, s1)
  match r with
  | none => none
  | some (kept, s2) =>
    let s3 : Solver :=
      { s2 with stats := { s2.stats with
          max_literals := s2.stats.max_literals + out_learnt.length,
          tot_literals := s2.stats.tot_literals + (kept.length + 1) } }
    if s3.opts.incremental = false ∧ kept.length + 1 ≤ s3.opts.lbSizeMinimizingClause then
      minimisationWithBinaryResolution s3 (p.neg :: kept)
    else some (p.neg :: kept, s3)

/-- The count `szWithoutSelectors` of the incremental mode: the literals that are not
selectors, up to the first selector after position 0. -/
def countNoSelectors (s : Solver) : List Lit → Nat → Nat → Nat
  | [], _, acc => acc
  | l :: ls, i, acc =>
    if s.isSelector l.var = false then countNoSelectors s ls (i + 1) (acc + 1)
    else if 0 < i then acc
    else countNoSelectors s ls (i + 1) acc

/-- The loop over `lastDecisionLevel`: a variable whose reason has a smaller LBD than
the learnt clause is bumped. -/
def bumpLastDecisionLevel (lbd : Nat) : List Lit → Solver → Option Solver
  | [], s => some s
  | q :: qs, s =>
    match s.reason q.var with
    | none => none
    | some r =>
      if (s.ca r).lbd < lbd then bumpLastDecisionLevel lbd qs (s.varBumpActivity q.var false)
      else bumpLastDecisionLevel lbd qs s

/-- What `analyze` gives back: the learnt clause, the selectors, the backtrack level,
the LBD, the size without selectors, and the state. -/
structure AnalyzeResult where
  out_learnt : List Lit
  selectors : List Lit
  out_btlevel : Nat
  lbd : Nat
  szWithoutSelectors : Nat
  state : Solver

/-- The last part of `analyze`: the backtrack level with the swap of a literal of
greatest level to position 1, the size without selectors, the LBD, the bumps of the
variables of `lastDecisionLevel`, and the clearing of `seen`. -/
def analyzeFinish (s : Solver) (out_learnt sel : List Lit) : Option AnalyzeResult :=
  let bt : Option (List Lit × Nat) :=
    match out_learnt with
    | [] => none
    | [o0] => some ([o0], 0)
    | _ :: o1 :: rest =>
      match maxLevelIndex s (o1 :: rest) 1 none with
      | none => none
      | some (max_i, _) =>
        match out_learnt.get? max_i with
        | none => none
        | some pm => some ((out_learnt.set max_i o1).set 1 pm, s.level pm.var)
  match bt with
  | none => none
  | some (out2, btlevel) =>
    let sz : Nat :=
      if s.opts.incremental then countNoSelectors s out2 0 0 else out2.length
    let r := computeLBD s out2 ((out2.length : Int) - (sel.length : Int))
    let s1 := r.2
    match bumpLastDecisionLevel r.1 s1.lastDecisionLevel s1 with
    | none => none
    | some s2 =>
      let s3 : Solver := { s2 with lastDecisionLevel := [] }
      some { out_learnt := out2, selectors := sel, out_btlevel := btlevel, lbd := r.1,
             szWithoutSelectors := sz,
             state := { s3 with seen := clearSeen sel (clearSeen s3.analyze_toclear s3.seen) } }

/-- The function `Solver::analyze(confl, out_learnt, selectors, out_btlevel, lbd,
szWithoutSelectors)`, called with `out_learnt` and `selectors` empty. -/
def analyze (s : Solver) (confl : Nat) : Option AnalyzeResult :=
  match analyzeResolve s confl with
  | none => none
  | some (s1, p, out, sel) =>
    match analyzeMinimize s1 p out sel with
    | none => none
    | some (out_learnt, s2) => analyzeFinish s2 out_learnt sel

end Glucose


namespace Glucose

/-! ## Detaching and removing clauses -/

/-- The function `Solver::detachClause(cr, strict)`: strict detaching removes the two
watchers, lazy detaching smudges the two lists (the counters of literals are unsigned;
the subtraction is the one of natural numbers). -/
def detachClause (s : Solver) (cr : Nat) (strict : Bool) : Option Solver :=
  let c := s.ca cr
  match c.lits with
  | c0 :: c1 :: rest =>
    let s1 : Option Solver :=
      if rest = [] then
        if strict then
          match removeWatcher (s.watchesBin.occs c0.neg) cr with
          | none => none
          | some ws0 =>
            let wb := s.watchesBin.set c0.neg ws0
            match removeWatcher (wb.occs c1.neg) cr with
            | none => none
            | some ws1 => some { s with watchesBin := wb.set c1.neg ws1 }
        else some { s with watchesBin := (s.watchesBin.smudge c0.neg).smudge c1.neg }
      else
        if strict then
          match removeWatcher (s.watches.occs c0.neg) cr with
          | none => none
          | some ws0 =>
            let wl := s.watches.set c0.neg ws0
            match removeWatcher (wl.occs c1.neg) cr with
            | none => none
            | some ws1 => some { s with watches := wl.set c1.neg ws1 }
        else some { s with watches := (s.watches.smudge c0.neg).smudge c1.neg }
    match s1 with
    | none => none
    | some s2 =>
      some (if c.learnt then
              { s2 with stats := { s2.stats with
                  learnts_literals := s2.stats.learnts_literals - c.size } }
            else
              { s2 with stats := { s2.stats with
                  clauses_literals := s2.stats.clauses_literals - c.size } })
  | _ => none

/-- The function `Solver::detachClausePurgatory(cr, strict)`. -/
def detachClausePurgatory (s : Solver) (cr : Nat) (strict : Bool) : Option Solver :=
  match (s.ca cr).lits with
  | c0 :: _ :: _ =>
    if strict then
      match removeWatcher (s.unaryWatches.occs c0.neg) cr with
      | none => none
      | some ws0 => some { s with unaryWatches := s.unaryWatches.set c0.neg ws0 }
    else some { s with unaryWatches := s.unaryWatches.smudge c0.neg }
  | _ => none

/-- The function `Solver::removeClause(cr, inPurgatory)`: the clause is detached
lazily, the reason of its first literal is reset if the clause is locked, the clause is
marked deleted and freed (the lines written to the certificate file are left out; the
arena keeps the freed clause until the next relocation). -/
def removeClause (s : Solver) (cr : Nat) (inPurgatory : Bool) : Option Solver :=
  match (if inPurgatory then detachClausePurgatory s cr false
         else detachClause s cr false) with
  | none => none
  | some s1 =>
    let s2 : Solver :=
      if s1.locked cr then
        match (s1.ca cr).lits with
        | c0 :: _ =>
          { s1 with vardata :=
              Function.update s1.vardata c0.var { s1.vardata c0.var with reason := none } }
        | [] => s1
      else s1
    some { s2 with ca := Function.update s2.ca cr { s2.ca cr with mark := 1 } }

/-- The test `Solver::satisfied(c)` for the clause stored at `cr`: in incremental mode
only the first two literals are read. -/
def satisfied (s : Solver) (cr : Nat) : Option Bool :=
  let c := s.ca cr
  if s.opts.incremental then
    match c.lits with
    | c0 :: c1 :: _ =>
      some (decide (s.value c0 = lbool.l_True) || decide (s.value c1 = lbool.l_True))
    | _ => none
  else some (c.lits.any (fun l => decide (s.value l = lbool.l_True)))

/-! ## Garbage collection -/

/-- The function `Solver::garbageCollect()`: `relocAll` cleans the three watch maps and
moves the live clauses to a new arena.  Clause references are names of clauses here,
so that the move itself changes nothing. -/
def garbageCollect (s : Solver) : Solver := s.cleanAllWatches

/-- The inline function `checkGarbage()`, modelled from the spec (section 4.7, step 5):
a collection is run if the wasted part of the arena exceeds `garbage_frac` times its
size. -/
def checkGarbage (o : Oracle) (s : Solver) : Solver :=
  let s1 : Solver := { s with tick := s.tick + 1 }
  if o.gc s.tick then garbageCollect s1 else s1

/-! ## Reducing the learnt clause database -/

/-- The constant `RATIOREMOVECLAUSES` of `core/Constants.h`, modelled from the spec
(section 4.7: the index `n / RATIO`, one half). -/
def RATIOREMOVECLAUSES : Nat := 2

/-- The constant `LOWER_BOUND_FOR_BLOCKING_RESTART` of `core/Constants.h`, modelled
from the spec (section 4.8). -/
def LOWER_BOUND_FOR_BLOCKING_RESTART : Nat := 10000

/-- Modelled from the spec: the order `reduceDB_lt` of `Solver.h` (section 4.7, step
1), by which the clauses to remove come first: a clause of more than two literals is
before a binary clause, then a greater LBD is before a smaller one, then a smaller
activity is before a greater one. -/
def reduceDB_lt (o : Oracle) (s : Solver) (x y : Nat) : Bool :=
  let cx := s.ca x
  let cy := s.ca y
  if 2 < cx.size ∧ cy.size = 2 then true
  else if 2 < cy.size ∧ cx.size = 2 then false
  else if cx.size = 2 ∧ cy.size = 2 then false
  else if cy.lbd < cx.lbd then true
  else if cx.lbd < cy.lbd then false
  else decide (o.claAct s.tick x < o.claAct s.tick y)

/-- Modelled from the spec: the call `sort(learnts, reduceDB_lt(ca))` of `mtl/Sort.h`
gives the references in an order in which no clause is before a clause that
`reduceDB_lt` puts before it. -/
def sortLearnts (o : Oracle) (s : Solver) : List Nat :=
  s.learnts.insertionSort (fun x y => reduceDB_lt o s y x = false)

/-- The loop of `reduceDB` over the sorted clauses: the position `i`, the `limit`, the
clauses kept so far. -/
def reduceDBLoop : List Nat → Nat → Nat → List Nat → Solver → Option (List Nat × Solver)
  | [], _, _, kept, s => some (kept, s)
  | cr :: rest, i, limit, kept, s =>
    let c := s.ca cr
    if 2 < c.lbd ∧ 2 < c.size ∧ c.canBeDel = true ∧ s.locked cr = false ∧ i < limit then
      match removeClause s cr false with
      | none => none
      | some s1 =>
        reduceDBLoop rest (i + 1) limit kept
          { s1 with stats := { s1.stats with
              nbRemovedClauses := s1.stats.nbRemovedClauses + 1 } }
    else
      let limit1 := if c.canBeDel = false then limit + 1 else limit
      reduceDBLoop rest (i + 1) limit1 (kept ++ [cr])
        { s with ca := Function.update s.ca cr { c with canBeDel := true } }

/-- The two tests of `reduceDB` on the sorted clauses: for an LBD of at most 3 at the
position `size / RATIOREMOVECLAUSES` (the clause `mid`), and for an LBD of at most 5 at
the last position (the clause `last`), `nbclausesbeforereduce` grows by
`specialIncReduceDB`. -/
def reduceDBSpecial (s : Solver) (mid last : Nat) : Solver :=
  let s2 : Solver :=
    if (s.ca mid).lbd ≤ 3 then
      { s with nbclausesbeforereduce :=
          s.nbclausesbeforereduce + s.opts.specialIncReduceDB }
    else s
  if (s2.ca last).lbd ≤ 5 then
    { s2 with nbclausesbeforereduce :=
        s2.nbclausesbeforereduce + s2.opts.specialIncReduceDB }
  else s2

/-- The function `Solver::reduceDB()`.  The two reads `learnts[size / 2]` and
`learnts.last()` are outside an empty vector. -/
def reduceDB (o : Oracle) (s : Solver) : Option Solver :=
  let s0 : Solver :=
    { s with stats := { s.stats with nbReduceDB := s.stats.nbReduceDB + 1 } }
  let sorted := sortLearnts o s0
  let s1 : Solver := { s0 with learnts := sorted, tick := s0.tick + 1 }
  match sorted.get? (sorted.length / RATIOREMOVECLAUSES), sorted.getLast? with
  | some mid, some last =>
    match reduceDBLoop sorted 0 (sorted.length / 2) [] (reduceDBSpecial s1 mid last) with
    | none => none
    | some (kept, s4) => some (checkGarbage o { s4 with learnts := kept })
  | _, _ => none

/-! ## Simplifying at level 0 -/

/-- The loop of `removeSatisfied(cs)`: the clauses kept so far. -/
def removeSatisfiedLoop : List Nat → List Nat → Solver → Option (List Nat × Solver)
  | [], kept, s => some (kept, s)
  | cr :: rest, kept, s =>
    match satisfied s cr with
    | none => none
    | some true =>
      match removeClause s cr (s.ca cr).oneWatched with
      | none => none
      | some s1 => removeSatisfiedLoop rest kept s1
    | some false => removeSatisfiedLoop rest (kept ++ [cr]) s

/-- The function `Solver::rebuildOrderHeap()`. -/
def rebuildOrderHeap (s : Solver) : Solver :=
  let vs := List.filter (fun v => s.decision v && decide (s.valueVar v = lbool.l_Undef))
    (List.range s.nVars)
  { s with order_heap := vs }

/-- The function `Solver::simplify()`: the returned flag and the new state. -/
def simplify (o : Oracle) (s : Solver) : Option (Bool × Solver) :=
  if s.decisionLevel ≠ 0 then none
  else if s.ok = false then some (false, { s with ok := false })
  else
    match propagate s with
    | none => none
    | some (some _, s1) => some (false, { s1 with ok := false })
    | some (none, s1) =>
      if (s1.trail.length : Int) = s1.simpDB_assigns ∨ 0 < s1.simpDB_props then
        some (true, s1)
      else
        match removeSatisfiedLoop s1.learnts [] s1 with
        | none => none
        | some (l2, s2) =>
          let s3 : Solver := { s2 with learnts := l2 }
          match removeSatisfiedLoop s3.unaryWatchedClauses [] s3 with
          | none => none
          | some (u2, s4) =>
            let s5 : Solver := { s4 with unaryWatchedClauses := u2 }
            let r : Option Solver :=
              if s5.opts.remove_satisfied then
                match removeSatisfiedLoop s5.clauses [] s5 with
                | none => none
                | some (c2, s6) => some { s6 with clauses := c2 }
              else some s5
            match r with
            | none => none
            | some s7 =>
              let s8 := rebuildOrderHeap (checkGarbage o s7)
              some (true,
                { s8 with
                  simpDB_assigns := (s8.trail.length : Int),
                  simpDB_props :=
                    ((s8.stats.clauses_literals + s8.stats.learnts_literals : Nat) : Int) })

/-! ## Decisions -/

/-- Modelled from the spec: the order in which successive calls of
`order_heap.removeMin()` give the variables of the heap (section 4.6): by decreasing
activity. -/
def heapOrder (o : Oracle) (s : Solver) : List Nat :=
  s.order_heap.insertionSort (fun x y => o.varAct s.tick y ≤ o.varAct s.tick x)

/-- The test of the loop of `pickBranchLit`: the variable `next` cannot be decided
(`none` is `var_Undef`). -/
def Solver.notPickable (s : Solver) (next : Option Nat) : Bool :=
  match next with
  | none => true
  | some x => decide (s.valueVar x ≠ lbool.l_Undef) || !s.decision x

/-- The loop `while (next == var_Undef || value(next) != l_Undef || !decision[next])` of
`pickBranchLit` once `next` is taken from the heap, over the variables of the heap in
removal order: the variable found (`none` is `var_Undef`, the heap is empty) and the
variables left in the heap. -/
def pickLoop (s : Solver) : List Nat → Option Nat × List Nat
  | [] => (none, [])
  | x :: rest => if s.notPickable (some x) then pickLoop s rest else (some x, rest)

/-- The function `Solver::pickBranchLit()`: the literal (`none` is `lit_Undef`) and the
new state.  The random numbers are read in the order of the calls of `drand` and
`irand`. -/
def pickBranchLit (o : Oracle) (s : Solver) : Option (Option Lit × Solver) :=
  let d0 := o.drand s.tick
  let s0 : Solver := { s with tick := s.tick + 1 }
  let r : Option (Option Nat × Solver) :=
    if Frac.lt d0 s0.opts.random_var_freq ∧ s0.order_heap ≠ [] then
      let d1 := o.drand s0.tick
      let s1 : Solver := { s0 with tick := s0.tick + 1 }
      let i := ((d1.num * (s1.order_heap.length : Int)) / ((d1.den : Int) + 1)).toNat
      match s1.order_heap.get? i with
      | none => none
      | some x =>
        some (some x,
          if s1.valueVar x = lbool.l_Undef ∧ s1.decision x = true then
            { s1 with stats := { s1.stats with
                rnd_decisions := s1.stats.rnd_decisions + 1 } }
          else s1)
    else some (none, s0)
  match r with
  | none => none
  | some (next0, s2) =>
    let pr : Option Nat × Solver :=
      if s2.notPickable next0 then
        let found := pickLoop s2 (heapOrder o s2)
        (found.1, { s2 with order_heap := found.2, tick := s2.tick + 1 })
      else (next0, s2)
    let s3 := pr.2
    match pr.1 with
    | none => some (none, s3)
    | some x =>
      if s3.opts.rnd_pol then
        some (some (mkLit x (Frac.lt (o.drand s3.tick) (Frac.ratio 1 2))),
          { s3 with tick := s3.tick + 1 })
      else some (some (mkLit x (s3.polarity x)), s3)

/-! ## The final conflict in terms of assumptions -/

/-- The loop of `analyzeFinal` over the trail positions from the last one down to
`trail_lim[0]`, given as the literals in reverse trail order. -/
def analyzeFinalLoop : List Lit → List Lit → Solver → Option (List Lit × Solver)
  | [], out, s => some (out, s)
  | l :: rest, out, s =>
    let x := l.var
    if s.seen x then
      match s.reason x with
      | none =>
        if 0 < s.level x then
          analyzeFinalLoop rest (out ++ [l.neg])
            { s with seen := Function.update s.seen x false }
        else none
      | some r =>
        let c := s.ca r
        let marked := (c.lits.drop (if c.size = 2 then 0 else 1)).filter
          (fun q => decide (0 < s.level q.var))
        let seen1 := marked.foldl (fun f q => Function.update f q.var true) s.seen
        analyzeFinalLoop rest out { s with seen := Function.update seen1 x false }
    else analyzeFinalLoop rest out s

/-- The function `Solver::analyzeFinal(p, out_conflict)` with `out_conflict` the member
`conflict`. -/
def analyzeFinal (s : Solver) (p : Lit) : Option Solver :=
  if s.decisionLevel = 0 then some { s with conflict := [p] }
  else
    let s1 : Solver := { s with seen := Function.update s.seen p.var true }
    match analyzeFinalLoop ((s1.trail.drop (s1.trail_lim.getD 0 0)).reverse) [p] s1 with
    | none => none
    | some (out, s2) =>
      some { s2 with conflict := out, seen := Function.update s2.seen p.var false }

/-! ## The search loop -/

/-- How one iteration of the loop of `search` ends: with a `return`, or with the local
variables `conflictC` and `blocked` for the next iteration. -/
inductive SearchStep where
  | done (r : lbool) (s : Solver)
  | next (conflictC : Nat) (blocked : Bool) (s : Solver)

/-- The state at the end of an iteration. -/
def SearchStep.state : SearchStep → Solver
  | SearchStep.done _ s => s
  | SearchStep.next _ _ s => s

/-- The test of the block-restart step: `conflictsRestarts >
LOWER_BOUND_FOR_BLOCKING_RESTART && lbdQueue.isvalid() && trail.size() > R *
trailQueue.getavg()`. -/
def blockRestart (s : Solver) : Bool :=
  decide (LOWER_BOUND_FOR_BLOCKING_RESTART < s.stats.conflictsRestarts) &&
    s.lbdQueue.isvalid &&
    Frac.lt (s.opts.R.mul s.trailQueue.getavg) (Frac.ofNat s.trail.length)

/-- The test of the restart step: `lbdQueue.isvalid() && lbdQueue.getavg() * K >
sumLBD / conflictsRestarts`; a quotient by zero is not below any number. -/
def restartDue (s : Solver) : Bool :=
  s.lbdQueue.isvalid && decide (0 < s.stats.conflictsRestarts) &&
    Frac.lt (Frac.ratio s.sumLBD s.stats.conflictsRestarts)
      (s.lbdQueue.getavg.mul s.opts.K)

/-- The counters of a conflict in `search`: `sumDecisionLevels += decisionLevel();
conflicts++; conflictsRestarts++` (the local `conflictC` is an argument of the loop). -/
def countConflict (s : Solver) : Solver :=
  { s with stats := { s.stats with
      sumDecisionLevels := s.stats.sumDecisionLevels + s.decisionLevel,
      conflicts := s.stats.conflicts + 1,
      conflictsRestarts := s.stats.conflictsRestarts + 1 } }

/-- The block-restart step of `search`: when its test holds the LBD queue is cleared
and the counters of blocked restarts are updated. -/
def blockRestartStep (blocked : Bool) (s : Solver) : Solver :=
  if blockRestart s then
    let t : Solver :=
      { s with lbdQueue := s.lbdQueue.fastclear,
               stats := { s.stats with nbstopsrestarts := s.stats.nbstopsrestarts + 1 } }
    if blocked = false then
      { t with stats := { t.stats with
          lastblockatrestart := t.stats.starts,
          nbstopsrestartssame := t.stats.nbstopsrestartssame + 1 } }
    else t
  else s

/-- The learnt clause that `search` allocates: `ca.alloc(learnt_clause, true)` with the
LBD, the flag `oneWatched` and the size without selectors set. -/
def learntClause (r : AnalyzeResult) : Clause :=
  { Clause.alloc r.out_learnt true with
    lbd := r.lbd, oneWatched := false, sizeWithoutSelectors := r.szWithoutSelectors }

/-- The installation of the learnt clause in `search` after `cancelUntil`: a unit is
enqueued without reason; a longer clause is allocated, pushed on `learnts`, attached,
and its first literal is enqueued with the clause as reason (the activity bump of the
clause and the export hooks are left out). -/
def installLearnt (r : AnalyzeResult) (s : Solver) : Option Solver :=
  match r.out_learnt with
  | [] => none
  | [l] =>
    match uncheckedEnqueue s l none with
    | none => none
    | some s1 => some { s1 with stats := { s1.stats with nbUn := s1.stats.nbUn + 1 } }
  | l :: _ :: ls =>
    let cr := s.caSize
    let s1 : Solver :=
      { s with
        ca := Function.update s.ca cr (learntClause r),
        caSize := s.caSize + 1,
        stats := { s.stats with
          nbDL2 := if r.lbd ≤ 2 then s.stats.nbDL2 + 1 else s.stats.nbDL2,
          nbBin := if ls = [] then s.stats.nbBin + 1 else s.stats.nbBin },
        learnts := s.learnts ++ [cr] }
    match attachClause s1 cr with
    | none => none
    | some s2 => uncheckedEnqueue { s2 with lastLearntClause := some cr } l (some cr)

/-- The conflict branch of the loop of `search` for the conflicting clause `confl`
(the adaptation of `var_decay`, the decay of the activities, the printing and the
export hooks are left out). -/
def searchConflict (confl : Nat) (conflictC : Nat) (blocked : Bool) (s : Solver) :
    Option SearchStep :=
  let s1 := countConflict s
  if s1.decisionLevel = 0 then some (SearchStep.done lbool.l_False s1)
  else
    let s2 : Solver := { s1 with trailQueue := s1.trailQueue.push s1.trail.length }
    let s3 := blockRestartStep blocked s2
    let blocked1 : Bool := blocked || blockRestart s2
    match analyze s3 confl with
    | none => none
    | some r =>
      let s4 := r.state
      let s5 : Solver :=
        { s4 with lbdQueue := s4.lbdQueue.push r.lbd, sumLBD := s4.sumLBD + r.lbd }
      match installLearnt r (cancelUntil s5 r.out_btlevel) with
      | none => none
      | some s9 => some (SearchStep.next (conflictC + 1) blocked1 s9)

/-- The loop `while (decisionLevel() < assumptions.size())` of `search` over the
assumptions from position `decisionLevel()` on: `Sum.inl` is the return of `l_False`
after `analyzeFinal`, `Sum.inr` carries `next` (`none` is `lit_Undef`). -/
def assumeLoop : List Lit → Solver → Option (Solver ⊕ (Option Lit × Solver))
  | [], s => some (Sum.inr (none, s))
  | p :: rest, s =>
    if s.value p = lbool.l_True then assumeLoop rest s.newDecisionLevel
    else if s.value p = lbool.l_False then
      match analyzeFinal s p.neg with
      | none => none
      | some s1 => some (Sum.inl s1)
    else some (Sum.inr (some p, s))

/-- The statistics of a new variable decision on `next` in `search`; the index
`cmtys[var(next)]` of `cmtydec` has to be inside the table. -/
def countDecision (s : Solver) (next : Lit) : Option Solver :=
  let v := next.var
  let c := s.cmtys v
  if 0 ≤ c ∧ c < (s.nVars : Int) then
    some { s with
      literaldecisions := Function.update s.literaldecisions v (s.literaldecisions v + 1),
      cmtydec := Function.update s.cmtydec c.toNat (s.cmtydec c.toNat + 1),
      stats := { s.stats with
        bridge_decisions :=
          if s.bridges v then s.stats.bridge_decisions + 1 else s.stats.bridge_decisions,
        highcenter_decisions :=
          if s.highcenter v then s.stats.highcenter_decisions + 1
          else s.stats.highcenter_decisions,
        mutualbrgcenter_decisions :=
          if s.highcenter v && s.bridges v then s.stats.mutualbrgcenter_decisions + 1
          else s.stats.mutualbrgcenter_decisions } }
  else none

/-- The reduce-DB step of `search`; the quotient `conflicts / nbclausesbeforereduce`
is an integer division, undefined for the divisor 0 (`panicModeIsEnabled()` is
false). -/
def reduceStep (o : Oracle) (s : Solver) : Option Solver :=
  if s.curRestart * s.nbclausesbeforereduce ≤ s.stats.conflicts then
    if 0 < s.learnts.length then
      if s.nbclausesbeforereduce = 0 then none
      else
        let s1 : Solver :=
          { s with curRestart := s.stats.conflicts / s.nbclausesbeforereduce + 1 }
        match reduceDB o s1 with
        | none => none
        | some s2 =>
          some { s2 with nbclausesbeforereduce :=
                   s2.nbclausesbeforereduce + s2.opts.incReduceDB }
    else some s
  else some s

/-- The level `bt` to which a restart of `search` backtracks: 0, and in incremental
mode `(decisionLevel() < assumptions.size()) ? decisionLevel() : assumptions.size()`. -/
def restartLevel (s : Solver) : Nat :=
  if s.opts.incremental then
    (if s.decisionLevel < s.assumptions.length then s.decisionLevel
     else s.assumptions.length)
  else 0

/-- The branch of the loop of `search` taken when `propagate` found no conflict (the
member `progress_estimate`, a statistic, is left out). -/
def searchNoConflict (o : Oracle) (conflictC : Nat) (blocked : Bool) (s : Solver) :
    Option SearchStep :=
  if restartDue s then
    let s1 : Solver := { s with lbdQueue := s.lbdQueue.fastclear }
    some (SearchStep.done lbool.l_Undef (cancelUntil s1 (restartLevel s1)))
  else
    let r0 : Option (Bool × Solver) :=
      if s.decisionLevel = 0 then simplify o s else some (true, s)
    match r0 with
    | none => none
    | some (false, s1) => some (SearchStep.done lbool.l_False s1)
    | some (true, s1) =>
      match reduceStep o s1 with
      | none => none
      | some s2 =>
        let s3 : Solver := { s2 with lastLearntClause := none }
        match assumeLoop (s3.assumptions.drop s3.decisionLevel) s3 with
        | none => none
        | some (Sum.inl s4) => some (SearchStep.done lbool.l_False s4)
        | some (Sum.inr (some p, s4)) =>
          match uncheckedEnqueue s4.newDecisionLevel p none with
          | none => none
          | some s5 => some (SearchStep.next conflictC blocked s5)
        | some (Sum.inr (none, s4)) =>
          let s5 : Solver :=
            { s4 with stats := { s4.stats with decisions := s4.stats.decisions + 1 } }
          match pickBranchLit o s5 with
          | none => none
          | some (none, s6) => some (SearchStep.done lbool.l_True s6)
          | some (some next, s6) =>
            match countDecision s6 next with
            | none => none
            | some s7 =>
              match uncheckedEnqueue s7.newDecisionLevel next none with
              | none => none
              | some s8 => some (SearchStep.next conflictC blocked s8)

/-- One iteration of the loop of `search` (the import hooks of the parallel solver do
nothing and return false). -/
def searchStep (o : Oracle) (conflictC : Nat) (blocked : Bool) (s : Solver) :
    Option SearchStep :=
  match propagate s with
  | none => none
  | some (some confl, s1) => searchConflict confl conflictC blocked s1
  | some (none, s1) => searchNoConflict o conflictC blocked s1

/-- The loop `for (;;)` of `search`; the first argument bounds the number of
iterations. -/
def searchLoop (o : Oracle) : Nat → Nat → Bool → Solver → Option (lbool × Solver)
  | 0, _, _, _ => none
  | fuel + 1, conflictC, blocked, s =>
    match searchStep o conflictC blocked s with
    | none => none
    | some (SearchStep.done r s1) => some (r, s1)
    | some (SearchStep.next c b s1) => searchLoop o fuel c b s1

/-- The function `Solver::search(nof_conflicts)` (the argument is not read); `fuel`
bounds the number of iterations of its loop. -/
def search (o : Oracle) (fuel : Nat) (s : Solver) : Option (lbool × Solver) :=
  if s.ok = false then none
  else
    searchLoop o fuel 0 false
      { s with stats := { s.stats with starts := s.stats.starts + 1 } }

/-! ## The centrality heuristic and `solve_` -/

/-- One pass of the inner loop of `wsortingtwo` and `sortingtwo`: `count` comparisons of
neighbours from position `j` on, a greater left neighbour is swapped, together with the
entries of `pointnumber`. -/
def bubblePass {α : Type} (gt : α → α → Bool) :
    Nat → Nat → (Nat → α) × (Nat → Int) → (Nat → α) × (Nat → Int)
  | 0, _, st => st
  | count + 1, j, st =>
    let st1 : (Nat → α) × (Nat → Int) :=
      if gt (st.1 j) (st.1 (j + 1)) then
        (Function.update (Function.update st.1 j (st.1 (j + 1))) (j + 1) (st.1 j),
         Function.update (Function.update st.2 j (st.2 (j + 1))) (j + 1) (st.2 j))
      else st
    bubblePass gt count (j + 1) st1

/-- The two loops of `wsortingtwo` and `sortingtwo`, for keys compared by `gt`. -/
def sortingtwoBy {α : Type} (gt : α → α → Bool) (number : Nat → α)
    (pointnumber : Nat → Int) (n : Nat) : (Nat → α) × (Nat → Int) :=
  (List.range' 1 (n - 1)).foldl (fun st i => bubblePass gt (n - i) 0 st)
    (number, pointnumber)

/-- The function `wsortingtwo(number, pointnumber, n)` on keys of type `double`: two
neighbours are swapped when `number[j] > number[j+1]`, which is never the case when one
of them is NaN. -/
def wsortingtwo (number : Nat → Double) (pointnumber : Nat → Int) (n : Nat) :
    (Nat → Double) × (Nat → Int) :=
  sortingtwoBy Double.gt number pointnumber n

/-- The function `sortingtwo(number, pointnumber, n)` on keys of type `int`. -/
def sortingtwo (number : Nat → Int) (pointnumber : Nat → Int) (n : Nat) :
    (Nat → Int) × (Nat → Int) :=
  sortingtwoBy (fun a b => decide (b < a)) number pointnumber n

/-- The three files that `solve_` opens: the pairs read by `fscanf` from the community
file (`"%d %d"`) and from the centrality file (`"%d %lf"`, a score may be NaN or an
infinity); `none`: the option is not set or the file cannot be opened; and whether the
cnf file can be opened. -/
structure Files where
  cmty : Option (List (Int × Int))
  cnf : Bool
  center : Option (List (Int × Double))

/-- The test that `i` is an index of a per-variable table. -/
def Solver.inTable (s : Solver) (i : Int) : Bool := decide (0 ≤ i ∧ i < (s.nVars : Int))

/-- The loop of `solve_` over the lines of the community file. -/
def readCmtys : List (Int × Int) → Solver → Option Solver
  | [], s => some s
  | (v, cmty) :: rest, s =>
    if s.inTable v ∧ s.inTable cmty then
      readCmtys rest
        { s with
          cmtys := Function.update s.cmtys v.toNat cmty,
          cmtystruct := Function.update s.cmtystruct cmty.toNat (s.cmtystruct cmty.toNat + 1) }
    else none

/-- The body of the loops of `solve_` over the pairs of positions `j < k` of a clause,
for the variables `varJ` and `varK` at these positions. -/
def bridgePair (s : Solver) (varJ varK : Nat) : Option Solver :=
  if s.cmtys varJ ≠ s.cmtys varK then
    if s.inTable (s.cmtys varJ) ∧ s.inTable (s.cmtys varK) then
      let cJ := (s.cmtys varJ).toNat
      let cK := (s.cmtys varK).toNat
      let cb1 := if s.bridges varJ = false then
          Function.update s.cmtybridges cJ (s.cmtybridges cJ + 1) else s.cmtybridges
      let cb2 := if s.bridges varK = false then
          Function.update cb1 cK (cb1 cK + 1) else cb1
      let br := Function.update (Function.update s.bridges varJ true) varK true
      let nb1 := Function.update s.numbridges varJ (s.numbridges varJ + 1)
      let nb2 := Function.update nb1 varK (nb1 varK + 1)
      some { s with cmtybridges := cb2, bridges := br, numbridges := nb2 }
    else none
  else some s

/-- The loop over `k` for a literal at position `j`: the later literals of the
clause. -/
def bridgeInner (varJ : Nat) : List Lit → Solver → Option Solver
  | [], s => some s
  | l :: rest, s =>
    match bridgePair s varJ l.var with
    | none => none
    | some s1 => bridgeInner varJ rest s1

/-- The loop over `j` for one clause. -/
def bridgeClause : List Lit → Solver → Option Solver
  | [], s => some s
  | l :: rest, s =>
    match bridgeInner l.var rest s with
    | none => none
    | some s1 => bridgeClause rest s1

/-- The loop of `solve_` over the original clauses. -/
def bridgeClauses : List Nat → Solver → Option Solver
  | [], s => some s
  | cr :: rest, s =>
    match bridgeClause (s.ca cr).lits s with
    | none => none
    | some s1 => bridgeClauses rest s1

/-- The loop of `solve_` over the lines of the centrality file. -/
def readCenters : List (Int × Double) → Solver → Option Solver
  | [], s => some s
  | (cmty, center) :: rest, s =>
    if s.inTable cmty then
      readCenters rest
        { s with cmtycentrality := Function.update s.cmtycentrality cmty.toNat center }
    else none

/-- The loop `for (int i = 0; i < v; i++)` of `solve_` that fills the tables to sort;
the index `cmtys[i] + 1` has to be inside the table `cmtycentrality`. -/
def fillCentrality : List Nat → Solver → Option Solver
  | [], s => some s
  | i :: rest, s =>
    if s.inTable (s.cmtys i + 1) then
      let c := s.cmtycentrality (s.cmtys i + 1).toNat
      fillCentrality rest
        { s with
          sortednumbridges := Function.update s.sortednumbridges i (s.numbridges i),
          bridgearrangedliterals := Function.update s.bridgearrangedliterals i (i : Int),
          centrality := Function.update s.centrality i c,
          sortedcentrality := Function.update s.sortedcentrality i c,
          sorted_central_vars := Function.update s.sorted_central_vars i (i : Int) }
    else none

/-- The loop `for (int i = tempnum; i < v; i++) highcenter[sorted_central_vars[i]] =
true` of `solve_`. -/
def markHighcenter : List Nat → Solver → Option Solver
  | [], s => some s
  | i :: rest, s =>
    let tempo := s.sorted_central_vars i
    if s.inTable tempo then
      markHighcenter rest { s with highcenter := Function.update s.highcenter tempo.toNat true }
    else none

/-- The first part of `solve_`, up to the test of `ok`: the community file, the bridges,
the centrality file, the sort of the variables by centrality and the marking of the
third of greatest centrality.  A missing file ends the process (`exit(1)`), as does the
incremental mode with a certified output. -/
def centralityInit (files : Files) (s : Solver) : Option Solver :=
  if s.opts.incremental = true ∧ s.opts.certifiedUNSAT = true then none
  else
    match files.cmty with
    | none => none
    | some cmtyLines =>
      match readCmtys cmtyLines s with
      | none => none
      | some s1 =>
        match bridgeClauses s1.clauses s1 with
        | none => none
        | some s2 =>
          if files.cnf = false then none
          else
            match files.center with
            | none => none
            | some centerLines =>
              match readCenters centerLines s2 with
              | none => none
              | some s3 =>
                match fillCentrality (List.range s3.nVars) s3 with
                | none => none
                | some s4 =>
                  let v := s4.nVars
                  let r := wsortingtwo s4.sortedcentrality s4.sorted_central_vars v
                  let s5 : Solver :=
                    { s4 with sortedcentrality := r.1, sorted_central_vars := r.2 }
                  markHighcenter (List.range' (v - v / 3) (v / 3)) s5

/-- Modelled from the spec: the inline function `withinBudget()` of `Solver.h` (section
on budgets): no interrupt, and the conflict and propagation budgets, when set, are not
reached. -/
def withinBudget (s : Solver) : Bool :=
  !s.asynch_interrupt &&
    (decide (s.conflict_budget < 0) ||
      decide ((s.stats.conflicts : Int) < s.conflict_budget)) &&
    (decide (s.propagation_budget < 0) ||
      decide ((s.stats.propagations : Int) < s.propagation_budget))

/-- The loop `while (status == l_Undef)` of `solve_`; the first argument bounds the
number of calls of `search`, the second the iterations of each call. -/
def solveLoop (o : Oracle) : Nat → Nat → Solver → Option (lbool × Solver)
  | 0, _, _ => none
  | fuel + 1, sfuel, s =>
    match search o sfuel s with
    | none => none
    | some (status, s1) =>
      if status ≠ lbool.l_Undef then some (status, s1)
      else if withinBudget s1 = false then some (status, s1)
      else solveLoop o fuel sfuel s1

/-- The function `Solver::solve_()` (its two arguments are not read): the answer and the
new state.  `fuel` bounds the number of calls of `search` and the number of iterations
of each call (the printing and the timing are left out). -/
def solve_ (o : Oracle) (fuel : Nat) (files : Files) (s : Solver) :
    Option (lbool × Solver) :=
  match centralityInit files s with
  | none => none
  | some s0 =>
    let s1 : Solver := { s0 with model := [], conflict := [] }
    if s1.ok = false then some (lbool.l_False, s1)
    else
      let s2 : Solver := { s1 with stats := { s1.stats with solves := s1.stats.solves + 1 } }
      match solveLoop o fuel fuel s2 with
      | none => none
      | some (status, s3) =>
        let s4 : Solver :=
          if status = lbool.l_True then
            { s3 with model := (List.range s3.nVars).map s3.valueVar }
          else if status = lbool.l_False ∧ s3.conflict = [] then { s3 with ok := false }
          else s3
        let s5 := cancelUntil s4 0
        let s6 : Solver :=
          if status = lbool.l_True then
            { s5 with stats := { s5.stats with nbSatCalls := s5.stats.nbSatCalls + 1 } }
          else if status = lbool.l_False then
            { s5 with stats := { s5.stats with nbUnsatCalls := s5.stats.nbUnsatCalls + 1 } }
          else s5
        some (status, s6)

end Glucose


namespace Glucose

/-! ## Predicates on solver states used in the statements -/

/-- Every literal of the trail is true under the assignment. -/
def TrailTrue (s : Solver) : Prop := ∀ l ∈ s.trail, s.value l = lbool.l_True

/-- Every binary watcher stored under `p` refers to a two-literal clause made of `¬p`
and of the blocker. -/
def BinWatchOK (s : Solver) : Prop :=
  ∀ p w, w ∈ s.watchesBin.occs p →
    (s.ca w.cref).lits = [p.neg, w.blocker] ∨ (s.ca w.cref).lits = [w.blocker, p.neg]

/-- Every long watcher stored under `p` refers to a clause that has `¬p` at one of its
two watched positions. -/
def LongWatchOK (s : Solver) : Prop :=
  ∀ p w, w ∈ s.watches.occs p →
    ∃ c0 c1 rest, (s.ca w.cref).lits = c0 :: c1 :: rest ∧ (c0 = p.neg ∨ c1 = p.neg)

/-- Every unary watcher stored under `p` refers to a clause that has `¬p` at its
watched position 0. -/
def UnaryWatchOK (s : Solver) : Prop :=
  ∀ p w, w ∈ s.unaryWatches.occs p →
    ∃ rest, (s.ca w.cref).lits = p.neg :: rest

/-- Every literal of the clause `cr` is false under the assignment. -/
def AllFalse (s : Solver) (cr : Nat) : Prop :=
  ∀ l ∈ (s.ca cr).lits, s.value l = lbool.l_False

/-- The state `t` extends the state `s` by propagation steps: assigned variables keep
their value, level and reason, clauses keep their literals up to order, the trail
grows by the newly assigned variables, once each, as true literals, the decision
levels are the same, newly assigned variables are at the current level. -/
structure Ext (s t : Solver) : Prop where
  assigns : ∀ v, s.assigns v ≠ lbool.l_Undef → t.assigns v = s.assigns v
  vardata : ∀ v, s.assigns v ≠ lbool.l_Undef → t.vardata v = s.vardata v
  lits : ∀ cr, ((t.ca cr).lits).Perm ((s.ca cr).lits)
  trail : ∃ added, t.trail = s.trail ++ added ∧
    (∀ l ∈ added, t.value l = lbool.l_True) ∧
    (∀ l ∈ added, s.assigns l.var = lbool.l_Undef) ∧
    (added.map Lit.var).Nodup ∧
    (∀ v, s.assigns v = lbool.l_Undef → t.assigns v ≠ lbool.l_Undef →
      ∃ l ∈ added, l.var = v)
  trail_lim : t.trail_lim = s.trail_lim
  bin : ∀ p w, w ∈ t.watchesBin.occs p → w ∈ s.watchesBin.occs p ∨
    (t.ca w.cref).lits = [p.neg, w.blocker] ∨ (t.ca w.cref).lits = [w.blocker, p.neg]
  newlevel : ∀ v, s.assigns v = lbool.l_Undef → t.assigns v ≠ lbool.l_Undef →
    t.level v = t.decisionLevel

/-- The clause of the watcher `w`, visited for the true literal `p`, reads
`c0 :: c1 :: rest`, has `¬p` at a watched position, and `first` is its other watched
literal. -/
def Visited (p : Lit) (w : Watcher) (s : Solver) (c0 c1 : Lit) (rest : List Lit)
    (first : Lit) : Prop :=
  s.value w.blocker ≠ lbool.l_True ∧ (s.ca w.cref).oneWatched = false ∧
  (s.ca w.cref).lits = c0 :: c1 :: rest ∧
  ((c0 = p.neg ∧ first = c1) ∨ (c0 ≠ p.neg ∧ c1 = p.neg ∧ first = c0))

/-- The five ways in which the visit of a long watcher ends. -/
inductive LongSpec (p : Lit) (w : Watcher) (s : Solver) : WatchOutcome → Prop where
  | skip : s.value w.blocker = lbool.l_True → LongSpec p w s (WatchOutcome.keep w s)
  | sat (c0 c1 : Lit) (rest : List Lit) (first : Lit) :
      Visited p w s c0 c1 rest first → first ≠ w.blocker → s.value first = lbool.l_True →
      LongSpec p w s
        (WatchOutcome.keep ⟨w.cref, first⟩ (s.setLits w.cref (first :: p.neg :: rest)))
  | moved (c0 c1 : Lit) (rest : List Lit) (first : Lit) (k : Nat) (x : Lit) :
      Visited p w s c0 c1 rest first → s.value first ≠ lbool.l_True →
      rest.get? k = some x → s.value x ≠ lbool.l_False → x.neg ≠ p →
      LongSpec p w s
        (WatchOutcome.moved
          ((s.setLits w.cref (first :: x :: rest.set k p.neg)).pushWatch x.neg
            ⟨w.cref, first⟩))
  | conflict (c0 c1 : Lit) (rest : List Lit) (first : Lit) :
      Visited p w s c0 c1 rest first → (∀ l ∈ rest, s.value l = lbool.l_False) →
      s.value first = lbool.l_False →
      LongSpec p w s
        (WatchOutcome.conflict w.cref ⟨w.cref, first⟩
          ((s.setLits w.cref (first :: p.neg :: rest)).setQhead s.trail.length))
  | unit (c0 c1 : Lit) (rest : List Lit) (first : Lit) (s2 : Solver) :
      Visited p w s c0 c1 rest first → (∀ l ∈ rest, s.value l = lbool.l_False) →
      s.value first = lbool.l_Undef →
      uncheckedEnqueue (s.setLits w.cref (first :: p.neg :: rest)) first (some w.cref)
        = some s2 →
      LongSpec p w s (WatchOutcome.keep ⟨w.cref, first⟩ s2)

/-- Every assigned variable has a level not above the current decision level. -/
def LevelsOK (s : Solver) : Prop :=
  ∀ v, s.assigns v ≠ lbool.l_Undef → s.level v ≤ s.decisionLevel

/-- The clause `c` is a reason for the literal `l` in the sense of the code: `l` is
its first literal, or `c` is a binary clause with `l` as second literal (binary
clauses are not reordered by `propagate`); every other literal is false at a level
not above the level of `l`. -/
def ReasonShape (s : Solver) (l : Lit) (c : List Lit) : Prop :=
  (∃ rest, c = l :: rest ∧
      ∀ q ∈ rest, s.value q = lbool.l_False ∧ s.level q.var ≤ s.level l.var) ∨
  (∃ q, c = [q, l] ∧ s.value q = lbool.l_False ∧ s.level q.var ≤ s.level l.var)

/-- The literal `l` is true at the current decision level, with a reason clause of the
right shape. -/
def Implied (s : Solver) (l : Lit) : Prop :=
  s.value l = lbool.l_True ∧ s.level l.var = s.decisionLevel ∧
  ∃ r, s.reason l.var = some r ∧ ReasonShape s l (s.ca r).lits

/-- The three ways in which the visit of a unary watcher ends. -/
inductive UnarySpec (p : Lit) (w : Watcher) (s : Solver) : WatchOutcome → Prop where
  | skip : s.value w.blocker = lbool.l_True → UnarySpec p w s (WatchOutcome.keep w s)
  | moved (rest : List Lit) (k : Nat) (x : Lit) :
      (s.ca w.cref).oneWatched = true → (s.ca w.cref).lits = p.neg :: rest →
      rest.get? k = some x → s.value x ≠ lbool.l_False → x.neg ≠ p →
      UnarySpec p w s
        (WatchOutcome.moved
          ((s.setLits w.cref (x :: rest.set k p.neg)).pushUnaryWatch x.neg
            ⟨w.cref, p.neg⟩))
  | conflict (rest : List Lit) (s1 : Solver) :
      (s.ca w.cref).oneWatched = true → (s.ca w.cref).lits = p.neg :: rest →
      (∀ l ∈ rest, s.value l = lbool.l_False) →
      ((s.opts.promoteOneWatchedClause = false ∧ s1 = s.setQhead s.trail.length) ∨
       (s.opts.promoteOneWatchedClause = true ∧
        promoteClause (s.setQhead s.trail.length) w.cref p.neg rest = some s1)) →
      UnarySpec p w s (WatchOutcome.conflict w.cref ⟨w.cref, p.neg⟩ s1)

/-- The literals enqueued since the trail had `n0` entries are implied, in a state
with a trail of true literals, well-formed binary watchers and levels. -/
def ReasonsFrom (n0 : Nat) (t : Solver) : Prop :=
  TrailTrue t ∧ BinWatchOK t ∧ LevelsOK t ∧ n0 ≤ t.trail.length ∧
  ∀ l ∈ t.trail.drop n0, Implied t l

/-- The number of watchers that reference the clause `cr` in the list `ws`. -/
def crefCount (ws : List Watcher) (cr : Nat) : Nat := ws.countP (fun w => w.cref == cr)

/-- Watch consistency of a clause with literals `lits` stored at `cr`, for the long
watch lists `occs`: if the clause has at least three literals, exactly one watcher
references it in the list of `¬c[0]`, exactly one in the list of `¬c[1]`, none in any
other list. -/
def WatchedBy (occs : Lit → List Watcher) (lits : List Lit) (cr : Nat) : Prop :=
  ∀ c0 c1 c2 rest, lits = c0 :: c1 :: c2 :: rest →
    crefCount (occs c0.neg) cr = 1 ∧ crefCount (occs c1.neg) cr = 1 ∧
    ∀ p, p ≠ c0.neg → p ≠ c1.neg → crefCount (occs p) cr = 0

/-- Watch consistency of the clause `cr` in the state `s`. -/
def WatchConsistent (s : Solver) (cr : Nat) : Prop :=
  WatchedBy s.watches.occs (s.ca cr).lits cr

/-- The clause `cr` is an attached two-watched clause: it is watch-consistent, its
literals are pairwise distinct, it is neither marked deleted nor one-watched. -/
def AttachedOK (s : Solver) (cr : Nat) : Prop :=
  WatchConsistent s cr ∧ (s.ca cr).lits.Nodup ∧ (s.ca cr).oneWatched = false ∧
  (s.ca cr).mark ≠ 1

/-! ### The invariant of the two-watched-literal scheme -/

/-- The decision level of the trail position `i`: the number of level fences of
`trail_lim` that are at or below `i`. -/
def levelAt (lims : List Nat) (i : Nat) : Nat := lims.countP (fun b => decide (b ≤ i))

/-- The trail and the assignment agree: the trail literals are true, every assigned
variable is on the trail, once, the level fences are ordered and inside the trail, and
the level stored for a trail literal is the level of its position. -/
structure TrailOK (s : Solver) : Prop where
  allTrue : TrailTrue s
  onTrail : ∀ v, s.assigns v ≠ lbool.l_Undef → ∃ l ∈ s.trail, l.var = v
  nodup : (s.trail.map Lit.var).Nodup
  limsSorted : s.trail_lim.Pairwise (fun a b => a ≤ b)
  limsBound : ∀ b ∈ s.trail_lim, b ≤ s.trail.length
  levels : ∀ i l, s.trail.get? i = some l → s.level l.var = levelAt s.trail_lim i

/-- The trail literals from position `n` on are at the current decision level. -/
def QueueFrom (s : Solver) (n : Nat) : Prop :=
  ∀ i l, n ≤ i → s.trail.get? i = some l → s.level l.var = s.decisionLevel

/-- The watcher `w` in the list of the true literal `p` needs no further visit: its
blocker is true, at a level not above the level of `p`. -/
def GoodWatcher (s : Solver) (p : Lit) (w : Watcher) : Prop :=
  s.value w.blocker = lbool.l_True ∧ s.level w.blocker.var ≤ s.level p.var

/-- The watchers of the first `n` trail literals, long and binary, need no visit. -/
def WatchesDone (s : Solver) (n : Nat) : Prop :=
  ∀ i p, i < n → s.trail.get? i = some p →
    (∀ w ∈ s.watches.occs p, GoodWatcher s p w) ∧
    (∀ w ∈ s.watchesBin.occs p, GoodWatcher s p w)

/-- The blocker of every long watcher of the clause `cr` is a literal of the clause. -/
def BlockersIn (occs : Lit → List Watcher) (lits : List Lit) (cr : Nat) : Prop :=
  ∀ q w, w ∈ occs q → w.cref = cr → w.blocker ∈ lits

/-- One of the two long watchers of the clause has the other watched literal as
blocker. -/
def OtherWatchBlocks (occs : Lit → List Watcher) (lits : List Lit) (cr : Nat) : Prop :=
  ∀ c0 c1 c2 rest, lits = c0 :: c1 :: c2 :: rest →
    (∃ w ∈ occs c0.neg, w.cref = cr ∧ w.blocker = c1) ∨
    (∃ w ∈ occs c1.neg, w.cref = cr ∧ w.blocker = c0)

/-- A binary clause has its two binary watchers. -/
def BinAttached (occsBin : Lit → List Watcher) (lits : List Lit) (cr : Nat) : Prop :=
  ∀ a b, lits = [a, b] →
    (⟨cr, b⟩ : Watcher) ∈ occsBin a.neg ∧ (⟨cr, a⟩ : Watcher) ∈ occsBin b.neg

/-- The clause `c` stored at `cr` is attached in the watch lists `occs` (long) and
`occsBin` (binary): at least two pairwise distinct literals, watched through its
first two literals, with blockers taken from the clause. -/
structure AttachedAt (occs occsBin : Lit → List Watcher) (c : Clause) (cr : Nat) :
    Prop where
  watched : WatchedBy occs c.lits cr
  nodup : c.lits.Nodup
  notOne : c.oneWatched = false
  notDel : c.mark ≠ 1
  size : 2 ≤ c.lits.length
  blockers : BlockersIn occs c.lits cr
  other : OtherWatchBlocks occs c.lits cr
  bin : BinAttached occsBin c.lits cr

/-- The clause `cr` is attached in the state `s`. -/
def Attached (s : Solver) (cr : Nat) : Prop :=
  AttachedAt s.watches.occs s.watchesBin.occs (s.ca cr) cr

/-- The clauses that are attached: the original and the learnt clauses. -/
def Solver.attachedRefs (s : Solver) : List Nat := s.clauses ++ s.learnts

/-- The invariant of the propagation engine, the first `n` trail literals being
propagated. -/
structure Inv (s : Solver) (n : Nat) : Prop where
  trail : TrailOK s
  done : WatchesDone s n
  attached : ∀ cr ∈ s.attachedRefs, Attached s cr
  noUnary : s.opts.useUnaryWatched = false
  caBound : ∀ cr ∈ s.attachedRefs, cr < s.caSize
  trailVars : ∀ l ∈ s.trail, l.var < s.nVars
  clauseVars : ∀ cr ∈ s.attachedRefs, ∀ l ∈ (s.ca cr).lits, l.var < s.nVars
  watcherVars : ∀ q w, w ∈ s.watches.occs q → ∀ l ∈ (s.ca w.cref).lits, l.var < s.nVars
  binVars : ∀ q w, w ∈ s.watchesBin.occs q → w.blocker.var < s.nVars
  watcherRefs : ∀ q w, w ∈ s.watches.occs q → w.cref < s.caSize

/-- The part of the invariant that does not depend on the long watch lists, while the
trail literal `p` at position `q` is being propagated and the trail from position `n0`
on is at the current level: the watchers of the literals before `q` need no visit, nor
do the binary watchers of `p`. -/
structure PropCore (n0 q : Nat) (p : Lit) (t : Solver) : Prop where
  trail : TrailOK t
  queue : QueueFrom t n0
  atq : t.trail.get? q = some p
  n0le : n0 ≤ q
  qhead : q + 1 ≤ t.qhead
  done : WatchesDone t q
  binGood : ∀ w ∈ t.watchesBin.occs p, GoodWatcher t p w
  noUnary : t.opts.useUnaryWatched = false
  caBound : ∀ cr ∈ t.attachedRefs, cr < t.caSize
  trailVars : ∀ l ∈ t.trail, l.var < t.nVars
  clauseVars : ∀ cr ∈ t.attachedRefs, ∀ l ∈ (t.ca cr).lits, l.var < t.nVars
  binVars : ∀ q w, w ∈ t.watchesBin.occs q → w.blocker.var < t.nVars

/-- The part of the invariant that depends on the long watch lists `occs`. -/
structure ListCore (occs : Lit → List Watcher) (t : Solver) : Prop where
  attached : ∀ cr ∈ t.attachedRefs, AttachedAt occs t.watchesBin.occs (t.ca cr) cr
  watcherVars : ∀ q w, w ∈ occs q → ∀ l ∈ (t.ca w.cref).lits, l.var < t.nVars
  watcherRefs : ∀ q w, w ∈ occs q → w.cref < t.caSize

/-- The invariant of the states of the search loop: the trail literals before `qhead`
are propagated, the literals from `qhead` on are at the current level, and the level
fences are at or below `qhead`. -/
structure RInv (s : Solver) : Prop where
  inv : Inv s s.qhead
  queue : QueueFrom s s.qhead
  lims : ∀ b ∈ s.trail_lim, b ≤ s.qhead
  qle : s.qhead ≤ s.trail.length

/-- The clause `cr` is neither falsified nor unit under the assignment, and its two
watched literals are not both false. -/
def ClauseComplete (s : Solver) (cr : Nat) : Prop :=
  ¬ AllFalse s cr ∧
  (¬ ∃ l ∈ (s.ca cr).lits, s.value l = lbool.l_Undef ∧
      ∀ l2 ∈ (s.ca cr).lits, l2 ≠ l → s.value l2 = lbool.l_False) ∧
  ∀ c0 c1 rest, (s.ca cr).lits = c0 :: c1 :: rest →
    ¬ (s.value c0 = lbool.l_False ∧ s.value c1 = lbool.l_False)

/-- The states reached from a fresh solver by the operations of the search loop, in
the order in which the search loop uses them: variables are created, clauses over
created variables are added while `ok` holds, a decision is taken when the propagation
queue is empty, and a `propagate` that returns a conflict is followed by `cancelUntil`
to a level below the current one. -/
inductive Reach : Solver → Prop where
  | fresh : Reach Solver.init
  | newVar (s : Solver) (sign dvar : Bool) : Reach s → Reach (newVar s sign dvar).2
  | addClause (s s1 : Solver) (ps : List Lit) (b : Bool) :
      Reach s → (∀ l ∈ ps, l.var < s.nVars) → addClause_ s ps = some (b, s1) →
      s1.ok = true → Reach s1
  | decide (s s1 : Solver) (p : Lit) :
      Reach s → s.trail.length ≤ s.qhead → p.var < s.nVars →
      uncheckedEnqueue s.newDecisionLevel p none = some s1 → Reach s1
  | cancel (s : Solver) (k : Nat) : Reach s → Reach (cancelUntil s k)
  | propagate (s s1 : Solver) : Reach s → propagate s = some (none, s1) → Reach s1
  | conflict (s s1 : Solver) (cr k : Nat) :
      Reach s → propagate s = some (some cr, s1) → k < s1.decisionLevel →
      Reach (cancelUntil s1 k)

end Glucose


namespace Glucose

/-! ## Predicates on conflict states used in the statements on `analyze` -/

/-- The clause `c` is the reason of the trail literal `l` at position `i`: `l` is its
first literal, or `c` is a binary clause with `l` as second literal; every other
literal is the negation of a trail literal at a position before `i`. -/
def ReasonAt (s : Solver) (i : Nat) (l : Lit) (c : List Lit) : Prop :=
  (∃ rest, c = l :: rest ∧ ∀ q ∈ rest, ∃ j, j < i ∧ s.trail.get? j = some q.neg) ∨
  (∃ q, c = [q, l] ∧ ∃ j, j < i ∧ s.trail.get? j = some q.neg)

/-- The part of a conflict state that conflict analysis relies on and keeps: the trail
and the assignment agree, the decision level is above the root level, every reason is
correct, and at the current level only the decision has no reason. -/
structure Analysable (s : Solver) : Prop where
  trail : TrailOK s
  level : 0 < s.decisionLevel
  reasons : ∀ i l r, s.trail.get? i = some l → s.reason l.var = some r →
    ReasonAt s i l (s.ca r).lits
  implied : ∀ i l b, s.trail.get? i = some l → s.trail_lim.getLast? = some b → b < i →
    s.reason l.var ≠ none

/-- A conflict state at the current decision level, as `search` hands it to `analyze`:
the state is analysable, every literal of the clause `confl` is false and one of them
is assigned at the current level, `seen` is all zero, no stamp of `permDiff` is above
`MYFLAG`, and `lastDecisionLevel` is empty. -/
structure ConflictState (s : Solver) (confl : Nat) : Prop where
  ok : Analysable s
  conflFalse : AllFalse s confl
  conflCur : ∃ l ∈ (s.ca confl).lits, s.level l.var = s.decisionLevel
  seen0 : ∀ v, s.seen v = false
  stamps : ∀ x, s.permDiff x ≤ s.MYFLAG
  lastDL : s.lastDecisionLevel = []

/-- The state `t` differs from `s` as conflict analysis allows: same assignment, trail,
levels, reasons, options and binary watchers; the literals of a clause are the same, or
the two literals of a binary clause are swapped. -/
structure AFrame (s t : Solver) : Prop where
  assigns : t.assigns = s.assigns
  vardata : t.vardata = s.vardata
  trail : t.trail = s.trail
  trail_lim : t.trail_lim = s.trail_lim
  opts : t.opts = s.opts
  watchesBin : t.watchesBin = s.watchesBin
  lits : ∀ cr, (t.ca cr).lits = (s.ca cr).lits ∨
    ∃ a b, (s.ca cr).lits = [a, b] ∧ (t.ca cr).lits = [b, a]

/-- The state `t` differs from `s` as a step of conflict analysis that sets no mark
allows: it is a frame of `s` with the same marks in `seen`, the same `lastDecisionLevel`,
`analyze_toclear` and `analyze_stack`, and stamps of `permDiff` that stay at or below
`MYFLAG`. -/
structure QFrame (s t : Solver) : Prop where
  frame : AFrame s t
  seen : t.seen = s.seen
  lastDL : t.lastDecisionLevel = s.lastDecisionLevel
  toclear : t.analyze_toclear = s.analyze_toclear
  stack : t.analyze_stack = s.analyze_stack
  stamps : (∀ x, s.permDiff x ≤ s.MYFLAG) → ∀ x, t.permDiff x ≤ t.MYFLAG

/-- The number of trail literals before position `k` that are marked in `seen` and
assigned at the current decision level or above. -/
def curCount (s : Solver) (k : Nat) : Nat :=
  ((s.trail.take k).filter
    (fun l => s.seen l.var && decide (s.decisionLevel ≤ s.level l.var))).length

/-- The invariant of the resolution loop of `analyze` at the trail position `k`:
`pathC` counts the marked literals of the current level, which are all before `k`; the
other marked variables are those of the literals pushed on `out_learnt` and
`selectors`, which are false, at a level above 0 and below the current one, and have
pairwise distinct variables. -/
structure WalkInv (s : Solver) (k : Nat) (pathC : Int) (out sel : List Lit) : Prop where
  ok : Analysable s
  count : pathC = (curCount s k : Int)
  seenCases : ∀ v, s.seen v = true →
    (∃ i l, i < k ∧ s.trail.get? i = some l ∧ l.var = v ∧ s.decisionLevel ≤ s.level v) ∨
    (∃ l ∈ out ++ sel, l.var = v)
  pushed : ∀ l ∈ out ++ sel, s.value l = lbool.l_False ∧ 0 < s.level l.var ∧
    s.level l.var < s.decisionLevel ∧ s.seen l.var = true
  nodup : ((out ++ sel).map Lit.var).Nodup
  lastDL : ∀ q ∈ s.lastDecisionLevel, s.reason q.var ≠ none
  stamps : ∀ x, s.permDiff x ≤ s.MYFLAG

/-- Every marked variable is the variable of a literal of `analyze_toclear`. -/
def SeenCleared (s : Solver) : Prop :=
  ∀ v, s.seen v = true → ∃ l ∈ s.analyze_toclear, l.var = v

/-- The number of trail literals that are not marked in `seen`. -/
def unseenCount (s : Solver) : Nat :=
  (s.trail.filter (fun l => !s.seen l.var)).length

/-- The invariant of the minimisation of the learnt clause: the state is analysable,
the marked variables are in `analyze_toclear`, the literals of `lastDecisionLevel` have
a reason, and no stamp of `permDiff` is above `MYFLAG`. -/
structure MinInv (s : Solver) : Prop where
  ok : Analysable s
  cleared : SeenCleared s
  lastDL : ∀ q ∈ s.lastDecisionLevel, s.reason q.var ≠ none
  stamps : ∀ x, s.permDiff x ≤ s.MYFLAG

/-- The invariant of the loop of `litRedundant`: the state is analysable, the marked
variables are in `analyze_toclear`, and every literal of `analyze_stack` is false with
a reason. -/
structure RedInv (s : Solver) : Prop where
  ok : Analysable s
  cleared : SeenCleared s
  stack : ∀ q ∈ s.analyze_stack, s.value q = lbool.l_False ∧ s.reason q.var ≠ none
  lastDL : ∀ q ∈ s.lastDecisionLevel, s.reason q.var ≠ none
  stamps : ∀ x, s.permDiff x ≤ s.MYFLAG

/-- The state without the tables of the centrality heuristic: the community and bridge
tables, the centrality scores, their sorted copies and the marks `highcenter`. -/
def Solver.eraseTables (s : Solver) : Solver :=
  { s with
    cmtys := fun _ => 0, cmtystruct := fun _ => 0, cmtybridges := fun _ => 0,
    cmtycentrality := fun _ => Double.ofNat 0, centrality := fun _ => Double.ofNat 0,
    sortedcentrality := fun _ => Double.ofNat 0, sorted_central_vars := fun _ => 0,
    bridges := fun _ => false, numbridges := fun _ => 0, sortednumbridges := fun _ => 0,
    bridgearrangedliterals := fun _ => 0, highcenter := fun _ => false }

/-- The members that the functions called by `search` (propagation, analysis,
backtracking, the clause database, the decision heuristic) do not write: `search` and
`solve_` themselves are the only writers. -/
def Solver.scalars (s : Solver) :=
  (s.nVars, s.opts, s.assumptions, s.caSize, s.decision, s.highcenter, s.model,
   s.stats.conflicts, s.stats.conflictsRestarts, s.stats.decisions, s.stats.starts,
   s.stats.solves, s.lbdQueue, s.trailQueue, s.sumLBD, s.curRestart,
   s.asynch_interrupt, s.conflict_budget, s.propagation_budget, s.cmtys, s.bridges)

/-- What `reduceDB` leaves alone while it runs: the assignment, the reasons and levels,
the literals of every clause, and the deletion mark of the clauses in `keep`. -/
structure RedFrame (keep : Nat → Prop) (s t : Solver) : Prop where
  assigns : t.assigns = s.assigns
  vardata : t.vardata = s.vardata
  lits : ∀ x, (t.ca x).lits = (s.ca x).lits
  mark : ∀ x, keep x → (t.ca x).mark = (s.ca x).mark

/-- What the functions of the learnt clause database leave alone: the assignment, the
levels, the trail, the literals and the LBD of every clause, the threshold
`nbclausesbeforereduce`, the options and the list `clauses`. -/
structure DBFrame (s t : Solver) : Prop where
  assigns : t.assigns = s.assigns
  levels : ∀ v, (t.vardata v).level = (s.vardata v).level
  trail : t.trail = s.trail
  trail_lim : t.trail_lim = s.trail_lim
  lits : ∀ x, (t.ca x).lits = (s.ca x).lits
  lbd : ∀ x, (t.ca x).lbd = (s.ca x).lbd
  nbc : t.nbclausesbeforereduce = s.nbclausesbeforereduce
  opts : t.opts = s.opts

/-- The removal test of the reducer in the words of the specification, for the clause
`cr` at the index `i` of the sorted list: its LBD and its size exceed 2, it can be
deleted, it is not locked, and `i` is below half of the length of the list plus the
number of clauses at smaller indices that could not be deleted. -/
def removedAt (s : Solver) (sorted : List Nat) (i : Nat) (cr : Nat) : Bool :=
  decide (2 < (s.ca cr).lbd) && decide (2 < (s.ca cr).size) && (s.ca cr).canBeDel &&
    !s.locked cr &&
    decide (i < sorted.length / 2 + (sorted.take i).countP (fun x => !(s.ca x).canBeDel))

/-- Members that `propagate` does not write, besides those of `Solver.scalars`: the
lists of clause references, the order heap, the scratch members of conflict analysis,
the threshold of the reducer, the saved polarities, the activity log, the clock of the
oracle and the level fences. -/
def Solver.lists (s : Solver) :=
  (s.clauses, s.learnts, s.unaryWatchedClauses, s.order_heap, s.seen, s.permDiff,
   s.MYFLAG, s.analyze_toclear, s.analyze_stack, s.lastDecisionLevel, s.conflict,
   s.nbclausesbeforereduce, s.simpDB_assigns, s.polarity, s.bumps, s.tick, s.trail_lim)

/-- The part of the header of every clause that `propagate` does not write: the deletion
mark, the flag `learnt`, the LBD and the flag `canBeDel`. -/
def Solver.marks (s : Solver) : Nat → Nat × Bool × Nat × Bool :=
  fun x => ((s.ca x).mark, (s.ca x).learnt, (s.ca x).lbd, (s.ca x).canBeDel)

/-- The tables of the centrality heuristic that the count of the bridges does not
write. -/
def Solver.ctab (s : Solver) :=
  (s.nVars, s.cmtys, s.cmtycentrality, s.centrality, s.sortedcentrality,
   s.sorted_central_vars, s.highcenter)

/-- The entry of a file of pairs for the key `key`, in the words of the specification:
the second component of the last line whose first component is `key`, and `dflt` when
there is no such line. -/
def lastEntry {α : Type} (lines : List (Int × α)) (key : Int) (dflt : α) : α :=
  lines.foldl (fun acc p => if p.1 = key then p.2 else acc) dflt

end Glucose


namespace Glucose

/-! ## Decisions and assumptions -/

/-- Between `s` and `t` no variable was assigned without a reason: a variable that has
no reason in `t` has in `t` the value, the reason and the level it has in `s`. -/
def NoDecision (s t : Solver) : Prop :=
  ∀ v, t.reason v = none → t.assigns v = s.assigns v ∧ t.vardata v = s.vardata v

/-- The invariant of the loop of `search` on the decisions: the trail and the assignment
agree, and a true literal without reason at a level from 1 to `assumptions.size()` is an
assumption (the loop over the assumptions decides them first, one per level). -/
structure DecisionsOK (s : Solver) : Prop where
  trail : TrailOK s
  decisions : ∀ l, s.value l = lbool.l_True → s.reason l.var = none → 0 < s.level l.var →
    s.level l.var ≤ s.assumptions.length → l ∈ s.assumptions

/-- The final conflict of a failed assumption, for the assumptions `A` and the state `t`
returned: the vector `conflict` starts with `¬p` for an assumption `p` that is false, every
other element is the negation of an assumption that is on the trail without reason at a
level above 0, and at level 0 there is no other element. -/
def FinalConflict (A : List Lit) (t : Solver) : Prop :=
  ∃ p rest, p ∈ A ∧ t.value p = lbool.l_False ∧ t.conflict = p.neg :: rest ∧
    (∀ q ∈ rest, ∃ l, q = l.neg ∧ l ∈ A ∧ l ∈ t.trail ∧ t.reason l.var = none ∧
      0 < t.level l.var) ∧
    (t.decisionLevel = 0 → rest = [])

/-- The invariant of the order heap: every unassigned decision variable is in it. -/
def HeapOK (s : Solver) : Prop :=
  ∀ v, v < s.nVars → s.decision v = true → s.assigns v = lbool.l_Undef → v ∈ s.order_heap

/-- The state on which `solve_` runs its loop of calls of `search`, for the state `s0`
left by the first part of `solve_`: `model` and `conflict` are cleared and `solves` is
incremented. -/
def solveStart (s0 : Solver) : Solver :=
  { s0 with
    model := [], conflict := [],
    stats := { s0.stats with solves := s0.stats.solves + 1 } }

/-- Members that conflict analysis and the decision heuristic do not write: the
assignment, the reasons and levels, the trail with its fences and its queue head, the
final conflict, the watch lists, the lists of clause references and the flag `ok`. -/
def Solver.core (s : Solver) :=
  (s.assigns, s.vardata, s.trail, s.trail_lim, s.qhead, s.conflict, s.watches,
   s.watchesBin, s.unaryWatches, s.clauses, s.learnts, s.unaryWatchedClauses, s.ok)

end Glucose


namespace Glucose

/-! ## Truth assignments, entailment, and the invariants of the search loop -/

/-- The literal `l` is true under the total assignment `M` of the variables (`sign`
set is the negative literal). -/
def litTrue (M : Nat → Bool) (l : Lit) : Bool := M l.var != l.sign

/-- The clause `c` is satisfied by `M`: one of its literals is true. -/
def satisfiedBy (M : Nat → Bool) (c : List Lit) : Bool := c.any (litTrue M)

/-- Every clause of the formula `F` is satisfied by `M`. -/
def modelOf (M : Nat → Bool) (F : List (List Lit)) : Bool := F.all (satisfiedBy M)

/-- Every total assignment that satisfies the formula `F` satisfies the clause `c`. -/
def Entails (F : List (List Lit)) (c : List Lit) : Prop :=
  ∀ M, modelOf M F = true → satisfiedBy M c = true

/-- The members of the state that the invariants of the search loop read: all but the
order heap, the saved polarities, the statistics, the queues of the restart policy, the
model, the final conflict, the clock of the oracle, the activity log and the tables of
the centrality heuristic. -/
def Solver.body (s : Solver) :=
  (s.ok, s.nVars, s.assigns, s.vardata, s.decision, s.seen, s.permDiff, s.MYFLAG,
   s.trail, s.trail_lim, s.qhead, s.ca, s.caSize, s.clauses, s.learnts,
   s.unaryWatchedClauses, s.watches, s.watchesBin, s.unaryWatches, s.analyze_toclear,
   s.analyze_stack, s.lastDecisionLevel, s.assumptions, s.opts)

/-- Every reason is correct: the reason clause of a trail literal has the literal first
(or second, for a binary clause), and its other literals are negations of earlier trail
literals. -/
def ReasonsOK (s : Solver) : Prop :=
  ∀ i l r, s.trail.get? i = some l → s.reason l.var = some r →
    ReasonAt s i l (s.ca r).lits

/-- A trail literal above level 0 without reason is a decision: its trail position is a
level fence. -/
def FenceOK (s : Solver) : Prop :=
  ∀ i l, s.trail.get? i = some l → s.reason l.var = none → 0 < s.level l.var →
    i ∈ s.trail_lim

/-- The part of the clause arena that is not allocated holds no literal. -/
def Fresh (s : Solver) : Prop := ∀ cr, s.caSize ≤ cr → (s.ca cr).lits = []

/-- The invariant of the states of `search` that conflict analysis relies on: the trail
and the assignment agree, every reason is correct, the literals without reason above
level 0 are decisions, the binary watchers are well formed, the scratch members of
conflict analysis are clean (`seen` is all zero, no stamp of `permDiff` is above
`MYFLAG`, `lastDecisionLevel` is empty), and one-watched clauses are not in use. -/
structure AInv (s : Solver) : Prop where
  trail : TrailOK s
  reasons : ReasonsOK s
  fences : FenceOK s
  bin : BinWatchOK s
  fresh : Fresh s
  noUnary : s.opts.useUnaryWatched = false
  seen0 : ∀ v, s.seen v = false
  stamps : ∀ x, s.permDiff x ≤ s.MYFLAG
  lastDL : s.lastDecisionLevel = []

/-- The invariant at the head of the loop of `search`: the invariant `AInv`, the trail
literals from `qhead` on are at the current level, and the level fences are at or below
`qhead`. -/
structure CInv (s : Solver) : Prop where
  core : AInv s
  queue : QueueFrom s s.qhead
  lims : ∀ b ∈ s.trail_lim, b ≤ s.qhead
  qle : s.qhead ≤ s.trail.length

/-- The clause `cr` is false and one of its literals is assigned at the current
level. -/
def ConflAt (s : Solver) (cr : Nat) : Prop :=
  AllFalse s cr ∧ ∃ l ∈ (s.ca cr).lits, s.level l.var = s.decisionLevel

/-- What the functions of the clause database (`reduceDB`, `removeSatisfied`,
`checkGarbage`, `rebuildOrderHeap`) do to the state: the assignment, the trail, the
levels, the scratch members of conflict analysis and the literals of every clause are
the same; a reason is the same, or it is reset at decision level 0; no watcher and no
clause reference is added. -/
structure Pruned (s t : Solver) : Prop where
  assigns : t.assigns = s.assigns
  trail : t.trail = s.trail
  trail_lim : t.trail_lim = s.trail_lim
  qhead : t.qhead = s.qhead
  seen : t.seen = s.seen
  permDiff : t.permDiff = s.permDiff
  myflag : t.MYFLAG = s.MYFLAG
  lastDL : t.lastDecisionLevel = s.lastDecisionLevel
  nVars : t.nVars = s.nVars
  opts : t.opts = s.opts
  assumptions : t.assumptions = s.assumptions
  caSize : t.caSize = s.caSize
  decision : t.decision = s.decision
  ok : t.ok = s.ok
  levels : ∀ v, t.level v = s.level v
  reasons : ∀ v, t.reason v = s.reason v ∨ (t.reason v = none ∧ s.decisionLevel = 0)
  lits : ∀ x, (t.ca x).lits = (s.ca x).lits
  bin : ∀ p w, w ∈ t.watchesBin.occs p → w ∈ s.watchesBin.occs p
  long : ∀ p w, w ∈ t.watches.occs p → w ∈ s.watches.occs p
  clauses : ∀ cr ∈ t.clauses, cr ∈ s.clauses
  learnts : ∀ cr ∈ t.learnts, cr ∈ s.learnts

/-- What a pair of predicates has to satisfy to be kept by the loop of `search`, next to
the invariant `CInv`: `X` is the predicate of the states at the head of the loop, `Y`
the predicate of the states in which `propagate` has reported a conflict.  Each field is
one step of the loop: an update of counters, a `propagate` without and with conflict,
the learning step (`analyze`, `cancelUntil`, installation of the learnt clause), a
restart, `simplify`, `reduceDB`, a decision. -/
structure SearchInv (o : Oracle) (X Y : Solver → Prop) : Prop where
  body : ∀ s t, t.body = s.body → X s → X t
  bodyC : ∀ s t, t.body = s.body → Y s → Y t
  quiet : ∀ s t, CInv s → X s → propagate s = some (none, t) → X t
  conflict : ∀ s confl t, CInv s → X s → propagate s = some (some confl, t) → Y t
  learn : ∀ s confl r s5 t, AInv s → 0 < s.decisionLevel → ConflAt s confl → Y s →
    analyze s confl = some r → s5.body = r.state.body →
    installLearnt r (cancelUntil s5 r.out_btlevel) = some t → X t
  cancel : ∀ s k, CInv s → s.qhead = s.trail.length → X s → X (cancelUntil s k)
  simp : ∀ s t, CInv s → s.qhead = s.trail.length → s.ok = true → X s →
    simplify o s = some (true, t) → X t
  reduce : ∀ s t, CInv s → s.qhead = s.trail.length → s.learnts ≠ [] → X s →
    reduceDB o s = some t → X t
  decide : ∀ s p t, CInv s → s.qhead = s.trail.length → X s →
    uncheckedEnqueue s.newDecisionLevel p none = some t → X t

end Glucose


namespace Glucose

/-! ## Concrete solver states -/

/-- The solver after `newVar`, `newVar`, `addClause_ [¬x0, x1]`, `addClause_ [¬x0, ¬x1]`
and the decision `x0` (new decision level, `uncheckedEnqueue`). -/
def exTwoBinary : Option Solver :=
  let s0 := Solver.init
  let (a, s1) := newVar s0 true true
  let (b, s2) := newVar s1 true true
  match addClause_ s2 [mkLit a true, mkLit b false] with
  | some (_, s3) =>
    match addClause_ s3 [mkLit a true, mkLit b true] with
    | some (_, s4) => uncheckedEnqueue s4.newDecisionLevel (mkLit a false) none
    | none => none
  | none => none

/-- The state of `exTwoBinary`, written out: clauses `[¬x0, x1]` and `[¬x0, ¬x1]`, the
decision `x0` on the trail and not yet propagated. -/
def exBinState : Solver :=
  { Solver.init with
    nVars := 2
    assigns := fun v => if v = 0 then lbool.l_True else lbool.l_Undef
    vardata := fun v => ⟨none, if v = 0 then 1 else 0⟩
    decision := fun v => decide (v < 2)
    order_heap := [0, 1]
    polarity := fun v => decide (v < 2)
    trail := [mkLit 0 false]
    trail_lim := [0]
    ca := fun cr =>
      if cr = 0 then Clause.alloc [mkLit 0 true, mkLit 1 false] false
      else if cr = 1 then Clause.alloc [mkLit 0 true, mkLit 1 true] false
      else Clause.alloc [] false
    caSize := 2
    clauses := [0, 1]
    watchesBin :=
      { occs := fun p =>
          if p = mkLit 0 false then [⟨0, mkLit 1 false⟩, ⟨1, mkLit 1 true⟩]
          else if p = mkLit 1 true then [⟨0, mkLit 0 true⟩]
          else if p = mkLit 1 false then [⟨1, mkLit 0 true⟩]
          else []
        dirties := [] } }

/-- The solver after `newVar`, `newVar`, `addClause_ [x0, x1]` and the decision `¬x0`. -/
def exOneBinary : Option Solver :=
  let s0 := Solver.init
  let (a, s1) := newVar s0 true true
  let (b, s2) := newVar s1 true true
  match addClause_ s2 [mkLit a false, mkLit b false] with
  | some (_, s3) => uncheckedEnqueue s3.newDecisionLevel (mkLit a true) none
  | none => none

/-- Three variables and the clause `[x0, x1, x2]` allocated at reference 0, not yet
attached. -/
def exUnattached : Solver :=
  { Solver.init with
    nVars := 3
    decision := fun v => decide (v < 3)
    order_heap := [0, 1, 2]
    ca := fun _ => Clause.alloc [mkLit 0 false, mkLit 1 false, mkLit 2 false] false
    caSize := 1
    clauses := [0] }

/-- The state `exUnattached` after `attachClause(0)`. -/
def exAttached : Solver := (attachClause exUnattached 0).getD exUnattached

/-- The state `exAttached` after the decision `¬x0` (new level, enqueue), before
propagation. -/
def exTernaryDecided : Solver :=
  { exAttached with
    assigns := fun v => if v = 0 then lbool.l_False else lbool.l_Undef
    vardata := fun v => ⟨none, if v = 0 then 1 else 0⟩
    trail := [mkLit 0 true]
    trail_lim := [0] }

/-- Three variables and the clauses `[¬x0, x1, x2]` and `[¬x0, x1, ¬x2]`, built by
`newVar` and `addClause_`. -/
def exTwoTernary : Option Solver :=
  let s0 := Solver.init
  let (a, s1) := newVar s0 true true
  let (b, s2) := newVar s1 true true
  let (c, s3) := newVar s2 true true
  match addClause_ s3 [mkLit a true, mkLit b false, mkLit c false] with
  | some (_, s4) =>
    match addClause_ s4 [mkLit a true, mkLit b false, mkLit c true] with
    | some (_, s5) => some s5
    | none => none
  | none => none

/-- The state `exTwoTernary` after the decision `¬x1` and `propagate`, then the decision
`x0` and `propagate`, which returns the second clause as a conflict: the final state and
the value returned by the second `propagate`. -/
def exAfterConflict : Option (Option Nat × Solver) :=
  match exTwoTernary with
  | none => none
  | some s5 =>
    match uncheckedEnqueue s5.newDecisionLevel (mkLit 1 true) none with
    | none => none
    | some s6 =>
      match propagate s6 with
      | some (none, s7) =>
        match uncheckedEnqueue s7.newDecisionLevel (mkLit 0 false) none with
        | none => none
        | some s8 => propagate s8
      | _ => none

/-- Three variables and the clause `[x0, x1]`; the decision `¬x0`, then the decision
`x2` without a `propagate` in between, then `cancelUntil(1)`. -/
def exCancelled : Option Solver :=
  let s0 := Solver.init
  let (a, s1) := newVar s0 true true
  let (b, s2) := newVar s1 true true
  let (c, s3) := newVar s2 true true
  match addClause_ s3 [mkLit a false, mkLit b false] with
  | some (_, s4) =>
    match uncheckedEnqueue s4.newDecisionLevel (mkLit a true) none with
    | none => none
    | some s5 =>
      match uncheckedEnqueue s5.newDecisionLevel (mkLit c false) none with
      | none => none
      | some s6 => some (cancelUntil s6 1)
  | none => none

/-- The fresh solver after three `newVar`. -/
def exThreeVars : Solver :=
  (newVar (newVar (newVar Solver.init true true).2 true true).2 true true).2

/-- The state `exThreeVars` after `addClause_ [x0, x1, x2]`. -/
def exOneTernary : Solver :=
  ((addClause_ exThreeVars [mkLit 0 false, mkLit 1 false, mkLit 2 false]).getD
    (true, exThreeVars)).2

/-- The state `exOneTernary` after the decision `¬x0`, before propagation. -/
def exTernaryReached : Solver :=
  (uncheckedEnqueue exOneTernary.newDecisionLevel (mkLit 0 true) none).getD exOneTernary

/-- The fresh solver after two `newVar`. -/
def exTwoVars : Solver := (newVar (newVar Solver.init true true).2 true true).2

/-- The state `exTwoVars` after `addClause_ [x0]`: the unit `x0` is on the trail at
level 0 and propagated. -/
def exUnit : Solver := ((addClause_ exTwoVars [mkLit 0 false]).getD (true, exTwoVars)).2

/-- The state `exUnit` after the decision `x1` (new level, enqueue), before
propagation. -/
def exUnitDecided : Solver :=
  (uncheckedEnqueue exUnit.newDecisionLevel (mkLit 1 false) none).getD exUnit

/-- The state `exThreeVars` after `addClause_ [x0]`: three variables, `x0` true at
level 0. -/
def exThreeUnit : Solver :=
  ((addClause_ exThreeVars [mkLit 0 false]).getD (true, exThreeVars)).2

/-- An oracle for the examples: all activities equal, the random generator always
gives 0, no garbage collection is due. -/
def exOracle : Oracle :=
  { varAct := fun _ _ => 0, claAct := fun _ _ => 0, drand := fun _ => Frac.ofNat 0,
    gc := fun _ => false }

/-- Three variables and two learnt clauses of LBD 3, `[x0, x1, x2]` at reference 0 and
`[x0, ¬x1, x2]` at reference 1, with `learnts = [1, 0]`; the decisions `¬x1` and `¬x2`
are on the trail, followed by `x0` with the clause 0 as reason: the clause 0 is
locked. -/
def exLockedLearnt : Solver :=
  { Solver.init with
    nVars := 3
    assigns := fun v => if v = 0 then lbool.l_True else lbool.l_False
    vardata := fun v =>
      if v = 0 then ⟨some 0, 2⟩ else if v = 1 then ⟨none, 1⟩ else ⟨none, 2⟩
    decision := fun v => decide (v < 3)
    trail := [mkLit 1 true, mkLit 2 true, mkLit 0 false]
    trail_lim := [0, 1]
    qhead := 3
    ca := fun cr =>
      if cr = 0 then
        { Clause.alloc [mkLit 0 false, mkLit 1 false, mkLit 2 false] true with lbd := 3 }
      else if cr = 1 then
        { Clause.alloc [mkLit 0 false, mkLit 1 true, mkLit 2 false] true with lbd := 3 }
      else Clause.alloc [] false
    caSize := 2
    learnts := [1, 0]
    watches :=
      { occs := fun p =>
          if p = mkLit 0 true then [⟨0, mkLit 1 false⟩, ⟨1, mkLit 1 true⟩]
          else if p = mkLit 1 true then [⟨0, mkLit 0 false⟩]
          else if p = mkLit 1 false then [⟨1, mkLit 0 false⟩]
          else []
        dirties := [] } }

/-- The state `exTwoVars` after `addClause_ [x0, x1]`. -/
def exChain1 : Solver :=
  ((addClause_ exTwoVars [mkLit 0 false, mkLit 1 false]).getD (true, exTwoVars)).2

/-- The state `exChain1` after `addClause_ [¬x0, x1]`. -/
def exChain2 : Solver :=
  ((addClause_ exChain1 [mkLit 0 true, mkLit 1 false]).getD (true, exChain1)).2

/-- The state `exChain2` after `addClause_ [¬x1]`. -/
def exChain3 : Solver :=
  ((addClause_ exChain2 [mkLit 1 true]).getD (true, exChain2)).2

/-- Files for two variables: both in the community 0 of the community file, and the
score 1/2 for the community 1 of the centrality file. -/
def exFiles2 : Files :=
  { cmty := some [(0, 0), (1, 0)], cnf := true, center := some [(1, Double.num ⟨1, 1⟩)] }

/-- A state of the incremental mode in which the restart test holds: two variables, the
assumption `x0` taken as decision at level 1, the decision `x1` at level 2, both
propagated; 100 conflicts so far, the LBD queue full of the value 5 and `sumLBD = 300`,
so that the average 5 of the queue times `K = 0.8` is above `300 / 100`. -/
def exRestart : Solver :=
  { Solver.init with
    nVars := 2
    opts := { Options.default with incremental := true }
    assumptions := [mkLit 0 false]
    assigns := fun v => if v < 2 then lbool.l_True else lbool.l_Undef
    vardata := fun v => ⟨none, if v = 0 then 1 else if v = 1 then 2 else 0⟩
    decision := fun v => decide (v < 2)
    trail := [mkLit 0 false, mkLit 1 false]
    trail_lim := [0, 1]
    qhead := 2
    lbdQueue := { elems := List.replicate 50 5, maxsize := 50 }
    sumLBD := 300
    stats := { Stats.zero with conflicts := 100, conflictsRestarts := 100, starts := 1,
                               decisions := 150 } }

/-- The state `exLockedLearnt` after 2000 conflicts: the trigger of the reduce-DB step of
`search` holds (`curRestart = 1`, `nbclausesbeforereduce = 2000`). -/
def exReduce : Solver :=
  { exLockedLearnt with stats := { exLockedLearnt.stats with conflicts := 2000 } }

/-- The state `exOneTernary` after `addClause_ [x0]`: the clause `[x0, x1, x2]` is in
`clauses` at reference 0, and `x0` is true at level 0. -/
def exSatisfied : Solver :=
  ((addClause_ exOneTernary [mkLit 0 false]).getD (true, exOneTernary)).2

/-- Files for three variables: `x0` and `x2` in the community 0, `x1` in the community
1; the score 1/2 for the community 1 and 3/4 for the community 2 of the centrality
file. -/
def exFiles3 : Files :=
  { cmty := some [(0, 0), (1, 1), (2, 0)], cnf := true,
    center := some [(1, Double.num ⟨1, 1⟩), (2, Double.num ⟨3, 3⟩)] }

/-- The state `exChain1`, with the clause `[x0, x1]`, under the assumptions `¬x0` and
`¬x1`: the first is decided, the clause then implies `x1`, and the second is false. -/
def exAssume : Solver :=
  { exChain1 with assumptions := [mkLit 0 true, mkLit 1 true] }

/-- The state `exBinState` after `propagate`: the decision `x0` and the literal `x1`,
implied by the clause 0, are on the trail, and the clause 1, `[¬x0, ¬x1]`, is the
conflict that `propagate` returns. -/
def exConflict : Solver := ((propagate exBinState).getD (none, exBinState)).2

end Glucose


namespace Glucose

/-! ## What a re-ordering of literals keeps -/

/-- What a function that only re-orders literals inside clauses keeps: for every clause
reference the multiset of the literals of the clause, its deletion mark and its flag
`learnt`; the size of the arena; and the lists of clause references. -/
def Solver.shape (s : Solver) :=
  (fun x => (Multiset.ofList (s.ca x).lits, (s.ca x).mark, (s.ca x).learnt),
   s.caSize, s.clauses, s.learnts, s.unaryWatchedClauses)

/-- The relation between the state `s` inside a call of `litRedundant` and the members
`seen` and `analyze_toclear` at the entry of the call: `analyze_toclear` has grown by
literals whose variables were not marked at entry, and the marked variables are those
marked at entry and those of the added literals. -/
def SeenAdded (seen0 : Nat → Bool) (tc0 : List Lit) (s : Solver) : Prop :=
  ∃ added, s.analyze_toclear = tc0 ++ added ∧ (∀ l ∈ added, seen0 l.var = false) ∧
    ∀ v, s.seen v = true ↔ (seen0 v = true ∨ ∃ l ∈ added, l.var = v)

/-! ## The count of the bridges, in the words of the specification -/

/-- The pairs of literals of a clause at positions `j < k`, in the order in which the
loops of `solve_` visit them. -/
def litPairs : List Lit → List (Lit × Lit)
  | [] => []
  | l :: ls => ls.map (fun x => (l, x)) ++ litPairs ls

/-- The test that the variable `v` is a member of the pair `p` of literals and that the
variables of the pair are in different communities. -/
def crossPair (cm : Nat → Int) (v : Nat) (p : Lit × Lit) : Bool :=
  (decide (p.1.var = v) || decide (p.2.var = v)) && decide (cm p.1.var ≠ cm p.2.var)

/-- The number of literal pairs `(j < k)`, over all clauses of `clauses`, in which `v` is
a member and the communities of the two variables differ. -/
def bridgePairCount (s : Solver) (v : Nat) : Nat :=
  (s.clauses.map (fun cr => (litPairs (s.ca cr).lits).countP (crossPair s.cmtys v))).sum

/-- The number of variables of the community `c` that are marked in `bridges`. -/
def bridgesInCmty (s : Solver) (c : Nat) : Nat :=
  (List.range s.nVars).countP (fun v => s.bridges v && decide (s.cmtys v = (c : Int)))

/-- The invariant of the loops of `solve_` that count the bridges, for the state `s`
reached from `s0` after the pairs `ps` of literals were visited. -/
structure BridgeInv (s0 : Solver) (ps : List (Lit × Lit)) (s : Solver) : Prop where
  cmtys : s.cmtys = s0.cmtys
  nVars : s.nVars = s0.nVars
  ca : s.ca = s0.ca
  clauses : s.clauses = s0.clauses
  bridges : ∀ v, s.bridges v = true ↔
    (s0.bridges v = true ∨ ∃ p ∈ ps, crossPair s0.cmtys v p = true)
  numbridges : ∀ v, s.numbridges v = s0.numbridges v + ps.countP (crossPair s0.cmtys v)
  cmtybridges : ∀ c : Nat, s.cmtybridges c = bridgesInCmty s c

/-! ## Further concrete states -/

/-- The state `exLockedLearnt` in which the learnt clause 0, `[x0, x1, x2]`, has the
stored LBD 5; its literals are on the decision levels 2, 1 and 2. -/
def exLbd : Solver :=
  { exLockedLearnt with
    ca := fun cr =>
      if cr = 0 then
        { Clause.alloc [mkLit 0 false, mkLit 1 false, mkLit 2 false] true with lbd := 5 }
      else exLockedLearnt.ca cr }

/-- The state `exLbd` after the head of the loop body of `analyze` for the clause 0,
reached as the reason of `x0`. -/
def exLbdAfter : Solver := (analyzeClause exLbd 0 (some (mkLit 0 false))).getD exLbd

/-- The state `exReduce` with `nbclausesbeforereduce = 0`, the value that
`firstReduceDB = 0` gives it. -/
def exReduceZero : Solver := { exReduce with nbclausesbeforereduce := 0 }

/-- A solver with one variable, which is in the community 0. -/
def exOneVar : Solver := (newVar Solver.init true true).2

/-- The solver after `newVar`, `newVar`, `addClause_ [x0, x1]` and `addClause_ [¬x0]`:
the second call enqueues `¬x0` and propagates, so that `x1` is implied at level 0 with
the binary clause 0 as reason; the clause still reads `[x0, x1]`, with the implied
literal at position 1. -/
def exBinReason : Solver :=
  ((addClause_ exChain1 [mkLit 0 true]).getD (true, exChain1)).2

/-- Three variables, the clause `[x1, x2]` at reference 0 and the clause `[x0, ¬x1]` at
reference 1; the decision `¬x2` at level 1, followed by `x1`, implied by the clause 0,
and `x0`, implied by the clause 1; the variable 2 is marked in `seen`. -/
def exRedChain : Solver :=
  { Solver.init with
    nVars := 3
    assigns := fun v => if v = 2 then lbool.l_False else lbool.l_True
    vardata := fun v =>
      if v = 0 then ⟨some 1, 1⟩ else if v = 1 then ⟨some 0, 1⟩ else ⟨none, 1⟩
    decision := fun v => decide (v < 3)
    seen := fun v => decide (v = 2)
    trail := [mkLit 2 true, mkLit 1 false, mkLit 0 false]
    trail_lim := [0]
    qhead := 3
    ca := fun cr =>
      if cr = 0 then Clause.alloc [mkLit 1 false, mkLit 2 false] false
      else if cr = 1 then Clause.alloc [mkLit 0 false, mkLit 1 true] false
      else Clause.alloc [] false
    caSize := 2
    clauses := [0, 1]
    watchesBin :=
      { occs := fun p =>
          if p = mkLit 1 true then [⟨0, mkLit 2 false⟩]
          else if p = mkLit 2 true then [⟨0, mkLit 1 false⟩]
          else if p = mkLit 0 true then [⟨1, mkLit 1 true⟩]
          else if p = mkLit 1 false then [⟨1, mkLit 0 false⟩]
          else []
        dirties := [] } }

/-- Three false variables, `x0` decided at level 2 and `x1`, `x2` at level 1, and the
binary clause `[x0, ¬x1]` at reference 0, attached: the watch list of `¬x0` holds a
watcher with the blocker `¬x1`. -/
def exBinMin : Solver :=
  { Solver.init with
    nVars := 3
    assigns := fun v => if v < 3 then lbool.l_False else lbool.l_Undef
    vardata := fun v => if v = 0 then ⟨none, 2⟩ else ⟨none, 1⟩
    decision := fun v => decide (v < 3)
    trail := [mkLit 1 true, mkLit 2 true, mkLit 0 true]
    trail_lim := [0, 2]
    qhead := 3
    ca := fun cr =>
      if cr = 0 then Clause.alloc [mkLit 0 false, mkLit 1 true] false
      else Clause.alloc [] false
    caSize := 1
    clauses := [0]
    watchesBin :=
      { occs := fun p =>
          if p = mkLit 0 true then [⟨0, mkLit 1 true⟩]
          else if p = mkLit 1 false then [⟨0, mkLit 0 false⟩]
          else []
        dirties := [] } }

/-- Three variables and the clause `[x0, x1, x2]`; `x0` and `x2` are in the community 0
and `x1` is in the community 1; no bridge is counted yet. -/
def exBridge : Solver :=
  { exOneTernary with
    cmtys := fun v => if v = 1 then 1 else 0
    bridges := fun _ => false
    numbridges := fun _ => 0
    cmtybridges := fun _ => 0 }

/-- The fresh solver after four `newVar`. -/
def exFourVars : Solver := (newVar exThreeVars true true).2

/-- Files for four variables: `x0` and `x1` in the community 0, `x2` in the community 1,
`x3` in the community 2; the centrality file gives the score 3 to the community 1, NaN
to the community 2 and the score 1 to the community 3, so that the centralities of the
four variables are 3, 3, NaN and 1. -/
def exFilesNan : Files :=
  { cmty := some [(0, 0), (1, 0), (2, 1), (3, 2)], cnf := true,
    center := some [(1, Double.ofNat 3), (2, Double.nan), (3, Double.ofNat 1)] }

/-- A table of keys for `wsortingtwo`: 2, 1, 2, and 0 from the index 3 on. -/
def exKeys : Nat → Double :=
  fun i => if i = 0 then Double.ofNat 2 else if i = 1 then Double.ofNat 1
    else if i = 2 then Double.ofNat 2 else Double.ofNat 0

/-- A table of variables for `wsortingtwo`: 10, 11, 12, and 0 from the index 3 on. -/
def exPtrs : Nat → Int :=
  fun i => if i = 0 then 10 else if i = 1 then 11 else if i = 2 then 12 else 0

/-! ## The life of an original clause -/

/-- The members that decide whether an original clause is kept or satisfied: the
assignment, the trail with its level fences, the clause arena, the lists `clauses` and
`learnts`, and the number of variables. -/
def Solver.store (s : Solver) :=
  (s.assigns, s.trail, s.trail_lim, s.ca, s.caSize, s.clauses, s.learnts, s.nVars)

/-- The literal `l` is true at decision level 0: it is true, its variable is a variable
of the solver, and every trail position that holds its variable is below every level
fence, so that no `cancelUntil` unassigns it. -/
def Solver.rootTrue (s : Solver) (l : Lit) : Prop :=
  s.value l = lbool.l_True ∧ l.var < s.nVars ∧
  ∀ i x b, s.trail.get? i = some x → x.var = l.var → b ∈ s.trail_lim → i < b

/-- The state `t` is reached from `s` by steps that assign, decide and allocate: an
assigned variable keeps its value, the trail grows by literals whose variables were not
assigned, new level fences are not below the old trail length, an allocated clause keeps
its literals up to order and its deletion mark, `clauses` is not written, and a new
element of `learnts` is a new clause reference. -/
structure Grows (s t : Solver) : Prop where
  assigns : ∀ v, s.assigns v ≠ lbool.l_Undef → t.assigns v = s.assigns v
  trail : ∃ added, t.trail = s.trail ++ added ∧
    ∀ x ∈ added, s.assigns x.var = lbool.l_Undef
  trail_lim : ∃ more, t.trail_lim = s.trail_lim ++ more ∧
    ∀ b ∈ more, s.trail.length ≤ b
  lits : ∀ cr, cr < s.caSize → ((t.ca cr).lits).Perm ((s.ca cr).lits)
  mark : ∀ cr, cr < s.caSize → (t.ca cr).mark = (s.ca cr).mark
  clauses : t.clauses = s.clauses
  learnts : ∀ x ∈ t.learnts, x ∈ s.learnts ∨ (s.caSize ≤ x ∧ x < t.caSize)
  caSize : s.caSize ≤ t.caSize
  nVars : t.nVars = s.nVars

/-- The state `t` is reached from `s` by sweeps of `removeSatisfied` at decision level
0: the assignment, the trail, the literals of every clause and the sizes are the same,
no clause reference is added to `learnts`, and a clause stays in `clauses` with its
deletion mark unless one of its literals is true. -/
structure Swept (s t : Solver) : Prop where
  assigns : t.assigns = s.assigns
  trail : t.trail = s.trail
  trail_lim : t.trail_lim = s.trail_lim
  nVars : t.nVars = s.nVars
  caSize : t.caSize = s.caSize
  lits : ∀ x, (t.ca x).lits = (s.ca x).lits
  learnts : ∀ x ∈ t.learnts, x ∈ s.learnts
  marks : ∀ cr, ((cr ∈ s.clauses → cr ∈ t.clauses) ∧ (t.ca cr).mark = (s.ca cr).mark) ∨
    ∃ l ∈ (s.ca cr).lits, s.value l = lbool.l_True

/-- The invariant of the original clauses `orig`, the clause references that
`addClause_` pushed to `clauses`: they are allocated, they are not learnt clauses, their
literals are over variables of the solver, and each of them is still in `clauses` and
not marked deleted, or one of its literals is true at decision level 0. -/
structure Tracked (orig : List Nat) (s : Solver) : Prop where
  refs : ∀ cr ∈ orig, cr < s.caSize
  allocated : ∀ x ∈ s.learnts, x < s.caSize
  disjoint : ∀ cr ∈ orig, cr ∉ s.learnts
  vars : ∀ cr ∈ orig, ∀ l ∈ (s.ca cr).lits, l.var < s.nVars
  kept : ∀ cr ∈ orig,
    (cr ∈ s.clauses ∧ (s.ca cr).mark ≠ 1) ∨ ∃ l ∈ (s.ca cr).lits, s.rootTrue l

/-- The sequences of calls of `newVar`, `addClause_`, `simplify`, `reduceDB`,
`cancelUntil`, `search` and of iterations of the loop of `search`, from a state in which
every learnt clause is allocated: `Calls o orig s` says that such a sequence ends in
the state `s`, and that `orig` lists the clause references that its calls of
`addClause_` pushed to `clauses`.  The literals given to `addClause_` are over variables
of the solver. -/
inductive Calls (o : Oracle) : List Nat → Solver → Prop where
  | start (s : Solver) : (∀ x ∈ s.learnts, x < s.caSize) → Calls o [] s
  | newVar (orig : List Nat) (s : Solver) (sign dvar : Bool) :
      Calls o orig s → Calls o orig (newVar s sign dvar).2
  | addClause (orig : List Nat) (s t : Solver) (ps : List Lit) (b : Bool) :
      Calls o orig s → (∀ l ∈ ps, l.var < s.nVars) → addClause_ s ps = some (b, t) →
      Calls o (orig ++ t.clauses.drop s.clauses.length) t
  | simplify (orig : List Nat) (s t : Solver) (b : Bool) :
      Calls o orig s → simplify o s = some (b, t) → Calls o orig t
  | reduceDB (orig : List Nat) (s t : Solver) :
      Calls o orig s → reduceDB o s = some t → Calls o orig t
  | cancelUntil (orig : List Nat) (s : Solver) (level : Nat) :
      Calls o orig s → Calls o orig (cancelUntil s level)
  | search (orig : List Nat) (s t : Solver) (fuel : Nat) (r : lbool) :
      Calls o orig s → search o fuel s = some (r, t) → Calls o orig t
  | searchStep (orig : List Nat) (s : Solver) (conflictC : Nat) (blocked : Bool)
      (out : SearchStep) :
      Calls o orig s → searchStep o conflictC blocked s = some out →
      Calls o orig out.state

end Glucose


namespace Glucose

/-! ## Basic facts on literals and values -/

@[simp] theorem Lit.neg_neg (p : Lit) : p.neg.neg = p := by
  cases p; simp [Lit.neg]

@[simp] theorem Lit.neg_var (p : Lit) : p.neg.var = p.var := rfl

theorem Lit.neg_ne (p : Lit) : p.neg ≠ p := by
  cases p with
  | mk v b => cases b <;> simp [Lit.neg]

theorem Lit.neg_inj {p q : Lit} (h : p.neg = q.neg) : p = q := by
  have := congrArg Lit.neg h
  simpa using this

theorem Lit.eq_neg_iff {p q : Lit} : p = q.neg ↔ p.neg = q := by
  constructor
  · intro h; rw [h]; simp
  · intro h; rw [← h]; simp

theorem Lit.eq_or_eq_neg_of_var {p q : Lit} (h : p.var = q.var) : p = q ∨ p = q.neg := by
  cases p with
  | mk v b =>
    cases q with
    | mk v2 b2 =>
      simp only [Lit.neg, Lit.mk.injEq] at *
      subst h
      cases b <;> cases b2 <;> simp

theorem value_neg_true {s : Solver} {p : Lit} :
    s.value p.neg = lbool.l_True ↔ s.value p = lbool.l_False := by
  cases p with
  | mk v b =>
    simp only [Solver.value, Lit.neg]
    cases s.assigns v <;> cases b <;> simp [lbool.xor]

theorem value_neg_false {s : Solver} {p : Lit} :
    s.value p.neg = lbool.l_False ↔ s.value p = lbool.l_True := by
  cases p with
  | mk v b =>
    simp only [Solver.value, Lit.neg]
    cases s.assigns v <;> cases b <;> simp [lbool.xor]

theorem value_neg_undef {s : Solver} {p : Lit} :
    s.value p.neg = lbool.l_Undef ↔ s.value p = lbool.l_Undef := by
  cases p with
  | mk v b =>
    simp only [Solver.value, Lit.neg]
    cases s.assigns v <;> cases b <;> simp [lbool.xor]

theorem value_undef_iff {s : Solver} {p : Lit} :
    s.value p = lbool.l_Undef ↔ s.assigns p.var = lbool.l_Undef := by
  cases p with
  | mk v b =>
    simp only [Solver.value]
    cases s.assigns v <;> cases b <;> simp [lbool.xor]

/-- The value of a literal only depends on the value of its variable. -/
theorem value_congr {s t : Solver} {p : Lit} (h : t.assigns p.var = s.assigns p.var) :
    t.value p = s.value p := by
  simp [Solver.value, h]

theorem value_ofBool (s : Solver) (p : Lit)
    (h : s.assigns p.var = lbool.ofBool (!p.sign)) : s.value p = lbool.l_True := by
  cases p with
  | mk v b =>
    simp only [Solver.value] at *
    rw [h]
    cases b <;> simp [lbool.xor, lbool.ofBool]

/-! ## Effect of `uncheckedEnqueue` -/

theorem uncheckedEnqueue_eq {s s1 : Solver} {p : Lit} {r : Option Nat}
    (h : uncheckedEnqueue s p r = some s1) :
    s.value p = lbool.l_Undef ∧
    s1 = { s with
      assigns := Function.update s.assigns p.var (lbool.ofBool (!p.sign)),
      vardata := Function.update s.vardata p.var ⟨r, s.decisionLevel⟩,
      trail := s.trail ++ [p] } := by
  unfold uncheckedEnqueue at h
  split at h
  · next hv => exact ⟨hv, by simpa using h.symm⟩
  · simp at h

theorem uncheckedEnqueue_value_self {s s1 : Solver} {p : Lit} {r : Option Nat}
    (h : uncheckedEnqueue s p r = some s1) : s1.value p = lbool.l_True := by
  obtain ⟨_, rfl⟩ := uncheckedEnqueue_eq h
  apply value_ofBool
  simp

theorem uncheckedEnqueue_assigns_other {s s1 : Solver} {p : Lit} {r : Option Nat}
    (h : uncheckedEnqueue s p r = some s1) (v : Nat) (hv : s.assigns v ≠ lbool.l_Undef) :
    s1.assigns v = s.assigns v := by
  obtain ⟨hu, rfl⟩ := uncheckedEnqueue_eq h
  have : v ≠ p.var := by
    intro e; subst e
    exact hv (value_undef_iff.mp hu)
  simp [Function.update, this]

/-! ## The extension order of propagation steps -/

theorem perm_pair {a b : Lit} {l : List Lit} (h : l.Perm [a, b]) :
    l = [a, b] ∨ l = [b, a] := by
  have hl := h.length_eq
  match l, hl with
  | [x, y], _ =>
    have hx : x ∈ [a, b] := h.subset (by simp)
    have hy : y ∈ [a, b] := h.subset (by simp)
    have ha : a ∈ [x, y] := h.symm.subset (by simp)
    have hb : b ∈ [x, y] := h.symm.subset (by simp)
    simp only [List.mem_cons, List.mem_singleton, List.not_mem_nil, or_false] at hx hy ha hb
    by_cases hxa : x = a
    · subst hxa
      left
      rcases hy with rfl | rfl
      · rcases hb with rfl | rfl <;> rfl
      · rfl
    · have hxb : x = b := by tauto
      subst hxb
      right
      rcases hy with rfl | rfl
      · rfl
      · rcases ha with rfl | rfl <;> rfl

theorem binOK_of_perm {p : Lit} {w : Watcher} {l l2 : List Lit} (h : l2.Perm l)
    (hl : l = [p.neg, w.blocker] ∨ l = [w.blocker, p.neg]) :
    l2 = [p.neg, w.blocker] ∨ l2 = [w.blocker, p.neg] := by
  rcases hl with rfl | rfl
  · exact perm_pair h
  · exact (perm_pair h).symm

/-- An extension that assigns nothing and leaves the trail alone. -/
theorem Ext.of_frame {s t : Solver} (h1 : t.assigns = s.assigns) (h2 : t.vardata = s.vardata)
    (h3 : ∀ cr, ((t.ca cr).lits).Perm ((s.ca cr).lits)) (h4 : t.trail = s.trail)
    (h5 : t.trail_lim = s.trail_lim)
    (h6 : ∀ p w, w ∈ t.watchesBin.occs p → w ∈ s.watchesBin.occs p ∨
      (t.ca w.cref).lits = [p.neg, w.blocker] ∨ (t.ca w.cref).lits = [w.blocker, p.neg]) :
    Ext s t where
  assigns := fun v _ => by rw [h1]
  vardata := fun v _ => by rw [h2]
  lits := h3
  trail := ⟨[], by simp [h4], by simp, by simp, by simp,
    fun v hs ht => absurd (by rw [h1]; exact hs) ht⟩
  trail_lim := h5
  bin := h6
  newlevel := fun v hs ht => absurd (by rw [h1]; exact hs) ht

theorem Ext.refl (s : Solver) : Ext s s :=
  Ext.of_frame rfl rfl (fun _ => List.Perm.refl _) rfl rfl (fun _ _ h => Or.inl h)

theorem Ext.value_of_assigned {s t : Solver} (h : Ext s t) {l : Lit}
    (hl : s.value l ≠ lbool.l_Undef) : t.value l = s.value l := by
  apply value_congr
  apply h.assigns
  intro e
  exact hl (value_undef_iff.mpr e)

theorem Ext.trans {s t u : Solver} (h1 : Ext s t) (h2 : Ext t u) : Ext s u where
  assigns := by
    intro v hv
    have e1 := h1.assigns v hv
    rw [h2.assigns v (by rw [e1]; exact hv), e1]
  vardata := by
    intro v hv
    have e1 := h1.assigns v hv
    rw [h2.vardata v (by rw [e1]; exact hv), h1.vardata v hv]
  lits := fun cr => (h2.lits cr).trans (h1.lits cr)
  trail := by
    obtain ⟨a1, e1, t1, f1, n1, o1⟩ := h1.trail
    obtain ⟨a2, e2, t2, f2, n2, o2⟩ := h2.trail
    have hf2 : ∀ l ∈ a2, s.assigns l.var = lbool.l_Undef := by
      intro l hl
      by_contra hne
      have := h1.assigns l.var hne
      rw [f2 l hl] at this
      exact hne this.symm
    refine ⟨a1 ++ a2, by rw [e2, e1, List.append_assoc], ?_, ?_, ?_, ?_⟩
    · intro l hl
      rcases List.mem_append.mp hl with hl | hl
      · have := t1 l hl
        rw [h2.value_of_assigned (by rw [this]; simp), this]
      · exact t2 l hl
    · intro l hl
      rcases List.mem_append.mp hl with hl | hl
      · exact f1 l hl
      · exact hf2 l hl
    · rw [List.map_append, List.nodup_append]
      refine ⟨n1, n2, ?_⟩
      intro v hv1 hv2
      obtain ⟨l1, hl1, rfl⟩ := List.mem_map.mp hv1
      obtain ⟨l2, hl2, e⟩ := List.mem_map.mp hv2
      have ht1 := t1 l1 hl1
      have hu2 := f2 l2 hl2
      rw [e] at hu2
      rw [value_undef_iff.mpr hu2] at ht1
      simp at ht1
    · intro v hs hu
      by_cases ht : t.assigns v = lbool.l_Undef
      · obtain ⟨l, hl, e⟩ := o2 v ht hu
        exact ⟨l, List.mem_append_right _ hl, e⟩
      · obtain ⟨l, hl, e⟩ := o1 v hs ht
        exact ⟨l, List.mem_append_left _ hl, e⟩
  trail_lim := by rw [h2.trail_lim, h1.trail_lim]
  bin := by
    intro p w hw
    rcases h2.bin p w hw with hw | hw
    · rcases h1.bin p w hw with hw | hw
      · exact Or.inl hw
      · exact Or.inr (binOK_of_perm (h2.lits _) hw)
    · exact Or.inr hw
  newlevel := by
    intro v hs hu
    by_cases ht : t.assigns v = lbool.l_Undef
    · exact h2.newlevel v ht hu
    · have := h1.newlevel v hs ht
      simp only [Solver.level, Solver.decisionLevel] at this ⊢
      rw [h2.vardata v ht, h2.trail_lim, this]

theorem Ext.trailTrue {s t : Solver} (h : Ext s t) (hs : TrailTrue s) : TrailTrue t := by
  intro l hl
  obtain ⟨a, e, ha, _⟩ := h.trail
  rw [e] at hl
  rcases List.mem_append.mp hl with hl | hl
  · have := hs l hl
    rw [h.value_of_assigned (by rw [this]; simp), this]
  · exact ha l hl

theorem Ext.binWatchOK {s t : Solver} (h : Ext s t) (hs : BinWatchOK s) : BinWatchOK t := by
  intro p w hw
  rcases h.bin p w hw with hw | hw
  · exact binOK_of_perm (h.lits _) (hs p w hw)
  · exact hw

theorem Ext.allFalse {s t : Solver} (h : Ext s t) {cr : Nat} (hs : AllFalse s cr) :
    AllFalse t cr := by
  intro l hl
  have hl2 : l ∈ (s.ca cr).lits := (h.lits cr).subset hl
  have := hs l hl2
  rw [h.value_of_assigned (by rw [this]; simp), this]

theorem Ext.decisionLevel {s t : Solver} (h : Ext s t) : t.decisionLevel = s.decisionLevel := by
  simp [Solver.decisionLevel, h.trail_lim]

/-- An enqueue is an extension. -/
theorem uncheckedEnqueue_ext {s s1 : Solver} {p : Lit} {r : Option Nat}
    (h : uncheckedEnqueue s p r = some s1) : Ext s s1 := by
  have hself := uncheckedEnqueue_value_self h
  obtain ⟨hu, rfl⟩ := uncheckedEnqueue_eq h
  have hne : ∀ v, s.assigns v ≠ lbool.l_Undef → v ≠ p.var := by
    intro v hv e; subst e
    exact hv (value_undef_iff.mp hu)
  refine ⟨?_, ?_, fun _ => List.Perm.refl _, ⟨[p], rfl, ?_, ?_, by simp, ?_⟩, rfl,
    fun _ _ h => Or.inl h, ?_⟩
  · intro v hv
    simp [Function.update, hne v hv]
  · intro v hv
    simp [Function.update, hne v hv]
  · intro l hl
    simp only [List.mem_singleton] at hl
    subst hl
    exact hself
  · intro l hl
    simp only [List.mem_singleton] at hl
    subst hl
    exact value_undef_iff.mp hu
  · intro v hv hv2
    by_cases e : v = p.var
    · exact ⟨p, by simp, e.symm⟩
    · exfalso
      apply hv2
      simpa [Function.update, e] using hv
  · intro v hv hv2
    by_cases e : v = p.var
    · subst e
      simp [Solver.level, Solver.decisionLevel]
    · exfalso
      apply hv2
      simpa [Function.update, e] using hv

/-- Reordering the literals of a clause is an extension. -/
theorem setLits_ext (s : Solver) (cr : Nat) (ls : List Lit)
    (h : ls.Perm (s.ca cr).lits) : Ext s (s.setLits cr ls) := by
  refine Ext.of_frame rfl rfl ?_ rfl rfl (fun _ _ h => Or.inl h)
  intro cr2
  by_cases e : cr2 = cr
  · subst e; simpa [Solver.setLits] using h
  · simp [Solver.setLits, Function.update, e]

/-! ## The choice of a new watch -/

theorem findNonFalse_none {s : Solver} {ls : List Lit} (h : findNonFalse s ls = none) :
    ∀ l ∈ ls, s.value l = lbool.l_False := by
  induction ls with
  | nil => simp
  | cons a ls ih =>
    unfold findNonFalse at h
    split at h
    · simp at h
    · next hv =>
      simp only [Option.map_eq_none'] at h
      intro l hl
      rcases List.mem_cons.mp hl with rfl | hl
      · simpa using hv
      · exact ih h l hl

theorem findNonFalse_some {s : Solver} {ls : List Lit} {k : Nat}
    (h : findNonFalse s ls = some k) :
    ∃ x, ls.get? k = some x ∧ s.value x ≠ lbool.l_False ∧
      ∀ l ∈ ls.take k, s.value l = lbool.l_False := by
  induction ls generalizing k with
  | nil => simp [findNonFalse] at h
  | cons a ls ih =>
    unfold findNonFalse at h
    split at h
    · next hv =>
      simp only [Option.some.injEq] at h
      subst h
      exact ⟨a, rfl, hv, by simp⟩
    · next hv =>
      simp only [Option.map_eq_some'] at h
      obtain ⟨k2, hk2, rfl⟩ := h
      obtain ⟨x, hx, hxv, hpre⟩ := ih hk2
      refine ⟨x, by simpa using hx, hxv, ?_⟩
      intro l hl
      simp only [List.take_succ_cons, List.mem_cons] at hl
      rcases hl with rfl | hl
      · simpa using hv
      · exact hpre l hl

theorem findWatchSel_spec {s : Solver} {ls : List Lit} {k0 : Nat} {ch : Option Nat} :
    (findWatchSel s k0 ch ls = none → ∀ l ∈ ls, s.value l = lbool.l_False) ∧
    (∀ k, findWatchSel s k0 ch ls = some k → ch = some k ∨
        (k0 ≤ k ∧ ∃ x, ls.get? (k - k0) = some x ∧ s.value x ≠ lbool.l_False)) := by
  induction ls generalizing k0 ch with
  | nil => simp [findWatchSel]
  | cons a ls ih =>
    unfold findWatchSel
    split
    · next hv =>
      split
      · refine ⟨by simp, ?_⟩
        intro k hk
        simp only [Option.some.injEq] at hk
        subst hk
        exact Or.inr ⟨le_refl _, a, by simp, hv⟩
      · constructor
        · intro h
          have := (@ih (k0 + 1) (some k0)).2
          exfalso
          cases hr : findWatchSel s (k0 + 1) (some k0) ls with
          | none =>
            -- the running choice is never lost
            have hkeep : ∀ (ls : List Lit) (k0 : Nat) (c : Nat),
                findWatchSel s k0 (some c) ls ≠ none := by
              intro ls
              induction ls with
              | nil => intro k0 c; simp [findWatchSel]
              | cons b ls ih2 =>
                intro k0 c
                unfold findWatchSel
                split
                · split
                  · simp
                  · exact ih2 _ _
                · exact ih2 _ _
            exact hkeep ls (k0 + 1) k0 hr
          | some k => rw [hr] at h; simp at h
        · intro k hk
          rcases (@ih (k0 + 1) (some k0)).2 k hk with h | ⟨hle, x, hx, hxv⟩
          · simp only [Option.some.injEq] at h
            subst h
            exact Or.inr ⟨le_refl _, a, by simp, hv⟩
          · refine Or.inr ⟨by omega, x, ?_, hxv⟩
            have : k - k0 = (k - (k0 + 1)) + 1 := by omega
            rw [this]
            simpa using hx
    · next hv =>
      constructor
      · intro h l hl
        rcases List.mem_cons.mp hl with rfl | hl
        · simpa using hv
        · exact (@ih (k0 + 1) ch).1 h l hl
      · intro k hk
        rcases (@ih (k0 + 1) ch).2 k hk with h | ⟨hle, x, hx, hxv⟩
        · exact Or.inl h
        · refine Or.inr ⟨by omega, x, ?_, hxv⟩
          have : k - k0 = (k - (k0 + 1)) + 1 := by omega
          rw [this]
          simpa using hx

theorem findWatch_none {s : Solver} {ls : List Lit} (h : findWatch s ls = none) :
    ∀ l ∈ ls, s.value l = lbool.l_False := by
  unfold findWatch at h
  split at h
  · split at h
    · exact findNonFalse_none h
    · exact findWatchSel_spec.1 h
  · exact findNonFalse_none h

theorem findWatch_some {s : Solver} {ls : List Lit} {k : Nat} (h : findWatch s ls = some k) :
    ∃ x, ls.get? k = some x ∧ s.value x ≠ lbool.l_False := by
  unfold findWatch at h
  split at h
  · split at h
    · obtain ⟨x, hx, hv, _⟩ := findNonFalse_some h
      exact ⟨x, hx, hv⟩
    · rcases findWatchSel_spec.2 k h with h | ⟨_, x, hx, hv⟩
      · simp at h
      · exact ⟨x, by simpa using hx, hv⟩
  · obtain ⟨x, hx, hv, _⟩ := findNonFalse_some h
    exact ⟨x, hx, hv⟩

theorem findNonFalse_congr {s t : Solver} (h : t.assigns = s.assigns) (ls : List Lit) :
    findNonFalse t ls = findNonFalse s ls := by
  induction ls with
  | nil => rfl
  | cons a ls ih => simp [findNonFalse, ih, Solver.value, h]

theorem findWatchSel_congr {s t : Solver} (h : t.assigns = s.assigns)
    (h2 : t.opts = s.opts) (ls : List Lit) (k : Nat)
    (ch : Option Nat) : findWatchSel t k ch ls = findWatchSel s k ch ls := by
  induction ls generalizing k ch with
  | nil => rfl
  | cons a ls ih => simp [findWatchSel, ih, Solver.value, h, Solver.isSelector, h2]

@[simp] theorem findWatch_setLits (s : Solver) (cr : Nat) (ls rest : List Lit) :
    findWatch (s.setLits cr ls) rest = findWatch s rest := by
  unfold findWatch
  rw [findNonFalse_congr (t := s.setLits cr ls) (s := s) rfl,
    findWatchSel_congr (t := s.setLits cr ls) (s := s) rfl rfl]
  rfl

@[simp] theorem value_setLits (s : Solver) (cr : Nat) (ls : List Lit) (l : Lit) :
    (s.setLits cr ls).value l = s.value l := rfl

@[simp] theorem setLits_setLits (s : Solver) (cr : Nat) (l1 l2 : List Lit) :
    (s.setLits cr l1).setLits cr l2 = s.setLits cr l2 := by
  simp [Solver.setLits]

/-! ## The visit of one long watcher -/

theorem longStep_spec {p : Lit} {w : Watcher} {s : Solver} {out : WatchOutcome}
    (h : longStep p w s = some out) : LongSpec p w s out := by
  unfold longStep at h
  by_cases hb : s.value w.blocker = lbool.l_True
  · rw [if_pos hb] at h
    simp only [Option.some.injEq] at h
    subst h
    exact LongSpec.skip hb
  · rw [if_neg hb] at h
    dsimp only at h
    by_cases ho : (s.ca w.cref).oneWatched = true
    · rw [if_pos ho] at h; simp at h
    · rw [if_neg ho] at h
      match hl : (s.ca w.cref).lits with
      | [] => rw [hl] at h; simp at h
      | [_] => rw [hl] at h; simp at h
      | c0 :: c1 :: rest =>
        rw [hl] at h
        dsimp only at h
        have hsec : (if c0 = p.neg then p.neg else c1) = p.neg := by
          by_contra hne
          rw [if_pos hne] at h
          simp at h
        rw [if_neg (by simpa using hsec), hsec] at h
        generalize hfirst : (if c0 = p.neg then c1 else c0) = first at h
        have hvis : Visited p w s c0 c1 rest first := by
          refine ⟨hb, by simpa using ho, hl, ?_⟩
          by_cases e : c0 = p.neg
          · rw [if_pos e] at hfirst
            exact Or.inl ⟨e, hfirst.symm⟩
          · rw [if_neg e] at hfirst hsec
            exact Or.inr ⟨e, hsec, hfirst.symm⟩
        simp only [value_setLits, findWatch_setLits, setLits_setLits] at h
        by_cases hsat : first ≠ w.blocker ∧ s.value first = lbool.l_True
        · rw [if_pos hsat] at h
          simp only [Option.some.injEq] at h
          subst h
          exact LongSpec.sat c0 c1 rest first hvis hsat.1 hsat.2
        · rw [if_neg hsat] at h
          have hnt : s.value first ≠ lbool.l_True := by
            intro ht
            apply hsat
            refine ⟨?_, ht⟩
            intro e
            rw [e] at ht
            exact hb ht
          cases hk : findWatch s rest with
          | some k =>
            rw [hk] at h
            dsimp only at h
            obtain ⟨x, hx, hxv⟩ := findWatch_some hk
            have hx2 : rest.get? k = some x := hx
            rw [hx2] at h
            dsimp only at h
            by_cases hxp : x.neg = p
            · rw [if_pos hxp] at h; simp at h
            · rw [if_neg hxp] at h
              simp only [Option.some.injEq] at h
              subst h
              exact LongSpec.moved c0 c1 rest first k x hvis hnt hx hxv hxp
          | none =>
            rw [hk] at h
            dsimp only at h
            have hall := findWatch_none hk
            by_cases hf : s.value first = lbool.l_False
            · rw [if_pos hf] at h
              simp only [Option.some.injEq] at h
              subst h
              exact LongSpec.conflict c0 c1 rest first hvis hall hf
            · rw [if_neg hf] at h
              cases he : uncheckedEnqueue (s.setLits w.cref (first :: p.neg :: rest)) first
                  (some w.cref) with
              | none => rw [he] at h; simp at h
              | some s2 =>
                rw [he] at h
                simp only [Option.some.injEq] at h
                subst h
                refine LongSpec.unit c0 c1 rest first s2 hvis hall ?_ he
                revert hnt hf
                cases s.value first <;> simp

/-! ## Every step of `propagate` is an extension -/

theorem Ext.of_fields {s t : Solver} (h1 : t.assigns = s.assigns) (h2 : t.vardata = s.vardata)
    (h3 : ∀ cr, (t.ca cr).lits = (s.ca cr).lits) (h4 : t.trail = s.trail)
    (h5 : t.trail_lim = s.trail_lim) (h6 : t.watchesBin = s.watchesBin) : Ext s t :=
  Ext.of_frame h1 h2 (fun cr => by rw [h3]) h4 h5 (fun p w h => Or.inl (by rw [h6] at h; exact h))

theorem perm_swap_get {α : Type} {rest : List α} {k : Nat} {x : α} (y : α)
    (h : rest.get? k = some x) : (x :: rest.set k y).Perm (y :: rest) := by
  induction rest generalizing k with
  | nil => simp at h
  | cons a rest ih =>
    cases k with
    | zero =>
      simp only [List.get?_cons_zero, Option.some.injEq] at h
      subst h
      simp only [List.set_cons_zero]
      exact List.Perm.swap _ _ _
    | succ k =>
      simp only [List.get?_cons_succ] at h
      simp only [List.set_cons_succ]
      have := ih h
      calc (x :: a :: rest.set k y).Perm (a :: x :: rest.set k y) := List.Perm.swap _ _ _
        _ |>.Perm (a :: y :: rest) := List.Perm.cons a this
        _ |>.Perm (y :: a :: rest) := List.Perm.swap _ _ _

theorem Visited.perm {p : Lit} {w : Watcher} {s : Solver} {c0 c1 : Lit} {rest : List Lit}
    {first : Lit} (h : Visited p w s c0 c1 rest first) :
    (first :: p.neg :: rest).Perm (s.ca w.cref).lits := by
  obtain ⟨_, _, hl, hc⟩ := h
  rw [hl]
  rcases hc with ⟨rfl, rfl⟩ | ⟨_, rfl, rfl⟩
  · exact List.Perm.swap _ _ _
  · exact List.Perm.refl _

theorem LongSpec.toExt {p : Lit} {w : Watcher} {s : Solver} {out : WatchOutcome}
    (h : LongSpec p w s out) : Ext s out.state := by
  cases h with
  | skip _ => exact Ext.refl s
  | sat c0 c1 rest first hv _ _ => exact setLits_ext s _ _ hv.perm
  | moved c0 c1 rest first k x hv _ hx _ _ =>
    refine Ext.trans (setLits_ext s w.cref (first :: x :: rest.set k p.neg) ?_)
      (Ext.of_fields rfl rfl (fun _ => rfl) rfl rfl rfl)
    exact (List.Perm.cons first (perm_swap_get p.neg hx)).trans hv.perm
  | conflict c0 c1 rest first hv _ _ =>
    exact Ext.trans (setLits_ext s _ _ hv.perm) (Ext.of_fields rfl rfl (fun _ => rfl) rfl rfl rfl)
  | unit c0 c1 rest first s2 hv _ _ he =>
    exact Ext.trans (setLits_ext s _ _ hv.perm) (uncheckedEnqueue_ext he)

theorem longStep_ext {p : Lit} {w : Watcher} {s : Solver} {out : WatchOutcome}
    (h : longStep p w s = some out) : Ext s out.state := (longStep_spec h).toExt

/-- A conflict reported by the visit of a long watcher is a clause whose literals are
all false, when the visited literal `p` is true. -/
theorem LongSpec.conflict_allFalse {p : Lit} {w : Watcher} {s s1 : Solver} {cr : Nat}
    {w1 : Watcher} (h : LongSpec p w s (WatchOutcome.conflict cr w1 s1))
    (hp : s.value p = lbool.l_True) : AllFalse s1 cr := by
  cases h with
  | conflict c0 c1 rest first hv hall hf =>
    intro l hl
    simp only [Solver.setQhead, Solver.setLits, Function.update_same, List.mem_cons] at hl
    show s.value l = lbool.l_False
    rcases hl with rfl | rfl | hl
    · exact hf
    · exact value_neg_false.mpr hp
    · exact hall l hl

/-- Induction along the loop over the long watchers: a property of the current `confl`,
of the whole list (kept watchers followed by the watchers still to visit) and of the
state that every outcome of a visit maintains holds at the end of the loop. -/
theorem propagateLong_induct {p : Lit} (I : Option Nat → List Watcher → Solver → Prop)
    (hkeep : ∀ confl pre w post s w1 s1, I confl (pre ++ w :: post) s →
      longStep p w s = some (WatchOutcome.keep w1 s1) → I confl (pre ++ w1 :: post) s1)
    (hmoved : ∀ confl pre w post s s1, I confl (pre ++ w :: post) s →
      longStep p w s = some (WatchOutcome.moved s1) → I confl (pre ++ post) s1)
    (hconf : ∀ confl pre w post s cr w1 s1, I confl (pre ++ w :: post) s →
      longStep p w s = some (WatchOutcome.conflict cr w1 s1) →
      I (some cr) (pre ++ w1 :: post) s1) :
    ∀ (ws kept : List Watcher) (confl : Option Nat) (s : Solver)
      (r : Option Nat × List Watcher × Solver),
      I confl (kept ++ ws) s → propagateLong p ws kept confl s = some r → I r.1 r.2.1 r.2.2 := by
  intro ws
  induction ws with
  | nil =>
    intro kept confl s r hI h
    simp only [propagateLong, Option.some.injEq] at h
    subst h
    simpa using hI
  | cons w ws ih =>
    intro kept confl s r hI h
    unfold propagateLong at h
    cases hs : longStep p w s with
    | none => rw [hs] at h; simp at h
    | some out =>
      rw [hs] at h
      cases out with
      | keep w1 s1 =>
        dsimp only at h
        apply ih _ _ _ _ _ h
        have := hkeep confl kept w ws s w1 s1 hI hs
        simpa using this
      | moved s1 =>
        dsimp only at h
        exact ih _ _ _ _ (hmoved confl kept w ws s s1 hI hs) h
      | conflict cr w1 s1 =>
        simp only [Option.some.injEq] at h
        subst h
        have := hconf confl kept w ws s cr w1 s1 hI hs
        simpa using this

theorem propagateLong_ext {p : Lit} {ws kept : List Watcher} {confl : Option Nat}
    {s : Solver} {r : Option Nat × List Watcher × Solver}
    (h : propagateLong p ws kept confl s = some r) : Ext s r.2.2 := by
  refine propagateLong_induct (p := p) (fun _ _ t => Ext s t) ?_ ?_ ?_ ws kept confl s r
    (Ext.refl s) h
  · intro _ _ _ _ t _ t1 hI hs
    exact hI.trans (longStep_ext hs)
  · intro _ _ _ _ t t1 hI hs
    exact hI.trans (longStep_ext hs)
  · intro _ _ _ _ t _ _ t1 hI hs
    exact hI.trans (longStep_ext hs)

theorem propagateLong_conflict {p : Lit} {ws kept : List Watcher} {confl : Option Nat}
    {s : Solver} {r : Option Nat × List Watcher × Solver}
    (h : propagateLong p ws kept confl s = some r) (hp : s.value p = lbool.l_True)
    (hc : ∀ cr, confl = some cr → AllFalse s cr) :
    ∀ cr, r.1 = some cr → AllFalse r.2.2 cr := by
  have := propagateLong_induct (p := p)
    (fun c _ t => t.value p = lbool.l_True ∧ ∀ cr, c = some cr → AllFalse t cr) ?_ ?_ ?_
    ws kept confl s r ⟨hp, hc⟩ h
  · exact this.2
  · intro _ _ _ _ t _ t1 hI hs
    have he : Ext t t1 := longStep_ext hs
    refine ⟨by rw [he.value_of_assigned (by rw [hI.1]; simp), hI.1], ?_⟩
    intro cr hcr
    exact he.allFalse (hI.2 cr hcr)
  · intro _ _ _ _ t t1 hI hs
    have he : Ext t t1 := longStep_ext hs
    refine ⟨by rw [he.value_of_assigned (by rw [hI.1]; simp), hI.1], ?_⟩
    intro cr hcr
    exact he.allFalse (hI.2 cr hcr)
  · intro _ _ _ _ t cr w1 t1 hI hs
    have he : Ext t t1 := longStep_ext hs
    refine ⟨by rw [he.value_of_assigned (by rw [hI.1]; simp), hI.1], ?_⟩
    intro cr2 hcr
    simp only [Option.some.injEq] at hcr
    subst hcr
    exact (longStep_spec hs).conflict_allFalse hI.1

/-! ## Watch maps -/

theorem OccLists.mem_push {o : OccLists} {q p : Lit} {w0 w : Watcher} :
    w ∈ (o.push q w0).occs p ↔ w ∈ o.occs p ∨ (p = q ∧ w = w0) := by
  unfold OccLists.push
  by_cases e : p = q
  · subst e; simp
  · simp [Function.update, e]

theorem OccLists.push_occs_ne {o : OccLists} {q p : Lit} {w0 : Watcher} (h : p ≠ q) :
    (o.push q w0).occs p = o.occs p := by
  simp [OccLists.push, Function.update, h]

theorem OccLists.push_occs_same {o : OccLists} {q : Lit} {w0 : Watcher} :
    (o.push q w0).occs q = o.occs q ++ [w0] := by
  simp [OccLists.push]

theorem OccLists.mem_cleanAll {o : OccLists} {d : Watcher → Bool} {p : Lit} {w : Watcher}
    (h : w ∈ (o.cleanAll d).occs p) : w ∈ o.occs p := by
  unfold OccLists.cleanAll at h
  dsimp only at h
  split at h
  · exact (List.mem_filter.mp h).1
  · exact h

/-! ## Attaching and promoting -/

theorem attachClause_ext {s t : Solver} {cr : Nat} (h : attachClause s cr = some t) :
    Ext s t := by
  unfold attachClause at h
  dsimp only at h
  match hl : (s.ca cr).lits with
  | [] => rw [hl] at h; simp at h
  | [_] => rw [hl] at h; simp at h
  | c0 :: c1 :: rest =>
    rw [hl] at h
    simp only [Option.some.injEq] at h
    subst h
    by_cases hr : rest = []
    · subst hr
      refine Ext.of_frame ?_ ?_ ?_ ?_ ?_ ?_
      · split <;> rfl
      · split <;> rfl
      · intro cr2; split <;> exact List.Perm.refl _
      · split <;> rfl
      · split <;> rfl
      · intro p w hw
        have hw2 : w ∈ ((s.watchesBin.push c0.neg ⟨cr, c1⟩).push c1.neg ⟨cr, c0⟩).occs p := by
          split at hw <;> simpa using hw
        have hca : ∀ (t : Solver), t.ca = s.ca →
            (w ∈ s.watchesBin.occs p ∨ (t.ca w.cref).lits = [p.neg, w.blocker] ∨
              (t.ca w.cref).lits = [w.blocker, p.neg]) := by
          intro t ht
          rw [ht]
          rcases OccLists.mem_push.mp hw2 with hw3 | ⟨rfl, rfl⟩
          · rcases OccLists.mem_push.mp hw3 with hw4 | ⟨rfl, rfl⟩
            · exact Or.inl hw4
            · right; left; simp [hl]
          · right; right; simp [hl]
        split
        · exact hca _ rfl
        · exact hca _ rfl
    · simp only [hr, if_false]
      split <;> exact Ext.of_fields rfl rfl (fun _ => rfl) rfl rfl rfl

theorem perm_set_swap {α : Type} {rest : List α} {i : Nat} {r1 li : α}
    (h0 : rest.get? 0 = some r1) (hi : rest.get? i = some li) :
    ((rest.set i r1).set 0 li).Perm rest := by
  match rest, h0 with
  | a :: rest, h0 =>
    simp only [List.get?_cons_zero, Option.some.injEq] at h0
    subst h0
    cases i with
    | zero =>
      simp only [List.get?_cons_zero, Option.some.injEq] at hi
      subst hi
      simp
    | succ i =>
      simp only [List.get?_cons_succ] at hi
      simp only [List.set_cons_succ, List.set_cons_zero]
      exact perm_swap_get a hi

theorem promoteClause_ext {s t : Solver} {cr : Nat} {c0 : Lit} {rest : List Lit}
    (hl : (s.ca cr).lits = c0 :: rest) (h : promoteClause s cr c0 rest = some t) :
    Ext s t := by
  unfold promoteClause at h
  split at h
  · simp at h
  · cases hm : maxLevelIndex s rest 1 none with
    | none => rw [hm] at h; simp at h
    | some im =>
      obtain ⟨index, m⟩ := im
      rw [hm] at h
      dsimp only at h
      cases rest with
      | nil => simp at h
      | cons r1 tl =>
        dsimp only at h
        cases hli : (r1 :: tl).get? (index - 1) with
        | none => rw [hli] at h; simp at h
        | some li =>
          rw [hli] at h
          dsimp only at h
          split at h
          · simp at h
          · next s4 h4 =>
            simp only [Option.some.injEq] at h
            subst h
            have e1 : Ext s
                (Solver.setLits
                  { s with stats := { s.stats with nbPromoted := s.stats.nbPromoted + 1 } } cr
                  (c0 :: ((r1 :: tl).set (index - 1) r1).set 0 li)) := by
              refine Ext.trans (Ext.of_fields (t :=
                { s with stats := { s.stats with nbPromoted := s.stats.nbPromoted + 1 } })
                rfl rfl (fun _ => rfl) rfl rfl rfl) (setLits_ext _ _ _ ?_)
              show (c0 :: ((r1 :: tl).set (index - 1) r1).set 0 li).Perm (s.ca cr).lits
              rw [hl]
              exact List.Perm.cons c0 (perm_set_swap rfl hli)
            refine (e1.trans (attachClause_ext h4)).trans ?_
            refine Ext.of_frame rfl rfl ?_ rfl rfl (fun _ _ h => Or.inl h)
            intro cr2
            by_cases e : cr2 = cr
            · subst e; simp
            · simp [Function.update, e]

theorem unaryStep_ext {p : Lit} {w : Watcher} {s : Solver} {out : WatchOutcome}
    (h : unaryStep p w s = some out) : Ext s out.state := by
  unfold unaryStep at h
  by_cases hb : s.value w.blocker = lbool.l_True
  · rw [if_pos hb] at h
    simp only [Option.some.injEq] at h
    subst h
    exact Ext.refl s
  · rw [if_neg hb] at h
    dsimp only at h
    split at h
    · simp at h
    · match hl : (s.ca w.cref).lits with
      | [] => rw [hl] at h; simp at h
      | c0 :: rest =>
        rw [hl] at h
        dsimp only at h
        split at h
        · simp at h
        · next hc0 =>
          have hc0 : c0 = p.neg := by simpa using hc0
          cases hk : findNonFalse s rest with
          | some k =>
            rw [hk] at h
            dsimp only at h
            obtain ⟨x, hx, _, _⟩ := findNonFalse_some hk
            rw [hx] at h
            dsimp only at h
            split at h
            · simp at h
            · simp only [Option.some.injEq] at h
              subst h
              refine Ext.trans (setLits_ext s w.cref (x :: rest.set k p.neg) ?_)
                (Ext.of_fields rfl rfl (fun _ => rfl) rfl rfl rfl)
              rw [hl, hc0]
              exact perm_swap_get p.neg hx
          | none =>
            rw [hk] at h
            dsimp only at h
            have e1 : Ext s (s.setQhead s.trail.length) :=
              Ext.of_fields rfl rfl (fun _ => rfl) rfl rfl rfl
            split at h
            · split at h
              · simp at h
              · next s2 hp2 =>
                simp only [Option.some.injEq] at h
                subst h
                exact e1.trans (promoteClause_ext (s := s.setQhead s.trail.length) hl hp2)
            · simp only [Option.some.injEq] at h
              subst h
              exact e1

theorem unaryStep_conflict {p : Lit} {w : Watcher} {s s1 : Solver} {cr : Nat} {w1 : Watcher}
    (h : unaryStep p w s = some (WatchOutcome.conflict cr w1 s1))
    (hp : s.value p = lbool.l_True) : AllFalse s1 cr := by
  have hext : Ext s s1 := unaryStep_ext h
  apply hext.allFalse
  unfold unaryStep at h
  by_cases hb : s.value w.blocker = lbool.l_True
  · rw [if_pos hb] at h
    simp at h
  · rw [if_neg hb] at h
    dsimp only at h
    split at h
    · simp at h
    · match hl : (s.ca w.cref).lits with
      | [] => rw [hl] at h; simp at h
      | c0 :: rest =>
        rw [hl] at h
        dsimp only at h
        split at h
        · simp at h
        · next hc0 =>
          have hc0 : c0 = p.neg := by simpa using hc0
          cases hk : findNonFalse s rest with
          | some k =>
            rw [hk] at h
            dsimp only at h
            obtain ⟨x, hx, _, _⟩ := findNonFalse_some hk
            rw [hx] at h
            dsimp only at h
            split at h <;> simp at h
          | none =>
            rw [hk] at h
            dsimp only at h
            have hall : AllFalse s w.cref := by
              intro l hl2
              rw [hl] at hl2
              rcases List.mem_cons.mp hl2 with rfl | hl2
              · rw [hc0]; exact value_neg_false.mpr hp
              · exact findNonFalse_none hk l hl2
            split at h
            · split at h
              · simp at h
              · simp only [Option.some.injEq, WatchOutcome.conflict.injEq] at h
                rw [← h.1]
                exact hall
            · simp only [Option.some.injEq, WatchOutcome.conflict.injEq] at h
              rw [← h.1]
              exact hall

/-! ## The loops of `propagate` -/

theorem propagateBin_ext {ws : List Watcher} {s : Solver} {r : Option Nat × Solver}
    (h : propagateBin ws s = some r) : Ext s r.2 := by
  induction ws generalizing s with
  | nil =>
    simp only [propagateBin, Option.some.injEq] at h
    subst h
    exact Ext.refl s
  | cons w ws ih =>
    unfold propagateBin at h
    split at h
    · simp only [Option.some.injEq] at h
      subst h
      exact Ext.refl s
    · split at h
      · split at h
        · simp at h
        · next s1 he => exact (uncheckedEnqueue_ext he).trans (ih h)
      · exact ih h

theorem propagateBin_ca {ws : List Watcher} {s : Solver} {r : Option Nat × Solver}
    (h : propagateBin ws s = some r) :
    r.2.ca = s.ca ∧ r.2.watches = s.watches ∧ r.2.watchesBin = s.watchesBin ∧
    r.2.unaryWatches = s.unaryWatches ∧ r.2.qhead = s.qhead ∧ r.2.opts = s.opts := by
  induction ws generalizing s with
  | nil =>
    simp only [propagateBin, Option.some.injEq] at h
    subst h
    simp
  | cons w ws ih =>
    unfold propagateBin at h
    split at h
    · simp only [Option.some.injEq] at h
      subst h
      simp
    · split at h
      · split at h
        · simp at h
        · next s1 he =>
          obtain ⟨_, rfl⟩ := uncheckedEnqueue_eq he
          have := ih h
          exact this
      · exact ih h

/-- A conflict found through a binary watcher of the true literal `p` is a clause with
two false literals. -/
theorem propagateBin_conflict {p : Lit} {ws : List Watcher} {s s1 : Solver} {cr : Nat}
    (h : propagateBin ws s = some (some cr, s1)) (hp : s.value p = lbool.l_True)
    (hws : ∀ w ∈ ws, (s.ca w.cref).lits = [p.neg, w.blocker] ∨
      (s.ca w.cref).lits = [w.blocker, p.neg]) : AllFalse s1 cr := by
  induction ws generalizing s with
  | nil => simp [propagateBin] at h
  | cons w ws ih =>
    unfold propagateBin at h
    split at h
    · next hf =>
      simp only [Option.some.injEq, Prod.mk.injEq] at h
      obtain ⟨rfl, rfl⟩ := h
      intro l hl
      have hneg : s.value p.neg = lbool.l_False := value_neg_false.mpr hp
      rcases hws w (by simp) with e | e <;> rw [e] at hl <;>
        simp only [List.mem_cons, List.mem_singleton, List.not_mem_nil, or_false] at hl <;>
        rcases hl with rfl | rfl <;> assumption
    · split at h
      · split at h
        · simp at h
        · next s2 he =>
          have hx := uncheckedEnqueue_ext he
          obtain ⟨_, e2⟩ := uncheckedEnqueue_eq he
          apply ih h
          · rw [hx.value_of_assigned (by rw [hp]; simp), hp]
          · intro w2 hw2
            have : s2.ca = s.ca := by rw [e2]
            rw [this]
            exact hws w2 (List.mem_cons_of_mem _ hw2)
      · exact ih h hp (fun w2 hw2 => hws w2 (List.mem_cons_of_mem _ hw2))

theorem propagateUnaryLoop_ext {p : Lit} {ws kept : List Watcher} {confl : Option Nat}
    {s : Solver} {r : Option Nat × List Watcher × Solver}
    (h : propagateUnaryLoop p ws kept confl s = some r) : Ext s r.2.2 := by
  induction ws generalizing kept s with
  | nil =>
    simp only [propagateUnaryLoop, Option.some.injEq] at h
    subst h
    exact Ext.refl s
  | cons w ws ih =>
    unfold propagateUnaryLoop at h
    cases hs : unaryStep p w s with
    | none => rw [hs] at h; simp at h
    | some out =>
      rw [hs] at h
      have he := unaryStep_ext hs
      cases out with
      | keep w1 s1 => exact Ext.trans he (ih h)
      | moved s1 => exact Ext.trans he (ih h)
      | conflict cr w1 s1 =>
        dsimp only at h
        split at h
        · split at h
          · simp at h
          · simp only [Option.some.injEq] at h
            subst h
            exact he
        · simp only [Option.some.injEq] at h
          subst h
          exact he

theorem propagateUnaryLoop_conflict {p : Lit} {ws kept : List Watcher} {confl : Option Nat}
    {s : Solver} {r : Option Nat × List Watcher × Solver}
    (h : propagateUnaryLoop p ws kept confl s = some r) (hp : s.value p = lbool.l_True)
    (hc : ∀ cr, confl = some cr → AllFalse s cr) :
    ∀ cr, r.1 = some cr → AllFalse r.2.2 cr := by
  induction ws generalizing kept s with
  | nil =>
    simp only [propagateUnaryLoop, Option.some.injEq] at h
    subst h
    exact hc
  | cons w ws ih =>
    unfold propagateUnaryLoop at h
    cases hs : unaryStep p w s with
    | none => rw [hs] at h; simp at h
    | some out =>
      rw [hs] at h
      have he := unaryStep_ext hs
      cases out with
      | keep w1 s1 =>
        have he : Ext s s1 := he
        exact ih h (by rw [he.value_of_assigned (by rw [hp]; simp), hp])
          (fun cr hcr => he.allFalse (hc cr hcr))
      | moved s1 =>
        have he : Ext s s1 := he
        exact ih h (by rw [he.value_of_assigned (by rw [hp]; simp), hp])
          (fun cr hcr => he.allFalse (hc cr hcr))
      | conflict cr w1 s1 =>
        have hall := unaryStep_conflict hs hp
        dsimp only at h
        split at h
        · split at h
          · simp at h
          · simp only [Option.some.injEq] at h
            subst h
            intro cr2 hcr2
            simp only [Option.some.injEq] at hcr2
            subst hcr2
            exact hall
        · simp only [Option.some.injEq] at h
          subst h
          intro cr2 hcr2
          simp only [Option.some.injEq] at hcr2
          subst hcr2
          exact hall

/-- Induction along the main loop of `propagate`: a property of `confl` and of the
state that holds at entry, that is kept through the visit of the watchers of each
dequeued literal and that is independent of the counters, holds at the exit; a return
from the binary loop is handled by `hbin`. -/
theorem propagateLoop_induct (I : Option Nat → Solver → Prop) (Q : Option Nat → Solver → Prop)
    (hstep : ∀ confl s p s1 confl1 kept s2,
      I confl s → s.qhead < s.trail.length → s.trail.get? s.qhead = some p →
      propagateBin (s.watchesBin.occs p) (s.setQhead (s.qhead + 1)) = some (none, s1) →
      propagateLong p (s1.watches.occs p) [] confl s1 = some (confl1, kept, s2) →
      I confl1 { s2 with watches := s2.watches.set p kept } ∧
      ∀ confl2 s4, s2.opts.useUnaryWatched = true → confl1 = none →
        propagateUnaryWatches { s2 with watches := s2.watches.set p kept } p
          = some (confl2, s4) → I confl2 s4)
    (hbin : ∀ confl s p s1 cr,
      I confl s → s.qhead < s.trail.length → s.trail.get? s.qhead = some p →
      propagateBin (s.watchesBin.occs p) (s.setQhead (s.qhead + 1)) = some (some cr, s1) →
      Q (some cr) s1)
    (hexit : ∀ confl s (n : Nat), I confl s → ¬ s.qhead < s.trail.length →
      Q confl { s with stats := { s.stats with propagations := s.stats.propagations + n },
                       simpDB_props := s.simpDB_props - n }) :
    ∀ (fuel : Nat) (confl : Option Nat) (n : Nat) (s : Solver) (r : Option Nat × Solver),
      I confl s → propagateLoop fuel confl n s = some r → Q r.1 r.2 := by
  intro fuel
  induction fuel with
  | zero => intro confl n s r _ h; simp [propagateLoop] at h
  | succ fuel ih =>
    intro confl n s r hI h
    unfold propagateLoop at h
    by_cases hq : s.qhead < s.trail.length
    · rw [if_pos hq] at h
      cases hp : s.trail.get? s.qhead with
      | none => rw [hp] at h; simp at h
      | some p =>
        rw [hp] at h
        dsimp only at h
        cases hb : propagateBin (s.watchesBin.occs p) { s with qhead := s.qhead + 1 } with
        | none => rw [hb] at h; simp at h
        | some rb =>
          obtain ⟨cb, s1⟩ := rb
          rw [hb] at h
          cases cb with
          | some cr =>
            simp only [Option.some.injEq] at h
            subst h
            exact hbin confl s p s1 cr hI hq hp hb
          | none =>
            dsimp only at h
            cases hl : propagateLong p (s1.watches.occs p) [] confl s1 with
            | none => rw [hl] at h; simp at h
            | some rl =>
              obtain ⟨confl1, kept, s2⟩ := rl
              rw [hl] at h
              dsimp only at h
              have hs := hstep confl s p s1 confl1 kept s2 hI hq hp hb hl
              split at h
              · next hu =>
                cases hun : propagateUnaryWatches { s2 with watches := s2.watches.set p kept } p with
                | none => rw [hun] at h; simp at h
                | some ru =>
                  obtain ⟨confl2, s4⟩ := ru
                  rw [hun] at h
                  dsimp only at h
                  exact ih _ _ _ _ (hs.2 confl2 s4 hu.1 hu.2 hun) h
              · exact ih _ _ _ _ hs.1 h
    · rw [if_neg hq] at h
      simp only [Option.some.injEq] at h
      subst h
      exact hexit confl s n hI hq

end Glucose


namespace Glucose

/-! ## Conflicts returned by `propagate` -/

theorem propagateUnaryWatches_ext {s : Solver} {p : Lit} {r : Option Nat × Solver}
    (h : propagateUnaryWatches s p = some r) : Ext s r.2 := by
  unfold propagateUnaryWatches at h
  cases hl : propagateUnaryLoop p (s.unaryWatches.occs p) [] none s with
  | none => rw [hl] at h; simp at h
  | some rl =>
    obtain ⟨confl, kept, s1⟩ := rl
    rw [hl] at h
    simp only [Option.some.injEq] at h
    subst h
    exact (propagateUnaryLoop_ext hl).trans (Ext.of_fields rfl rfl (fun _ => rfl) rfl rfl rfl)

theorem propagateUnaryWatches_conflict {s : Solver} {p : Lit} {r : Option Nat × Solver}
    (h : propagateUnaryWatches s p = some r) (hp : s.value p = lbool.l_True) :
    ∀ cr, r.1 = some cr → AllFalse r.2 cr := by
  unfold propagateUnaryWatches at h
  cases hl : propagateUnaryLoop p (s.unaryWatches.occs p) [] none s with
  | none => rw [hl] at h; simp at h
  | some rl =>
    obtain ⟨confl, kept, s1⟩ := rl
    rw [hl] at h
    simp only [Option.some.injEq] at h
    subst h
    intro cr hcr
    exact propagateUnaryLoop_conflict hl hp (by simp) cr hcr

theorem mem_of_get? {α : Type} {l : List α} {i : Nat} {x : α} (h : l.get? i = some x) :
    x ∈ l := by
  rw [List.get?_eq_some] at h
  obtain ⟨_, rfl⟩ := h
  exact List.get_mem _ _ _

/-- The conflict part of the loop of `propagate`: on trails of true literals with
well-formed binary watchers, every clause reported as conflicting is false. -/
theorem propagateLoop_conflict (fuel : Nat) (confl : Option Nat) (n : Nat) (s : Solver)
    (r : Option Nat × Solver) (hT : TrailTrue s) (hB : BinWatchOK s)
    (hc : ∀ cr, confl = some cr → AllFalse s cr)
    (h : propagateLoop fuel confl n s = some r) :
    ∀ cr, r.1 = some cr → AllFalse r.2 cr := by
  refine propagateLoop_induct
    (fun c t => TrailTrue t ∧ BinWatchOK t ∧ ∀ cr, c = some cr → AllFalse t cr)
    (fun c t => ∀ cr, c = some cr → AllFalse t cr) ?_ ?_ ?_ fuel confl n s r ⟨hT, hB, hc⟩ h
  · intro confl s p s1 confl1 kept s2 hI hq hp hb hl
    obtain ⟨hT, hB, hc⟩ := hI
    have hpv : s.value p = lbool.l_True := hT p (mem_of_get? hp)
    have e0 : Ext s (s.setQhead (s.qhead + 1)) :=
      Ext.of_fields rfl rfl (fun _ => rfl) rfl rfl rfl
    have e1 : Ext (s.setQhead (s.qhead + 1)) s1 := propagateBin_ext hb
    have e2 : Ext s1 s2 := propagateLong_ext hl
    have e3 : Ext s2 { s2 with watches := s2.watches.set p kept } :=
      Ext.of_fields rfl rfl (fun _ => rfl) rfl rfl rfl
    have e01 := e0.trans e1
    have hpv1 : s1.value p = lbool.l_True := by
      rw [e01.value_of_assigned (by rw [hpv]; simp), hpv]
    have hc2 := propagateLong_conflict hl hpv1 (fun cr hcr => e01.allFalse (hc cr hcr))
    have e03 := (e01.trans e2).trans e3
    refine ⟨⟨e03.trailTrue hT, e03.binWatchOK hB, fun cr hcr => e3.allFalse (hc2 cr hcr)⟩, ?_⟩
    intro confl2 s4 _ _ hun
    have e4 : Ext _ s4 := propagateUnaryWatches_ext hun
    refine ⟨(e03.trans e4).trailTrue hT, (e03.trans e4).binWatchOK hB, ?_⟩
    apply propagateUnaryWatches_conflict hun
    show s2.value p = lbool.l_True
    rw [e2.value_of_assigned (by rw [hpv1]; simp), hpv1]
  · intro confl s p s1 cr hI hq hp hb
    obtain ⟨hT, hB, hc⟩ := hI
    have hpv : s.value p = lbool.l_True := hT p (mem_of_get? hp)
    intro cr2 hcr2
    simp only [Option.some.injEq] at hcr2
    subst hcr2
    exact propagateBin_conflict hb hpv (fun w hw => hB p w hw)
  · intro confl s n hI hq cr hcr
    exact (Ext.of_fields rfl rfl (fun _ => rfl) rfl rfl rfl : Ext s _).allFalse (hI.2.2 cr hcr)

/-- **C5.** In every state whose trail literals are true and in which each binary
watcher stored under a literal `p` belongs to the two-literal clause made of `¬p` and
of its blocker, a clause reference returned by `propagate` (through a binary, a long
or a unary watcher) denotes a clause all of whose literals are false under the
assignment at return.  The long and unary watchers need no assumption: the asserts of
the visit check that `¬p` is at the watched position. -/
theorem propagate_conflict_all_false (s s1 : Solver) (cr : Nat)
    (hT : TrailTrue s) (hB : BinWatchOK s)
    (h : propagate s = some (some cr, s1)) : AllFalse s1 cr := by
  unfold propagate at h
  refine propagateLoop_conflict _ none 0 _ (some cr, s1) ?_ ?_ (by simp) h cr rfl
  · exact hT
  · intro p w hw
    exact hB p w (OccLists.mem_cleanAll (o := s.watchesBin) hw)

end Glucose


namespace Glucose

/-! ## Reasons of the literals enqueued by `propagate` -/

theorem Ext.level_of_assigned {s t : Solver} (h : Ext s t) {v : Nat}
    (hv : s.assigns v ≠ lbool.l_Undef) : t.level v = s.level v := by
  simp [Solver.level, h.vardata v hv]

theorem Ext.reason_of_assigned {s t : Solver} (h : Ext s t) {v : Nat}
    (hv : s.assigns v ≠ lbool.l_Undef) : t.reason v = s.reason v := by
  simp [Solver.reason, h.vardata v hv]

theorem assigned_of_value {s : Solver} {l : Lit} (h : s.value l ≠ lbool.l_Undef) :
    s.assigns l.var ≠ lbool.l_Undef := fun e => h (value_undef_iff.mpr e)

/-- The shape of a reason survives every extension that leaves the clause alone. -/
theorem ReasonShape.extend {s t : Solver} (h : Ext s t) {l : Lit} {c : List Lit}
    (hl : s.value l = lbool.l_True) (hr : ReasonShape s l c) : ReasonShape t l c := by
  have hlv : t.level l.var = s.level l.var :=
    h.level_of_assigned (assigned_of_value (by rw [hl]; simp))
  rcases hr with ⟨rest, rfl, hq⟩ | ⟨q, rfl, hq, hlev⟩
  · left
    refine ⟨rest, rfl, fun q hqm => ?_⟩
    obtain ⟨hv, hle⟩ := hq q hqm
    have hqa : s.value q ≠ lbool.l_Undef := by rw [hv]; simp
    rw [h.value_of_assigned hqa, h.level_of_assigned (assigned_of_value hqa), hlv]
    exact ⟨hv, hle⟩
  · right
    have hqa : s.value q ≠ lbool.l_Undef := by rw [hq]; simp
    refine ⟨q, rfl, ?_, ?_⟩
    · rw [h.value_of_assigned hqa, hq]
    · rw [h.level_of_assigned (assigned_of_value hqa), hlv]; exact hlev

theorem Implied.ext_same {s t : Solver} (h : Ext s t) {l : Lit} (hi : Implied s l)
    (hca : ∀ r, s.reason l.var = some r → (t.ca r).lits = (s.ca r).lits ∨
      ReasonShape t l (t.ca r).lits) :
    Implied t l := by
  obtain ⟨hv, hlev, r, hr, hsh⟩ := hi
  have ha := assigned_of_value (s := s) (l := l) (by rw [hv]; simp)
  refine ⟨by rw [h.value_of_assigned (by rw [hv]; simp), hv],
    by rw [h.level_of_assigned ha, hlev, h.decisionLevel], r,
    by rw [h.reason_of_assigned ha, hr], ?_⟩
  rcases hca r hr with e | e
  · rw [e]; exact hsh.extend h hv
  · exact e

theorem LevelsOK.ext_enqueue {s s1 : Solver} {p : Lit} {r : Option Nat}
    (h : uncheckedEnqueue s p r = some s1) (hs : LevelsOK s) : LevelsOK s1 := by
  obtain ⟨hu, rfl⟩ := uncheckedEnqueue_eq h
  intro v hv
  by_cases e : v = p.var
  · subst e
    simp [Solver.level, Solver.decisionLevel]
  · have : s.assigns v ≠ lbool.l_Undef := by
      simpa [Function.update, e] using hv
    have := hs v this
    simpa [Solver.level, Solver.decisionLevel, Function.update, e] using this

theorem LevelsOK.levels_of_fields {s t : Solver} (h1 : t.assigns = s.assigns)
    (h2 : t.vardata = s.vardata) (h3 : t.trail_lim = s.trail_lim) (hs : LevelsOK s) :
    LevelsOK t := by
  intro v hv
  rw [h1] at hv
  have := hs v hv
  simpa [Solver.level, Solver.decisionLevel, h2, h3] using this

/-- The visit of a long watcher keeps the reasons in shape: a clause whose first
literal is true is not touched, a binary clause may only be swapped. -/
theorem LongSpec.keepsShape {p : Lit} {w : Watcher} {s : Solver} {out : WatchOutcome}
    (h : LongSpec p w s out) (hp : s.value p = lbool.l_True) {l : Lit} {cr : Nat}
    (hl : s.value l = lbool.l_True) (hr : ReasonShape s l (s.ca cr).lits) :
    ReasonShape out.state l (out.state.ca cr).lits := by
  have hpn : s.value p.neg = lbool.l_False := value_neg_false.mpr hp
  have hext := h.toExt
  by_cases hcr : cr = w.cref
  · subst hcr
    -- the visited clause: its first literal after the swap is `l`
    have key : ∀ c0 c1 rest first, Visited p w s c0 c1 rest first →
        first = l ∧ ReasonShape s l (first :: p.neg :: rest) := by
      intro c0 c1 rest first hv
      obtain ⟨_, _, hlits, hc⟩ := hv
      rw [hlits] at hr
      rcases hr with ⟨rest2, e, hq⟩ | ⟨q, e, hq, hlev⟩
      · simp only [List.cons.injEq] at e
        obtain ⟨rfl, rfl⟩ := e
        rcases hc with ⟨rfl, _⟩ | ⟨_, rfl, rfl⟩
        · rw [hpn] at hl; simp at hl
        · exact ⟨rfl, Or.inl ⟨_, rfl, hq⟩⟩
      · simp only [List.cons.injEq] at e
        obtain ⟨rfl, rfl, rfl⟩ := e
        rcases hc with ⟨rfl, rfl⟩ | ⟨_, rfl, _⟩
        · refine ⟨rfl, Or.inl ⟨_, rfl, ?_⟩⟩
          intro q hq
          simp only [List.mem_singleton] at hq
          subst hq
          exact ⟨hpn, hlev⟩
        · rw [hpn] at hl; simp at hl
    cases h with
    | skip _ => exact hr
    | sat c0 c1 rest first hv _ _ =>
      obtain ⟨rfl, hsh⟩ := key c0 c1 rest first hv
      simpa [WatchOutcome.state, Solver.setLits] using hsh.extend hext hl
    | moved c0 c1 rest first k x hv hnt _ _ _ =>
      obtain ⟨rfl, _⟩ := key c0 c1 rest first hv
      exact absurd hl hnt
    | conflict c0 c1 rest first hv _ hf =>
      obtain ⟨rfl, _⟩ := key c0 c1 rest first hv
      rw [hf] at hl; simp at hl
    | unit c0 c1 rest first s2 hv _ hu _ =>
      obtain ⟨rfl, _⟩ := key c0 c1 rest first hv
      rw [hu] at hl; simp at hl
  · have hsame : (out.state.ca cr).lits = (s.ca cr).lits := by
      cases h with
      | skip _ => rfl
      | sat c0 c1 rest first hv _ _ =>
        simp [WatchOutcome.state, Solver.setLits, Function.update, hcr]
      | moved c0 c1 rest first k x hv hnt _ _ _ =>
        simp [WatchOutcome.state, Solver.setLits, Solver.pushWatch, Function.update, hcr]
      | conflict c0 c1 rest first hv _ hf =>
        simp [WatchOutcome.state, Solver.setLits, Solver.setQhead, Function.update, hcr]
      | unit c0 c1 rest first s2 hv _ hu he =>
        obtain ⟨_, rfl⟩ := uncheckedEnqueue_eq he
        simp [WatchOutcome.state, Solver.setLits, Function.update, hcr]
    rw [hsame]
    exact hr.extend hext hl

theorem unaryStep_spec {p : Lit} {w : Watcher} {s : Solver} {out : WatchOutcome}
    (h : unaryStep p w s = some out) : UnarySpec p w s out := by
  unfold unaryStep at h
  by_cases hb : s.value w.blocker = lbool.l_True
  · rw [if_pos hb] at h
    simp only [Option.some.injEq] at h
    subst h
    exact UnarySpec.skip hb
  · rw [if_neg hb] at h
    dsimp only at h
    by_cases ho : (s.ca w.cref).oneWatched = false
    · rw [if_pos ho] at h; simp at h
    · rw [if_neg ho] at h
      have ho : (s.ca w.cref).oneWatched = true := by simpa using ho
      match hl : (s.ca w.cref).lits with
      | [] => rw [hl] at h; simp at h
      | c0 :: rest =>
        rw [hl] at h
        dsimp only at h
        by_cases hc0 : c0 = p.neg
        · subst hc0
          rw [if_neg (by simp)] at h
          cases hk : findNonFalse s rest with
          | some k =>
            rw [hk] at h
            dsimp only at h
            obtain ⟨x, hx, hxv, _⟩ := findNonFalse_some hk
            rw [hx] at h
            dsimp only at h
            by_cases hxp : x.neg = p
            · rw [if_pos hxp] at h; simp at h
            · rw [if_neg hxp] at h
              simp only [Option.some.injEq] at h
              subst h
              exact UnarySpec.moved rest k x ho hl hx hxv hxp
          | none =>
            rw [hk] at h
            dsimp only at h
            have hall := findNonFalse_none hk
            by_cases hpr : s.opts.promoteOneWatchedClause = true
            · rw [if_pos hpr] at h
              cases hpc : promoteClause (s.setQhead s.trail.length) w.cref p.neg rest with
              | none => rw [hpc] at h; simp at h
              | some s2 =>
                rw [hpc] at h
                simp only [Option.some.injEq] at h
                subst h
                exact UnarySpec.conflict rest s2 ho hl hall (Or.inr ⟨hpr, hpc⟩)
            · rw [if_neg hpr] at h
              simp only [Option.some.injEq] at h
              subst h
              exact UnarySpec.conflict rest _ ho hl hall (Or.inl ⟨by simpa using hpr, rfl⟩)
        · rw [if_pos hc0] at h; simp at h

theorem promoteClause_lits_other {s t : Solver} {cr cr2 : Nat} {c0 : Lit} {rest : List Lit}
    (h : promoteClause s cr c0 rest = some t) (hne : cr2 ≠ cr) : t.ca cr2 = s.ca cr2 := by
  unfold promoteClause at h
  split at h
  · simp at h
  · cases hm : maxLevelIndex s rest 1 none with
    | none => rw [hm] at h; simp at h
    | some im =>
      obtain ⟨index, m⟩ := im
      rw [hm] at h
      dsimp only at h
      cases rest with
      | nil => simp at h
      | cons r1 tl =>
        dsimp only at h
        cases hli : (r1 :: tl).get? (index - 1) with
        | none => rw [hli] at h; simp at h
        | some li =>
          rw [hli] at h
          dsimp only at h
          split at h
          · simp at h
          · next s4 h4 =>
            simp only [Option.some.injEq] at h
            subst h
            have e4 : s4.ca = (Solver.setLits
                { s with stats := { s.stats with nbPromoted := s.stats.nbPromoted + 1 } } cr
                (c0 :: ((r1 :: tl).set (index - 1) r1).set 0 li)).ca := by
              unfold attachClause at h4
              dsimp only at h4
              split at h4
              · simp only [Option.some.injEq] at h4
                subst h4
                split <;> split <;> rfl
              · simp at h4
            simp [Function.update, hne, e4, Solver.setLits]

/-- The visit of a unary watcher keeps the reasons in shape. -/
theorem UnarySpec.unaryKeepsShape {p : Lit} {w : Watcher} {s : Solver} {out : WatchOutcome}
    (h : UnarySpec p w s out) (hext : Ext s out.state) (hp : s.value p = lbool.l_True)
    {l : Lit} {cr : Nat}
    (hl : s.value l = lbool.l_True) (hr : ReasonShape s l (s.ca cr).lits) :
    ReasonShape out.state l (out.state.ca cr).lits := by
  have hpn : s.value p.neg = lbool.l_False := value_neg_false.mpr hp
  by_cases hcr : cr = w.cref
  · subst hcr
    -- the visited clause is the binary clause `[¬p, l]`
    have key : ∀ rest, (s.ca w.cref).lits = p.neg :: rest →
        rest = [l] ∧ s.level p.var ≤ s.level l.var := by
      intro rest hlits
      rw [hlits] at hr
      rcases hr with ⟨rest2, e, hq⟩ | ⟨q, e, hq, hlev⟩
      · simp only [List.cons.injEq] at e
        rw [e.1, hl] at hpn; simp at hpn
      · simp only [List.cons.injEq] at e
        obtain ⟨rfl, rfl⟩ := e
        exact ⟨rfl, hlev⟩
    cases h with
    | skip _ => exact hr
    | moved rest k x ho hlits hx hxv hxp =>
      obtain ⟨rfl, hlev⟩ := key rest hlits
      have hk : k = 0 ∧ x = l := by
        cases k with
        | zero => simpa using hx.symm
        | succ k => simp at hx
      obtain ⟨rfl, rfl⟩ := hk
      left
      refine ⟨[p.neg], by simp [WatchOutcome.state, Solver.setLits, Solver.pushUnaryWatch], ?_⟩
      intro q hq
      simp only [List.mem_singleton] at hq
      subst hq
      exact ⟨hpn, hlev⟩
    | conflict rest s1 ho hlits hall _ =>
      obtain ⟨rfl, _⟩ := key rest hlits
      have := hall l (by simp)
      rw [this] at hl; simp at hl
  · have hsame : (out.state.ca cr).lits = (s.ca cr).lits := by
      cases h with
      | skip _ => rfl
      | moved rest k x ho hlits hx hxv hxp =>
        simp [WatchOutcome.state, Solver.setLits, Solver.pushUnaryWatch, Function.update, hcr]
      | conflict rest s1 ho hlits hall hs1 =>
        rcases hs1 with ⟨_, rfl⟩ | ⟨_, hpc⟩
        · rfl
        · show (s1.ca cr).lits = _
          rw [promoteClause_lits_other hpc hcr]
          rfl
    rw [hsame]
    exact hr.extend hext hl

theorem Ext.levelsOK {s t : Solver} (h : Ext s t) (hs : LevelsOK s) : LevelsOK t := by
  intro v hv
  by_cases e : s.assigns v = lbool.l_Undef
  · exact le_of_eq (h.newlevel v e hv)
  · rw [h.level_of_assigned e, h.decisionLevel]
    exact hs v e

/-- One step of propagation keeps the invariant `ReasonsFrom`, when it keeps the
reasons in shape and the literals it enqueues are implied. -/
theorem ReasonsFrom.step {n0 : Nat} {s t : Solver} (hs : ReasonsFrom n0 s) (hext : Ext s t)
    (hshape : ∀ l r, s.value l = lbool.l_True → ReasonShape s l (s.ca r).lits →
      ReasonShape t l (t.ca r).lits)
    (hnew : ∀ l ∈ t.trail.drop s.trail.length, Implied t l) : ReasonsFrom n0 t := by
  obtain ⟨hT, hB, hL, hn, hI⟩ := hs
  obtain ⟨added, ht, _⟩ := hext.trail
  refine ⟨hext.trailTrue hT, hext.binWatchOK hB, hext.levelsOK hL, ?_, ?_⟩
  · rw [ht, List.length_append]; omega
  · intro l hl
    rw [ht, List.drop_append_of_le_length hn] at hl
    rcases List.mem_append.mp hl with hl | hl
    · have hi := hI l hl
      exact hi.ext_same hext (fun r hr => by
        obtain ⟨hv, _, r2, hr2, hsh⟩ := hi
        rw [hr] at hr2
        simp only [Option.some.injEq] at hr2
        subst hr2
        exact Or.inr (hshape l r hv hsh))
    · apply hnew
      rw [ht, List.drop_left]
      exact hl

theorem propagateBin_reasons {p : Lit} {n0 : Nat} {ws : List Watcher} {s : Solver}
    {r : Option Nat × Solver} (h : propagateBin ws s = some r) (hG : ReasonsFrom n0 s)
    (hp : s.value p = lbool.l_True) (hws : ∀ w ∈ ws, w ∈ s.watchesBin.occs p) :
    ReasonsFrom n0 r.2 := by
  induction ws generalizing s with
  | nil =>
    simp only [propagateBin, Option.some.injEq] at h
    subst h
    exact hG
  | cons w ws ih =>
    unfold propagateBin at h
    split at h
    · simp only [Option.some.injEq] at h
      subst h
      exact hG
    · split at h
      · next hu =>
        split at h
        · simp at h
        · next s1 he =>
          have hx := uncheckedEnqueue_ext he
          have hself := uncheckedEnqueue_value_self he
          obtain ⟨_, e2⟩ := uncheckedEnqueue_eq he
          have hca : s1.ca = s.ca := by rw [e2]
          have hwb : s1.watchesBin = s.watchesBin := by rw [e2]
          have hpa : s.assigns p.var ≠ lbool.l_Undef := assigned_of_value (by rw [hp]; simp)
          have hp1 : s1.value p = lbool.l_True := by
            rw [hx.value_of_assigned (by rw [hp]; simp), hp]
          apply ih h _ hp1
          · intro w2 hw2
            rw [hwb]
            exact hws w2 (List.mem_cons_of_mem _ hw2)
          · apply hG.step hx
            · intro l r hl hr
              rw [hca]
              exact hr.extend hx hl
            · intro l hl
              have : s1.trail = s.trail ++ [w.blocker] := by rw [e2]
              rw [this, List.drop_left] at hl
              simp only [List.mem_singleton] at hl
              subst hl
              have hlev : s1.level w.blocker.var = s1.decisionLevel := by
                rw [e2]; simp [Solver.level, Solver.decisionLevel]
              refine ⟨hself, hlev, w.cref, by rw [e2]; simp [Solver.reason], ?_⟩
              have hpn : s1.value p.neg = lbool.l_False := value_neg_false.mpr hp1
              have hpl : s1.level p.neg.var ≤ s1.level w.blocker.var := by
                rw [hlev, Lit.neg_var, hx.level_of_assigned hpa, hx.decisionLevel]
                exact hG.2.2.1 p.var hpa
              rw [hca]
              rcases hG.2.1 p w (hws w (by simp)) with e | e
              · right
                exact ⟨p.neg, e, hpn, hpl⟩
              · left
                refine ⟨[p.neg], e, ?_⟩
                intro q hq
                simp only [List.mem_singleton] at hq
                subst hq
                exact ⟨hpn, hpl⟩
      · exact ih h hG hp (fun w2 hw2 => hws w2 (List.mem_cons_of_mem _ hw2))

theorem LongSpec.reasons {p : Lit} {w : Watcher} {s : Solver} {out : WatchOutcome} {n0 : Nat}
    (h : LongSpec p w s out) (hG : ReasonsFrom n0 s) (hp : s.value p = lbool.l_True) :
    ReasonsFrom n0 out.state := by
  have hext := h.toExt
  apply hG.step hext
  · intro l r hl hr
    exact h.keepsShape hp hl hr
  · intro l hl
    have hpa : s.assigns p.var ≠ lbool.l_Undef := assigned_of_value (by rw [hp]; simp)
    cases h with
    | skip _ => simp [WatchOutcome.state] at hl
    | sat c0 c1 rest first hv _ _ => simp [WatchOutcome.state, Solver.setLits] at hl
    | moved c0 c1 rest first k x hv hnt _ _ _ =>
      simp [WatchOutcome.state, Solver.setLits, Solver.pushWatch] at hl
    | conflict c0 c1 rest first hv _ hf =>
      simp [WatchOutcome.state, Solver.setLits, Solver.setQhead] at hl
    | unit c0 c1 rest first s2 hv hall hu he =>
      have hself := uncheckedEnqueue_value_self he
      have hx := uncheckedEnqueue_ext he
      obtain ⟨_, e2⟩ := uncheckedEnqueue_eq he
      have htr : s2.trail = s.trail ++ [first] := by rw [e2]; rfl
      simp only [WatchOutcome.state] at hl ⊢
      rw [htr, List.drop_left] at hl
      simp only [List.mem_singleton] at hl
      subst hl
      have hlev : s2.level l.var = s2.decisionLevel := by
        rw [e2]; simp [Solver.level, Solver.decisionLevel]
      refine ⟨hself, hlev, w.cref, by rw [e2]; simp [Solver.reason], ?_⟩
      left
      refine ⟨p.neg :: rest, by rw [e2]; simp [Solver.setLits], ?_⟩
      intro q hq
      have hqf : s.value q = lbool.l_False := by
        rcases List.mem_cons.mp hq with rfl | hq
        · exact value_neg_false.mpr hp
        · exact hall q hq
      have hqa : s.value q ≠ lbool.l_Undef := by rw [hqf]; simp
      have hext2 : Ext s s2 := hext
      refine ⟨by rw [hext2.value_of_assigned hqa, hqf], ?_⟩
      rw [hlev, hext2.level_of_assigned (assigned_of_value hqa), hext2.decisionLevel]
      exact hG.2.2.1 q.var (assigned_of_value hqa)

theorem propagateLong_reasons {p : Lit} {n0 : Nat} {ws kept : List Watcher}
    {confl : Option Nat} {s : Solver} {r : Option Nat × List Watcher × Solver}
    (h : propagateLong p ws kept confl s = some r) (hG : ReasonsFrom n0 s)
    (hp : s.value p = lbool.l_True) : ReasonsFrom n0 r.2.2 ∧ r.2.2.value p = lbool.l_True := by
  refine propagateLong_induct (p := p)
    (fun _ _ t => ReasonsFrom n0 t ∧ t.value p = lbool.l_True) ?_ ?_ ?_
    ws kept confl s r ⟨hG, hp⟩ h
  · intro _ _ _ _ t _ t1 hI hs
    have he : Ext t t1 := longStep_ext hs
    exact ⟨(longStep_spec hs).reasons hI.1 hI.2,
      by rw [he.value_of_assigned (by rw [hI.2]; simp), hI.2]⟩
  · intro _ _ _ _ t t1 hI hs
    have he : Ext t t1 := longStep_ext hs
    exact ⟨(longStep_spec hs).reasons hI.1 hI.2,
      by rw [he.value_of_assigned (by rw [hI.2]; simp), hI.2]⟩
  · intro _ _ _ _ t _ _ t1 hI hs
    have he : Ext t t1 := longStep_ext hs
    exact ⟨(longStep_spec hs).reasons hI.1 hI.2,
      by rw [he.value_of_assigned (by rw [hI.2]; simp), hI.2]⟩

theorem unaryStep_trail {p : Lit} {w : Watcher} {s : Solver} {out : WatchOutcome}
    (h : unaryStep p w s = some out) : out.state.trail = s.trail := by
  have hspec := unaryStep_spec h
  cases hspec with
  | skip _ => rfl
  | moved rest k x ho hlits hx hxv hxp => rfl
  | conflict rest s1 ho hlits hall hs1 =>
    rcases hs1 with ⟨_, rfl⟩ | ⟨_, hpc⟩
    · rfl
    · show s1.trail = s.trail
      unfold promoteClause at hpc
      split at hpc
      · simp at hpc
      · cases hm : maxLevelIndex (s.setQhead s.trail.length) rest 1 none with
        | none => rw [hm] at hpc; simp at hpc
        | some im =>
          obtain ⟨index, m⟩ := im
          rw [hm] at hpc
          dsimp only at hpc
          cases rest with
          | nil => simp at hpc
          | cons r1 tl =>
            dsimp only at hpc
            cases hli : (r1 :: tl).get? (index - 1) with
            | none => rw [hli] at hpc; simp at hpc
            | some li =>
              rw [hli] at hpc
              dsimp only at hpc
              split at hpc
              · simp at hpc
              · next s4 h4 =>
                simp only [Option.some.injEq] at hpc
                subst hpc
                unfold attachClause at h4
                dsimp only at h4
                split at h4
                · simp only [Option.some.injEq] at h4
                  subst h4
                  split <;> split <;> rfl
                · simp at h4

theorem propagateUnaryLoop_reasons {p : Lit} {n0 : Nat} {ws kept : List Watcher}
    {confl : Option Nat} {s : Solver} {r : Option Nat × List Watcher × Solver}
    (h : propagateUnaryLoop p ws kept confl s = some r) (hG : ReasonsFrom n0 s)
    (hp : s.value p = lbool.l_True) : ReasonsFrom n0 r.2.2 := by
  induction ws generalizing kept s with
  | nil =>
    simp only [propagateUnaryLoop, Option.some.injEq] at h
    subst h
    exact hG
  | cons w ws ih =>
    unfold propagateUnaryLoop at h
    cases hs : unaryStep p w s with
    | none => rw [hs] at h; simp at h
    | some out =>
      rw [hs] at h
      have he := unaryStep_ext hs
      have hG1 : ReasonsFrom n0 out.state := by
        apply hG.step he
        · intro l r hl hr
          exact (unaryStep_spec hs).unaryKeepsShape he hp hl hr
        · intro l hl
          rw [unaryStep_trail hs] at hl
          simp at hl
      have hp1 : out.state.value p = lbool.l_True := by
        rw [he.value_of_assigned (by rw [hp]; simp), hp]
      cases out with
      | keep w1 s1 => exact ih h hG1 hp1
      | moved s1 => exact ih h hG1 hp1
      | conflict cr w1 s1 =>
        dsimp only at h
        split at h
        · split at h
          · simp at h
          · simp only [Option.some.injEq] at h
            subst h
            exact hG1
        · simp only [Option.some.injEq] at h
          subst h
          exact hG1

theorem ReasonsFrom.frame {n0 : Nat} {s t : Solver} (hs : ReasonsFrom n0 s)
    (h1 : t.assigns = s.assigns) (h2 : t.vardata = s.vardata) (h3 : t.ca = s.ca)
    (h4 : t.trail = s.trail) (h5 : t.trail_lim = s.trail_lim)
    (h6 : t.watchesBin = s.watchesBin) : ReasonsFrom n0 t := by
  have hext : Ext s t := Ext.of_fields h1 h2 (fun cr => by rw [h3]) h4 h5 h6
  apply hs.step hext
  · intro l r hl hr
    rw [h3]
    exact hr.extend hext hl
  · intro l hl
    rw [h4] at hl
    simp at hl

theorem propagateLoop_reasons (n0 fuel : Nat) (confl : Option Nat) (n : Nat) (s : Solver)
    (r : Option Nat × Solver) (hG : ReasonsFrom n0 s)
    (h : propagateLoop fuel confl n s = some r) : ReasonsFrom n0 r.2 := by
  refine propagateLoop_induct (fun _ t => ReasonsFrom n0 t) (fun _ t => ReasonsFrom n0 t)
    ?_ ?_ ?_ fuel confl n s r hG h
  · intro confl s p s1 confl1 kept s2 hI hq hp hb hl
    have hpv : s.value p = lbool.l_True := hI.1 p (mem_of_get? hp)
    have h0 : ReasonsFrom n0 (s.setQhead (s.qhead + 1)) := hI.frame rfl rfl rfl rfl rfl rfl
    have h1 : ReasonsFrom n0 s1 := propagateBin_reasons hb h0 hpv (fun w hw => hw)
    have e1 : Ext (s.setQhead (s.qhead + 1)) s1 := propagateBin_ext hb
    have hpv0 : (s.setQhead (s.qhead + 1)).value p = lbool.l_True := hpv
    have hpv1 : s1.value p = lbool.l_True := by
      rw [e1.value_of_assigned (by rw [hpv0]; simp), hpv0]
    have h2 := propagateLong_reasons hl h1 hpv1
    have h3 : ReasonsFrom n0 { s2 with watches := s2.watches.set p kept } :=
      h2.1.frame rfl rfl rfl rfl rfl rfl
    refine ⟨h3, ?_⟩
    intro confl2 s4 _ _ hun
    unfold propagateUnaryWatches at hun
    cases hl2 : propagateUnaryLoop p
        (({ s2 with watches := s2.watches.set p kept } : Solver).unaryWatches.occs p) [] none
        { s2 with watches := s2.watches.set p kept } with
    | none => rw [hl2] at hun; simp at hun
    | some rl =>
      obtain ⟨c5, k5, s5⟩ := rl
      rw [hl2] at hun
      simp only [Option.some.injEq, Prod.mk.injEq] at hun
      obtain ⟨_, rfl⟩ := hun
      exact (propagateUnaryLoop_reasons hl2 h3 h2.2).frame rfl rfl rfl rfl rfl rfl
  · intro confl s p s1 cr hI hq hp hb
    have hpv : s.value p = lbool.l_True := hI.1 p (mem_of_get? hp)
    have h0 : ReasonsFrom n0 (s.setQhead (s.qhead + 1)) := hI.frame rfl rfl rfl rfl rfl rfl
    exact propagateBin_reasons hb h0 hpv (fun w hw => hw)
  · intro confl s n hI hq
    exact hI.frame rfl rfl rfl rfl rfl rfl

/-- The reasons of the literals enqueued by `propagate`: on return, with or without a
conflict, every literal that the call put on the trail is true at the current level
and has a reason clause `r` of the right shape. -/
theorem propagate_reasons (s s1 : Solver) (confl : Option Nat)
    (hT : TrailTrue s) (hB : BinWatchOK s) (hL : LevelsOK s)
    (h : propagate s = some (confl, s1)) :
    ∀ l ∈ s1.trail.drop s.trail.length, Implied s1 l := by
  unfold propagate at h
  have := propagateLoop_reasons s.trail.length _ none 0 _ (confl, s1) ?_ h
  · exact this.2.2.2.2
  · refine ⟨hT, ?_, hL, le_refl _, ?_⟩
    · intro p w hw
      exact hB p w (OccLists.mem_cleanAll (o := s.watchesBin) hw)
    · intro l hl
      have hl2 : l ∈ s.trail.drop s.trail.length := hl
      simp at hl2

end Glucose


namespace Glucose

/-! ## Watch consistency -/

theorem crefCount_append (a b : List Watcher) (cr : Nat) :
    crefCount (a ++ b) cr = crefCount a cr + crefCount b cr := by
  simp [crefCount, List.countP_append]

theorem crefCount_cons (w : Watcher) (b : List Watcher) (cr : Nat) :
    crefCount (w :: b) cr = crefCount b cr + (if w.cref = cr then 1 else 0) := by
  simp [crefCount, List.countP_cons]

theorem crefCount_nil (cr : Nat) : crefCount [] cr = 0 := rfl

theorem crefCount_mid (pre post : List Watcher) (w : Watcher) (cr : Nat) :
    crefCount (pre ++ w :: post) cr
      = crefCount (pre ++ post) cr + (if w.cref = cr then 1 else 0) := by
  simp only [crefCount_append, crefCount_cons]
  omega

theorem crefCount_filter (ws : List Watcher) (d : Watcher → Bool) (cr : Nat)
    (h : ∀ w, w.cref = cr → d w = false) :
    crefCount (ws.filter (fun w => !d w)) cr = crefCount ws cr := by
  induction ws with
  | nil => rfl
  | cons w ws ih =>
    by_cases hd : d w = true
    · have : w.cref ≠ cr := fun e => by rw [h w e] at hd; simp at hd
      simp [List.filter, hd, crefCount_cons, this, ih]
    · have hd : d w = false := by simpa using hd
      simp [List.filter, hd, crefCount_cons, ih]

/-- Watch consistency only depends on the counts of the watchers of the clause. -/
theorem WatchedBy.congr {occs occs2 : Lit → List Watcher} {lits : List Lit} {cr : Nat}
    (h : WatchedBy occs lits cr) (hc : ∀ p, crefCount (occs2 p) cr = crefCount (occs p) cr) :
    WatchedBy occs2 lits cr := by
  intro c0 c1 c2 rest hl
  obtain ⟨h0, h1, h2⟩ := h c0 c1 c2 rest hl
  refine ⟨by rw [hc, h0], by rw [hc, h1], fun p hp0 hp1 => by rw [hc, h2 p hp0 hp1]⟩

/-- Watch consistency is symmetric in the two watched literals. -/
theorem WatchedBy.swap {occs : Lit → List Watcher} {c0 c1 : Lit} {rest : List Lit} {cr : Nat}
    (h : WatchedBy occs (c0 :: c1 :: rest) cr) : WatchedBy occs (c1 :: c0 :: rest) cr := by
  intro d0 d1 d2 rest2 hl
  simp only [List.cons.injEq] at hl
  obtain ⟨h0, h1, h2⟩ := h d1 d0 d2 rest2 (by rw [hl.1, hl.2.1, hl.2.2])
  exact ⟨h1, h0, fun p hp0 hp1 => h2 p hp1 hp0⟩

theorem Visited.watchedBy {p : Lit} {w : Watcher} {s : Solver} {c0 c1 : Lit}
    {rest : List Lit} {first : Lit} (hv : Visited p w s c0 c1 rest first)
    {occs : Lit → List Watcher} (h : WatchedBy occs (s.ca w.cref).lits w.cref) :
    WatchedBy occs (first :: p.neg :: rest) w.cref := by
  obtain ⟨_, _, hl, hc⟩ := hv
  rw [hl] at h
  rcases hc with ⟨rfl, rfl⟩ | ⟨_, rfl, rfl⟩
  · exact h.swap
  · exact h

theorem Visited.nodup {p : Lit} {w : Watcher} {s : Solver} {c0 c1 : Lit}
    {rest : List Lit} {first : Lit} (hv : Visited p w s c0 c1 rest first)
    (h : (s.ca w.cref).lits.Nodup) : (first :: p.neg :: rest).Nodup :=
  (List.Perm.nodup_iff hv.perm).mpr h

/-- The invariant of the loop over the long watchers of `p` for the clause `cr`: watch
consistency with respect to the lists as they will be once the loop has stored the
list `ws` for `p`. -/
theorem LongSpec.watch_keep {p : Lit} {w : Watcher} {s : Solver} {out : WatchOutcome}
    (h : LongSpec p w s out) {cr : Nat} {pre post : List Watcher}
    (hW : WatchedBy (Function.update s.watches.occs p (pre ++ w :: post)) (s.ca cr).lits cr)
    (hN : (s.ca cr).lits.Nodup) :
    (out.state.ca cr).lits.Nodup ∧
    (out.state.ca cr).oneWatched = (s.ca cr).oneWatched ∧
    (out.state.ca cr).mark = (s.ca cr).mark ∧
    match out with
    | WatchOutcome.keep w1 s1 =>
        WatchedBy (Function.update s1.watches.occs p (pre ++ w1 :: post)) (s1.ca cr).lits cr
    | WatchOutcome.moved s1 =>
        WatchedBy (Function.update s1.watches.occs p (pre ++ post)) (s1.ca cr).lits cr
    | WatchOutcome.conflict _ w1 s1 =>
        WatchedBy (Function.update s1.watches.occs p (pre ++ w1 :: post)) (s1.ca cr).lits cr := by
  have hext := h.toExt
  have hnd : (out.state.ca cr).lits.Nodup := (List.Perm.nodup_iff (hext.lits cr)).mpr hN
  -- replacing the watcher by one with the same reference keeps all counts
  have hsame : ∀ (first : Lit) (q : Lit),
      crefCount (Function.update s.watches.occs p (pre ++ ⟨w.cref, first⟩ :: post) q) cr
        = crefCount (Function.update s.watches.occs p (pre ++ w :: post) q) cr := by
    intro first q
    by_cases e : q = p
    · subst e
      simp only [Function.update_same, crefCount_mid]
    · simp only [Function.update_noteq e]
  -- the three outcomes that keep the watcher, with the clause swapped at most
  have hkeep : ∀ (c0 c1 : Lit) (rest : List Lit) (first : Lit),
      Visited p w s c0 c1 rest first →
      WatchedBy (Function.update s.watches.occs p (pre ++ ⟨w.cref, first⟩ :: post))
        (((s.setLits w.cref (first :: p.neg :: rest)).ca cr).lits) cr := by
    intro c0 c1 rest first hv
    by_cases hcr : cr = w.cref
    · subst hcr
      have := hv.watchedBy hW
      simpa [Solver.setLits] using this.congr (hsame first)
    · have : ((s.setLits w.cref (first :: p.neg :: rest)).ca cr).lits = (s.ca cr).lits := by
        simp [Solver.setLits, Function.update, hcr]
      rw [this]
      exact hW.congr (hsame first)
  cases h with
  | skip _ => exact ⟨hnd, rfl, rfl, hW⟩
  | sat c0 c1 rest first hv _ _ =>
    refine ⟨hnd, ?_, ?_, hkeep c0 c1 rest first hv⟩
    · by_cases hcr : cr = w.cref
      · subst hcr; simp [WatchOutcome.state, Solver.setLits]
      · simp [WatchOutcome.state, Solver.setLits, Function.update, hcr]
    · by_cases hcr : cr = w.cref
      · subst hcr; simp [WatchOutcome.state, Solver.setLits]
      · simp [WatchOutcome.state, Solver.setLits, Function.update, hcr]
  | conflict c0 c1 rest first hv _ _ =>
    refine ⟨hnd, ?_, ?_, hkeep c0 c1 rest first hv⟩
    · by_cases hcr : cr = w.cref
      · subst hcr; simp [WatchOutcome.state, Solver.setLits, Solver.setQhead]
      · simp [WatchOutcome.state, Solver.setLits, Solver.setQhead, Function.update, hcr]
    · by_cases hcr : cr = w.cref
      · subst hcr; simp [WatchOutcome.state, Solver.setLits, Solver.setQhead]
      · simp [WatchOutcome.state, Solver.setLits, Solver.setQhead, Function.update, hcr]
  | unit c0 c1 rest first s2 hv _ _ he =>
    obtain ⟨_, rfl⟩ := uncheckedEnqueue_eq he
    refine ⟨hnd, ?_, ?_, hkeep c0 c1 rest first hv⟩
    · by_cases hcr : cr = w.cref
      · subst hcr; simp [WatchOutcome.state, Solver.setLits]
      · simp [WatchOutcome.state, Solver.setLits, Function.update, hcr]
    · by_cases hcr : cr = w.cref
      · subst hcr; simp [WatchOutcome.state, Solver.setLits]
      · simp [WatchOutcome.state, Solver.setLits, Function.update, hcr]
  | moved c0 c1 rest first k x hv hnt hx hxv hxp =>
    refine ⟨hnd, ?_, ?_, ?_⟩
    · by_cases hcr : cr = w.cref
      · subst hcr; simp [WatchOutcome.state, Solver.setLits, Solver.pushWatch]
      · simp [WatchOutcome.state, Solver.setLits, Solver.pushWatch, Function.update, hcr]
    · by_cases hcr : cr = w.cref
      · subst hcr; simp [WatchOutcome.state, Solver.setLits, Solver.pushWatch]
      · simp [WatchOutcome.state, Solver.setLits, Solver.pushWatch, Function.update, hcr]
    · -- the counts after the move
      have hcount : ∀ q,
          crefCount (Function.update
            ((s.setLits w.cref (first :: x :: rest.set k p.neg)).pushWatch x.neg
              ⟨w.cref, first⟩).watches.occs p (pre ++ post) q) cr
          + (if q = p ∧ w.cref = cr then 1 else 0)
          = crefCount (Function.update s.watches.occs p (pre ++ w :: post) q) cr
            + (if q = x.neg ∧ w.cref = cr then 1 else 0) := by
        intro q
        by_cases e : q = p
        · subst e
          have : ¬ (q = x.neg) := fun e2 => hxp e2.symm
          simp only [Function.update_same, crefCount_mid, this, false_and, if_false, true_and]
          omega
        · simp only [Function.update_noteq e, e, false_and, if_false, Solver.pushWatch,
            Solver.setLits]
          by_cases e2 : q = x.neg
          · subst e2
            simp only [OccLists.push_occs_same, crefCount_append, crefCount_cons, crefCount_nil,
              true_and]
            omega
          · simp only [OccLists.push_occs_ne e2, e2, false_and, if_false]
      by_cases hcr : cr = w.cref
      · subst hcr
        have hW2 := hv.watchedBy hW
        have hN2 := hv.nodup hN
        -- the literal `x` is in `rest`, hence differs from the two watched literals
        have hxr : x ∈ rest := mem_of_get? hx
        have hk : k < rest.length := by
          rw [List.get?_eq_some] at hx
          exact hx.1
        have hfx : first ≠ x := by
          intro e; subst e
          simp only [List.nodup_cons, List.mem_cons] at hN2
          exact hN2.1 (Or.inr hxr)
        have hfp : first ≠ p.neg := by
          intro e
          simp only [List.nodup_cons, List.mem_cons] at hN2
          exact hN2.1 (Or.inl e)
        obtain ⟨c2, rest2, hrest⟩ : ∃ c2 rest2, rest = c2 :: rest2 := by
          cases rest with
          | nil => simp at hxr
          | cons a b => exact ⟨a, b, rfl⟩
        obtain ⟨h0, h1, h2⟩ := hW2 first p.neg c2 rest2 (by rw [hrest])
        rw [Lit.neg_neg] at h1
        have h2 : ∀ q, q ≠ first.neg → q ≠ p →
            crefCount (Function.update s.watches.occs p (pre ++ w :: post) q) w.cref = 0 := by
          intro q hq0 hq1
          exact h2 q hq0 (by rw [Lit.neg_neg]; exact hq1)
        intro d0 d1 d2 rest3 hl
        simp only [Solver.pushWatch, Solver.setLits, Function.update_same, List.cons.injEq] at hl
        obtain ⟨e0, e1, _⟩ := hl
        subst e0
        subst e1
        have hc := hcount
        simp only [and_true] at hc
        have hfn : first.neg ≠ p := fun e => hfp (by rw [← e]; simp)
        have hfxn : first.neg ≠ x.neg := fun e => hfx (Lit.neg_inj e)
        refine ⟨?_, ?_, ?_⟩
        · have := hc first.neg
          simp only [hfn, hfxn, if_false] at this
          rw [Nat.add_zero, Nat.add_zero] at this
          rw [this]
          exact h0
        · have := hc x.neg
          have hne : x.neg ≠ p := hxp
          simp only [hne, if_false, if_true] at this
          rw [Nat.add_zero] at this
          rw [this]
          have := h2 x.neg hfxn.symm hne
          rw [this]
        · intro q hq0 hq1
          have := hc q
          simp only [hq1, if_false] at this
          by_cases e : q = p
          · subst e
            simp only [if_true] at this
            rw [h1] at this
            omega
          · simp only [e, if_false] at this
            rw [Nat.add_zero, Nat.add_zero] at this
            rw [this]
            exact h2 q hq0 e
      · have hl : ((((s.setLits w.cref (first :: x :: rest.set k p.neg)).pushWatch x.neg
            ⟨w.cref, first⟩)).ca cr).lits = (s.ca cr).lits := by
          simp [Solver.setLits, Solver.pushWatch, Function.update, hcr]
        show WatchedBy _ ((((s.setLits w.cref (first :: x :: rest.set k p.neg)).pushWatch x.neg
            ⟨w.cref, first⟩)).ca cr).lits cr
        rw [hl]
        apply hW.congr
        intro q
        have := hcount q
        have hne : ¬ (w.cref = cr) := fun e => hcr e.symm
        simp only [hne, and_false, if_false] at this
        simpa using this

theorem propagateLong_attached {p : Lit} {cr : Nat} {ws kept : List Watcher}
    {confl : Option Nat} {s : Solver} {r : Option Nat × List Watcher × Solver}
    (h : propagateLong p ws kept confl s = some r)
    (hW : WatchedBy (Function.update s.watches.occs p (kept ++ ws)) (s.ca cr).lits cr)
    (hN : (s.ca cr).lits.Nodup) (hO : (s.ca cr).oneWatched = false)
    (hM : (s.ca cr).mark ≠ 1) :
    WatchedBy (Function.update r.2.2.watches.occs p r.2.1) (r.2.2.ca cr).lits cr ∧
    (r.2.2.ca cr).lits.Nodup ∧ (r.2.2.ca cr).oneWatched = false ∧ (r.2.2.ca cr).mark ≠ 1 := by
  refine propagateLong_induct (p := p)
    (fun _ l t => WatchedBy (Function.update t.watches.occs p l) (t.ca cr).lits cr ∧
      (t.ca cr).lits.Nodup ∧ (t.ca cr).oneWatched = false ∧ (t.ca cr).mark ≠ 1) ?_ ?_ ?_
    ws kept confl s r ⟨hW, hN, hO, hM⟩ h
  · intro _ pre w post t w1 t1 hI hs
    obtain ⟨h1, h2, h3, h4⟩ := (longStep_spec hs).watch_keep hI.1 hI.2.1
    exact ⟨h4, h1, h2.trans hI.2.2.1, fun e => hI.2.2.2 (h3.symm.trans e)⟩
  · intro _ pre w post t t1 hI hs
    obtain ⟨h1, h2, h3, h4⟩ := (longStep_spec hs).watch_keep hI.1 hI.2.1
    exact ⟨h4, h1, h2.trans hI.2.2.1, fun e => hI.2.2.2 (h3.symm.trans e)⟩
  · intro _ pre w post t _ w1 t1 hI hs
    obtain ⟨h1, h2, h3, h4⟩ := (longStep_spec hs).watch_keep hI.1 hI.2.1
    exact ⟨h4, h1, h2.trans hI.2.2.1, fun e => hI.2.2.2 (h3.symm.trans e)⟩

theorem AttachedOK.attached_frame {s t : Solver} {cr : Nat} (h : AttachedOK s cr)
    (h1 : t.ca cr = s.ca cr)
    (h2 : ∀ q, crefCount (t.watches.occs q) cr = crefCount (s.watches.occs q) cr) :
    AttachedOK t cr := by
  obtain ⟨hW, hN, hO, hM⟩ := h
  refine ⟨?_, by rw [h1]; exact hN, by rw [h1]; exact hO, by rw [h1]; exact hM⟩
  unfold WatchConsistent at hW ⊢
  rw [h1]
  exact hW.congr h2

theorem attachClause_counts {s t : Solver} {cr cr2 : Nat} (h : attachClause s cr = some t)
    (hne : cr2 ≠ cr) :
    t.ca = s.ca ∧ ∀ q, crefCount (t.watches.occs q) cr2 = crefCount (s.watches.occs q) cr2 := by
  unfold attachClause at h
  dsimp only at h
  match hl : (s.ca cr).lits with
  | [] => rw [hl] at h; simp at h
  | [_] => rw [hl] at h; simp at h
  | c0 :: c1 :: rest =>
    rw [hl] at h
    simp only [Option.some.injEq] at h
    subst h
    have hne2 : ¬ (cr = cr2) := fun e => hne e.symm
    constructor
    · split <;> split <;> rfl
    · intro q
      have key : crefCount (((s.watches.push c0.neg ⟨cr, c1⟩).push c1.neg ⟨cr, c0⟩).occs q) cr2
          = crefCount (s.watches.occs q) cr2 := by
        by_cases e1 : q = c1.neg
        · subst e1
          rw [OccLists.push_occs_same, crefCount_append, crefCount_cons, crefCount_nil]
          by_cases e0 : c1.neg = c0.neg
          · rw [e0, OccLists.push_occs_same, crefCount_append, crefCount_cons, crefCount_nil]
            simp [hne2]
          · rw [OccLists.push_occs_ne e0]
            simp [hne2]
        · rw [OccLists.push_occs_ne e1]
          by_cases e0 : q = c0.neg
          · subst e0
            rw [OccLists.push_occs_same, crefCount_append, crefCount_cons, crefCount_nil]
            simp [hne2]
          · rw [OccLists.push_occs_ne e0]
      by_cases hr : rest = []
      · simp only [hr, if_true]
        split <;> rfl
      · simp only [hr, if_false]
        split <;> exact key

theorem promoteClause_counts {s t : Solver} {cr cr2 : Nat} {c0 : Lit} {rest : List Lit}
    (h : promoteClause s cr c0 rest = some t) (hne : cr2 ≠ cr) :
    ∀ q, crefCount (t.watches.occs q) cr2 = crefCount (s.watches.occs q) cr2 := by
  unfold promoteClause at h
  split at h
  · simp at h
  · cases hm : maxLevelIndex s rest 1 none with
    | none => rw [hm] at h; simp at h
    | some im =>
      obtain ⟨index, m⟩ := im
      rw [hm] at h
      dsimp only at h
      cases rest with
      | nil => simp at h
      | cons r1 tl =>
        dsimp only at h
        cases hli : (r1 :: tl).get? (index - 1) with
        | none => rw [hli] at h; simp at h
        | some li =>
          rw [hli] at h
          dsimp only at h
          split at h
          · simp at h
          · next s4 h4 =>
            simp only [Option.some.injEq] at h
            subst h
            exact (attachClause_counts h4 hne).2

theorem unaryStep_attached {p : Lit} {w : Watcher} {s : Solver} {out : WatchOutcome}
    {cr : Nat} (h : unaryStep p w s = some out) (hA : AttachedOK s cr) :
    AttachedOK out.state cr := by
  have hspec := unaryStep_spec h
  cases hspec with
  | skip _ => exact hA
  | moved rest k x ho hlits hx hxv hxp =>
    have hcr : cr ≠ w.cref := by
      intro e; subst e
      rw [hA.2.2.1] at ho; simp at ho
    apply hA.attached_frame
    · simp [WatchOutcome.state, Solver.setLits, Solver.pushUnaryWatch, Function.update, hcr]
    · intro q; rfl
  | conflict rest s1 ho hlits hall hs1 =>
    have hcr : cr ≠ w.cref := by
      intro e; subst e
      rw [hA.2.2.1] at ho; simp at ho
    have hA0 : AttachedOK (s.setQhead s.trail.length) cr := hA.attached_frame rfl (fun _ => rfl)
    rcases hs1 with ⟨_, rfl⟩ | ⟨_, hpc⟩
    · exact hA0
    · show AttachedOK s1 cr
      exact hA0.attached_frame (promoteClause_lits_other hpc hcr) (promoteClause_counts hpc hcr)

theorem propagateUnaryLoop_attached {p : Lit} {cr : Nat} {ws kept : List Watcher}
    {confl : Option Nat} {s : Solver} {r : Option Nat × List Watcher × Solver}
    (h : propagateUnaryLoop p ws kept confl s = some r) (hA : AttachedOK s cr) :
    AttachedOK r.2.2 cr := by
  induction ws generalizing kept s with
  | nil =>
    simp only [propagateUnaryLoop, Option.some.injEq] at h
    subst h
    exact hA
  | cons w ws ih =>
    unfold propagateUnaryLoop at h
    cases hs : unaryStep p w s with
    | none => rw [hs] at h; simp at h
    | some out =>
      rw [hs] at h
      have hA1 := unaryStep_attached hs hA
      cases out with
      | keep w1 s1 => exact ih h hA1
      | moved s1 => exact ih h hA1
      | conflict cr w1 s1 =>
        dsimp only at h
        split at h
        · split at h
          · simp at h
          · simp only [Option.some.injEq] at h
            subst h
            exact hA1
        · simp only [Option.some.injEq] at h
          subst h
          exact hA1

theorem propagateLoop_attached (cr : Nat) (fuel : Nat) (confl : Option Nat) (n : Nat)
    (s : Solver) (r : Option Nat × Solver) (hA : AttachedOK s cr)
    (h : propagateLoop fuel confl n s = some r) : AttachedOK r.2 cr := by
  refine propagateLoop_induct (fun _ t => AttachedOK t cr) (fun _ t => AttachedOK t cr)
    ?_ ?_ ?_ fuel confl n s r hA h
  · intro confl s p s1 confl1 kept s2 hI hq hp hb hl
    obtain ⟨hca, hw, _, _, _, _⟩ := propagateBin_ca hb
    have h1 : AttachedOK s1 cr := hI.attached_frame (by rw [hca]; rfl) (fun q => by rw [hw]; rfl)
    have h2 := @propagateLong_attached p cr _ _ _ _ _ hl
      (by simpa [Function.update_eq_self] using h1.1) h1.2.1 h1.2.2.1 h1.2.2.2
    have h3 : AttachedOK { s2 with watches := s2.watches.set p kept } cr :=
      ⟨h2.1, h2.2.1, h2.2.2.1, h2.2.2.2⟩
    refine ⟨h3, ?_⟩
    intro confl2 s4 _ _ hun
    unfold propagateUnaryWatches at hun
    cases hl2 : propagateUnaryLoop p
        (({ s2 with watches := s2.watches.set p kept } : Solver).unaryWatches.occs p) [] none
        { s2 with watches := s2.watches.set p kept } with
    | none => rw [hl2] at hun; simp at hun
    | some rl =>
      obtain ⟨c5, k5, s5⟩ := rl
      rw [hl2] at hun
      simp only [Option.some.injEq, Prod.mk.injEq] at hun
      obtain ⟨_, rfl⟩ := hun
      exact (propagateUnaryLoop_attached hl2 h3).attached_frame rfl (fun _ => rfl)
  · intro confl s p s1 cr2 hI hq hp hb
    obtain ⟨hca, hw, _, _, _, _⟩ := propagateBin_ca hb
    exact hI.attached_frame (by rw [hca]; rfl) (fun q => by rw [hw]; rfl)
  · intro confl s n hI hq
    exact hI.attached_frame rfl (fun _ => rfl)

theorem propagate_attached {s s1 : Solver} {confl : Option Nat} {cr : Nat}
    (h : propagate s = some (confl, s1)) (hA : AttachedOK s cr) : AttachedOK s1 cr := by
  unfold propagate at h
  refine propagateLoop_attached cr _ none 0 _ (confl, s1) ?_ h
  refine AttachedOK.attached_frame (t := s.cleanAllWatches) hA rfl ?_
  intro q
  show crefCount ((s.watches.cleanAll s.watcherDeleted).occs q) cr = _
  unfold OccLists.cleanAll
  dsimp only
  split
  · apply crefCount_filter
    intro w hw
    simp [Solver.watcherDeleted, hw, hA.2.2.2]
  · rfl

theorem attachClause_new_watched {s s1 : Solver} {cr : Nat}
    (h : attachClause s cr = some s1) (hN : (s.ca cr).lits.Nodup)
    (hF : ∀ p, crefCount (s.watches.occs p) cr = 0) : WatchConsistent s1 cr := by
  unfold attachClause at h
  dsimp only at h
  match hl : (s.ca cr).lits with
  | [] => rw [hl] at h; simp at h
  | [_] => rw [hl] at h; simp at h
  | c0 :: c1 :: rest =>
    rw [hl] at h
    simp only [Option.some.injEq] at h
    subst h
    have hca : ∀ (t : Solver), t.ca = s.ca → (t.ca cr).lits = c0 :: c1 :: rest := by
      intro t ht; rw [ht, hl]
    rw [hl] at hN
    have hne : c0 ≠ c1 := by
      intro e
      simp only [List.nodup_cons, List.mem_cons] at hN
      exact hN.1 (Or.inl e)
    have hnn : c1.neg ≠ c0.neg := fun e => hne (Lit.neg_inj e).symm
    have key : WatchedBy ((s.watches.push c0.neg ⟨cr, c1⟩).push c1.neg ⟨cr, c0⟩).occs
        (c0 :: c1 :: rest) cr := by
      intro d0 d1 d2 rest2 hl2
      simp only [List.cons.injEq] at hl2
      obtain ⟨e0, e1, _⟩ := hl2
      subst e0
      subst e1
      refine ⟨?_, ?_, ?_⟩
      · rw [OccLists.push_occs_ne hnn.symm, OccLists.push_occs_same, crefCount_append,
          crefCount_cons, crefCount_nil, hF]
        simp
      · rw [OccLists.push_occs_same, OccLists.push_occs_ne hnn, crefCount_append,
          crefCount_cons, crefCount_nil, hF]
        simp
      · intro q h0 h1
        rw [OccLists.push_occs_ne h1, OccLists.push_occs_ne h0, hF]
    unfold WatchConsistent
    by_cases hr : rest = []
    · subst hr
      intro d0 d1 d2 rest2 hl2
      exfalso
      have : (c0 :: [c1]) = d0 :: d1 :: d2 :: rest2 := by
        rw [← hl2]
        split <;> exact (hca _ rfl).symm
      simp at this
    · simp only [hr, if_false]
      split
      · show WatchedBy _ (s.ca cr).lits cr
        rw [hl]
        exact key
      · show WatchedBy _ (s.ca cr).lits cr
        rw [hl]
        exact key

end Glucose


namespace Glucose

/-! ## The trail invariant -/

theorem levelAt_le (lims : List Nat) (i : Nat) : levelAt lims i ≤ lims.length :=
  List.countP_le_length _

theorem levelAt_eq_length {lims : List Nat} {i : Nat} (h : ∀ b ∈ lims, b ≤ i) :
    levelAt lims i = lims.length := by
  unfold levelAt
  rw [List.countP_eq_length]
  intro b hb
  simpa using h b hb

theorem levelAt_append (l1 l2 : List Nat) (i : Nat) :
    levelAt (l1 ++ l2) i = levelAt l1 i + levelAt l2 i := by
  simp [levelAt, List.countP_append]

theorem levelAt_mono (lims : List Nat) {i j : Nat} (h : i ≤ j) :
    levelAt lims i ≤ levelAt lims j := by
  induction lims with
  | nil => simp [levelAt]
  | cons b lims ih =>
    unfold levelAt at ih ⊢
    simp only [List.countP_cons]
    have : (if decide (b ≤ i) = true then 1 else 0) ≤ (if decide (b ≤ j) = true then 1 else 0) := by
      by_cases hb : b ≤ i
      · have : b ≤ j := le_trans hb h
        simp [hb, this]
      · simp [hb]
    omega

theorem same_lit_of_true {s : Solver} {l1 l2 : Lit} (hv : l1.var = l2.var)
    (h1 : s.value l1 = lbool.l_True) (h2 : s.value l2 = lbool.l_True) : l1 = l2 := by
  rcases Lit.eq_or_eq_neg_of_var hv with e | e
  · exact e
  · rw [e, value_neg_true, h2] at h1
    simp at h1

theorem TrailOK.mem_of_true {s : Solver} (h : TrailOK s) {l : Lit}
    (hl : s.value l = lbool.l_True) : l ∈ s.trail := by
  obtain ⟨l2, hl2, hv⟩ := h.onTrail l.var (assigned_of_value (by rw [hl]; simp))
  have := same_lit_of_true hv (h.allTrue l2 hl2) hl
  rw [← this]
  exact hl2

theorem TrailOK.toLevelsOK {s : Solver} (h : TrailOK s) : LevelsOK s := by
  intro v hv
  obtain ⟨l, hl, rfl⟩ := h.onTrail v hv
  obtain ⟨i, hget⟩ := List.mem_iff_get?.mp hl
  rw [h.levels i l hget]
  exact levelAt_le _ _

theorem get?_append_cases {α : Type} {a b : List α} {i : Nat} {x : α}
    (h : (a ++ b).get? i = some x) :
    (i < a.length ∧ a.get? i = some x) ∨ (a.length ≤ i ∧ x ∈ b) := by
  by_cases hi : i < a.length
  · left
    refine ⟨hi, ?_⟩
    rw [List.get?_eq_getElem?] at h ⊢
    rwa [List.getElem?_append_left hi] at h
  · right
    have hi2 : a.length ≤ i := Nat.le_of_not_lt hi
    refine ⟨hi2, ?_⟩
    rw [List.get?_eq_getElem?] at h
    rw [List.getElem?_append_right hi2] at h
    exact mem_of_get? (by rw [List.get?_eq_getElem?]; exact h)

/-- Propagation steps keep the trail invariant. -/
theorem Ext.trailOK {s t : Solver} (h : Ext s t) (hs : TrailOK s) : TrailOK t := by
  obtain ⟨added, ht, htrue, hfresh, hnd, hnew⟩ := h.trail
  refine ⟨h.trailTrue hs.allTrue, ?_, ?_, ?_, ?_, ?_⟩
  · intro v hv
    by_cases e : s.assigns v = lbool.l_Undef
    · obtain ⟨l, hl, hlv⟩ := hnew v e hv
      exact ⟨l, by rw [ht]; exact List.mem_append_right _ hl, hlv⟩
    · obtain ⟨l, hl, hlv⟩ := hs.onTrail v e
      exact ⟨l, by rw [ht]; exact List.mem_append_left _ hl, hlv⟩
  · rw [ht, List.map_append, List.nodup_append]
    refine ⟨hs.nodup, hnd, ?_⟩
    intro v hv1 hv2
    obtain ⟨l1, hl1, rfl⟩ := List.mem_map.mp hv1
    obtain ⟨l2, hl2, e⟩ := List.mem_map.mp hv2
    have h1 := hs.allTrue l1 hl1
    have h2 := hfresh l2 hl2
    rw [e] at h2
    rw [value_undef_iff.mpr h2] at h1
    simp at h1
  · rw [h.trail_lim]; exact hs.limsSorted
  · intro b hb
    rw [h.trail_lim] at hb
    have := hs.limsBound b hb
    rw [ht, List.length_append]
    omega
  · intro i l hget
    rw [ht] at hget
    rcases get?_append_cases hget with ⟨hi, hg⟩ | ⟨hi, hl⟩
    · have hl : l ∈ s.trail := mem_of_get? hg
      have ha : s.assigns l.var ≠ lbool.l_Undef :=
        assigned_of_value (by rw [hs.allTrue l hl]; simp)
      rw [h.level_of_assigned ha, h.trail_lim]
      exact hs.levels i l hg
    · have hu := hfresh l hl
      have hta : t.assigns l.var ≠ lbool.l_Undef :=
        assigned_of_value (by rw [htrue l hl]; simp)
      rw [h.newlevel l.var hu hta, h.trail_lim]
      rw [levelAt_eq_length (fun b hb => le_trans (hs.limsBound b hb) hi)]
      simp [Solver.decisionLevel, h.trail_lim]

theorem Ext.queueFrom {s t : Solver} (h : Ext s t) (hs : TrailOK s) {n : Nat}
    (hq : QueueFrom s n) : QueueFrom t n := by
  obtain ⟨added, ht, htrue, hfresh, hnd, hnew⟩ := h.trail
  intro i l hi hget
  rw [ht] at hget
  rcases get?_append_cases hget with ⟨hi2, hg⟩ | ⟨hi2, hl⟩
  · have hl : l ∈ s.trail := mem_of_get? hg
    have ha : s.assigns l.var ≠ lbool.l_Undef :=
      assigned_of_value (by rw [hs.allTrue l hl]; simp)
    rw [h.level_of_assigned ha, h.decisionLevel]
    exact hq i l hi hg
  · have hu := hfresh l hl
    have hta : t.assigns l.var ≠ lbool.l_Undef :=
      assigned_of_value (by rw [htrue l hl]; simp)
    exact h.newlevel l.var hu hta

theorem GoodWatcher.good_ext {s t : Solver} (h : Ext s t) {p : Lit} {w : Watcher}
    (hp : s.value p = lbool.l_True) (hg : GoodWatcher s p w) : GoodWatcher t p w := by
  obtain ⟨hb, hl⟩ := hg
  have hba : s.value w.blocker ≠ lbool.l_Undef := by rw [hb]; simp
  have hpa : s.value p ≠ lbool.l_Undef := by rw [hp]; simp
  refine ⟨by rw [h.value_of_assigned hba, hb], ?_⟩
  rw [h.level_of_assigned (assigned_of_value hba), h.level_of_assigned (assigned_of_value hpa)]
  exact hl

/-- The watchers of the propagated literals stay done through an extension that
leaves their lists alone. -/
theorem WatchesDone.done_ext {s t : Solver} {n : Nat} (hd : WatchesDone s n) (h : Ext s t)
    (hs : TrailOK s)
    (hw : ∀ p ∈ s.trail, ∀ w ∈ t.watches.occs p, w ∈ s.watches.occs p)
    (hb : ∀ p ∈ s.trail, ∀ w ∈ t.watchesBin.occs p, w ∈ s.watchesBin.occs p) :
    (∀ i p, i < n → s.trail.get? i = some p →
      (∀ w ∈ t.watches.occs p, GoodWatcher t p w) ∧
      (∀ w ∈ t.watchesBin.occs p, GoodWatcher t p w)) := by
  intro i p hi hget
  have hp : p ∈ s.trail := mem_of_get? hget
  have hpv := hs.allTrue p hp
  obtain ⟨h1, h2⟩ := hd i p hi hget
  exact ⟨fun w hw1 => (h1 w (hw p hp w hw1)).good_ext h hpv,
    fun w hw1 => (h2 w (hb p hp w hw1)).good_ext h hpv⟩

theorem get?_of_ext_lt {s t : Solver} (h : Ext s t) {i : Nat} {p : Lit}
    (hi : i < s.trail.length) (hget : t.trail.get? i = some p) :
    s.trail.get? i = some p := by
  obtain ⟨added, ht, _⟩ := h.trail
  rw [ht] at hget
  rcases get?_append_cases hget with ⟨_, hg⟩ | ⟨hi2, _⟩
  · exact hg
  · omega

end Glucose


namespace Glucose

/-! ## Attached clauses through the visit of a long watcher -/

theorem binAttached_of_perm {occsBin : Lit → List Watcher} {l l2 : List Lit} {cr : Nat}
    (hp : l2.Perm l) (h : BinAttached occsBin l cr) : BinAttached occsBin l2 cr := by
  intro a b e
  subst e
  rcases perm_pair hp.symm with e | e
  · exact h a b e
  · obtain ⟨h1, h2⟩ := h b a e
    exact ⟨h2, h1⟩

/-- The lists after the visit contain, for the clause `cr`, only watchers that were
there before or the rewritten watcher. -/
theorem blockersIn_step {occs occs2 : Lit → List Watcher} {lits lits2 : List Lit}
    {cr : Nat} (w1 : Watcher) (h : BlockersIn occs lits cr) (hp : lits2.Perm lits)
    (hmem : ∀ q w, w ∈ occs2 q → w ∈ occs q ∨ w = w1)
    (h1 : w1.cref = cr → w1.blocker ∈ lits2) : BlockersIn occs2 lits2 cr := by
  intro q w hw hcr
  rcases hmem q w hw with hw | rfl
  · exact hp.symm.subset (h q w hw hcr)
  · exact h1 hcr

theorem otherWatchBlocks_frame {occs occs2 : Lit → List Watcher} {lits : List Lit}
    {cr : Nat} (h : OtherWatchBlocks occs lits cr)
    (hmem : ∀ q w, w ∈ occs q → w.cref = cr → w ∈ occs2 q) :
    OtherWatchBlocks occs2 lits cr := by
  intro c0 c1 c2 rest hl
  rcases h c0 c1 c2 rest hl with ⟨w, hw, hc, hb⟩ | ⟨w, hw, hc, hb⟩
  · exact Or.inl ⟨w, hmem _ w hw hc, hc, hb⟩
  · exact Or.inr ⟨w, hmem _ w hw hc, hc, hb⟩

theorem mem_update_mid {occs : Lit → List Watcher} {p q : Lit} {pre post : List Watcher}
    {w w1 w2 : Watcher}
    (h : w2 ∈ Function.update occs p (pre ++ w1 :: post) q) :
    w2 ∈ Function.update occs p (pre ++ w :: post) q ∨ w2 = w1 := by
  by_cases e : q = p
  · subst e
    simp only [Function.update_same, List.mem_append, List.mem_cons] at h ⊢
    tauto
  · rw [Function.update_noteq e] at h ⊢
    exact Or.inl h

theorem mem_update_mid_ne {occs : Lit → List Watcher} {p q : Lit} {pre post : List Watcher}
    {w w1 w2 : Watcher} (hne : w2 ≠ w)
    (h : w2 ∈ Function.update occs p (pre ++ w :: post) q) :
    w2 ∈ Function.update occs p (pre ++ w1 :: post) q := by
  by_cases e : q = p
  · subst e
    simp only [Function.update_same, List.mem_append, List.mem_cons] at h ⊢
    tauto
  · rw [Function.update_noteq e] at h ⊢
    exact h

/-- The invariant of the loop over the long watchers of `p` for an attached clause
`cr`, with respect to the lists as they will be once the loop has stored its list. -/
theorem LongSpec.attached_keep {p : Lit} {w : Watcher} {s : Solver} {out : WatchOutcome}
    (h : LongSpec p w s out) {cr : Nat} {pre post : List Watcher}
    (hA : AttachedAt (Function.update s.watches.occs p (pre ++ w :: post)) s.watchesBin.occs
      (s.ca cr) cr) :
    match out with
    | WatchOutcome.keep w1 s1 =>
        AttachedAt (Function.update s1.watches.occs p (pre ++ w1 :: post)) s1.watchesBin.occs
          (s1.ca cr) cr
    | WatchOutcome.moved s1 =>
        AttachedAt (Function.update s1.watches.occs p (pre ++ post)) s1.watchesBin.occs
          (s1.ca cr) cr
    | WatchOutcome.conflict _ w1 s1 =>
        AttachedAt (Function.update s1.watches.occs p (pre ++ w1 :: post)) s1.watchesBin.occs
          (s1.ca cr) cr := by
  have hext := h.toExt
  obtain ⟨k1, k2, k3, k4⟩ := h.watch_keep hA.watched hA.nodup
  have hperm := hext.lits cr
  have hsize : 2 ≤ (out.state.ca cr).lits.length := by
    rw [hperm.length_eq]; exact hA.size
  have hone : (out.state.ca cr).oneWatched = false := k2.trans hA.notOne
  have hdel : (out.state.ca cr).mark ≠ 1 := fun e => hA.notDel (k3.symm.trans e)
  -- the kept watcher: same reference, the first literal as blocker
  have hkeep : ∀ (c0 c1 : Lit) (rest : List Lit) (first : Lit) (s1 : Solver),
      Visited p w s c0 c1 rest first →
      s1.watches = s.watches → s1.watchesBin = s.watchesBin →
      s1.ca = (s.setLits w.cref (first :: p.neg :: rest)).ca →
      WatchedBy (Function.update s1.watches.occs p (pre ++ ⟨w.cref, first⟩ :: post))
        (s1.ca cr).lits cr →
      (s1.ca cr).lits.Perm (s.ca cr).lits →
      (s1.ca cr).oneWatched = false → (s1.ca cr).mark ≠ 1 →
      AttachedAt (Function.update s1.watches.occs p (pre ++ ⟨w.cref, first⟩ :: post))
        s1.watchesBin.occs (s1.ca cr) cr := by
    intro c0 c1 rest first s1 hv hw hwb hca hW hp ho hm
    refine ⟨hW, (List.Perm.nodup_iff hp).mpr hA.nodup, ho, hm, by rw [hp.length_eq]; exact hA.size,
      ?_, ?_, ?_⟩
    · rw [hw]
      apply blockersIn_step ⟨w.cref, first⟩ hA.blockers hp
      · intro q w2 hw2
        exact mem_update_mid hw2
      · intro e
        simp only at e
        subst e
        rw [hca]
        simp [Solver.setLits]
    · by_cases hcr : cr = w.cref
      · subst hcr
        intro d0 d1 d2 rest2 hl
        rw [hca] at hl
        simp only [Solver.setLits, Function.update_same, List.cons.injEq] at hl
        obtain ⟨e0, e1, _⟩ := hl
        subst e0
        subst e1
        right
        refine ⟨⟨w.cref, first⟩, ?_, rfl, rfl⟩
        rw [Lit.neg_neg, Function.update_same]
        simp
      · have hl : (s1.ca cr).lits = (s.ca cr).lits := by
          rw [hca]; simp [Solver.setLits, Function.update, hcr]
        rw [hl, hw]
        apply otherWatchBlocks_frame hA.other
        intro q w2 hw2 hc2
        apply mem_update_mid_ne _ hw2
        intro e
        subst e
        exact hcr hc2.symm
    · rw [hwb]
      exact binAttached_of_perm hp hA.bin
  cases h with
  | skip _ => exact hA
  | sat c0 c1 rest first hv _ _ =>
    exact hkeep c0 c1 rest first _ hv rfl rfl rfl k4 hperm hone hdel
  | conflict c0 c1 rest first hv _ _ =>
    exact hkeep c0 c1 rest first _ hv rfl rfl rfl k4 hperm hone hdel
  | unit c0 c1 rest first s2 hv _ _ he =>
    obtain ⟨_, e2⟩ := uncheckedEnqueue_eq he
    exact hkeep c0 c1 rest first s2 hv (by rw [e2]; rfl) (by rw [e2]; rfl) (by rw [e2]) k4
      hperm hone hdel
  | moved c0 c1 rest first k x hv hnt hx hxv hxp =>
    refine ⟨k4, k1, hone, hdel, hsize, ?_, ?_, ?_⟩
    · apply blockersIn_step ⟨w.cref, first⟩ hA.blockers hperm
      · intro q w2 hw2
        by_cases e : q = p
        · subst e
          rw [Function.update_same] at hw2 ⊢
          left
          simp only [List.mem_append, List.mem_cons] at hw2 ⊢
          tauto
        · rw [Function.update_noteq e] at hw2 ⊢
          simp only [Solver.pushWatch, Solver.setLits] at hw2
          rcases OccLists.mem_push.mp hw2 with hw3 | ⟨_, rfl⟩
          · exact Or.inl hw3
          · exact Or.inr rfl
      · intro e
        simp only at e
        subst e
        simp [WatchOutcome.state, Solver.pushWatch, Solver.setLits]
    · by_cases hcr : cr = w.cref
      · subst hcr
        intro d0 d1 d2 rest2 hl
        simp only [Solver.pushWatch, Solver.setLits, Function.update_same,
          List.cons.injEq] at hl
        obtain ⟨e0, e1, _⟩ := hl
        subst e0
        subst e1
        right
        refine ⟨⟨w.cref, first⟩, ?_, rfl, rfl⟩
        rw [Function.update_noteq hxp]
        simp only [Solver.pushWatch, Solver.setLits]
        exact OccLists.mem_push.mpr (Or.inr ⟨rfl, rfl⟩)
      · have hl : ((((s.setLits w.cref (first :: x :: rest.set k p.neg)).pushWatch x.neg
            ⟨w.cref, first⟩)).ca cr).lits = (s.ca cr).lits := by
          simp [Solver.setLits, Solver.pushWatch, Function.update, hcr]
        show OtherWatchBlocks _ ((((s.setLits w.cref (first :: x :: rest.set k p.neg)).pushWatch
          x.neg ⟨w.cref, first⟩)).ca cr).lits cr
        rw [hl]
        apply otherWatchBlocks_frame hA.other
        intro q w2 hw2 hc2
        have hne : w2 ≠ w := by
          intro e
          subst e
          exact hcr hc2.symm
        by_cases e : q = p
        · subst e
          rw [Function.update_same] at hw2 ⊢
          simp only [List.mem_append, List.mem_cons] at hw2 ⊢
          tauto
        · rw [Function.update_noteq e] at hw2 ⊢
          simp only [Solver.pushWatch, Solver.setLits]
          exact OccLists.mem_push.mpr (Or.inl hw2)
    · exact binAttached_of_perm hperm hA.bin

end Glucose


namespace Glucose

/-! ## `propagate` keeps the invariant -/

/-- Induction along the loop over the long watchers that tells the kept watchers from
the watchers still to visit. -/
theorem propagateLong_induct2 {p : Lit}
    (I : Option Nat → List Watcher → List Watcher → Solver → Prop)
    (Q : Option Nat → List Watcher → Solver → Prop)
    (hkeep : ∀ confl pre w post s w1 s1, I confl pre (w :: post) s →
      longStep p w s = some (WatchOutcome.keep w1 s1) → I confl (pre ++ [w1]) post s1)
    (hmoved : ∀ confl pre w post s s1, I confl pre (w :: post) s →
      longStep p w s = some (WatchOutcome.moved s1) → I confl pre post s1)
    (hconf : ∀ confl pre w post s cr w1 s1, I confl pre (w :: post) s →
      longStep p w s = some (WatchOutcome.conflict cr w1 s1) →
      Q (some cr) ((pre ++ [w1]) ++ post) s1)
    (hend : ∀ confl kept s, I confl kept [] s → Q confl kept s) :
    ∀ (ws kept : List Watcher) (confl : Option Nat) (s : Solver)
      (r : Option Nat × List Watcher × Solver),
      I confl kept ws s → propagateLong p ws kept confl s = some r → Q r.1 r.2.1 r.2.2 := by
  intro ws
  induction ws with
  | nil =>
    intro kept confl s r hI h
    simp only [propagateLong, Option.some.injEq] at h
    subst h
    exact hend _ _ _ hI
  | cons w ws ih =>
    intro kept confl s r hI h
    unfold propagateLong at h
    cases hs : longStep p w s with
    | none => rw [hs] at h; simp at h
    | some out =>
      rw [hs] at h
      cases out with
      | keep w1 s1 =>
        dsimp only at h
        exact ih _ _ _ _ (hkeep confl kept w ws s w1 s1 hI hs) h
      | moved s1 =>
        dsimp only at h
        exact ih _ _ _ _ (hmoved confl kept w ws s s1 hI hs) h
      | conflict cr w1 s1 =>
        simp only [Option.some.injEq] at h
        subst h
        exact hconf confl kept w ws s cr w1 s1 hI hs

/-- The binary loop enqueues literals of created variables and leaves every visited
watcher with a true blocker. -/
theorem propagateBin_good {p : Lit} {ws : List Watcher} {s s1 : Solver}
    (h : propagateBin ws s = some (none, s1)) (hp : s.value p = lbool.l_True)
    (hlp : s.level p.var = s.decisionLevel) (hL : LevelsOK s) :
    ∀ w ∈ ws, GoodWatcher s1 p w := by
  induction ws generalizing s with
  | nil => simp
  | cons w ws ih =>
    have hext : Ext s s1 := propagateBin_ext h
    unfold propagateBin at h
    split at h
    · simp at h
    · next hnf =>
      split at h
      · next hu =>
        split at h
        · simp at h
        · next s2 he =>
          have hx := uncheckedEnqueue_ext he
          have hself := uncheckedEnqueue_value_self he
          have hp2 : s2.value p = lbool.l_True := by
            rw [hx.value_of_assigned (by rw [hp]; simp), hp]
          have hpa : s.assigns p.var ≠ lbool.l_Undef := assigned_of_value (by rw [hp]; simp)
          have hlp2 : s2.level p.var = s2.decisionLevel := by
            rw [hx.level_of_assigned hpa, hx.decisionLevel, hlp]
          have hL2 : LevelsOK s2 := hx.levelsOK hL
          have hrest := ih h hp2 hlp2 hL2
          intro w2 hw2
          rcases List.mem_cons.mp hw2 with rfl | hw2
          · have hx2 : Ext s2 s1 := propagateBin_ext h
            have hg : GoodWatcher s2 p w2 := by
              refine ⟨hself, ?_⟩
              rw [hlp2]
              exact hL2 _ (assigned_of_value (by rw [hself]; simp))
            exact hg.good_ext hx2 hp2
          · exact hrest w2 hw2
      · next hnu =>
        have hrest := ih h hp hlp hL
        intro w2 hw2
        rcases List.mem_cons.mp hw2 with rfl | hw2
        · have ht : s.value w2.blocker = lbool.l_True := by
            revert hnf hnu
            cases s.value w2.blocker <;> simp
          have hg : GoodWatcher s p w2 := by
            refine ⟨ht, ?_⟩
            rw [hlp]
            exact hL _ (assigned_of_value (by rw [ht]; simp))
          exact hg.good_ext hext hp
        · exact hrest w2 hw2

theorem propagateBin_trailVars {ws : List Watcher} {s : Solver} {r : Option Nat × Solver}
    (h : propagateBin ws s = some r) (hv : ∀ w ∈ ws, w.blocker.var < s.nVars)
    (ht : ∀ l ∈ s.trail, l.var < s.nVars) :
    r.2.nVars = s.nVars ∧ ∀ l ∈ r.2.trail, l.var < s.nVars := by
  induction ws generalizing s with
  | nil =>
    simp only [propagateBin, Option.some.injEq] at h
    subst h
    exact ⟨rfl, ht⟩
  | cons w ws ih =>
    unfold propagateBin at h
    split at h
    · simp only [Option.some.injEq] at h
      subst h
      exact ⟨rfl, ht⟩
    · split at h
      · split at h
        · simp at h
        · next s2 he =>
          obtain ⟨_, e2⟩ := uncheckedEnqueue_eq he
          have hn : s2.nVars = s.nVars := by rw [e2]
          have := ih (s := s2) h (by rw [hn]; exact fun w2 hw2 => hv w2 (List.mem_cons_of_mem _ hw2))
            (by
              rw [hn, e2]
              intro l hl
              rcases List.mem_append.mp hl with hl | hl
              · exact ht l hl
              · simp only [List.mem_singleton] at hl
                subst hl
                exact hv w (by simp))
          rw [hn] at this
          exact this
      · exact ih h (fun w2 hw2 => hv w2 (List.mem_cons_of_mem _ hw2)) ht

end Glucose


namespace Glucose

/-! ## The visit of a long watcher keeps the invariant -/

/-- What the visit of a long watcher leaves alone, and what it may add to the trail and
to the watch lists. -/
theorem LongSpec.fields {p : Lit} {w : Watcher} {s : Solver} {out : WatchOutcome}
    (h : LongSpec p w s out) :
    out.state.nVars = s.nVars ∧ out.state.opts = s.opts ∧ out.state.clauses = s.clauses ∧
    out.state.learnts = s.learnts ∧ out.state.caSize = s.caSize ∧
    out.state.watchesBin = s.watchesBin ∧
    (∀ l ∈ out.state.trail, l ∈ s.trail ∨ l ∈ (s.ca w.cref).lits) ∧
    (∀ q w2, w2 ∈ out.state.watches.occs q → w2 ∈ s.watches.occs q ∨
      (w2.cref = w.cref ∧ s.value q ≠ lbool.l_True)) ∧
    (∀ q w2, w2 ∈ s.watches.occs q → w2 ∈ out.state.watches.occs q) := by
  cases h with
  | skip _ =>
    exact ⟨rfl, rfl, rfl, rfl, rfl, rfl, fun l hl => Or.inl hl, fun q w2 hw => Or.inl hw,
      fun q w2 hw => hw⟩
  | sat c0 c1 rest first hv _ _ =>
    exact ⟨rfl, rfl, rfl, rfl, rfl, rfl, fun l hl => Or.inl hl, fun q w2 hw => Or.inl hw,
      fun q w2 hw => hw⟩
  | conflict c0 c1 rest first hv _ _ =>
    exact ⟨rfl, rfl, rfl, rfl, rfl, rfl, fun l hl => Or.inl hl, fun q w2 hw => Or.inl hw,
      fun q w2 hw => hw⟩
  | unit c0 c1 rest first s2 hv _ _ he =>
    obtain ⟨_, e2⟩ := uncheckedEnqueue_eq he
    subst e2
    refine ⟨rfl, rfl, rfl, rfl, rfl, rfl, ?_, fun q w2 hw => Or.inl hw, fun q w2 hw => hw⟩
    intro l hl
    simp only [WatchOutcome.state, Solver.setLits, List.mem_append, List.mem_singleton] at hl
    rcases hl with hl | rfl
    · exact Or.inl hl
    · right
      obtain ⟨_, _, hl, hc⟩ := hv
      rw [hl]
      rcases hc with ⟨_, rfl⟩ | ⟨_, _, rfl⟩ <;> simp
  | moved c0 c1 rest first k x hv hnt hx hxv hxp =>
    refine ⟨rfl, rfl, rfl, rfl, rfl, rfl, fun l hl => Or.inl hl, ?_, ?_⟩
    · intro q w2 hw
      simp only [WatchOutcome.state, Solver.pushWatch, Solver.setLits] at hw
      rcases OccLists.mem_push.mp hw with hw | ⟨rfl, rfl⟩
      · exact Or.inl hw
      · right
        refine ⟨rfl, ?_⟩
        intro e
        exact hxv (value_neg_true.mp e)
    · intro q w2 hw
      simp only [WatchOutcome.state, Solver.pushWatch, Solver.setLits]
      exact OccLists.mem_push.mpr (Or.inl hw)

/-- The queue head after the visit. -/
theorem LongSpec.qhead_le {p : Lit} {w : Watcher} {s : Solver} {out : WatchOutcome}
    (h : LongSpec p w s out) {n : Nat} (h1 : n ≤ s.qhead) (h2 : n ≤ s.trail.length) :
    n ≤ out.state.qhead := by
  cases h with
  | skip _ => exact h1
  | sat c0 c1 rest first hv _ _ => exact h1
  | conflict c0 c1 rest first hv _ _ => exact h2
  | unit c0 c1 rest first s2 hv _ _ he =>
    obtain ⟨_, e2⟩ := uncheckedEnqueue_eq he
    subst e2
    exact h1
  | moved c0 c1 rest first k x hv hnt hx hxv hxp => exact h1

/-- A watcher that the visit keeps in the list has a true blocker, at a level not
above the level of `p`. -/
theorem LongSpec.keep_good {p : Lit} {w w1 : Watcher} {s s1 : Solver}
    (h : LongSpec p w s (WatchOutcome.keep w1 s1)) (hp : s.value p = lbool.l_True)
    (hlp : s.level p.var = s.decisionLevel) (hL : LevelsOK s) : GoodWatcher s1 p w1 := by
  have hext : Ext s s1 := h.toExt
  have hpa : s.assigns p.var ≠ lbool.l_Undef := assigned_of_value (by rw [hp]; simp)
  have hlp1 : s1.level p.var = s1.decisionLevel := by
    rw [hext.level_of_assigned hpa, hext.decisionLevel, hlp]
  have hL1 : LevelsOK s1 := hext.levelsOK hL
  have key : s1.value w1.blocker = lbool.l_True → GoodWatcher s1 p w1 := by
    intro ht
    refine ⟨ht, ?_⟩
    rw [hlp1]
    exact hL1 _ (assigned_of_value (by rw [ht]; simp))
  apply key
  cases h with
  | skip hb => exact hb
  | sat c0 c1 rest first hv _ ht =>
    show (s.setLits w.cref (first :: p.neg :: rest)).value first = lbool.l_True
    rw [value_setLits]
    exact ht
  | unit c0 c1 rest first hv _ _ _ he => exact uncheckedEnqueue_value_self he

/-- The visit of a long watcher keeps the list-independent part of the invariant. -/
theorem LongSpec.propCore {p : Lit} {w : Watcher} {s : Solver} {out : WatchOutcome}
    (h : LongSpec p w s out) {n0 q : Nat} (hI : PropCore n0 q p s)
    (hv : ∀ l ∈ (s.ca w.cref).lits, l.var < s.nVars) : PropCore n0 q p out.state := by
  have hext : Ext s out.state := h.toExt
  obtain ⟨f1, f2, f3, f4, f5, f6, f7, f8, f9⟩ := h.fields
  have hq : q < s.trail.length := by
    have := hI.atq
    rw [List.get?_eq_getElem?] at this
    exact (List.getElem?_eq_some_iff.mp this).1
  have hrefs : out.state.attachedRefs = s.attachedRefs := by
    simp [Solver.attachedRefs, f3, f4]
  have hpv : s.value p = lbool.l_True := hI.trail.allTrue p (mem_of_get? hI.atq)
  have hmem : ∀ p2 ∈ s.trail, ∀ w2 ∈ out.state.watches.occs p2, w2 ∈ s.watches.occs p2 := by
    intro p2 hp2 w2 hw2
    rcases f8 p2 w2 hw2 with hw | ⟨_, hnt⟩
    · exact hw
    · exact absurd (hI.trail.allTrue p2 hp2) hnt
  have hatq : out.state.trail.get? q = some p := by
    obtain ⟨added, ht, _⟩ := hext.trail
    rw [ht, List.get?_eq_getElem?, List.getElem?_append_left hq, ← List.get?_eq_getElem?]
    exact hI.atq
  refine ⟨hext.trailOK hI.trail, hext.queueFrom hI.trail hI.queue, hatq, hI.n0le,
    h.qhead_le hI.qhead (by omega), ?_, ?_, by rw [f2]; exact hI.noUnary, ?_, ?_, ?_, ?_⟩
  · intro i p2 hi hget
    have hget2 := get?_of_ext_lt hext (by omega) hget
    exact WatchesDone.done_ext hI.done hext hI.trail hmem (by rw [f6]; exact fun _ _ _ hw => hw)
      i p2 hi hget2
  · intro w2 hw2
    rw [f6] at hw2
    exact (hI.binGood w2 hw2).good_ext hext hpv
  · rw [hrefs, f5]; exact hI.caBound
  · intro l hl
    rw [f1]
    rcases f7 l hl with hl | hl
    · exact hI.trailVars l hl
    · exact hv l hl
  · intro cr hcr l hl
    rw [hrefs] at hcr
    rw [f1]
    exact hI.clauseVars cr hcr l ((hext.lits cr).subset hl)
  · intro q2 w2 hw2
    rw [f6] at hw2
    rw [f1]
    exact hI.binVars q2 w2 hw2

theorem mem_virtual_keep {occs occs1 : Lit → List Watcher} {p q : Lit}
    {pre post : List Watcher} {w w1 w2 : Watcher}
    (f8 : ∀ q w2, w2 ∈ occs1 q → w2 ∈ occs q ∨ w2.cref = w.cref)
    (h : w2 ∈ Function.update occs1 p (pre ++ w1 :: post) q) (hw1 : w1.cref = w.cref) :
    w2 ∈ Function.update occs p (pre ++ w :: post) q ∨ w2.cref = w.cref := by
  by_cases e : q = p
  · subst e
    simp only [Function.update_same, List.mem_append, List.mem_cons] at h ⊢
    rcases h with h | rfl | h
    · exact Or.inl (Or.inl h)
    · exact Or.inr hw1
    · exact Or.inl (Or.inr (Or.inr h))
  · rw [Function.update_noteq e] at h ⊢
    exact f8 q w2 h

theorem mem_virtual_moved {occs occs1 : Lit → List Watcher} {p q : Lit}
    {pre post : List Watcher} {w w2 : Watcher}
    (f8 : ∀ q w2, w2 ∈ occs1 q → w2 ∈ occs q ∨ w2.cref = w.cref)
    (h : w2 ∈ Function.update occs1 p (pre ++ post) q) :
    w2 ∈ Function.update occs p (pre ++ w :: post) q ∨ w2.cref = w.cref := by
  by_cases e : q = p
  · subst e
    simp only [Function.update_same, List.mem_append, List.mem_cons] at h ⊢
    rcases h with h | h
    · exact Or.inl (Or.inl h)
    · exact Or.inl (Or.inr (Or.inr h))
  · rw [Function.update_noteq e] at h ⊢
    exact f8 q w2 h

/-- The visit of a long watcher keeps the list-dependent part of the invariant, for
the list that the loop is writing. -/
theorem LongSpec.listCore {p : Lit} {w : Watcher} {s : Solver} {out : WatchOutcome}
    (h : LongSpec p w s out) {pre post : List Watcher}
    (hI : ListCore (Function.update s.watches.occs p (pre ++ w :: post)) s) :
    match out with
    | WatchOutcome.keep w1 s1 =>
        ListCore (Function.update s1.watches.occs p (pre ++ w1 :: post)) s1
    | WatchOutcome.moved s1 =>
        ListCore (Function.update s1.watches.occs p (pre ++ post)) s1
    | WatchOutcome.conflict _ w1 s1 =>
        ListCore (Function.update s1.watches.occs p (pre ++ w1 :: post)) s1 := by
  have hext : Ext s out.state := h.toExt
  obtain ⟨f1, f2, f3, f4, f5, f6, f7, f8, f9⟩ := h.fields
  have hrefs : out.state.attachedRefs = s.attachedRefs := by
    simp [Solver.attachedRefs, f3, f4]
  have f8b : ∀ q w2, w2 ∈ out.state.watches.occs q → w2 ∈ s.watches.occs q ∨
      w2.cref = w.cref := by
    intro q w2 hw2
    rcases f8 q w2 hw2 with hw | ⟨hw, _⟩
    · exact Or.inl hw
    · exact Or.inr hw
  have hwv : ∀ l ∈ (s.ca w.cref).lits, l.var < s.nVars :=
    hI.watcherVars p w (by simp)
  have hvars : ∀ w2 : Watcher,
      (w2 ∈ Function.update s.watches.occs p (pre ++ w :: post) p ∨ w2.cref = w.cref ∨
        ∃ q, w2 ∈ Function.update s.watches.occs p (pre ++ w :: post) q) →
      ∀ l ∈ (out.state.ca w2.cref).lits, l.var < out.state.nVars := by
    intro w2 hw2 l hl
    rw [f1]
    have hl2 := (hext.lits w2.cref).subset hl
    rcases hw2 with hw2 | hw2 | ⟨q, hw2⟩
    · exact hI.watcherVars p w2 hw2 l hl2
    · rw [hw2] at hl2
      exact hwv l hl2
    · exact hI.watcherVars q w2 hw2 l hl2
  have hrefb : ∀ w2 : Watcher,
      (w2.cref = w.cref ∨
        ∃ q, w2 ∈ Function.update s.watches.occs p (pre ++ w :: post) q) →
      w2.cref < out.state.caSize := by
    intro w2 hw2
    rw [f5]
    rcases hw2 with hw2 | ⟨q, hw2⟩
    · rw [hw2]
      exact hI.watcherRefs p w (by simp)
    · exact hI.watcherRefs q w2 hw2
  have A := fun cr (hcr : cr ∈ s.attachedRefs) =>
    @LongSpec.attached_keep p w s out h cr pre post (hI.attached cr hcr)
  cases h with
  | skip _ => exact hI
  | sat c0 c1 rest first hv _ _ =>
    refine ⟨fun cr hcr => A cr hcr, ?_, ?_⟩
    · intro q w2 hw2
      rcases mem_virtual_keep f8b hw2 rfl with hw | hw
      · exact hvars w2 (Or.inr (Or.inr ⟨q, hw⟩))
      · exact hvars w2 (Or.inr (Or.inl hw))
    · intro q w2 hw2
      rcases mem_virtual_keep f8b hw2 rfl with hw | hw
      · exact hrefb w2 (Or.inr ⟨q, hw⟩)
      · exact hrefb w2 (Or.inl hw)
  | conflict c0 c1 rest first hv _ _ =>
    refine ⟨fun cr hcr => A cr hcr, ?_, ?_⟩
    · intro q w2 hw2
      rcases mem_virtual_keep f8b hw2 rfl with hw | hw
      · exact hvars w2 (Or.inr (Or.inr ⟨q, hw⟩))
      · exact hvars w2 (Or.inr (Or.inl hw))
    · intro q w2 hw2
      rcases mem_virtual_keep f8b hw2 rfl with hw | hw
      · exact hrefb w2 (Or.inr ⟨q, hw⟩)
      · exact hrefb w2 (Or.inl hw)
  | unit c0 c1 rest first s2 hv _ _ he =>
    refine ⟨fun cr hcr => A cr (by rw [← hrefs]; exact hcr), ?_, ?_⟩
    · intro q w2 hw2
      rcases mem_virtual_keep f8b hw2 rfl with hw | hw
      · exact hvars w2 (Or.inr (Or.inr ⟨q, hw⟩))
      · exact hvars w2 (Or.inr (Or.inl hw))
    · intro q w2 hw2
      rcases mem_virtual_keep f8b hw2 rfl with hw | hw
      · exact hrefb w2 (Or.inr ⟨q, hw⟩)
      · exact hrefb w2 (Or.inl hw)
  | moved c0 c1 rest first k x hv hnt hx hxv hxp =>
    refine ⟨fun cr hcr => A cr hcr, ?_, ?_⟩
    · intro q w2 hw2
      rcases mem_virtual_moved f8b hw2 with hw | hw
      · exact hvars w2 (Or.inr (Or.inr ⟨q, hw⟩))
      · exact hvars w2 (Or.inr (Or.inl hw))
    · intro q w2 hw2
      rcases mem_virtual_moved f8b hw2 with hw | hw
      · exact hrefb w2 (Or.inr ⟨q, hw⟩)
      · exact hrefb w2 (Or.inl hw)

/-- The loop over the long watchers of the trail literal `p` keeps the invariant; when
it ends without conflict every watcher left in the list needs no further visit. -/
theorem propagateLong_inv {p : Lit} {n0 q : Nat} {ws kept : List Watcher}
    {confl : Option Nat} {s : Solver} {r : Option Nat × List Watcher × Solver}
    (h : propagateLong p ws kept confl s = some r) (hP : PropCore n0 q p s)
    (hL : ListCore (Function.update s.watches.occs p (kept ++ ws)) s)
    (hG : ∀ w ∈ kept, GoodWatcher s p w) :
    PropCore n0 q p r.2.2 ∧ ListCore (Function.update r.2.2.watches.occs p r.2.1) r.2.2 ∧
    (r.1 = none → ∀ w ∈ r.2.1, GoodWatcher r.2.2 p w) := by
  refine propagateLong_induct2
    (fun _ pre rem t => PropCore n0 q p t ∧
      ListCore (Function.update t.watches.occs p (pre ++ rem)) t ∧
      ∀ w ∈ pre, GoodWatcher t p w)
    (fun confl kept t => PropCore n0 q p t ∧
      ListCore (Function.update t.watches.occs p kept) t ∧
      (confl = none → ∀ w ∈ kept, GoodWatcher t p w))
    ?_ ?_ ?_ ?_ ws kept confl s r ⟨hP, hL, hG⟩ h
  · intro confl pre w post t w1 t1 ⟨hP, hL, hG⟩ hs
    have hsp := longStep_spec hs
    have hpv : t.value p = lbool.l_True := hP.trail.allTrue p (mem_of_get? hP.atq)
    have hlp : t.level p.var = t.decisionLevel := hP.queue q p hP.n0le hP.atq
    have hP1 : PropCore n0 q p t1 := hsp.propCore hP (hL.watcherVars p w (by simp))
    have hL1 := hsp.listCore hL
    have hext : Ext t t1 := hsp.toExt
    refine ⟨hP1, ?_, ?_⟩
    · rw [List.append_assoc, List.singleton_append]
      exact hL1
    · intro w2 hw2
      rcases List.mem_append.mp hw2 with hw2 | hw2
      · exact (hG w2 hw2).good_ext hext hpv
      · simp only [List.mem_singleton] at hw2
        subst hw2
        exact hsp.keep_good hpv hlp hP.trail.toLevelsOK
  · intro confl pre w post t t1 ⟨hP, hL, hG⟩ hs
    have hsp := longStep_spec hs
    have hpv : t.value p = lbool.l_True := hP.trail.allTrue p (mem_of_get? hP.atq)
    have hP1 : PropCore n0 q p t1 := hsp.propCore hP (hL.watcherVars p w (by simp))
    have hL1 := hsp.listCore hL
    have hext : Ext t t1 := hsp.toExt
    exact ⟨hP1, hL1, fun w2 hw2 => (hG w2 hw2).good_ext hext hpv⟩
  · intro confl pre w post t cr w1 t1 ⟨hP, hL, hG⟩ hs
    have hsp := longStep_spec hs
    have hP1 : PropCore n0 q p t1 := hsp.propCore hP (hL.watcherVars p w (by simp))
    have hL1 := hsp.listCore hL
    refine ⟨hP1, ?_, by simp⟩
    rw [List.append_assoc, List.singleton_append]
    exact hL1
  · intro confl kept t ⟨hP, hL, hG⟩
    refine ⟨hP, ?_, fun _ => hG⟩
    rw [List.append_nil] at hL
    exact hL

end Glucose


namespace Glucose

/-! ## `propagate` keeps the invariant: the main loop -/

theorem propagateBin_refs {ws : List Watcher} {s : Solver} {r : Option Nat × Solver}
    (h : propagateBin ws s = some r) :
    r.2.clauses = s.clauses ∧ r.2.learnts = s.learnts ∧ r.2.caSize = s.caSize := by
  induction ws generalizing s with
  | nil =>
    simp only [propagateBin, Option.some.injEq] at h
    subst h
    exact ⟨rfl, rfl, rfl⟩
  | cons w ws ih =>
    unfold propagateBin at h
    split at h
    · simp only [Option.some.injEq] at h
      subst h
      exact ⟨rfl, rfl, rfl⟩
    · split at h
      · split at h
        · simp at h
        · next s2 he =>
          obtain ⟨_, e2⟩ := uncheckedEnqueue_eq he
          have := ih h
          rw [e2] at this
          exact this
      · exact ih h

/-- The queue head along the loop over the long watchers: unchanged without conflict,
at the end of the trail after a conflict. -/
theorem propagateLong_qhead {p : Lit} {ws kept : List Watcher} {confl : Option Nat}
    {s : Solver} {r : Option Nat × List Watcher × Solver}
    (h : propagateLong p ws kept confl s = some r) :
    (r.1 = confl ∧ r.2.2.qhead = s.qhead) ∨
    (r.1 ≠ none ∧ r.2.2.qhead = r.2.2.trail.length) := by
  refine propagateLong_induct2
    (fun c _ _ t => c = confl ∧ t.qhead = s.qhead)
    (fun c _ t => (c = confl ∧ t.qhead = s.qhead) ∨ (c ≠ none ∧ t.qhead = t.trail.length))
    ?_ ?_ ?_ ?_ ws kept confl s r ⟨rfl, rfl⟩ h
  · intro c pre w post t w1 t1 ⟨hc, hq⟩ hs
    refine ⟨hc, ?_⟩
    rw [← hq]
    have hsp := longStep_spec hs
    cases hsp with
    | skip _ => rfl
    | sat c0 c1 rest first hv _ _ => rfl
    | unit c0 c1 rest first hv _ _ _ he =>
      obtain ⟨_, e2⟩ := uncheckedEnqueue_eq he
      subst e2
      rfl
  · intro c pre w post t t1 ⟨hc, hq⟩ hs
    refine ⟨hc, ?_⟩
    rw [← hq]
    have hsp := longStep_spec hs
    cases hsp with
    | moved c0 c1 rest first k x hv hnt hx hxv hxp => rfl
  · intro c pre w post t cr w1 t1 ⟨hc, hq⟩ hs
    right
    refine ⟨by simp, ?_⟩
    have hsp := longStep_spec hs
    cases hsp with
    | conflict c0 c1 rest first hv _ _ => rfl
  · intro c kept t hI
    exact Or.inl hI

theorem TrailOK.trail_of_fields {s t : Solver} (h : TrailOK s) (h1 : t.assigns = s.assigns)
    (h2 : t.vardata = s.vardata) (h3 : t.trail = s.trail) (h4 : t.trail_lim = s.trail_lim) :
    TrailOK t := by
  obtain ⟨a, b, c, d, e, f⟩ := h
  refine ⟨?_, ?_, ?_, ?_, ?_, ?_⟩
  · intro l hl
    rw [h3] at hl
    have := a l hl
    unfold Solver.value at this ⊢
    rw [h1]
    exact this
  · rw [h1, h3]; exact b
  · rw [h3]; exact c
  · rw [h4]; exact d
  · rw [h3, h4]; exact e
  · intro i l hg
    rw [h3] at hg
    have := f i l hg
    unfold Solver.level at this ⊢
    rw [h2, h4]
    exact this

theorem trail_index_unique {s : Solver} (h : TrailOK s) {i j : Nat} {p : Lit}
    (hi : s.trail.get? i = some p) (hj : s.trail.get? j = some p) : i = j := by
  rw [List.get?_eq_getElem?] at hi hj
  obtain ⟨hi1, hi2⟩ := List.getElem?_eq_some_iff.mp hi
  obtain ⟨hj1, hj2⟩ := List.getElem?_eq_some_iff.mp hj
  have hnd : s.trail.Nodup := List.Nodup.of_map _ h.nodup
  exact (List.Nodup.getElem_inj_iff hnd).mp (hi2.trans hj2.symm)

/-- Taking the next literal off the queue and visiting its binary watchers without
conflict establishes the invariant of the loop over its long watchers. -/
theorem propagateBin_core {n0 : Nat} {s s1 : Solver} {p : Lit}
    (hI : Inv s n0) (hQ : QueueFrom s n0) (hn : n0 ≤ s.qhead) (hD : WatchesDone s s.qhead)
    (hget : s.trail.get? s.qhead = some p)
    (h : propagateBin (s.watchesBin.occs p) (s.setQhead (s.qhead + 1)) = some (none, s1)) :
    PropCore n0 s.qhead p s1 ∧ ListCore s1.watches.occs s1 := by
  have hext : Ext (s.setQhead (s.qhead + 1)) s1 := propagateBin_ext h
  obtain ⟨c1, c2, c3, c4, c5, c6⟩ := propagateBin_ca h
  obtain ⟨r1, r2, r3⟩ := propagateBin_refs h
  have hT0 : TrailOK (s.setQhead (s.qhead + 1)) := hI.trail.trail_of_fields rfl rfl rfl rfl
  have hQ0 : QueueFrom (s.setQhead (s.qhead + 1)) n0 := hQ
  have hpv : (s.setQhead (s.qhead + 1)).value p = lbool.l_True :=
    hI.trail.allTrue p (mem_of_get? hget)
  have hlp : (s.setQhead (s.qhead + 1)).level p.var
      = (s.setQhead (s.qhead + 1)).decisionLevel := hQ s.qhead p hn hget
  have hq : s.qhead < s.trail.length := by
    have := hget
    rw [List.get?_eq_getElem?] at this
    exact (List.getElem?_eq_some_iff.mp this).1
  obtain ⟨v1, v2⟩ := propagateBin_trailVars h
    (fun w hw => hI.binVars p w hw) hI.trailVars
  dsimp only [Solver.setQhead] at c1 c2 c3 c4 c5 c6 r1 r2 r3 v1 v2
  have hrefs : s1.attachedRefs = s.attachedRefs := by
    simp [Solver.attachedRefs, r1, r2]
  have hatq : s1.trail.get? s.qhead = some p := by
    obtain ⟨added, ht, _⟩ := hext.trail
    rw [ht, List.get?_eq_getElem?]
    show (s.trail ++ added)[s.qhead]? = some p
    rw [List.getElem?_append_left hq, ← List.get?_eq_getElem?]
    exact hget
  constructor
  · refine ⟨hext.trailOK hT0, hext.queueFrom hT0 hQ0, hatq, hn, ?_, ?_, ?_, ?_, ?_, ?_, ?_, ?_⟩
    · rw [c5]
    · intro i p2 hi hg
      have hg2 := get?_of_ext_lt hext (show i < s.trail.length by omega) hg
      have hD0 : WatchesDone (s.setQhead (s.qhead + 1)) s.qhead := hD
      exact WatchesDone.done_ext hD0 hext hT0 (by rw [c2]; exact fun _ _ _ hw => hw)
        (by rw [c3]; exact fun _ _ _ hw => hw) i p2 hi hg2
    · rw [c3]
      exact propagateBin_good h hpv hlp hT0.toLevelsOK
    · rw [c6]; exact hI.noUnary
    · rw [hrefs, r3]; exact hI.caBound
    · rw [v1]; exact v2
    · rw [hrefs, v1, c1]; exact hI.clauseVars
    · rw [c3, v1]; exact hI.binVars
  · refine ⟨?_, ?_, ?_⟩
    · rw [hrefs, c1, c2, c3]; exact hI.attached
    · rw [c1, c2, v1]; exact hI.watcherVars
    · rw [c2, r3]; exact hI.watcherRefs

/-- The invariant only reads the assignment, the trail, the watch lists, the clauses
and the option `useUnaryWatched`. -/
theorem Inv.inv_of_fields {s t : Solver} {n : Nat} (h : Inv s n)
    (e1 : t.assigns = s.assigns) (e2 : t.vardata = s.vardata) (e3 : t.trail = s.trail)
    (e4 : t.trail_lim = s.trail_lim) (e5 : t.watches.occs = s.watches.occs)
    (e6 : t.watchesBin.occs = s.watchesBin.occs) (e7 : t.ca = s.ca)
    (e8 : t.clauses = s.clauses) (e9 : t.learnts = s.learnts) (e10 : t.opts = s.opts)
    (e11 : t.caSize = s.caSize) (e12 : t.nVars = s.nVars) : Inv t n := by
  obtain ⟨a, b, c, d, e, f, g, h1, h2, h3⟩ := h
  refine ⟨a.trail_of_fields e1 e2 e3 e4, ?_, ?_, ?_, ?_, ?_, ?_, ?_, ?_, ?_⟩
  · unfold WatchesDone GoodWatcher Solver.value Solver.level at *
    rw [e1, e2, e3, e5, e6]
    exact b
  · unfold Attached Solver.attachedRefs at *
    rw [e5, e6, e7, e8, e9]
    exact c
  · rw [e10]; exact d
  · unfold Solver.attachedRefs at *
    rw [e8, e9, e11]
    exact e
  · rw [e3, e12]; exact f
  · unfold Solver.attachedRefs at *
    rw [e7, e8, e9, e12]
    exact g
  · rw [e5, e7, e12]; exact h1
  · rw [e6, e12]; exact h2
  · rw [e5, e11]; exact h3

/-- The loop over the binary watchers keeps the invariant, whatever it returns. -/
theorem propagateBin_inv {n0 : Nat} {ws : List Watcher} {s : Solver}
    {r : Option Nat × Solver} (h : propagateBin ws s = some r) (hI : Inv s n0)
    (hQ : QueueFrom s n0) (hws : ∀ w ∈ ws, w.blocker.var < s.nVars)
    (hn : n0 ≤ s.trail.length) :
    Inv r.2 n0 ∧ QueueFrom r.2 n0 ∧ r.2.qhead = s.qhead := by
  have hext : Ext s r.2 := propagateBin_ext h
  obtain ⟨c1, c2, c3, c4, c5, c6⟩ := propagateBin_ca h
  obtain ⟨r1, r2, r3⟩ := propagateBin_refs h
  obtain ⟨v1, v2⟩ := propagateBin_trailVars h hws hI.trailVars
  have hrefs : r.2.attachedRefs = s.attachedRefs := by
    simp [Solver.attachedRefs, r1, r2]
  refine ⟨⟨hext.trailOK hI.trail, ?_, ?_, ?_, ?_, ?_, ?_, ?_, ?_, ?_⟩,
    hext.queueFrom hI.trail hQ, c5⟩
  · intro i p2 hi hg
    have hg2 := get?_of_ext_lt hext (show i < s.trail.length by omega) hg
    exact WatchesDone.done_ext hI.done hext hI.trail (by rw [c2]; exact fun _ _ _ hw => hw)
      (by rw [c3]; exact fun _ _ _ hw => hw) i p2 hi hg2
  · unfold Attached
    rw [hrefs, c1, c2, c3]; exact hI.attached
  · rw [c6]; exact hI.noUnary
  · rw [hrefs, r3]; exact hI.caBound
  · rw [v1]; exact v2
  · rw [hrefs, v1, c1]; exact hI.clauseVars
  · rw [c1, c2, v1]; exact hI.watcherVars
  · rw [c3, v1]; exact hI.binVars
  · rw [c2, r3]; exact hI.watcherRefs

/-- Storing the list written by the loop over the long watchers of `p` gives back the
invariant; the watchers of `p` need no visit when all the kept watchers are good. -/
theorem inv_of_cores {n0 q : Nat} {p : Lit} {s2 : Solver} {kept : List Watcher}
    (hP : PropCore n0 q p s2)
    (hL : ListCore (Function.update s2.watches.occs p kept) s2) :
    Inv { s2 with watches := s2.watches.set p kept } n0 ∧
    QueueFrom { s2 with watches := s2.watches.set p kept } n0 ∧
    ((∀ w ∈ kept, GoodWatcher s2 p w) →
      WatchesDone { s2 with watches := s2.watches.set p kept } (q + 1)) := by
  have hA : ∀ i p2, i < q → s2.trail.get? i = some p2 →
      (∀ w ∈ Function.update s2.watches.occs p kept p2, GoodWatcher s2 p2 w) ∧
      (∀ w ∈ s2.watchesBin.occs p2, GoodWatcher s2 p2 w) := by
    intro i p2 hi hg
    have hne : p2 ≠ p := by
      intro e
      subst e
      have := trail_index_unique hP.trail hg hP.atq
      omega
    rw [Function.update_noteq hne]
    exact hP.done i p2 hi hg
  refine ⟨⟨hP.trail.trail_of_fields rfl rfl rfl rfl, ?_, hL.attached, hP.noUnary, hP.caBound,
    hP.trailVars, hP.clauseVars, hL.watcherVars, hP.binVars, hL.watcherRefs⟩, hP.queue, ?_⟩
  · intro i p2 hi hg
    exact hA i p2 (by have := hP.n0le; omega) hg
  · intro hG i p2 hi hg
    by_cases hlt : i < q
    · exact hA i p2 hlt hg
    · have hiq : i = q := by omega
      subst hiq
      have hg2 : s2.trail.get? i = some p2 := hg
      rw [hP.atq] at hg2
      simp only [Option.some.injEq] at hg2
      subst hg2
      refine ⟨?_, hP.binGood⟩
      intro w hw
      have hw2 : w ∈ Function.update s2.watches.occs p kept p := hw
      rw [Function.update_same] at hw2
      exact hG w hw2

/-- The loop of `propagate` keeps the invariant of the trail positions below `n0`; when
it ends without conflict the queue is empty and every trail literal is propagated. -/
theorem propagateLoop_inv (n0 fuel : Nat) (confl : Option Nat) (n : Nat) (s : Solver)
    (r : Option Nat × Solver) (hI : Inv s n0) (hQ : QueueFrom s n0) (hn : n0 ≤ s.qhead)
    (hD : confl = none → WatchesDone s s.qhead)
    (hC : confl ≠ none → s.trail.length ≤ s.qhead) (hle : s.qhead ≤ s.trail.length)
    (h : propagateLoop fuel confl n s = some r) :
    Inv r.2 n0 ∧ QueueFrom r.2 n0 ∧ n0 ≤ r.2.qhead ∧
    (r.1 = none → WatchesDone r.2 r.2.qhead ∧ r.2.trail.length ≤ r.2.qhead) ∧
    r.2.qhead ≤ r.2.trail.length := by
  refine propagateLoop_induct
    (fun confl t => Inv t n0 ∧ QueueFrom t n0 ∧ n0 ≤ t.qhead ∧
      (confl = none → WatchesDone t t.qhead) ∧ (confl ≠ none → t.trail.length ≤ t.qhead) ∧
      t.qhead ≤ t.trail.length)
    (fun confl t => Inv t n0 ∧ QueueFrom t n0 ∧ n0 ≤ t.qhead ∧
      (confl = none → WatchesDone t t.qhead ∧ t.trail.length ≤ t.qhead) ∧
      t.qhead ≤ t.trail.length)
    ?_ ?_ ?_ fuel confl n s r ⟨hI, hQ, hn, hD, hC, hle⟩ h
  · intro confl t p t1 confl1 kept t2 ⟨hI, hQ, hn, hD, hC, hle⟩ hlt hget hb hl
    have hlen1 : t.trail.length ≤ t1.trail.length := by
      obtain ⟨added, ht, _⟩ := (propagateBin_ext hb).trail
      rw [show t1.trail = (t.setQhead (t.qhead + 1)).trail ++ added from ht]
      simp [Solver.setQhead]
    have hlen2 : t1.trail.length ≤ t2.trail.length := by
      obtain ⟨added, ht, _⟩ := (propagateLong_ext hl).trail
      rw [show t2.trail = t1.trail ++ added from ht]
      simp
    have hcn : confl = none := by
      by_contra hne
      have := hC hne
      omega
    obtain ⟨hP, hL⟩ := propagateBin_core hI hQ hn (hD hcn) hget hb
    have hL0 : ListCore (Function.update t1.watches.occs p ([] ++ t1.watches.occs p)) t1 := by
      rw [List.nil_append, Function.update_eq_self]
      exact hL
    obtain ⟨hP2, hL2, hG2⟩ := propagateLong_inv hl hP hL0 (by simp)
    obtain ⟨k1, k2, k3⟩ := inv_of_cores hP2 hL2
    have hqh := propagateLong_qhead hl
    have hbq : t1.qhead = t.qhead + 1 := (propagateBin_ca hb).2.2.2.2.1
    constructor
    · refine ⟨k1, k2, ?_, ?_, ?_, ?_⟩
      · have h1 : t.qhead + 1 ≤ t2.qhead := hP2.qhead
        show n0 ≤ t2.qhead
        omega
      · intro hc1
        rcases hqh with ⟨_, hq⟩ | ⟨hne, _⟩
        · have hq2 : t2.qhead = t.qhead + 1 := by rw [← hbq]; exact hq
          show WatchesDone _ t2.qhead
          rw [hq2]
          exact k3 (hG2 hc1)
        · exact absurd hc1 hne
      · intro hc1
        rcases hqh with ⟨hc, _⟩ | ⟨_, hle⟩
        · exact absurd (hc.trans hcn) hc1
        · exact le_of_eq hle.symm
      · rcases hqh with ⟨_, hq⟩ | ⟨_, hle⟩
        · have hq2 : t2.qhead = t.qhead + 1 := by rw [← hbq]; exact hq
          show t2.qhead ≤ t2.trail.length
          omega
        · exact le_of_eq hle
    · intro confl2 t4 hu _ _
      rw [hP2.noUnary] at hu
      simp at hu
  · intro confl t p t1 cr ⟨hI, hQ, hn, hD, hC, hle⟩ hlt hget hb
    have hI0 : Inv (t.setQhead (t.qhead + 1)) n0 :=
      hI.inv_of_fields rfl rfl rfl rfl rfl rfl rfl rfl rfl rfl rfl rfl
    obtain ⟨k1, k2, k3⟩ := propagateBin_inv hb hI0 hQ (fun w hw => hI.binVars p w hw)
      (show n0 ≤ t.trail.length by omega)
    have hlen1 : t.trail.length ≤ t1.trail.length := by
      obtain ⟨added, ht, _⟩ := (propagateBin_ext hb).trail
      rw [show t1.trail = (t.setQhead (t.qhead + 1)).trail ++ added from ht]
      simp [Solver.setQhead]
    have k3b : t1.qhead = t.qhead + 1 := k3
    refine ⟨k1, k2, ?_, by simp, ?_⟩
    · show n0 ≤ t1.qhead
      omega
    · show t1.qhead ≤ t1.trail.length
      omega
  · intro confl t n ⟨hI, hQ, hn, hD, hC, hle⟩ hlt
    refine ⟨hI.inv_of_fields rfl rfl rfl rfl rfl rfl rfl rfl rfl rfl rfl rfl, hQ, hn, ?_, hle⟩
    intro hc
    exact ⟨hD hc, by show t.trail.length ≤ t.qhead; omega⟩

end Glucose


namespace Glucose

/-! ## `propagate` keeps the invariant: the whole call -/

theorem OccLists.mem_cleanAll_of {o : OccLists} {d : Watcher → Bool} {p : Lit} {w : Watcher}
    (h : w ∈ o.occs p) (hd : d w = false) : w ∈ (o.cleanAll d).occs p := by
  simp only [OccLists.cleanAll]
  split
  · simp [List.mem_filter, h, hd]
  · exact h

theorem crefCount_cleanAll (o : OccLists) (d : Watcher → Bool) (cr : Nat)
    (h : ∀ w, w.cref = cr → d w = false) (p : Lit) :
    crefCount ((o.cleanAll d).occs p) cr = crefCount (o.occs p) cr := by
  simp only [OccLists.cleanAll]
  split
  · exact crefCount_filter _ _ _ h
  · rfl

/-- The state `propagate` returns extends the state it was called in. -/
theorem propagateLoop_ext (fuel : Nat) (confl : Option Nat) (n : Nat) (s : Solver)
    (r : Option Nat × Solver) (h : propagateLoop fuel confl n s = some r) : Ext s r.2 := by
  refine propagateLoop_induct (fun _ t => Ext s t) (fun _ t => Ext s t)
    ?_ ?_ ?_ fuel confl n s r (Ext.refl s) h
  · intro confl t p t1 confl1 kept t2 hI hlt hget hb hl
    have e1 : Ext t (t.setQhead (t.qhead + 1)) := Ext.of_fields rfl rfl (fun _ => rfl) rfl rfl rfl
    have e2 : Ext (t.setQhead (t.qhead + 1)) t1 := propagateBin_ext hb
    have e3 : Ext t1 t2 := propagateLong_ext hl
    have e4 : Ext t2 { t2 with watches := t2.watches.set p kept } :=
      Ext.of_fields rfl rfl (fun _ => rfl) rfl rfl rfl
    have e5 := ((hI.trans e1).trans e2).trans (e3.trans e4)
    refine ⟨e5, ?_⟩
    intro confl2 t4 _ _ hu
    exact e5.trans (propagateUnaryWatches_ext hu)
  · intro confl t p t1 cr hI hlt hget hb
    have e1 : Ext t (t.setQhead (t.qhead + 1)) := Ext.of_fields rfl rfl (fun _ => rfl) rfl rfl rfl
    have e2 : Ext (t.setQhead (t.qhead + 1)) t1 := propagateBin_ext hb
    exact (hI.trans e1).trans e2
  · intro confl t n hI hlt
    exact hI.trans (Ext.of_fields rfl rfl (fun _ => rfl) rfl rfl rfl)

theorem cleanAllWatches_ext (s : Solver) : Ext s s.cleanAllWatches :=
  Ext.of_frame rfl rfl (fun _ => List.Perm.refl _) rfl rfl
    (fun _ _ hw => Or.inl (OccLists.mem_cleanAll hw))

theorem propagate_ext {s : Solver} {r : Option Nat × Solver} (h : propagate s = some r) :
    Ext s r.2 :=
  (cleanAllWatches_ext s).trans (propagateLoop_ext _ _ _ _ _ h)

/-- Cleaning the smudged watch lists keeps the invariant: only watchers of clauses
marked deleted go, and attached clauses are not marked. -/
theorem Inv.cleanAll {s : Solver} {n : Nat} (h : Inv s n) : Inv s.cleanAllWatches n := by
  obtain ⟨a, b, c, d, e, f, g, h1, h2, h3⟩ := h
  have hdel : ∀ cr ∈ s.attachedRefs, ∀ w : Watcher, w.cref = cr → s.watcherDeleted w = false := by
    intro cr hcr w hw
    have := (c cr hcr).notDel
    simp [Solver.watcherDeleted, hw, this]
  refine ⟨a.trail_of_fields rfl rfl rfl rfl, ?_, ?_, d, e, f, g, ?_, ?_, ?_⟩
  · intro i p hi hg
    obtain ⟨b1, b2⟩ := b i p hi hg
    exact ⟨fun w hw => b1 w (OccLists.mem_cleanAll hw),
      fun w hw => b2 w (OccLists.mem_cleanAll hw)⟩
  · intro cr hcr
    have hA := c cr hcr
    refine ⟨?_, hA.nodup, hA.notOne, hA.notDel, hA.size, ?_, ?_, ?_⟩
    · exact hA.watched.congr (crefCount_cleanAll _ _ _ (hdel cr hcr))
    · intro q w hw hc
      exact hA.blockers q w (OccLists.mem_cleanAll hw) hc
    · exact otherWatchBlocks_frame hA.other
        (fun q w hw hc => OccLists.mem_cleanAll_of hw (hdel cr hcr w hc))
    · intro x y hl
      obtain ⟨k1, k2⟩ := hA.bin x y hl
      exact ⟨OccLists.mem_cleanAll_of k1 (hdel cr hcr _ rfl),
        OccLists.mem_cleanAll_of k2 (hdel cr hcr _ rfl)⟩
  · intro q w hw
    exact h1 q w (OccLists.mem_cleanAll hw)
  · intro q w hw
    exact h2 q w (OccLists.mem_cleanAll hw)
  · intro q w hw
    exact h3 q w (OccLists.mem_cleanAll hw)

/-- The function `propagate` keeps the invariant of the propagated part of the trail;
when it returns no conflict the queue is empty and the whole trail is propagated. -/
theorem propagate_inv {s : Solver} {r : Option Nat × Solver} (h : propagate s = some r)
    (hI : Inv s s.qhead) (hQ : QueueFrom s s.qhead) (hle : s.qhead ≤ s.trail.length) :
    Inv r.2 s.qhead ∧ QueueFrom r.2 s.qhead ∧ s.qhead ≤ r.2.qhead ∧
    (r.1 = none → Inv r.2 r.2.qhead ∧ r.2.trail.length ≤ r.2.qhead) ∧
    r.2.qhead ≤ r.2.trail.length := by
  have hI0 : Inv s.cleanAllWatches s.qhead := hI.cleanAll
  obtain ⟨k1, k2, k3, k4, k7⟩ := propagateLoop_inv s.qhead _ none 0 s.cleanAllWatches r hI0 hQ
    (le_refl _) (fun _ => hI0.done) (by simp) hle h
  refine ⟨k1, k2, k3, ?_, k7⟩
  intro hn
  obtain ⟨k5, k6⟩ := k4 hn
  exact ⟨⟨k1.trail, k5, k1.attached, k1.noUnary, k1.caBound, k1.trailVars, k1.clauseVars,
    k1.watcherVars, k1.binVars, k1.watcherRefs⟩, k6⟩

/-! ## Completeness of unit propagation under the invariant -/

/-- A false literal of an attached clause whose negation is propagated: a watcher of
the clause in the list of the negation has a true blocker. -/
theorem Inv.good_of_false {s : Solver} {n : Nat} (h : Inv s n) (hn : s.trail.length ≤ n)
    {l : Lit} (hl : s.value l = lbool.l_False) :
    (∀ w ∈ s.watches.occs l.neg, GoodWatcher s l.neg w) ∧
    (∀ w ∈ s.watchesBin.occs l.neg, GoodWatcher s l.neg w) := by
  have ht : s.value l.neg = lbool.l_True := value_neg_true.mpr hl
  have hm := h.trail.mem_of_true ht
  obtain ⟨i, hget⟩ := List.mem_iff_get?.mp hm
  have hi : i < s.trail.length := by
    rw [List.get?_eq_getElem?] at hget
    exact (List.getElem?_eq_some_iff.mp hget).1
  exact h.done i l.neg (by omega) hget

theorem exists_of_crefCount {ws : List Watcher} {cr : Nat} (h : crefCount ws cr = 1) :
    ∃ w ∈ ws, w.cref = cr := by
  unfold crefCount at h
  have : 0 < ws.countP (fun w => w.cref == cr) := by omega
  obtain ⟨w, hw, hc⟩ := List.countP_pos_iff.mp this
  exact ⟨w, hw, by simpa using hc⟩

/-- With an empty queue, a false watched literal of an attached clause comes with a true
literal of the clause. -/
theorem Inv.true_of_false_watch {s : Solver} {n : Nat} (h : Inv s n)
    (hn : s.trail.length ≤ n) {cr : Nat} (hcr : cr ∈ s.attachedRefs) {c0 c1 : Lit}
    {rest : List Lit} (hl : (s.ca cr).lits = c0 :: c1 :: rest)
    (hf : s.value c0 = lbool.l_False ∨ s.value c1 = lbool.l_False) :
    ∃ l ∈ (s.ca cr).lits, s.value l = lbool.l_True := by
  have hA := h.attached cr hcr
  cases rest with
  | nil =>
    obtain ⟨k1, k2⟩ := hA.bin c0 c1 hl
    rcases hf with hf | hf
    · have := ((h.good_of_false hn hf).2 _ k1).1
      exact ⟨c1, by rw [hl]; simp, this⟩
    · have := ((h.good_of_false hn hf).2 _ k2).1
      exact ⟨c0, by rw [hl]; simp, this⟩
  | cons c2 rest =>
    obtain ⟨k1, k2, _⟩ := hA.watched c0 c1 c2 rest hl
    rcases hf with hf | hf
    · obtain ⟨w, hw, hc⟩ := exists_of_crefCount k1
      have := ((h.good_of_false hn hf).1 w hw).1
      exact ⟨w.blocker, hA.blockers _ w hw hc, this⟩
    · obtain ⟨w, hw, hc⟩ := exists_of_crefCount k2
      have := ((h.good_of_false hn hf).1 w hw).1
      exact ⟨w.blocker, hA.blockers _ w hw hc, this⟩

/-- With an empty queue, every attached clause is neither falsified nor unit, and its
two watched literals are not both false. -/
theorem Inv.complete {s : Solver} {n : Nat} (h : Inv s n) (hn : s.trail.length ≤ n)
    {cr : Nat} (hcr : cr ∈ s.attachedRefs) : ClauseComplete s cr := by
  have hA := h.attached cr hcr
  obtain ⟨c0, c1, rest, hl⟩ : ∃ c0 c1 rest, (s.ca cr).lits = c0 :: c1 :: rest := by
    have := hA.size
    match hm : (s.ca cr).lits with
    | [] => rw [hm] at this; simp at this
    | [_] => rw [hm] at this; simp at this
    | c0 :: c1 :: rest => exact ⟨c0, c1, rest, rfl⟩
  have hne : c0 ≠ c1 := by
    have := hA.nodup
    rw [hl] at this
    intro e
    subst e
    simp at this
  refine ⟨?_, ?_, ?_⟩
  · intro hall
    obtain ⟨l, hlm, ht⟩ := h.true_of_false_watch hn hcr hl
      (Or.inl (hall c0 (by rw [hl]; simp)))
    rw [hall l hlm] at ht
    simp at ht
  · rintro ⟨l, hlm, hu, hoth⟩
    have hf : s.value c0 = lbool.l_False ∨ s.value c1 = lbool.l_False := by
      by_cases e : c0 = l
      · right
        exact hoth c1 (by rw [hl]; simp) (by rw [← e]; exact fun e2 => hne e2.symm)
      · left
        exact hoth c0 (by rw [hl]; simp) e
    obtain ⟨l2, hl2, ht⟩ := h.true_of_false_watch hn hcr hl hf
    by_cases e : l2 = l
    · rw [e, hu] at ht
      simp at ht
    · rw [hoth l2 hl2 e] at ht
      simp at ht
  · intro d0 d1 rest2 hl2 ⟨hf0, hf1⟩
    cases rest2 with
    | nil =>
      obtain ⟨k1, _⟩ := hA.bin d0 d1 hl2
      have := ((h.good_of_false hn hf0).2 _ k1).1
      rw [show (⟨cr, d1⟩ : Watcher).blocker = d1 from rfl, hf1] at this
      simp at this
    | cons d2 rest2 =>
      rcases hA.other d0 d1 d2 rest2 hl2 with ⟨w, hw, _, hb⟩ | ⟨w, hw, _, hb⟩
      · have := ((h.good_of_false hn hf0).1 w hw).1
        rw [hb, hf1] at this
        simp at this
      · have := ((h.good_of_false hn hf1).1 w hw).1
        rw [hb, hf0] at this
        simp at this

end Glucose


namespace Glucose

/-! ## The operations of the search loop keep the invariant: `newVar`, decisions -/

theorem init_rinv : RInv Solver.init := by
  have hT : TrailOK Solver.init := by
    refine ⟨?_, ?_, ?_, ?_, ?_, ?_⟩
    · intro l hl; simp [Solver.init] at hl
    · intro v hv; simp [Solver.init] at hv
    · simp [Solver.init]
    · simp [Solver.init]
    · intro b hb; simp [Solver.init] at hb
    · intro i l hg; simp [Solver.init] at hg
  refine ⟨⟨hT, ?_, ?_, rfl, ?_, ?_, ?_, ?_, ?_, ?_⟩, ?_, ?_, le_refl _⟩
  · intro i p hi hg; simp [Solver.init] at hg
  · intro cr hcr; simp [Solver.init, Solver.attachedRefs] at hcr
  · intro cr hcr; simp [Solver.init, Solver.attachedRefs] at hcr
  · intro l hl; simp [Solver.init] at hl
  · intro cr hcr; simp [Solver.init, Solver.attachedRefs] at hcr
  · intro q w hw; simp [Solver.init, OccLists.empty] at hw
  · intro q w hw; simp [Solver.init, OccLists.empty] at hw
  · intro q w hw; simp [Solver.init, OccLists.empty] at hw
  · intro i l hi hg; simp [Solver.init] at hg
  · intro b hb; simp [Solver.init] at hb

theorem insertVarOrder_fields (s : Solver) (x : Nat) :
    (s.insertVarOrder x).assigns = s.assigns ∧ (s.insertVarOrder x).vardata = s.vardata ∧
    (s.insertVarOrder x).trail = s.trail ∧ (s.insertVarOrder x).trail_lim = s.trail_lim ∧
    (s.insertVarOrder x).watches = s.watches ∧
    (s.insertVarOrder x).watchesBin = s.watchesBin ∧ (s.insertVarOrder x).ca = s.ca ∧
    (s.insertVarOrder x).clauses = s.clauses ∧ (s.insertVarOrder x).learnts = s.learnts ∧
    (s.insertVarOrder x).opts = s.opts ∧ (s.insertVarOrder x).caSize = s.caSize ∧
    (s.insertVarOrder x).nVars = s.nVars ∧ (s.insertVarOrder x).qhead = s.qhead := by
  unfold Solver.insertVarOrder
  split <;> exact ⟨rfl, rfl, rfl, rfl, rfl, rfl, rfl, rfl, rfl, rfl, rfl, rfl, rfl⟩

/-- The invariant of the search loop only reads the fields listed here. -/
theorem RInv.rinv_of_fields {s t : Solver} (h : RInv s)
    (e1 : t.assigns = s.assigns) (e2 : t.vardata = s.vardata) (e3 : t.trail = s.trail)
    (e4 : t.trail_lim = s.trail_lim) (e5 : t.watches.occs = s.watches.occs)
    (e6 : t.watchesBin.occs = s.watchesBin.occs) (e7 : t.ca = s.ca)
    (e8 : t.clauses = s.clauses) (e9 : t.learnts = s.learnts) (e10 : t.opts = s.opts)
    (e11 : t.caSize = s.caSize) (e12 : t.nVars = s.nVars) (e13 : t.qhead = s.qhead) :
    RInv t := by
  obtain ⟨a, b, c, d⟩ := h
  refine ⟨?_, ?_, ?_, ?_⟩
  · rw [e13]; exact a.inv_of_fields e1 e2 e3 e4 e5 e6 e7 e8 e9 e10 e11 e12
  · unfold QueueFrom Solver.level Solver.decisionLevel at *
    rw [e13, e2, e3, e4]; exact b
  · rw [e13, e4]; exact c
  · rw [e13, e3]; exact d

theorem newVar_occs_ne (o : OccLists) (v : Nat) (q : Lit) (h : q.var ≠ v) :
    ((o.set (mkLit v false) []).set (mkLit v true) []).occs q = o.occs q := by
  have h1 : q ≠ mkLit v true := by intro e; subst e; exact h rfl
  have h2 : q ≠ mkLit v false := by intro e; subst e; exact h rfl
  simp [OccLists.set, Function.update_noteq h1, Function.update_noteq h2]

theorem newVar_occs_eq (o : OccLists) (v : Nat) (q : Lit) (h : q.var = v) :
    ((o.set (mkLit v false) []).set (mkLit v true) []).occs q = [] := by
  obtain ⟨x, sg⟩ := q
  simp only at h
  subst h
  cases sg
  · have h1 : (⟨x, false⟩ : Lit) ≠ mkLit x true := by simp [mkLit]
    simp only [OccLists.set, Function.update_noteq h1]
    exact Function.update_same _ _ _
  · exact Function.update_same _ _ _

theorem newVar_occs_mem {o : OccLists} {v : Nat} {q : Lit} {w : Watcher}
    (h : w ∈ ((o.set (mkLit v false) []).set (mkLit v true) []).occs q) : w ∈ o.occs q := by
  by_cases e : q.var = v
  · rw [newVar_occs_eq o v q e] at h
    simp at h
  · rw [newVar_occs_ne o v q e] at h
    exact h

/-- A state that differs from `s` as the state after `newVar` does satisfies the
invariant. -/
theorem RInv.newVar_fields {s t : Solver} (h : RInv s)
    (e1 : t.assigns = Function.update s.assigns s.nVars lbool.l_Undef)
    (e2 : t.vardata = Function.update s.vardata s.nVars ⟨none, 0⟩)
    (e3 : t.trail = s.trail) (e4 : t.trail_lim = s.trail_lim)
    (e5 : t.watches.occs
      = ((s.watches.set (mkLit s.nVars false) []).set (mkLit s.nVars true) []).occs)
    (e6 : t.watchesBin.occs
      = ((s.watchesBin.set (mkLit s.nVars false) []).set (mkLit s.nVars true) []).occs)
    (e7 : t.ca = s.ca) (e8 : t.clauses = s.clauses) (e9 : t.learnts = s.learnts)
    (e10 : t.opts = s.opts) (e11 : t.caSize = s.caSize) (e12 : t.nVars = s.nVars + 1)
    (e13 : t.qhead = s.qhead) : RInv t := by
  obtain ⟨hI, hQ, hLim, hqle⟩ := h
  have hval : ∀ l : Lit, l.var ≠ s.nVars → t.value l = s.value l := by
    intro l hl
    unfold Solver.value
    rw [e1, Function.update_noteq hl]
  have hlev : ∀ x : Nat, x ≠ s.nVars → t.level x = s.level x := by
    intro x hx
    unfold Solver.level
    rw [e2, Function.update_noteq hx]
  have htv : ∀ l ∈ s.trail, l.var ≠ s.nVars := fun l hl => Nat.ne_of_lt (hI.trailVars l hl)
  have hrefs : t.attachedRefs = s.attachedRefs := by
    simp [Solver.attachedRefs, e8, e9]
  have hgood : ∀ (p : Lit) (w : Watcher), p ∈ s.trail → GoodWatcher s p w →
      GoodWatcher t p w := by
    intro p w hp ⟨g1, g2⟩
    have hb := hI.trail.mem_of_true g1
    refine ⟨by rw [hval _ (htv _ hb)]; exact g1, ?_⟩
    rw [hlev _ (htv _ hb), hlev _ (htv _ hp)]
    exact g2
  have hT : TrailOK t := by
    refine ⟨?_, ?_, ?_, ?_, ?_, ?_⟩
    · intro l hl
      rw [e3] at hl
      rw [hval l (htv l hl)]
      exact hI.trail.allTrue l hl
    · intro x hx
      rw [e3]
      apply hI.trail.onTrail
      by_cases e : x = s.nVars
      · subst e
        rw [e1, Function.update_same] at hx
        exact absurd rfl hx
      · rw [e1, Function.update_noteq e] at hx
        exact hx
    · rw [e3]; exact hI.trail.nodup
    · rw [e4]; exact hI.trail.limsSorted
    · rw [e3, e4]; exact hI.trail.limsBound
    · intro i l hg
      rw [e3] at hg
      rw [hlev _ (htv l (mem_of_get? hg)), e4]
      exact hI.trail.levels i l hg
  refine ⟨⟨hT, ?_, ?_, ?_, ?_, ?_, ?_, ?_, ?_, ?_⟩, ?_, ?_, ?_⟩
  · intro i p hi hg
    rw [e3] at hg
    rw [e13] at hi
    have hp := mem_of_get? hg
    have hpv : p.var ≠ s.nVars := htv p hp
    obtain ⟨d1, d2⟩ := hI.done i p hi hg
    rw [e5, e6, newVar_occs_ne _ _ _ hpv, newVar_occs_ne _ _ _ hpv]
    exact ⟨fun w hw => hgood p w hp (d1 w hw), fun w hw => hgood p w hp (d2 w hw)⟩
  · intro cr hcr
    rw [hrefs] at hcr
    have hA := hI.attached cr hcr
    have hcv : ∀ l ∈ (s.ca cr).lits, l.neg.var ≠ s.nVars :=
      fun l hl => Nat.ne_of_lt (hI.clauseVars cr hcr l hl)
    unfold Attached
    rw [e7]
    refine ⟨?_, hA.nodup, hA.notOne, hA.notDel, hA.size, ?_, ?_, ?_⟩
    · intro c0 c1 c2 rest hl
      obtain ⟨k1, k2, k3⟩ := hA.watched c0 c1 c2 rest hl
      have h0 := hcv c0 (by rw [hl]; simp)
      have h1 := hcv c1 (by rw [hl]; simp)
      rw [e5, newVar_occs_ne _ _ _ h0, newVar_occs_ne _ _ _ h1]
      refine ⟨k1, k2, ?_⟩
      intro p hp0 hp1
      by_cases e : p.var = s.nVars
      · rw [newVar_occs_eq _ _ _ e]
        rfl
      · rw [newVar_occs_ne _ _ _ e]
        exact k3 p hp0 hp1
    · intro q w hw hc
      rw [e5] at hw
      exact hA.blockers q w (newVar_occs_mem hw) hc
    · intro c0 c1 c2 rest hl
      have h0 := hcv c0 (by rw [hl]; simp)
      have h1 := hcv c1 (by rw [hl]; simp)
      rw [e5, newVar_occs_ne _ _ _ h0, newVar_occs_ne _ _ _ h1]
      exact hA.other c0 c1 c2 rest hl
    · intro x y hl
      have h0 := hcv x (by rw [hl]; simp)
      have h1 := hcv y (by rw [hl]; simp)
      rw [e6, newVar_occs_ne _ _ _ h0, newVar_occs_ne _ _ _ h1]
      exact hA.bin x y hl
  · rw [e10]; exact hI.noUnary
  · rw [hrefs, e11]; exact hI.caBound
  · intro l hl
    rw [e3] at hl
    rw [e12]
    exact Nat.lt_succ_of_lt (hI.trailVars l hl)
  · intro cr hcr l hl
    rw [hrefs] at hcr
    rw [e7] at hl
    rw [e12]
    exact Nat.lt_succ_of_lt (hI.clauseVars cr hcr l hl)
  · intro q w hw l hl
    rw [e5] at hw
    rw [e7] at hl
    rw [e12]
    exact Nat.lt_succ_of_lt (hI.watcherVars q w (newVar_occs_mem hw) l hl)
  · intro q w hw
    rw [e6] at hw
    rw [e12]
    exact Nat.lt_succ_of_lt (hI.binVars q w (newVar_occs_mem hw))
  · intro q w hw
    rw [e5] at hw
    rw [e11]
    exact hI.watcherRefs q w (newVar_occs_mem hw)
  · intro i l hi hg
    rw [e3] at hg
    rw [e13] at hi
    rw [hlev _ (htv l (mem_of_get? hg))]
    unfold Solver.decisionLevel
    rw [e4]
    exact hQ i l hi hg
  · rw [e4, e13]; exact hLim
  · rw [e3, e13]; exact hqle

/-- The function `newVar` keeps the invariant of the search loop. -/
theorem newVar_rinv {s : Solver} (sign dvar : Bool) (h : RInv s) :
    RInv (newVar s sign dvar).2 := by
  unfold newVar Solver.setDecisionVar
  dsimp only
  obtain ⟨f1, f2, f3, f4, f5, f6, f7, f8, f9, f10, f11, f12, f13⟩ :=
    insertVarOrder_fields
      { s with
        nVars := s.nVars + 1,
        watches := (s.watches.set (mkLit s.nVars false) []).set (mkLit s.nVars true) [],
        watchesBin :=
          (s.watchesBin.set (mkLit s.nVars false) []).set (mkLit s.nVars true) [],
        unaryWatches :=
          (s.unaryWatches.set (mkLit s.nVars false) []).set (mkLit s.nVars true) [],
        assigns := Function.update s.assigns s.nVars lbool.l_Undef,
        vardata := Function.update s.vardata s.nVars ⟨none, 0⟩,
        seen := Function.update s.seen s.nVars false,
        permDiff := Function.update s.permDiff s.nVars 0,
        polarity := Function.update s.polarity s.nVars sign,
        highcenter := Function.update s.highcenter s.nVars false,
        centrality := Function.update s.centrality s.nVars (Double.ofNat 0),
        sortedcentrality := Function.update s.sortedcentrality s.nVars (Double.ofNat 0),
        cmtycentrality := Function.update s.cmtycentrality s.nVars (Double.ofNat 0),
        sorted_central_vars := Function.update s.sorted_central_vars s.nVars 0,
        cmtys := Function.update s.cmtys s.nVars 0,
        bridges := Function.update s.bridges s.nVars false,
        numbridges := Function.update s.numbridges s.nVars 0,
        sortednumbridges := Function.update s.sortednumbridges s.nVars 0,
        literaldecisions := Function.update s.literaldecisions s.nVars 0,
        cmtystruct := Function.update s.cmtystruct s.nVars 0,
        cmtybridges := Function.update s.cmtybridges s.nVars 0,
        cmtydec := Function.update s.cmtydec s.nVars 0,
        bridgearrangedliterals := Function.update s.bridgearrangedliterals s.nVars 0,
        decision := Function.update s.decision s.nVars dvar } s.nVars
  exact h.newVar_fields f1 f2 f3 f4 (by rw [f5]) (by rw [f6]) f7 f8 f9 f10 f11 f12 f13

end Glucose


namespace Glucose

/-! ## Decisions and `propagate` keep the invariant of the search loop -/

theorem newDecisionLevel_trailOK {s : Solver} (h : TrailOK s) : TrailOK s.newDecisionLevel := by
  refine ⟨h.allTrue, h.onTrail, h.nodup, ?_, ?_, ?_⟩
  · show (s.trail_lim ++ [s.trail.length]).Pairwise (fun a b => a ≤ b)
    rw [List.pairwise_append]
    refine ⟨h.limsSorted, by simp, ?_⟩
    intro a ha b hb
    simp only [List.mem_singleton] at hb
    subst hb
    exact h.limsBound a ha
  · intro b hb
    have hb2 : b ∈ s.trail_lim ++ [s.trail.length] := hb
    rcases List.mem_append.mp hb2 with hb2 | hb2
    · exact h.limsBound b hb2
    · simp only [List.mem_singleton] at hb2
      subst hb2
      exact le_refl _
  · intro i l hg
    have hg2 : s.trail.get? i = some l := hg
    have hi : i < s.trail.length := by
      rw [List.get?_eq_getElem?] at hg2
      exact (List.getElem?_eq_some_iff.mp hg2).1
    show s.level l.var = levelAt (s.trail_lim ++ [s.trail.length]) i
    rw [levelAt_append, h.levels i l hg2]
    have : levelAt [s.trail.length] i = 0 := by
      simp [levelAt]
      omega
    rw [this]
    rfl

/-- A decision taken when the propagation queue is empty keeps the invariant. -/
theorem decide_rinv {s s1 : Solver} {p : Lit} (h : RInv s) (hq : s.trail.length ≤ s.qhead)
    (hp : p.var < s.nVars) (he : uncheckedEnqueue s.newDecisionLevel p none = some s1) :
    RInv s1 := by
  obtain ⟨hI, hQ, hLim, hqle⟩ := h
  have hlen : s.qhead = s.trail.length := le_antisymm hqle hq
  have hT0 : TrailOK s.newDecisionLevel := newDecisionLevel_trailOK hI.trail
  have hext : Ext s.newDecisionLevel s1 := uncheckedEnqueue_ext he
  have hQ0 : QueueFrom s.newDecisionLevel s.qhead := by
    intro i l hi hg
    have hg2 : s.trail.get? i = some l := hg
    rw [List.get?_eq_getElem?] at hg2
    have := (List.getElem?_eq_some_iff.mp hg2).1
    omega
  have hD0 : WatchesDone s.newDecisionLevel s.qhead := hI.done
  have hT1 := hext.trailOK hT0
  have hQ1 := hext.queueFrom hT0 hQ0
  obtain ⟨_, e2⟩ := uncheckedEnqueue_eq he
  subst e2
  refine ⟨⟨hT1, ?_, hI.attached, hI.noUnary, hI.caBound, ?_, hI.clauseVars, hI.watcherVars,
    hI.binVars, hI.watcherRefs⟩, hQ1, ?_, ?_⟩
  · intro i p2 hi hg
    have hi2 : i < s.qhead := hi
    have hg2 := get?_of_ext_lt hext (show i < s.newDecisionLevel.trail.length by
      show i < s.trail.length
      omega) hg
    exact WatchesDone.done_ext hD0 hext hT0 (fun _ _ _ hw => hw) (fun _ _ _ hw => hw) i p2 hi2 hg2
  · intro l hl
    have hl2 : l ∈ s.trail ++ [p] := hl
    rcases List.mem_append.mp hl2 with hl2 | hl2
    · exact hI.trailVars l hl2
    · simp only [List.mem_singleton] at hl2
      subst hl2
      exact hp
  · intro b hb
    have hb2 : b ∈ s.trail_lim ++ [s.trail.length] := hb
    show b ≤ s.qhead
    rcases List.mem_append.mp hb2 with hb2 | hb2
    · exact hLim b hb2
    · simp only [List.mem_singleton] at hb2
      subst hb2
      exact hq
  · show s.qhead ≤ (s.trail ++ [p]).length
    rw [List.length_append]
    omega

/-- A call of `propagate` that returns no conflict keeps the invariant, and leaves the
queue empty. -/
theorem propagate_rinv {s s1 : Solver} (h : RInv s) (hp : propagate s = some (none, s1)) :
    RInv s1 ∧ s1.trail.length ≤ s1.qhead := by
  obtain ⟨hI, hQ, hLim, hqle⟩ := h
  obtain ⟨k1, k2, k3, k4, k5⟩ := propagate_inv hp hI hQ hqle
  obtain ⟨k6, k7⟩ := k4 rfl
  have hext := propagate_ext hp
  have hT : TrailOK s1 := k1.trail
  refine ⟨⟨k6, ?_, ?_, k5⟩, k7⟩
  · intro i l hi hg
    have hq : s.qhead ≤ s1.qhead := k3
    exact k2 i l (by omega) hg
  · intro b hb
    have hb2 : b ∈ s.trail_lim := by
      have := hext.trail_lim
      rw [← this]
      exact hb
    have := hLim b hb2
    have hq : s.qhead ≤ s1.qhead := k3
    omega

end Glucose


namespace Glucose

/-! ## `cancelUntil` keeps the invariant of the search loop -/

theorem lims_split {lims : List Nat} {k lim : Nat} (hs : lims.Pairwise (fun a b => a ≤ b))
    (hk : lims.get? k = some lim) :
    (∀ b ∈ lims.take (k + 1), b ≤ lim) ∧ (∀ b ∈ lims.drop k, lim ≤ b) := by
  rw [List.get?_eq_getElem?] at hk
  obtain ⟨hlt, hget⟩ := List.getElem?_eq_some_iff.mp hk
  have hp := List.pairwise_iff_getElem.mp hs
  constructor
  · intro b hb
    obtain ⟨i, hi, rfl⟩ := List.mem_take_iff_getElem.mp hb
    have hi2 : i < k + 1 := lt_of_lt_of_le hi (min_le_left _ _)
    by_cases e : i = k
    · subst e
      rw [hget]
    · rw [← hget]
      exact hp i k _ hlt (by omega)
  · intro b hb
    obtain ⟨i, hi, rfl⟩ := List.mem_drop_iff_getElem.mp hb
    by_cases e : i = 0
    · subst e
      simp only [Nat.add_zero]
      rw [hget]
    · rw [← hget]
      exact hp k (k + i) hlt _ (by omega)

theorem levelAt_zero_of_lt {lims : List Nat} {i : Nat} (h : ∀ b ∈ lims, i < b) :
    levelAt lims i = 0 := by
  unfold levelAt
  rw [List.countP_eq_zero]
  intro b hb
  have := h b hb
  simp
  omega

theorem levelAt_take_of_lt {lims : List Nat} {k lim i : Nat}
    (hs : lims.Pairwise (fun a b => a ≤ b)) (hk : lims.get? k = some lim) (hi : i < lim) :
    levelAt (lims.take k) i = levelAt lims i := by
  have h2 := (lims_split hs hk).2
  conv_rhs => rw [← List.take_append_drop k lims]
  rw [levelAt_append, levelAt_zero_of_lt (fun b hb => lt_of_lt_of_le hi (h2 b hb))]
  rfl

theorem levelAt_ge_of_le {lims : List Nat} {k lim j : Nat}
    (hs : lims.Pairwise (fun a b => a ≤ b)) (hk : lims.get? k = some lim) (hj : lim ≤ j) :
    k + 1 ≤ levelAt lims j := by
  have h1 := (lims_split hs hk).1
  have hlt : k < lims.length := by
    rw [List.get?_eq_getElem?] at hk
    exact (List.getElem?_eq_some_iff.mp hk).1
  conv_rhs => rw [← List.take_append_drop (k + 1) lims]
  rw [levelAt_append, levelAt_eq_length (fun b hb => le_trans (h1 b hb) hj), List.length_take]
  have : min (k + 1) lims.length = k + 1 := by omega
  omega

/-- What the loop of `cancelUntil` changes among the fields the invariant reads: the
variables of the removed literals are unassigned. -/
theorem cancelLoop_fields (lastLim : Nat) (removed : List (Nat × Lit)) (s : Solver) :
    (∀ v, (v ∈ removed.map (fun x => x.2.var) →
        (cancelLoop lastLim removed s).assigns v = lbool.l_Undef) ∧
      (v ∉ removed.map (fun x => x.2.var) →
        (cancelLoop lastLim removed s).assigns v = s.assigns v)) ∧
    (cancelLoop lastLim removed s).vardata = s.vardata ∧
    (cancelLoop lastLim removed s).trail = s.trail ∧
    (cancelLoop lastLim removed s).trail_lim = s.trail_lim ∧
    (cancelLoop lastLim removed s).watches = s.watches ∧
    (cancelLoop lastLim removed s).watchesBin = s.watchesBin ∧
    (cancelLoop lastLim removed s).ca = s.ca ∧
    (cancelLoop lastLim removed s).clauses = s.clauses ∧
    (cancelLoop lastLim removed s).learnts = s.learnts ∧
    (cancelLoop lastLim removed s).opts = s.opts ∧
    (cancelLoop lastLim removed s).caSize = s.caSize ∧
    (cancelLoop lastLim removed s).nVars = s.nVars := by
  induction removed generalizing s with
  | nil =>
    refine ⟨fun v => ⟨by simp, fun _ => rfl⟩, rfl, rfl, rfl, rfl, rfl, rfl, rfl, rfl, rfl, rfl,
      rfl⟩
  | cons x rest ih =>
    obtain ⟨c, l⟩ := x
    unfold cancelLoop
    dsimp only
    generalize hs2 : (if 1 < s.opts.phase_saving ∨ (s.opts.phase_saving = 1 ∧ lastLim < c) then
        ({ ({ s with assigns := Function.update s.assigns l.var lbool.l_Undef } : Solver) with
            polarity := Function.update s.polarity l.var l.sign } : Solver)
      else ({ s with assigns := Function.update s.assigns l.var lbool.l_Undef } : Solver)) = s2
    have hf : s2.assigns = Function.update s.assigns l.var lbool.l_Undef ∧
        s2.vardata = s.vardata ∧ s2.trail = s.trail ∧ s2.trail_lim = s.trail_lim ∧
        s2.watches = s.watches ∧ s2.watchesBin = s.watchesBin ∧ s2.ca = s.ca ∧
        s2.clauses = s.clauses ∧ s2.learnts = s.learnts ∧ s2.opts = s.opts ∧
        s2.caSize = s.caSize ∧ s2.nVars = s.nVars := by
      rw [← hs2]
      split <;> exact ⟨rfl, rfl, rfl, rfl, rfl, rfl, rfl, rfl, rfl, rfl, rfl, rfl⟩
    obtain ⟨g1, g2, g3, g4, g5, g6, g7, g8, g9, g10, g11, g12⟩ := hf
    obtain ⟨f1, f2, f3, f4, f5, f6, f7, f8, f9, f10, f11, f12, _⟩ :=
      insertVarOrder_fields s2 l.var
    obtain ⟨i1, i2, i3, i4, i5, i6, i7, i8, i9, i10, i11, i12⟩ := ih (s2.insertVarOrder l.var)
    refine ⟨?_, by rw [i2, f2, g2], by rw [i3, f3, g3], by rw [i4, f4, g4],
      by rw [i5, f5, g5], by rw [i6, f6, g6], by rw [i7, f7, g7], by rw [i8, f8, g8],
      by rw [i9, f9, g9], by rw [i10, f10, g10], by rw [i11, f11, g11],
      by rw [i12, f12, g12]⟩
    intro v
    obtain ⟨j1, j2⟩ := i1 v
    constructor
    · intro hv
      by_cases hr : v ∈ rest.map (fun x => x.2.var)
      · exact j1 hr
      · rw [j2 hr, f1, g1]
        simp only [List.map_cons, List.mem_cons] at hv
        rcases hv with rfl | hv
        · exact Function.update_same _ _ _
        · exact absurd hv hr
    · intro hv
      simp only [List.map_cons, List.mem_cons, not_or] at hv
      rw [j2 hv.2, f1, g1, Function.update_noteq hv.1]

theorem removed_vars (trail : List Lit) (lim : Nat) (v : Nat) :
    v ∈ (((trail.enum).drop lim).reverse).map (fun x => x.2.var) ↔
      v ∈ (trail.drop lim).map Lit.var := by
  have h : (((trail.enum).drop lim).reverse).map (fun x => x.2.var)
      = ((trail.drop lim).map Lit.var).reverse := by
    rw [List.map_reverse]
    congr 1
    have : (fun x : Nat × Lit => x.2.var) = Lit.var ∘ Prod.snd := rfl
    rw [this, ← List.map_map, List.map_drop, List.enum_map_snd]
  rw [h, List.mem_reverse]

theorem mem_take_succ {α : Type} {l : List α} {k : Nat} {b : α} (h : b ∈ l.take k) :
    b ∈ l.take (k + 1) := by
  obtain ⟨i, hi, rfl⟩ := List.mem_take_iff_getElem.mp h
  exact List.mem_take_iff_getElem.mpr ⟨i, by
    have := hi
    simp only [lt_min_iff] at this ⊢
    omega, rfl⟩

/-- A state that differs from `s` as the state after `cancelUntil(k)` does, `lim` being
the fence of level `k`, satisfies the invariant of the search loop, provided the
fences of `s` are at or below the propagated part of its trail. -/
theorem Inv.cancel_fields {s t : Solver} {n k lim : Nat} (hI : Inv s n)
    (hLim : ∀ b ∈ s.trail_lim, b ≤ n) (hk : s.trail_lim.get? k = some lim)
    (e1 : ∀ v, (v ∈ (s.trail.drop lim).map Lit.var → t.assigns v = lbool.l_Undef) ∧
      (v ∉ (s.trail.drop lim).map Lit.var → t.assigns v = s.assigns v))
    (e2 : t.vardata = s.vardata) (e3 : t.trail = s.trail.take lim)
    (e4 : t.trail_lim = s.trail_lim.take k) (e5 : t.watches = s.watches)
    (e6 : t.watchesBin = s.watchesBin) (e7 : t.ca = s.ca) (e8 : t.clauses = s.clauses)
    (e9 : t.learnts = s.learnts) (e10 : t.opts = s.opts) (e11 : t.caSize = s.caSize)
    (e12 : t.nVars = s.nVars) (e13 : t.qhead = lim) : RInv t := by
  have hsorted := hI.trail.limsSorted
  have hlimmem : lim ∈ s.trail_lim := mem_of_get? hk
  have hlimlen : lim ≤ s.trail.length := hI.trail.limsBound lim hlimmem
  have hlimn : lim ≤ n := hLim lim hlimmem
  have hnd : ((s.trail.take lim).map Lit.var ++ (s.trail.drop lim).map Lit.var).Nodup := by
    rw [← List.map_append, List.take_append_drop]
    exact hI.trail.nodup
  have hdisj : ∀ l ∈ s.trail.take lim, l.var ∉ (s.trail.drop lim).map Lit.var := by
    intro l hl hv
    exact (List.nodup_append.mp hnd).2.2 (List.mem_map_of_mem _ hl) hv
  have hget_take : ∀ i l, t.trail.get? i = some l → i < lim ∧ s.trail.get? i = some l := by
    intro i l hg
    rw [e3, List.get?_eq_getElem?, List.getElem?_take] at hg
    split at hg
    · next hi => exact ⟨hi, by rw [List.get?_eq_getElem?]; exact hg⟩
    · simp at hg
  have hval : ∀ l ∈ s.trail.take lim, t.value l = s.value l := by
    intro l hl
    unfold Solver.value
    rw [(e1 l.var).2 (hdisj l hl)]
  have hlev : ∀ x, t.level x = s.level x := by
    intro x
    unfold Solver.level
    rw [e2]
  have hrefs : t.attachedRefs = s.attachedRefs := by
    simp [Solver.attachedRefs, e8, e9]
  have hlimb : ∀ b ∈ s.trail_lim.take k, b ≤ lim :=
    fun b hb => (lims_split hsorted hk).1 b (mem_take_succ hb)
  have hT : TrailOK t := by
    refine ⟨?_, ?_, ?_, ?_, ?_, ?_⟩
    · intro l hl
      rw [e3] at hl
      rw [hval l hl]
      exact hI.trail.allTrue l (List.mem_of_mem_take hl)
    · intro v hv
      by_cases hd : v ∈ (s.trail.drop lim).map Lit.var
      · exact absurd ((e1 v).1 hd) hv
      · rw [(e1 v).2 hd] at hv
        obtain ⟨l, hl, rfl⟩ := hI.trail.onTrail v hv
        rw [← List.take_append_drop lim s.trail] at hl
        rcases List.mem_append.mp hl with h1 | h1
        · exact ⟨l, by rw [e3]; exact h1, rfl⟩
        · exact absurd (List.mem_map_of_mem _ h1) hd
    · rw [e3]
      exact (List.nodup_append.mp hnd).1
    · rw [e4]
      exact hsorted.sublist (List.take_sublist _ _)
    · intro b hb
      rw [e4] at hb
      rw [e3, List.length_take]
      have := hlimb b hb
      simp only [le_min_iff]
      omega
    · intro i l hg
      obtain ⟨hi, hg2⟩ := hget_take i l hg
      rw [hlev, e4, levelAt_take_of_lt hsorted hk hi]
      exact hI.trail.levels i l hg2
  have hgood : ∀ (i : Nat) (p : Lit) (w : Watcher), i < lim → s.trail.get? i = some p →
      GoodWatcher s p w → GoodWatcher t p w := by
    intro i p w hi hg ⟨g1, g2⟩
    have hb := hI.trail.mem_of_true g1
    obtain ⟨j, hj⟩ := List.mem_iff_get?.mp hb
    have hlj := hI.trail.levels j _ hj
    have hli := hI.trail.levels i p hg
    have hik : levelAt s.trail_lim i ≤ k := by
      rw [← levelAt_take_of_lt hsorted hk hi]
      refine le_trans (levelAt_le _ _) ?_
      rw [List.length_take]
      exact min_le_left _ _
    have hjlt : j < lim := by
      by_contra hge
      have := levelAt_ge_of_le hsorted hk (Nat.le_of_not_lt hge)
      rw [hlj, hli] at g2
      omega
    have hbt : w.blocker ∈ s.trail.take lim := by
      rw [List.mem_iff_get?]
      refine ⟨j, ?_⟩
      rw [List.get?_eq_getElem?, List.getElem?_take_of_lt hjlt, ← List.get?_eq_getElem?]
      exact hj
    refine ⟨by rw [hval _ hbt]; exact g1, ?_⟩
    rw [hlev, hlev]
    exact g2
  refine ⟨⟨hT, ?_, ?_, ?_, ?_, ?_, ?_, ?_, ?_, ?_⟩, ?_, ?_, ?_⟩
  · intro i p hi hg
    rw [e13] at hi
    obtain ⟨_, hg2⟩ := hget_take i p hg
    obtain ⟨d1, d2⟩ := hI.done i p (by omega) hg2
    rw [e5, e6]
    exact ⟨fun w hw => hgood i p w hi hg2 (d1 w hw), fun w hw => hgood i p w hi hg2 (d2 w hw)⟩
  · unfold Attached
    rw [hrefs, e5, e6, e7]
    exact hI.attached
  · rw [e10]; exact hI.noUnary
  · rw [hrefs, e11]; exact hI.caBound
  · intro l hl
    rw [e3] at hl
    rw [e12]
    exact hI.trailVars l (List.mem_of_mem_take hl)
  · rw [hrefs, e7, e12]; exact hI.clauseVars
  · rw [e5, e7, e12]; exact hI.watcherVars
  · rw [e6, e12]; exact hI.binVars
  · rw [e5, e11]; exact hI.watcherRefs
  · intro i l hi hg
    rw [e13] at hi
    obtain ⟨hi2, _⟩ := hget_take i l hg
    omega
  · intro b hb
    rw [e4] at hb
    rw [e13]
    exact hlimb b hb
  · rw [e13, e3, List.length_take]
    simp only [le_min_iff]
    omega

/-- The function `cancelUntil` to a level below the current one gives a state of the
search loop, provided the level fences are at or below the propagated part of the
trail. -/
theorem cancelUntil_inv {s : Solver} {n k : Nat} (hI : Inv s n)
    (hLim : ∀ b ∈ s.trail_lim, b ≤ n) (hk : k < s.decisionLevel) :
    RInv (cancelUntil s k) := by
  have hk2 : k < s.trail_lim.length := hk
  have hget : s.trail_lim.get? k = some (s.trail_lim.getD k 0) := by
    rw [List.get?_eq_getElem?, List.getD_eq_getElem?_getD, List.getElem?_eq_getElem hk2]
    rfl
  unfold cancelUntil
  rw [if_pos hk]
  dsimp only
  obtain ⟨c1, c2, c3, c4, c5, c6, c7, c8, c9, c10, c11, c12⟩ :=
    cancelLoop_fields (s.trail_lim.getLastD 0)
      (((s.trail.enum).drop (s.trail_lim.getD k 0)).reverse) s
  refine hI.cancel_fields hLim hget ?_ c2 (by rw [c3]) (by rw [c4]) c5 c6 c7 c8 c9 c10 c11
    c12 rfl
  intro v
  obtain ⟨j1, j2⟩ := c1 v
  exact ⟨fun hv => j1 ((removed_vars _ _ _).mpr hv),
    fun hv => j2 (fun h => hv ((removed_vars _ _ _).mp h))⟩

/-- The function `cancelUntil` keeps the invariant of the search loop. -/
theorem cancelUntil_rinv {s : Solver} (k : Nat) (h : RInv s) : RInv (cancelUntil s k) := by
  by_cases hk : k < s.decisionLevel
  · exact cancelUntil_inv h.inv h.lims hk
  · unfold cancelUntil
    rw [if_neg hk]
    exact h

end Glucose


namespace Glucose

/-! ## `addClause_` keeps the invariant of the search loop -/

theorem Lit.toInt_inj {a b : Lit} (h : a.toInt = b.toInt) : a = b := by
  obtain ⟨x, sx⟩ := a
  obtain ⟨y, sy⟩ := b
  unfold Lit.toInt at h
  simp only at h
  cases sx <;> cases sy <;> simp at h ⊢ <;> omega

theorem value_undef_of_ne {s : Solver} {l : Lit} (h1 : s.value l ≠ lbool.l_True)
    (h2 : s.value l ≠ lbool.l_False) : s.value l = lbool.l_Undef := by
  revert h1 h2
  cases s.value l <;> simp

/-- The simplification loop of `addClause_` over sorted literals keeps literals that
are unassigned and strictly increasing, hence pairwise distinct. -/
theorem addClauseLoop_spec {s : Solver} {ls : List Lit} {p : Option Lit} {out res : List Lit}
    (h : addClauseLoop s ls p out = some res)
    (hs : ls.Pairwise (fun a b => a.toInt ≤ b.toInt))
    (hp : ∀ q, p = some q → (∀ x ∈ ls, q.toInt ≤ x.toInt) ∧ (∀ x ∈ out, x.toInt ≤ q.toInt))
    (hpn : p = none → out = [])
    (ho : out.Pairwise (fun a b => a.toInt < b.toInt))
    (hu : ∀ x ∈ out, s.value x = lbool.l_Undef) :
    res.Pairwise (fun a b => a.toInt < b.toInt) ∧
    (∀ x ∈ res, s.value x = lbool.l_Undef) ∧ (∀ x ∈ res, x ∈ out ∨ x ∈ ls) := by
  induction ls generalizing p out with
  | nil =>
    simp only [addClauseLoop, Option.some.injEq] at h
    subst h
    exact ⟨ho, hu, fun x hx => Or.inl hx⟩
  | cons l ls ih =>
    unfold addClauseLoop at h
    have hs2 := (List.pairwise_cons.mp hs).2
    have hl := (List.pairwise_cons.mp hs).1
    split at h
    · simp at h
    · next hc1 =>
      simp only [not_or] at hc1
      split at h
      · next hc2 =>
        have hkeep := ih h hs2 ?_ (by simp) ?_ ?_
        · obtain ⟨r1, r2, r3⟩ := hkeep
          refine ⟨r1, r2, ?_⟩
          intro x hx
          rcases r3 x hx with hx | hx
          · rcases List.mem_append.mp hx with hx | hx
            · exact Or.inl hx
            · simp only [List.mem_singleton] at hx
              subst hx
              exact Or.inr (by simp)
          · exact Or.inr (List.mem_cons_of_mem _ hx)
        · intro q hq
          simp only [Option.some.injEq] at hq
          subst hq
          refine ⟨hl, ?_⟩
          intro x hx
          rcases List.mem_append.mp hx with hx | hx
          · cases p with
            | none => rw [hpn rfl] at hx; simp at hx
            | some q0 =>
              obtain ⟨k1, k2⟩ := hp q0 rfl
              exact le_trans (k2 x hx) (k1 l (by simp))
          · simp only [List.mem_singleton] at hx
            subst hx
            exact le_refl _
        · rw [List.pairwise_append]
          refine ⟨ho, by simp, ?_⟩
          intro x hx y hy
          simp only [List.mem_singleton] at hy
          subst hy
          cases p with
          | none => rw [hpn rfl] at hx; simp at hx
          | some q0 =>
            obtain ⟨k1, k2⟩ := hp q0 rfl
            have h1 := k2 x hx
            have h2 := k1 y (by simp)
            have h3 : q0.toInt ≠ y.toInt := by
              intro e
              exact hc2.2 (by rw [Lit.toInt_inj e])
            omega
        · intro x hx
          rcases List.mem_append.mp hx with hx | hx
          · exact hu x hx
          · simp only [List.mem_singleton] at hx
            subst hx
            exact value_undef_of_ne hc1.1 (by
              intro e
              exact hc2.1 e)
      · have hskip := ih h hs2 ?_ hpn ho hu
        · obtain ⟨r1, r2, r3⟩ := hskip
          refine ⟨r1, r2, ?_⟩
          intro x hx
          rcases r3 x hx with hx | hx
          · exact Or.inl hx
          · exact Or.inr (List.mem_cons_of_mem _ hx)
        · intro q hq
          obtain ⟨k1, k2⟩ := hp q hq
          exact ⟨fun x hx => k1 x (List.mem_cons_of_mem _ hx), k2⟩

theorem sortLits_sorted (ps : List Lit) :
    (sortLits ps).Pairwise (fun a b => a.toInt ≤ b.toInt) := by
  haveI : IsTotal Lit (fun a b => a.toInt ≤ b.toInt) := ⟨fun a b => Nat.le_total _ _⟩
  haveI : IsTrans Lit (fun a b => a.toInt ≤ b.toInt) := ⟨fun a b c h1 h2 => Nat.le_trans h1 h2⟩
  exact List.sorted_insertionSort _ ps

theorem mem_sortLits {ps : List Lit} {x : Lit} (h : x ∈ sortLits ps) : x ∈ ps :=
  (List.perm_insertionSort _ ps).subset h

/-- The literals that `addClause_` keeps are pairwise distinct, unassigned and taken
from the given ones. -/
theorem addClauseLoop_kept {s : Solver} {ps out : List Lit}
    (h : addClauseLoop s (sortLits ps) none [] = some out) :
    out.Nodup ∧ (∀ x ∈ out, s.value x = lbool.l_Undef) ∧ (∀ x ∈ out, x ∈ ps) := by
  obtain ⟨r1, r2, r3⟩ := addClauseLoop_spec h (sortLits_sorted ps) (by simp) (by simp)
    (by simp) (by simp)
  refine ⟨?_, r2, ?_⟩
  · exact r1.imp (fun hlt e => by rw [e] at hlt; exact lt_irrefl _ hlt)
  · intro x hx
    rcases r3 x hx with hx | hx
    · simp at hx
    · exact mem_sortLits hx

/-- Enqueuing an unassigned literal of a created variable keeps the invariant. -/
theorem enqueue_rinv {s s1 : Solver} {p : Lit} {r : Option Nat} (h : RInv s)
    (hp : p.var < s.nVars) (he : uncheckedEnqueue s p r = some s1) : RInv s1 := by
  obtain ⟨hI, hQ, hLim, hqle⟩ := h
  have hext : Ext s s1 := uncheckedEnqueue_ext he
  have hT1 := hext.trailOK hI.trail
  have hQ1 := hext.queueFrom hI.trail hQ
  obtain ⟨_, e2⟩ := uncheckedEnqueue_eq he
  subst e2
  refine ⟨⟨hT1, ?_, hI.attached, hI.noUnary, hI.caBound, ?_, hI.clauseVars, hI.watcherVars,
    hI.binVars, hI.watcherRefs⟩, hQ1, hLim, ?_⟩
  · intro i p2 hi hg
    have hi2 : i < s.qhead := hi
    have hg2 := get?_of_ext_lt hext (show i < s.trail.length by omega) hg
    exact WatchesDone.done_ext hI.done hext hI.trail (fun _ _ _ hw => hw) (fun _ _ _ hw => hw)
      i p2 hi2 hg2
  · intro l hl
    have hl2 : l ∈ s.trail ++ [p] := hl
    rcases List.mem_append.mp hl2 with hl2 | hl2
    · exact hI.trailVars l hl2
    · simp only [List.mem_singleton] at hl2
      subst hl2
      exact hp
  · show s.qhead ≤ (s.trail ++ [p]).length
    rw [List.length_append]
    omega

end Glucose


namespace Glucose

/-! ## Attaching a new clause keeps the invariant -/

theorem mem_push_push {o : OccLists} {a b q : Lit} {wa wb w : Watcher} :
    w ∈ ((o.push a wa).push b wb).occs q ↔
      w ∈ o.occs q ∨ ((q = a ∧ w = wa) ∨ (q = b ∧ w = wb)) := by
  rw [OccLists.mem_push, OccLists.mem_push]
  tauto

/-- What `attachClause` changes: two watchers are pushed, on the long lists when the
clause has more than two literals, on the binary lists otherwise. -/
theorem attachClause_mem {s t : Solver} {cr : Nat} (h : attachClause s cr = some t) :
    ∃ c0 c1 rest, (s.ca cr).lits = c0 :: c1 :: rest ∧
      t.assigns = s.assigns ∧ t.vardata = s.vardata ∧ t.trail = s.trail ∧
      t.trail_lim = s.trail_lim ∧ t.ca = s.ca ∧ t.clauses = s.clauses ∧
      t.learnts = s.learnts ∧ t.opts = s.opts ∧ t.caSize = s.caSize ∧
      t.nVars = s.nVars ∧ t.qhead = s.qhead ∧
      (∀ q w, w ∈ t.watches.occs q ↔ w ∈ s.watches.occs q ∨
        (rest ≠ [] ∧ ((q = c0.neg ∧ w = ⟨cr, c1⟩) ∨ (q = c1.neg ∧ w = ⟨cr, c0⟩)))) ∧
      (∀ q w, w ∈ t.watchesBin.occs q ↔ w ∈ s.watchesBin.occs q ∨
        (rest = [] ∧ ((q = c0.neg ∧ w = ⟨cr, c1⟩) ∨ (q = c1.neg ∧ w = ⟨cr, c0⟩)))) := by
  unfold attachClause at h
  dsimp only at h
  match hl : (s.ca cr).lits with
  | [] => rw [hl] at h; simp at h
  | [_] => rw [hl] at h; simp at h
  | c0 :: c1 :: rest =>
    rw [hl] at h
    simp only [Option.some.injEq] at h
    refine ⟨c0, c1, rest, rfl, ?_⟩
    by_cases hr : rest = []
    · rw [if_pos hr] at h
      by_cases hlearnt : (s.ca cr).learnt = true
      · rw [if_pos hlearnt] at h
        subst h
        refine ⟨rfl, rfl, rfl, rfl, rfl, rfl, rfl, rfl, rfl, rfl, rfl, ?_, ?_⟩
        · intro q w
          simp [hr]
        · intro q w
          show w ∈ ((s.watchesBin.push c0.neg ⟨cr, c1⟩).push c1.neg ⟨cr, c0⟩).occs q ↔ _
          rw [mem_push_push]
          simp [hr]
      · rw [if_neg hlearnt] at h
        subst h
        refine ⟨rfl, rfl, rfl, rfl, rfl, rfl, rfl, rfl, rfl, rfl, rfl, ?_, ?_⟩
        · intro q w
          simp [hr]
        · intro q w
          show w ∈ ((s.watchesBin.push c0.neg ⟨cr, c1⟩).push c1.neg ⟨cr, c0⟩).occs q ↔ _
          rw [mem_push_push]
          simp [hr]
    · rw [if_neg hr] at h
      by_cases hlearnt : (s.ca cr).learnt = true
      · rw [if_pos hlearnt] at h
        subst h
        refine ⟨rfl, rfl, rfl, rfl, rfl, rfl, rfl, rfl, rfl, rfl, rfl, ?_, ?_⟩
        · intro q w
          show w ∈ ((s.watches.push c0.neg ⟨cr, c1⟩).push c1.neg ⟨cr, c0⟩).occs q ↔ _
          rw [mem_push_push]
          simp [hr]
        · intro q w
          simp [hr]
      · rw [if_neg hlearnt] at h
        subst h
        refine ⟨rfl, rfl, rfl, rfl, rfl, rfl, rfl, rfl, rfl, rfl, rfl, ?_, ?_⟩
        · intro q w
          show w ∈ ((s.watches.push c0.neg ⟨cr, c1⟩).push c1.neg ⟨cr, c0⟩).occs q ↔ _
          rw [mem_push_push]
          simp [hr]
        · intro q w
          simp [hr]

theorem GoodWatcher.good_of_fields {s t : Solver} {p : Lit} {w : Watcher}
    (h : GoodWatcher s p w) (e1 : t.assigns = s.assigns) (e2 : t.vardata = s.vardata) :
    GoodWatcher t p w := by
  unfold GoodWatcher Solver.value Solver.level at *
  rw [e1, e2]
  exact h

/-- Allocating the clause `out` of at least two pairwise distinct unassigned literals
and attaching it, as `addClause_` does, keeps the invariant of the search loop. -/
theorem attach_new_rinv {s t : Solver} {out : List Lit} (h : RInv s) (hnd : out.Nodup)
    (hu : ∀ x ∈ out, s.value x = lbool.l_Undef) (hvars : ∀ x ∈ out, x.var < s.nVars)
    (ha : attachClause
      { s with ca := Function.update s.ca s.caSize (Clause.alloc out false),
               caSize := s.caSize + 1,
               clauses := s.clauses ++ [s.caSize] } s.caSize = some t) : RInv t := by
  obtain ⟨hI, hQ, hLim, hqle⟩ := h
  obtain ⟨c0, c1, rest, hl, a1, a2, a3, a4, a5, a6, a7, a8, a9, a10, a11, mW, mB⟩ :=
    attachClause_mem ha
  dsimp only at hl a1 a2 a3 a4 a5 a6 a7 a8 a9 a10 a11 mW mB
  have hout : out = c0 :: c1 :: rest := by
    rw [Function.update_same] at hl
    exact hl
  have hca_new : t.ca s.caSize = Clause.alloc out false := by
    rw [a5, Function.update_same]
  have hca_old : ∀ cr2, cr2 ≠ s.caSize → t.ca cr2 = s.ca cr2 := by
    intro cr2 hne
    rw [a5, Function.update_noteq hne]
  have hrefs : ∀ cr2, cr2 ∈ t.attachedRefs ↔ cr2 ∈ s.attachedRefs ∨ cr2 = s.caSize := by
    intro cr2
    simp only [Solver.attachedRefs, a6, a7, List.mem_append, List.mem_singleton]
    tauto
  have hnt : ∀ x ∈ out, ∀ p ∈ s.trail, p ≠ x.neg := by
    intro x hx p hp e
    have h1 := hI.trail.allTrue p hp
    rw [e, value_neg_true, hu x hx] at h1
    simp at h1
  have hc0 : c0 ∈ out := by rw [hout]; simp
  have hc1 : c1 ∈ out := by rw [hout]; simp
  have hWold : ∀ p ∈ s.trail, ∀ w ∈ t.watches.occs p, w ∈ s.watches.occs p := by
    intro p hp w hw
    rcases (mW p w).mp hw with hw | ⟨_, ⟨e, _⟩ | ⟨e, _⟩⟩
    · exact hw
    · exact absurd e (hnt c0 hc0 p hp)
    · exact absurd e (hnt c1 hc1 p hp)
  have hBold : ∀ p ∈ s.trail, ∀ w ∈ t.watchesBin.occs p, w ∈ s.watchesBin.occs p := by
    intro p hp w hw
    rcases (mB p w).mp hw with hw | ⟨_, ⟨e, _⟩ | ⟨e, _⟩⟩
    · exact hw
    · exact absurd e (hnt c0 hc0 p hp)
    · exact absurd e (hnt c1 hc1 p hp)
  have hF : ∀ p, crefCount (s.watches.occs p) s.caSize = 0 := by
    intro p
    unfold crefCount
    rw [List.countP_eq_zero]
    intro w hw
    have := hI.watcherRefs p w hw
    simp
    omega
  refine ⟨⟨hI.trail.trail_of_fields a1 a2 a3 a4, ?_, ?_, ?_, ?_, ?_, ?_, ?_, ?_, ?_⟩,
    ?_, ?_, ?_⟩
  · intro i p hi hg
    rw [a3] at hg
    rw [a11] at hi
    have hp := mem_of_get? hg
    obtain ⟨d1, d2⟩ := hI.done i p hi hg
    exact ⟨fun w hw => (d1 w (hWold p hp w hw)).good_of_fields a1 a2,
      fun w hw => (d2 w (hBold p hp w hw)).good_of_fields a1 a2⟩
  · intro cr2 hcr2
    rcases (hrefs cr2).mp hcr2 with hold | hnew
    · have hne : cr2 ≠ s.caSize := Nat.ne_of_lt (hI.caBound cr2 hold)
      have hA := hI.attached cr2 hold
      unfold Attached
      rw [hca_old cr2 hne]
      refine ⟨?_, hA.nodup, hA.notOne, hA.notDel, hA.size, ?_, ?_, ?_⟩
      · exact hA.watched.congr (attachClause_counts ha hne).2
      · intro q w hw hc
        rcases (mW q w).mp hw with hw | ⟨_, ⟨_, e⟩ | ⟨_, e⟩⟩
        · exact hA.blockers q w hw hc
        · rw [e] at hc
          exact absurd hc.symm hne
        · rw [e] at hc
          exact absurd hc.symm hne
      · exact otherWatchBlocks_frame hA.other (fun q w hw _ => (mW q w).mpr (Or.inl hw))
      · intro x y hxy
        obtain ⟨k1, k2⟩ := hA.bin x y hxy
        exact ⟨(mB _ _).mpr (Or.inl k1), (mB _ _).mpr (Or.inl k2)⟩
    · subst hnew
      have hW : WatchConsistent t s.caSize :=
        attachClause_new_watched ha (by dsimp only; rw [Function.update_same]; exact hnd) hF
      unfold WatchConsistent at hW
      unfold Attached
      rw [hca_new] at hW ⊢
      refine ⟨hW, hnd, rfl, by simp [Clause.alloc], ?_, ?_, ?_, ?_⟩
      · show 2 ≤ out.length
        rw [hout]
        simp
      · intro q w hw hc
        show w.blocker ∈ out
        rcases (mW q w).mp hw with hw | ⟨_, ⟨_, e⟩ | ⟨_, e⟩⟩
        · have := hI.watcherRefs q w hw
          omega
        · rw [e]; exact hc1
        · rw [e]; exact hc0
      · intro d0 d1 d2 rest2 hl2
        have hl3 : out = d0 :: d1 :: d2 :: rest2 := hl2
        rw [hout] at hl3
        simp only [List.cons.injEq] at hl3
        obtain ⟨e0, e1, e2⟩ := hl3
        subst e0
        subst e1
        left
        exact ⟨⟨s.caSize, c1⟩, (mW _ _).mpr (Or.inr ⟨by rw [e2]; simp, Or.inl ⟨rfl, rfl⟩⟩),
          rfl, rfl⟩
      · intro x y hxy
        have hl3 : out = [x, y] := hxy
        rw [hout] at hl3
        simp only [List.cons.injEq] at hl3
        obtain ⟨e0, e1, e2⟩ := hl3
        subst e0
        subst e1
        exact ⟨(mB _ _).mpr (Or.inr ⟨e2, Or.inl ⟨rfl, rfl⟩⟩),
          (mB _ _).mpr (Or.inr ⟨e2, Or.inr ⟨rfl, rfl⟩⟩)⟩
  · rw [a8]; exact hI.noUnary
  · intro cr2 hcr2
    rw [a9]
    rcases (hrefs cr2).mp hcr2 with hold | hnew
    · exact Nat.lt_succ_of_lt (hI.caBound cr2 hold)
    · rw [hnew]; exact Nat.lt_succ_self _
  · rw [a3, a10]; exact hI.trailVars
  · intro cr2 hcr2 l hl2
    rw [a10]
    rcases (hrefs cr2).mp hcr2 with hold | hnew
    · rw [hca_old cr2 (Nat.ne_of_lt (hI.caBound cr2 hold))] at hl2
      exact hI.clauseVars cr2 hold l hl2
    · subst hnew
      rw [hca_new] at hl2
      exact hvars l hl2
  · intro q w hw l hl2
    rw [a10]
    rcases (mW q w).mp hw with hw | ⟨_, hw⟩
    · rw [hca_old _ (Nat.ne_of_lt (hI.watcherRefs q w hw))] at hl2
      exact hI.watcherVars q w hw l hl2
    · have hcr : w.cref = s.caSize := by
        rcases hw with ⟨_, e⟩ | ⟨_, e⟩ <;> rw [e]
      rw [hcr, hca_new] at hl2
      exact hvars l hl2
  · intro q w hw
    rw [a10]
    rcases (mB q w).mp hw with hw | ⟨_, ⟨_, e⟩ | ⟨_, e⟩⟩
    · exact hI.binVars q w hw
    · rw [e]; exact hvars c1 hc1
    · rw [e]; exact hvars c0 hc0
  · intro q w hw
    rw [a9]
    rcases (mW q w).mp hw with hw | ⟨_, ⟨_, e⟩ | ⟨_, e⟩⟩
    · exact Nat.lt_succ_of_lt (hI.watcherRefs q w hw)
    · rw [e]; exact Nat.lt_succ_self _
    · rw [e]; exact Nat.lt_succ_self _
  · unfold QueueFrom Solver.level Solver.decisionLevel at *
    rw [a11, a2, a3, a4]
    exact hQ
  · rw [a4, a11]; exact hLim
  · rw [a3, a11]; exact hqle

end Glucose


namespace Glucose

/-! ## The states of the search loop satisfy the invariant -/

/-- The function `addClause_` on literals of created variables keeps the invariant,
when it leaves `ok` set. -/
theorem addClause_rinv {s s1 : Solver} {ps : List Lit} {b : Bool} (h : RInv s)
    (hv : ∀ l ∈ ps, l.var < s.nVars) (ha : addClause_ s ps = some (b, s1))
    (hok : s1.ok = true) : RInv s1 := by
  unfold addClause_ at ha
  split at ha
  · simp at ha
  · split at ha
    · simp only [Option.some.injEq, Prod.mk.injEq] at ha
      rw [← ha.2]
      exact h
    · cases hloop : addClauseLoop s (sortLits ps) none [] with
      | none =>
        rw [hloop] at ha
        simp only [Option.some.injEq, Prod.mk.injEq] at ha
        rw [← ha.2]
        exact h
      | some out =>
        rw [hloop] at ha
        obtain ⟨hnd, hu, hmem⟩ := addClauseLoop_kept hloop
        match out, hnd, hu, hmem, ha with
        | [], _, _, _, ha =>
          simp only [Option.some.injEq, Prod.mk.injEq] at ha
          rw [← ha.2] at hok
          simp at hok
        | [l], _, hu, hmem, ha =>
          dsimp only at ha
          cases he : uncheckedEnqueue s l none with
          | none => rw [he] at ha; simp at ha
          | some s2 =>
            rw [he] at ha
            dsimp only at ha
            cases hp : propagate s2 with
            | none => rw [hp] at ha; simp at ha
            | some r =>
              obtain ⟨confl, s3⟩ := r
              rw [hp] at ha
              simp only [Option.some.injEq, Prod.mk.injEq] at ha
              obtain ⟨_, e⟩ := ha
              subst e
              have hc : confl = none := by simpa using hok
              subst hc
              have h2 : RInv s2 := enqueue_rinv h (hv l (hmem l (by simp))) he
              have h3 := (propagate_rinv h2 hp).1
              exact h3.rinv_of_fields rfl rfl rfl rfl rfl rfl rfl rfl rfl rfl rfl rfl rfl
        | c0 :: c1 :: rest, hnd, hu, hmem, ha =>
          dsimp only at ha
          cases hat : attachClause
              { s with ca := Function.update s.ca s.caSize (Clause.alloc (c0 :: c1 :: rest) false),
                       caSize := s.caSize + 1,
                       clauses := s.clauses ++ [s.caSize] } s.caSize with
          | none => rw [hat] at ha; simp at ha
          | some s2 =>
            rw [hat] at ha
            simp only [Option.some.injEq, Prod.mk.injEq] at ha
            rw [← ha.2]
            exact attach_new_rinv h hnd hu (fun x hx => hv x (hmem x hx)) hat

/-- Every state of the search loop satisfies the invariant. -/
theorem Reach.rinv {s : Solver} (h : Reach s) : RInv s := by
  induction h with
  | fresh => exact init_rinv
  | newVar s sign dvar _ ih => exact newVar_rinv sign dvar ih
  | addClause s s1 ps b _ hv ha hok ih => exact addClause_rinv ih hv ha hok
  | decide s s1 p _ hq hp he ih => exact decide_rinv ih hq hp he
  | cancel s k _ ih => exact cancelUntil_rinv k ih
  | propagate s s1 _ hp ih => exact (propagate_rinv ih hp).1
  | conflict s s1 cr k _ hp hk ih =>
    obtain ⟨k1, k2, k3, k4, k5⟩ := propagate_inv hp ih.inv ih.queue ih.qle
    have hext := propagate_ext hp
    refine cancelUntil_inv k1 ?_ hk
    intro b hb
    have hb2 : b ∈ s.trail_lim := by
      rw [← hext.trail_lim]
      exact hb
    exact ih.lims b hb2

/-- In a state of the search loop, a `propagate` that returns no conflict leaves every
attached clause neither falsified nor unit, with watched literals not both false. -/
theorem Reach.propagate_complete {s s1 : Solver} (h : Reach s)
    (hp : Glucose.propagate s = some (none, s1)) :
    ∀ cr ∈ s1.attachedRefs, ClauseComplete s1 cr := by
  obtain ⟨h1, h2⟩ := propagate_rinv h.rinv hp
  intro cr hcr
  exact h1.inv.complete h2 hcr

end Glucose


namespace Glucose

/-! ## The stamping loop of `computeLBD` counts the levels not yet stamped -/

/-- The stamping loop adds to the counter the number of levels of the visited literals
that do not carry the stamp yet. -/
theorem lbdLoop_count (s : Solver) (flag : Nat) :
    ∀ (ls : List Lit) (pd : Nat → Nat) (n : Nat) (S : Finset Nat),
      (∀ x, pd x = flag ↔ x ∈ S) →
      (lbdLoop s flag ls pd n).2 =
        n + ((ls.map (fun l => s.level l.var)).toFinset \ S).card := by
  intro ls
  induction ls with
  | nil => intro pd n S _; simp [lbdLoop]
  | cons l ls ih =>
    intro pd n S hS
    by_cases h : pd (s.level l.var) = flag
    · have hm : s.level l.var ∈ S := (hS _).mp h
      rw [lbdLoop, if_neg (by simpa using h), ih pd n S hS]
      congr 2
      ext x
      simp only [List.map_cons, List.toFinset_cons, Finset.mem_sdiff, Finset.mem_insert]
      constructor
      · rintro ⟨h1, h2⟩; exact ⟨Or.inr h1, h2⟩
      · rintro ⟨h1 | h1, h2⟩
        · subst h1; exact absurd hm h2
        · exact ⟨h1, h2⟩
    · have hm : s.level l.var ∉ S := fun hm => h ((hS _).mpr hm)
      rw [lbdLoop, if_pos h,
        ih (Function.update pd (s.level l.var) flag) (n + 1) (insert (s.level l.var) S)]
      · have e : (List.map (fun l => s.level l.var) (l :: ls)).toFinset \ S =
            insert (s.level l.var)
              ((List.map (fun l => s.level l.var) ls).toFinset \ insert (s.level l.var) S) := by
          ext x
          simp only [List.map_cons, List.toFinset_cons, Finset.mem_sdiff, Finset.mem_insert,
            not_or]
          constructor
          · rintro ⟨h1 | h1, h2⟩
            · exact Or.inl h1
            · by_cases e : x = s.level l.var
              · exact Or.inl e
              · exact Or.inr ⟨h1, e, h2⟩
          · rintro (h1 | ⟨h1, h2, h3⟩)
            · subst h1; exact ⟨Or.inl rfl, hm⟩
            · exact ⟨Or.inr h1, h3⟩
        rw [e, Finset.card_insert_of_not_mem (by simp)]
        omega
      · intro x
        by_cases e : x = s.level l.var
        · subst e; simp
        · rw [Function.update_noteq e]
          simp only [Finset.mem_insert, e, false_or]
          exact hS x

/-- In the default mode with `reduceOnSize` off and no stamp above `MYFLAG`, the common
body of `computeLBD` returns the number of distinct levels. -/
theorem computeLBDCore_default (s : Solver) (lits : List Lit) (bound : Int)
    (hinc : s.opts.incremental = false) (hred : s.opts.reduceOnSize = false)
    (hpd : ∀ x, s.permDiff x ≤ s.MYFLAG) :
    (computeLBDCore s lits bound).1 = (lits.map (fun l => s.level l.var)).toFinset.card := by
  have h := lbdLoop_count s (s.MYFLAG + 1) lits s.permDiff 0 ∅ (by
    intro x
    have := hpd x
    simp only [Finset.not_mem_empty, iff_false]
    omega)
  simp only [computeLBDCore, hinc, hred, if_true, Bool.false_eq_true, if_false]
  rw [h]
  simp

end Glucose


namespace Glucose

/-! ## The effect of `cancelUntil` -/

/-- The fields of the state after `cancelUntil(k)` for a level below the current one. -/
theorem cancelUntil_fields (s : Solver) (k : Nat) (hk : k < s.decisionLevel) :
    (cancelUntil s k).trail = s.trail.take (s.trail_lim.getD k 0) ∧
    (cancelUntil s k).qhead = s.trail_lim.getD k 0 ∧
    (cancelUntil s k).trail_lim = s.trail_lim.take k ∧
    (cancelUntil s k).vardata = s.vardata ∧
    (∀ v, (v ∈ (s.trail.drop (s.trail_lim.getD k 0)).map Lit.var →
        (cancelUntil s k).assigns v = lbool.l_Undef) ∧
      (v ∉ (s.trail.drop (s.trail_lim.getD k 0)).map Lit.var →
        (cancelUntil s k).assigns v = s.assigns v)) := by
  obtain ⟨c1, c2, c3, c4, _⟩ :=
    cancelLoop_fields (s.trail_lim.getLastD 0)
      (((s.trail.enum).drop (s.trail_lim.getD k 0)).reverse) s
  unfold cancelUntil
  rw [if_pos hk]
  dsimp only
  refine ⟨by rw [c3], rfl, by rw [c4], c2, ?_⟩
  intro v
  constructor
  · intro hv
    exact (c1 v).1 ((removed_vars _ _ _).mpr hv)
  · intro hv
    exact (c1 v).2 (fun h => hv ((removed_vars _ _ _).mp h))

/-- A call of `cancelUntil` for a level that is not below the current one changes
nothing. -/
theorem cancelUntil_of_le (s : Solver) (k : Nat) (hk : s.decisionLevel ≤ k) :
    cancelUntil s k = s := by
  unfold cancelUntil
  rw [if_neg (by omega)]

/-- The level after `cancelUntil(k)` is at most `k`. -/
theorem cancelUntil_decisionLevel (s : Solver) (k : Nat) (hk : k < s.decisionLevel) :
    (cancelUntil s k).decisionLevel = k := by
  have h := (cancelUntil_fields s k hk).2.2.1
  unfold Solver.decisionLevel at hk ⊢
  rw [h, List.length_take]
  omega

/-- A variable of the kept prefix of a trail without repeated variables is not among
the removed ones. -/
theorem not_removed_of_kept {trail : List Lit} {lim : Nat} {l : Lit}
    (hnd : (trail.map Lit.var).Nodup) (hl : l ∈ trail.take lim) :
    l.var ∉ (trail.drop lim).map Lit.var := by
  rw [← List.take_append_drop lim trail, List.map_append] at hnd
  have hd := (List.nodup_append.mp hnd).2.2
  intro h
  exact hd (List.mem_map_of_mem Lit.var hl) h

/-- With an empty propagation queue `propagate` returns no conflict and leaves the
trail, the assignment and the queue head as they are. -/
theorem propagate_of_empty_queue (s : Solver) (h : s.trail.length ≤ s.qhead) :
    ∃ s1, propagate s = some (none, s1) ∧ s1.trail = s.trail ∧ s1.assigns = s.assigns ∧
      s1.qhead = s.qhead ∧ s1.trail_lim = s.trail_lim ∧ s1.ok = s.ok ∧
      s1.clauses = s.clauses := by
  have e : propagate s = some (none,
      { s.cleanAllWatches with
        stats := { s.cleanAllWatches.stats with
          propagations := s.cleanAllWatches.stats.propagations + 0 },
        simpDB_props := s.cleanAllWatches.simpDB_props - (0 : Nat) }) := by
    unfold propagate
    rw [propagateLoop, if_neg (by simp only [Solver.cleanAllWatches]; omega)]
  exact ⟨_, e, rfl, rfl, rfl, rfl, rfl, rfl⟩

/-- A second `cancelUntil(k)` changes nothing. -/
theorem cancelUntil_idem (s : Solver) (k : Nat) :
    cancelUntil (cancelUntil s k) k = cancelUntil s k := by
  by_cases hk : k < s.decisionLevel
  · exact cancelUntil_of_le _ k (le_of_eq (cancelUntil_decisionLevel s k hk))
  · rw [cancelUntil_of_le s k (by omega), cancelUntil_of_le s k (by omega)]

end Glucose


namespace Glucose

/-! ## The simplification loop of `addClause_` -/

/-- On literals none of which is true and no two of which are complementary, the
simplification loop runs to the end, and keeps exactly the literals that are not
false. -/
theorem addClauseLoop_total {s : Solver} :
    ∀ (ls : List Lit) (p : Option Lit) (out : List Lit),
      (∀ x ∈ ls, s.value x ≠ lbool.l_True) →
      (∀ x ∈ ls, ∀ y ∈ ls, y ≠ x.neg) →
      (∀ q, p = some q → q ∈ out ∧ ∀ x ∈ ls, x ≠ q.neg) →
      ∃ res, addClauseLoop s ls p out = some res ∧
        ∀ x, x ∈ res ↔ x ∈ out ∨ (x ∈ ls ∧ s.value x ≠ lbool.l_False) := by
  intro ls
  induction ls with
  | nil =>
    intro p out _ _ _
    exact ⟨out, rfl, by simp⟩
  | cons l ls ih =>
    intro p out hnt hnc hp
    have h1 : ¬ (s.value l = lbool.l_True ∨ some l = p.map Lit.neg) := by
      rintro (h | h)
      · exact hnt l (List.mem_cons_self _ _) h
      · match p, hp, h with
        | some q, hp, h =>
          simp only [Option.map_some', Option.some.injEq] at h
          exact (hp q rfl).2 l (List.mem_cons_self _ _) h
    rw [addClauseLoop, if_neg h1]
    have hnt2 : ∀ x ∈ ls, s.value x ≠ lbool.l_True :=
      fun x hx => hnt x (List.mem_cons_of_mem _ hx)
    have hnc2 : ∀ x ∈ ls, ∀ y ∈ ls, y ≠ x.neg :=
      fun x hx y hy => hnc x (List.mem_cons_of_mem _ hx) y (List.mem_cons_of_mem _ hy)
    by_cases h2 : s.value l ≠ lbool.l_False ∧ some l ≠ p
    · rw [if_pos h2]
      obtain ⟨res, hr, hm⟩ := ih (some l) (out ++ [l]) hnt2 hnc2 (by
        intro q hq
        simp only [Option.some.injEq] at hq
        subst hq
        exact ⟨by simp, fun x hx =>
          hnc l (List.mem_cons_self _ _) x (List.mem_cons_of_mem _ hx)⟩)
      refine ⟨res, hr, fun x => ?_⟩
      rw [hm x]
      simp only [List.mem_append, List.mem_singleton, List.mem_cons, List.not_mem_nil,
        or_false]
      constructor
      · rintro ((h | h) | h)
        · exact Or.inl h
        · subst h; exact Or.inr ⟨Or.inl rfl, h2.1⟩
        · exact Or.inr ⟨Or.inr h.1, h.2⟩
      · rintro (h | ⟨h | h, h3⟩)
        · exact Or.inl (Or.inl h)
        · exact Or.inl (Or.inr h)
        · exact Or.inr ⟨h, h3⟩
    · rw [if_neg h2]
      obtain ⟨res, hr, hm⟩ := ih p out hnt2 hnc2 (by
        intro q hq
        exact ⟨(hp q hq).1, fun x hx => (hp q hq).2 x (List.mem_cons_of_mem _ hx)⟩)
      refine ⟨res, hr, fun x => ?_⟩
      rw [hm x]
      simp only [List.mem_cons]
      constructor
      · rintro (h | h)
        · exact Or.inl h
        · exact Or.inr ⟨Or.inr h.1, h.2⟩
      · rintro (h | ⟨h | h, h3⟩)
        · exact Or.inl h
        · subst h
          have : some x = p := by
            by_contra hne
            exact h2 ⟨h3, hne⟩
          exact Or.inl (hp x this.symm).1
        · exact Or.inr ⟨h, h3⟩

theorem mem_sortLits_iff {ps : List Lit} {x : Lit} : x ∈ sortLits ps ↔ x ∈ ps :=
  (List.perm_insertionSort _ ps).mem_iff

/-- On an input without a true literal and without a complementary pair, `addClause_`
keeps the literals that are not false, in strictly increasing order. -/
theorem addClauseLoop_sorted_filter {s : Solver} {ps : List Lit}
    (hnt : ∀ x ∈ ps, s.value x ≠ lbool.l_True) (hnc : ∀ x ∈ ps, x.neg ∉ ps) :
    ∃ res, addClauseLoop s (sortLits ps) none [] = some res ∧
      res.Pairwise (fun a b => a.toInt < b.toInt) ∧
      ∀ x, x ∈ res ↔ x ∈ ps ∧ s.value x ≠ lbool.l_False := by
  obtain ⟨res, hr, hm⟩ := addClauseLoop_total (s := s) (sortLits ps) none []
    (fun x hx => hnt x (mem_sortLits hx))
    (fun x hx y hy e => hnc x (mem_sortLits hx) (e ▸ mem_sortLits hy))
    (by simp)
  obtain ⟨r1, _, _⟩ := addClauseLoop_spec hr (sortLits_sorted ps) (by simp) (by simp)
    (by simp) (by simp)
  refine ⟨res, hr, r1, fun x => ?_⟩
  rw [hm x, mem_sortLits_iff]
  simp

/-- The loop stops with `return true` as soon as it meets a true literal. -/
theorem addClauseLoop_none_of_true {s : Solver} :
    ∀ (ls : List Lit) (p : Option Lit) (out : List Lit),
      (∃ x ∈ ls, s.value x = lbool.l_True) →
      (∀ res, addClauseLoop s ls p out = some res → False) := by
  intro ls
  induction ls with
  | nil => intro p out h; simp at h
  | cons l ls ih =>
    intro p out h res hres
    rw [addClauseLoop] at hres
    split at hres
    · simp at hres
    · next h1 =>
      have hl : s.value l ≠ lbool.l_True := fun e => h1 (Or.inl e)
      have h2 : ∃ x ∈ ls, s.value x = lbool.l_True := by
        obtain ⟨x, hx, hv⟩ := h
        rcases List.mem_cons.mp hx with rfl | hx
        · exact absurd hv hl
        · exact ⟨x, hx, hv⟩
      split at hres
      · exact ih _ _ h2 res hres
      · exact ih _ _ h2 res hres

/-- The loop returns `none` (`return true`) whenever it does not run to the end. -/
theorem addClauseLoop_none_of_not_some {s : Solver} {ls : List Lit} {p : Option Lit}
    {out : List Lit} (h : ∀ res, addClauseLoop s ls p out = some res → False) :
    addClauseLoop s ls p out = none := by
  cases e : addClauseLoop s ls p out with
  | none => rfl
  | some res => exact absurd e (fun e => h res e)

theorem Lit.toInt_neg_of_pos {a : Lit} (ha : a.sign = false) : a.neg.toInt = a.toInt + 1 := by
  obtain ⟨v, sg⟩ := a
  simp only at ha
  subst ha
  simp [Lit.neg, Lit.toInt]

/-- On a sorted literal list that holds the negative literal `¬a` of a variable whose
positive literal `a` is still to come, was the last literal kept, or is false, the loop
stops with `return true`. -/
theorem addClauseLoop_none_of_compl {s : Solver} {a : Lit} (ha : a.sign = false) :
    ∀ (ls : List Lit) (p : Option Lit) (out : List Lit),
      ls.Pairwise (fun x y => x.toInt ≤ y.toInt) → a.neg ∈ ls →
      (a ∈ ls ∨ s.value a.neg = lbool.l_True ∨
        (p = some a ∧ ∀ x ∈ ls, a.toInt ≤ x.toInt)) →
      addClauseLoop s ls p out = none := by
  have hb := Lit.toInt_neg_of_pos ha
  intro ls
  induction ls with
  | nil => intro p out _ h; simp at h
  | cons l ls ih =>
    intro p out hs hmem hc
    rw [addClauseLoop]
    by_cases h1 : s.value l = lbool.l_True ∨ some l = p.map Lit.neg
    · rw [if_pos h1]
    · rw [if_neg h1]
      have hs2 : ls.Pairwise (fun x y => x.toInt ≤ y.toInt) := (List.pairwise_cons.mp hs).2
      have hhead : ∀ x ∈ ls, l.toInt ≤ x.toInt := (List.pairwise_cons.mp hs).1
      have hlb : l ≠ a.neg := by
        intro e
        subst e
        rcases hc with h | h | ⟨h, _⟩
        · rcases List.mem_cons.mp h with h | h
          · exact Lit.neg_ne a h.symm
          · have := hhead a h
            omega
        · exact h1 (Or.inl h)
        · exact h1 (Or.inr (by rw [h]; rfl))
      have hmem2 : a.neg ∈ ls := by
        rcases List.mem_cons.mp hmem with h | h
        · exact absurd h.symm hlb
        · exact h
      have key : ∀ p2 out2, (s.value l ≠ lbool.l_False ∧ some l ≠ p → p2 = some l) →
          (¬ (s.value l ≠ lbool.l_False ∧ some l ≠ p) → p2 = p) →
          addClauseLoop s ls p2 out2 = none := by
        intro p2 out2 hk1 hk2
        apply ih p2 out2 hs2 hmem2
        have hla : l = a → a ∈ ls ∨ s.value a.neg = lbool.l_True ∨
            (p2 = some a ∧ ∀ x ∈ ls, a.toInt ≤ x.toInt) := by
          intro e
          subst e
          by_cases hf : s.value l = lbool.l_False
          · exact Or.inr (Or.inl (value_neg_true.mpr hf))
          · right; right
            refine ⟨?_, hhead⟩
            by_cases hp : some l = p
            · rw [hk2 (fun h => h.2 hp), hp]
            · exact hk1 ⟨hf, hp⟩
        rcases hc with h | h | ⟨h, hge⟩
        · rcases List.mem_cons.mp h with h | h
          · exact hla h.symm
          · exact Or.inl h
        · exact Or.inr (Or.inl h)
        · have h3 : a.toInt ≤ l.toInt := hge l (List.mem_cons_self _ _)
          have h4 : l.toInt ≤ a.neg.toInt := hhead _ hmem2
          have h5 : l.toInt ≠ a.neg.toInt := fun e => hlb (Lit.toInt_inj e)
          exact hla (Lit.toInt_inj (by omega))
      by_cases h2 : s.value l ≠ lbool.l_False ∧ some l ≠ p
      · rw [if_pos h2]
        exact key _ _ (fun _ => rfl) (fun h => absurd h2 h)
      · rw [if_neg h2]
        exact key _ _ (fun h => absurd h h2) (fun _ => rfl)

/-- On an input with a true literal or with a complementary pair, the simplification
loop of `addClause_` stops with `return true`. -/
theorem addClauseLoop_none_of_sat_or_taut {s : Solver} {ps : List Lit}
    (h : (∃ x ∈ ps, s.value x = lbool.l_True) ∨ (∃ x ∈ ps, x.neg ∈ ps)) :
    addClauseLoop s (sortLits ps) none [] = none := by
  rcases h with ⟨x, hx, hv⟩ | ⟨x, hx, hn⟩
  · exact addClauseLoop_none_of_not_some
      (addClauseLoop_none_of_true _ _ _ ⟨x, mem_sortLits_iff.mpr hx, hv⟩)
  · by_cases hsg : x.sign = false
    · exact addClauseLoop_none_of_compl hsg _ _ _ (sortLits_sorted ps)
        (mem_sortLits_iff.mpr hn) (Or.inl (mem_sortLits_iff.mpr hx))
    · have hsg2 : x.neg.sign = false := by
        obtain ⟨v, sg⟩ := x
        cases sg <;> simp_all [Lit.neg]
      exact addClauseLoop_none_of_compl hsg2 _ _ _ (sortLits_sorted ps)
        (by rw [Lit.neg_neg]; exact mem_sortLits_iff.mpr hx)
        (Or.inl (mem_sortLits_iff.mpr hn))

/-- On an input with neither a true literal nor a complementary pair and with two
different literals that are not false, `addClause_` allocates the clause of the kept
literals, appends it to `clauses` and attaches it through its first two literals. -/
theorem addClause_long {s : Solver} {ps : List Lit}
    (hlev : s.decisionLevel = 0) (hok : s.ok = true)
    (hnt : ∀ x ∈ ps, s.value x ≠ lbool.l_True) (hnc : ∀ x ∈ ps, x.neg ∉ ps)
    (h2 : ∃ a ∈ ps, ∃ b ∈ ps, a ≠ b ∧ s.value a ≠ lbool.l_False ∧
      s.value b ≠ lbool.l_False) :
    ∃ s1 c0 c1 rest, addClause_ s ps = some (true, s1) ∧
      s1.clauses = s.clauses ++ [s.caSize] ∧
      (s1.ca s.caSize).lits = c0 :: c1 :: rest ∧
      (c0 :: c1 :: rest).Pairwise (fun a b => a.toInt < b.toInt) ∧
      (∀ x, x ∈ c0 :: c1 :: rest ↔ x ∈ ps ∧ s.value x ≠ lbool.l_False) ∧
      (∀ q w, w ∈ s1.watches.occs q ↔ w ∈ s.watches.occs q ∨
        (rest ≠ [] ∧ ((q = c0.neg ∧ w = ⟨s.caSize, c1⟩) ∨
          (q = c1.neg ∧ w = ⟨s.caSize, c0⟩)))) ∧
      (∀ q w, w ∈ s1.watchesBin.occs q ↔ w ∈ s.watchesBin.occs q ∨
        (rest = [] ∧ ((q = c0.neg ∧ w = ⟨s.caSize, c1⟩) ∨
          (q = c1.neg ∧ w = ⟨s.caSize, c0⟩)))) ∧
      s1.ok = true ∧ s1.trail = s.trail ∧ s1.assigns = s.assigns := by
  obtain ⟨res, hr, hsorted, hm⟩ := addClauseLoop_sorted_filter hnt hnc
  obtain ⟨a, ha, b, hb, hab, hva, hvb⟩ := h2
  have hma : a ∈ res := (hm a).mpr ⟨ha, hva⟩
  have hmb : b ∈ res := (hm b).mpr ⟨hb, hvb⟩
  obtain ⟨c0, c1, rest, hres⟩ : ∃ c0 c1 rest, res = c0 :: c1 :: rest := by
    match res, hma, hmb with
    | [], hma, _ => simp at hma
    | [l], hma, hmb =>
      simp only [List.mem_singleton] at hma hmb
      exact absurd (hma.trans hmb.symm) hab
    | c0 :: c1 :: rest, _, _ => exact ⟨c0, c1, rest, rfl⟩
  subst hres
  have hatt : ∃ t, attachClause
      { s with ca := Function.update s.ca s.caSize (Clause.alloc (c0 :: c1 :: rest) false),
               caSize := s.caSize + 1,
               clauses := s.clauses ++ [s.caSize] } s.caSize = some t := by
    unfold attachClause
    simp only [Function.update_same, Clause.alloc]
    exact ⟨_, rfl⟩
  obtain ⟨t, ht⟩ := hatt
  have hadd : addClause_ s ps = some (true, t) := by
    unfold addClause_
    rw [if_neg (by simp [hlev]), if_neg (by simp [hok]), hr]
    simp only [ht]
  obtain ⟨d0, d1, drest, hl, a1, _, a3, _, a5, a6, _, _, _, _, _, mW, mB⟩ := attachClause_mem ht
  dsimp only at hl a1 a3 a5 a6 mW mB
  rw [Function.update_same] at hl
  simp only [Clause.alloc, List.cons.injEq] at hl
  obtain ⟨e0, e1, e2⟩ := hl
  subst e0 e1 e2
  have hokt : t.ok = true := by
    have ht2 := ht
    unfold attachClause at ht2
    simp only [Function.update_same, Clause.alloc, Bool.false_eq_true, if_false,
      Option.some.injEq] at ht2
    rw [← ht2]
    dsimp only
    split <;> exact hok
  refine ⟨t, c0, c1, rest, hadd, a6, ?_, hsorted, hm, mW, mB, hokt, a3, a1⟩
  rw [a5, Function.update_same]; rfl

end Glucose


namespace Glucose

/-! ## `reduceDB` keeps the locked clauses -/

theorem RedFrame.red_refl (keep : Nat → Prop) (s : Solver) : RedFrame keep s s :=
  ⟨rfl, rfl, fun _ => rfl, fun _ _ => rfl⟩

theorem RedFrame.red_trans {keep : Nat → Prop} {s t u : Solver} (h1 : RedFrame keep s t)
    (h2 : RedFrame keep t u) : RedFrame keep s u :=
  ⟨h2.assigns.trans h1.assigns, h2.vardata.trans h1.vardata,
    fun x => (h2.lits x).trans (h1.lits x), fun x hx => (h2.mark x hx).trans (h1.mark x hx)⟩

/-- The test `locked` reads the literals of the clause, the assignment and the
reasons only. -/
theorem RedFrame.locked {keep : Nat → Prop} {s t : Solver} (h : RedFrame keep s t)
    (cr : Nat) : t.locked cr = s.locked cr := by
  unfold Solver.locked Solver.value Solver.reason
  rw [h.lits cr, h.assigns, h.vardata]

/-- Lazy detaching changes watch maps and counters only. -/
theorem detachClause_lazy {s : Solver} {cr : Nat} (hsz : 2 ≤ (s.ca cr).lits.length) :
    ∃ t, detachClause s cr false = some t ∧ t.assigns = s.assigns ∧
      t.vardata = s.vardata ∧ t.ca = s.ca ∧ t.learnts = s.learnts ∧
      t.clauses = s.clauses ∧ t.trail = s.trail ∧ t.ok = s.ok := by
  unfold detachClause
  match hl : (s.ca cr).lits, hsz with
  | c0 :: c1 :: rest, _ =>
    simp only [hl, Bool.false_eq_true, if_false]
    by_cases hr : rest = [] <;> by_cases hc : (s.ca cr).learnt = true <;>
      simp only [hr, hc, if_true, if_false, Bool.false_eq_true] <;>
      exact ⟨_, rfl, rfl, rfl, rfl, rfl, rfl, rfl, rfl⟩

/-- Removing a clause that is not locked and has two literals or more succeeds and
changes, besides watch maps and counters, the deletion mark of this clause only. -/
theorem removeClause_unlocked {s : Solver} {cr : Nat}
    (hsz : 2 ≤ (s.ca cr).lits.length) (hl : s.locked cr = false) :
    ∃ t, removeClause s cr false = some t ∧ t.assigns = s.assigns ∧
      t.vardata = s.vardata ∧ (∀ x, (t.ca x).lits = (s.ca x).lits) ∧
      (∀ x, x ≠ cr → t.ca x = s.ca x) ∧ t.learnts = s.learnts ∧
      t.clauses = s.clauses ∧ t.trail = s.trail ∧ t.ok = s.ok := by
  obtain ⟨t, ht, e1, e2, e3, e4, e5, e6, e7⟩ := @detachClause_lazy s cr hsz
  have hlt : t.locked cr = false := by
    unfold Solver.locked Solver.value Solver.reason at hl ⊢
    rw [e3, e1, e2]
    exact hl
  unfold removeClause
  simp only [Bool.false_eq_true, if_false, ht, hlt]
  refine ⟨_, rfl, e1, e2, ?_, ?_, e4, e5, e6, e7⟩
  · intro x
    dsimp only
    by_cases e : x = cr
    · subst e
      rw [Function.update_same, e3]
    · rw [Function.update_noteq e, e3]
  · intro x e
    dsimp only
    rw [Function.update_noteq e, e3]

/-- The loop of `reduceDB` runs to the end on clauses that are not locked whenever
they have fewer than three literals... and keeps every clause that is locked. -/
theorem reduceDBLoop_locked (s : Solver) :
    ∀ (sorted : List Nat) (i limit : Nat) (kept : List Nat) (t : Solver),
      RedFrame (fun x => s.locked x = true) s t →
      ∃ kept1 t1, reduceDBLoop sorted i limit kept t = some (kept1, t1) ∧
        RedFrame (fun x => s.locked x = true) s t1 ∧
        (∀ cr ∈ kept, cr ∈ kept1) ∧
        (∀ cr ∈ sorted, s.locked cr = true → cr ∈ kept1) ∧
        (∀ cr ∈ kept1, cr ∈ kept ∨ cr ∈ sorted) ∧
        t1.trail = t.trail ∧ t1.clauses = t.clauses ∧ t1.ok = t.ok := by
  intro sorted
  induction sorted with
  | nil =>
    intro i limit kept t hF
    exact ⟨kept, t, rfl, hF, fun _ h => h, by simp, fun _ h => Or.inl h, rfl, rfl, rfl⟩
  | cons cr rest ih =>
    intro i limit kept t hF
    rw [reduceDBLoop]
    dsimp only
    split
    · next hc =>
      obtain ⟨_, hsz, _, hlk, _⟩ := hc
      have hsz2 : 2 ≤ (t.ca cr).lits.length := by
        unfold Clause.size at hsz
        omega
      obtain ⟨t1, ht1, e1, e2, e3, e4, _, e6, e5, e7⟩ := removeClause_unlocked hsz2 hlk
      rw [ht1]
      dsimp only
      have hslk : s.locked cr = false := by rw [← hF.locked cr]; exact hlk
      have hF1 : RedFrame (fun x => s.locked x = true) s
          { t1 with stats := { t1.stats with
              nbRemovedClauses := t1.stats.nbRemovedClauses + 1 } } := by
        refine ⟨e1.trans hF.assigns, e2.trans hF.vardata,
          fun x => (e3 x).trans (hF.lits x), ?_⟩
        intro x hx
        have hne : x ≠ cr := by
          rintro rfl
          rw [hslk] at hx
          exact absurd hx (by simp)
        show (t1.ca x).mark = (s.ca x).mark
        rw [e4 x hne]
        exact hF.mark x hx
      obtain ⟨kept1, t2, h1, h2, h3, h4, h5, h6, h7, h8⟩ := ih (i + 1) limit kept _ hF1
      refine ⟨kept1, t2, h1, h2, h3, ?_, ?_, h6.trans e5, h7.trans e6, h8.trans e7⟩
      · intro x hx hlx
        rcases List.mem_cons.mp hx with rfl | hx
        · rw [hslk] at hlx
          exact absurd hlx (by simp)
        · exact h4 x hx hlx
      · intro x hx
        rcases h5 x hx with h | h
        · exact Or.inl h
        · exact Or.inr (List.mem_cons_of_mem _ h)
    · have hF1 : RedFrame (fun x => s.locked x = true) s
          { t with ca := Function.update t.ca cr { t.ca cr with canBeDel := true } } := by
        refine ⟨hF.assigns, hF.vardata, ?_, ?_⟩
        · intro x
          dsimp only
          by_cases e : x = cr
          · subst e; rw [Function.update_same]; exact hF.lits x
          · rw [Function.update_noteq e]; exact hF.lits x
        · intro x hx
          dsimp only
          by_cases e : x = cr
          · subst e; rw [Function.update_same]; exact hF.mark x hx
          · rw [Function.update_noteq e]; exact hF.mark x hx
      obtain ⟨kept1, t2, h1, h2, h3, h4, h5, h6, h7, h8⟩ :=
        ih (i + 1) (if (t.ca cr).canBeDel = false then limit + 1 else limit)
          (kept ++ [cr]) _ hF1
      refine ⟨kept1, t2, h1, h2, fun x hx => h3 x (List.mem_append_left _ hx), ?_, ?_,
        h6, h7, h8⟩
      · intro x hx hlx
        rcases List.mem_cons.mp hx with rfl | hx
        · exact h3 x (by simp)
        · exact h4 x hx hlx
      · intro x hx
        rcases h5 x hx with h | h
        · rcases List.mem_append.mp h with h | h
          · exact Or.inl h
          · right
            simp only [List.mem_singleton] at h
            subst h
            exact List.mem_cons_self _ _
        · exact Or.inr (List.mem_cons_of_mem _ h)

theorem mem_sortLearnts {o : Oracle} {s : Solver} {x : Nat} :
    x ∈ sortLearnts o s ↔ x ∈ s.learnts :=
  (List.perm_insertionSort _ s.learnts).mem_iff

/-- The function `reduceDB` returns on a non-empty list of learnt clauses and keeps
every locked clause in `learnts`, with its literals and its deletion mark. -/
theorem reduceDB_locked (o : Oracle) (s : Solver) (hne : s.learnts ≠ []) :
    ∃ s1, reduceDB o s = some s1 ∧
      RedFrame (fun x => s.locked x = true) s s1 ∧
      (∀ cr ∈ s.learnts, s.locked cr = true → cr ∈ s1.learnts) ∧
      (∀ cr ∈ s1.learnts, cr ∈ s.learnts) ∧
      s1.trail = s.trail ∧ s1.clauses = s.clauses ∧ s1.ok = s.ok := by
  have hsne : sortLearnts o { s with stats := { s.stats with
      nbReduceDB := s.stats.nbReduceDB + 1 } } ≠ [] := by
    intro h
    obtain ⟨x, hx⟩ := List.exists_mem_of_ne_nil _ hne
    have : x ∈ sortLearnts o { s with stats := { s.stats with
        nbReduceDB := s.stats.nbReduceDB + 1 } } := mem_sortLearnts.mpr hx
    rw [h] at this
    simp at this
  unfold reduceDB
  dsimp only
  generalize hsd : sortLearnts o { s with stats := { s.stats with
      nbReduceDB := s.stats.nbReduceDB + 1 } } = sorted at hsne
  have hmem : ∀ x, x ∈ sorted ↔ x ∈ s.learnts := by
    intro x
    rw [← hsd]
    exact mem_sortLearnts
  have hlen : 0 < sorted.length := List.length_pos.mpr hsne
  have hmid : sorted.length / RATIOREMOVECLAUSES < sorted.length := by
    unfold RATIOREMOVECLAUSES
    omega
  obtain ⟨mid, hm⟩ : ∃ mid, sorted.get? (sorted.length / RATIOREMOVECLAUSES) = some mid :=
    ⟨_, List.get?_eq_get hmid⟩
  obtain ⟨last, hla⟩ : ∃ last, sorted.getLast? = some last := by
    cases h : sorted.getLast? with
    | none => exact absurd (List.getLast?_eq_none_iff.mp h) hsne
    | some l => exact ⟨l, rfl⟩
  rw [hm, hla]
  dsimp only
  have key : ∀ S1 : Solver, RedFrame (fun x => s.locked x = true) s S1 →
      S1.trail = s.trail → S1.clauses = s.clauses → S1.ok = s.ok →
      ∃ s1, (match reduceDBLoop sorted 0 (sorted.length / 2) []
              (reduceDBSpecial S1 mid last) with
            | none => none
            | some (kept, s4) => some (checkGarbage o { s4 with learnts := kept }))
          = some s1 ∧
        RedFrame (fun x => s.locked x = true) s s1 ∧
        (∀ cr ∈ s.learnts, s.locked cr = true → cr ∈ s1.learnts) ∧
        (∀ cr ∈ s1.learnts, cr ∈ s.learnts) ∧
        s1.trail = s.trail ∧ s1.clauses = s.clauses ∧ s1.ok = s.ok := by
    intro S1 hF e1 e2 e3
    have hF3 : RedFrame (fun x => s.locked x = true) s (reduceDBSpecial S1 mid last) ∧
        (reduceDBSpecial S1 mid last).trail = S1.trail ∧
        (reduceDBSpecial S1 mid last).clauses = S1.clauses ∧
        (reduceDBSpecial S1 mid last).ok = S1.ok := by
      unfold reduceDBSpecial
      dsimp only
      split <;> split <;>
        exact ⟨⟨hF.assigns, hF.vardata, hF.lits, hF.mark⟩, rfl, rfl, rfl⟩
    obtain ⟨kept1, t1, h1, h2, _, h4, h5, h6, h7, h8⟩ :=
      reduceDBLoop_locked s sorted 0 (sorted.length / 2) [] _ hF3.1
    rw [h1]
    dsimp only
    have hcg : ∀ u : Solver, (checkGarbage o u).assigns = u.assigns ∧
        (checkGarbage o u).vardata = u.vardata ∧ (checkGarbage o u).ca = u.ca ∧
        (checkGarbage o u).learnts = u.learnts ∧ (checkGarbage o u).trail = u.trail ∧
        (checkGarbage o u).clauses = u.clauses ∧ (checkGarbage o u).ok = u.ok := by
      intro u
      unfold checkGarbage garbageCollect Solver.cleanAllWatches
      dsimp only
      split <;> exact ⟨rfl, rfl, rfl, rfl, rfl, rfl, rfl⟩
    obtain ⟨g1, g2, g3, g4, g5, g6, g7⟩ := hcg { t1 with learnts := kept1 }
    refine ⟨_, rfl, ⟨g1.trans h2.assigns, g2.trans h2.vardata, ?_, ?_⟩, ?_, ?_,
      ?_, ?_, ?_⟩
    · intro x; rw [g3]; exact h2.lits x
    · intro x hx; rw [g3]; exact h2.mark x hx
    · intro cr hcr hl
      rw [g4]
      exact h4 cr ((hmem cr).mpr hcr) hl
    · intro cr hcr
      rw [g4] at hcr
      rcases h5 cr hcr with h | h
      · simp at h
      · exact (hmem cr).mp h
    · rw [g5]; exact (h6.trans hF3.2.1).trans e1
    · rw [g6]; exact (h7.trans hF3.2.2.1).trans e2
    · rw [g7]; exact (h8.trans hF3.2.2.2).trans e3
  exact key _ ⟨rfl, rfl, fun _ => rfl, fun _ _ => rfl⟩ rfl rfl rfl

end Glucose


namespace Glucose

/-! ## The initialisation of the centrality heuristic changes its tables only -/

theorem readCmtys_erase : ∀ (lines : List (Int × Int)) (s s1 : Solver),
    readCmtys lines s = some s1 → s1.eraseTables = s.eraseTables := by
  intro lines
  induction lines with
  | nil => intro s s1 h; simp only [readCmtys, Option.some.injEq] at h; rw [h]
  | cons x rest ih =>
    intro s s1 h
    obtain ⟨v, c⟩ := x
    rw [readCmtys] at h
    split at h
    · exact (ih _ _ h).trans rfl
    · simp at h

theorem bridgePair_erase {s s1 : Solver} {a b : Nat} (h : bridgePair s a b = some s1) :
    s1.eraseTables = s.eraseTables := by
  unfold bridgePair at h
  split at h
  · split at h
    · simp only [Option.some.injEq] at h; rw [← h]; rfl
    · simp at h
  · simp only [Option.some.injEq] at h; rw [h]

theorem bridgeInner_erase (a : Nat) : ∀ (ls : List Lit) (s s1 : Solver),
    bridgeInner a ls s = some s1 → s1.eraseTables = s.eraseTables := by
  intro ls
  induction ls with
  | nil => intro s s1 h; simp only [bridgeInner, Option.some.injEq] at h; rw [h]
  | cons l rest ih =>
    intro s s1 h
    rw [bridgeInner] at h
    split at h
    · simp at h
    · next s2 h2 => exact (ih _ _ h).trans (bridgePair_erase h2)

theorem bridgeClause_erase : ∀ (ls : List Lit) (s s1 : Solver),
    bridgeClause ls s = some s1 → s1.eraseTables = s.eraseTables := by
  intro ls
  induction ls with
  | nil => intro s s1 h; simp only [bridgeClause, Option.some.injEq] at h; rw [h]
  | cons l rest ih =>
    intro s s1 h
    rw [bridgeClause] at h
    split at h
    · simp at h
    · next s2 h2 => exact (ih _ _ h).trans (bridgeInner_erase _ _ _ _ h2)

theorem bridgeClauses_erase : ∀ (cs : List Nat) (s s1 : Solver),
    bridgeClauses cs s = some s1 → s1.eraseTables = s.eraseTables := by
  intro cs
  induction cs with
  | nil => intro s s1 h; simp only [bridgeClauses, Option.some.injEq] at h; rw [h]
  | cons c rest ih =>
    intro s s1 h
    rw [bridgeClauses] at h
    split at h
    · simp at h
    · next s2 h2 => exact (ih _ _ h).trans (bridgeClause_erase _ _ _ h2)

theorem readCenters_erase : ∀ (lines : List (Int × Double)) (s s1 : Solver),
    readCenters lines s = some s1 → s1.eraseTables = s.eraseTables := by
  intro lines
  induction lines with
  | nil => intro s s1 h; simp only [readCenters, Option.some.injEq] at h; rw [h]
  | cons x rest ih =>
    intro s s1 h
    obtain ⟨v, c⟩ := x
    rw [readCenters] at h
    split at h
    · exact (ih _ _ h).trans rfl
    · simp at h

theorem fillCentrality_erase : ∀ (is : List Nat) (s s1 : Solver),
    fillCentrality is s = some s1 → s1.eraseTables = s.eraseTables := by
  intro is
  induction is with
  | nil => intro s s1 h; simp only [fillCentrality, Option.some.injEq] at h; rw [h]
  | cons i rest ih =>
    intro s s1 h
    rw [fillCentrality] at h
    split at h
    · exact (ih _ _ h).trans rfl
    · simp at h

theorem markHighcenter_erase : ∀ (is : List Nat) (s s1 : Solver),
    markHighcenter is s = some s1 → s1.eraseTables = s.eraseTables := by
  intro is
  induction is with
  | nil => intro s s1 h; simp only [markHighcenter, Option.some.injEq] at h; rw [h]
  | cons i rest ih =>
    intro s s1 h
    rw [markHighcenter] at h
    split at h
    · exact (ih _ _ h).trans rfl
    · simp at h

/-- The first part of `solve_` changes the tables of the centrality heuristic only. -/
theorem centralityInit_erase {files : Files} {s s0 : Solver}
    (h : centralityInit files s = some s0) : s0.eraseTables = s.eraseTables := by
  unfold centralityInit at h
  split at h
  · simp at h
  · split at h
    · simp at h
    · next cl hcl =>
      split at h
      · simp at h
      · next s1 h1 =>
        split at h
        · simp at h
        · next s2 h2 =>
          split at h
          · simp at h
          · split at h
            · simp at h
            · next ce hce =>
              split at h
              · simp at h
              · next s3 h3 =>
                split at h
                · simp at h
                · next s4 h4 =>
                  have e5 := markHighcenter_erase _ _ _ h
                  have e4 := fillCentrality_erase _ _ _ h4
                  have e3 := readCenters_erase _ _ _ h3
                  have e2 := bridgeClauses_erase _ _ _ h2
                  have e1 := readCmtys_erase _ _ _ h1
                  exact ((((e5.trans rfl).trans e4).trans e3).trans e2).trans e1

/-! ## The flag `ok` -/

/-- With `ok` cleared, `addClause_` at level 0 returns false and changes nothing. -/
theorem addClause_of_not_ok {s : Solver} (ps : List Lit) (hlev : s.decisionLevel = 0)
    (hok : s.ok = false) : addClause_ s ps = some (false, s) := by
  unfold addClause_
  rw [if_neg (by simp [hlev]), if_pos hok]

/-- With `ok` cleared, `simplify` at level 0 returns false and changes nothing. -/
theorem simplify_of_not_ok {s : Solver} (o : Oracle) (hlev : s.decisionLevel = 0)
    (hok : s.ok = false) : simplify o s = some (false, { s with ok := false }) := by
  unfold simplify
  rw [if_neg (by simp [hlev]), if_pos hok]

/-- With `ok` cleared, `solve_` returns `l_False` as soon as its first part is through,
and leaves `ok` cleared. -/
theorem solve_of_not_ok {s s0 : Solver} (o : Oracle) (fuel : Nat) {files : Files}
    (hok : s.ok = false) (h : centralityInit files s = some s0) :
    solve_ o fuel files s = some (lbool.l_False, { s0 with model := [], conflict := [] }) ∧
    s0.ok = false ∧ s0.clauses = s.clauses ∧ s0.trail = s.trail := by
  have he := centralityInit_erase h
  have hok0 : s0.ok = false := (congrArg Solver.ok he).trans hok
  have hcl : s0.eraseTables.clauses = s.eraseTables.clauses := congrArg Solver.clauses he
  have htr : s0.eraseTables.trail = s.eraseTables.trail := congrArg Solver.trail he
  refine ⟨?_, hok0, hcl, htr⟩
  unfold solve_
  rw [h]
  dsimp only
  rw [if_pos hok0]

/-- Whatever the files, `solve_` on a state with `ok` cleared does not return anything
but `l_False`, and not with `ok` set. -/
theorem solve_result_of_not_ok {s : Solver} (o : Oracle) (fuel : Nat) (files : Files)
    (hok : s.ok = false) (r : lbool × Solver) (h : solve_ o fuel files s = some r) :
    r.1 = lbool.l_False ∧ r.2.ok = false ∧ r.2.clauses = s.clauses ∧
    r.2.trail = s.trail := by
  cases hc : centralityInit files s with
  | none =>
    unfold solve_ at h
    rw [hc] at h
    simp at h
  | some s0 =>
    obtain ⟨h1, h2, h3, h4⟩ := solve_of_not_ok o fuel hok hc
    rw [h1] at h
    simp only [Option.some.injEq] at h
    rw [← h]
    exact ⟨rfl, h2, h3, h4⟩

/-- On an input whose literals are all false, the simplification loop of `addClause_`
keeps nothing. -/
theorem addClauseLoop_all_false {s : Solver} {ps : List Lit}
    (h : ∀ x ∈ ps, s.value x = lbool.l_False) :
    addClauseLoop s (sortLits ps) none [] = some [] := by
  obtain ⟨res, hr, _, hm⟩ := @addClauseLoop_sorted_filter s ps
    (fun x hx e => by rw [h x hx] at e; simp at e)
    (fun x hx hn => by
      have h1 := h x hx
      have h2 := h _ hn
      rw [value_neg_false] at h2
      rw [h1] at h2
      simp at h2)
  have : res = [] := by
    apply List.eq_nil_iff_forall_not_mem.mpr
    intro x hx
    exact ((hm x).mp hx).2 (h x ((hm x).mp hx).1)
  rw [hr, this]

/-- On an input without a true literal whose literals that are not false are all equal
to `l`, the simplification loop of `addClause_` keeps `l` alone. -/
theorem addClauseLoop_unit {s : Solver} {ps : List Lit} {l : Lit}
    (hnt : ∀ x ∈ ps, s.value x ≠ lbool.l_True) (hl : l ∈ ps)
    (hlu : s.value l ≠ lbool.l_False)
    (hall : ∀ x ∈ ps, x = l ∨ s.value x = lbool.l_False) :
    addClauseLoop s (sortLits ps) none [] = some [l] := by
  obtain ⟨res, hr, hsorted, hm⟩ := @addClauseLoop_sorted_filter s ps hnt
    (fun x hx hn => by
      rcases hall x hx with rfl | hf
      · rcases hall _ hn with e | hf2
        · exact Lit.neg_ne _ e
        · exact hnt x hx (value_neg_false.mp hf2)
      · exact hnt _ hn (value_neg_true.mpr hf))
  have hmem : ∀ x, x ∈ res ↔ x = l := by
    intro x
    rw [hm x]
    constructor
    · rintro ⟨hx, hv⟩
      rcases hall x hx with e | hf
      · exact e
      · exact absurd hf hv
    · rintro rfl
      exact ⟨hl, hlu⟩
  have : res = [l] := by
    match res, hsorted, hmem with
    | [], _, hmem => exact absurd ((hmem l).mpr rfl) (by simp)
    | [a], _, hmem =>
      have := (hmem a).mp (by simp)
      rw [this]
    | a :: b :: rest, hsorted, hmem =>
      have ha := (hmem a).mp (by simp)
      have hb := (hmem b).mp (by simp)
      have hlt : a.toInt < b.toInt := (List.pairwise_cons.mp hsorted).1 b (by simp)
      rw [ha, hb] at hlt
      exact absurd hlt (lt_irrefl _)
  rw [hr, this]

end Glucose


namespace Glucose

/-! ## The functions below `search` do not write the scalar members -/

theorem uncheckedEnqueue_scalars {s s1 : Solver} {p : Lit} {r : Option Nat}
    (h : uncheckedEnqueue s p r = some s1) : s1.scalars = s.scalars := by
  obtain ⟨_, rfl⟩ := uncheckedEnqueue_eq h
  rfl

theorem attachClause_scalars {s t : Solver} {cr : Nat} (h : attachClause s cr = some t) :
    t.scalars = s.scalars := by
  unfold attachClause at h
  dsimp only at h
  split at h
  · simp only [Option.some.injEq] at h
    rw [← h]
    split <;> split <;> rfl
  · simp at h

theorem LongSpec.long_scalars {p : Lit} {w : Watcher} {s : Solver} {out : WatchOutcome}
    (h : LongSpec p w s out) : out.state.scalars = s.scalars := by
  cases h with
  | skip _ => rfl
  | sat c0 c1 rest first hv _ _ => rfl
  | moved c0 c1 rest first k x hv _ hx _ _ => rfl
  | conflict c0 c1 rest first hv _ _ => rfl
  | unit c0 c1 rest first s2 hv _ _ he => exact (uncheckedEnqueue_scalars he).trans rfl

theorem propagateLong_scalars {p : Lit} {ws kept : List Watcher} {confl : Option Nat}
    {s : Solver} {r : Option Nat × List Watcher × Solver}
    (h : propagateLong p ws kept confl s = some r) : r.2.2.scalars = s.scalars := by
  refine propagateLong_induct (p := p) (fun _ _ t => t.scalars = s.scalars) ?_ ?_ ?_
    ws kept confl s r rfl h
  · intro _ _ _ _ t _ t1 hI hs
    exact ((longStep_spec hs).long_scalars).trans hI
  · intro _ _ _ _ t t1 hI hs
    exact ((longStep_spec hs).long_scalars).trans hI
  · intro _ _ _ _ t _ _ t1 hI hs
    exact ((longStep_spec hs).long_scalars).trans hI

theorem propagateBin_scalars {ws : List Watcher} {s : Solver} {r : Option Nat × Solver}
    (h : propagateBin ws s = some r) : r.2.scalars = s.scalars := by
  induction ws generalizing s with
  | nil =>
    simp only [propagateBin, Option.some.injEq] at h
    subst h
    rfl
  | cons w ws ih =>
    unfold propagateBin at h
    split at h
    · simp only [Option.some.injEq] at h
      subst h
      rfl
    · split at h
      · split at h
        · simp at h
        · next s1 he => exact (ih h).trans (uncheckedEnqueue_scalars he)
      · exact ih h

theorem promoteClause_scalars {s t : Solver} {cr : Nat} {c0 : Lit} {rest : List Lit}
    (h : promoteClause s cr c0 rest = some t) : t.scalars = s.scalars := by
  unfold promoteClause at h
  split at h
  · simp at h
  · cases hm : maxLevelIndex s rest 1 none with
    | none => rw [hm] at h; simp at h
    | some im =>
      obtain ⟨index, m⟩ := im
      rw [hm] at h
      dsimp only at h
      cases rest with
      | nil => simp at h
      | cons r1 tl =>
        dsimp only at h
        cases hli : (r1 :: tl).get? (index - 1) with
        | none => rw [hli] at h; simp at h
        | some li =>
          rw [hli] at h
          dsimp only at h
          split at h
          · simp at h
          · next s4 h4 =>
            simp only [Option.some.injEq] at h
            subst h
            exact (attachClause_scalars h4).trans rfl

theorem UnarySpec.unary_scalars {p : Lit} {w : Watcher} {s : Solver} {out : WatchOutcome}
    (h : UnarySpec p w s out) : out.state.scalars = s.scalars := by
  cases h with
  | skip _ => rfl
  | moved rest k x _ _ _ _ _ => rfl
  | conflict rest s1 _ _ _ hc =>
    rcases hc with ⟨_, rfl⟩ | ⟨_, hp⟩
    · rfl
    · exact (promoteClause_scalars hp).trans rfl

theorem propagateUnaryLoop_scalars {p : Lit} {ws kept : List Watcher} {confl : Option Nat}
    {s : Solver} {r : Option Nat × List Watcher × Solver}
    (h : propagateUnaryLoop p ws kept confl s = some r) : r.2.2.scalars = s.scalars := by
  induction ws generalizing kept s with
  | nil =>
    simp only [propagateUnaryLoop, Option.some.injEq] at h
    subst h
    rfl
  | cons w ws ih =>
    unfold propagateUnaryLoop at h
    cases hs : unaryStep p w s with
    | none => rw [hs] at h; simp at h
    | some out =>
      rw [hs] at h
      have he := (unaryStep_spec hs).unary_scalars
      cases out with
      | keep w1 s1 => exact (ih h).trans he
      | moved s1 => exact (ih h).trans he
      | conflict cr w1 s1 =>
        dsimp only at h
        split at h
        · split at h
          · simp at h
          · simp only [Option.some.injEq] at h
            subst h
            exact he
        · simp only [Option.some.injEq] at h
          subst h
          exact he

theorem propagateUnaryWatches_scalars {s : Solver} {p : Lit} {r : Option Nat × Solver}
    (h : propagateUnaryWatches s p = some r) : r.2.scalars = s.scalars := by
  unfold propagateUnaryWatches at h
  cases hl : propagateUnaryLoop p (s.unaryWatches.occs p) [] none s with
  | none => rw [hl] at h; simp at h
  | some rl =>
    obtain ⟨confl, kept, s1⟩ := rl
    rw [hl] at h
    simp only [Option.some.injEq] at h
    subst h
    exact (propagateUnaryLoop_scalars hl).trans rfl

theorem propagateLoop_scalars (fuel : Nat) (confl : Option Nat) (n : Nat) (s : Solver)
    (r : Option Nat × Solver) (h : propagateLoop fuel confl n s = some r) :
    r.2.scalars = s.scalars := by
  refine propagateLoop_induct (fun _ t => t.scalars = s.scalars)
    (fun _ t => t.scalars = s.scalars) ?_ ?_ ?_ fuel confl n s r rfl h
  · intro confl t p t1 confl1 kept t2 hI hlt hget hb hl
    have e2 : t1.scalars = t.scalars := propagateBin_scalars hb
    have e3 : t2.scalars = t1.scalars := propagateLong_scalars hl
    have e5 : t2.scalars = s.scalars := (e3.trans e2).trans hI
    refine ⟨e5, ?_⟩
    intro confl2 t4 _ _ hu
    exact (propagateUnaryWatches_scalars hu).trans e5
  · intro confl t p t1 cr hI hlt hget hb
    exact (propagateBin_scalars hb).trans hI
  · intro confl t n hI hlt
    exact hI

/-- The function `propagate` does not write the scalar members. -/
theorem propagate_scalars {s : Solver} {r : Option Nat × Solver} (h : propagate s = some r) :
    r.2.scalars = s.scalars :=
  (propagateLoop_scalars _ _ _ s.cleanAllWatches _ h).trans rfl

theorem insertVarOrder_scalars (s : Solver) (x : Nat) :
    (s.insertVarOrder x).scalars = s.scalars := by
  unfold Solver.insertVarOrder
  split <;> rfl

theorem cancelLoop_scalars (lastLim : Nat) (removed : List (Nat × Lit)) (s : Solver) :
    (cancelLoop lastLim removed s).scalars = s.scalars := by
  induction removed generalizing s with
  | nil => rfl
  | cons x rest ih =>
    obtain ⟨c, l⟩ := x
    rw [cancelLoop]
    dsimp only
    rw [ih, insertVarOrder_scalars]
    split <;> rfl

/-- The function `cancelUntil` does not write the scalar members. -/
theorem cancelUntil_scalars (s : Solver) (k : Nat) : (cancelUntil s k).scalars = s.scalars := by
  unfold cancelUntil
  split
  · exact cancelLoop_scalars (s.trail_lim.getLastD 0)
      (((s.trail.enum).drop (s.trail_lim.getD k 0)).reverse) s
  · rfl

end Glucose


namespace Glucose

/-! ## Conflict analysis does not write the scalar members -/

theorem computeLBDCore_scalars (s : Solver) (lits : List Lit) (b : Int) :
    (computeLBDCore s lits b).2.scalars = s.scalars := rfl

theorem swapBinary_scalars {s t : Solver} {cr : Nat} (h : swapBinary s cr = some t) :
    t.scalars = s.scalars := by
  unfold swapBinary at h
  split at h
  · split at h
    · split at h
      · simp only [Option.some.injEq] at h; rw [← h]; rfl
      · simp at h
    · simp only [Option.some.injEq] at h; rw [← h]
  · simp only [Option.some.injEq] at h; rw [← h]

theorem analyzeClause_scalars {s t : Solver} {cr : Nat} {p : Option Lit}
    (h : analyzeClause s cr p = some t) : t.scalars = s.scalars := by
  unfold analyzeClause at h
  cases hs : (if p.isSome then swapBinary s cr else some s) with
  | none => rw [hs] at h; simp at h
  | some s1 =>
    rw [hs] at h
    have e1 : s1.scalars = s.scalars := by
      split at hs
      · exact swapBinary_scalars hs
      · simp only [Option.some.injEq] at hs; rw [← hs]
    dsimp only at h
    have e2 : ∀ u : Solver, u = (if (s1.ca cr).learnt = true then s1
        else if (s1.ca cr).seen = false then
          { s1 with
            stats := { s1.stats with
              originalClausesSeen := s1.stats.originalClausesSeen + 1 },
            ca := Function.update s1.ca cr { s1.ca cr with seen := true } }
        else s1) → u.scalars = s1.scalars := by
      intro u hu
      rw [hu]
      split
      · rfl
      · split <;> rfl
    generalize hu : (if (s1.ca cr).learnt = true then s1
        else if (s1.ca cr).seen = false then
          { s1 with
            stats := { s1.stats with
              originalClausesSeen := s1.stats.originalClausesSeen + 1 },
            ca := Function.update s1.ca cr { s1.ca cr with seen := true } }
        else s1) = u at h
    have e3 := e2 u hu.symm
    split at h
    · split at h
      · simp only [Option.some.injEq] at h
        rw [← h]
        exact ((rfl : _ = (computeLBDClause u (u.ca cr)).2.scalars).trans
          (computeLBDCore_scalars _ _ _)).trans (e3.trans e1)
      · simp only [Option.some.injEq] at h
        rw [← h]
        exact (computeLBDCore_scalars _ _ _).trans (e3.trans e1)
    · simp only [Option.some.injEq] at h
      rw [← h]
      exact e3.trans e1

theorem analyzeLit_scalars {s : Solver} {q : Lit} {pathC : Int} {out sel : List Lit}
    {r : Solver × Int × List Lit × List Lit}
    (h : analyzeLit s q pathC out sel = some r) : r.1.scalars = s.scalars := by
  unfold analyzeLit at h
  have e1 : (if s.isSelector q.var = false then
          if s.highcenter q.var = true ∧ s.stats.decisions < 100000 then
            s.varBumpActivity q.var true
          else s.varBumpActivity q.var false
        else s).scalars = s.scalars := by
    split
    · split <;> rfl
    · rfl
  generalize (if s.isSelector q.var = false then
          if s.highcenter q.var = true ∧ s.stats.decisions < 100000 then
            s.varBumpActivity q.var true
          else s.varBumpActivity q.var false
        else s) = u at h e1
  split at h
  · split at h
    · simp only [Option.some.injEq] at h; rw [← h]
    · dsimp only at h
      split at h
      · split at h <;> (simp only [Option.some.injEq] at h; rw [← h]; exact e1)
      · split at h
        · split at h
          · simp only [Option.some.injEq] at h; rw [← h]; exact e1
          · simp at h
        · simp only [Option.some.injEq] at h; rw [← h]; exact e1
  · simp only [Option.some.injEq] at h; rw [← h]

theorem analyzeLits_scalars : ∀ (qs : List Lit) (s : Solver) (pathC : Int)
    (out sel : List Lit) (r : Solver × Int × List Lit × List Lit),
    analyzeLits qs s pathC out sel = some r → r.1.scalars = s.scalars := by
  intro qs
  induction qs with
  | nil =>
    intro s pathC out sel r h
    simp only [analyzeLits, Option.some.injEq] at h
    rw [← h]
  | cons q qs ih =>
    intro s pathC out sel r h
    rw [analyzeLits] at h
    split at h
    · simp at h
    · next s1 p1 o1 sl1 h1 =>
      exact (ih _ _ _ _ _ h).trans (analyzeLit_scalars h1)

theorem analyzeWalk_scalars : ∀ (k : Nat) (s : Solver) (pathC : Int)
    (out sel : List Lit) (r : Solver × Lit × List Lit × List Lit),
    analyzeWalk k s pathC out sel = some r → r.1.scalars = s.scalars := by
  intro k
  induction k with
  | zero => intro s pathC out sel r h; simp [analyzeWalk] at h
  | succ k ih =>
    intro s pathC out sel r h
    rw [analyzeWalk] at h
    split at h
    · simp at h
    · next p hp =>
      split at h
      · dsimp only at h
        split at h
        · split at h
          · simp at h
          · next cr hcr =>
            split at h
            · simp at h
            · next s2 h2 =>
              split at h
              · simp at h
              · next s3 p3 o3 sl3 h3 =>
                exact ((ih _ _ _ _ _ h).trans (analyzeLits_scalars _ _ _ _ _ _ h3)).trans
                  ((analyzeClause_scalars h2).trans rfl)
        · simp only [Option.some.injEq] at h; rw [← h]; rfl
      · exact ih _ _ _ _ _ h

theorem analyzeResolve_scalars {s : Solver} {confl : Nat}
    {r : Solver × Lit × List Lit × List Lit}
    (h : analyzeResolve s confl = some r) : r.1.scalars = s.scalars := by
  unfold analyzeResolve at h
  split at h
  · simp at h
  · next s1 h1 =>
    split at h
    · simp at h
    · next s2 p2 o2 sl2 h2 =>
      exact ((analyzeWalk_scalars _ _ _ _ _ _ h).trans
        (analyzeLits_scalars _ _ _ _ _ _ h2)).trans (analyzeClause_scalars h1)

theorem redundantLits_scalars (abs : List Nat) : ∀ (ps : List Lit) (s : Solver),
    (redundantLits abs ps s).2.scalars = s.scalars := by
  intro ps
  induction ps with
  | nil => intro s; rfl
  | cons p ps ih =>
    intro s
    rw [redundantLits]
    split
    · split
      · exact (ih _).trans rfl
      · rfl
    · exact ih s

theorem litRedundantLoop_scalars (abs : List Nat) (top : Nat) : ∀ (fuel : Nat) (s : Solver)
    (r : Bool × Solver), litRedundantLoop abs top fuel s = some r →
    r.2.scalars = s.scalars := by
  intro fuel
  induction fuel with
  | zero => intro s r h; simp [litRedundantLoop] at h
  | succ fuel ih =>
    intro s r h
    rw [litRedundantLoop] at h
    split at h
    · simp only [Option.some.injEq] at h; rw [← h]
    · next q hq =>
      split at h
      · simp at h
      · next cr hcr =>
        dsimp only at h
        split at h
        · simp at h
        · next s2 h2 =>
          have e2 : s2.scalars = s.scalars := (swapBinary_scalars h2).trans rfl
          have e3 := redundantLits_scalars abs ((s2.ca cr).lits.drop 1) s2
          split at h
          · next s3 h3 =>
            rw [h3] at e3
            exact (ih _ _ h).trans (e3.trans e2)
          · next s3 h3 =>
            rw [h3] at e3
            simp only [Option.some.injEq] at h
            rw [← h]
            exact e3.trans e2

theorem litRedundant_scalars {s : Solver} {p : Lit} {abs : List Nat} {r : Bool × Solver}
    (h : litRedundant s p abs = some r) : r.2.scalars = s.scalars :=
  (litRedundantLoop_scalars _ _ _ _ _ h).trans rfl

theorem minimizeDeep_scalars (abs : List Nat) : ∀ (ls kept : List Lit) (s : Solver)
    (r : List Lit × Solver), minimizeDeep abs ls kept s = some r →
    r.2.scalars = s.scalars := by
  intro ls
  induction ls with
  | nil =>
    intro kept s r h
    simp only [minimizeDeep, Option.some.injEq] at h
    rw [← h]
  | cons l ls ih =>
    intro kept s r h
    rw [minimizeDeep] at h
    split at h
    · exact ih _ _ _ h
    · split at h
      · simp at h
      · next s1 h1 => exact (ih _ _ _ h).trans (litRedundant_scalars h1)
      · next s1 h1 => exact (ih _ _ _ h).trans (litRedundant_scalars h1)

theorem minimisationWithBinaryResolution_scalars {s : Solver} {out : List Lit}
    {r : List Lit × Solver} (h : minimisationWithBinaryResolution s out = some r) :
    r.2.scalars = s.scalars := by
  unfold minimisationWithBinaryResolution at h
  dsimp only at h
  split at h
  · simp at h
  · split at h
    · split at h
      · split at h
        · simp at h
        · split at h
          · simp only [Option.some.injEq] at h; rw [← h]; rfl
          · simp at h
      · simp only [Option.some.injEq] at h; rw [← h]; rfl
    · simp only [Option.some.injEq] at h; rw [← h]; rfl

theorem analyzeMinimize_scalars {s : Solver} {p : Lit} {out sel : List Lit}
    {r : List Lit × Solver} (h : analyzeMinimize s p out sel = some r) :
    r.2.scalars = s.scalars := by
  unfold analyzeMinimize at h
  dsimp only at h
  split at h
  · simp at h
  · next kept s2 h2 =>
    have e2 : s2.scalars = s.scalars := by
      split at h2
      · exact (minimizeDeep_scalars _ _ _ _ _ h2).trans rfl
      · split at h2
        · simp only [Option.some.injEq, Prod.mk.injEq] at h2; rw [← h2.2]; rfl
        · simp only [Option.some.injEq, Prod.mk.injEq] at h2; rw [← h2.2]; rfl
    split at h
    · exact (minimisationWithBinaryResolution_scalars h).trans (Eq.trans rfl e2)
    · simp only [Option.some.injEq] at h; rw [← h]; exact Eq.trans rfl e2

theorem bumpLastDecisionLevel_scalars (lbd : Nat) : ∀ (qs : List Lit) (s t : Solver),
    bumpLastDecisionLevel lbd qs s = some t → t.scalars = s.scalars := by
  intro qs
  induction qs with
  | nil =>
    intro s t h
    simp only [bumpLastDecisionLevel, Option.some.injEq] at h
    rw [← h]
  | cons q qs ih =>
    intro s t h
    rw [bumpLastDecisionLevel] at h
    split at h
    · simp at h
    · split at h
      · exact (ih _ _ h).trans rfl
      · exact ih _ _ h

theorem analyzeFinish_scalars {s : Solver} {out sel : List Lit} {r : AnalyzeResult}
    (h : analyzeFinish s out sel = some r) : r.state.scalars = s.scalars := by
  unfold analyzeFinish at h
  dsimp only at h
  split at h
  · simp at h
  · next out2 bt hbt =>
    split at h
    · simp at h
    · next s2 h2 =>
      simp only [Option.some.injEq] at h
      rw [← h]
      exact Eq.trans rfl ((bumpLastDecisionLevel_scalars _ _ _ _ h2).trans
        (computeLBDCore_scalars _ _ _))

/-- The function `analyze` does not write the scalar members. -/
theorem analyze_scalars {s : Solver} {confl : Nat} {r : AnalyzeResult}
    (h : analyze s confl = some r) : r.state.scalars = s.scalars := by
  unfold analyze at h
  split at h
  · simp at h
  · next s1 p out sel h1 =>
    split at h
    · simp at h
    · next ol s2 h2 =>
      exact ((analyzeFinish_scalars h).trans (analyzeMinimize_scalars h2)).trans
        (analyzeResolve_scalars h1)

end Glucose


namespace Glucose

/-! ## The clause database and the decision heuristic do not write the scalar members -/

theorem detachClause_scalars {s t : Solver} {cr : Nat} {strict : Bool}
    (h : detachClause s cr strict = some t) : t.scalars = s.scalars := by
  unfold detachClause at h
  dsimp only at h
  split at h
  · next c0 c1 rest hl =>
    split at h
    · simp at h
    · next s2 h2 =>
      have e2 : s2.scalars = s.scalars := by
        split at h2
        · split at h2
          · split at h2
            · simp at h2
            · split at h2
              · simp at h2
              · simp only [Option.some.injEq] at h2; rw [← h2]; rfl
          · simp only [Option.some.injEq] at h2; rw [← h2]; rfl
        · split at h2
          · split at h2
            · simp at h2
            · split at h2
              · simp at h2
              · simp only [Option.some.injEq] at h2; rw [← h2]; rfl
          · simp only [Option.some.injEq] at h2; rw [← h2]; rfl
      simp only [Option.some.injEq] at h
      rw [← h]
      split <;> exact e2
  · simp at h

theorem detachClausePurgatory_scalars {s t : Solver} {cr : Nat} {strict : Bool}
    (h : detachClausePurgatory s cr strict = some t) : t.scalars = s.scalars := by
  unfold detachClausePurgatory at h
  split at h
  · split at h
    · split at h
      · simp at h
      · simp only [Option.some.injEq] at h; rw [← h]; rfl
    · simp only [Option.some.injEq] at h; rw [← h]; rfl
  · simp at h

theorem removeClause_scalars {s t : Solver} {cr : Nat} {b : Bool}
    (h : removeClause s cr b = some t) : t.scalars = s.scalars := by
  unfold removeClause at h
  split at h
  · simp at h
  · next s1 h1 =>
    have e1 : s1.scalars = s.scalars := by
      split at h1
      · exact detachClausePurgatory_scalars h1
      · exact detachClause_scalars h1
    simp only [Option.some.injEq] at h
    rw [← h]
    refine Eq.trans ?_ e1
    split
    · split <;> rfl
    · rfl

theorem checkGarbage_scalars (o : Oracle) (s : Solver) :
    (checkGarbage o s).scalars = s.scalars := by
  unfold checkGarbage
  dsimp only
  split <;> rfl

theorem reduceDBLoop_scalars : ∀ (sorted : List Nat) (i limit : Nat) (kept : List Nat)
    (s : Solver) (r : List Nat × Solver),
    reduceDBLoop sorted i limit kept s = some r → r.2.scalars = s.scalars := by
  intro sorted
  induction sorted with
  | nil =>
    intro i limit kept s r h
    simp only [reduceDBLoop, Option.some.injEq] at h
    rw [← h]
  | cons cr rest ih =>
    intro i limit kept s r h
    rw [reduceDBLoop] at h
    dsimp only at h
    split at h
    · split at h
      · simp at h
      · next s1 h1 =>
        have e1 : s1.scalars = s.scalars := removeClause_scalars h1
        exact (ih _ _ _ _ _ h).trans (Eq.trans rfl e1)
    · exact (ih _ _ _ _ _ h).trans rfl

theorem reduceDBSpecial_scalars (s : Solver) (mid last : Nat) :
    (reduceDBSpecial s mid last).scalars = s.scalars := by
  unfold reduceDBSpecial
  dsimp only
  split <;> split <;> rfl

/-- The function `reduceDB` does not write the scalar members. -/
theorem reduceDB_scalars {o : Oracle} {s t : Solver} (h : reduceDB o s = some t) :
    t.scalars = s.scalars := by
  unfold reduceDB at h
  dsimp only at h
  split at h
  · next mid last _ _ =>
    split at h
    · simp at h
    · next kept s4 h4 =>
      simp only [Option.some.injEq] at h
      rw [← h]
      exact (checkGarbage_scalars _ _).trans
        (Eq.trans rfl ((reduceDBLoop_scalars _ _ _ _ _ _ h4).trans
          (reduceDBSpecial_scalars _ _ _)))
  · simp at h

theorem removeSatisfiedLoop_scalars : ∀ (cs kept : List Nat) (s : Solver)
    (r : List Nat × Solver),
    removeSatisfiedLoop cs kept s = some r → r.2.scalars = s.scalars := by
  intro cs
  induction cs with
  | nil =>
    intro kept s r h
    simp only [removeSatisfiedLoop, Option.some.injEq] at h
    rw [← h]
  | cons cr rest ih =>
    intro kept s r h
    rw [removeSatisfiedLoop] at h
    split at h
    · simp at h
    · split at h
      · simp at h
      · next s1 h1 => exact (ih _ _ _ h).trans (removeClause_scalars h1)
    · exact ih _ _ _ h

/-- The function `simplify` does not write the scalar members. -/
theorem simplify_scalars {o : Oracle} {s : Solver} {r : Bool × Solver}
    (h : simplify o s = some r) : r.2.scalars = s.scalars := by
  unfold simplify at h
  split at h
  · simp at h
  · split at h
    · simp only [Option.some.injEq] at h; rw [← h]; rfl
    · split at h
      · simp at h
      · next cr s1 h1 =>
        simp only [Option.some.injEq] at h
        rw [← h]
        exact Eq.trans rfl (propagate_scalars h1)
      · next s1 h1 =>
        have e1 : s1.scalars = s.scalars := propagate_scalars h1
        split at h
        · simp only [Option.some.injEq] at h; rw [← h]; exact e1
        · split at h
          · simp at h
          · next l2 s2 h2 =>
            dsimp only at h
            split at h
            · simp at h
            · next u2 s4 h4 =>
              split at h
              · simp at h
              · next s7 h7 =>
                have e2 : s2.scalars = s1.scalars := removeSatisfiedLoop_scalars _ _ _ _ h2
                have e4 : s4.scalars = s2.scalars :=
                  (removeSatisfiedLoop_scalars _ _ _ _ h4).trans rfl
                have e7 : s7.scalars = s4.scalars := by
                  split at h7
                  · split at h7
                    · simp at h7
                    · next c2 s6 h6 =>
                      simp only [Option.some.injEq] at h7
                      rw [← h7]
                      exact Eq.trans rfl ((removeSatisfiedLoop_scalars _ _ _ _ h6).trans rfl)
                  · simp only [Option.some.injEq] at h7; rw [← h7]; rfl
                simp only [Option.some.injEq] at h
                rw [← h]
                exact Eq.trans rfl ((checkGarbage_scalars o s7).trans
                  (e7.trans (e4.trans (e2.trans e1))))

/-- The function `pickBranchLit` does not write the scalar members. -/
theorem pickBranchLit_scalars {o : Oracle} {s : Solver} {r : Option Lit × Solver}
    (h : pickBranchLit o s = some r) : r.2.scalars = s.scalars := by
  unfold pickBranchLit at h
  dsimp only at h
  split at h
  · simp at h
  · next next0 s2 h2 =>
    have e2 : s2.scalars = s.scalars := by
      split at h2
      · split at h2
        · simp at h2
        · simp only [Option.some.injEq, Prod.mk.injEq] at h2
          rw [← h2.2]
          split <;> rfl
      · simp only [Option.some.injEq, Prod.mk.injEq] at h2
        rw [← h2.2]
        rfl
    have e3 : (if s2.notPickable next0 = true then
          ((pickLoop s2 (heapOrder o s2)).1,
            { s2 with order_heap := (pickLoop s2 (heapOrder o s2)).2, tick := s2.tick + 1 })
        else (next0, s2)).2.scalars = s2.scalars := by
      split <;> rfl
    generalize (if s2.notPickable next0 = true then
          ((pickLoop s2 (heapOrder o s2)).1,
            ({ s2 with order_heap := (pickLoop s2 (heapOrder o s2)).2,
                       tick := s2.tick + 1 } : Solver))
        else (next0, s2)) = pr at h e3
    split at h
    · simp only [Option.some.injEq] at h; rw [← h]; exact e3.trans e2
    · split at h
      · simp only [Option.some.injEq] at h; rw [← h]; exact Eq.trans rfl (e3.trans e2)
      · simp only [Option.some.injEq] at h; rw [← h]; exact e3.trans e2

theorem countDecision_scalars {s t : Solver} {next : Lit}
    (h : countDecision s next = some t) : t.scalars = s.scalars := by
  unfold countDecision at h
  dsimp only at h
  split at h
  · simp only [Option.some.injEq] at h; rw [← h]; rfl
  · simp at h

theorem analyzeFinalLoop_scalars : ∀ (ls out : List Lit) (s : Solver)
    (r : List Lit × Solver),
    analyzeFinalLoop ls out s = some r → r.2.scalars = s.scalars := by
  intro ls
  induction ls with
  | nil =>
    intro out s r h
    simp only [analyzeFinalLoop, Option.some.injEq] at h
    rw [← h]
  | cons l rest ih =>
    intro out s r h
    rw [analyzeFinalLoop] at h
    dsimp only at h
    split at h
    · split at h
      · split at h
        · exact (ih _ _ _ h).trans rfl
        · simp at h
      · exact (ih _ _ _ h).trans rfl
    · exact ih _ _ _ h

theorem analyzeFinal_scalars {s t : Solver} {p : Lit} (h : analyzeFinal s p = some t) :
    t.scalars = s.scalars := by
  unfold analyzeFinal at h
  split at h
  · simp only [Option.some.injEq] at h; rw [← h]; rfl
  · dsimp only at h
    split at h
    · simp at h
    · next out s2 h2 =>
      simp only [Option.some.injEq] at h
      rw [← h]
      exact Eq.trans rfl ((analyzeFinalLoop_scalars _ _ _ _ h2).trans rfl)

theorem assumeLoop_scalars : ∀ (ps : List Lit) (s : Solver)
    (r : Solver ⊕ (Option Lit × Solver)), assumeLoop ps s = some r →
    (match r with
      | Sum.inl t => t.scalars = s.scalars
      | Sum.inr (_, t) => t.scalars = s.scalars) := by
  intro ps
  induction ps with
  | nil =>
    intro s r h
    simp only [assumeLoop, Option.some.injEq] at h
    rw [← h]
  | cons p rest ih =>
    intro s r h
    rw [assumeLoop] at h
    split at h
    · have := ih _ _ h
      cases r with
      | inl t => exact this.trans rfl
      | inr x => exact this.trans rfl
    · split at h
      · split at h
        · simp at h
        · next s1 h1 =>
          simp only [Option.some.injEq] at h
          rw [← h]
          exact analyzeFinal_scalars h1
      · simp only [Option.some.injEq] at h
        rw [← h]

end Glucose


namespace Glucose

/-! ## The conflict counters along `search` -/

theorem scalars_conflicts {s t : Solver} (h : t.scalars = s.scalars) :
    t.stats.conflicts = s.stats.conflicts ∧
    t.stats.conflictsRestarts = s.stats.conflictsRestarts := by
  simp only [Solver.scalars, Prod.mk.injEq] at h
  exact ⟨h.2.2.2.2.2.2.2.1, h.2.2.2.2.2.2.2.2.1⟩

theorem installLearnt_scalars_conflicts {r : AnalyzeResult} {s t : Solver}
    (h : installLearnt r s = some t) :
    t.stats.conflicts = s.stats.conflicts ∧
    t.stats.conflictsRestarts = s.stats.conflictsRestarts := by
  unfold installLearnt at h
  split at h
  · simp at h
  · split at h
    · simp at h
    · next s1 h1 =>
      have e := scalars_conflicts (uncheckedEnqueue_scalars h1)
      simp only [Option.some.injEq] at h
      rw [← h]
      exact e
  · dsimp only at h
    split at h
    · simp at h
    · next s2 h2 =>
      have e2 := scalars_conflicts (attachClause_scalars h2)
      have e3 := scalars_conflicts (uncheckedEnqueue_scalars h)
      exact ⟨e3.1.trans e2.1, e3.2.trans e2.2⟩

theorem blockRestartStep_conflicts (blocked : Bool) (s : Solver) :
    (blockRestartStep blocked s).stats.conflicts = s.stats.conflicts ∧
    (blockRestartStep blocked s).stats.conflictsRestarts = s.stats.conflictsRestarts := by
  unfold blockRestartStep
  split
  · dsimp only
    split <;> exact ⟨rfl, rfl⟩
  · exact ⟨rfl, rfl⟩

/-- The conflict branch of `search` adds one to `conflicts` and to
`conflictsRestarts`. -/
theorem searchConflict_counters {confl conflictC : Nat} {blocked : Bool} {s : Solver}
    {out : SearchStep} (h : searchConflict confl conflictC blocked s = some out) :
    out.state.stats.conflicts = s.stats.conflicts + 1 ∧
    out.state.stats.conflictsRestarts = s.stats.conflictsRestarts + 1 := by
  unfold searchConflict at h
  dsimp only at h
  split at h
  · simp only [Option.some.injEq] at h
    rw [← h]
    exact ⟨rfl, rfl⟩
  · split at h
    · simp at h
    · next r hr =>
      have e3 := blockRestartStep_conflicts blocked
        { countConflict s with
          trailQueue := (countConflict s).trailQueue.push (countConflict s).trail.length }
      have e4 := scalars_conflicts (analyze_scalars hr)
      split at h
      · simp at h
      · next s9 h9 =>
        have e9 := installLearnt_scalars_conflicts h9
        have e5 := scalars_conflicts (cancelUntil_scalars
          { r.state with lbdQueue := r.state.lbdQueue.push r.lbd,
                         sumLBD := r.state.sumLBD + r.lbd } r.out_btlevel)
        simp only [Option.some.injEq] at h
        rw [← h]
        exact ⟨e9.1.trans (e5.1.trans (e4.1.trans e3.1)),
          e9.2.trans (e5.2.trans (e4.2.trans e3.2))⟩

theorem reduceStep_counters {o : Oracle} {s t : Solver} (h : reduceStep o s = some t) :
    t.stats.conflicts = s.stats.conflicts ∧
    t.stats.conflictsRestarts = s.stats.conflictsRestarts := by
  unfold reduceStep at h
  split at h
  · split at h
    · split at h
      · simp at h
      · dsimp only at h
        split at h
        · simp at h
        · next s2 h2 =>
          have e := scalars_conflicts (reduceDB_scalars h2)
          simp only [Option.some.injEq] at h
          rw [← h]
          exact e
    · simp only [Option.some.injEq] at h; rw [← h]; exact ⟨rfl, rfl⟩
  · simp only [Option.some.injEq] at h; rw [← h]; exact ⟨rfl, rfl⟩

/-- The restart level is 0 in the default mode and the smaller of the decision level
and the number of assumptions in incremental mode. -/
theorem restartLevel_eq (s : Solver) :
    restartLevel s =
      if s.opts.incremental then min s.decisionLevel s.assumptions.length else 0 := by
  unfold restartLevel
  split
  · split
    · next h => rw [Nat.min_eq_left (le_of_lt h)]
    · next h => rw [Nat.min_eq_right (by omega)]
  · rfl

/-- When the restart test holds, the branch without conflict clears the LBD queue,
backtracks and returns `l_Undef`. -/
theorem searchNoConflict_restart (o : Oracle) (conflictC : Nat) (blocked : Bool)
    (s : Solver) (hr : restartDue s = true) :
    searchNoConflict o conflictC blocked s =
      some (SearchStep.done lbool.l_Undef
        (cancelUntil { s with lbdQueue := s.lbdQueue.fastclear }
          (restartLevel { s with lbdQueue := s.lbdQueue.fastclear }))) := by
  unfold searchNoConflict
  rw [if_pos hr]

/-- The branch of `search` without conflict leaves `conflicts` and `conflictsRestarts`
as they are, also when it restarts. -/
theorem searchNoConflict_counters {o : Oracle} {conflictC : Nat} {blocked : Bool}
    {s : Solver} {out : SearchStep} (h : searchNoConflict o conflictC blocked s = some out) :
    out.state.stats.conflicts = s.stats.conflicts ∧
    out.state.stats.conflictsRestarts = s.stats.conflictsRestarts := by
  unfold searchNoConflict at h
  split at h
  · simp only [Option.some.injEq] at h
    rw [← h]
    have e := scalars_conflicts (cancelUntil_scalars
      { s with lbdQueue := s.lbdQueue.fastclear }
      (restartLevel { s with lbdQueue := s.lbdQueue.fastclear }))
    exact e
  · dsimp only at h
    split at h
    · simp at h
    · next s1 h1 =>
      have e1 : s1.stats.conflicts = s.stats.conflicts ∧
          s1.stats.conflictsRestarts = s.stats.conflictsRestarts := by
        split at h1
        · exact scalars_conflicts (simplify_scalars h1)
        · simp at h1
      simp only [Option.some.injEq] at h
      rw [← h]
      exact e1
    · next s1 h1 =>
      have e1 : s1.stats.conflicts = s.stats.conflicts ∧
          s1.stats.conflictsRestarts = s.stats.conflictsRestarts := by
        split at h1
        · exact scalars_conflicts (simplify_scalars h1)
        · simp only [Option.some.injEq, Prod.mk.injEq] at h1
          rw [← h1.2]
          exact ⟨rfl, rfl⟩
      split at h
      · simp at h
      · next s2 h2 =>
        have e2 := reduceStep_counters h2
        split at h
        · simp at h
        · next s4 h4 =>
          have e4 := scalars_conflicts (assumeLoop_scalars _ _ _ h4)
          simp only [Option.some.injEq] at h
          rw [← h]
          exact ⟨e4.1.trans (e2.1.trans e1.1), e4.2.trans (e2.2.trans e1.2)⟩
        · next p s4 h4 =>
          have e4 := scalars_conflicts (assumeLoop_scalars _ _ _ h4)
          split at h
          · simp at h
          · next s5 h5 =>
            have e5 := scalars_conflicts (uncheckedEnqueue_scalars h5)
            simp only [Option.some.injEq] at h
            rw [← h]
            exact ⟨e5.1.trans (e4.1.trans (e2.1.trans e1.1)),
              e5.2.trans (e4.2.trans (e2.2.trans e1.2))⟩
        · next s4 h4 =>
          have e4 := scalars_conflicts (assumeLoop_scalars _ _ _ h4)
          have e04 : s4.stats.conflicts = s.stats.conflicts ∧
              s4.stats.conflictsRestarts = s.stats.conflictsRestarts :=
            ⟨e4.1.trans (e2.1.trans e1.1), e4.2.trans (e2.2.trans e1.2)⟩
          split at h
          · simp at h
          · next s6 h6 =>
            have e6 := scalars_conflicts (pickBranchLit_scalars h6)
            simp only [Option.some.injEq] at h
            rw [← h]
            exact ⟨e6.1.trans e04.1, e6.2.trans e04.2⟩
          · next nx s6 h6 =>
            have e6 := scalars_conflicts (pickBranchLit_scalars h6)
            split at h
            · simp at h
            · next s7 h7 =>
              have e7 := scalars_conflicts (countDecision_scalars h7)
              split at h
              · simp at h
              · next s8 h8 =>
                have e8 := scalars_conflicts (uncheckedEnqueue_scalars h8)
                simp only [Option.some.injEq] at h
                rw [← h]
                exact ⟨e8.1.trans (e7.1.trans (e6.1.trans e04.1)),
                  e8.2.trans (e7.2.trans (e6.2.trans e04.2))⟩

/-- One iteration of `search` adds the same number, 0 or 1, to `conflicts` and to
`conflictsRestarts`. -/
theorem searchStep_counters {o : Oracle} {conflictC : Nat} {blocked : Bool}
    {s : Solver} {out : SearchStep} (h : searchStep o conflictC blocked s = some out) :
    (∀ confl s1, propagate s = some (some confl, s1) →
      out.state.stats.conflicts = s.stats.conflicts + 1 ∧
      out.state.stats.conflictsRestarts = s.stats.conflictsRestarts + 1) ∧
    (∀ s1, propagate s = some (none, s1) →
      out.state.stats.conflicts = s.stats.conflicts ∧
      out.state.stats.conflictsRestarts = s.stats.conflictsRestarts) := by
  unfold searchStep at h
  constructor
  · intro confl s1 hp
    rw [hp] at h
    dsimp only at h
    have e1 := scalars_conflicts (propagate_scalars hp)
    have e2 := searchConflict_counters h
    exact ⟨by rw [e2.1, e1.1], by rw [e2.2, e1.2]⟩
  · intro s1 hp
    rw [hp] at h
    dsimp only at h
    have e1 := scalars_conflicts (propagate_scalars hp)
    have e2 := searchNoConflict_counters h
    exact ⟨by rw [e2.1, e1.1], by rw [e2.2, e1.2]⟩

/-- Along the loop of `search` the two counters grow by the same number. -/
theorem searchLoop_counters (o : Oracle) : ∀ (fuel conflictC : Nat) (blocked : Bool)
    (s : Solver) (r : lbool × Solver), searchLoop o fuel conflictC blocked s = some r →
    ∃ k, r.2.stats.conflicts = s.stats.conflicts + k ∧
      r.2.stats.conflictsRestarts = s.stats.conflictsRestarts + k := by
  intro fuel
  induction fuel with
  | zero => intro c b s r h; simp [searchLoop] at h
  | succ fuel ih =>
    intro c b s r h
    rw [searchLoop] at h
    cases hs : searchStep o c b s with
    | none => rw [hs] at h; simp at h
    | some out =>
      rw [hs] at h
      have hstep : ∃ k, out.state.stats.conflicts = s.stats.conflicts + k ∧
          out.state.stats.conflictsRestarts = s.stats.conflictsRestarts + k := by
        obtain ⟨k1, k2⟩ := searchStep_counters hs
        cases hp : propagate s with
        | none =>
          unfold searchStep at hs
          rw [hp] at hs
          simp at hs
        | some pr =>
          obtain ⟨confl, s1⟩ := pr
          cases confl with
          | none => exact ⟨0, k2 s1 hp⟩
          | some cr => exact ⟨1, k1 cr s1 hp⟩
      cases out with
      | done res s1 =>
        simp only [Option.some.injEq] at h
        rw [← h]
        exact hstep
      | next c1 b1 s1 =>
        obtain ⟨k, hk1, hk2⟩ := hstep
        obtain ⟨k', hk1', hk2'⟩ := ih c1 b1 s1 r h
        refine ⟨k + k', ?_, ?_⟩
        · rw [hk1']
          show s1.stats.conflicts + k' = _
          have : s1.stats.conflicts = s.stats.conflicts + k := hk1
          omega
        · rw [hk2']
          have : s1.stats.conflictsRestarts = s.stats.conflictsRestarts + k := hk2
          show s1.stats.conflictsRestarts + k' = _
          omega

/-- A call of `search` adds the same number to `conflicts` and to `conflictsRestarts`:
nothing is reset at entry or at a restart. -/
theorem search_counters {o : Oracle} {fuel : Nat} {s : Solver} {r : lbool × Solver}
    (h : search o fuel s = some r) :
    ∃ k, r.2.stats.conflicts = s.stats.conflicts + k ∧
      r.2.stats.conflictsRestarts = s.stats.conflictsRestarts + k := by
  unfold search at h
  split at h
  · simp at h
  · exact searchLoop_counters o _ _ _
      { s with stats := { s.stats with starts := s.stats.starts + 1 } } _ h

theorem solveLoop_counters (o : Oracle) : ∀ (fuel sfuel : Nat) (s : Solver)
    (r : lbool × Solver), solveLoop o fuel sfuel s = some r →
    ∃ k, r.2.stats.conflicts = s.stats.conflicts + k ∧
      r.2.stats.conflictsRestarts = s.stats.conflictsRestarts + k := by
  intro fuel
  induction fuel with
  | zero => intro sfuel s r h; simp [solveLoop] at h
  | succ fuel ih =>
    intro sfuel s r h
    rw [solveLoop] at h
    split at h
    · simp at h
    · next status s1 h1 =>
      obtain ⟨k, hk1, hk2⟩ := search_counters h1
      split at h
      · simp only [Option.some.injEq] at h; rw [← h]; exact ⟨k, hk1, hk2⟩
      · split at h
        · simp only [Option.some.injEq] at h; rw [← h]; exact ⟨k, hk1, hk2⟩
        · obtain ⟨k', hk1', hk2'⟩ := ih sfuel s1 r h
          have a1 : s1.stats.conflicts = s.stats.conflicts + k := hk1
          have a2 : s1.stats.conflictsRestarts = s.stats.conflictsRestarts + k := hk2
          exact ⟨k + k', by omega, by omega⟩

/-- A call of `solve_` adds the same number to `conflicts` and to `conflictsRestarts`. -/
theorem solve_counters {o : Oracle} {fuel : Nat} {files : Files} {s : Solver}
    {r : lbool × Solver} (h : solve_ o fuel files s = some r) :
    ∃ k, r.2.stats.conflicts = s.stats.conflicts + k ∧
      r.2.stats.conflictsRestarts = s.stats.conflictsRestarts + k := by
  unfold solve_ at h
  split at h
  · simp at h
  · next s0 h0 =>
    have he := centralityInit_erase h0
    have hst : s0.eraseTables.stats = s.eraseTables.stats := congrArg Solver.stats he
    have hst0 : s0.stats = s.stats := hst
    dsimp only at h
    split at h
    · simp only [Option.some.injEq] at h
      rw [← h]
      exact ⟨0, by show s0.stats.conflicts = _; rw [hst0]; rfl,
        by show s0.stats.conflictsRestarts = _; rw [hst0]; rfl⟩
    · split at h
      · simp at h
      · next status s3 h3 =>
        obtain ⟨k, hk1, hk2⟩ := solveLoop_counters o _ _ _ _ h3
        have a1 : s3.stats.conflicts = s.stats.conflicts + k := by
          rw [hk1]; show s0.stats.conflicts + k = _; rw [hst0]
        have a2 : s3.stats.conflictsRestarts = s.stats.conflictsRestarts + k := by
          rw [hk2]; show s0.stats.conflictsRestarts + k = _; rw [hst0]
        simp only [Option.some.injEq] at h
        rw [← h]
        refine ⟨k, ?_, ?_⟩
        · dsimp only
          have e4 : ∀ u : Solver, u.stats.conflicts = s3.stats.conflicts →
              (if status = lbool.l_True then
                { cancelUntil u 0 with stats := { (cancelUntil u 0).stats with
                    nbSatCalls := (cancelUntil u 0).stats.nbSatCalls + 1 } }
              else if status = lbool.l_False then
                { cancelUntil u 0 with stats := { (cancelUntil u 0).stats with
                    nbUnsatCalls := (cancelUntil u 0).stats.nbUnsatCalls + 1 } }
              else cancelUntil u 0).stats.conflicts = s3.stats.conflicts := by
            intro u hu
            have e := (scalars_conflicts (cancelUntil_scalars u 0)).1
            split
            · exact e.trans hu
            · split
              · exact e.trans hu
              · exact e.trans hu
          rw [← a1]
          apply e4
          split
          · rfl
          · split <;> rfl
        · dsimp only
          have e4 : ∀ u : Solver, u.stats.conflictsRestarts = s3.stats.conflictsRestarts →
              (if status = lbool.l_True then
                { cancelUntil u 0 with stats := { (cancelUntil u 0).stats with
                    nbSatCalls := (cancelUntil u 0).stats.nbSatCalls + 1 } }
              else if status = lbool.l_False then
                { cancelUntil u 0 with stats := { (cancelUntil u 0).stats with
                    nbUnsatCalls := (cancelUntil u 0).stats.nbUnsatCalls + 1 } }
              else cancelUntil u 0).stats.conflictsRestarts
                = s3.stats.conflictsRestarts := by
            intro u hu
            have e := (scalars_conflicts (cancelUntil_scalars u 0)).2
            split
            · exact e.trans hu
            · split
              · exact e.trans hu
              · exact e.trans hu
          rw [← a2]
          apply e4
          split
          · rfl
          · split <;> rfl

end Glucose


namespace Glucose

/-! ## Frames of conflict analysis -/

theorem AFrame.aframe_refl (s : Solver) : AFrame s s :=
  ⟨rfl, rfl, rfl, rfl, rfl, rfl, fun _ => Or.inl rfl⟩

theorem AFrame.aframe_trans {s t u : Solver} (h1 : AFrame s t) (h2 : AFrame t u) :
    AFrame s u := by
  refine ⟨h2.assigns.trans h1.assigns, h2.vardata.trans h1.vardata,
    h2.trail.trans h1.trail, h2.trail_lim.trans h1.trail_lim, h2.opts.trans h1.opts,
    h2.watchesBin.trans h1.watchesBin, ?_⟩
  intro cr
  rcases h1.lits cr with e1 | ⟨a, b, e1, e1'⟩
  · rcases h2.lits cr with e2 | ⟨a, b, e2, e2'⟩
    · exact Or.inl (e2.trans e1)
    · exact Or.inr ⟨a, b, e1 ▸ e2, e2'⟩
  · rcases h2.lits cr with e2 | ⟨c, d, e2, e2'⟩
    · exact Or.inr ⟨a, b, e1, e2.trans e1'⟩
    · left
      rw [e1'] at e2
      simp only [List.cons.injEq, and_true] at e2
      obtain ⟨rfl, rfl⟩ := e2
      rw [e2', e1]

/-- A state that differs from `s` in members that analysis does not read for the
assignment is a frame of `s`. -/
theorem AFrame.of_eqs {s t : Solver} (e1 : t.assigns = s.assigns) (e2 : t.vardata = s.vardata)
    (e3 : t.trail = s.trail) (e4 : t.trail_lim = s.trail_lim) (e5 : t.opts = s.opts)
    (e6 : t.watchesBin = s.watchesBin) (e7 : ∀ cr, (t.ca cr).lits = (s.ca cr).lits) :
    AFrame s t :=
  ⟨e1, e2, e3, e4, e5, e6, fun cr => Or.inl (e7 cr)⟩

theorem AFrame.value_eq {s t : Solver} (h : AFrame s t) (l : Lit) : t.value l = s.value l := by
  unfold Solver.value
  rw [h.assigns]

theorem AFrame.level_eq {s t : Solver} (h : AFrame s t) (v : Nat) : t.level v = s.level v := by
  unfold Solver.level
  rw [h.vardata]

theorem AFrame.reason_eq {s t : Solver} (h : AFrame s t) (v : Nat) :
    t.reason v = s.reason v := by
  unfold Solver.reason
  rw [h.vardata]

theorem AFrame.decisionLevel_eq {s t : Solver} (h : AFrame s t) :
    t.decisionLevel = s.decisionLevel := by
  unfold Solver.decisionLevel
  rw [h.trail_lim]

theorem AFrame.isSelector_eq {s t : Solver} (h : AFrame s t) (v : Nat) :
    t.isSelector v = s.isSelector v := by
  unfold Solver.isSelector
  rw [h.opts]

/-- The shape of a reason is not changed by the swap of the two literals of a binary
clause. -/
theorem ReasonAt.of_swap {s t : Solver} {i : Nat} {l : Lit} {c c2 : List Lit}
    (h : ReasonAt s i l c) (ht : t.trail = s.trail)
    (hc : c2 = c ∨ ∃ a b, c = [a, b] ∧ c2 = [b, a]) : ReasonAt t i l c2 := by
  unfold ReasonAt at h ⊢
  rw [ht]
  rcases hc with rfl | ⟨a, b, rfl, rfl⟩
  · exact h
  · rcases h with ⟨rest, e, hr⟩ | ⟨q, e, hq⟩
    · simp only [List.cons.injEq] at e
      obtain ⟨rfl, rfl⟩ := e
      right
      exact ⟨b, rfl, hr b (by simp)⟩
    · simp only [List.cons.injEq, and_true] at e
      obtain ⟨rfl, rfl⟩ := e
      left
      refine ⟨[a], rfl, ?_⟩
      intro q hq2
      simp only [List.mem_singleton] at hq2
      subst hq2
      exact hq

/-- A frame of an analysable state is analysable. -/
theorem AFrame.analysable {s t : Solver} (h : AFrame s t) (ha : Analysable s) :
    Analysable t := by
  refine ⟨ha.trail.trail_of_fields h.assigns h.vardata h.trail h.trail_lim, ?_, ?_, ?_⟩
  · rw [h.decisionLevel_eq]; exact ha.level
  · intro i l r hg hr
    rw [h.trail] at hg
    rw [h.reason_eq] at hr
    exact (ha.reasons i l r hg hr).of_swap h.trail (by
      rcases h.lits r with e | ⟨a, b, e1, e2⟩
      · exact Or.inl e
      · exact Or.inr ⟨a, b, e1, e2⟩)
  · intro i l b hg hb hlt
    rw [h.trail] at hg
    rw [h.trail_lim] at hb
    rw [h.reason_eq]
    exact ha.implied i l b hg hb hlt

/-! ## Facts on analysable states -/

/-- The negation of a trail literal is false. -/
theorem Analysable.false_of_neg_on_trail {s : Solver} (h : Analysable s) {q : Lit} {j : Nat}
    (hj : s.trail.get? j = some q.neg) : s.value q = lbool.l_False := by
  have := h.trail.allTrue q.neg (mem_of_get? hj)
  exact value_neg_true.mp this

/-- A false literal is the negation of a trail literal. -/
theorem Analysable.neg_on_trail_of_false {s : Solver} (h : Analysable s) {q : Lit}
    (hq : s.value q = lbool.l_False) : ∃ j, s.trail.get? j = some q.neg := by
  have : q.neg ∈ s.trail := h.trail.mem_of_true (value_neg_true.mpr hq)
  exact List.mem_iff_get?.mp this

/-- The trail positions of two literals of the same variable are the same. -/
theorem Analysable.index_of_var {s : Solver} (h : Analysable s) {i j : Nat} {l1 l2 : Lit}
    (hi : s.trail.get? i = some l1) (hj : s.trail.get? j = some l2) (hv : l1.var = l2.var) :
    i = j ∧ l1 = l2 := by
  have e : l1 = l2 :=
    same_lit_of_true hv (h.trail.allTrue l1 (mem_of_get? hi)) (h.trail.allTrue l2 (mem_of_get? hj))
  subst e
  exact ⟨trail_index_unique h.trail hi hj, rfl⟩

/-- The level of a trail literal is at most the current level, and the levels grow
along the trail. -/
theorem Analysable.level_mono {s : Solver} (h : Analysable s) {i j : Nat} {l1 l2 : Lit}
    (hi : s.trail.get? i = some l1) (hj : s.trail.get? j = some l2) (hij : i ≤ j) :
    s.level l1.var ≤ s.level l2.var := by
  rw [h.trail.levels i l1 hi, h.trail.levels j l2 hj]
  exact levelAt_mono _ hij

theorem Analysable.level_le {s : Solver} (h : Analysable s) {i : Nat} {l : Lit}
    (hi : s.trail.get? i = some l) : s.level l.var ≤ s.decisionLevel := by
  rw [h.trail.levels i l hi]
  exact levelAt_le _ _

/-- A trail literal of the current level that is not the first one of this level has a
reason. -/
theorem Analysable.reason_of_later {s : Solver} (h : Analysable s) {i j : Nat} {l1 l2 : Lit}
    (hi : s.trail.get? i = some l1) (hj : s.trail.get? j = some l2) (hij : i < j)
    (hl : s.decisionLevel ≤ s.level l1.var) : s.reason l2.var ≠ none := by
  have hpos := h.level
  unfold Solver.decisionLevel at hpos
  obtain ⟨b, hb⟩ : ∃ b, s.trail_lim.getLast? = some b := by
    cases hl2 : s.trail_lim.getLast? with
    | none =>
      rw [List.getLast?_eq_none_iff] at hl2
      rw [hl2] at hpos
      simp at hpos
    | some b => exact ⟨b, rfl⟩
  have hbi : b ≤ i := by
    by_contra hcon
    have hlev := h.trail.levels i l1 hi
    have hmem : b ∈ s.trail_lim := List.mem_of_getLast?_eq_some hb
    have : levelAt s.trail_lim i < s.trail_lim.length := by
      unfold levelAt
      apply lt_of_le_of_ne (List.countP_le_length _)
      intro e
      rw [List.countP_eq_length] at e
      have := e b hmem
      simp at this
      omega
    unfold Solver.decisionLevel at hl
    omega
  exact h.implied j l2 b hj hb (by omega)

end Glucose


namespace Glucose

/-! ## Counting marked literals -/

/-- Two predicates that differ on one literal of a list with pairwise distinct variables
count one apart. -/
theorem countP_flip {L : List Lit} {l : Lit} {p p2 : Lit → Bool}
    (hnd : (L.map Lit.var).Nodup) (hl : l ∈ L) (hP : p l = false) (hP2 : p2 l = true)
    (hother : ∀ x ∈ L, x.var ≠ l.var → p2 x = p x) : L.countP p2 = L.countP p + 1 := by
  induction L with
  | nil => simp at hl
  | cons x xs ih =>
    simp only [List.map_cons, List.nodup_cons, List.mem_map, not_exists, not_and] at hnd
    by_cases hx : x = l
    · subst hx
      have hrest : xs.countP p2 = xs.countP p := by
        apply List.countP_congr
        intro y hy
        have : y.var ≠ x.var := fun e => hnd.1 y hy e
        rw [hother y (List.mem_cons_of_mem _ hy) this]
      rw [List.countP_cons_of_pos _ _ hP2, List.countP_cons_of_neg _ _ (by simp [hP]), hrest]
    · have hl2 : l ∈ xs := by
        rcases List.mem_cons.mp hl with e | e
        · exact absurd e.symm hx
        · exact e
      have hv : x.var ≠ l.var := fun e => hnd.1 l hl2 e.symm
      have e1 := ih hnd.2 hl2 (fun y hy hyv => hother y (List.mem_cons_of_mem _ hy) hyv)
      have e2 : p2 x = p x := hother x (List.mem_cons_self _ _) hv
      rw [List.countP_cons, List.countP_cons, e1, e2]
      omega

theorem curCount_eq_countP (s : Solver) (k : Nat) :
    curCount s k = (s.trail.take k).countP
      (fun l => s.seen l.var && decide (s.decisionLevel ≤ s.level l.var)) := by
  unfold curCount
  rw [List.countP_eq_length_filter]

theorem nodup_take_vars {s : Solver} (h : TrailOK s) (k : Nat) :
    ((s.trail.take k).map Lit.var).Nodup := by
  rw [List.map_take]
  exact h.nodup.sublist (List.take_sublist _ _)

theorem mem_take_of_get? {α : Type} {l : List α} {i k : Nat} {x : α} (h : l.get? i = some x)
    (hik : i < k) : x ∈ l.take k := by
  apply mem_of_get? (i := i)
  rw [List.get?_eq_getElem?, List.getElem?_take_of_lt hik, ← List.get?_eq_getElem?]
  exact h

theorem get?_of_mem_take {α : Type} {l : List α} {k : Nat} {x : α} (h : x ∈ l.take k) :
    ∃ i, i < k ∧ l.get? i = some x := by
  obtain ⟨i, hi⟩ := List.mem_iff_get?.mp h
  rw [List.get?_eq_getElem?] at hi
  have hlt : i < k := by
    by_contra hc
    have : (l.take k).length ≤ i := by
      rw [List.length_take]; omega
    rw [List.getElem?_eq_none this] at hi
    cases hi
  rw [List.getElem?_take_of_lt hlt] at hi
  exact ⟨i, hlt, by rw [List.get?_eq_getElem?]; exact hi⟩

/-- A mark on a variable below the current level does not change the count. -/
theorem curCount_mark_low {s t : Solver} {k v : Nat} {b : Bool} (hf : AFrame s t)
    (hseen : t.seen = Function.update s.seen v b) (hlow : s.level v < s.decisionLevel) :
    curCount t k = curCount s k := by
  rw [curCount_eq_countP, curCount_eq_countP, hf.trail, hf.decisionLevel_eq]
  apply List.countP_congr
  intro l _
  rw [hf.level_eq, hseen]
  by_cases e : l.var = v
  · rw [e]
    have : decide (s.decisionLevel ≤ s.level v) = false := by
      simp only [decide_eq_false_iff_not]; omega
    rw [this]; simp
  · rw [Function.update_noteq e]

/-- A mark on a variable that is not among the first `k` trail literals does not change
the count. -/
theorem curCount_mark_absent {s t : Solver} {k v : Nat} {b : Bool} (hf : AFrame s t)
    (hseen : t.seen = Function.update s.seen v b)
    (habs : ∀ l ∈ s.trail.take k, l.var ≠ v) : curCount t k = curCount s k := by
  rw [curCount_eq_countP, curCount_eq_countP, hf.trail, hf.decisionLevel_eq]
  apply List.countP_congr
  intro l hl
  rw [hf.level_eq, hseen, Function.update_noteq (habs l hl)]

/-- A new mark on a trail literal of the current level before position `k` adds one to
the count. -/
theorem curCount_mark_cur {s t : Solver} {k j : Nat} {l : Lit} (ha : Analysable s)
    (hf : AFrame s t) (hseen : t.seen = Function.update s.seen l.var true)
    (hun : s.seen l.var = false) (hj : s.trail.get? j = some l) (hjk : j < k)
    (hcur : s.decisionLevel ≤ s.level l.var) : curCount t k = curCount s k + 1 := by
  rw [curCount_eq_countP, curCount_eq_countP, hf.trail, hf.decisionLevel_eq]
  apply countP_flip (nodup_take_vars ha.trail k) (mem_take_of_get? hj hjk)
  · simp [hun]
  · rw [hf.level_eq, hseen]
    simp [hcur]
  · intro x _ hx
    rw [hf.level_eq, hseen, Function.update_noteq hx]

/-- The count at the next position: the literal at position `k` counts when it is
marked and of the current level. -/
theorem curCount_succ {s : Solver} {k : Nat} {p : Lit} (hk : s.trail.get? k = some p) :
    curCount s (k + 1) = curCount s k +
      (if s.seen p.var = true ∧ s.decisionLevel ≤ s.level p.var then 1 else 0) := by
  rw [curCount_eq_countP, curCount_eq_countP]
  have hlt : k < s.trail.length := by
    rw [List.get?_eq_getElem?] at hk
    exact (List.getElem?_eq_some_iff.mp hk).1
  have hp : s.trail[k] = p := by
    rw [List.get?_eq_getElem?] at hk
    exact (List.getElem?_eq_some_iff.mp hk).2
  rw [List.take_succ, List.getElem?_eq_getElem hlt, hp]
  simp only [Option.toList_some, List.countP_append, List.countP_cons, List.countP_nil,
    Bool.and_eq_true, decide_eq_true_eq, zero_add]

/-- A positive count gives a marked literal of the current level before `k`. -/
theorem exists_of_curCount_pos {s : Solver} {k : Nat} (h : 0 < curCount s k) :
    ∃ i l, i < k ∧ s.trail.get? i = some l ∧ s.seen l.var = true ∧
      s.decisionLevel ≤ s.level l.var := by
  rw [curCount_eq_countP, List.countP_pos_iff] at h
  obtain ⟨l, hl, hp⟩ := h
  simp only [Bool.and_eq_true, decide_eq_true_eq] at hp
  obtain ⟨i, hi, hg⟩ := get?_of_mem_take hl
  exact ⟨i, l, hi, hg, hp.1, hp.2⟩

/-- A count of zero: no marked literal of the current level before `k`. -/
theorem not_seen_of_curCount_zero {s : Solver} {k i : Nat} {l : Lit} (h : curCount s k = 0)
    (hi : i < k) (hg : s.trail.get? i = some l) (hcur : s.decisionLevel ≤ s.level l.var) :
    s.seen l.var = false := by
  rw [curCount_eq_countP, List.countP_eq_zero] at h
  have := h l (mem_take_of_get? hg hi)
  simp only [Bool.and_eq_true, decide_eq_true_eq, not_and] at this
  by_contra hc
  simp only [Bool.not_eq_false] at hc
  exact this hc hcur

/-! ## Stamps of `permDiff` -/

theorem lbdLoop_stamps (s : Solver) (flag : Nat) (lits : List Lit) (pd : Nat → Nat) (n : Nat)
    (h : ∀ x, pd x ≤ flag) : ∀ x, (lbdLoop s flag lits pd n).1 x ≤ flag := by
  induction lits generalizing pd n with
  | nil => exact h
  | cons l ls ih =>
    unfold lbdLoop
    split
    · apply ih
      intro x
      by_cases e : x = s.level l.var
      · rw [e, Function.update_same]
      · rw [Function.update_noteq e]; exact h x
    · exact ih pd n h

theorem lbdLoopInc_stamps (s : Solver) (flag : Nat) (bound : Int) (lits : List Lit)
    (nbDone : Nat) (pd : Nat → Nat) (n : Nat) (h : ∀ x, pd x ≤ flag) :
    ∀ x, (lbdLoopInc s flag bound lits nbDone pd n).1 x ≤ flag := by
  induction lits generalizing pd n nbDone with
  | nil => exact h
  | cons l ls ih =>
    unfold lbdLoopInc
    split
    · exact h
    · split
      · exact ih nbDone pd n h
      · split
        · apply ih
          intro x
          by_cases e : x = s.level l.var
          · rw [e, Function.update_same]
          · rw [Function.update_noteq e]; exact h x
        · exact ih _ pd n h

/-- The computation of an LBD keeps every stamp at or below `MYFLAG`, and changes only
`MYFLAG` and `permDiff`. -/
theorem computeLBDCore_stamps (s : Solver) (lits : List Lit) (bound : Int)
    (h : ∀ x, s.permDiff x ≤ s.MYFLAG) :
    ∀ x, (computeLBDCore s lits bound).2.permDiff x ≤ (computeLBDCore s lits bound).2.MYFLAG := by
  unfold computeLBDCore
  dsimp only
  have h2 : ∀ x, s.permDiff x ≤ s.MYFLAG + 1 := fun x => Nat.le_succ_of_le (h x)
  split
  · exact lbdLoopInc_stamps s _ bound lits 0 _ 0 h2
  · exact lbdLoop_stamps s _ lits _ 0 h2

end Glucose


namespace Glucose

/-! ## Steps of conflict analysis that set no mark -/

theorem QFrame.q_refl (s : Solver) : QFrame s s :=
  ⟨AFrame.aframe_refl s, rfl, rfl, rfl, rfl, fun h => h⟩

theorem QFrame.q_trans {s t u : Solver} (h1 : QFrame s t) (h2 : QFrame t u) : QFrame s u :=
  ⟨h1.frame.aframe_trans h2.frame, h2.seen.trans h1.seen, h2.lastDL.trans h1.lastDL,
    h2.toclear.trans h1.toclear, h2.stack.trans h1.stack, fun h => h2.stamps (h1.stamps h)⟩

theorem computeLBDCore_qframe (s : Solver) (lits : List Lit) (b : Int) :
    QFrame s (computeLBDCore s lits b).2 :=
  ⟨AFrame.of_eqs rfl rfl rfl rfl rfl rfl (fun _ => rfl), rfl, rfl, rfl, rfl,
    computeLBDCore_stamps s lits b⟩

theorem setLits_swap_qframe {s : Solver} {cr : Nat} {a b : Lit}
    (h : (s.ca cr).lits = [a, b]) : QFrame s (s.setLits cr [b, a]) := by
  refine ⟨⟨rfl, rfl, rfl, rfl, rfl, rfl, ?_⟩, rfl, rfl, rfl, rfl, fun h => h⟩
  intro x
  by_cases e : x = cr
  · subst e
    right
    refine ⟨a, b, h, ?_⟩
    simp [Solver.setLits]
  · left
    simp [Solver.setLits, Function.update_noteq e]

/-- The binary special case on the reason of a true literal `l`: no abort, and `l` is
the first literal afterwards. -/
theorem swapBinary_spec {s : Solver} {cr k : Nat} {l : Lit} (ha : Analysable s)
    (hl : s.value l = lbool.l_True) (hr : ReasonAt s k l (s.ca cr).lits) :
    ∃ t, swapBinary s cr = some t ∧ QFrame s t ∧
      ∃ rest, (t.ca cr).lits = l :: rest ∧
        ∀ q ∈ rest, ∃ j, j < k ∧ s.trail.get? j = some q.neg := by
  unfold swapBinary
  rcases hr with ⟨rest, e, hrest⟩ | ⟨q, e, j, hj, hq⟩
  · have hkeep : s.value l ≠ lbool.l_False := by rw [hl]; decide
    split
    · next c0 c1 hc =>
      rw [hc] at e
      simp only [List.cons.injEq] at e
      obtain ⟨rfl, rfl⟩ := e
      rw [if_neg hkeep]
      exact ⟨s, rfl, QFrame.q_refl s, [c1], hc, hrest⟩
    · exact ⟨s, rfl, QFrame.q_refl s, rest, e, hrest⟩
  · have hqf : s.value q = lbool.l_False := ha.false_of_neg_on_trail hq
    rw [e]
    dsimp only
    rw [if_pos hqf, if_pos hl]
    refine ⟨_, rfl, setLits_swap_qframe e, [q], ?_, ?_⟩
    · simp [Solver.setLits]
    · intro x hx
      simp only [List.mem_singleton] at hx
      subst hx
      exact ⟨j, hj, hq⟩

/-- The head of the loop body of `analyze`: no abort, no mark is set, and for a reason
clause the literals after the first are negations of earlier trail literals. -/
theorem analyzeClause_spec {s : Solver} {cr k : Nat} {p : Option Lit} (ha : Analysable s)
    (hp : ∀ l, p = some l → s.value l = lbool.l_True ∧ ReasonAt s k l (s.ca cr).lits) :
    ∃ t, analyzeClause s cr p = some t ∧ QFrame s t ∧
      (p = none → (t.ca cr).lits = (s.ca cr).lits) ∧
      (∀ l, p = some l → ∃ rest, (t.ca cr).lits = l :: rest ∧
        ∀ q ∈ rest, ∃ j, j < k ∧ s.trail.get? j = some q.neg) := by
  have hswap : ∃ s1, (if p.isSome then swapBinary s cr else some s) = some s1 ∧ QFrame s s1 ∧
      (p = none → (s1.ca cr).lits = (s.ca cr).lits) ∧
      (∀ l, p = some l → ∃ rest, (s1.ca cr).lits = l :: rest ∧
        ∀ q ∈ rest, ∃ j, j < k ∧ s.trail.get? j = some q.neg) := by
    cases p with
    | none => exact ⟨s, rfl, QFrame.q_refl s, fun _ => rfl, fun l hl => Option.noConfusion hl⟩
    | some l =>
      obtain ⟨t, h1, h2, h3⟩ := swapBinary_spec ha (hp l rfl).1 (hp l rfl).2
      refine ⟨t, h1, h2, ?_, ?_⟩
      · intro h; exact Option.noConfusion h
      · intro l2 hl2
        cases hl2
        exact h3
  obtain ⟨s1, h1, hq1, hn1, hs1⟩ := hswap
  unfold analyzeClause
  rw [h1]
  dsimp only
  have e2 : ∀ u : Solver, u = (if (s1.ca cr).learnt = true then s1
      else if (s1.ca cr).seen = false then
        { s1 with
          stats := { s1.stats with
            originalClausesSeen := s1.stats.originalClausesSeen + 1 },
          ca := Function.update s1.ca cr { s1.ca cr with seen := true } }
      else s1) → QFrame s1 u ∧ (u.ca cr).lits = (s1.ca cr).lits := by
    intro u hu
    rw [hu]
    split
    · exact ⟨QFrame.q_refl s1, rfl⟩
    · split
      · refine ⟨⟨AFrame.of_eqs rfl rfl rfl rfl rfl rfl ?_, rfl, rfl, rfl, rfl, fun h => h⟩, ?_⟩
        · intro x
          by_cases e : x = cr
          · subst e; simp
          · simp [Function.update_noteq e]
        · simp
      · exact ⟨QFrame.q_refl s1, rfl⟩
  generalize hu : (if (s1.ca cr).learnt = true then s1
      else if (s1.ca cr).seen = false then
        { s1 with
          stats := { s1.stats with
            originalClausesSeen := s1.stats.originalClausesSeen + 1 },
          ca := Function.update s1.ca cr { s1.ca cr with seen := true } }
      else s1) = u
  obtain ⟨hq2, hl2⟩ := e2 u hu.symm
  have hq3 : QFrame u (computeLBDClause u (u.ca cr)).2 := computeLBDCore_qframe _ _ _
  have fin : ∀ t : Solver, QFrame u t → (t.ca cr).lits = (u.ca cr).lits →
      QFrame s t ∧
      (p = none → (t.ca cr).lits = (s.ca cr).lits) ∧
      (∀ l, p = some l → ∃ rest, (t.ca cr).lits = l :: rest ∧
        ∀ q ∈ rest, ∃ j, j < k ∧ s.trail.get? j = some q.neg) := by
    intro t hq hl
    refine ⟨(hq1.q_trans hq2).q_trans hq, ?_, ?_⟩
    · intro hn; rw [hl, hl2, hn1 hn]
    · intro l hpl; rw [hl, hl2]; exact hs1 l hpl
  split
  · split
    · refine ⟨_, rfl, fin _ ?_ ?_⟩
      · refine hq3.q_trans ⟨AFrame.of_eqs rfl rfl rfl rfl rfl rfl ?_, rfl, rfl, rfl, rfl,
          fun h => h⟩
        intro x
        by_cases e : x = cr
        · subst e
          simp only [Function.update_same]
          split <;> rfl
        · simp only [Function.update_noteq e]
      · simp only [Function.update_same]
        split <;> rfl
    · exact ⟨_, rfl, fin _ hq3 rfl⟩
  · exact ⟨_, rfl, fin _ (QFrame.q_refl u) rfl⟩

/-! ## The invariant of the resolution loop -/

/-- The invariant of the resolution loop passes to a state with the same marks. -/
theorem WalkInv.walk_of_qframe {s t : Solver} {k : Nat} {pathC : Int} {out sel : List Lit}
    (h : WalkInv s k pathC out sel) (hq : QFrame s t) : WalkInv t k pathC out sel := by
  have hf := hq.frame
  refine ⟨hf.analysable h.ok, ?_, ?_, ?_, h.nodup, ?_, hq.stamps h.stamps⟩
  · rw [h.count]
    congr 1
    unfold curCount
    rw [hf.trail, hf.decisionLevel_eq, hq.seen]
    congr 2
    funext l
    rw [hf.level_eq]
  · intro v hv
    rw [hq.seen] at hv
    rw [hf.trail, hf.decisionLevel_eq, hf.level_eq]
    exact h.seenCases v hv
  · intro l hl
    rw [hf.value_eq, hf.level_eq, hf.decisionLevel_eq, hq.seen]
    exact h.pushed l hl
  · intro q hq2
    rw [hq.lastDL] at hq2
    rw [hf.reason_eq]
    exact h.lastDL q hq2

/-- The effect of a new mark on a literal of the current level. -/
theorem WalkInv.mark_cur {s t : Solver} {k j : Nat} {pathC : Int} {out sel : List Lit}
    {q : Lit} (h : WalkInv s k pathC out sel) (hf : AFrame s t)
    (hseen : t.seen = Function.update s.seen q.var true)
    (hpd : t.permDiff = s.permDiff) (hmf : t.MYFLAG = s.MYFLAG)
    (hld : ∀ x ∈ t.lastDecisionLevel, x ∈ s.lastDecisionLevel ∨ s.reason x.var ≠ none)
    (hun : s.seen q.var = false) (hj : s.trail.get? j = some q.neg) (hjk : j < k)
    (hcur : s.decisionLevel ≤ s.level q.var) : WalkInv t k (pathC + 1) out sel := by
  refine ⟨hf.analysable h.ok, ?_, ?_, ?_, h.nodup, ?_, ?_⟩
  · rw [curCount_mark_cur (l := q.neg) h.ok hf hseen hun hj hjk hcur, h.count]
    push_cast
    rfl
  · intro v hv
    rw [hf.trail, hf.decisionLevel_eq, hf.level_eq]
    by_cases e : v = q.var
    · left
      exact ⟨j, q.neg, hjk, hj, by rw [e]; rfl, by rw [e]; exact hcur⟩
    · rw [hseen, Function.update_noteq e] at hv
      exact h.seenCases v hv
  · intro l hl
    rw [hf.value_eq, hf.level_eq, hf.decisionLevel_eq, hseen]
    obtain ⟨h1, h2, h3, h4⟩ := h.pushed l hl
    refine ⟨h1, h2, h3, ?_⟩
    by_cases e : l.var = q.var
    · rw [e, Function.update_same]
    · rw [Function.update_noteq e]; exact h4
  · intro x hx
    rw [hf.reason_eq]
    rcases hld x hx with h1 | h1
    · exact h.lastDL x h1
    · exact h1
  · intro x
    rw [hpd, hmf]
    exact h.stamps x

/-- The effect of a new mark on a literal below the current level that is pushed on
`out_learnt` or on `selectors`. -/
theorem WalkInv.mark_low {s t : Solver} {k : Nat} {pathC : Int} {out sel out2 sel2 : List Lit}
    {q : Lit} (h : WalkInv s k pathC out sel) (hf : AFrame s t)
    (hseen : t.seen = Function.update s.seen q.var true)
    (hpd : t.permDiff = s.permDiff) (hmf : t.MYFLAG = s.MYFLAG)
    (hld : t.lastDecisionLevel = s.lastDecisionLevel)
    (hun : s.seen q.var = false) (hval : s.value q = lbool.l_False)
    (hpos : s.level q.var ≠ 0) (hlow : ¬ s.decisionLevel ≤ s.level q.var)
    (hmem : ∀ l, l ∈ out2 ++ sel2 ↔ l ∈ out ++ sel ∨ l = q)
    (hperm : (out2 ++ sel2).Perm (q :: (out ++ sel))) : WalkInv t k pathC out2 sel2 := by
  refine ⟨hf.analysable h.ok, ?_, ?_, ?_, ?_, ?_, ?_⟩
  · rw [curCount_mark_low hf hseen (by omega), h.count]
  · intro v hv
    rw [hf.trail, hf.decisionLevel_eq, hf.level_eq]
    by_cases e : v = q.var
    · right
      exact ⟨q, (hmem q).mpr (Or.inr rfl), e.symm⟩
    · rw [hseen, Function.update_noteq e] at hv
      rcases h.seenCases v hv with h1 | ⟨l, hl, hlv⟩
      · exact Or.inl h1
      · exact Or.inr ⟨l, (hmem l).mpr (Or.inl hl), hlv⟩
  · intro l hl
    rw [hf.value_eq, hf.level_eq, hf.decisionLevel_eq, hseen]
    rcases (hmem l).mp hl with h1 | h1
    · obtain ⟨h1, h2, h3, h4⟩ := h.pushed l h1
      refine ⟨h1, h2, h3, ?_⟩
      by_cases e : l.var = q.var
      · rw [e, Function.update_same]
      · rw [Function.update_noteq e]; exact h4
    · subst h1
      exact ⟨hval, by omega, by omega, by rw [Function.update_same]⟩
  · have : ((q :: (out ++ sel)).map Lit.var).Nodup := by
      rw [List.map_cons, List.nodup_cons]
      refine ⟨?_, h.nodup⟩
      intro hm
      obtain ⟨l, hl, hlv⟩ := List.mem_map.mp hm
      have := (h.pushed l hl).2.2.2
      rw [hlv, hun] at this
      cases this
    exact (List.Perm.nodup_iff (hperm.map Lit.var)).mpr this
  · intro x hx
    rw [hld] at hx
    rw [hf.reason_eq]
    exact h.lastDL x hx
  · intro x
    rw [hpd, hmf]
    exact h.stamps x

end Glucose


namespace Glucose

/-! ## The loop of `analyze` over the literals of a clause -/

theorem AFrame.of_same {s u t : Solver} (h : AFrame s u) (e1 : t.assigns = u.assigns)
    (e2 : t.vardata = u.vardata) (e3 : t.trail = u.trail) (e4 : t.trail_lim = u.trail_lim)
    (e5 : t.opts = u.opts) (e6 : t.watchesBin = u.watchesBin) (e7 : t.ca = u.ca) :
    AFrame s t :=
  h.aframe_trans (AFrame.of_eqs e1 e2 e3 e4 e5 e6 (fun cr => by rw [e7]))

theorem seen_grow_of_update {s t : Solver} {v : Nat}
    (h : t.seen = Function.update s.seen v true) :
    (∀ x, s.seen x = true → t.seen x = true) ∧ (s.level v ≠ 0 → t.seen v = true) := by
  rw [h]
  refine ⟨fun x hx => ?_, fun _ => Function.update_same _ _ _⟩
  by_cases e : x = v
  · rw [e, Function.update_same]
  · rw [Function.update_noteq e]; exact hx

/-- The body of the loop over the literals, for the negation of a trail literal before
position `k`: no abort, the invariant is kept, `pathC` does not decrease, marks stay
and the literal is marked unless it is at level 0. -/
theorem analyzeLit_spec {s : Solver} {k : Nat} {pathC : Int} {out sel : List Lit} {q : Lit}
    (h : WalkInv s k pathC out sel) (hq : ∃ j, j < k ∧ s.trail.get? j = some q.neg) :
    ∃ t pc out2 sel2, analyzeLit s q pathC out sel = some (t, pc, out2, sel2) ∧
      WalkInv t k pc out2 sel2 ∧ AFrame s t ∧ pathC ≤ pc ∧
      ((∀ x, s.seen x = true → t.seen x = true) ∧ (s.level q.var ≠ 0 → t.seen q.var = true)) := by
  obtain ⟨j, hjk, hj⟩ := hq
  have hval : s.value q = lbool.l_False := h.ok.false_of_neg_on_trail hj
  unfold analyzeLit
  have e1 : ∀ u : Solver, u = (if s.isSelector q.var = false then
          if s.highcenter q.var = true ∧ s.stats.decisions < 100000 then
            s.varBumpActivity q.var true
          else s.varBumpActivity q.var false
        else s) → AFrame s u ∧ u.seen = s.seen ∧ u.permDiff = s.permDiff ∧
          u.MYFLAG = s.MYFLAG ∧ u.lastDecisionLevel = s.lastDecisionLevel := by
    intro u hu
    rw [hu]
    split
    · split <;> exact ⟨AFrame.of_eqs rfl rfl rfl rfl rfl rfl (fun _ => rfl), rfl, rfl, rfl, rfl⟩
    · exact ⟨AFrame.aframe_refl s, rfl, rfl, rfl, rfl⟩
  generalize hu : (if s.isSelector q.var = false then
          if s.highcenter q.var = true ∧ s.stats.decisions < 100000 then
            s.varBumpActivity q.var true
          else s.varBumpActivity q.var false
        else s) = u
  obtain ⟨hf, hseen, hpd, hmf, hld⟩ := e1 u hu.symm
  have hseen2 : Function.update u.seen q.var true = Function.update s.seen q.var true := by
    rw [hseen]
  split
  · next hun =>
    split
    · next hl0 =>
      exact ⟨s, pathC, out, sel, rfl, h, AFrame.aframe_refl s, le_refl _, fun _ hx => hx,
        fun hne => absurd hl0 hne⟩
    · next hl0 =>
      dsimp only
      split
      · next hcur =>
        split
        · next hsel =>
          refine ⟨_, _, _, _, rfl, ?_, hf.of_same rfl rfl rfl rfl rfl rfl rfl, by omega,
            seen_grow_of_update hseen2⟩
          refine h.mark_cur (hf.of_same rfl rfl rfl rfl rfl rfl rfl) hseen2 hpd hmf ?_ hun hj
            hjk hcur
          intro x hx
          have hx2 : x ∈ u.lastDecisionLevel ++ [q] := hx
          rw [hld, List.mem_append, List.mem_singleton] at hx2
          rcases hx2 with hx2 | hx2
          · exact Or.inl hx2
          · right
            subst hx2
            intro hnone
            rw [hnone] at hsel
            simp at hsel
        · refine ⟨_, _, _, _, rfl, ?_, hf.of_same rfl rfl rfl rfl rfl rfl rfl, by omega,
            seen_grow_of_update hseen2⟩
          refine h.mark_cur (hf.of_same rfl rfl rfl rfl rfl rfl rfl) hseen2 hpd hmf ?_ hun hj
            hjk hcur
          intro x hx
          have hx2 : x ∈ u.lastDecisionLevel := hx
          rw [hld] at hx2
          exact Or.inl hx2
      · next hlow =>
        split
        · first | rw [if_pos hval] | skip
          refine ⟨_, _, _, _, rfl, ?_, hf.of_same rfl rfl rfl rfl rfl rfl rfl, le_refl _,
            seen_grow_of_update hseen2⟩
          refine h.mark_low (hf.of_same rfl rfl rfl rfl rfl rfl rfl) hseen2 hpd hmf hld hun hval
            hl0 hlow ?_ ?_
          · intro l
            simp only [List.mem_append, List.mem_singleton]
            tauto
          · rw [← List.append_assoc]
            exact List.perm_append_singleton _ _
        · refine ⟨_, _, _, _, rfl, ?_, hf.of_same rfl rfl rfl rfl rfl rfl rfl, le_refl _,
            seen_grow_of_update hseen2⟩
          refine h.mark_low (hf.of_same rfl rfl rfl rfl rfl rfl rfl) hseen2 hpd hmf hld hun hval
            hl0 hlow ?_ ?_
          · intro l
            simp only [List.mem_append, List.mem_singleton]
            tauto
          · have : (out ++ [q] ++ sel).Perm (out ++ sel ++ [q]) := by
              rw [List.append_assoc, List.append_assoc]
              exact List.Perm.append_left _ List.perm_append_comm
            exact this.trans (List.perm_append_singleton _ _)
  · next hsn =>
    exact ⟨s, pathC, out, sel, rfl, h, AFrame.aframe_refl s, le_refl _, fun _ hx => hx,
      fun _ => by simpa using hsn⟩

/-- The loop over the literals of a clause, all negations of trail literals before
position `k`: no abort, the invariant is kept, `pathC` does not decrease, marks stay and
the literals above level 0 are marked. -/
theorem analyzeLits_spec : ∀ (qs : List Lit) {s : Solver} {k : Nat} {pathC : Int}
    {out sel : List Lit}, WalkInv s k pathC out sel →
    (∀ q ∈ qs, ∃ j, j < k ∧ s.trail.get? j = some q.neg) →
    ∃ t pc out2 sel2, analyzeLits qs s pathC out sel = some (t, pc, out2, sel2) ∧
      WalkInv t k pc out2 sel2 ∧ AFrame s t ∧ pathC ≤ pc ∧
      ((∀ x, s.seen x = true → t.seen x = true) ∧
        (∀ q ∈ qs, s.level q.var ≠ 0 → t.seen q.var = true)) := by
  intro qs
  induction qs with
  | nil =>
    intro s k pathC out sel h _
    exact ⟨s, pathC, out, sel, rfl, h, AFrame.aframe_refl s, le_refl _, fun _ hx => hx,
      fun q hq => by simp at hq⟩
  | cons q qs ih =>
    intro s k pathC out sel h hqs
    obtain ⟨t, pc, o2, s2, e, hw, hf, hle, hg1, hg2⟩ :=
      analyzeLit_spec h (hqs q (List.mem_cons_self _ _))
    have hqs2 : ∀ x ∈ qs, ∃ j, j < k ∧ t.trail.get? j = some x.neg := by
      intro x hx
      rw [hf.trail]
      exact hqs x (List.mem_cons_of_mem _ hx)
    obtain ⟨t2, pc2, o3, s3, e2, hw2, hf2, hle2, hg3, hg4⟩ := ih hw hqs2
    refine ⟨t2, pc2, o3, s3, ?_, hw2, hf.aframe_trans hf2, le_trans hle hle2,
      fun x hx => hg3 x (hg1 x hx), ?_⟩
    · rw [analyzeLits, e]
      exact e2
    · intro x hx hne
      rcases List.mem_cons.mp hx with e3 | e3
      · subst e3
        exact hg3 _ (hg2 hne)
      · exact hg4 x e3 (by rw [hf.level_eq]; exact hne)

end Glucose


namespace Glucose

/-! ## The resolution loop of `analyze` -/

/-- With a count of zero the marked variables are those of the pushed literals. -/
theorem WalkInv.finished {s : Solver} {k : Nat} {out sel : List Lit}
    (h : WalkInv s k 0 out sel) : WalkInv s 0 0 out sel := by
  have hc : curCount s k = 0 := by
    have := h.count
    omega
  refine ⟨h.ok, ?_, ?_, h.pushed, h.nodup, h.lastDL, h.stamps⟩
  · simp [curCount]
  · intro v hv
    rcases h.seenCases v hv with ⟨i, l, hi, hg, hl, hcur⟩ | h2
    · have := not_seen_of_curCount_zero hc hi hg (by rw [hl]; exact hcur)
      rw [hl, hv] at this
      cases this
    · exact Or.inr h2

/-- The invariant at the next lower position when the literal at position `k` is not
marked. -/
theorem WalkInv.skip {s : Solver} {k : Nat} {pathC : Int} {out sel : List Lit} {p : Lit}
    (h : WalkInv s (k + 1) pathC out sel) (hk : s.trail.get? k = some p)
    (hun : ¬ s.seen p.var = true) : WalkInv s k pathC out sel := by
  refine ⟨h.ok, ?_, ?_, h.pushed, h.nodup, h.lastDL, h.stamps⟩
  · rw [h.count, curCount_succ hk, if_neg (fun hc => hun hc.1)]
    rfl
  · intro v hv
    rcases h.seenCases v hv with ⟨i, l, hi, hg, hl, hcur⟩ | h2
    · left
      refine ⟨i, l, ?_, hg, hl, hcur⟩
      rcases Nat.lt_succ_iff_lt_or_eq.mp hi with h3 | h3
      · exact h3
      · subst h3
        rw [hk] at hg
        cases hg
        rw [hl] at hun
        exact absurd hv hun
    · exact Or.inr h2

/-- The marked literal found by the walk is of the current level; after its mark is
cleared the invariant holds at its position with `pathC - 1`. -/
theorem WalkInv.take {s t : Solver} {k : Nat} {pathC : Int} {out sel : List Lit} {p : Lit}
    (h : WalkInv s (k + 1) pathC out sel) (hpos : 0 < pathC) (hk : s.trail.get? k = some p)
    (hsn : s.seen p.var = true) (hf : AFrame s t)
    (hseen : t.seen = Function.update s.seen p.var false)
    (hpd : t.permDiff = s.permDiff) (hmf : t.MYFLAG = s.MYFLAG)
    (hld : t.lastDecisionLevel = s.lastDecisionLevel) :
    WalkInv t k (pathC - 1) out sel ∧ s.level p.var = s.decisionLevel := by
  have hc : 0 < curCount s (k + 1) := by
    have := h.count
    omega
  obtain ⟨i, l, hi, hg, hls, hlc⟩ := exists_of_curCount_pos hc
  have hcur : s.decisionLevel ≤ s.level p.var :=
    le_trans hlc (h.ok.level_mono hg hk (Nat.lt_succ_iff.mp hi))
  have hlev : s.level p.var = s.decisionLevel := le_antisymm (h.ok.level_le hk) hcur
  have habs : ∀ x ∈ s.trail.take k, x.var ≠ p.var := by
    intro x hx e
    obtain ⟨i2, hi2, hg2⟩ := get?_of_mem_take hx
    have := (h.ok.index_of_var hg2 hk e).1
    omega
  refine ⟨⟨hf.analysable h.ok, ?_, ?_, ?_, h.nodup, ?_, ?_⟩, hlev⟩
  · rw [curCount_mark_absent hf hseen habs, h.count, curCount_succ hk, if_pos ⟨hsn, hcur⟩]
    push_cast
    omega
  · intro v hv
    rw [hf.trail, hf.decisionLevel_eq, hf.level_eq]
    have hvp : v ≠ p.var := by
      intro e
      rw [hseen, e, Function.update_same] at hv
      cases hv
    rw [hseen, Function.update_noteq hvp] at hv
    rcases h.seenCases v hv with ⟨i2, l2, hi2, hg2, hl2, hcur2⟩ | h2
    · left
      refine ⟨i2, l2, ?_, hg2, hl2, hcur2⟩
      rcases Nat.lt_succ_iff_lt_or_eq.mp hi2 with h3 | h3
      · exact h3
      · subst h3
        rw [hk] at hg2
        cases hg2
        exact absurd hl2.symm hvp
    · exact Or.inr h2
  · intro x hx
    rw [hf.value_eq, hf.level_eq, hf.decisionLevel_eq, hseen]
    obtain ⟨h1, h2, h3, h4⟩ := h.pushed x hx
    refine ⟨h1, h2, h3, ?_⟩
    have : x.var ≠ p.var := by
      intro e
      rw [e] at h3
      omega
    rw [Function.update_noteq this]
    exact h4
  · intro x hx
    rw [hld] at hx
    rw [hf.reason_eq]
    exact h.lastDL x hx
  · intro x
    rw [hpd, hmf]
    exact h.stamps x

/-- The walk down the trail with a positive `pathC`: no abort; at the end the marked
variables are those of the pushed literals and `p` is a trail literal of the current
level. -/
theorem analyzeWalk_spec : ∀ (k : Nat) {s : Solver} {pathC : Int} {out sel : List Lit},
    WalkInv s k pathC out sel → 0 < pathC → k ≤ s.trail.length →
    ∃ t p out2 sel2, analyzeWalk k s pathC out sel = some (t, p, out2, sel2) ∧
      WalkInv t 0 0 out2 sel2 ∧ AFrame s t ∧ p ∈ s.trail ∧
      s.level p.var = s.decisionLevel := by
  intro k
  induction k with
  | zero =>
    intro s pathC out sel h hpos _
    have := h.count
    simp [curCount] at this
    omega
  | succ k ih =>
    intro s pathC out sel h hpos hlen
    rw [analyzeWalk]
    cases hk : s.trail.get? k with
    | none =>
      exfalso
      rw [List.get?_eq_getElem?] at hk
      have h1 := List.getElem?_eq_none_iff.mp hk
      omega
    | some p =>
      dsimp only
      by_cases hsn : s.seen p.var = true
      · rw [if_pos hsn]
        have hf1 : AFrame s { s with seen := Function.update s.seen p.var false } :=
          AFrame.of_eqs rfl rfl rfl rfl rfl rfl (fun _ => rfl)
        obtain ⟨hw1, hlev⟩ := h.take hpos hk hsn hf1 rfl rfl rfl rfl
        generalize hs1 : ({ s with seen := Function.update s.seen p.var false } : Solver) = s1
          at hf1 hw1
        have hpm : p ∈ s.trail := mem_of_get? hk
        by_cases hgo : 0 < pathC - 1
        · rw [if_pos hgo]
          have hc1 : 0 < curCount s1 k := by
            have := hw1.count
            omega
          obtain ⟨i, l, hi, hg, _, hlc⟩ := exists_of_curCount_pos hc1
          have hk1 : s1.trail.get? k = some p := by rw [hf1.trail]; exact hk
          have hr : s1.reason p.var ≠ none := hw1.ok.reason_of_later hg hk1 hi hlc
          cases hcr : s1.reason p.var with
          | none => exact absurd hcr hr
          | some cr =>
            dsimp only
            have hra := hw1.ok.reasons k p cr hk1 hcr
            have hpt : s1.value p = lbool.l_True := hw1.ok.trail.allTrue p (mem_of_get? hk1)
            obtain ⟨s2, e2, hq2, _, hl2⟩ := analyzeClause_spec (p := some p) hw1.ok
              (fun l hl => by cases hl; exact ⟨hpt, hra⟩)
            obtain ⟨rest, hrest, hbefore⟩ := hl2 p rfl
            rw [e2]
            dsimp only
            have hw2 := hw1.walk_of_qframe hq2
            have hqs : ∀ q ∈ (s2.ca cr).lits.drop 1,
                ∃ j, j < k ∧ s2.trail.get? j = some q.neg := by
              intro q hq
              rw [hrest] at hq
              rw [hq2.frame.trail]
              exact hbefore q hq
            obtain ⟨s3, pc3, o3, sl3, e3, hw3, hf3, hle3, _⟩ := analyzeLits_spec _ hw2 hqs
            rw [e3]
            dsimp only
            have hf13 : AFrame s s3 := (hf1.aframe_trans hq2.frame).aframe_trans hf3
            obtain ⟨t, p2, o4, sl4, e4, hw4, hf4, hp4, hl4⟩ :=
              ih hw3 (by omega) (by rw [hf13.trail]; omega)
            refine ⟨t, p2, o4, sl4, e4, hw4, hf13.aframe_trans hf4, ?_, ?_⟩
            · rw [← hf13.trail]; exact hp4
            · rw [← hf13.level_eq, ← hf13.decisionLevel_eq]; exact hl4
        · rw [if_neg hgo]
          have hz : pathC - 1 = 0 := by omega
          rw [hz] at hw1
          exact ⟨s1, p, out, sel, rfl, hw1.finished, hf1, hpm, hlev⟩
      · rw [if_neg hsn]
        exact ih (h.skip hk hsn) hpos (by omega)

/-- A marked trail literal of the current level before `k` makes the count positive. -/
theorem curCount_pos_of_seen {s : Solver} {k i : Nat} {l : Lit} (hi : i < k)
    (hg : s.trail.get? i = some l) (hs : s.seen l.var = true)
    (hcur : s.decisionLevel ≤ s.level l.var) : 0 < curCount s k := by
  rw [curCount_eq_countP, List.countP_pos_iff]
  exact ⟨l, mem_take_of_get? hg hi, by simp [hs, hcur]⟩

/-- The resolution loop of `analyze` on a conflict state: no abort; the marked variables
at the end are those of the pushed literals, which are false and below the current
level, and `p` is a trail literal of the current level. -/
theorem analyzeResolve_spec {s : Solver} {confl : Nat} (h : ConflictState s confl) :
    ∃ t p out sel, analyzeResolve s confl = some (t, p, out, sel) ∧
      WalkInv t 0 0 out sel ∧ AFrame s t ∧ p ∈ s.trail ∧
      s.level p.var = s.decisionLevel := by
  have w0 : WalkInv s s.trail.length 0 [] [] := by
    refine ⟨h.ok, ?_, ?_, ?_, ?_, ?_, h.stamps⟩
    · have : curCount s s.trail.length = 0 := by
        rw [curCount_eq_countP, List.countP_eq_zero]
        intro l _
        simp [h.seen0]
      rw [this]; rfl
    · intro v hv
      rw [h.seen0] at hv
      cases hv
    · intro l hl
      simp at hl
    · simp
    · intro q hq
      rw [h.lastDL] at hq
      simp at hq
  obtain ⟨s1, e1, hq1, hlits, _⟩ := @analyzeClause_spec s confl 0 none h.ok
    (fun l hl => Option.noConfusion hl)
  have hw1 := w0.walk_of_qframe hq1
  have hl1 := hlits rfl
  have hqs : ∀ q ∈ (s1.ca confl).lits,
      ∃ j, j < s.trail.length ∧ s1.trail.get? j = some q.neg := by
    intro q hq
    rw [hl1] at hq
    obtain ⟨j, hj⟩ := h.ok.neg_on_trail_of_false (h.conflFalse q hq)
    refine ⟨j, ?_, by rw [hq1.frame.trail]; exact hj⟩
    rw [List.get?_eq_getElem?] at hj
    exact (List.getElem?_eq_some_iff.mp hj).1
  obtain ⟨s2, pc, out, sel, e2, hw2, hf2, hle, _, hgrow⟩ := analyzeLits_spec _ hw1 hqs
  have hf02 : AFrame s s2 := hq1.frame.aframe_trans hf2
  have hpos : 0 < pc := by
    obtain ⟨l, hl, hlev⟩ := h.conflCur
    have hdl := h.ok.level
    have hs2 : s2.seen l.var = true := by
      apply hgrow l (by rw [hl1]; exact hl)
      rw [hq1.frame.level_eq, hlev]
      omega
    obtain ⟨j, hj⟩ := h.ok.neg_on_trail_of_false (h.conflFalse l hl)
    have hjl : j < s.trail.length := by
      rw [List.get?_eq_getElem?] at hj
      exact (List.getElem?_eq_some_iff.mp hj).1
    have := curCount_pos_of_seen (s := s2) (l := l.neg) hjl (by rw [hf02.trail]; exact hj) hs2
      (by rw [hf02.decisionLevel_eq, hf02.level_eq]; exact le_of_eq hlev.symm)
    have hc := hw2.count
    omega
  have hlen : s2.trail.length = s.trail.length := by rw [hf02.trail]
  obtain ⟨t, p, o3, sl3, e3, hw3, hf3, hp3, hl3⟩ :=
    analyzeWalk_spec s.trail.length hw2 hpos (le_of_eq hlen.symm)
  refine ⟨t, p, o3, sl3, ?_, hw3, hf02.aframe_trans hf3, ?_, ?_⟩
  · unfold analyzeResolve
    rw [e1]
    dsimp only
    rw [e2]
    dsimp only
    rw [hlen]
    exact e3
  · rw [← hf02.trail]; exact hp3
  · rw [← hf02.level_eq, ← hf02.decisionLevel_eq]; exact hl3

end Glucose


namespace Glucose

/-! ## Clearing marks -/

theorem clearSeen_of_not_mem : ∀ (ls : List Lit) (seen : Nat → Bool) (v : Nat),
    (∀ l ∈ ls, l.var ≠ v) → clearSeen ls seen v = seen v := by
  intro ls
  induction ls with
  | nil => intro seen v _; rfl
  | cons l ls ih =>
    intro seen v h
    rw [clearSeen, ih _ _ (fun x hx => h x (List.mem_cons_of_mem _ hx))]
    exact Function.update_noteq (fun e => h l (List.mem_cons_self _ _) e.symm) _ _

theorem clearSeen_le : ∀ (ls : List Lit) (seen : Nat → Bool) (v : Nat),
    clearSeen ls seen v = true → seen v = true := by
  intro ls
  induction ls with
  | nil => intro seen v h; exact h
  | cons l ls ih =>
    intro seen v h
    rw [clearSeen] at h
    have := ih _ _ h
    by_cases e : v = l.var
    · rw [e, Function.update_same] at this; cases this
    · rw [Function.update_noteq e] at this; exact this

theorem clearSeen_of_mem : ∀ (ls : List Lit) (seen : Nat → Bool) (l : Lit),
    l ∈ ls → clearSeen ls seen l.var = false := by
  intro ls
  induction ls with
  | nil => intro seen l h; simp at h
  | cons x xs ih =>
    intro seen l h
    rw [clearSeen]
    rcases List.mem_cons.mp h with e | e
    · subst e
      by_contra hc
      simp only [Bool.not_eq_false] at hc
      have := clearSeen_le _ _ _ hc
      rw [Function.update_same] at this
      cases this
    · exact ih _ _ e

/-- After the marks of a list are cleared no variable is marked, when every marked
variable is the variable of a literal of the list. -/
theorem clearSeen_all {ls : List Lit} {seen : Nat → Bool}
    (h : ∀ v, seen v = true → ∃ l ∈ ls, l.var = v) : ∀ v, clearSeen ls seen v = false := by
  intro v
  by_contra hc
  simp only [Bool.not_eq_false] at hc
  obtain ⟨l, hl, hv⟩ := h v (clearSeen_le _ _ _ hc)
  rw [← hv, clearSeen_of_mem _ _ _ hl] at hc
  cases hc

/-! ## The invariant of `litRedundant` -/

theorem RedInv.red_of_qframe {s t : Solver} (h : RedInv s) (hq : QFrame s t) : RedInv t := by
  refine ⟨hq.frame.analysable h.ok, ?_, ?_, ?_, hq.stamps h.stamps⟩
  · intro v hv
    rw [hq.seen] at hv
    rw [hq.toclear]
    exact h.cleared v hv
  · intro q hq2
    rw [hq.stack] at hq2
    rw [hq.frame.value_eq, hq.frame.reason_eq]
    exact h.stack q hq2
  · intro q hq2
    rw [hq.lastDL] at hq2
    rw [hq.frame.reason_eq]
    exact h.lastDL q hq2

theorem unseenCount_eq_countP (s : Solver) :
    unseenCount s = s.trail.countP (fun l => !s.seen l.var) := by
  unfold unseenCount
  rw [List.countP_eq_length_filter]

/-- A new mark on the variable of a trail literal takes one from the number of unmarked
trail literals. -/
theorem unseenCount_mark {s t : Solver} {l : Lit} (ha : TrailOK s) (ht : t.trail = s.trail)
    (hseen : t.seen = Function.update s.seen l.var true) (hun : s.seen l.var = false)
    (hl : l ∈ s.trail) : unseenCount s = unseenCount t + 1 := by
  rw [unseenCount_eq_countP, unseenCount_eq_countP, ht]
  apply countP_flip ha.nodup hl
  · rw [hseen]; simp
  · simp [hun]
  · intro x _ hx
    rw [hseen, Function.update_noteq hx]

/-- A literal pushed by the loop of `litRedundant`: the invariant is kept and the sum of
the stack size and the number of unmarked trail literals is the same. -/
theorem RedInv.push {s t : Solver} {p : Lit} {j : Nat} (h : RedInv s)
    (hj : s.trail.get? j = some p.neg) (hun : s.seen p.var = false)
    (hr : s.reason p.var ≠ none) (hf : AFrame s t)
    (e1 : t.seen = Function.update s.seen p.var true)
    (e2 : t.analyze_stack = s.analyze_stack ++ [p])
    (e3 : t.analyze_toclear = s.analyze_toclear ++ [p])
    (e4 : t.lastDecisionLevel = s.lastDecisionLevel)
    (e5 : t.permDiff = s.permDiff) (e6 : t.MYFLAG = s.MYFLAG) :
    RedInv t ∧
      t.analyze_stack.length + 1 + unseenCount t = s.analyze_stack.length + 1 + unseenCount s := by
  have hcount := unseenCount_mark (l := p.neg) h.ok.trail hf.trail e1 hun (mem_of_get? hj)
  refine ⟨⟨hf.analysable h.ok, ?_, ?_, ?_, ?_⟩, ?_⟩
  · intro v hv
    rw [e3]
    by_cases e : v = p.var
    · exact ⟨p, by simp, e.symm⟩
    · rw [e1, Function.update_noteq e] at hv
      obtain ⟨l, hl, hlv⟩ := h.cleared v hv
      exact ⟨l, List.mem_append_left _ hl, hlv⟩
  · intro q hq
    rw [e2, List.mem_append, List.mem_singleton] at hq
    rw [hf.value_eq, hf.reason_eq]
    rcases hq with hq | hq
    · exact h.stack q hq
    · subst hq
      exact ⟨h.ok.false_of_neg_on_trail hj, hr⟩
  · intro q hq
    rw [e4] at hq
    rw [hf.reason_eq]
    exact h.lastDL q hq
  · intro x
    rw [e5, e6]
    exact h.stamps x
  · rw [e2, List.length_append, List.length_singleton]
    omega

/-- The loop of `litRedundant` over the literals of a reason: the invariant is kept and
every pushed literal is a newly marked trail variable. -/
theorem redundantLits_spec (abs : List Nat) : ∀ (ps : List Lit) (s : Solver), RedInv s →
    (∀ q ∈ ps, ∃ j, s.trail.get? j = some q.neg) →
    RedInv (redundantLits abs ps s).2 ∧ AFrame s (redundantLits abs ps s).2 ∧
    (redundantLits abs ps s).2.analyze_stack.length + unseenCount (redundantLits abs ps s).2
      ≤ s.analyze_stack.length + unseenCount s ∧
    (redundantLits abs ps s).2.lastDecisionLevel = s.lastDecisionLevel := by
  intro ps
  induction ps with
  | nil =>
    intro s h _
    exact ⟨h, AFrame.aframe_refl s, le_refl _, rfl⟩
  | cons p ps ih =>
    intro s h hps
    rw [redundantLits]
    obtain ⟨j, hj⟩ := hps p (List.mem_cons_self _ _)
    have hrest : ∀ q ∈ ps, ∃ j, s.trail.get? j = some q.neg :=
      fun q hq => hps q (List.mem_cons_of_mem _ hq)
    split
    · next hc =>
      split
      · next hc2 =>
        have step : ∀ t : Solver, AFrame s t →
            t.seen = Function.update s.seen p.var true →
            t.analyze_stack = s.analyze_stack ++ [p] →
            t.analyze_toclear = s.analyze_toclear ++ [p] →
            t.lastDecisionLevel = s.lastDecisionLevel →
            t.permDiff = s.permDiff → t.MYFLAG = s.MYFLAG →
            RedInv (redundantLits abs ps t).2 ∧ AFrame s (redundantLits abs ps t).2 ∧
            (redundantLits abs ps t).2.analyze_stack.length +
              unseenCount (redundantLits abs ps t).2
              ≤ s.analyze_stack.length + unseenCount s ∧
            (redundantLits abs ps t).2.lastDecisionLevel = s.lastDecisionLevel := by
          intro t hf e1 e2 e3 e4 e5 e6
          obtain ⟨hinv, hm⟩ := h.push hj hc.1 hc2.1 hf e1 e2 e3 e4 e5 e6
          obtain ⟨a, b, c, d⟩ := ih t hinv (fun q hq => by rw [hf.trail]; exact hrest q hq)
          exact ⟨a, hf.aframe_trans b, by omega, d.trans e4⟩
        exact step _ (AFrame.of_eqs rfl rfl rfl rfl rfl rfl (fun _ => rfl)) rfl rfl rfl rfl
          rfl rfl
      · exact ⟨h, AFrame.aframe_refl s, le_refl _, rfl⟩
    · exact ih s h hrest

theorem unseenCount_congr {s t : Solver} (h1 : t.trail = s.trail) (h2 : t.seen = s.seen) :
    unseenCount t = unseenCount s := by
  unfold unseenCount
  rw [h1, h2]

theorem unseenCount_le (s : Solver) : unseenCount s ≤ s.trail.length :=
  List.length_filter_le _ _

theorem RedInv.toMinInv {s : Solver} (h : RedInv s) : MinInv s :=
  ⟨h.ok, h.cleared, h.lastDL, h.stamps⟩

/-- The loop of `litRedundant` with enough iterations for the stack and the unmarked
trail literals: no abort, and the invariant of the minimisation holds afterwards. -/
theorem litRedundantLoop_spec (abs : List Nat) (top : Nat) : ∀ (fuel : Nat) (s : Solver),
    RedInv s → s.analyze_stack.length + unseenCount s < fuel →
    ∃ b t, litRedundantLoop abs top fuel s = some (b, t) ∧ AFrame s t ∧ MinInv t ∧
      t.lastDecisionLevel = s.lastDecisionLevel := by
  intro fuel
  induction fuel with
  | zero => intro s _ hm; omega
  | succ fuel ih =>
    intro s h hm
    rw [litRedundantLoop]
    cases hgl : s.analyze_stack.getLast? with
    | none => exact ⟨true, s, rfl, AFrame.aframe_refl s, h.toMinInv, rfl⟩
    | some q =>
      dsimp only
      have hqm : q ∈ s.analyze_stack := List.mem_of_getLast?_eq_some hgl
      obtain ⟨hval, hr⟩ := h.stack q hqm
      cases hcr : s.reason q.var with
      | none => exact absurd hcr hr
      | some cr =>
        dsimp only
        have hne : s.analyze_stack ≠ [] := by
          intro e
          rw [e] at hqm
          simp at hqm
        have step : ∀ s1 : Solver, AFrame s s1 → s1.seen = s.seen →
            s1.analyze_toclear = s.analyze_toclear →
            s1.lastDecisionLevel = s.lastDecisionLevel →
            s1.permDiff = s.permDiff → s1.MYFLAG = s.MYFLAG →
            s1.analyze_stack = s.analyze_stack.dropLast →
            ∃ b t,
              (match swapBinary s1 cr with
              | none => none
              | some s2 =>
                match redundantLits abs ((s2.ca cr).lits.drop 1) s2 with
                | (true, s3) => litRedundantLoop abs top fuel s3
                | (false, s3) =>
                  some (false,
                    { s3 with seen := clearSeen (s3.analyze_toclear.drop top) s3.seen,
                              analyze_toclear := s3.analyze_toclear.take top })) = some (b, t) ∧
              AFrame s t ∧ MinInv t ∧ t.lastDecisionLevel = s.lastDecisionLevel := by
          intro s1 hf e1 e3 e4 e5 e6 e2
          have hinv1 : RedInv s1 := by
            refine ⟨hf.analysable h.ok, ?_, ?_, ?_, ?_⟩
            · intro v hv
              rw [e1] at hv
              rw [e3]
              exact h.cleared v hv
            · intro x hx
              rw [e2] at hx
              rw [hf.value_eq, hf.reason_eq]
              exact h.stack x (List.mem_of_mem_dropLast hx)
            · intro x hx
              rw [e4] at hx
              rw [hf.reason_eq]
              exact h.lastDL x hx
            · intro x
              rw [e5, e6]
              exact h.stamps x
          obtain ⟨k, hk⟩ := h.ok.neg_on_trail_of_false hval
          have hk1 : s1.trail.get? k = some q.neg := by rw [hf.trail]; exact hk
          have hra := hinv1.ok.reasons k q.neg cr hk1 (by rw [hf.reason_eq]; exact hcr)
          have hqt : s1.value q.neg = lbool.l_True := hinv1.ok.trail.allTrue _ (mem_of_get? hk1)
          obtain ⟨s2, e7, hq2, rest, hlits, hbefore⟩ := swapBinary_spec hinv1.ok hqt hra
          rw [e7]
          dsimp only
          have hinv2 := hinv1.red_of_qframe hq2
          have hps : ∀ x ∈ (s2.ca cr).lits.drop 1, ∃ j, s2.trail.get? j = some x.neg := by
            intro x hx
            rw [hlits] at hx
            obtain ⟨j, _, hj⟩ := hbefore x hx
            exact ⟨j, by rw [hq2.frame.trail]; exact hj⟩
          obtain ⟨hinv3, hf3, hm3, hld3⟩ := redundantLits_spec abs _ s2 hinv2 hps
          have hm2 : s2.analyze_stack.length + unseenCount s2 < fuel := by
            rw [hq2.stack, unseenCount_congr hq2.frame.trail hq2.seen, e2,
              unseenCount_congr hf.trail e1, List.length_dropLast]
            have : 0 < s.analyze_stack.length := List.length_pos.mpr hne
            omega
          rcases hrl : redundantLits abs ((s2.ca cr).lits.drop 1) s2 with ⟨b, s3⟩
          rw [hrl] at hinv3 hf3 hm3 hld3
          have hf03 : AFrame s s3 := (hf.aframe_trans hq2.frame).aframe_trans hf3
          have hld03 : s3.lastDecisionLevel = s.lastDecisionLevel :=
            hld3.trans (hq2.lastDL.trans e4)
          cases b with
          | true =>
            dsimp only
            obtain ⟨b2, t, e8, hf4, hm4, hld4⟩ := ih s3 hinv3 (by dsimp only at hm3; omega)
            exact ⟨b2, t, e8, hf03.aframe_trans hf4, hm4, hld4.trans hld03⟩
          | false =>
            dsimp only
            refine ⟨false, _, rfl, hf03.of_same rfl rfl rfl rfl rfl rfl rfl, ?_, hld03⟩
            refine ⟨AFrame.analysable (s := s3)
              (AFrame.of_eqs rfl rfl rfl rfl rfl rfl (fun _ => rfl)) hinv3.ok, ?_,
              hinv3.lastDL, hinv3.stamps⟩
            intro v hv
            have hv2 : clearSeen (s3.analyze_toclear.drop top) s3.seen v = true := hv
            obtain ⟨l, hl, hlv⟩ := hinv3.cleared v (clearSeen_le _ _ _ hv2)
            refine ⟨l, ?_, hlv⟩
            show l ∈ s3.analyze_toclear.take top
            rw [← List.take_append_drop top s3.analyze_toclear, List.mem_append] at hl
            rcases hl with hl | hl
            · exact hl
            · rw [← hlv, clearSeen_of_mem _ _ _ hl] at hv2
              cases hv2
        exact step _ (AFrame.of_eqs rfl rfl rfl rfl rfl rfl (fun _ => rfl))
          rfl rfl rfl rfl rfl rfl

/-- The function `litRedundant` on a false literal with a reason: no abort, and the
invariant of the minimisation holds afterwards. -/
theorem litRedundant_spec {s : Solver} {p : Lit} {abs : List Nat} (h : MinInv s)
    (hp : s.value p = lbool.l_False) (hr : s.reason p.var ≠ none) :
    ∃ b t, litRedundant s p abs = some (b, t) ∧ AFrame s t ∧ MinInv t ∧
      t.lastDecisionLevel = s.lastDecisionLevel := by
  unfold litRedundant
  have step : ∀ s1 : Solver, AFrame s s1 → s1.seen = s.seen →
      s1.analyze_toclear = s.analyze_toclear →
      s1.lastDecisionLevel = s.lastDecisionLevel →
      s1.permDiff = s.permDiff → s1.MYFLAG = s.MYFLAG → s1.analyze_stack = [p] →
      ∃ b t, litRedundantLoop abs s.analyze_toclear.length (s.trail.length + 2) s1
          = some (b, t) ∧ AFrame s t ∧ MinInv t ∧
        t.lastDecisionLevel = s.lastDecisionLevel := by
    intro s1 hf e1 e3 e4 e5 e6 e2
    have hinv1 : RedInv s1 := by
      refine ⟨hf.analysable h.ok, ?_, ?_, ?_, ?_⟩
      · intro v hv
        rw [e1] at hv
        rw [e3]
        exact h.cleared v hv
      · intro x hx
        rw [e2, List.mem_singleton] at hx
        subst hx
        rw [hf.value_eq, hf.reason_eq]
        exact ⟨hp, hr⟩
      · intro x hx
        rw [e4] at hx
        rw [hf.reason_eq]
        exact h.lastDL x hx
      · intro x
        rw [e5, e6]
        exact h.stamps x
    have hm : s1.analyze_stack.length + unseenCount s1 < s.trail.length + 2 := by
      rw [e2, unseenCount_congr hf.trail e1]
      have := unseenCount_le s
      simp only [List.length_singleton]
      omega
    obtain ⟨b, t, e7, hf2, hm2, hld2⟩ := litRedundantLoop_spec abs _ _ s1 hinv1 hm
    exact ⟨b, t, e7, hf.aframe_trans hf2, hm2, hld2.trans e4⟩
  exact step _ (AFrame.of_eqs rfl rfl rfl rfl rfl rfl (fun _ => rfl)) rfl rfl rfl rfl rfl rfl

end Glucose


namespace Glucose

/-! ## Minimisation of the learnt clause -/

/-- The minimisation loop of `ccmin_mode == 2` runs to the end, keeps the invariant of
the minimisation and keeps a sublist of the literals. -/
theorem minimizeDeep_spec (abs : List Nat) : ∀ (ls kept : List Lit) (s : Solver), MinInv s →
    (∀ l ∈ ls, s.value l = lbool.l_False) →
    ∃ kept1 t, minimizeDeep abs ls kept s = some (kept1, t) ∧ AFrame s t ∧ MinInv t ∧
      t.lastDecisionLevel = s.lastDecisionLevel ∧
      ∃ ks, kept1 = kept ++ ks ∧ ks.Sublist ls := by
  intro ls
  induction ls with
  | nil =>
    intro kept s hs _
    exact ⟨kept, s, rfl, AFrame.aframe_refl s, hs, rfl, [], by simp, List.Sublist.refl _⟩
  | cons l ls ih =>
    intro kept s hs hv
    rw [minimizeDeep]
    by_cases hr : s.reason l.var = none
    · rw [if_pos hr]
      obtain ⟨k1, t, h1, f, m, e, ks, hk, hsub⟩ :=
        ih (kept ++ [l]) s hs (fun x hx => hv x (List.mem_cons_of_mem _ hx))
      refine ⟨k1, t, h1, f, m, e, l :: ks, ?_, hsub.cons₂ l⟩
      rw [hk]
      simp
    · rw [if_neg hr]
      obtain ⟨b, t1, h1, f1, m1, e1⟩ :=
        @litRedundant_spec s l abs hs (hv l (List.mem_cons_self _ _)) hr
      rw [h1]
      have hv1 : ∀ x ∈ ls, t1.value x = lbool.l_False := by
        intro x hx
        rw [f1.value_eq]
        exact hv x (List.mem_cons_of_mem _ hx)
      cases b with
      | true =>
        obtain ⟨k1, t, h2, f, m, e, ks, hk, hsub⟩ := ih kept t1 m1 hv1
        exact ⟨k1, t, h2, f1.aframe_trans f, m, e.trans e1, ks, hk, hsub.cons l⟩
      | false =>
        obtain ⟨k1, t, h2, f, m, e, ks, hk, hsub⟩ := ih (kept ++ [l]) t1 m1 hv1
        refine ⟨k1, t, h2, f1.aframe_trans f, m, e.trans e1, l :: ks, ?_, hsub.cons₂ l⟩
        rw [hk]
        simp

/-! ## Minimisation with binary resolution -/

/-- Swapping two positions of a list gives a permutation. -/
theorem perm_swap_two {α : Type} : ∀ (out : List α) (i l : Nat) (oi ol : α), i ≤ l →
    out.get? i = some oi → out.get? l = some ol → ((out.set l oi).set i ol).Perm out := by
  intro out
  induction out with
  | nil => intro i l oi ol _ h; simp at h
  | cons a tl ih =>
    intro i l oi ol hil hi hl
    cases i with
    | zero =>
      simp only [List.get?_cons_zero, Option.some.injEq] at hi
      subst hi
      cases l with
      | zero =>
        simp only [List.get?_cons_zero, Option.some.injEq] at hl
        subst hl
        simp
      | succ l =>
        simp only [List.get?_cons_succ] at hl
        simp only [List.set_cons_succ, List.set_cons_zero]
        exact perm_swap_get _ hl
    | succ i =>
      cases l with
      | zero => omega
      | succ l =>
        simp only [List.get?_cons_succ] at hi hl
        simp only [List.set_cons_succ]
        exact List.Perm.cons a (ih i l oi ol (by omega) hi hl)

theorem get?_swap_other {α : Type} (out : List α) (i l j : Nat) (a b : α) (h1 : j ≠ i)
    (h2 : j ≠ l) : ((out.set l a).set i b).get? j = out.get? j := by
  rw [List.get?_eq_getElem?, List.get?_eq_getElem?, List.getElem?_set_ne (Ne.symm h1),
    List.getElem?_set_ne (Ne.symm h2)]

theorem get?_swap_left {α : Type} (out : List α) (i l : Nat) (a b : α) (h : i < out.length) :
    ((out.set l a).set i b).get? i = some b := by
  rw [List.get?_eq_getElem?, List.getElem?_set_self (by simpa using h)]

theorem get?_swap_right {α : Type} (out : List α) (i l : Nat) (a b : α) (h : l < out.length)
    (hne : i ≠ l) : ((out.set l a).set i b).get? l = some a := by
  rw [List.get?_eq_getElem?, List.getElem?_set_ne hne, List.getElem?_set_self h]

/-- A swap of two positions after the first leaves the first element in place and
permutes the tail. -/
theorem drop_one_swap {α : Type} (out : List α) (i l : Nat) (oi ol : α) (h1 : 1 ≤ i)
    (hil : i ≤ l) (hi : out.get? i = some oi) (hl : out.get? l = some ol) :
    (((out.set l oi).set i ol).drop 1).Perm (out.drop 1) ∧
      ((out.set l oi).set i ol).get? 0 = out.get? 0 := by
  cases out with
  | nil => simp at hi
  | cons a tl =>
    obtain ⟨i, rfl⟩ : ∃ k, i = k + 1 := ⟨i - 1, by omega⟩
    obtain ⟨l, rfl⟩ : ∃ k, l = k + 1 := ⟨l - 1, by omega⟩
    simp only [List.get?_cons_succ] at hi hl
    simp only [List.set_cons_succ, List.drop_succ_cons, List.drop_zero, List.get?_cons_zero,
      and_true]
    exact perm_swap_two tl i l oi ol (by omega) hi hl

theorem markLits_spec (flag : Nat) : ∀ (ls : List Lit) (pd : Nat → Nat) (v : Nat),
    markLits flag ls pd v = if v ∈ ls.map Lit.var then flag else pd v := by
  intro ls
  induction ls with
  | nil => intro pd v; simp [markLits]
  | cons l ls ih =>
    intro pd v
    rw [markLits, ih]
    by_cases h1 : v ∈ ls.map Lit.var
    · rw [if_pos h1, if_pos (by simp only [List.map_cons, List.mem_cons]; exact Or.inr h1)]
    · rw [if_neg h1]
      by_cases h2 : v = l.var
      · subst h2
        rw [Function.update_same, if_pos (by simp)]
      · rw [Function.update_noteq h2, if_neg]
        simp only [List.map_cons, List.mem_cons, not_or]
        exact ⟨h2, h1⟩

/-- The count of the binary watchers with a stamped and true blocker: when the stamp
`flag` marks only variables of `rest`, which are pairwise distinct, the count is the
number of literals of `rest` that have lost the stamp. -/
theorem countBinImplied_spec (s : Solver) (flag : Nat) (rest : List Lit)
    (hnd : (rest.map Lit.var).Nodup) (hflag : 0 < flag) :
    ∀ (ws : List Watcher) (pd : Nat → Nat) (nb : Nat),
    (∀ v, pd v = flag → ∃ l ∈ rest, l.var = v) → (∀ v, pd v ≤ flag) →
    rest.countP (fun x => decide (pd x.var ≠ flag)) = nb →
    (∀ v, (countBinImplied s flag ws pd nb).1 v ≤ flag) ∧
      rest.countP (fun x => decide ((countBinImplied s flag ws pd nb).1 x.var ≠ flag))
        = (countBinImplied s flag ws pd nb).2 := by
  intro ws
  induction ws with
  | nil => intro pd nb _ h2 h3; exact ⟨h2, h3⟩
  | cons w ws ih =>
    intro pd nb h1 h2 h3
    rw [countBinImplied]
    split
    · next hc =>
      obtain ⟨l, hl, hv⟩ := h1 _ hc.1
      apply ih
      · intro v hvf
        by_cases e : v = w.blocker.var
        · subst e
          rw [Function.update_same] at hvf
          omega
        · rw [Function.update_noteq e] at hvf
          exact h1 v hvf
      · intro v
        by_cases e : v = w.blocker.var
        · subst e
          rw [Function.update_same]
          omega
        · rw [Function.update_noteq e]
          exact h2 v
      · rw [← h3]
        refine countP_flip hnd hl ?_ ?_ ?_
        · simp only [decide_eq_false_iff_not, not_not]
          rw [hv]
          exact hc.1
        · simp only [decide_eq_true_eq]
          rw [hv, Function.update_same]
          omega
        · intro x _ hx
          rw [hv] at hx
          simp only [Function.update_noteq hx]
    · exact ih pd nb h1 h2 h3

/-- The swap loop of the minimisation with binary resolution runs to the end when the
number of literals after the first that have lost the stamp is `nb`; it permutes the
literals and leaves the first in place. -/
theorem binSwapLoop_spec (pd : Nat → Nat) (flag nb : Nat) :
    ∀ (fuel i L : Nat) (out : List Lit), 1 ≤ i → i ≤ L + 1 → L < out.length →
    (∀ j y, 1 ≤ j → j < i → out.get? j = some y → pd y.var = flag) →
    (∀ j y, L < j → out.get? j = some y → pd y.var ≠ flag) →
    (out.drop 1).countP (fun x => decide (pd x.var ≠ flag)) = nb →
    (out.length - i) + L < fuel →
    ∃ out2, binSwapLoop pd flag ((out.length : Int) - (nb : Int)) fuel i (L : Int) out
        = some out2 ∧ out2.Perm out ∧ out2.get? 0 = out.get? 0 := by
  intro fuel
  induction fuel with
  | zero => intro i L out _ _ _ _ _ _ hm; omega
  | succ fuel ih =>
    intro i L out h1 hiL hL hgood hbad hcount hm
    rw [binSwapLoop]
    by_cases hb : (i : Int) < (out.length : Int) - (nb : Int)
    · rw [if_pos hb]
      have hi : i < out.length := by omega
      have hgi : out.get? i = some (out.get ⟨i, hi⟩) := List.get?_eq_get hi
      generalize out.get ⟨i, hi⟩ = oi at hgi
      rw [hgi]
      dsimp only
      by_cases hx : pd oi.var ≠ flag
      · rw [if_pos hx]
        have hle : i ≤ L := by
          by_contra hc
          have hiL2 : i = L + 1 := by omega
          have e1 : (out.drop 1).countP (fun x => decide (pd x.var ≠ flag))
              = out.length - i := by
            rw [← List.take_append_drop (i - 1) (out.drop 1), List.countP_append]
            have z1 : ((out.drop 1).take (i - 1)).countP
                (fun x => decide (pd x.var ≠ flag)) = 0 := by
              rw [List.countP_eq_zero]
              intro y hy
              obtain ⟨j, hj, hg⟩ := get?_of_mem_take hy
              rw [List.get?_eq_getElem?, List.getElem?_drop, ← List.get?_eq_getElem?] at hg
              have := hgood (1 + j) y (by omega) (by omega) hg
              simp [this]
            have z2 : ((out.drop 1).drop (i - 1)).countP
                (fun x => decide (pd x.var ≠ flag)) = out.length - i := by
              have hd : (out.drop 1).drop (i - 1) = out.drop i := by
                rw [List.drop_drop]
                congr 1
                omega
              rw [hd, List.countP_eq_length.mpr]
              · rw [List.length_drop]
              · intro y hy
                obtain ⟨j, hg⟩ := List.mem_iff_get?.mp hy
                rw [List.get?_eq_getElem?, List.getElem?_drop, ← List.get?_eq_getElem?] at hg
                have := hbad (i + j) y (by omega) hg
                simp [this]
            rw [z1, z2]
            omega
          rw [e1] at hcount
          omega
        have hL0 : ¬ ((L : Int) < 0) := by omega
        rw [if_neg hL0]
        have hgl : out.get? L = some (out.get ⟨L, hL⟩) := List.get?_eq_get hL
        generalize out.get ⟨L, hL⟩ = ol at hgl
        rw [Int.toNat_ofNat, hgl]
        dsimp only
        have hL1 : ((L : Int) - 1) = ((L - 1 : Nat) : Int) := by omega
        rw [hL1]
        have hlen : ((out.set L oi).set i ol).length = out.length := by simp
        obtain ⟨pperm, phead⟩ := drop_one_swap out i L oi ol h1 hle hgi hgl
        have hstep := ih i (L - 1) ((out.set L oi).set i ol) h1 (by omega)
          (by rw [hlen]; omega) ?_ ?_ ?_ (by rw [hlen]; omega)
        · rw [hlen] at hstep
          obtain ⟨out2, e, p2, g2⟩ := hstep
          exact ⟨out2, e, p2.trans (perm_swap_two out i L oi ol hle hgi hgl), g2.trans phead⟩
        · intro j y hj1 hji hg
          rw [get?_swap_other out i L j oi ol (by omega) (by omega)] at hg
          exact hgood j y hj1 hji hg
        · intro j y hj hg
          by_cases ejL : j = L
          · subst ejL
            by_cases eji : i = j
            · subst eji
              rw [get?_swap_left out i i oi ol hi] at hg
              simp only [Option.some.injEq] at hg
              rw [hgi] at hgl
              simp only [Option.some.injEq] at hgl
              rw [← hg, ← hgl]
              exact hx
            · rw [get?_swap_right out i j oi ol hL eji] at hg
              simp only [Option.some.injEq] at hg
              rw [← hg]
              exact hx
          · rw [get?_swap_other out i L j oi ol (by omega) (by omega)] at hg
            exact hbad j y (by omega) hg
        · rw [pperm.countP_eq]
          exact hcount
      · rw [if_neg hx]
        have hle : i ≤ L := by
          by_contra hc
          exact hbad i oi (by omega) hgi (not_not.mp hx)
        have hgood2 : ∀ j y, 1 ≤ j → j < i + 1 → out.get? j = some y → pd y.var = flag := by
          intro j y hj1 hji hg
          by_cases e : j = i
          · subst e
            rw [hgi] at hg
            simp only [Option.some.injEq] at hg
            rw [← hg]
            exact not_not.mp hx
          · exact hgood j y hj1 (by omega) hg
        exact ih (i + 1) L out (by omega) (by omega) hL hgood2 hbad hcount (by omega)
    · rw [if_neg hb]
      exact ⟨out, rfl, List.Perm.refl _, rfl⟩

/-- The function `minimisationWithBinaryResolution` runs to the end on a clause whose
literals after the first have pairwise distinct variables, in a state where no stamp of
`permDiff` is above `MYFLAG`: it sets no mark in `seen`, keeps the first literal, and
keeps some of the others. -/
theorem minimisationWithBinaryResolution_spec {s : Solver} {o0 : Lit} {rest : List Lit}
    (hst : ∀ x, s.permDiff x ≤ s.MYFLAG) (hnd : (rest.map Lit.var).Nodup) :
    ∃ out2 t, minimisationWithBinaryResolution s (o0 :: rest) = some (out2, t) ∧
      QFrame s t ∧ (∀ x, t.permDiff x ≤ t.MYFLAG) ∧
      ∃ rest2, out2 = o0 :: rest2 ∧ ∀ x ∈ rest2, x ∈ rest := by
  have hq : QFrame s (computeLBD s (o0 :: rest) (-1)).2 := computeLBDCore_qframe s _ _
  have hst1 := hq.stamps hst
  unfold minimisationWithBinaryResolution
  dsimp only
  generalize computeLBD s (o0 :: rest) (-1) = r at hq hst1 ⊢
  obtain ⟨n, s1⟩ := r
  dsimp only at hq hst1 ⊢
  split
  · have hinit1 : ∀ v, markLits (s1.MYFLAG + 1) rest s1.permDiff v = s1.MYFLAG + 1 →
        ∃ l ∈ rest, l.var = v := by
      intro v hv
      rw [markLits_spec] at hv
      split at hv
      · next hm =>
        obtain ⟨l, hl, e⟩ := List.mem_map.mp hm
        exact ⟨l, hl, e⟩
      · have := hst1 v
        omega
    have hinit2 : ∀ v, markLits (s1.MYFLAG + 1) rest s1.permDiff v ≤ s1.MYFLAG + 1 := by
      intro v
      rw [markLits_spec]
      split
      · exact le_refl _
      · have := hst1 v
        omega
    have hinit3 : rest.countP (fun x => decide
        (markLits (s1.MYFLAG + 1) rest s1.permDiff x.var ≠ s1.MYFLAG + 1)) = 0 := by
      rw [List.countP_eq_zero]
      intro x hx
      rw [markLits_spec, if_pos (List.mem_map_of_mem _ hx)]
      simp
    obtain ⟨hc1, hc2⟩ := countBinImplied_spec s1 (s1.MYFLAG + 1) rest hnd (by omega)
      (s1.watchesBin.occs o0.neg) _ 0 hinit1 hinit2 hinit3
    generalize countBinImplied s1 (s1.MYFLAG + 1) (s1.watchesBin.occs o0.neg)
      (markLits (s1.MYFLAG + 1) rest s1.permDiff) 0 = c at hc1 hc2 ⊢
    obtain ⟨pd, nb⟩ := c
    dsimp only at hc1 hc2 ⊢
    have hq2 : ∀ u : Solver, u.assigns = s1.assigns → u.vardata = s1.vardata →
        u.trail = s1.trail → u.trail_lim = s1.trail_lim → u.opts = s1.opts →
        u.watchesBin = s1.watchesBin → u.ca = s1.ca → u.seen = s1.seen →
        u.lastDecisionLevel = s1.lastDecisionLevel →
        u.analyze_toclear = s1.analyze_toclear → u.analyze_stack = s1.analyze_stack →
        u.permDiff = pd → u.MYFLAG = s1.MYFLAG + 1 →
        QFrame s u ∧ ∀ x, u.permDiff x ≤ u.MYFLAG := by
      intro u e1 e2 e3 e4 e5 e6 e7 e8 e9 e10 e11 e12 e13
      have hs : ∀ x, u.permDiff x ≤ u.MYFLAG := by
        intro x
        rw [e12, e13]
        exact hc1 x
      exact ⟨⟨AFrame.of_same hq.frame e1 e2 e3 e4 e5 e6 e7, e8.trans hq.seen,
        e9.trans hq.lastDL, e10.trans hq.toclear, e11.trans hq.stack, fun _ => hs⟩, hs⟩
    split
    · have hnb : nb ≤ rest.length := by
        rw [← hc2]
        exact List.countP_le_length _
      have hl1 : (((o0 :: rest).length : Int) - 1) = ((rest.length : Nat) : Int) := by
        simp
      rw [hl1]
      obtain ⟨out2, e, p2, g2⟩ := binSwapLoop_spec pd (s1.MYFLAG + 1) nb
        (2 * (o0 :: rest).length + 1) 1 rest.length (o0 :: rest) (le_refl _) (by omega)
        (by simp) (by intro j y h1 h2; omega)
        (by
          intro j y hj hg
          rw [List.get?_eq_getElem?, List.getElem?_eq_none (by simp; omega)] at hg
          cases hg)
        (by simpa using hc2) (by simp; omega)
      rw [e]
      dsimp only
      have hlen : out2.length = rest.length + 1 := by
        rw [p2.length_eq]
        simp
      rw [if_pos (by omega)]
      cases out2 with
      | nil => simp at hlen
      | cons a tl =>
        simp only [List.get?_cons_zero, Option.some.injEq] at g2
        subst g2
        have ptl : tl.Perm rest := List.Perm.cons_inv p2
        obtain ⟨k, hk⟩ : ∃ k, (a :: tl).length - nb = k + 1 :=
          ⟨(a :: tl).length - nb - 1, by omega⟩
        rw [hk, List.take_succ_cons]
        refine ⟨_, _, rfl, ?_⟩
        rw [← and_assoc]
        refine ⟨?_, tl.take k, rfl, ?_⟩
        · apply hq2 <;> rfl
        · intro x hx
          exact ptl.subset (List.mem_of_mem_take hx)
    · refine ⟨_, _, rfl, ?_⟩
      rw [← and_assoc]
      refine ⟨?_, rest, rfl, fun _ h => h⟩
      apply hq2 <;> rfl
  · exact ⟨_, _, rfl, hq, hst1, rest, rfl, fun _ h => h⟩

theorem MinInv.min_of_qframe {s t : Solver} (h : MinInv s) (hq : QFrame s t) : MinInv t := by
  refine ⟨hq.frame.analysable h.ok, ?_, ?_, hq.stamps h.stamps⟩
  · intro v hv
    rw [hq.seen] at hv
    rw [hq.toclear]
    exact h.cleared v hv
  · intro q hq2
    rw [hq.lastDL] at hq2
    rw [hq.frame.reason_eq]
    exact h.lastDL q hq2

/-- The second part of `analyze` runs to the end after the resolution loop: the clause
it returns starts with `¬p` and goes on with some of the literals pushed by the
resolution loop; every mark of `seen` is recorded in `analyze_toclear`. -/
theorem analyzeMinimize_spec {s : Solver} {out sel : List Lit} (p : Lit)
    (h : WalkInv s 0 0 out sel) :
    ∃ ol t, analyzeMinimize s p out sel = some (ol, t) ∧ AFrame s t ∧ MinInv t ∧
      ∃ kept, ol = p.neg :: kept ∧ ∀ x ∈ kept, x ∈ out ++ sel := by
  have key : ∀ S1 : Solver, MinInv S1 → AFrame s S1 →
      ∃ kept s2, (if s.opts.ccmin_mode = 2 then
            minimizeDeep (abstractLevels S1 (out ++ sel)) (out ++ sel) [] S1
          else if s.opts.ccmin_mode = 1 then some (minimizeBasic S1 (out ++ sel), S1)
          else some (out ++ sel, S1)) = some (kept, s2) ∧
        AFrame s s2 ∧ MinInv s2 ∧ kept.Sublist (out ++ sel) := by
    intro S1 hm hf
    have hv : ∀ l ∈ out ++ sel, S1.value l = lbool.l_False := by
      intro l hl
      rw [hf.value_eq]
      exact (h.pushed l hl).1
    split
    · obtain ⟨k1, t, e, f, m, _, ks, hk, hsub⟩ :=
        minimizeDeep_spec (abstractLevels S1 (out ++ sel)) (out ++ sel) [] S1 hm hv
      refine ⟨k1, t, e, hf.aframe_trans f, m, ?_⟩
      rw [hk]
      simpa using hsub
    · split
      · exact ⟨_, _, rfl, hf, hm, List.filter_sublist _⟩
      · exact ⟨_, _, rfl, hf, hm, List.Sublist.refl _⟩
  have hf1 : AFrame s { s with analyze_toclear := p.neg :: (out ++ sel) } :=
    AFrame.of_eqs rfl rfl rfl rfl rfl rfl (fun _ => rfl)
  have hm1 : MinInv { s with analyze_toclear := p.neg :: (out ++ sel) } := by
    refine ⟨hf1.analysable h.ok, ?_, h.lastDL, h.stamps⟩
    intro v hv
    rcases h.seenCases v hv with ⟨i, _, hi, _⟩ | ⟨l, hl, e⟩
    · omega
    · exact ⟨l, List.mem_cons_of_mem _ hl, e⟩
  obtain ⟨kept, s2, e, f2, m2, hsub⟩ := key _ hm1 hf1
  have hnd : (kept.map Lit.var).Nodup := (hsub.map Lit.var).nodup h.nodup
  unfold analyzeMinimize
  dsimp only
  rw [e]
  dsimp only
  have step1 : ∀ S3 : Solver, QFrame s2 S3 →
      ∃ ol t, minimisationWithBinaryResolution S3 (p.neg :: kept) = some (ol, t) ∧
        AFrame s t ∧ MinInv t ∧ ∃ kept2, ol = p.neg :: kept2 ∧ ∀ x ∈ kept2, x ∈ out ++ sel := by
    intro S3 hq
    have m3 := m2.min_of_qframe hq
    obtain ⟨out2, t, e2, q, _, rest2, er, hr⟩ :=
      @minimisationWithBinaryResolution_spec S3 p.neg kept m3.stamps hnd
    exact ⟨out2, t, e2, (f2.aframe_trans hq.frame).aframe_trans q.frame, m3.min_of_qframe q,
      rest2, er, fun x hx => hsub.subset (hr x hx)⟩
  have step2 : ∀ S3 : Solver, QFrame s2 S3 →
      ∃ ol t, some (p.neg :: kept, S3) = some (ol, t) ∧
        AFrame s t ∧ MinInv t ∧ ∃ kept2, ol = p.neg :: kept2 ∧ ∀ x ∈ kept2, x ∈ out ++ sel := by
    intro S3 hq
    exact ⟨_, _, rfl, f2.aframe_trans hq.frame, m2.min_of_qframe hq, kept, rfl,
      fun x hx => hsub.subset hx⟩
  split
  · apply step1
    exact ⟨AFrame.of_eqs rfl rfl rfl rfl rfl rfl (fun _ => rfl), rfl, rfl, rfl, rfl,
      fun h => h⟩
  · apply step2
    exact ⟨AFrame.of_eqs rfl rfl rfl rfl rfl rfl (fun _ => rfl), rfl, rfl, rfl, rfl,
      fun h => h⟩

/-! ## The last part of `analyze` -/

/-- The scan for a literal of greatest level: `pre` are the literals visited so far,
`base` the index of the first one. -/
theorem maxLevelIndex_spec (s : Solver) (base : Nat) : ∀ (ls pre : List Lit)
    (best : Option (Nat × Nat)),
    (match best with
      | none => pre = []
      | some (i, m) => ∃ j x, i = base + j ∧ pre.get? j = some x ∧ s.level x.var = m ∧
          ∀ y ∈ pre, s.level y.var ≤ m) →
    pre ++ ls ≠ [] →
    ∃ i m j x, maxLevelIndex s ls (base + pre.length) best = some (i, m) ∧ i = base + j ∧
      (pre ++ ls).get? j = some x ∧ s.level x.var = m ∧
      ∀ y ∈ pre ++ ls, s.level y.var ≤ m := by
  intro ls
  induction ls with
  | nil =>
    intro pre best hb hne
    cases best with
    | none =>
      dsimp only at hb
      subst hb
      simp at hne
    | some im =>
      obtain ⟨i, m⟩ := im
      obtain ⟨j, x, e, hg, hl, hall⟩ := hb
      refine ⟨i, m, j, x, rfl, e, ?_, hl, ?_⟩
      · simpa using hg
      · simpa using hall
  | cons l ls ih =>
    intro pre best hb hne
    have hlen : base + pre.length + 1 = base + (pre ++ [l]).length := by simp; omega
    have happ : pre ++ l :: ls = (pre ++ [l]) ++ ls := by simp
    have hgl : (pre ++ [l]).get? pre.length = some l := by
      rw [List.get?_eq_getElem?, List.getElem?_append_right (le_refl _)]
      simp
    cases best with
    | none =>
      simp only [maxLevelIndex]
      dsimp only at hb
      subst hb
      rw [hlen, happ]
      apply ih
      · exact ⟨0, l, by simp, by simp, rfl, by simp⟩
      · simp
    | some im =>
      obtain ⟨i, m⟩ := im
      obtain ⟨j, x, e, hg, hl, hall⟩ := hb
      simp only [maxLevelIndex]
      split
      · next hlt =>
        rw [hlen, happ]
        apply ih
        · refine ⟨pre.length, l, rfl, hgl, rfl, ?_⟩
          intro y hy
          rcases List.mem_append.mp hy with hy | hy
          · have := hall y hy
            omega
          · simp only [List.mem_singleton] at hy
            subst hy
            exact le_refl _
        · simp
      · next hge =>
        rw [hlen, happ]
        apply ih
        · refine ⟨j, x, e, ?_, hl, ?_⟩
          · have hj : j < pre.length := by
              rw [List.get?_eq_getElem?] at hg
              exact (List.getElem?_eq_some_iff.mp hg).1
            rw [List.get?_eq_getElem?, List.getElem?_append_left hj, ← List.get?_eq_getElem?]
            exact hg
          · intro y hy
            rcases List.mem_append.mp hy with hy | hy
            · exact hall y hy
            · simp only [List.mem_singleton] at hy
              subst hy
              omega
        · simp

/-- The loop over `lastDecisionLevel` runs to the end when its literals have a
reason; it records bumps only. -/
theorem bumpLastDecisionLevel_spec (lbd : Nat) : ∀ (qs : List Lit) (s : Solver),
    (∀ q ∈ qs, s.reason q.var ≠ none) →
    ∃ t, bumpLastDecisionLevel lbd qs s = some t ∧ QFrame s t := by
  intro qs
  induction qs with
  | nil => intro s _; exact ⟨s, rfl, QFrame.q_refl s⟩
  | cons q qs ih =>
    intro s h
    rw [bumpLastDecisionLevel]
    cases hr : s.reason q.var with
    | none => exact absurd hr (h q (List.mem_cons_self _ _))
    | some r =>
      dsimp only
      split
      · have hq : QFrame s (s.varBumpActivity q.var false) :=
          ⟨AFrame.of_eqs rfl rfl rfl rfl rfl rfl (fun _ => rfl), rfl, rfl, rfl, rfl,
            fun h => h⟩
        obtain ⟨t, e, f⟩ := ih (s.varBumpActivity q.var false)
          (fun x hx => h x (List.mem_cons_of_mem _ hx))
        exact ⟨t, e, hq.q_trans f⟩
      · exact ih s (fun x hx => h x (List.mem_cons_of_mem _ hx))

/-- The last part of `analyze` runs to the end: it keeps the first literal, permutes
the others so that one of greatest level comes second, gives the level of that literal
as backtrack level (0 for a clause of one literal), and clears every mark of `seen`. -/
theorem analyzeFinish_spec {s : Solver} {o0 : Lit} {kept sel : List Lit} (hm : MinInv s) :
    ∃ r, analyzeFinish s (o0 :: kept) sel = some r ∧ AFrame s r.state ∧
      (∀ v, r.state.seen v = false) ∧
      ∃ rest2, r.out_learnt = o0 :: rest2 ∧ rest2.Perm kept ∧
        (kept = [] → r.out_btlevel = 0) ∧
        (∀ o1 tl, rest2 = o1 :: tl → r.out_btlevel = s.level o1.var ∧
          ∀ x ∈ rest2, s.level x.var ≤ s.level o1.var) := by
  have tail : ∀ (out2 : List Lit) (e : Int) (u : Solver), u = (computeLBD s out2 e).2 →
      ∃ t, bumpLastDecisionLevel (computeLBD s out2 e).1 u.lastDecisionLevel u = some t ∧
        AFrame s t ∧
        ∀ v, clearSeen sel (clearSeen t.analyze_toclear t.seen) v = false := by
    intro out2 e u hu
    have hq : QFrame s u := by
      rw [hu]
      exact computeLBDCore_qframe s out2 _
    have hmu := hm.min_of_qframe hq
    obtain ⟨t, et, qt⟩ := bumpLastDecisionLevel_spec (computeLBD s out2 e).1
      u.lastDecisionLevel u hmu.lastDL
    have hmt := hmu.min_of_qframe qt
    refine ⟨t, et, hq.frame.aframe_trans qt.frame, ?_⟩
    intro v
    have h1 := clearSeen_all hmt.cleared v
    cases h2 : clearSeen sel (clearSeen t.analyze_toclear t.seen) v with
    | false => rfl
    | true =>
      have := clearSeen_le sel _ v h2
      rw [h1] at this
      cases this
  unfold analyzeFinish
  cases kept with
  | nil =>
    dsimp only
    obtain ⟨t, et, ft, hc⟩ := tail [o0] _ _ rfl
    rw [et]
    dsimp only
    exact ⟨_, rfl, AFrame.of_same ft rfl rfl rfl rfl rfl rfl rfl, hc, [], rfl,
      List.Perm.refl _, fun _ => rfl, fun o1 tl h => by cases h⟩
  | cons o1 rest =>
    dsimp only
    obtain ⟨i, m, j, x, hmax, hi, hg, hl, hall⟩ :=
      maxLevelIndex_spec s 1 (o1 :: rest) [] none rfl (by simp)
    simp only [List.length_nil, Nat.add_zero, List.nil_append] at hmax hg hall
    rw [hmax]
    dsimp only
    have hgi : (o0 :: o1 :: rest).get? i = some x := by
      rw [hi, Nat.add_comm, List.get?_cons_succ]
      exact hg
    rw [hgi]
    dsimp only
    obtain ⟨t, et, ft, hc⟩ := tail (((o0 :: o1 :: rest).set i o1).set 1 x) _ _ rfl
    rw [et]
    dsimp only
    have hi1 : 1 ≤ i := by omega
    obtain ⟨pp, ph⟩ := drop_one_swap (o0 :: o1 :: rest) 1 i o1 x (le_refl _) hi1 rfl hgi
    have h1 : (((o0 :: o1 :: rest).set i o1).set 1 x).get? 1 = some x :=
      get?_swap_left _ 1 i o1 x (by simp)
    generalize (((o0 :: o1 :: rest).set i o1).set 1 x) = out2 at pp ph h1 ⊢
    match out2, ph, h1 with
    | a :: b :: tl2, ph, h1 =>
      simp only [List.get?_cons_zero, Option.some.injEq] at ph
      simp only [List.get?_cons_succ, List.get?_cons_zero, Option.some.injEq] at h1
      subst ph
      subst h1
      simp only [List.drop_succ_cons, List.drop_zero] at pp
      refine ⟨_, rfl, AFrame.of_same ft rfl rfl rfl rfl rfl rfl rfl, hc, b :: tl2, rfl, pp,
        (fun h => by cases h), ?_⟩
      intro o1' tl' he
      simp only [List.cons.injEq] at he
      obtain ⟨rfl, rfl⟩ := he
      refine ⟨rfl, ?_⟩
      intro y hy
      rw [hl]
      exact hall y (pp.subset hy)

/-! ## The function `analyze` on a conflict state -/

/-- The function `analyze` on a conflict state: it returns; the assignment, the levels
and the reasons are those at entry; `seen` is all zero; the learnt clause starts with a
false literal of the current level and goes on with false literals of levels from 1 to
below the current one, one of greatest level in second position; the backtrack level is
the level of that literal, and 0 when there is none. -/
theorem analyze_spec {s : Solver} {confl : Nat} (h : ConflictState s confl) :
    ∃ r, analyze s confl = some r ∧ AFrame s r.state ∧ (∀ v, r.state.seen v = false) ∧
      ∃ o0 rest, r.out_learnt = o0 :: rest ∧ s.value o0 = lbool.l_False ∧
        s.level o0.var = s.decisionLevel ∧
        (∀ x ∈ rest, s.value x = lbool.l_False ∧ 0 < s.level x.var ∧
          s.level x.var < s.decisionLevel) ∧
        (rest = [] → r.out_btlevel = 0) ∧
        (∀ o1 tl, rest = o1 :: tl → r.out_btlevel = s.level o1.var ∧
          ∀ x ∈ rest, s.level x.var ≤ s.level o1.var) := by
  obtain ⟨t, p, out, sel, e1, hw, f1, hp, hpl⟩ := analyzeResolve_spec h
  obtain ⟨ol, t2, e2, f2, m2, kept, hol, hk⟩ := analyzeMinimize_spec p hw
  subst hol
  obtain ⟨r, e3, f3, hseen, rest2, hr, hperm, hb0, hb1⟩ :=
    @analyzeFinish_spec t2 p.neg kept sel m2
  have f12 := f1.aframe_trans f2
  refine ⟨r, ?_, f12.aframe_trans f3, hseen, p.neg, rest2, hr, ?_, ?_, ?_, ?_, ?_⟩
  · unfold analyze
    rw [e1]
    dsimp only
    rw [e2]
    dsimp only
    exact e3
  · rw [value_neg_false]
    exact h.ok.trail.allTrue p hp
  · rw [Lit.neg_var]
    exact hpl
  · intro x hx
    have hx2 : x ∈ out ++ sel := hk x (hperm.subset hx)
    obtain ⟨a, b, c, _⟩ := hw.pushed x hx2
    rw [f1.value_eq] at a
    rw [f1.level_eq] at b c
    rw [f1.decisionLevel_eq] at c
    exact ⟨a, b, c⟩
  · intro e
    apply hb0
    rw [e] at hperm
    exact hperm.symm.eq_nil
  · intro o1 tl e
    obtain ⟨g1, g2⟩ := hb1 o1 tl e
    rw [f12.level_eq] at g1
    refine ⟨g1, ?_⟩
    intro x hx
    have := g2 x hx
    rw [f12.level_eq, f12.level_eq] at this
    exact this

end Glucose


namespace Glucose

/-! ## What removing a clause changes -/

theorem DBFrame.db_refl (s : Solver) : DBFrame s s :=
  ⟨rfl, fun _ => rfl, rfl, rfl, fun _ => rfl, fun _ => rfl, rfl, rfl⟩

theorem DBFrame.db_trans {s t u : Solver} (h1 : DBFrame s t) (h2 : DBFrame t u) :
    DBFrame s u :=
  ⟨h2.assigns.trans h1.assigns, fun v => (h2.levels v).trans (h1.levels v),
    h2.trail.trans h1.trail, h2.trail_lim.trans h1.trail_lim,
    fun x => (h2.lits x).trans (h1.lits x), fun x => (h2.lbd x).trans (h1.lbd x),
    h2.nbc.trans h1.nbc, h2.opts.trans h1.opts⟩

/-- Detaching changes watch maps and counters only. -/
theorem detachClause_frame {s t : Solver} {cr : Nat} {strict : Bool}
    (h : detachClause s cr strict = some t) :
    t.assigns = s.assigns ∧ t.vardata = s.vardata ∧ t.ca = s.ca ∧ t.learnts = s.learnts ∧
      t.clauses = s.clauses ∧ t.trail = s.trail ∧ t.trail_lim = s.trail_lim ∧
      t.nbclausesbeforereduce = s.nbclausesbeforereduce ∧ t.opts = s.opts ∧
      t.unaryWatchedClauses = s.unaryWatchedClauses ∧ t.ok = s.ok := by
  unfold detachClause at h
  dsimp only at h
  split at h
  · split at h
    · simp at h
    · next s2 hs2 =>
      simp only [Option.some.injEq] at h
      have e2 : s2.assigns = s.assigns ∧ s2.vardata = s.vardata ∧ s2.ca = s.ca ∧
          s2.learnts = s.learnts ∧ s2.clauses = s.clauses ∧ s2.trail = s.trail ∧
          s2.trail_lim = s.trail_lim ∧
          s2.nbclausesbeforereduce = s.nbclausesbeforereduce ∧ s2.opts = s.opts ∧
          s2.unaryWatchedClauses = s.unaryWatchedClauses ∧ s2.ok = s.ok := by
        repeat' split at hs2
        all_goals first
          | (simp at hs2; done)
          | (simp only [Option.some.injEq] at hs2; subst hs2
             exact ⟨rfl, rfl, rfl, rfl, rfl, rfl, rfl, rfl, rfl, rfl, rfl⟩)
      rw [← h]
      split <;> exact e2
  · simp at h

theorem detachClausePurgatory_frame {s t : Solver} {cr : Nat} {strict : Bool}
    (h : detachClausePurgatory s cr strict = some t) :
    t.assigns = s.assigns ∧ t.vardata = s.vardata ∧ t.ca = s.ca ∧ t.learnts = s.learnts ∧
      t.clauses = s.clauses ∧ t.trail = s.trail ∧ t.trail_lim = s.trail_lim ∧
      t.nbclausesbeforereduce = s.nbclausesbeforereduce ∧ t.opts = s.opts ∧
      t.unaryWatchedClauses = s.unaryWatchedClauses ∧ t.ok = s.ok := by
  unfold detachClausePurgatory at h
  repeat' split at h
  all_goals first
    | (simp at h; done)
    | (simp only [Option.some.injEq] at h; subst h
       exact ⟨rfl, rfl, rfl, rfl, rfl, rfl, rfl, rfl, rfl, rfl, rfl⟩)

theorem mark_deleted_frame {s u t : Solver} {cr : Nat}
    (b1 : u.assigns = s.assigns) (b2 : ∀ v, (u.vardata v).level = (s.vardata v).level)
    (b3 : u.ca = s.ca) (b4 : u.learnts = s.learnts) (b5 : u.clauses = s.clauses)
    (b6 : u.trail = s.trail) (b7 : u.trail_lim = s.trail_lim)
    (b8 : u.nbclausesbeforereduce = s.nbclausesbeforereduce) (b9 : u.opts = s.opts)
    (b10 : u.unaryWatchedClauses = s.unaryWatchedClauses) (b11 : u.ok = s.ok)
    (b12 : s.locked cr = false → u.vardata = s.vardata)
    (ht : t = { u with ca := Function.update u.ca cr { u.ca cr with mark := 1 } }) :
    DBFrame s t ∧ t.ca = Function.update s.ca cr { s.ca cr with mark := 1 } ∧
      t.learnts = s.learnts ∧ t.clauses = s.clauses ∧
      t.unaryWatchedClauses = s.unaryWatchedClauses ∧ t.ok = s.ok ∧
      (s.locked cr = false → t.vardata = s.vardata) := by
  subst ht
  refine ⟨⟨b1, b2, b6, b7, ?_, ?_, b8, b9⟩, ?_, b4, b5, b10, b11, b12⟩
  · intro x
    dsimp only
    rw [b3]
    by_cases e : x = cr
    · subst e; rw [Function.update_same]
    · rw [Function.update_noteq e]
  · intro x
    dsimp only
    rw [b3]
    by_cases e : x = cr
    · subst e; rw [Function.update_same]
    · rw [Function.update_noteq e]
  · dsimp only
    rw [b3]

/-- Removing a clause marks it deleted; besides watch maps and counters it changes the
reason of the first literal of a locked clause only. -/
theorem removeClause_frame {s t : Solver} {cr : Nat} {b : Bool}
    (h : removeClause s cr b = some t) :
    DBFrame s t ∧ t.ca = Function.update s.ca cr { s.ca cr with mark := 1 } ∧
      t.learnts = s.learnts ∧ t.clauses = s.clauses ∧
      t.unaryWatchedClauses = s.unaryWatchedClauses ∧ t.ok = s.ok ∧
      (s.locked cr = false → t.vardata = s.vardata) := by
  unfold removeClause at h
  split at h
  · simp at h
  · next s1 hs1 =>
    have e1 : s1.assigns = s.assigns ∧ s1.vardata = s.vardata ∧ s1.ca = s.ca ∧
        s1.learnts = s.learnts ∧ s1.clauses = s.clauses ∧ s1.trail = s.trail ∧
        s1.trail_lim = s.trail_lim ∧
        s1.nbclausesbeforereduce = s.nbclausesbeforereduce ∧ s1.opts = s.opts ∧
        s1.unaryWatchedClauses = s.unaryWatchedClauses ∧ s1.ok = s.ok := by
      split at hs1
      · exact detachClausePurgatory_frame hs1
      · exact detachClause_frame hs1
    obtain ⟨a1, a2, a3, a4, a5, a6, a7, a8, a9, a10, a11⟩ := e1
    have hlk : s1.locked cr = s.locked cr := by
      unfold Solver.locked Solver.value Solver.reason
      rw [a3, a1, a2]
    simp only [Option.some.injEq] at h
    have e2 : ∀ u : Solver, u = (if s1.locked cr = true then
          match (s1.ca cr).lits with
          | c0 :: _ =>
            { s1 with vardata :=
                Function.update s1.vardata c0.var { s1.vardata c0.var with reason := none } }
          | [] => s1
        else s1) →
        u.assigns = s.assigns ∧ (∀ v, (u.vardata v).level = (s.vardata v).level) ∧
          u.ca = s.ca ∧ u.learnts = s.learnts ∧ u.clauses = s.clauses ∧ u.trail = s.trail ∧
          u.trail_lim = s.trail_lim ∧
          u.nbclausesbeforereduce = s.nbclausesbeforereduce ∧ u.opts = s.opts ∧
          u.unaryWatchedClauses = s.unaryWatchedClauses ∧ u.ok = s.ok ∧
          (s.locked cr = false → u.vardata = s.vardata) := by
      intro u hu
      rw [hu]
      split
      · next hl =>
        rw [hlk] at hl
        split
        · next c0 tl hl2 =>
          refine ⟨a1, ?_, a3, a4, a5, a6, a7, a8, a9, a10, a11, ?_⟩
          · intro v
            dsimp only
            rw [a2]
            by_cases e : v = c0.var
            · rw [e, Function.update_same]
            · rw [Function.update_noteq e]
          · intro hf
            rw [hf] at hl
            cases hl
        · exact ⟨a1, fun v => by rw [a2], a3, a4, a5, a6, a7, a8, a9, a10, a11, fun _ => a2⟩
      · exact ⟨a1, fun v => by rw [a2], a3, a4, a5, a6, a7, a8, a9, a10, a11, fun _ => a2⟩
    obtain ⟨b1, b2, b3, b4, b5, b6, b7, b8, b9, b10, b11, b12⟩ := e2 _ rfl
    exact mark_deleted_frame b1 b2 b3 b4 b5 b6 b7 b8 b9 b10 b11 b12 h.symm

/-! ## The loop of `reduceDB` -/

theorem locked_congr {s t : Solver} (h1 : t.assigns = s.assigns) (h2 : t.vardata = s.vardata)
    (cr : Nat) (h3 : (t.ca cr).lits = (s.ca cr).lits) : t.locked cr = s.locked cr := by
  unfold Solver.locked Solver.value Solver.reason
  rw [h3, h1, h2]

/-- The loop of `reduceDB` runs to the end; it writes the deletion mark of the clauses
it removes, which have more than two literals, an LBD above 2 and are not locked, and
the flag `canBeDel` of the clauses it keeps. -/
theorem reduceDBLoop_db : ∀ (sorted : List Nat) (i limit : Nat) (kept : List Nat)
    (t : Solver),
    ∃ kept1 t1, reduceDBLoop sorted i limit kept t = some (kept1, t1) ∧
      DBFrame t t1 ∧ t1.vardata = t.vardata ∧ t1.clauses = t.clauses ∧
      t1.learnts = t.learnts ∧
      (∀ x, (t1.ca x).mark ≠ (t.ca x).mark →
        x ∈ sorted ∧ 2 < (t.ca x).lbd ∧ 2 < (t.ca x).size) ∧
      (∀ cr ∈ sorted, cr ∉ kept1 →
        2 < (t.ca cr).lbd ∧ 2 < (t.ca cr).size ∧ t.locked cr = false) ∧
      (∀ cr ∈ kept, cr ∈ kept1) ∧ (∀ cr ∈ kept1, cr ∈ kept ∨ cr ∈ sorted) := by
  intro sorted
  induction sorted with
  | nil =>
    intro i limit kept t
    exact ⟨kept, t, rfl, DBFrame.db_refl t, rfl, rfl, rfl, fun x hx => absurd rfl hx,
      fun cr hcr => by simp at hcr, fun _ h => h, fun _ h => Or.inl h⟩
  | cons cr rest ih =>
    intro i limit kept t
    rw [reduceDBLoop]
    dsimp only
    split
    · next hc =>
      obtain ⟨hlbd, hsz, _, hlk, _⟩ := hc
      have hsz2 : 2 ≤ (t.ca cr).lits.length := by
        unfold Clause.size at hsz
        omega
      obtain ⟨t1, ht1, _⟩ := removeClause_unlocked hsz2 hlk
      obtain ⟨hf, hca, hle, hcl, _, _, hvd⟩ := removeClause_frame ht1
      rw [ht1]
      dsimp only
      have step : ∀ u : Solver, DBFrame t1 u → u.vardata = t1.vardata → u.ca = t1.ca →
          u.clauses = t1.clauses → u.learnts = t1.learnts →
          ∃ kept1 t2, reduceDBLoop rest (i + 1) limit kept u = some (kept1, t2) ∧
          DBFrame t t2 ∧ t2.vardata = t.vardata ∧ t2.clauses = t.clauses ∧
          t2.learnts = t.learnts ∧
          (∀ x, (t2.ca x).mark ≠ (t.ca x).mark →
            x ∈ cr :: rest ∧ 2 < (t.ca x).lbd ∧ 2 < (t.ca x).size) ∧
          (∀ c ∈ cr :: rest, c ∉ kept1 →
            2 < (t.ca c).lbd ∧ 2 < (t.ca c).size ∧ t.locked c = false) ∧
          (∀ c ∈ kept, c ∈ kept1) ∧ (∀ c ∈ kept1, c ∈ kept ∨ c ∈ cr :: rest) := by
        intro u hfu e1 e2 e3 e4
        have hftu : DBFrame t u := hf.db_trans hfu
        have hvu : u.vardata = t.vardata := e1.trans (hvd hlk)
        obtain ⟨kept1, t2, h1, h2, h3, h4, h5, h6, h7, h8, h9⟩ := ih (i + 1) limit kept u
        refine ⟨kept1, t2, h1, hftu.db_trans h2, h3.trans hvu, h4.trans (e3.trans hcl),
          h5.trans (e4.trans hle), ?_, ?_, h8, ?_⟩
        · intro x hx
          by_cases e : x = cr
          · subst e
            exact ⟨List.mem_cons_self _ _, hlbd, hsz⟩
          · have hux : u.ca x = t.ca x := by
              rw [e2, hca, Function.update_noteq e]
            by_cases hm : (t2.ca x).mark = (u.ca x).mark
            · rw [hm, hux] at hx
              exact absurd rfl hx
            · obtain ⟨a, b, c⟩ := h6 x hm
              rw [hux] at b c
              exact ⟨List.mem_cons_of_mem _ a, b, c⟩
        · intro c hc hnk
          rcases List.mem_cons.mp hc with e | e
          · subst e
            exact ⟨hlbd, hsz, hlk⟩
          · obtain ⟨a, b, c2⟩ := h7 c e hnk
            unfold Clause.size at b ⊢
            rw [hftu.lbd] at a
            rw [hftu.lits] at b
            refine ⟨a, b, ?_⟩
            rw [← c2]
            exact (locked_congr hftu.assigns hvu c (hftu.lits c)).symm
        · intro c hc
          rcases h9 c hc with h | h
          · exact Or.inl h
          · exact Or.inr (List.mem_cons_of_mem _ h)
      exact step _ ⟨rfl, fun _ => rfl, rfl, rfl, fun _ => rfl, fun _ => rfl, rfl, rfl⟩ rfl rfl
        rfl rfl
    · next hc =>
      have step : ∀ u : Solver, u.assigns = t.assigns → u.vardata = t.vardata →
          u.trail = t.trail → u.trail_lim = t.trail_lim →
          u.nbclausesbeforereduce = t.nbclausesbeforereduce → u.opts = t.opts →
          u.clauses = t.clauses → u.learnts = t.learnts →
          u.ca = Function.update t.ca cr { t.ca cr with canBeDel := true } →
          ∀ limit1 : Nat,
          ∃ kept1 t2, reduceDBLoop rest (i + 1) limit1 (kept ++ [cr]) u = some (kept1, t2) ∧
          DBFrame t t2 ∧ t2.vardata = t.vardata ∧ t2.clauses = t.clauses ∧
          t2.learnts = t.learnts ∧
          (∀ x, (t2.ca x).mark ≠ (t.ca x).mark →
            x ∈ cr :: rest ∧ 2 < (t.ca x).lbd ∧ 2 < (t.ca x).size) ∧
          (∀ c ∈ cr :: rest, c ∉ kept1 →
            2 < (t.ca c).lbd ∧ 2 < (t.ca c).size ∧ t.locked c = false) ∧
          (∀ c ∈ kept, c ∈ kept1) ∧ (∀ c ∈ kept1, c ∈ kept ∨ c ∈ cr :: rest) := by
        intro u e1 e2 e3 e4 e5 e6 e7 e8 e9 limit1
        have hux : ∀ x, (u.ca x).lits = (t.ca x).lits ∧ (u.ca x).lbd = (t.ca x).lbd ∧
            (u.ca x).mark = (t.ca x).mark := by
          intro x
          rw [e9]
          by_cases e : x = cr
          · subst e; rw [Function.update_same]; exact ⟨rfl, rfl, rfl⟩
          · rw [Function.update_noteq e]; exact ⟨rfl, rfl, rfl⟩
        have hftu : DBFrame t u :=
          ⟨e1, fun v => by rw [e2], e3, e4, fun x => (hux x).1, fun x => (hux x).2.1, e5, e6⟩
        obtain ⟨kept1, t2, h1, h2, h3, h4, h5, h6, h7, h8, h9⟩ :=
          ih (i + 1) limit1 (kept ++ [cr]) u
        refine ⟨kept1, t2, h1, hftu.db_trans h2, h3.trans e2, h4.trans e7, h5.trans e8,
          ?_, ?_, fun c hc => h8 c (List.mem_append_left _ hc), ?_⟩
        · intro x hx
          rw [← (hux x).2.2] at hx
          obtain ⟨a, b, c⟩ := h6 x hx
          unfold Clause.size at c ⊢
          rw [(hux x).2.1] at b
          rw [(hux x).1] at c
          exact ⟨List.mem_cons_of_mem _ a, b, c⟩
        · intro c hc hnk
          rcases List.mem_cons.mp hc with e | e
          · subst e
            exact absurd (h8 c (by simp)) hnk
          · obtain ⟨a, b, c2⟩ := h7 c e hnk
            unfold Clause.size at b ⊢
            rw [(hux c).2.1] at a
            rw [(hux c).1] at b
            refine ⟨a, b, ?_⟩
            rw [← c2]
            exact (locked_congr e1 e2 c (hux c).1).symm
        · intro c hc
          rcases h9 c hc with h | h
          · rcases List.mem_append.mp h with h | h
            · exact Or.inl h
            · right
              simp only [List.mem_singleton] at h
              subst h
              exact List.mem_cons_self _ _
          · exact Or.inr (List.mem_cons_of_mem _ h)
      apply step <;> rfl

/-- The number of clauses that the loop of `reduceDB` removes: at most the half `n2`
of the length, when the limit starts at `n2` and grows with kept clauses only. -/
theorem reduceDBLoop_count (n2 : Nat) : ∀ (sorted : List Nat) (i limit : Nat)
    (kept : List Nat) (t : Solver) (r : Nat) (kept1 : List Nat) (t1 : Solver),
    i = r + kept.length → limit ≤ n2 + kept.length → r ≤ n2 →
    reduceDBLoop sorted i limit kept t = some (kept1, t1) →
    sorted.length + i ≤ n2 + kept1.length := by
  intro sorted
  induction sorted with
  | nil =>
    intro i limit kept t r kept1 t1 hi hl hr h
    simp only [reduceDBLoop, Option.some.injEq, Prod.mk.injEq] at h
    rw [← h.1]
    simp only [List.length_nil]
    omega
  | cons cr rest ih =>
    intro i limit kept t r kept1 t1 hi hl hr h
    rw [reduceDBLoop] at h
    dsimp only at h
    split at h
    · next hc =>
      split at h
      · simp at h
      · have := ih (i + 1) limit kept _ (r + 1) kept1 t1 (by omega) hl (by omega) h
        simp only [List.length_cons]
        omega
    · have := ih (i + 1) _ (kept ++ [cr]) _ r kept1 t1
        (by simp only [List.length_append, List.length_singleton]; omega)
        (by
          simp only [List.length_append, List.length_singleton]
          split <;> omega) hr h
      simp only [List.length_cons]
      omega

/-- The guard of the loop of `reduceDB` on a clause that the loop has not written is the
removal test of the specification. -/
theorem removedAt_iff_guard {s t : Solver} {sorted done rest : List Nat} {cr limit : Nat}
    (hs : sorted = done ++ cr :: rest) (e1 : t.assigns = s.assigns)
    (e2 : t.vardata = s.vardata) (e3 : t.ca cr = s.ca cr)
    (hl : limit = sorted.length / 2 + done.countP (fun x => !(s.ca x).canBeDel)) :
    (2 < (t.ca cr).lbd ∧ 2 < (t.ca cr).size ∧ (t.ca cr).canBeDel = true ∧
      t.locked cr = false ∧ done.length < limit) ↔ removedAt s sorted done.length cr = true := by
  have hlk : t.locked cr = s.locked cr := locked_congr e1 e2 cr (by rw [e3])
  have htk : sorted.take done.length = done := by
    rw [hs, List.take_left]
  unfold removedAt
  rw [htk, e3, hlk, hl]
  simp only [Bool.and_eq_true, decide_eq_true_eq, Bool.not_eq_true', and_assoc]

/-- The loop of `reduceDB` on a list without repetition, in terms of the state `s` at the
call: a clause is kept exactly when the removal test of the specification fails at its
index; the kept clauses are in the order of the list and have `canBeDel` set; the
removed clauses are marked deleted. -/
theorem reduceDBLoop_exact (s : Solver) (sorted : List Nat) (hnd : sorted.Nodup) :
    ∀ (rest done kept : List Nat) (t : Solver) (limit : Nat), sorted = done ++ rest →
      t.assigns = s.assigns → t.vardata = s.vardata → (∀ x ∈ rest, t.ca x = s.ca x) →
      limit = sorted.length / 2 + done.countP (fun x => !(s.ca x).canBeDel) →
      ∃ kept1 t1, reduceDBLoop rest done.length limit kept t = some (kept1, t1) ∧
        ∃ ext, kept1 = kept ++ ext ∧ ext.Sublist rest ∧
          (∀ j cr, rest.get? j = some cr →
            (cr ∈ ext ↔ removedAt s sorted (done.length + j) cr = false)) ∧
          (∀ cr ∈ ext, (t1.ca cr).canBeDel = true) ∧
          (∀ cr ∈ rest, cr ∉ ext → (t1.ca cr).mark = 1) ∧
          (∀ x, x ∉ rest → t1.ca x = t.ca x) := by
  intro rest
  induction rest with
  | nil =>
    intro done kept t limit _ _ _ _ _
    refine ⟨kept, t, rfl, [], by simp, List.Sublist.refl _, ?_, ?_, ?_, fun _ _ => rfl⟩
    · intro j cr h; simp at h
    · intro cr h; simp at h
    · intro cr h; simp at h
  | cons cr rest ih =>
    intro done kept t limit hs e1 e2 hca hl
    have hnr : cr ∉ rest := by
      rw [hs] at hnd
      have := (List.nodup_append.mp hnd).2.1
      exact (List.nodup_cons.mp this).1
    have hs2 : sorted = (done ++ [cr]) ++ rest := by
      rw [hs, List.append_assoc]; rfl
    have hlen2 : (done ++ [cr]).length = done.length + 1 := by simp
    have hg := removedAt_iff_guard hs e1 e2 (hca cr (List.mem_cons_self _ _)) hl
    rw [reduceDBLoop]
    dsimp only
    split
    · next hc =>
      have hrem : removedAt s sorted done.length cr = true := hg.mp hc
      obtain ⟨hlbd, hsz, hcb, hlk, _⟩ := hc
      have hsz2 : 2 ≤ (t.ca cr).lits.length := by
        unfold Clause.size at hsz
        omega
      obtain ⟨t1, ht1, _⟩ := removeClause_unlocked hsz2 hlk
      obtain ⟨hf, hca1, _, _, _, _, hvd⟩ := removeClause_frame ht1
      rw [ht1]
      dsimp only
      have step : ∀ u : Solver, u.assigns = t1.assigns → u.vardata = t1.vardata →
          u.ca = t1.ca →
          ∃ kept1 t2, reduceDBLoop rest (done.length + 1) limit kept u = some (kept1, t2) ∧
            ∃ ext, kept1 = kept ++ ext ∧ ext.Sublist (cr :: rest) ∧
              (∀ j c, (cr :: rest).get? j = some c →
                (c ∈ ext ↔ removedAt s sorted (done.length + j) c = false)) ∧
              (∀ c ∈ ext, (t2.ca c).canBeDel = true) ∧
              (∀ c ∈ cr :: rest, c ∉ ext → (t2.ca c).mark = 1) ∧
              (∀ x, x ∉ cr :: rest → t2.ca x = t.ca x) := by
        intro u a1 a2 a3
        have hl2 : limit = sorted.length / 2 +
            (done ++ [cr]).countP (fun x => !(s.ca x).canBeDel) := by
          rw [hl, List.countP_append]
          have hcb2 : (s.ca cr).canBeDel = true := by
            rw [← hca cr (List.mem_cons_self _ _)]; exact hcb
          simp [hcb2]
        have hca2 : ∀ x ∈ rest, u.ca x = s.ca x := by
          intro x hx
          have hne : x ≠ cr := fun e => hnr (e ▸ hx)
          rw [a3, hca1, Function.update_noteq hne]
          exact hca x (List.mem_cons_of_mem _ hx)
        obtain ⟨kept1, t2, h1, ext, h2, h3, h4, h5, h6, h7⟩ :=
          ih (done ++ [cr]) kept u limit hs2 (a1.trans (hf.assigns.trans e1))
            (a2.trans ((hvd hlk).trans e2)) hca2 hl2
        rw [hlen2] at h1 h4
        refine ⟨kept1, t2, h1, ext, h2, h3.cons _, ?_, h5, ?_, ?_⟩
        · intro j c hj
          cases j with
          | zero =>
            simp only [List.get?_cons_zero, Option.some.injEq] at hj
            subst hj
            constructor
            · intro hm
              exact absurd (h3.subset hm) hnr
            · intro hf2
              rw [Nat.add_zero, hrem] at hf2
              cases hf2
          | succ j =>
            simp only [List.get?_cons_succ] at hj
            have := h4 j c hj
            rw [show done.length + (j + 1) = done.length + 1 + j by omega]
            exact this
        · intro c hc hne
          rcases List.mem_cons.mp hc with e | e
          · subst e
            rw [h7 c hnr, a3, hca1, Function.update_same]
          · exact h6 c e hne
        · intro x hx
          have hx1 : x ∉ rest := fun h => hx (List.mem_cons_of_mem _ h)
          have hx2 : x ≠ cr := fun h => hx (h ▸ List.mem_cons_self _ _)
          rw [h7 x hx1, a3, hca1, Function.update_noteq hx2]
      apply step <;> rfl
    · next hc =>
      have hrem : removedAt s sorted done.length cr = false := by
        by_contra hcon
        simp only [Bool.not_eq_false] at hcon
        exact hc (hg.mpr hcon)
      have step : ∀ u : Solver, u.assigns = t.assigns → u.vardata = t.vardata →
          u.ca = Function.update t.ca cr { t.ca cr with canBeDel := true } →
          ∃ kept1 t2, reduceDBLoop rest (done.length + 1)
              (if (t.ca cr).canBeDel = false then limit + 1 else limit) (kept ++ [cr]) u
              = some (kept1, t2) ∧
            ∃ ext, kept1 = kept ++ ext ∧ ext.Sublist (cr :: rest) ∧
              (∀ j c, (cr :: rest).get? j = some c →
                (c ∈ ext ↔ removedAt s sorted (done.length + j) c = false)) ∧
              (∀ c ∈ ext, (t2.ca c).canBeDel = true) ∧
              (∀ c ∈ cr :: rest, c ∉ ext → (t2.ca c).mark = 1) ∧
              (∀ x, x ∉ cr :: rest → t2.ca x = t.ca x) := by
        intro u a1 a2 a3
        have hl2 : (if (t.ca cr).canBeDel = false then limit + 1 else limit)
            = sorted.length / 2 + (done ++ [cr]).countP (fun x => !(s.ca x).canBeDel) := by
          rw [hl, List.countP_append, hca cr (List.mem_cons_self _ _)]
          cases hcb : (s.ca cr).canBeDel <;> simp [hcb]
          omega
        have hca2 : ∀ x ∈ rest, u.ca x = s.ca x := by
          intro x hx
          have hne : x ≠ cr := fun e => hnr (e ▸ hx)
          rw [a3, Function.update_noteq hne]
          exact hca x (List.mem_cons_of_mem _ hx)
        obtain ⟨kept1, t2, h1, ext, h2, h3, h4, h5, h6, h7⟩ :=
          ih (done ++ [cr]) (kept ++ [cr]) u _ hs2 (a1.trans e1) (a2.trans e2) hca2 hl2
        rw [hlen2] at h1 h4
        refine ⟨kept1, t2, h1, cr :: ext, by rw [h2, List.append_assoc]; rfl,
          h3.cons₂ _, ?_, ?_, ?_, ?_⟩
        · intro j c hj
          cases j with
          | zero =>
            simp only [List.get?_cons_zero, Option.some.injEq] at hj
            subst hj
            rw [Nat.add_zero]
            exact ⟨fun _ => hrem, fun _ => List.mem_cons_self _ _⟩
          | succ j =>
            simp only [List.get?_cons_succ] at hj
            have hne : c ≠ cr := fun e => hnr (e ▸ mem_of_get? hj)
            have := h4 j c hj
            rw [show done.length + (j + 1) = done.length + 1 + j by omega, ← this,
              List.mem_cons]
            constructor
            · rintro (h | h)
              · exact absurd h hne
              · exact h
            · exact Or.inr
        · intro c hc
          rcases List.mem_cons.mp hc with e | e
          · subst e
            rw [h7 c hnr, a3, Function.update_same]
          · exact h5 c e
        · intro c hc hne
          rcases List.mem_cons.mp hc with e | e
          · subst e
            exact absurd (List.mem_cons_self _ _) hne
          · exact h6 c e (fun h => hne (List.mem_cons_of_mem _ h))
        · intro x hx
          have hx1 : x ∉ rest := fun h => hx (List.mem_cons_of_mem _ h)
          have hx2 : x ≠ cr := fun h => hx (h ▸ List.mem_cons_self _ _)
          rw [h7 x hx1, a3, Function.update_noteq hx2]
      apply step <;> rfl

/-! ## The function `reduceDB` -/

theorem reduceDBSpecial_frame (s : Solver) (mid last : Nat) :
    (reduceDBSpecial s mid last).assigns = s.assigns ∧
    (reduceDBSpecial s mid last).vardata = s.vardata ∧
    (reduceDBSpecial s mid last).ca = s.ca ∧
    (reduceDBSpecial s mid last).clauses = s.clauses ∧
    (reduceDBSpecial s mid last).opts = s.opts ∧
    (reduceDBSpecial s mid last).trail = s.trail ∧
    (reduceDBSpecial s mid last).trail_lim = s.trail_lim ∧
    (reduceDBSpecial s mid last).nbclausesbeforereduce = s.nbclausesbeforereduce +
      (if (s.ca mid).lbd ≤ 3 then s.opts.specialIncReduceDB else 0) +
      (if (s.ca last).lbd ≤ 5 then s.opts.specialIncReduceDB else 0) := by
  unfold reduceDBSpecial
  dsimp only
  by_cases h1 : (s.ca mid).lbd ≤ 3
  · rw [if_pos h1, if_pos h1]
    by_cases h2 : (s.ca last).lbd ≤ 5
    · rw [if_pos h2, if_pos h2]
      exact ⟨rfl, rfl, rfl, rfl, rfl, rfl, rfl, rfl⟩
    · rw [if_neg h2, if_neg h2]
      exact ⟨rfl, rfl, rfl, rfl, rfl, rfl, rfl, rfl⟩
  · rw [if_neg h1, if_neg h1]
    by_cases h2 : (s.ca last).lbd ≤ 5
    · rw [if_pos h2, if_pos h2]
      exact ⟨rfl, rfl, rfl, rfl, rfl, rfl, rfl, rfl⟩
    · rw [if_neg h2, if_neg h2]
      exact ⟨rfl, rfl, rfl, rfl, rfl, rfl, rfl, rfl⟩

theorem checkGarbage_frame (o : Oracle) (u : Solver) :
    (checkGarbage o u).assigns = u.assigns ∧ (checkGarbage o u).vardata = u.vardata ∧
      (checkGarbage o u).ca = u.ca ∧ (checkGarbage o u).learnts = u.learnts ∧
      (checkGarbage o u).trail = u.trail ∧ (checkGarbage o u).trail_lim = u.trail_lim ∧
      (checkGarbage o u).clauses = u.clauses ∧
      (checkGarbage o u).unaryWatchedClauses = u.unaryWatchedClauses ∧
      (checkGarbage o u).ok = u.ok ∧ (checkGarbage o u).opts = u.opts ∧
      (checkGarbage o u).nbclausesbeforereduce = u.nbclausesbeforereduce := by
  unfold checkGarbage garbageCollect Solver.cleanAllWatches
  dsimp only
  split <;> exact ⟨rfl, rfl, rfl, rfl, rfl, rfl, rfl, rfl, rfl, rfl, rfl⟩

theorem sortLearnts_perm (o : Oracle) (s : Solver) : (sortLearnts o s).Perm s.learnts :=
  List.perm_insertionSort _ s.learnts

/-- The function `reduceDB` on a non-empty list of learnt clauses, in its parts: the two
reads in the sorted list, the state `S2` after the two tests, the loop, and the garbage
check. -/
theorem reduceDB_parts (o : Oracle) (s : Solver) (hne : s.learnts ≠ []) :
    ∃ mid last S2 kept t4,
      (sortLearnts o s).get? ((sortLearnts o s).length / RATIOREMOVECLAUSES) = some mid ∧
      (sortLearnts o s).getLast? = some last ∧
      S2.assigns = s.assigns ∧ S2.vardata = s.vardata ∧ S2.ca = s.ca ∧
      S2.clauses = s.clauses ∧ S2.opts = s.opts ∧ S2.trail = s.trail ∧
      S2.trail_lim = s.trail_lim ∧
      S2.nbclausesbeforereduce = s.nbclausesbeforereduce +
        (if (s.ca mid).lbd ≤ 3 then s.opts.specialIncReduceDB else 0) +
        (if (s.ca last).lbd ≤ 5 then s.opts.specialIncReduceDB else 0) ∧
      reduceDBLoop (sortLearnts o s) 0 ((sortLearnts o s).length / 2) [] S2
        = some (kept, t4) ∧
      reduceDB o s = some (checkGarbage o { t4 with learnts := kept }) := by
  have hsne : sortLearnts o s ≠ [] := by
    intro h
    have := (sortLearnts_perm o s).length_eq
    rw [h] at this
    exact hne (List.length_eq_zero.mp this.symm)
  have hlen : 0 < (sortLearnts o s).length := List.length_pos.mpr hsne
  have hmid : (sortLearnts o s).length / RATIOREMOVECLAUSES < (sortLearnts o s).length := by
    unfold RATIOREMOVECLAUSES
    omega
  obtain ⟨mid, hm⟩ : ∃ mid,
      (sortLearnts o s).get? ((sortLearnts o s).length / RATIOREMOVECLAUSES) = some mid :=
    ⟨_, List.get?_eq_get hmid⟩
  obtain ⟨last, hla⟩ : ∃ last, (sortLearnts o s).getLast? = some last := by
    cases h : (sortLearnts o s).getLast? with
    | none => exact absurd (List.getLast?_eq_none_iff.mp h) hsne
    | some l => exact ⟨l, rfl⟩
  have hsort : sortLearnts o { s with stats := { s.stats with
      nbReduceDB := s.stats.nbReduceDB + 1 } } = sortLearnts o s := rfl
  have key : ∀ S1 : Solver, S1.assigns = s.assigns → S1.vardata = s.vardata →
      S1.ca = s.ca → S1.clauses = s.clauses → S1.opts = s.opts → S1.trail = s.trail →
      S1.trail_lim = s.trail_lim →
      S1.nbclausesbeforereduce = s.nbclausesbeforereduce →
      ∃ S2 kept t4,
        S2.assigns = s.assigns ∧ S2.vardata = s.vardata ∧ S2.ca = s.ca ∧
        S2.clauses = s.clauses ∧ S2.opts = s.opts ∧ S2.trail = s.trail ∧
        S2.trail_lim = s.trail_lim ∧
        S2.nbclausesbeforereduce = s.nbclausesbeforereduce +
          (if (s.ca mid).lbd ≤ 3 then s.opts.specialIncReduceDB else 0) +
          (if (s.ca last).lbd ≤ 5 then s.opts.specialIncReduceDB else 0) ∧
        reduceDBLoop (sortLearnts o s) 0 ((sortLearnts o s).length / 2) [] S2
          = some (kept, t4) ∧
        (match reduceDBLoop (sortLearnts o s) 0 ((sortLearnts o s).length / 2) []
              (reduceDBSpecial S1 mid last) with
            | none => none
            | some (kept, s4) => some (checkGarbage o { s4 with learnts := kept }))
          = some (checkGarbage o { t4 with learnts := kept }) := by
    intro S1 e1 e2 e3 e4 e5 e6 e7 e8
    obtain ⟨f1, f2, f3, f4, f5, f6, f7, f8⟩ := reduceDBSpecial_frame S1 mid last
    obtain ⟨kept, t4, hloop, _⟩ := reduceDBLoop_db (sortLearnts o s) 0
      ((sortLearnts o s).length / 2) [] (reduceDBSpecial S1 mid last)
    refine ⟨reduceDBSpecial S1 mid last, kept, t4, f1.trans e1, f2.trans e2, f3.trans e3,
      f4.trans e4, f5.trans e5, f6.trans e6, f7.trans e7, ?_, hloop, ?_⟩
    · rw [f8, e3, e5, e8]
    · rw [hloop]
  obtain ⟨S2, kept, t4, k1, k2, k3, k4, k5, k6, k7, k8, k9, k10⟩ :=
    key { s with stats := { s.stats with nbReduceDB := s.stats.nbReduceDB + 1 },
                 learnts := sortLearnts o s, tick := s.tick + 1 }
      rfl rfl rfl rfl rfl rfl rfl rfl
  refine ⟨mid, last, S2, kept, t4, hm, hla, k1, k2, k3, k4, k5, k6, k7, k8, k9, ?_⟩
  unfold reduceDB
  dsimp only
  rw [hsort, hm, hla]
  exact k10

end Glucose


namespace Glucose

/-! ## The decision heuristic -/

/-- The loop of `pickBranchLit` over the variables of the heap in removal order: the
variables before the one found cannot be decided, the one found can, and with no
variable found the heap is empty afterwards. -/
theorem pickLoop_spec (s : Solver) : ∀ (L : List Nat),
    ∃ pre, L = pre ++ (pickLoop s L).1.toList ++ (pickLoop s L).2 ∧
      (∀ x ∈ pre, s.notPickable (some x) = true) ∧
      (∀ x, (pickLoop s L).1 = some x → s.notPickable (some x) = false) ∧
      ((pickLoop s L).1 = none → (pickLoop s L).2 = []) := by
  intro L
  induction L with
  | nil => exact ⟨[], rfl, by simp, by simp [pickLoop], fun _ => rfl⟩
  | cons x rest ih =>
    rw [pickLoop]
    by_cases h : s.notPickable (some x) = true
    · rw [if_pos h]
      obtain ⟨pre, e, h1, h2, h3⟩ := ih
      refine ⟨x :: pre, ?_, ?_, h2, h3⟩
      · rw [List.cons_append, List.cons_append, ← e]
      · intro y hy
        rcases List.mem_cons.mp hy with e2 | e2
        · rw [e2]; exact h
        · exact h1 y e2
    · rw [if_neg h]
      refine ⟨[], by simp, by simp, ?_, by simp⟩
      intro y hy
      simp only [Option.some.injEq] at hy
      subst hy
      simpa using h

theorem heapOrder_perm (o : Oracle) (s : Solver) : (heapOrder o s).Perm s.order_heap :=
  List.perm_insertionSort _ s.order_heap

/-- The index computed by `irand` from a random number below 1 is inside the heap. -/
theorem irand_lt {d : Frac} {n : Nat} (hd : d.num < (d.den : Int) + 1) (hn : 0 < n) :
    ((d.num * (n : Int)) / ((d.den : Int) + 1)).toNat < n := by
  have hpos : (0 : Int) < (d.den : Int) + 1 := by omega
  have : (d.num * (n : Int)) / ((d.den : Int) + 1) < (n : Int) := by
    apply Int.ediv_lt_of_lt_mul hpos
    have hn2 : (0 : Int) < (n : Int) := by exact_mod_cast hn
    nlinarith
  omega

/-- The function `pickBranchLit` with a random generator that gives numbers below 1:
it returns; the assignment, the eligibility and the saved polarities are not written; a
literal returned is on an unassigned decision variable, with the saved polarity as sign
unless `rnd_pol` is set; without a literal the heap is empty; the heap loses only
variables that cannot be decided, and the variable returned. -/
theorem pickBranchLit_spec (o : Oracle) (s : Solver)
    (hr : ∀ t, (o.drand t).num < ((o.drand t).den : Int) + 1) :
    ∃ r t, pickBranchLit o s = some (r, t) ∧
      t.assigns = s.assigns ∧ t.decision = s.decision ∧ t.polarity = s.polarity ∧
      (∀ l, r = some l → s.valueVar l.var = lbool.l_Undef ∧ s.decision l.var = true ∧
        (s.opts.rnd_pol = false → l.sign = s.polarity l.var)) ∧
      (r = none → t.order_heap = []) ∧
      (∀ x ∈ s.order_heap, x ∉ t.order_heap →
        (∃ l, r = some l ∧ l.var = x) ∨ s.valueVar x ≠ lbool.l_Undef ∨
          s.decision x = false) ∧
      (∀ x ∈ t.order_heap, x ∈ s.order_heap) := by
  have hpick : ∀ x, s.notPickable (some x) = false →
      s.valueVar x = lbool.l_Undef ∧ s.decision x = true := by
    intro x hx
    unfold Solver.notPickable at hx
    simp only [Bool.or_eq_false_iff, decide_eq_false_iff_not, not_not,
      Bool.not_eq_false'] at hx
    exact hx
  have hnot : ∀ x, s.notPickable (some x) = true →
      s.valueVar x ≠ lbool.l_Undef ∨ s.decision x = false := by
    intro x hx
    unfold Solver.notPickable at hx
    simp only [Bool.or_eq_true, decide_eq_true_eq, Bool.not_eq_true'] at hx
    exact hx
  -- the choice of the sign
  have hC : ∀ pr : Option Nat × Solver,
      (pr.2.assigns = s.assigns ∧ pr.2.decision = s.decision ∧ pr.2.polarity = s.polarity ∧
      pr.2.opts = s.opts ∧
      (∀ x, pr.1 = some x → s.notPickable (some x) = false) ∧
      (pr.1 = none → pr.2.order_heap = []) ∧
      (∀ x ∈ s.order_heap, x ∉ pr.2.order_heap →
        pr.1 = some x ∨ s.notPickable (some x) = true) ∧
      (∀ x ∈ pr.2.order_heap, x ∈ s.order_heap)) →
      ∃ r t,
        (match pr.1 with
          | none => some (none, pr.2)
          | some x =>
            if pr.2.opts.rnd_pol = true then
              some (some (mkLit x (Frac.lt (o.drand pr.2.tick) (Frac.ratio 1 2))),
                { pr.2 with tick := pr.2.tick + 1 })
            else some (some (mkLit x (pr.2.polarity x)), pr.2)) = some (r, t) ∧
        t.assigns = s.assigns ∧ t.decision = s.decision ∧ t.polarity = s.polarity ∧
        (∀ l, r = some l → s.valueVar l.var = lbool.l_Undef ∧ s.decision l.var = true ∧
          (s.opts.rnd_pol = false → l.sign = s.polarity l.var)) ∧
        (r = none → t.order_heap = []) ∧
        (∀ x ∈ s.order_heap, x ∉ t.order_heap →
          (∃ l, r = some l ∧ l.var = x) ∨ s.valueVar x ≠ lbool.l_Undef ∨
            s.decision x = false) ∧
        (∀ x ∈ t.order_heap, x ∈ s.order_heap) := by
    rintro pr ⟨b1, b2, b3, b4, b5, b6, b7, b8⟩
    cases hp1 : pr.1 with
    | none =>
      dsimp only
      refine ⟨none, pr.2, rfl, b1, b2, b3, fun l hl => Option.noConfusion hl,
        fun _ => b6 hp1, ?_, b8⟩
      intro x hx hnx
      rcases b7 x hx hnx with h | h
      · rw [hp1] at h; cases h
      · exact Or.inr (hnot x h)
    | some x =>
      dsimp only
      have hxok := hpick x (b5 x hp1)
      split
      · next hrp =>
        refine ⟨_, _, rfl, b1, b2, b3, ?_, fun h => Option.noConfusion h, ?_, b8⟩
        · intro l hl
          simp only [Option.some.injEq] at hl
          subst hl
          refine ⟨hxok.1, hxok.2, ?_⟩
          intro hf
          rw [b4, hf] at hrp
          cases hrp
        · intro y hy hny
          rcases b7 y hy hny with h | h
          · left
            rw [hp1] at h
            simp only [Option.some.injEq] at h
            exact ⟨_, rfl, h⟩
          · exact Or.inr (hnot y h)
      · refine ⟨_, _, rfl, b1, b2, b3, ?_, fun h => Option.noConfusion h, ?_, b8⟩
        · intro l hl
          simp only [Option.some.injEq] at hl
          subst hl
          refine ⟨hxok.1, hxok.2, ?_⟩
          intro _
          show pr.2.polarity x = s.polarity x
          rw [b3]
        · intro y hy hny
          rcases b7 y hy hny with h | h
          · left
            rw [hp1] at h
            simp only [Option.some.injEq] at h
            exact ⟨_, rfl, h⟩
          · exact Or.inr (hnot y h)
  unfold pickBranchLit
  dsimp only
  split
  · next heq =>
    exfalso
    split at heq
    · next hc =>
      have hlen : 0 < s.order_heap.length := List.length_pos.mpr hc.2
      have hi := irand_lt (hr (s.tick + 1)) hlen
      rw [List.get?_eq_get hi] at heq
      simp at heq
    · simp at heq
  · next next0 s2 heq =>
    have hs2 : s2.assigns = s.assigns ∧ s2.decision = s.decision ∧
        s2.polarity = s.polarity ∧ s2.order_heap = s.order_heap ∧ s2.opts = s.opts := by
      split at heq
      · split at heq
        · simp at heq
        · simp only [Option.some.injEq, Prod.mk.injEq] at heq
          rw [← heq.2]
          split <;> exact ⟨rfl, rfl, rfl, rfl, rfl⟩
      · simp only [Option.some.injEq, Prod.mk.injEq] at heq
        rw [← heq.2]
        exact ⟨rfl, rfl, rfl, rfl, rfl⟩
    obtain ⟨a1, a2, a3, a4, a5⟩ := hs2
    have hnp : ∀ x, s2.notPickable x = s.notPickable x := by
      intro x
      unfold Solver.notPickable Solver.valueVar
      rw [a1, a2]
    have hB : ∀ pr : Option Nat × Solver,
        pr = (if s2.notPickable next0 = true then
          ((pickLoop s2 (heapOrder o s2)).1,
            { s2 with order_heap := (pickLoop s2 (heapOrder o s2)).2, tick := s2.tick + 1 })
        else (next0, s2)) →
        pr.2.assigns = s.assigns ∧ pr.2.decision = s.decision ∧ pr.2.polarity = s.polarity ∧
        pr.2.opts = s.opts ∧
        (∀ x, pr.1 = some x → s.notPickable (some x) = false) ∧
        (pr.1 = none → pr.2.order_heap = []) ∧
        (∀ x ∈ s.order_heap, x ∉ pr.2.order_heap →
          pr.1 = some x ∨ s.notPickable (some x) = true) ∧
        (∀ x ∈ pr.2.order_heap, x ∈ s.order_heap) := by
      intro pr hpr
      rw [hpr]
      split
      · obtain ⟨pre, e, h1, h2, h3⟩ := pickLoop_spec s2 (heapOrder o s2)
        have hmem : ∀ x, x ∈ s.order_heap ↔
            x ∈ pre ∨ x ∈ (pickLoop s2 (heapOrder o s2)).1.toList ∨
              x ∈ (pickLoop s2 (heapOrder o s2)).2 := by
          intro x
          rw [← a4, ← (heapOrder_perm o s2).mem_iff]
          conv_lhs => rw [e]
          simp only [List.mem_append, or_assoc]
        refine ⟨a1, a2, a3, a5, ?_, h3, ?_, ?_⟩
        · intro x hx
          rw [← hnp]
          exact h2 x hx
        · intro x hx hnx
          rcases (hmem x).mp hx with h | h | h
          · right
            rw [← hnp]
            exact h1 x h
          · left
            simpa [Option.mem_toList] using h
          · exact absurd h hnx
        · intro x hx
          exact (hmem x).mpr (Or.inr (Or.inr hx))
      · next hc =>
        refine ⟨a1, a2, a3, a5, ?_, ?_, ?_, ?_⟩
        · intro x hx
          dsimp only at hx
          rw [hx, hnp] at hc
          simpa using hc
        · intro hx
          dsimp only at hx
          rw [hx] at hc
          simp [Solver.notPickable] at hc
        · intro x hx hnx
          dsimp only at hnx
          rw [a4] at hnx
          exact absurd hx hnx
        · intro x hx
          dsimp only at hx
          rw [a4] at hx
          exact hx
    exact hC _ (hB _ rfl)

end Glucose


namespace Glucose

/-! ## The functions below `search` do not write the scalar members -/

theorem uncheckedEnqueue_lists {s s1 : Solver} {p : Lit} {r : Option Nat}
    (h : uncheckedEnqueue s p r = some s1) : s1.lists = s.lists := by
  obtain ⟨_, rfl⟩ := uncheckedEnqueue_eq h
  rfl

theorem attachClause_lists {s t : Solver} {cr : Nat} (h : attachClause s cr = some t) :
    t.lists = s.lists := by
  unfold attachClause at h
  dsimp only at h
  split at h
  · simp only [Option.some.injEq] at h
    rw [← h]
    split <;> split <;> rfl
  · simp at h

theorem LongSpec.long_lists {p : Lit} {w : Watcher} {s : Solver} {out : WatchOutcome}
    (h : LongSpec p w s out) : out.state.lists = s.lists := by
  cases h with
  | skip _ => rfl
  | sat c0 c1 rest first hv _ _ => rfl
  | moved c0 c1 rest first k x hv _ hx _ _ => rfl
  | conflict c0 c1 rest first hv _ _ => rfl
  | unit c0 c1 rest first s2 hv _ _ he => exact (uncheckedEnqueue_lists he).trans rfl

theorem propagateLong_lists {p : Lit} {ws kept : List Watcher} {confl : Option Nat}
    {s : Solver} {r : Option Nat × List Watcher × Solver}
    (h : propagateLong p ws kept confl s = some r) : r.2.2.lists = s.lists := by
  refine propagateLong_induct (p := p) (fun _ _ t => t.lists = s.lists) ?_ ?_ ?_
    ws kept confl s r rfl h
  · intro _ _ _ _ t _ t1 hI hs
    exact ((longStep_spec hs).long_lists).trans hI
  · intro _ _ _ _ t t1 hI hs
    exact ((longStep_spec hs).long_lists).trans hI
  · intro _ _ _ _ t _ _ t1 hI hs
    exact ((longStep_spec hs).long_lists).trans hI

theorem propagateBin_lists {ws : List Watcher} {s : Solver} {r : Option Nat × Solver}
    (h : propagateBin ws s = some r) : r.2.lists = s.lists := by
  induction ws generalizing s with
  | nil =>
    simp only [propagateBin, Option.some.injEq] at h
    subst h
    rfl
  | cons w ws ih =>
    unfold propagateBin at h
    split at h
    · simp only [Option.some.injEq] at h
      subst h
      rfl
    · split at h
      · split at h
        · simp at h
        · next s1 he => exact (ih h).trans (uncheckedEnqueue_lists he)
      · exact ih h

theorem promoteClause_lists {s t : Solver} {cr : Nat} {c0 : Lit} {rest : List Lit}
    (h : promoteClause s cr c0 rest = some t) : t.lists = s.lists := by
  unfold promoteClause at h
  split at h
  · simp at h
  · cases hm : maxLevelIndex s rest 1 none with
    | none => rw [hm] at h; simp at h
    | some im =>
      obtain ⟨index, m⟩ := im
      rw [hm] at h
      dsimp only at h
      cases rest with
      | nil => simp at h
      | cons r1 tl =>
        dsimp only at h
        cases hli : (r1 :: tl).get? (index - 1) with
        | none => rw [hli] at h; simp at h
        | some li =>
          rw [hli] at h
          dsimp only at h
          split at h
          · simp at h
          · next s4 h4 =>
            simp only [Option.some.injEq] at h
            subst h
            exact (attachClause_lists h4).trans rfl

theorem UnarySpec.unary_lists {p : Lit} {w : Watcher} {s : Solver} {out : WatchOutcome}
    (h : UnarySpec p w s out) : out.state.lists = s.lists := by
  cases h with
  | skip _ => rfl
  | moved rest k x _ _ _ _ _ => rfl
  | conflict rest s1 _ _ _ hc =>
    rcases hc with ⟨_, rfl⟩ | ⟨_, hp⟩
    · rfl
    · exact (promoteClause_lists hp).trans rfl

theorem propagateUnaryLoop_lists {p : Lit} {ws kept : List Watcher} {confl : Option Nat}
    {s : Solver} {r : Option Nat × List Watcher × Solver}
    (h : propagateUnaryLoop p ws kept confl s = some r) : r.2.2.lists = s.lists := by
  induction ws generalizing kept s with
  | nil =>
    simp only [propagateUnaryLoop, Option.some.injEq] at h
    subst h
    rfl
  | cons w ws ih =>
    unfold propagateUnaryLoop at h
    cases hs : unaryStep p w s with
    | none => rw [hs] at h; simp at h
    | some out =>
      rw [hs] at h
      have he := (unaryStep_spec hs).unary_lists
      cases out with
      | keep w1 s1 => exact (ih h).trans he
      | moved s1 => exact (ih h).trans he
      | conflict cr w1 s1 =>
        dsimp only at h
        split at h
        · split at h
          · simp at h
          · simp only [Option.some.injEq] at h
            subst h
            exact he
        · simp only [Option.some.injEq] at h
          subst h
          exact he

theorem propagateUnaryWatches_lists {s : Solver} {p : Lit} {r : Option Nat × Solver}
    (h : propagateUnaryWatches s p = some r) : r.2.lists = s.lists := by
  unfold propagateUnaryWatches at h
  cases hl : propagateUnaryLoop p (s.unaryWatches.occs p) [] none s with
  | none => rw [hl] at h; simp at h
  | some rl =>
    obtain ⟨confl, kept, s1⟩ := rl
    rw [hl] at h
    simp only [Option.some.injEq] at h
    subst h
    exact (propagateUnaryLoop_lists hl).trans rfl

theorem propagateLoop_lists (fuel : Nat) (confl : Option Nat) (n : Nat) (s : Solver)
    (r : Option Nat × Solver) (h : propagateLoop fuel confl n s = some r) :
    r.2.lists = s.lists := by
  refine propagateLoop_induct (fun _ t => t.lists = s.lists)
    (fun _ t => t.lists = s.lists) ?_ ?_ ?_ fuel confl n s r rfl h
  · intro confl t p t1 confl1 kept t2 hI hlt hget hb hl
    have e2 : t1.lists = t.lists := propagateBin_lists hb
    have e3 : t2.lists = t1.lists := propagateLong_lists hl
    have e5 : t2.lists = s.lists := (e3.trans e2).trans hI
    refine ⟨e5, ?_⟩
    intro confl2 t4 _ _ hu
    exact (propagateUnaryWatches_lists hu).trans e5
  · intro confl t p t1 cr hI hlt hget hb
    exact (propagateBin_lists hb).trans hI
  · intro confl t n hI hlt
    exact hI

/-- The function `propagate` does not write the members of `Solver.lists`. -/
theorem propagate_lists {s : Solver} {r : Option Nat × Solver} (h : propagate s = some r) :
    r.2.lists = s.lists :=
  (propagateLoop_lists _ _ _ s.cleanAllWatches _ h).trans rfl

theorem marks_of_ca {s t : Solver} (h : t.ca = s.ca) : t.marks = s.marks := by
  unfold Solver.marks
  rw [h]

theorem marks_setLits (s : Solver) (cr : Nat) (ls : List Lit) :
    (s.setLits cr ls).marks = s.marks := by
  funext x
  unfold Solver.marks Solver.setLits
  dsimp only
  by_cases e : x = cr
  · subst e; rw [Function.update_same]
  · rw [Function.update_noteq e]

theorem uncheckedEnqueue_marks {s s1 : Solver} {p : Lit} {r : Option Nat}
    (h : uncheckedEnqueue s p r = some s1) : s1.marks = s.marks := by
  obtain ⟨_, rfl⟩ := uncheckedEnqueue_eq h
  rfl

theorem attachClause_marks {s t : Solver} {cr : Nat} (h : attachClause s cr = some t) :
    t.marks = s.marks := by
  unfold attachClause at h
  dsimp only at h
  split at h
  · simp only [Option.some.injEq] at h
    rw [← h]
    split <;> split <;> rfl
  · simp at h

theorem LongSpec.long_marks {p : Lit} {w : Watcher} {s : Solver} {out : WatchOutcome}
    (h : LongSpec p w s out) : out.state.marks = s.marks := by
  cases h with
  | skip _ => rfl
  | sat c0 c1 rest first hv _ _ => exact marks_setLits _ _ _
  | moved c0 c1 rest first k x hv _ hx _ _ =>
    exact (marks_of_ca rfl).trans (marks_setLits _ _ _)
  | conflict c0 c1 rest first hv _ _ =>
    exact (marks_of_ca rfl).trans (marks_setLits _ _ _)
  | unit c0 c1 rest first s2 hv _ _ he =>
    exact (uncheckedEnqueue_marks he).trans (marks_setLits _ _ _)

theorem propagateLong_marks {p : Lit} {ws kept : List Watcher} {confl : Option Nat}
    {s : Solver} {r : Option Nat × List Watcher × Solver}
    (h : propagateLong p ws kept confl s = some r) : r.2.2.marks = s.marks := by
  refine propagateLong_induct (p := p) (fun _ _ t => t.marks = s.marks) ?_ ?_ ?_
    ws kept confl s r rfl h
  · intro _ _ _ _ t _ t1 hI hs
    exact ((longStep_spec hs).long_marks).trans hI
  · intro _ _ _ _ t t1 hI hs
    exact ((longStep_spec hs).long_marks).trans hI
  · intro _ _ _ _ t _ _ t1 hI hs
    exact ((longStep_spec hs).long_marks).trans hI

theorem propagateBin_marks {ws : List Watcher} {s : Solver} {r : Option Nat × Solver}
    (h : propagateBin ws s = some r) : r.2.marks = s.marks := by
  induction ws generalizing s with
  | nil =>
    simp only [propagateBin, Option.some.injEq] at h
    subst h
    rfl
  | cons w ws ih =>
    unfold propagateBin at h
    split at h
    · simp only [Option.some.injEq] at h
      subst h
      rfl
    · split at h
      · split at h
        · simp at h
        · next s1 he => exact (ih h).trans (uncheckedEnqueue_marks he)
      · exact ih h

theorem promoteClause_marks {s t : Solver} {cr : Nat} {c0 : Lit} {rest : List Lit}
    (h : promoteClause s cr c0 rest = some t) : t.marks = s.marks := by
  unfold promoteClause at h
  split at h
  · simp at h
  · cases hm : maxLevelIndex s rest 1 none with
    | none => rw [hm] at h; simp at h
    | some im =>
      obtain ⟨index, m⟩ := im
      rw [hm] at h
      dsimp only at h
      cases rest with
      | nil => simp at h
      | cons r1 tl =>
        dsimp only at h
        cases hli : (r1 :: tl).get? (index - 1) with
        | none => rw [hli] at h; simp at h
        | some li =>
          rw [hli] at h
          dsimp only at h
          split at h
          · simp at h
          · next s4 h4 =>
            simp only [Option.some.injEq] at h
            subst h
            have e4 := attachClause_marks h4
            have e3 : (Solver.setLits
                { s with stats := { s.stats with nbPromoted := s.stats.nbPromoted + 1 } } cr
                (c0 :: ((r1 :: tl).set (index - 1) r1).set 0 li)).marks = s.marks :=
              (marks_setLits _ _ _).trans rfl
            refine Eq.trans ?_ (e4.trans e3)
            funext x
            unfold Solver.marks
            dsimp only
            by_cases e : x = cr
            · subst e; rw [Function.update_same]
            · rw [Function.update_noteq e]

theorem UnarySpec.unary_marks {p : Lit} {w : Watcher} {s : Solver} {out : WatchOutcome}
    (h : UnarySpec p w s out) : out.state.marks = s.marks := by
  cases h with
  | skip _ => rfl
  | moved rest k x _ _ _ _ _ => exact (marks_of_ca rfl).trans (marks_setLits _ _ _)
  | conflict rest s1 _ _ _ hc =>
    rcases hc with ⟨_, rfl⟩ | ⟨_, hp⟩
    · rfl
    · exact (promoteClause_marks hp).trans rfl

theorem propagateUnaryLoop_marks {p : Lit} {ws kept : List Watcher} {confl : Option Nat}
    {s : Solver} {r : Option Nat × List Watcher × Solver}
    (h : propagateUnaryLoop p ws kept confl s = some r) : r.2.2.marks = s.marks := by
  induction ws generalizing kept s with
  | nil =>
    simp only [propagateUnaryLoop, Option.some.injEq] at h
    subst h
    rfl
  | cons w ws ih =>
    unfold propagateUnaryLoop at h
    cases hs : unaryStep p w s with
    | none => rw [hs] at h; simp at h
    | some out =>
      rw [hs] at h
      have he := (unaryStep_spec hs).unary_marks
      cases out with
      | keep w1 s1 => exact (ih h).trans he
      | moved s1 => exact (ih h).trans he
      | conflict cr w1 s1 =>
        dsimp only at h
        split at h
        · split at h
          · simp at h
          · simp only [Option.some.injEq] at h
            subst h
            exact he
        · simp only [Option.some.injEq] at h
          subst h
          exact he

theorem propagateUnaryWatches_marks {s : Solver} {p : Lit} {r : Option Nat × Solver}
    (h : propagateUnaryWatches s p = some r) : r.2.marks = s.marks := by
  unfold propagateUnaryWatches at h
  cases hl : propagateUnaryLoop p (s.unaryWatches.occs p) [] none s with
  | none => rw [hl] at h; simp at h
  | some rl =>
    obtain ⟨confl, kept, s1⟩ := rl
    rw [hl] at h
    simp only [Option.some.injEq] at h
    subst h
    exact (propagateUnaryLoop_marks hl).trans rfl

theorem propagateLoop_marks (fuel : Nat) (confl : Option Nat) (n : Nat) (s : Solver)
    (r : Option Nat × Solver) (h : propagateLoop fuel confl n s = some r) :
    r.2.marks = s.marks := by
  refine propagateLoop_induct (fun _ t => t.marks = s.marks)
    (fun _ t => t.marks = s.marks) ?_ ?_ ?_ fuel confl n s r rfl h
  · intro confl t p t1 confl1 kept t2 hI hlt hget hb hl
    have e2 : t1.marks = t.marks := propagateBin_marks hb
    have e3 : t2.marks = t1.marks := propagateLong_marks hl
    have e5 : t2.marks = s.marks := (e3.trans e2).trans hI
    refine ⟨e5, ?_⟩
    intro confl2 t4 _ _ hu
    exact (propagateUnaryWatches_marks hu).trans e5
  · intro confl t p t1 cr hI hlt hget hb
    exact (propagateBin_marks hb).trans hI
  · intro confl t n hI hlt
    exact hI

/-- The function `propagate` writes no deletion mark, no flag `learnt`, no LBD and no
flag `canBeDel`. -/
theorem propagate_marks {s : Solver} {r : Option Nat × Solver} (h : propagate s = some r) :
    r.2.marks = s.marks :=
  (propagateLoop_marks _ _ _ s.cleanAllWatches _ h).trans rfl

end Glucose


namespace Glucose

/-! ## Removing satisfied clauses -/

theorem DBFrame.value_eq_db {s t : Solver} (h : DBFrame s t) (l : Lit) :
    t.value l = s.value l := by
  unfold Solver.value
  rw [h.assigns]

/-- A clause that passes the test `satisfied` has a true literal. -/
theorem satisfied_true {s : Solver} {cr : Nat} (h : satisfied s cr = some true) :
    ∃ l ∈ (s.ca cr).lits, s.value l = lbool.l_True := by
  unfold satisfied at h
  dsimp only at h
  split at h
  · split at h
    · next c0 c1 rest hl =>
      simp only [Option.some.injEq, Bool.or_eq_true, decide_eq_true_eq] at h
      rw [hl]
      rcases h with h | h
      · exact ⟨c0, by simp, h⟩
      · exact ⟨c1, by simp, h⟩
    · simp at h
  · simp only [Option.some.injEq, List.any_eq_true, decide_eq_true_eq] at h
    exact h

/-- The loop of `removeSatisfied`: it removes from the list, and marks deleted, only
clauses with a true literal. -/
theorem removeSatisfiedLoop_spec : ∀ (cs kept : List Nat) (s : Solver) (kept1 : List Nat)
    (t : Solver), removeSatisfiedLoop cs kept s = some (kept1, t) →
    DBFrame s t ∧ t.clauses = s.clauses ∧ t.learnts = s.learnts ∧
      t.unaryWatchedClauses = s.unaryWatchedClauses ∧ t.ok = s.ok ∧
      (∀ cr ∈ kept, cr ∈ kept1) ∧ (∀ cr ∈ kept1, cr ∈ kept ∨ cr ∈ cs) ∧
      (∀ cr ∈ cs, cr ∈ kept1 ∨ ∃ l ∈ (s.ca cr).lits, s.value l = lbool.l_True) ∧
      (∀ x, (t.ca x).mark ≠ (s.ca x).mark →
        x ∈ cs ∧ ∃ l ∈ (s.ca x).lits, s.value l = lbool.l_True) := by
  intro cs
  induction cs with
  | nil =>
    intro kept s kept1 t h
    simp only [removeSatisfiedLoop, Option.some.injEq, Prod.mk.injEq] at h
    obtain ⟨rfl, rfl⟩ := h
    exact ⟨DBFrame.db_refl _, rfl, rfl, rfl, rfl, fun _ h => h, fun _ h => Or.inl h,
      fun cr h => by simp at h, fun x hx => absurd rfl hx⟩
  | cons cr rest ih =>
    intro kept s kept1 t h
    rw [removeSatisfiedLoop] at h
    split at h
    · simp at h
    · next hsat =>
      split at h
      · simp at h
      · next s1 hrm =>
        obtain ⟨hf, hca, hle, hcl, hu, hok, _⟩ := removeClause_frame hrm
        obtain ⟨g1, g2, g3, g4, g5, g6, g7, g8, g9⟩ := ih kept s1 kept1 t h
        have hs := satisfied_true hsat
        have tr : ∀ x, (∃ l ∈ (s1.ca x).lits, s1.value l = lbool.l_True) →
            ∃ l ∈ (s.ca x).lits, s.value l = lbool.l_True := by
          rintro x ⟨l, hl, hv⟩
          rw [hf.lits] at hl
          rw [hf.value_eq_db] at hv
          exact ⟨l, hl, hv⟩
        refine ⟨hf.db_trans g1, g2.trans hcl, g3.trans hle, g4.trans hu, g5.trans hok, g6,
          ?_, ?_, ?_⟩
        · intro x hx
          rcases g7 x hx with h1 | h1
          · exact Or.inl h1
          · exact Or.inr (List.mem_cons_of_mem _ h1)
        · intro x hx
          rcases List.mem_cons.mp hx with e | e
          · subst e
            exact Or.inr hs
          · rcases g8 x e with h1 | h1
            · exact Or.inl h1
            · exact Or.inr (tr x h1)
        · intro x hx
          by_cases e : x = cr
          · subst e
            exact ⟨List.mem_cons_self _ _, hs⟩
          · have hx1 : s1.ca x = s.ca x := by rw [hca, Function.update_noteq e]
            rw [← hx1] at hx
            obtain ⟨a, b⟩ := g9 x hx
            exact ⟨List.mem_cons_of_mem _ a, tr x b⟩
    · obtain ⟨g1, g2, g3, g4, g5, g6, g7, g8, g9⟩ := ih (kept ++ [cr]) s kept1 t h
      refine ⟨g1, g2, g3, g4, g5, fun x hx => g6 x (List.mem_append_left _ hx), ?_, ?_, ?_⟩
      · intro x hx
        rcases g7 x hx with h1 | h1
        · rcases List.mem_append.mp h1 with h2 | h2
          · exact Or.inl h2
          · right
            simp only [List.mem_singleton] at h2
            subst h2
            exact List.mem_cons_self _ _
        · exact Or.inr (List.mem_cons_of_mem _ h1)
      · intro x hx
        rcases List.mem_cons.mp hx with e | e
        · subst e
          exact Or.inl (g6 x (by simp))
        · exact g8 x e
      · intro x hx
        obtain ⟨a, b⟩ := g9 x hx
        exact ⟨List.mem_cons_of_mem _ a, b⟩

theorem marks_mark {s t : Solver} (h : t.marks = s.marks) (x : Nat) :
    (t.ca x).mark = (s.ca x).mark := by
  have := congrFun h x
  unfold Solver.marks at this
  simp only [Prod.mk.injEq] at this
  exact this.1

theorem rebuildOrderHeap_frame (s : Solver) :
    (rebuildOrderHeap s).assigns = s.assigns ∧ (rebuildOrderHeap s).ca = s.ca ∧
      (rebuildOrderHeap s).clauses = s.clauses ∧ (rebuildOrderHeap s).trail = s.trail :=
  ⟨rfl, rfl, rfl, rfl⟩

/-- The function `simplify` and the list `clauses`: a clause of `clauses` that is neither
in `learnts` nor in `unaryWatchedClauses` stays in `clauses` with its deletion mark,
unless `remove_satisfied` is set and one of its literals is true in the state
returned. -/
theorem simplify_clauses {o : Oracle} {s t : Solver} {b : Bool}
    (h : simplify o s = some (b, t)) :
    ∀ cr ∈ s.clauses, cr ∉ s.learnts → cr ∉ s.unaryWatchedClauses →
      (cr ∈ t.clauses ∧ (t.ca cr).mark = (s.ca cr).mark) ∨
      (s.opts.remove_satisfied = true ∧ ∃ l ∈ (s.ca cr).lits, t.value l = lbool.l_True) := by
  intro cr hcr hnl hnu
  unfold simplify at h
  split at h
  · simp at h
  · split at h
    · simp only [Option.some.injEq, Prod.mk.injEq] at h
      rw [← h.2]
      exact Or.inl ⟨hcr, rfl⟩
    · split at h
      · simp at h
      · next c s1 hp =>
        simp only [Option.some.injEq, Prod.mk.injEq] at h
        rw [← h.2]
        have hl := propagate_lists hp
        simp only [Solver.lists, Prod.mk.injEq] at hl
        left
        refine ⟨?_, marks_mark (propagate_marks hp) cr⟩
        show cr ∈ s1.clauses
        rw [hl.1]
        exact hcr
      · next s1 hp =>
        have hl := propagate_lists hp
        simp only [Solver.lists, Prod.mk.injEq] at hl
        have hm1 := marks_mark (propagate_marks hp) cr
        have hsc := propagate_scalars hp
        simp only [Solver.scalars, Prod.mk.injEq] at hsc
        have hext := propagate_ext hp
        split at h
        · simp only [Option.some.injEq, Prod.mk.injEq] at h
          rw [← h.2]
          left
          refine ⟨?_, hm1⟩
          rw [hl.1]
          exact hcr
        · split at h
          · simp at h
          · next l2 s2 hL1 =>
            obtain ⟨f1, c1, _, u1, _, _, _, _, m1⟩ := removeSatisfiedLoop_spec _ _ _ _ _ hL1
            dsimp only at h
            split at h
            · simp at h
            · next u2 s4 hL2 =>
              obtain ⟨f2, c2, _, _, _, _, _, _, m2⟩ := removeSatisfiedLoop_spec _ _ _ _ _ hL2
              have hm2 : (s2.ca cr).mark = (s1.ca cr).mark := by
                by_contra hne
                have := (m1 cr hne).1
                rw [hl.2.1] at this
                exact hnl this
              have hm4 : (s4.ca cr).mark = (s2.ca cr).mark := by
                by_contra hne
                have := (m2 cr hne).1
                have e : ({ s2 with learnts := l2 } : Solver).unaryWatchedClauses
                    = s.unaryWatchedClauses := u1.trans hl.2.2.1
                rw [e] at this
                exact hnu this
              have hc4 : s4.clauses = s.clauses := c2.trans (c1.trans hl.1)
              have hmk : (s4.ca cr).mark = (s.ca cr).mark := hm4.trans (hm2.trans hm1)
              have hf4 : DBFrame s1 s4 := f1.db_trans
                ⟨f2.assigns, f2.levels, f2.trail, f2.trail_lim, f2.lits, f2.lbd, f2.nbc,
                  f2.opts⟩
              split at h
              · simp at h
              · next s7 hr =>
                simp only [Option.some.injEq, Prod.mk.injEq] at h
                have fin : ∀ u : Solver, u.assigns = s7.assigns → u.ca = s7.ca →
                    u.clauses = s7.clauses → u = t →
                    (cr ∈ s7.clauses ∧ (s7.ca cr).mark = (s.ca cr).mark) ∨
                    (s.opts.remove_satisfied = true ∧
                      ∃ l ∈ (s.ca cr).lits, s7.value l = lbool.l_True) →
                    (cr ∈ t.clauses ∧ (t.ca cr).mark = (s.ca cr).mark) ∨
                    (s.opts.remove_satisfied = true ∧
                      ∃ l ∈ (s.ca cr).lits, t.value l = lbool.l_True) := by
                  intro u e1 e2 e3 e4 hor
                  subst e4
                  rcases hor with ⟨a, b⟩ | ⟨a, l, hl1, hl2⟩
                  · left
                    rw [e3, e2]
                    exact ⟨a, b⟩
                  · right
                    refine ⟨a, l, hl1, ?_⟩
                    unfold Solver.value at hl2 ⊢
                    rw [e1]
                    exact hl2
                have g := checkGarbage_frame o s7
                refine fin _ ?_ ?_ ?_ h.2 ?_
                · exact g.1
                · exact g.2.2.1
                · exact g.2.2.2.2.2.2.1
                · split at hr
                  · next hrs =>
                    split at hr
                    · simp at hr
                    · next c3 s6 hL3 =>
                      simp only [Option.some.injEq] at hr
                      obtain ⟨f3, _, _, _, _, _, _, k3, m3⟩ :=
                        removeSatisfiedLoop_spec _ _ _ _ _ hL3
                      rw [← hr]
                      have hrs2 : s.opts.remove_satisfied = true := by
                        have e : ({ s4 with unaryWatchedClauses := u2 } : Solver).opts
                            = s.opts := hf4.opts.trans hsc.2.1
                        rw [← e]
                        exact hrs
                      have conv : (∃ l ∈ (s4.ca cr).lits, s4.value l = lbool.l_True) →
                          ∃ l ∈ (s.ca cr).lits, s6.value l = lbool.l_True := by
                        rintro ⟨l, hl1, hl2⟩
                        refine ⟨l, ?_, ?_⟩
                        · rw [hf4.lits] at hl1
                          exact (hext.lits cr).mem_iff.mp hl1
                        · rw [f3.value_eq_db]
                          exact hl2
                      by_cases hmc : (s6.ca cr).mark = (s4.ca cr).mark
                      · rcases k3 cr (by
                            show cr ∈ s4.clauses
                            rw [hc4]; exact hcr) with h1 | h1
                        · exact Or.inl ⟨h1, hmc.trans hmk⟩
                        · exact Or.inr ⟨hrs2, conv h1⟩
                      · exact Or.inr ⟨hrs2, conv (m3 cr hmc).2⟩
                  · simp only [Option.some.injEq] at hr
                    rw [← hr]
                    left
                    refine ⟨?_, hmk⟩
                    show cr ∈ s4.clauses
                    rw [hc4]
                    exact hcr

/-- The function `simplify` does not write the level fences and runs at level 0
only. -/
theorem simplify_trail_lim {o : Oracle} {s t : Solver} {b : Bool}
    (h : simplify o s = some (b, t)) : t.trail_lim = s.trail_lim ∧ s.decisionLevel = 0 := by
  have h0 : s.decisionLevel = 0 := by
    by_contra hc
    unfold simplify at h
    rw [if_pos hc] at h
    cases h
  refine ⟨?_, h0⟩
  unfold simplify at h
  split at h
  · simp at h
  · split at h
    · simp only [Option.some.injEq, Prod.mk.injEq] at h
      rw [← h.2]
    · split at h
      · simp at h
      · next c s1 hp =>
        simp only [Option.some.injEq, Prod.mk.injEq] at h
        rw [← h.2]
        have hl := propagate_lists hp
        simp only [Solver.lists, Prod.mk.injEq] at hl
        exact hl.2.2.2.2.2.2.2.2.2.2.2.2.2.2.2.2
      · next s1 hp =>
        have hl := propagate_lists hp
        simp only [Solver.lists, Prod.mk.injEq] at hl
        have e1 : s1.trail_lim = s.trail_lim := hl.2.2.2.2.2.2.2.2.2.2.2.2.2.2.2.2
        split at h
        · simp only [Option.some.injEq, Prod.mk.injEq] at h
          rw [← h.2]
          exact e1
        · split at h
          · simp at h
          · next l2 s2 hL1 =>
            obtain ⟨f1, _⟩ := removeSatisfiedLoop_spec _ _ _ _ _ hL1
            dsimp only at h
            split at h
            · simp at h
            · next u2 s4 hL2 =>
              obtain ⟨f2, _⟩ := removeSatisfiedLoop_spec _ _ _ _ _ hL2
              have e4 : s4.trail_lim = s.trail_lim := f2.trail_lim.trans (f1.trail_lim.trans e1)
              split at h
              · simp at h
              · next s7 hr =>
                simp only [Option.some.injEq, Prod.mk.injEq] at h
                rw [← h.2]
                have g := checkGarbage_frame o s7
                show (checkGarbage o s7).trail_lim = _
                rw [g.2.2.2.2.2.1]
                split at hr
                · split at hr
                  · simp at hr
                  · next c3 s6 hL3 =>
                    simp only [Option.some.injEq] at hr
                    obtain ⟨f3, _⟩ := removeSatisfiedLoop_spec _ _ _ _ _ hL3
                    rw [← hr]
                    exact f3.trail_lim.trans e4
                · simp only [Option.some.injEq] at hr
                  rw [← hr]
                  exact e4

/-- The function `reduceDB` and the original clauses: the list `clauses` is not written,
and a clause that is not in `learnts` keeps its deletion mark. -/
theorem reduceDB_clauses {o : Oracle} {s t : Solver} (h : reduceDB o s = some t) :
    t.clauses = s.clauses ∧ ∀ x, x ∉ s.learnts → (t.ca x).mark = (s.ca x).mark := by
  by_cases hne : s.learnts = []
  · exfalso
    have hs : sortLearnts o s = [] := by
      have := (sortLearnts_perm o s).length_eq
      rw [hne] at this
      exact List.length_eq_zero.mp this
    have hsort : sortLearnts o { s with stats := { s.stats with
        nbReduceDB := s.stats.nbReduceDB + 1 } } = sortLearnts o s := rfl
    unfold reduceDB at h
    dsimp only at h
    rw [hsort, hs] at h
    simp at h
  · obtain ⟨mid, last, S2, kept, t4, _, _, _, _, a3, a4, _, _, _, _, h11, h12⟩ :=
      reduceDB_parts o s hne
    rw [h12] at h
    simp only [Option.some.injEq] at h
    subst h
    obtain ⟨kept1, t1, hl, _, _, b0, _, b1, _⟩ := reduceDBLoop_db (sortLearnts o s) 0
      ((sortLearnts o s).length / 2) [] S2
    rw [h11] at hl
    simp only [Option.some.injEq, Prod.mk.injEq] at hl
    obtain ⟨hk, ht⟩ := hl
    subst hk ht
    have g := checkGarbage_frame o { t4 with learnts := kept }
    refine ⟨?_, ?_⟩
    · rw [g.2.2.2.2.2.2.1]
      exact b0.trans a4
    · intro x hx
      rw [g.2.2.1]
      show (t4.ca x).mark = _
      by_contra hn
      rw [← a3] at hn
      exact hx (mem_sortLearnts.mp (b1 x hn).1)

end Glucose


namespace Glucose

/-! ## The tables of the centrality heuristic -/

theorem bridgePair_ctab {s s1 : Solver} {a b : Nat} (h : bridgePair s a b = some s1) :
    s1.ctab = s.ctab := by
  unfold bridgePair at h
  split at h
  · split at h
    · simp only [Option.some.injEq] at h; rw [← h]; rfl
    · simp at h
  · simp only [Option.some.injEq] at h; rw [h]

theorem bridgeInner_ctab (a : Nat) : ∀ (ls : List Lit) (s s1 : Solver),
    bridgeInner a ls s = some s1 → s1.ctab = s.ctab := by
  intro ls
  induction ls with
  | nil => intro s s1 h; simp only [bridgeInner, Option.some.injEq] at h; rw [h]
  | cons l rest ih =>
    intro s s1 h
    rw [bridgeInner] at h
    split at h
    · simp at h
    · next s2 h2 => exact (ih _ _ h).trans (bridgePair_ctab h2)

theorem bridgeClause_ctab : ∀ (ls : List Lit) (s s1 : Solver),
    bridgeClause ls s = some s1 → s1.ctab = s.ctab := by
  intro ls
  induction ls with
  | nil => intro s s1 h; simp only [bridgeClause, Option.some.injEq] at h; rw [h]
  | cons l rest ih =>
    intro s s1 h
    rw [bridgeClause] at h
    split at h
    · simp at h
    · next s2 h2 => exact (ih _ _ h).trans (bridgeInner_ctab _ _ _ _ h2)

theorem bridgeClauses_ctab : ∀ (cs : List Nat) (s s1 : Solver),
    bridgeClauses cs s = some s1 → s1.ctab = s.ctab := by
  intro cs
  induction cs with
  | nil => intro s s1 h; simp only [bridgeClauses, Option.some.injEq] at h; rw [h]
  | cons c rest ih =>
    intro s s1 h
    rw [bridgeClauses] at h
    split at h
    · simp at h
    · next s2 h2 => exact (ih _ _ h).trans (bridgeClause_ctab _ _ _ h2)

theorem inTable_iff {s : Solver} {i : Int} :
    s.inTable i = true ↔ 0 ≤ i ∧ i < (s.nVars : Int) := by
  unfold Solver.inTable
  simp only [decide_eq_true_eq]

theorem lastEntry_cons {α : Type} (x : Int × α) (rest : List (Int × α)) (key : Int)
    (dflt : α) :
    lastEntry (x :: rest) key dflt = lastEntry rest key (if x.1 = key then x.2 else dflt) := by
  unfold lastEntry
  rw [List.foldl_cons]

/-- The loop over the lines of the community file: the community of a variable is its
last entry in the file. -/
theorem readCmtys_spec : ∀ (lines : List (Int × Int)) (s t : Solver),
    readCmtys lines s = some t →
    t.nVars = s.nVars ∧ t.cmtycentrality = s.cmtycentrality ∧ t.centrality = s.centrality ∧
      t.highcenter = s.highcenter ∧
      ∀ n : Nat, t.cmtys n = lastEntry lines (n : Int) (s.cmtys n) := by
  intro lines
  induction lines with
  | nil =>
    intro s t h
    simp only [readCmtys, Option.some.injEq] at h
    subst h
    exact ⟨rfl, rfl, rfl, rfl, fun _ => rfl⟩
  | cons x rest ih =>
    intro s t h
    obtain ⟨v, c⟩ := x
    rw [readCmtys] at h
    split at h
    · next hc =>
      obtain ⟨a1, a2, a3, a4, a5⟩ := ih _ _ h
      refine ⟨a1, a2, a3, a4, ?_⟩
      intro n
      rw [a5 n, lastEntry_cons]
      dsimp only
      have hv := inTable_iff.mp hc.1
      by_cases e : v = (n : Int)
      · rw [if_pos e]
        have : v.toNat = n := by omega
        rw [this, Function.update_same]
      · rw [if_neg e]
        have : n ≠ v.toNat := by omega
        rw [Function.update_noteq this]
    · simp at h

/-- The loop over the lines of the centrality file: the score of a community is its
last entry in the file. -/
theorem readCenters_spec : ∀ (lines : List (Int × Double)) (s t : Solver),
    readCenters lines s = some t →
    t.nVars = s.nVars ∧ t.cmtys = s.cmtys ∧ t.centrality = s.centrality ∧
      t.highcenter = s.highcenter ∧
      ∀ n : Nat, t.cmtycentrality n = lastEntry lines (n : Int) (s.cmtycentrality n) := by
  intro lines
  induction lines with
  | nil =>
    intro s t h
    simp only [readCenters, Option.some.injEq] at h
    subst h
    exact ⟨rfl, rfl, rfl, rfl, fun _ => rfl⟩
  | cons x rest ih =>
    intro s t h
    obtain ⟨v, c⟩ := x
    rw [readCenters] at h
    split at h
    · next hc =>
      obtain ⟨a1, a2, a3, a4, a5⟩ := ih _ _ h
      refine ⟨a1, a2, a3, a4, ?_⟩
      intro n
      rw [a5 n, lastEntry_cons]
      dsimp only
      have hv := inTable_iff.mp hc
      by_cases e : v = (n : Int)
      · rw [if_pos e]
        have : v.toNat = n := by omega
        rw [this, Function.update_same]
      · rw [if_neg e]
        have : n ≠ v.toNat := by omega
        rw [Function.update_noteq this]
    · simp at h

/-- The loop that fills the tables to sort: the centrality of a variable is the score
of its community plus one, the keys to sort are the centralities and the table of
variables is the identity. -/
theorem fillCentrality_spec : ∀ (is : List Nat) (s t : Solver),
    fillCentrality is s = some t →
    t.nVars = s.nVars ∧ t.cmtys = s.cmtys ∧ t.cmtycentrality = s.cmtycentrality ∧
      t.highcenter = s.highcenter ∧
      (∀ i ∈ is, s.inTable (s.cmtys i + 1) = true) ∧
      (∀ i, t.centrality i =
        if i ∈ is then s.cmtycentrality (s.cmtys i + 1).toNat else s.centrality i) ∧
      (∀ i, t.sortedcentrality i =
        if i ∈ is then s.cmtycentrality (s.cmtys i + 1).toNat else s.sortedcentrality i) ∧
      (∀ i, t.sorted_central_vars i =
        if i ∈ is then (i : Int) else s.sorted_central_vars i) := by
  intro is
  induction is with
  | nil =>
    intro s t h
    simp only [fillCentrality, Option.some.injEq] at h
    subst h
    exact ⟨rfl, rfl, rfl, rfl, by simp, by simp, by simp, by simp⟩
  | cons i rest ih =>
    intro s t h
    rw [fillCentrality] at h
    split at h
    · next hc =>
      obtain ⟨a1, a2, a3, a4, a5, a6, a7, a8⟩ := ih _ _ h
      refine ⟨a1, a2, a3, a4, ?_, ?_, ?_, ?_⟩
      · intro j hj
        rcases List.mem_cons.mp hj with e | e
        · rw [e]; exact hc
        · exact a5 j e
      · intro j
        rw [a6 j]
        dsimp only
        by_cases hj : j ∈ rest
        · rw [if_pos hj, if_pos (List.mem_cons_of_mem _ hj)]
        · rw [if_neg hj]
          by_cases e : j = i
          · rw [e, Function.update_same, if_pos (List.mem_cons_self _ _)]
          · rw [Function.update_noteq e, if_neg (by simp [e, hj])]
      · intro j
        rw [a7 j]
        dsimp only
        by_cases hj : j ∈ rest
        · rw [if_pos hj, if_pos (List.mem_cons_of_mem _ hj)]
        · rw [if_neg hj]
          by_cases e : j = i
          · rw [e, Function.update_same, if_pos (List.mem_cons_self _ _)]
          · rw [Function.update_noteq e, if_neg (by simp [e, hj])]
      · intro j
        rw [a8 j]
        dsimp only
        by_cases hj : j ∈ rest
        · rw [if_pos hj, if_pos (List.mem_cons_of_mem _ hj)]
        · rw [if_neg hj]
          by_cases e : j = i
          · rw [e, Function.update_same, if_pos (List.mem_cons_self _ _)]
          · rw [Function.update_noteq e, if_neg (by simp [e, hj])]
    · simp at h

/-- The loop that marks the variables of greatest centrality writes `highcenter`
only. -/
theorem markHighcenter_spec : ∀ (is : List Nat) (s t : Solver),
    markHighcenter is s = some t →
    t.nVars = s.nVars ∧ t.cmtys = s.cmtys ∧ t.cmtycentrality = s.cmtycentrality ∧
      t.centrality = s.centrality ∧ t.sortedcentrality = s.sortedcentrality ∧
      t.sorted_central_vars = s.sorted_central_vars ∧
      (∀ x : Nat, t.highcenter x = true ↔
        s.highcenter x = true ∨ ∃ i ∈ is, s.sorted_central_vars i = (x : Int)) := by
  intro is
  induction is with
  | nil =>
    intro s t h
    simp only [markHighcenter, Option.some.injEq] at h
    subst h
    exact ⟨rfl, rfl, rfl, rfl, rfl, rfl, by simp⟩
  | cons i rest ih =>
    intro s t h
    rw [markHighcenter] at h
    split at h
    · next hc =>
      obtain ⟨a1, a2, a3, a4, a5, a6, a7⟩ := ih _ _ h
      refine ⟨a1, a2, a3, a4, a5, a6, ?_⟩
      intro x
      rw [a7 x]
      dsimp only
      have hv := inTable_iff.mp hc
      by_cases e : s.sorted_central_vars i = (x : Int)
      · have : (s.sorted_central_vars i).toNat = x := by omega
        rw [this, Function.update_same]
        constructor
        · intro _
          exact Or.inr ⟨i, List.mem_cons_self _ _, e⟩
        · intro _
          exact Or.inl rfl
      · have : x ≠ (s.sorted_central_vars i).toNat := by omega
        rw [Function.update_noteq this]
        constructor
        · rintro (h1 | ⟨j, hj, hj2⟩)
          · exact Or.inl h1
          · exact Or.inr ⟨j, List.mem_cons_of_mem _ hj, hj2⟩
        · rintro (h1 | ⟨j, hj, hj2⟩)
          · exact Or.inl h1
          · rcases List.mem_cons.mp hj with e2 | e2
            · rw [e2] at hj2
              exact absurd hj2 e
            · exact Or.inr ⟨j, e2, hj2⟩
    · simp at h

end Glucose


namespace Glucose

/-! ## The bubble sort of the tables of the centrality heuristic -/

/-- The values of a table on the indices below `n`, after two neighbours are swapped,
are a permutation of the values before. -/
theorem map_swap_perm {α : Type} (g : Nat → α) (j n : Nat) (h : j + 1 < n) :
    ((List.range n).map
      (Function.update (Function.update g j (g (j + 1))) (j + 1) (g j))).Perm
      ((List.range n).map g) := by
  have e : Function.update (Function.update g j (g (j + 1))) (j + 1) (g j)
      = g ∘ (Equiv.swap j (j + 1)) := by
    funext i
    simp only [Function.comp]
    by_cases h1 : i = j + 1
    · subst h1
      rw [Function.update_same, Equiv.swap_apply_right]
    · rw [Function.update_noteq h1]
      by_cases h2 : i = j
      · subst h2
        rw [Function.update_same, Equiv.swap_apply_left]
      · rw [Function.update_noteq h2, Equiv.swap_apply_of_ne_of_ne h2 h1]
  rw [e, ← List.map_map]
  apply List.Perm.map
  apply (List.perm_ext_iff_of_nodup ?_ (List.nodup_range n)).mpr
  · intro x
    simp only [List.mem_map, List.mem_range]
    constructor
    · rintro ⟨i, hi, rfl⟩
      by_cases h1 : i = j
      · subst h1; rw [Equiv.swap_apply_left]; exact h
      · by_cases h2 : i = j + 1
        · subst h2; rw [Equiv.swap_apply_right]; omega
        · rw [Equiv.swap_apply_of_ne_of_ne h1 h2]; exact hi
    · intro hx
      refine ⟨Equiv.swap j (j + 1) x, ?_, Equiv.swap_apply_self _ _ _⟩
      by_cases h1 : x = j
      · subst h1; rw [Equiv.swap_apply_left]; exact h
      · by_cases h2 : x = j + 1
        · subst h2; rw [Equiv.swap_apply_right]; omega
        · rw [Equiv.swap_apply_of_ne_of_ne h1 h2]; exact hx
  · exact (List.nodup_range n).map (Equiv.swap j (j + 1)).injective

/-- One pass of the bubble sort over the positions `j .. j + count`, for an order `gt`
that is asymmetric and whose negation is transitive: the pairs of the two tables are
permuted; the positions outside are not written; the greatest key of the positions from
`j0` on goes to the position `j + count`; a property of all the keys up to `j + count`
is kept. -/
theorem bubblePass_spec {α : Type} (gt : α → α → Bool)
    (hasym : ∀ a b, gt a b = true → gt b a = false)
    (htrans : ∀ a b c, gt a b = false → gt b c = false → gt a c = false) (n : Nat) :
    ∀ (count j : Nat) (st : (Nat → α) × (Nat → Int)), j + count < n →
      ((List.range n).map (fun i => ((bubblePass gt count j st).1 i,
          (bubblePass gt count j st).2 i))).Perm
        ((List.range n).map (fun i => (st.1 i, st.2 i))) ∧
      (∀ i, (i < j ∨ j + count < i) → (bubblePass gt count j st).1 i = st.1 i) ∧
      (∀ j0, (∀ i, j0 ≤ i → i ≤ j → gt (st.1 i) (st.1 j) = false) →
        ∀ i, j0 ≤ i → i ≤ j + count →
          gt ((bubblePass gt count j st).1 i) ((bubblePass gt count j st).1 (j + count))
            = false) ∧
      (∀ P : α → Prop, (∀ i, i ≤ j + count → P (st.1 i)) →
        ∀ i, i ≤ j + count → P ((bubblePass gt count j st).1 i)) := by
  have hrefl : ∀ a, gt a a = false := by
    intro a
    by_contra hc
    simp only [Bool.not_eq_false] at hc
    have := hasym a a hc
    rw [hc] at this
    cases this
  intro count
  induction count with
  | zero =>
    intro j st _
    refine ⟨List.Perm.refl _, fun _ _ => rfl, ?_, fun P hP i hi => hP i hi⟩
    intro j0 hp i h1 h2
    exact hp i h1 h2
  | succ count ih =>
    intro j st hlt
    rw [bubblePass]
    -- the state after the comparison of the positions j and j + 1
    have hst1 : ∀ st1 : (Nat → α) × (Nat → Int),
        st1 = (if gt (st.1 j) (st.1 (j + 1)) = true then
          (Function.update (Function.update st.1 j (st.1 (j + 1))) (j + 1) (st.1 j),
           Function.update (Function.update st.2 j (st.2 (j + 1))) (j + 1) (st.2 j))
        else st) →
        ((List.range n).map (fun i => (st1.1 i, st1.2 i))).Perm
          ((List.range n).map (fun i => (st.1 i, st.2 i))) ∧
        (∀ i, i ≠ j → i ≠ j + 1 → st1.1 i = st.1 i) ∧
        (∀ j0, (∀ i, j0 ≤ i → i ≤ j → gt (st.1 i) (st.1 j) = false) →
          ∀ i, j0 ≤ i → i ≤ j + 1 → gt (st1.1 i) (st1.1 (j + 1)) = false) ∧
        (∀ P : α → Prop, (∀ i, i ≤ j + (count + 1) → P (st.1 i)) →
          ∀ i, i ≤ j + (count + 1) → P (st1.1 i)) := by
      intro st1 hst
      by_cases hg : gt (st.1 j) (st.1 (j + 1)) = true
      · rw [if_pos hg] at hst
        have e1 : ∀ i, st1.1 i =
            Function.update (Function.update st.1 j (st.1 (j + 1))) (j + 1) (st.1 j) i := by
          intro i; rw [hst]
        have e2 : ∀ i, st1.2 i =
            Function.update (Function.update st.2 j (st.2 (j + 1))) (j + 1) (st.2 j) i := by
          intro i; rw [hst]
        have hj1 : st1.1 (j + 1) = st.1 j := by rw [e1, Function.update_same]
        have hj0 : st1.1 j = st.1 (j + 1) := by
          rw [e1, Function.update_noteq (by omega), Function.update_same]
        have hother : ∀ i, i ≠ j → i ≠ j + 1 → st1.1 i = st.1 i := by
          intro i h1 h2
          rw [e1, Function.update_noteq h2, Function.update_noteq h1]
        refine ⟨?_, hother, ?_, ?_⟩
        · have hp := map_swap_perm (fun i => (st.1 i, st.2 i)) j n (by omega)
          refine List.Perm.trans (List.Perm.of_eq ?_) hp
          apply List.map_congr_left
          intro i _
          rw [e1, e2]
          by_cases h1 : i = j + 1
          · subst h1
            simp only [Function.update_same]
          · by_cases h2 : i = j
            · subst h2
              simp only [Function.update_noteq h1, Function.update_same]
            · simp only [Function.update_noteq h1, Function.update_noteq h2]
        · intro j0 hp i h1 h2
          rw [hj1]
          by_cases h3 : i = j + 1
          · rw [h3, hj1]; exact hrefl _
          · by_cases h4 : i = j
            · rw [h4, hj0]; exact hasym _ _ hg
            · rw [hother i h4 h3]
              exact hp i h1 (by omega)
        · intro P hP i hi
          by_cases h3 : i = j + 1
          · rw [h3, hj1]; exact hP j (by omega)
          · by_cases h4 : i = j
            · rw [h4, hj0]; exact hP (j + 1) (by omega)
            · rw [hother i h4 h3]; exact hP i hi
      · rw [if_neg hg] at hst
        subst hst
        simp only [Bool.not_eq_true] at hg
        refine ⟨List.Perm.refl _, fun _ _ _ => rfl, ?_, fun P hP i hi => hP i hi⟩
        intro j0 hp i h1 h2
        by_cases h3 : i = j + 1
        · rw [h3]; exact hrefl _
        · exact htrans _ _ _ (hp i h1 (by omega)) hg
    generalize hs1 : (if gt (st.1 j) (st.1 (j + 1)) = true then
          (Function.update (Function.update st.1 j (st.1 (j + 1))) (j + 1) (st.1 j),
           Function.update (Function.update st.2 j (st.2 (j + 1))) (j + 1) (st.2 j))
        else st) = st1
    obtain ⟨p1, f1, m1, q1⟩ := hst1 st1 hs1.symm
    obtain ⟨p2, f2, m2, q2⟩ := ih (j + 1) st1 (by omega)
    have hidx : j + 1 + count = j + (count + 1) := by omega
    rw [hidx] at f2 m2 q2
    refine ⟨p2.trans p1, ?_, ?_, ?_⟩
    · intro i hi
      rw [f2 i (by omega), f1 i (by omega) (by omega)]
    · intro j0 hp i h1 h2
      exact m2 j0 (m1 j0 hp) i h1 h2
    · intro P hP i hi
      exact q2 P (q1 P hP) i hi

/-- The passes of the bubble sort from the pass `i` on: with the positions from
`n - i + 1` on in their final place before, all positions from `n - (i + k) + 1` on are
in their final place after `k` passes. -/
theorem bubblePasses_spec {α : Type} (gt : α → α → Bool)
    (hasym : ∀ a b, gt a b = true → gt b a = false)
    (htrans : ∀ a b c, gt a b = false → gt b c = false → gt a c = false) (n : Nat) :
    ∀ (k i : Nat) (st : (Nat → α) × (Nat → Int)), 1 ≤ i → i + k ≤ n →
      (∀ a b, a < b → n - i + 1 ≤ b → b < n → gt (st.1 a) (st.1 b) = false) →
      ((List.range n).map (fun x =>
          (((List.range' i k).foldl (fun st i => bubblePass gt (n - i) 0 st) st).1 x,
           ((List.range' i k).foldl (fun st i => bubblePass gt (n - i) 0 st) st).2 x))).Perm
        ((List.range n).map (fun x => (st.1 x, st.2 x))) ∧
      (∀ a b, a < b → n - (i + k) + 1 ≤ b → b < n →
        gt (((List.range' i k).foldl (fun st i => bubblePass gt (n - i) 0 st) st).1 a)
          (((List.range' i k).foldl (fun st i => bubblePass gt (n - i) 0 st) st).1 b)
          = false) := by
  have hrefl : ∀ a, gt a a = false := by
    intro a
    by_contra hc
    simp only [Bool.not_eq_false] at hc
    have := hasym a a hc
    rw [hc] at this
    cases this
  intro k
  induction k with
  | zero =>
    intro i st _ _ hsf
    simp only [List.range'_zero, List.foldl_nil, Nat.add_zero]
    exact ⟨List.Perm.refl _, hsf⟩
  | succ k ih =>
    intro i st hi hik hsf
    rw [List.range'_succ, List.foldl_cons]
    obtain ⟨p1, f1, m1, q1⟩ := bubblePass_spec gt hasym htrans n (n - i) 0 st (by omega)
    have hsf1 : ∀ a b, a < b → n - (i + 1) + 1 ≤ b → b < n →
        gt ((bubblePass gt (n - i) 0 st).1 a) ((bubblePass gt (n - i) 0 st).1 b) = false := by
      intro a b hab hb hbn
      by_cases hbe : b = n - i
      · have := m1 0 (fun x _ hx => by
          have : x = 0 := by omega
          rw [this]; exact hrefl _) a (Nat.zero_le _) (by omega)
        rw [Nat.zero_add] at this
        rw [hbe]
        exact this
      · have hb2 : n - i + 1 ≤ b := by omega
        rw [f1 b (Or.inr (by omega))]
        by_cases ha : a ≤ n - i
        · exact q1 (fun x => gt x (st.1 b) = false)
            (fun x hx => hsf x b (by omega) hb2 hbn) a (by omega)
        · rw [f1 a (Or.inr (by omega))]
          exact hsf a b hab hb2 hbn
    obtain ⟨p2, s2⟩ := ih (i + 1) (bubblePass gt (n - i) 0 st) (by omega) (by omega) hsf1
    refine ⟨p2.trans p1, ?_⟩
    intro a b hab hb hbn
    exact s2 a b hab (by omega) hbn

/-- The bubble sort `sortingtwoBy`: the pairs of the two tables on the indices below `n`
are permuted, and the keys are in order afterwards. -/
theorem sortingtwoBy_spec {α : Type} (gt : α → α → Bool)
    (hasym : ∀ a b, gt a b = true → gt b a = false)
    (htrans : ∀ a b c, gt a b = false → gt b c = false → gt a c = false)
    (number : Nat → α) (pointnumber : Nat → Int) (n : Nat) :
    ((List.range n).map (fun x =>
        ((sortingtwoBy gt number pointnumber n).1 x,
         (sortingtwoBy gt number pointnumber n).2 x))).Perm
      ((List.range n).map (fun x => (number x, pointnumber x))) ∧
    (∀ a b, a < b → b < n →
      gt ((sortingtwoBy gt number pointnumber n).1 a)
        ((sortingtwoBy gt number pointnumber n).1 b) = false) := by
  unfold sortingtwoBy
  by_cases hn : n = 0
  · subst hn
    exact ⟨List.Perm.refl _, fun a b _ hb => absurd hb (Nat.not_lt_zero _)⟩
  · obtain ⟨p, s⟩ := bubblePasses_spec gt hasym htrans n (n - 1) 1 (number, pointnumber)
      (le_refl _) (by omega) (fun a b _ hb hbn => by omega)
    refine ⟨p, ?_⟩
    intro a b hab hbn
    exact s a b hab (by omega) hbn

/-! ## The order of the fractions -/

theorem Frac.lt_asymm_frac (a b : Frac) (h : Frac.lt b a = true) : Frac.lt a b = false := by
  unfold Frac.lt at h ⊢
  simp only [decide_eq_true_eq, decide_eq_false_iff_not] at h ⊢
  omega

theorem Frac.not_lt_trans (a b c : Frac) (h1 : Frac.lt b a = false)
    (h2 : Frac.lt c b = false) : Frac.lt c a = false := by
  unfold Frac.lt at h1 h2 ⊢
  simp only [decide_eq_false_iff_not, not_lt] at h1 h2 ⊢
  have ha : (0 : Int) < (a.den : Int) + 1 := by omega
  have hb : (0 : Int) < (b.den : Int) + 1 := by omega
  have hc : (0 : Int) < (c.den : Int) + 1 := by omega
  have e1 : a.num * ((b.den : Int) + 1) * ((c.den : Int) + 1)
      ≤ b.num * ((a.den : Int) + 1) * ((c.den : Int) + 1) :=
    mul_le_mul_of_nonneg_right h1 (le_of_lt hc)
  have e2 : b.num * ((c.den : Int) + 1) * ((a.den : Int) + 1)
      ≤ c.num * ((b.den : Int) + 1) * ((a.den : Int) + 1) :=
    mul_le_mul_of_nonneg_right h2 (le_of_lt ha)
  have e3 : a.num * ((c.den : Int) + 1) * ((b.den : Int) + 1)
      ≤ c.num * ((a.den : Int) + 1) * ((b.den : Int) + 1) := by
    calc a.num * ((c.den : Int) + 1) * ((b.den : Int) + 1)
        = a.num * ((b.den : Int) + 1) * ((c.den : Int) + 1) := by ring
      _ ≤ b.num * ((a.den : Int) + 1) * ((c.den : Int) + 1) := e1
      _ = b.num * ((c.den : Int) + 1) * ((a.den : Int) + 1) := by ring
      _ ≤ c.num * ((b.den : Int) + 1) * ((a.den : Int) + 1) := e2
      _ = c.num * ((a.den : Int) + 1) * ((b.den : Int) + 1) := by ring
  exact le_of_mul_le_mul_right e3 hb

/-! ## The order of the doubles -/

theorem Double.gt_asymm (a b : Double) (h : Double.gt a b = true) : Double.gt b a = false := by
  cases a <;> cases b <;> simp only [Double.gt] at h ⊢ <;> first
    | exact Frac.lt_asymm_frac _ _ h
    | cases h

theorem Double.not_gt_trans (a b c : Double) (hb : b ≠ Double.nan)
    (h1 : Double.gt a b = false) (h2 : Double.gt b c = false) : Double.gt a c = false := by
  cases a <;> cases b <;> cases c <;> first
    | exact absurd rfl hb
    | exact Frac.not_lt_trans _ _ _ h1 h2
    | rfl
    | exact Bool.noConfusion h1
    | exact Bool.noConfusion h2

/-- Two doubles equal to a third one are not NaN, and neither is greater than the
other. -/
theorem Double.not_gt_of_eq (x y k : Double) (hx : Double.eq x k = true)
    (hy : Double.eq y k = true) : Double.gt x y = false := by
  cases x <;> cases y <;> cases k <;> first
    | rfl
    | exact Bool.noConfusion hx
    | exact Bool.noConfusion hy
    | (simp only [Double.eq, Bool.and_eq_true, Bool.not_eq_true'] at hx hy
       exact Frac.not_lt_trans _ _ _ hx.2 hy.1)

/-! ## The bubble sort for a comparison that is an order on a part of the keys -/

/-- One pass of the bubble sort permutes the pairs of the two tables, whatever the
comparison. -/
theorem bubblePass_perm {α : Type} (gt : α → α → Bool) (n : Nat) :
    ∀ (count j : Nat) (st : (Nat → α) × (Nat → Int)), j + count < n →
      ((List.range n).map (fun i => ((bubblePass gt count j st).1 i,
          (bubblePass gt count j st).2 i))).Perm
        ((List.range n).map (fun i => (st.1 i, st.2 i))) := by
  intro count
  induction count with
  | zero => intro j st _; exact List.Perm.refl _
  | succ count ih =>
    intro j st hj
    rw [bubblePass]
    refine (ih _ _ (by omega)).trans ?_
    split
    · have hp := map_swap_perm (fun i => (st.1 i, st.2 i)) j n (by omega)
      refine List.Perm.trans (List.Perm.of_eq ?_) hp
      apply List.map_congr_left
      intro i _
      by_cases h1 : i = j + 1
      · subst h1
        simp only [Function.update_same]
      · by_cases h2 : i = j
        · subst h2
          simp only [Function.update_noteq h1, Function.update_same]
        · simp only [Function.update_noteq h1, Function.update_noteq h2]
    · exact List.Perm.refl _

theorem bubblePasses_perm {α : Type} (gt : α → α → Bool) (n : Nat) :
    ∀ (k i : Nat) (st : (Nat → α) × (Nat → Int)), 1 ≤ i →
      ((List.range n).map (fun x =>
          (((List.range' i k).foldl (fun st i => bubblePass gt (n - i) 0 st) st).1 x,
           ((List.range' i k).foldl (fun st i => bubblePass gt (n - i) 0 st) st).2 x))).Perm
        ((List.range n).map (fun x => (st.1 x, st.2 x))) := by
  intro k
  induction k with
  | zero => intro i st _; exact List.Perm.refl _
  | succ k ih =>
    intro i st hi
    rw [List.range'_succ, List.foldl_cons]
    refine (ih _ _ (by omega)).trans ?_
    by_cases hn : n = 0
    · subst hn; exact List.Perm.refl _
    · exact bubblePass_perm gt n (n - i) 0 st (by omega)

/-- The bubble sort `sortingtwoBy` permutes the pairs of the two tables on the indices
below `n`, whatever the comparison. -/
theorem sortingtwoBy_perm {α : Type} (gt : α → α → Bool)
    (number : Nat → α) (pointnumber : Nat → Int) (n : Nat) :
    ((List.range n).map (fun x =>
        ((sortingtwoBy gt number pointnumber n).1 x,
         (sortingtwoBy gt number pointnumber n).2 x))).Perm
      ((List.range n).map (fun x => (number x, pointnumber x))) := by
  unfold sortingtwoBy
  exact bubblePasses_perm gt n (n - 1) 1 (number, pointnumber) (le_refl _)

/-- A property of all the keys below `n` holds for the keys of a permutation of the
pairs. -/
theorem keys_of_perm {α : Type} (P : α → Prop) {n : Nat} (a b : (Nat → α) × (Nat → Int))
    (hp : ((List.range n).map (fun i => (a.1 i, a.2 i))).Perm
      ((List.range n).map (fun i => (b.1 i, b.2 i))))
    (hb : ∀ i, i < n → P (b.1 i)) : ∀ i, i < n → P (a.1 i) := by
  intro i hi
  have hm : (a.1 i, a.2 i) ∈ (List.range n).map (fun i => (a.1 i, a.2 i)) :=
    List.mem_map.mpr ⟨i, List.mem_range.mpr hi, rfl⟩
  obtain ⟨j, hj, hje⟩ := List.mem_map.mp (hp.mem_iff.mp hm)
  simp only [Prod.mk.injEq] at hje
  rw [← hje.1]
  exact hb j (List.mem_range.mp hj)

/-- One pass of the bubble sort is the same for two comparisons that agree on the keys
of the positions it visits. -/
theorem bubblePass_congr {α : Type} (gt gt2 : α → α → Bool) (P : α → Prop)
    (hgt : ∀ a b, P a → P b → gt a b = gt2 a b) :
    ∀ (count j : Nat) (st : (Nat → α) × (Nat → Int)),
      (count ≠ 0 → ∀ i, j ≤ i → i ≤ j + count → P (st.1 i)) →
      bubblePass gt count j st = bubblePass gt2 count j st := by
  intro count
  induction count with
  | zero => intro j st _; rfl
  | succ count ih =>
    intro j st hP
    have hP2 := hP (Nat.succ_ne_zero _)
    rw [bubblePass, bubblePass, hgt _ _ (hP2 j (le_refl _) (by omega))
      (hP2 (j + 1) (by omega) (by omega))]
    apply ih
    intro _ i h1 h2
    split
    · show P (Function.update (Function.update st.1 j (st.1 (j + 1))) (j + 1) (st.1 j) i)
      by_cases e : i = j + 1
      · rw [e, Function.update_same]
        exact hP2 j (le_refl _) (by omega)
      · rw [Function.update_noteq e, Function.update_noteq (by omega)]
        exact hP2 i (by omega) (by omega)
    · exact hP2 i (by omega) (by omega)

/-- The bubble sort is the same for two comparisons that agree on the keys of the table
below `n`. -/
theorem sortingtwoBy_congr {α : Type} (gt gt2 : α → α → Bool) (P : α → Prop)
    (hgt : ∀ a b, P a → P b → gt a b = gt2 a b)
    (number : Nat → α) (pointnumber : Nat → Int) (n : Nat)
    (hP : ∀ i, i < n → P (number i)) :
    sortingtwoBy gt number pointnumber n = sortingtwoBy gt2 number pointnumber n := by
  unfold sortingtwoBy
  have key : ∀ (k i : Nat) (st : (Nat → α) × (Nat → Int)), 1 ≤ i →
      (∀ x, x < n → P (st.1 x)) →
      (List.range' i k).foldl (fun st i => bubblePass gt (n - i) 0 st) st =
        (List.range' i k).foldl (fun st i => bubblePass gt2 (n - i) 0 st) st := by
    intro k
    induction k with
    | zero => intro i st _ _; rfl
    | succ k ih =>
      intro i st hi hst
      rw [List.range'_succ, List.foldl_cons, List.foldl_cons]
      have e : bubblePass gt (n - i) 0 st = bubblePass gt2 (n - i) 0 st := by
        apply bubblePass_congr gt gt2 P hgt
        intro hne x _ hx
        exact hst x (by omega)
      rw [← e]
      apply ih _ _ (by omega)
      by_cases hn : n = 0
      · subst hn; intro x hx; omega
      · exact keys_of_perm P _ st (bubblePass_perm gt n (n - i) 0 st (by omega)) hst
  exact key (n - 1) 1 (number, pointnumber) (le_refl _) hP

/-- The function `wsortingtwo` on the first `n` entries: the pairs (key, variable) are
permuted; and when no key is NaN, the keys are in increasing order afterwards. -/
theorem wsortingtwo_spec (number : Nat → Double) (pointnumber : Nat → Int) (n : Nat) :
    ((List.range n).map (fun x =>
        ((wsortingtwo number pointnumber n).1 x,
         (wsortingtwo number pointnumber n).2 x))).Perm
      ((List.range n).map (fun x => (number x, pointnumber x))) ∧
    ((∀ i, i < n → number i ≠ Double.nan) → ∀ a b, a < b → b < n →
      Double.gt ((wsortingtwo number pointnumber n).1 a)
        ((wsortingtwo number pointnumber n).1 b) = false) := by
  unfold wsortingtwo
  have hperm := sortingtwoBy_perm Double.gt number pointnumber n
  refine ⟨hperm, ?_⟩
  intro hnum a b hab hb
  have hfix : ∀ x : Double, (if x = Double.nan then Double.negInf else x) ≠ Double.nan := by
    intro x
    split
    · intro h; cases h
    · assumption
  have hgt : ∀ x y : Double, x ≠ Double.nan → y ≠ Double.nan →
      Double.gt x y = Double.gt (if x = Double.nan then Double.negInf else x)
        (if y = Double.nan then Double.negInf else y) := by
    intro x y hx hy
    rw [if_neg hx, if_neg hy]
  have hcongr := sortingtwoBy_congr Double.gt
    (fun x y => Double.gt (if x = Double.nan then Double.negInf else x)
      (if y = Double.nan then Double.negInf else y))
    (fun x => x ≠ Double.nan) hgt number pointnumber n hnum
  have hs := (sortingtwoBy_spec
    (fun x y => Double.gt (if x = Double.nan then Double.negInf else x)
      (if y = Double.nan then Double.negInf else y))
    (fun x y h => Double.gt_asymm _ _ h)
    (fun x y z h1 h2 => Double.not_gt_trans _ _ _ (hfix y) h1 h2)
    number pointnumber n).2 a b hab hb
  rw [← hcongr] at hs
  have hres := keys_of_perm (fun x => x ≠ Double.nan) (sortingtwoBy Double.gt number pointnumber n) (number, pointnumber) hperm hnum
  rw [hgt _ _ (hres a (by omega)) (hres b hb)]
  exact hs

/-- The number of indices below `n` that are at least `m`. -/
theorem countP_range_ge (m n : Nat) (h : m ≤ n) :
    (List.range n).countP (fun i => decide (m ≤ i)) = n - m := by
  induction n with
  | zero => simp
  | succ n ih =>
    rw [List.range_succ, List.countP_append]
    by_cases hm : m ≤ n
    · rw [ih hm]
      simp [hm]
      omega
    · have hmn : m = n + 1 := by omega
      subst hmn
      have : (List.range n).countP (fun i => decide (n + 1 ≤ i)) = 0 := by
        rw [List.countP_eq_zero]
        intro a ha
        simp only [List.mem_range] at ha
        simp only [decide_eq_true_eq]
        omega
      rw [this]
      simp

end Glucose


namespace Glucose

/-! ## The initialisation of the centrality heuristic -/

/-- The first part of `solve_` in its steps. -/
theorem centralityInit_parts {files : Files} {s t : Solver}
    (h : centralityInit files s = some t) :
    ∃ cl zl s1 s2 s3 s4 s5,
      files.cmty = some cl ∧ files.center = some zl ∧
      readCmtys cl s = some s1 ∧ bridgeClauses s1.clauses s1 = some s2 ∧
      readCenters zl s2 = some s3 ∧ fillCentrality (List.range s3.nVars) s3 = some s4 ∧
      s5.nVars = s4.nVars ∧ s5.cmtys = s4.cmtys ∧ s5.cmtycentrality = s4.cmtycentrality ∧
      s5.centrality = s4.centrality ∧ s5.highcenter = s4.highcenter ∧
      s5.sortedcentrality
        = (wsortingtwo s4.sortedcentrality s4.sorted_central_vars s4.nVars).1 ∧
      s5.sorted_central_vars
        = (wsortingtwo s4.sortedcentrality s4.sorted_central_vars s4.nVars).2 ∧
      markHighcenter (List.range' (s4.nVars - s4.nVars / 3) (s4.nVars / 3)) s5 = some t := by
  unfold centralityInit at h
  split at h
  · simp at h
  · split at h
    · simp at h
    · next cl hcl =>
      split at h
      · simp at h
      · next s1 h1 =>
        split at h
        · simp at h
        · next s2 h2 =>
          split at h
          · simp at h
          · split at h
            · simp at h
            · next zl hzl =>
              split at h
              · simp at h
              · next s3 h3 =>
                split at h
                · simp at h
                · next s4 h4 =>
                  exact ⟨cl, zl, s1, s2, s3, s4,
                    { s4 with
                      sortedcentrality :=
                        (wsortingtwo s4.sortedcentrality s4.sorted_central_vars s4.nVars).1,
                      sorted_central_vars :=
                        (wsortingtwo s4.sortedcentrality s4.sorted_central_vars s4.nVars).2 },
                    hcl, hzl, h1, h2, h3, h4, rfl, rfl, rfl, rfl, rfl, rfl, rfl, h⟩

/-- The per-variable centrality after the first part of `solve_`: the score, in the
centrality file, of the community after the one of the variable in the community file;
the index of this community is inside the table. -/
theorem centralityInit_centrality {files : Files} {s t : Solver}
    {cl : List (Int × Int)} {zl : List (Int × Double)}
    (h : centralityInit files s = some t) (hc : files.cmty = some cl)
    (hz : files.center = some zl) :
    t.nVars = s.nVars ∧
    ∀ v, v < s.nVars →
      s.inTable (lastEntry cl (v : Int) (s.cmtys v) + 1) = true ∧
      t.centrality v = lastEntry zl (lastEntry cl (v : Int) (s.cmtys v) + 1)
        (s.cmtycentrality (lastEntry cl (v : Int) (s.cmtys v) + 1).toNat) := by
  obtain ⟨cl2, zl2, s1, s2, s3, s4, s5, hcl, hzl, h1, h2, h3, h4, e1, e2, e3, e4, e5, e6, e7,
    h5⟩ := centralityInit_parts h
  rw [hc] at hcl
  rw [hz] at hzl
  simp only [Option.some.injEq] at hcl hzl
  subst hcl hzl
  obtain ⟨a1, a2, a3, a4, a5⟩ := readCmtys_spec _ _ _ h1
  have b := bridgeClauses_ctab _ _ _ h2
  simp only [Solver.ctab, Prod.mk.injEq] at b
  obtain ⟨c1, c2, c3, c4, c5⟩ := readCenters_spec _ _ _ h3
  obtain ⟨d1, d2, d3, d4, d5, d6, d7, d8⟩ := fillCentrality_spec _ _ _ h4
  obtain ⟨g1, g2, g3, g4, g5, g6, g7⟩ := markHighcenter_spec _ _ _ h5
  have hn3 : s3.nVars = s.nVars := c1.trans (b.1.trans a1)
  refine ⟨g1.trans (e1.trans (d1.trans hn3)), ?_⟩
  intro v hv
  have hmem : v ∈ List.range s3.nVars := by
    rw [List.mem_range, hn3]; exact hv
  have hk : s3.cmtys v = lastEntry cl (v : Int) (s.cmtys v) := by
    rw [c2, b.2.1, a5 v]
  have hin := d5 v hmem
  rw [hk] at hin
  have hin2 : s.inTable (lastEntry cl (v : Int) (s.cmtys v) + 1) = true := by
    rw [inTable_iff] at hin ⊢
    rw [← hn3]
    exact hin
  refine ⟨hin2, ?_⟩
  rw [g4, e4, d6 v, if_pos hmem, hk, c5, b.2.2.1, a2]
  have hnn := (inTable_iff.mp hin2).1
  rw [Int.toNat_of_nonneg hnn]

/-- The marks `highcenter` after the first part of `solve_` on a solver without marks:
only variables are marked, a third of them, and when no centrality is NaN, no unmarked
variable has a greater centrality than a marked one. -/
theorem centralityInit_highcenter {files : Files} {s t : Solver}
    (h : centralityInit files s = some t) (h0 : ∀ v, s.highcenter v = false) :
    (∀ v, t.highcenter v = true → v < s.nVars) ∧
    (List.range s.nVars).countP (fun v => t.highcenter v) = s.nVars / 3 ∧
    ((∀ v, v < s.nVars → t.centrality v ≠ Double.nan) →
      ∀ a b, b < s.nVars → t.highcenter a = true → t.highcenter b = false →
        Double.gt (t.centrality b) (t.centrality a) = false) := by
  obtain ⟨cl, zl, s1, s2, s3, s4, s5, hcl, hzl, h1, h2, h3, h4, e1, e2, e3, e4, e5, e6, e7,
    h5⟩ := centralityInit_parts h
  obtain ⟨a1, a2, a3, a4, a5⟩ := readCmtys_spec _ _ _ h1
  have b := bridgeClauses_ctab _ _ _ h2
  simp only [Solver.ctab, Prod.mk.injEq] at b
  obtain ⟨c1, c2, c3, c4, c5⟩ := readCenters_spec _ _ _ h3
  obtain ⟨d1, d2, d3, d4, d5, d6, d7, d8⟩ := fillCentrality_spec _ _ _ h4
  obtain ⟨g1, g2, g3, g4, g5, g6, g7⟩ := markHighcenter_spec _ _ _ h5
  have hn3 : s3.nVars = s.nVars := c1.trans (b.1.trans a1)
  have hn4 : s4.nVars = s.nVars := d1.trans hn3
  have hhc5 : ∀ x, s5.highcenter x = false := by
    intro x
    rw [e5, d4, c4, b.2.2.2.2.2.2, a4]
    exact h0 x
  obtain ⟨hp, hs⟩ := wsortingtwo_spec s4.sortedcentrality s4.sorted_central_vars s4.nVars
  rw [← e6, ← e7, hn4] at hp
  rw [← e6, hn4] at hs
  -- the tables before the sort
  have hkey0 : ∀ i, i < s.nVars → s4.sortedcentrality i = s4.centrality i := by
    intro i hi
    have hm : i ∈ List.range s3.nVars := by rw [List.mem_range, hn3]; exact hi
    rw [d6 i, d7 i, if_pos hm, if_pos hm]
  have hptr0 : ∀ i, i < s.nVars → s4.sorted_central_vars i = (i : Int) := by
    intro i hi
    have hm : i ∈ List.range s3.nVars := by rw [List.mem_range, hn3]; exact hi
    rw [d8 i, if_pos hm]
  have hcen : t.centrality = s4.centrality := g4.trans e4
  -- the table of variables after the sort
  have hA : ∀ i, i < s.nVars → ∃ j, j < s.nVars ∧ s5.sortedcentrality i = s4.centrality j ∧
      s5.sorted_central_vars i = (j : Int) := by
    intro i hi
    have hm : (s5.sortedcentrality i, s5.sorted_central_vars i) ∈
        (List.range s.nVars).map (fun x => (s5.sortedcentrality x, s5.sorted_central_vars x)) :=
      List.mem_map.mpr ⟨i, List.mem_range.mpr hi, rfl⟩
    obtain ⟨j, hj, hje⟩ := List.mem_map.mp (hp.mem_iff.mp hm)
    rw [List.mem_range] at hj
    simp only [Prod.mk.injEq] at hje
    exact ⟨j, hj, by rw [← hje.1, hkey0 j hj], by rw [← hje.2, hptr0 j hj]⟩
  have hB : ((List.range s.nVars).map s5.sorted_central_vars).Perm
      ((List.range s.nVars).map (fun i : Nat => (i : Int))) := by
    have h1 := hp.map Prod.snd
    have e1 : List.map Prod.snd (List.map
        (fun x => (s5.sortedcentrality x, s5.sorted_central_vars x)) (List.range s.nVars))
        = (List.range s.nVars).map s5.sorted_central_vars := by
      rw [List.map_map]
      rfl
    have e2 : List.map Prod.snd (List.map
        (fun x => (s4.sortedcentrality x, s4.sorted_central_vars x)) (List.range s.nVars))
        = (List.range s.nVars).map (fun i : Nat => (i : Int)) := by
      rw [List.map_map]
      exact List.map_congr_left (fun i hi => hptr0 i (List.mem_range.mp hi))
    rw [e1, e2] at h1
    exact h1
  have hnd : ((List.range s.nVars).map s5.sorted_central_vars).Nodup := by
    rw [hB.nodup_iff]
    exact (List.nodup_range _).map (fun a b hab => by exact_mod_cast hab)
  have hinj : ∀ i j, i < s.nVars → j < s.nVars →
      s5.sorted_central_vars i = s5.sorted_central_vars j → i = j := by
    intro i j hi hj hij
    exact List.inj_on_of_nodup_map hnd (List.mem_range.mpr hi) (List.mem_range.mpr hj) hij
  have hD : ∀ x, x < s.nVars → ∃ j, j < s.nVars ∧ s5.sorted_central_vars j = (x : Int) := by
    intro x hx
    have hm : (x : Int) ∈ (List.range s.nVars).map (fun i : Nat => (i : Int)) :=
      List.mem_map.mpr ⟨x, List.mem_range.mpr hx, rfl⟩
    obtain ⟨j, hj, hje⟩ := List.mem_map.mp (hB.mem_iff.mpr hm)
    exact ⟨j, List.mem_range.mp hj, hje⟩
  -- the marks
  have hflag : ∀ x, t.highcenter x = true ↔
      ∃ i, s.nVars - s.nVars / 3 ≤ i ∧ i < s.nVars ∧ s5.sorted_central_vars i = (x : Int) := by
    intro x
    rw [g7 x, hn4]
    have hdiv : s.nVars / 3 ≤ s.nVars := Nat.div_le_self _ _
    constructor
    · rintro (hx | ⟨i, hi, hx⟩)
      · rw [hhc5] at hx; cases hx
      · rw [List.mem_range'_1] at hi
        exact ⟨i, hi.1, by omega, hx⟩
    · rintro ⟨i, hi1, hi2, hx⟩
      exact Or.inr ⟨i, by rw [List.mem_range'_1]; omega, hx⟩
  refine ⟨?_, ?_, ?_⟩
  · intro v hv
    obtain ⟨i, _, hi2, hx⟩ := (hflag v).mp hv
    obtain ⟨j, hj, _, hje⟩ := hA i hi2
    rw [hx] at hje
    have : v = j := by exact_mod_cast hje
    omega
  · have e1 : (List.range s.nVars).countP (fun v => t.highcenter v)
        = ((List.range s.nVars).map (fun i : Nat => (i : Int))).countP
            (fun z => t.highcenter z.toNat) := by
      rw [List.countP_map]
      apply List.countP_congr
      intro i _
      simp
    have e2 : ((List.range s.nVars).map s5.sorted_central_vars).countP
          (fun z => t.highcenter z.toNat)
        = (List.range s.nVars).countP (fun i => decide (s.nVars - s.nVars / 3 ≤ i)) := by
      rw [List.countP_map]
      apply List.countP_congr
      intro i hi
      rw [List.mem_range] at hi
      obtain ⟨j, hj, _, hje⟩ := hA i hi
      simp only [Function.comp, decide_eq_true_eq]
      rw [hje, Int.toNat_ofNat, hflag j]
      constructor
      · rintro ⟨i2, h1, h2, h3⟩
        have : i2 = i := hinj i2 i h2 hi (h3.trans hje.symm)
        omega
      · intro h1
        exact ⟨i, h1, hi, hje⟩
    rw [e1, ← hB.countP_eq, e2, countP_range_ge _ _ (Nat.sub_le _ _)]
    have hdiv : s.nVars / 3 ≤ s.nVars := Nat.div_le_self _ _
    omega
  · intro hnan a b hb ha hnb
    obtain ⟨i, hi1, hi2, hia⟩ := (hflag a).mp ha
    obtain ⟨j, hj, hjb⟩ := hD b hb
    have hji : j < i := by
      by_contra hc
      have : t.highcenter b = true := (hflag b).mpr ⟨j, by omega, hj, hjb⟩
      rw [hnb] at this
      cases this
    have hsorted := hs (fun x hx => by rw [hkey0 x hx, ← hcen]; exact hnan x hx) j i hji hi2
    obtain ⟨a2, _, hka, hpa⟩ := hA i hi2
    obtain ⟨b2, _, hkb, hpb⟩ := hA j hj
    have ea : a2 = a := by
      rw [hia] at hpa
      exact_mod_cast hpa.symm
    have eb : b2 = b := by
      rw [hjb] at hpb
      exact_mod_cast hpb.symm
    rw [hka, hkb, ea, eb, ← hcen] at hsorted
    exact hsorted

end Glucose


namespace Glucose

/-! ## Propagation assigns no variable without a reason -/

theorem NoDecision.nd_refl (s : Solver) : NoDecision s s := fun _ _ => ⟨rfl, rfl⟩

theorem NoDecision.nd_trans {s t u : Solver} (h1 : NoDecision s t) (h2 : NoDecision t u) :
    NoDecision s u := by
  intro v hv
  obtain ⟨a, b⟩ := h2 v hv
  have hr : t.reason v = none := by
    unfold Solver.reason at hv ⊢
    rw [← b]
    exact hv
  obtain ⟨c, d⟩ := h1 v hr
  exact ⟨a.trans c, b.trans d⟩

theorem NoDecision.nd_of_fields {s t : Solver} (h1 : t.assigns = s.assigns)
    (h2 : t.vardata = s.vardata) : NoDecision s t :=
  fun v _ => ⟨by rw [h1], by rw [h2]⟩

theorem uncheckedEnqueue_nodecision {s s1 : Solver} {p : Lit} {cr : Nat}
    (h : uncheckedEnqueue s p (some cr) = some s1) : NoDecision s s1 := by
  obtain ⟨_, rfl⟩ := uncheckedEnqueue_eq h
  intro v hv
  by_cases e : v = p.var
  · subst e
    unfold Solver.reason at hv
    dsimp only at hv
    rw [Function.update_same] at hv
    cases hv
  · exact ⟨Function.update_noteq e _ _, Function.update_noteq e _ _⟩

theorem attachClause_assigns {s t : Solver} {cr : Nat} (h : attachClause s cr = some t) :
    t.assigns = s.assigns ∧ t.vardata = s.vardata ∧ t.trail = s.trail ∧
      t.trail_lim = s.trail_lim ∧ t.assumptions = s.assumptions ∧
      t.conflict = s.conflict := by
  unfold attachClause at h
  dsimp only at h
  split at h
  · simp only [Option.some.injEq] at h
    rw [← h]
    split <;> split <;> exact ⟨rfl, rfl, rfl, rfl, rfl, rfl⟩
  · simp at h

theorem LongSpec.long_nodecision {p : Lit} {w : Watcher} {s : Solver} {out : WatchOutcome}
    (h : LongSpec p w s out) : NoDecision s out.state := by
  cases h with
  | skip _ => exact NoDecision.nd_refl _
  | sat c0 c1 rest first hv _ _ => exact NoDecision.nd_of_fields rfl rfl
  | moved c0 c1 rest first k x hv _ hx _ _ => exact NoDecision.nd_of_fields rfl rfl
  | conflict c0 c1 rest first hv _ _ => exact NoDecision.nd_of_fields rfl rfl
  | unit c0 c1 rest first s2 hv _ _ he =>
    exact NoDecision.nd_trans
      (NoDecision.nd_of_fields (t := s.setLits w.cref (first :: p.neg :: rest)) rfl rfl)
      (uncheckedEnqueue_nodecision he)

theorem propagateLong_nodecision {p : Lit} {ws kept : List Watcher} {confl : Option Nat}
    {s : Solver} {r : Option Nat × List Watcher × Solver}
    (h : propagateLong p ws kept confl s = some r) : NoDecision s r.2.2 := by
  refine propagateLong_induct (p := p) (fun _ _ t => NoDecision s t) ?_ ?_ ?_
    ws kept confl s r (NoDecision.nd_refl _) h
  · intro _ _ _ _ t _ t1 hI hs
    exact hI.nd_trans (longStep_spec hs).long_nodecision
  · intro _ _ _ _ t t1 hI hs
    exact hI.nd_trans (longStep_spec hs).long_nodecision
  · intro _ _ _ _ t _ _ t1 hI hs
    exact hI.nd_trans (longStep_spec hs).long_nodecision

theorem propagateBin_nodecision {ws : List Watcher} {s : Solver} {r : Option Nat × Solver}
    (h : propagateBin ws s = some r) : NoDecision s r.2 := by
  induction ws generalizing s with
  | nil =>
    simp only [propagateBin, Option.some.injEq] at h
    subst h
    exact NoDecision.nd_refl _
  | cons w ws ih =>
    unfold propagateBin at h
    split at h
    · simp only [Option.some.injEq] at h
      subst h
      exact NoDecision.nd_refl _
    · split at h
      · split at h
        · simp at h
        · next s1 he => exact (uncheckedEnqueue_nodecision he).nd_trans (ih h)
      · exact ih h

theorem promoteClause_assigns {s t : Solver} {cr : Nat} {c0 : Lit} {rest : List Lit}
    (h : promoteClause s cr c0 rest = some t) :
    t.assigns = s.assigns ∧ t.vardata = s.vardata := by
  unfold promoteClause at h
  split at h
  · simp at h
  · cases hm : maxLevelIndex s rest 1 none with
    | none => rw [hm] at h; simp at h
    | some im =>
      obtain ⟨index, m⟩ := im
      rw [hm] at h
      dsimp only at h
      cases rest with
      | nil => simp at h
      | cons r1 tl =>
        dsimp only at h
        cases hli : (r1 :: tl).get? (index - 1) with
        | none => rw [hli] at h; simp at h
        | some li =>
          rw [hli] at h
          dsimp only at h
          split at h
          · simp at h
          · next s4 h4 =>
            simp only [Option.some.injEq] at h
            subst h
            obtain ⟨e1, e2, _⟩ := attachClause_assigns h4
            exact ⟨e1, e2⟩

theorem UnarySpec.unary_nodecision {p : Lit} {w : Watcher} {s : Solver} {out : WatchOutcome}
    (h : UnarySpec p w s out) : NoDecision s out.state := by
  cases h with
  | skip _ => exact NoDecision.nd_refl _
  | moved rest k x _ _ _ _ _ => exact NoDecision.nd_of_fields rfl rfl
  | conflict rest s1 _ _ _ hc =>
    rcases hc with ⟨_, rfl⟩ | ⟨_, hp⟩
    · exact NoDecision.nd_refl _
    · obtain ⟨e1, e2⟩ := promoteClause_assigns hp
      exact NoDecision.nd_of_fields e1 e2

theorem propagateUnaryLoop_nodecision {p : Lit} {ws kept : List Watcher}
    {confl : Option Nat} {s : Solver} {r : Option Nat × List Watcher × Solver}
    (h : propagateUnaryLoop p ws kept confl s = some r) : NoDecision s r.2.2 := by
  induction ws generalizing kept s with
  | nil =>
    simp only [propagateUnaryLoop, Option.some.injEq] at h
    subst h
    exact NoDecision.nd_refl _
  | cons w ws ih =>
    unfold propagateUnaryLoop at h
    cases hs : unaryStep p w s with
    | none => rw [hs] at h; simp at h
    | some out =>
      rw [hs] at h
      have he := (unaryStep_spec hs).unary_nodecision
      cases out with
      | keep w1 s1 => exact he.nd_trans (ih h)
      | moved s1 => exact he.nd_trans (ih h)
      | conflict cr w1 s1 =>
        dsimp only at h
        split at h
        · split at h
          · simp at h
          · simp only [Option.some.injEq] at h
            subst h
            exact he
        · simp only [Option.some.injEq] at h
          subst h
          exact he

theorem propagateUnaryWatches_nodecision {s : Solver} {p : Lit} {r : Option Nat × Solver}
    (h : propagateUnaryWatches s p = some r) : NoDecision s r.2 := by
  unfold propagateUnaryWatches at h
  cases hl : propagateUnaryLoop p (s.unaryWatches.occs p) [] none s with
  | none => rw [hl] at h; simp at h
  | some rl =>
    obtain ⟨confl, kept, s1⟩ := rl
    rw [hl] at h
    simp only [Option.some.injEq] at h
    subst h
    exact (propagateUnaryLoop_nodecision hl).nd_trans (NoDecision.nd_of_fields rfl rfl)

theorem propagateLoop_nodecision (fuel : Nat) (confl : Option Nat) (n : Nat) (s : Solver)
    (r : Option Nat × Solver) (h : propagateLoop fuel confl n s = some r) :
    NoDecision s r.2 := by
  refine propagateLoop_induct (fun _ t => NoDecision s t)
    (fun _ t => NoDecision s t) ?_ ?_ ?_ fuel confl n s r (NoDecision.nd_refl _) h
  · intro confl t p t1 confl1 kept t2 hI hlt hget hb hl
    have e2 : NoDecision (t.setQhead (t.qhead + 1)) t1 := propagateBin_nodecision hb
    have e3 : NoDecision t1 t2 := propagateLong_nodecision hl
    have e5 : NoDecision s { t2 with watches := t2.watches.set p kept } :=
      ((hI.nd_trans ((NoDecision.nd_of_fields rfl rfl).nd_trans e2)).nd_trans e3).nd_trans
        (NoDecision.nd_of_fields rfl rfl)
    refine ⟨e5, ?_⟩
    intro confl2 t4 _ _ hu
    exact e5.nd_trans (propagateUnaryWatches_nodecision hu)
  · intro confl t p t1 cr hI hlt hget hb
    exact hI.nd_trans ((NoDecision.nd_of_fields rfl rfl).nd_trans (propagateBin_nodecision hb))
  · intro confl t n hI hlt
    exact hI.nd_trans (NoDecision.nd_of_fields rfl rfl)

/-- The function `propagate` gives a reason to every variable it assigns. -/
theorem propagate_nodecision {s : Solver} {r : Option Nat × Solver}
    (h : propagate s = some r) : NoDecision s r.2 :=
  (NoDecision.nd_of_fields (s := s) (t := s.cleanAllWatches) rfl rfl).nd_trans
    (propagateLoop_nodecision _ _ _ s.cleanAllWatches _ h)

theorem scalars_assumptions {s t : Solver} (h : t.scalars = s.scalars) :
    t.assumptions = s.assumptions := by
  simp only [Solver.scalars, Prod.mk.injEq] at h
  exact h.2.2.1

/-- The invariant on the decisions is kept by `propagate`. -/
theorem propagate_decisionsOK {s : Solver} {r : Option Nat × Solver}
    (h : propagate s = some r) (hs : DecisionsOK s) : DecisionsOK r.2 := by
  refine ⟨(propagate_ext h).trailOK hs.trail, ?_⟩
  intro l hv hr hl hle
  obtain ⟨e1, e2⟩ := propagate_nodecision h l.var hr
  rw [scalars_assumptions (propagate_scalars h)] at hle ⊢
  have hv2 : s.value l = lbool.l_True := by
    unfold Solver.value at hv ⊢
    rw [← e1]
    exact hv
  unfold Solver.reason at hr
  unfold Solver.level at hl hle
  rw [e2] at hr hl hle
  exact hs.decisions l hv2 hr hl hle

end Glucose


namespace Glucose

/-! ## Conflict analysis does not write the assignment -/

theorem computeLBDCore_core (s : Solver) (lits : List Lit) (b : Int) :
    (computeLBDCore s lits b).2.core = s.core := rfl

theorem swapBinary_core {s t : Solver} {cr : Nat} (h : swapBinary s cr = some t) :
    t.core = s.core := by
  unfold swapBinary at h
  split at h
  · split at h
    · split at h
      · simp only [Option.some.injEq] at h; rw [← h]; rfl
      · simp at h
    · simp only [Option.some.injEq] at h; rw [← h]
  · simp only [Option.some.injEq] at h; rw [← h]

theorem analyzeClause_core {s t : Solver} {cr : Nat} {p : Option Lit}
    (h : analyzeClause s cr p = some t) : t.core = s.core := by
  unfold analyzeClause at h
  cases hs : (if p.isSome then swapBinary s cr else some s) with
  | none => rw [hs] at h; simp at h
  | some s1 =>
    rw [hs] at h
    have e1 : s1.core = s.core := by
      split at hs
      · exact swapBinary_core hs
      · simp only [Option.some.injEq] at hs; rw [← hs]
    dsimp only at h
    have e2 : ∀ u : Solver, u = (if (s1.ca cr).learnt = true then s1
        else if (s1.ca cr).seen = false then
          { s1 with
            stats := { s1.stats with
              originalClausesSeen := s1.stats.originalClausesSeen + 1 },
            ca := Function.update s1.ca cr { s1.ca cr with seen := true } }
        else s1) → u.core = s1.core := by
      intro u hu
      rw [hu]
      split
      · rfl
      · split <;> rfl
    generalize hu : (if (s1.ca cr).learnt = true then s1
        else if (s1.ca cr).seen = false then
          { s1 with
            stats := { s1.stats with
              originalClausesSeen := s1.stats.originalClausesSeen + 1 },
            ca := Function.update s1.ca cr { s1.ca cr with seen := true } }
        else s1) = u at h
    have e3 := e2 u hu.symm
    split at h
    · split at h
      · simp only [Option.some.injEq] at h
        rw [← h]
        exact ((rfl : _ = (computeLBDClause u (u.ca cr)).2.core).trans
          (computeLBDCore_core _ _ _)).trans (e3.trans e1)
      · simp only [Option.some.injEq] at h
        rw [← h]
        exact (computeLBDCore_core _ _ _).trans (e3.trans e1)
    · simp only [Option.some.injEq] at h
      rw [← h]
      exact e3.trans e1

theorem analyzeLit_core {s : Solver} {q : Lit} {pathC : Int} {out sel : List Lit}
    {r : Solver × Int × List Lit × List Lit}
    (h : analyzeLit s q pathC out sel = some r) : r.1.core = s.core := by
  unfold analyzeLit at h
  have e1 : (if s.isSelector q.var = false then
          if s.highcenter q.var = true ∧ s.stats.decisions < 100000 then
            s.varBumpActivity q.var true
          else s.varBumpActivity q.var false
        else s).core = s.core := by
    split
    · split <;> rfl
    · rfl
  generalize (if s.isSelector q.var = false then
          if s.highcenter q.var = true ∧ s.stats.decisions < 100000 then
            s.varBumpActivity q.var true
          else s.varBumpActivity q.var false
        else s) = u at h e1
  split at h
  · split at h
    · simp only [Option.some.injEq] at h; rw [← h]
    · dsimp only at h
      split at h
      · split at h <;> (simp only [Option.some.injEq] at h; rw [← h]; exact e1)
      · split at h
        · split at h
          · simp only [Option.some.injEq] at h; rw [← h]; exact e1
          · simp at h
        · simp only [Option.some.injEq] at h; rw [← h]; exact e1
  · simp only [Option.some.injEq] at h; rw [← h]

theorem analyzeLits_core : ∀ (qs : List Lit) (s : Solver) (pathC : Int)
    (out sel : List Lit) (r : Solver × Int × List Lit × List Lit),
    analyzeLits qs s pathC out sel = some r → r.1.core = s.core := by
  intro qs
  induction qs with
  | nil =>
    intro s pathC out sel r h
    simp only [analyzeLits, Option.some.injEq] at h
    rw [← h]
  | cons q qs ih =>
    intro s pathC out sel r h
    rw [analyzeLits] at h
    split at h
    · simp at h
    · next s1 p1 o1 sl1 h1 =>
      exact (ih _ _ _ _ _ h).trans (analyzeLit_core h1)

theorem analyzeWalk_core : ∀ (k : Nat) (s : Solver) (pathC : Int)
    (out sel : List Lit) (r : Solver × Lit × List Lit × List Lit),
    analyzeWalk k s pathC out sel = some r → r.1.core = s.core := by
  intro k
  induction k with
  | zero => intro s pathC out sel r h; simp [analyzeWalk] at h
  | succ k ih =>
    intro s pathC out sel r h
    rw [analyzeWalk] at h
    split at h
    · simp at h
    · next p hp =>
      split at h
      · dsimp only at h
        split at h
        · split at h
          · simp at h
          · next cr hcr =>
            split at h
            · simp at h
            · next s2 h2 =>
              split at h
              · simp at h
              · next s3 p3 o3 sl3 h3 =>
                exact ((ih _ _ _ _ _ h).trans (analyzeLits_core _ _ _ _ _ _ h3)).trans
                  ((analyzeClause_core h2).trans rfl)
        · simp only [Option.some.injEq] at h; rw [← h]; rfl
      · exact ih _ _ _ _ _ h

theorem analyzeResolve_core {s : Solver} {confl : Nat}
    {r : Solver × Lit × List Lit × List Lit}
    (h : analyzeResolve s confl = some r) : r.1.core = s.core := by
  unfold analyzeResolve at h
  split at h
  · simp at h
  · next s1 h1 =>
    split at h
    · simp at h
    · next s2 p2 o2 sl2 h2 =>
      exact ((analyzeWalk_core _ _ _ _ _ _ h).trans
        (analyzeLits_core _ _ _ _ _ _ h2)).trans (analyzeClause_core h1)

theorem redundantLits_core (abs : List Nat) : ∀ (ps : List Lit) (s : Solver),
    (redundantLits abs ps s).2.core = s.core := by
  intro ps
  induction ps with
  | nil => intro s; rfl
  | cons p ps ih =>
    intro s
    rw [redundantLits]
    split
    · split
      · exact (ih _).trans rfl
      · rfl
    · exact ih s

theorem litRedundantLoop_core (abs : List Nat) (top : Nat) : ∀ (fuel : Nat) (s : Solver)
    (r : Bool × Solver), litRedundantLoop abs top fuel s = some r →
    r.2.core = s.core := by
  intro fuel
  induction fuel with
  | zero => intro s r h; simp [litRedundantLoop] at h
  | succ fuel ih =>
    intro s r h
    rw [litRedundantLoop] at h
    split at h
    · simp only [Option.some.injEq] at h; rw [← h]
    · next q hq =>
      split at h
      · simp at h
      · next cr hcr =>
        dsimp only at h
        split at h
        · simp at h
        · next s2 h2 =>
          have e2 : s2.core = s.core := (swapBinary_core h2).trans rfl
          have e3 := redundantLits_core abs ((s2.ca cr).lits.drop 1) s2
          split at h
          · next s3 h3 =>
            rw [h3] at e3
            exact (ih _ _ h).trans (e3.trans e2)
          · next s3 h3 =>
            rw [h3] at e3
            simp only [Option.some.injEq] at h
            rw [← h]
            exact e3.trans e2

theorem litRedundant_core {s : Solver} {p : Lit} {abs : List Nat} {r : Bool × Solver}
    (h : litRedundant s p abs = some r) : r.2.core = s.core :=
  (litRedundantLoop_core _ _ _ _ _ h).trans rfl

theorem minimizeDeep_core (abs : List Nat) : ∀ (ls kept : List Lit) (s : Solver)
    (r : List Lit × Solver), minimizeDeep abs ls kept s = some r →
    r.2.core = s.core := by
  intro ls
  induction ls with
  | nil =>
    intro kept s r h
    simp only [minimizeDeep, Option.some.injEq] at h
    rw [← h]
  | cons l ls ih =>
    intro kept s r h
    rw [minimizeDeep] at h
    split at h
    · exact ih _ _ _ h
    · split at h
      · simp at h
      · next s1 h1 => exact (ih _ _ _ h).trans (litRedundant_core h1)
      · next s1 h1 => exact (ih _ _ _ h).trans (litRedundant_core h1)

theorem minimisationWithBinaryResolution_core {s : Solver} {out : List Lit}
    {r : List Lit × Solver} (h : minimisationWithBinaryResolution s out = some r) :
    r.2.core = s.core := by
  unfold minimisationWithBinaryResolution at h
  dsimp only at h
  split at h
  · simp at h
  · split at h
    · split at h
      · split at h
        · simp at h
        · split at h
          · simp only [Option.some.injEq] at h; rw [← h]; rfl
          · simp at h
      · simp only [Option.some.injEq] at h; rw [← h]; rfl
    · simp only [Option.some.injEq] at h; rw [← h]; rfl

theorem analyzeMinimize_core {s : Solver} {p : Lit} {out sel : List Lit}
    {r : List Lit × Solver} (h : analyzeMinimize s p out sel = some r) :
    r.2.core = s.core := by
  unfold analyzeMinimize at h
  dsimp only at h
  split at h
  · simp at h
  · next kept s2 h2 =>
    have e2 : s2.core = s.core := by
      split at h2
      · exact (minimizeDeep_core _ _ _ _ _ h2).trans rfl
      · split at h2
        · simp only [Option.some.injEq, Prod.mk.injEq] at h2; rw [← h2.2]; rfl
        · simp only [Option.some.injEq, Prod.mk.injEq] at h2; rw [← h2.2]; rfl
    split at h
    · exact (minimisationWithBinaryResolution_core h).trans (Eq.trans rfl e2)
    · simp only [Option.some.injEq] at h; rw [← h]; exact Eq.trans rfl e2

theorem bumpLastDecisionLevel_core (lbd : Nat) : ∀ (qs : List Lit) (s t : Solver),
    bumpLastDecisionLevel lbd qs s = some t → t.core = s.core := by
  intro qs
  induction qs with
  | nil =>
    intro s t h
    simp only [bumpLastDecisionLevel, Option.some.injEq] at h
    rw [← h]
  | cons q qs ih =>
    intro s t h
    rw [bumpLastDecisionLevel] at h
    split at h
    · simp at h
    · split at h
      · exact (ih _ _ h).trans rfl
      · exact ih _ _ h

theorem analyzeFinish_core {s : Solver} {out sel : List Lit} {r : AnalyzeResult}
    (h : analyzeFinish s out sel = some r) : r.state.core = s.core := by
  unfold analyzeFinish at h
  dsimp only at h
  split at h
  · simp at h
  · next out2 bt hbt =>
    split at h
    · simp at h
    · next s2 h2 =>
      simp only [Option.some.injEq] at h
      rw [← h]
      exact Eq.trans rfl ((bumpLastDecisionLevel_core _ _ _ _ h2).trans
        (computeLBDCore_core _ _ _))

/-- The function `analyze` writes neither the assignment, the reasons and levels, the
trail, the watch lists nor the lists of clause references. -/
theorem analyze_core {s : Solver} {confl : Nat} {r : AnalyzeResult}
    (h : analyze s confl = some r) : r.state.core = s.core := by
  unfold analyze at h
  split at h
  · simp at h
  · next s1 p out sel h1 =>
    split at h
    · simp at h
    · next ol s2 h2 =>
      exact ((analyzeFinish_core h).trans (analyzeMinimize_core h2)).trans
        (analyzeResolve_core h1)

/-! ## The decision heuristic does not write the assignment -/

/-- The function `pickBranchLit` writes neither the assignment nor the trail. -/
theorem pickBranchLit_core {o : Oracle} {s : Solver} {r : Option Lit × Solver}
    (h : pickBranchLit o s = some r) : r.2.core = s.core := by
  unfold pickBranchLit at h
  dsimp only at h
  split at h
  · simp at h
  · next next0 s2 h2 =>
    have e2 : s2.core = s.core := by
      split at h2
      · split at h2
        · simp at h2
        · simp only [Option.some.injEq, Prod.mk.injEq] at h2
          rw [← h2.2]
          split <;> rfl
      · simp only [Option.some.injEq, Prod.mk.injEq] at h2
        rw [← h2.2]
        rfl
    have e3 : (if s2.notPickable next0 = true then
          ((pickLoop s2 (heapOrder o s2)).1,
            { s2 with order_heap := (pickLoop s2 (heapOrder o s2)).2, tick := s2.tick + 1 })
        else (next0, s2)).2.core = s2.core := by
      split <;> rfl
    generalize (if s2.notPickable next0 = true then
          ((pickLoop s2 (heapOrder o s2)).1,
            ({ s2 with order_heap := (pickLoop s2 (heapOrder o s2)).2,
                       tick := s2.tick + 1 } : Solver))
        else (next0, s2)) = pr at h e3
    split at h
    · simp only [Option.some.injEq] at h; rw [← h]; exact e3.trans e2
    · split at h
      · simp only [Option.some.injEq] at h; rw [← h]; exact Eq.trans rfl (e3.trans e2)
      · simp only [Option.some.injEq] at h; rw [← h]; exact e3.trans e2

theorem countDecision_core {s t : Solver} {next : Lit}
    (h : countDecision s next = some t) : t.core = s.core := by
  unfold countDecision at h
  dsimp only at h
  split at h
  · simp only [Option.some.injEq] at h; rw [← h]; rfl
  · simp at h


end Glucose


namespace Glucose

/-! ## Backtracking and the clause database do not write the final conflict -/

/-- The function `propagate` does not write the member `conflict`. -/
theorem propagate_conflict {s : Solver} {r : Option Nat × Solver}
    (h : propagate s = some r) : r.2.conflict = s.conflict := by
  have := propagate_lists h
  simp only [Solver.lists, Prod.mk.injEq] at this
  exact this.2.2.2.2.2.2.2.2.2.2.1

theorem insertVarOrder_conflict (s : Solver) (x : Nat) :
    (s.insertVarOrder x).conflict = s.conflict := by
  unfold Solver.insertVarOrder
  split <;> rfl

theorem cancelLoop_conflict (lastLim : Nat) (removed : List (Nat × Lit)) (s : Solver) :
    (cancelLoop lastLim removed s).conflict = s.conflict := by
  induction removed generalizing s with
  | nil => rfl
  | cons x rest ih =>
    obtain ⟨c, l⟩ := x
    rw [cancelLoop]
    dsimp only
    rw [ih, insertVarOrder_conflict]
    split <;> rfl

/-- The function `cancelUntil` does not write the member `conflict`. -/
theorem cancelUntil_conflict (s : Solver) (k : Nat) : (cancelUntil s k).conflict = s.conflict := by
  unfold cancelUntil
  split
  · exact cancelLoop_conflict (s.trail_lim.getLastD 0)
      (((s.trail.enum).drop (s.trail_lim.getD k 0)).reverse) s
  · rfl

theorem detachClause_conflict {s t : Solver} {cr : Nat} {strict : Bool}
    (h : detachClause s cr strict = some t) : t.conflict = s.conflict := by
  unfold detachClause at h
  dsimp only at h
  split at h
  · next c0 c1 rest hl =>
    split at h
    · simp at h
    · next s2 h2 =>
      have e2 : s2.conflict = s.conflict := by
        split at h2
        · split at h2
          · split at h2
            · simp at h2
            · split at h2
              · simp at h2
              · simp only [Option.some.injEq] at h2; rw [← h2]
          · simp only [Option.some.injEq] at h2; rw [← h2]
        · split at h2
          · split at h2
            · simp at h2
            · split at h2
              · simp at h2
              · simp only [Option.some.injEq] at h2; rw [← h2]
          · simp only [Option.some.injEq] at h2; rw [← h2]
      simp only [Option.some.injEq] at h
      rw [← h]
      split <;> exact e2
  · simp at h

theorem detachClausePurgatory_conflict {s t : Solver} {cr : Nat} {strict : Bool}
    (h : detachClausePurgatory s cr strict = some t) : t.conflict = s.conflict := by
  unfold detachClausePurgatory at h
  split at h
  · split at h
    · split at h
      · simp at h
      · simp only [Option.some.injEq] at h; rw [← h]
    · simp only [Option.some.injEq] at h; rw [← h]
  · simp at h

theorem removeClause_conflict {s t : Solver} {cr : Nat} {b : Bool}
    (h : removeClause s cr b = some t) : t.conflict = s.conflict := by
  unfold removeClause at h
  split at h
  · simp at h
  · next s1 h1 =>
    have e1 : s1.conflict = s.conflict := by
      split at h1
      · exact detachClausePurgatory_conflict h1
      · exact detachClause_conflict h1
    simp only [Option.some.injEq] at h
    rw [← h]
    refine Eq.trans ?_ e1
    split
    · split <;> rfl
    · rfl

theorem checkGarbage_conflict (o : Oracle) (s : Solver) :
    (checkGarbage o s).conflict = s.conflict := by
  unfold checkGarbage
  dsimp only
  split <;> rfl

theorem reduceDBLoop_conflict : ∀ (sorted : List Nat) (i limit : Nat) (kept : List Nat)
    (s : Solver) (r : List Nat × Solver),
    reduceDBLoop sorted i limit kept s = some r → r.2.conflict = s.conflict := by
  intro sorted
  induction sorted with
  | nil =>
    intro i limit kept s r h
    simp only [reduceDBLoop, Option.some.injEq] at h
    rw [← h]
  | cons cr rest ih =>
    intro i limit kept s r h
    rw [reduceDBLoop] at h
    dsimp only at h
    split at h
    · split at h
      · simp at h
      · next s1 h1 =>
        have e1 : s1.conflict = s.conflict := removeClause_conflict h1
        exact (ih _ _ _ _ _ h).trans (Eq.trans rfl e1)
    · exact (ih _ _ _ _ _ h).trans rfl

theorem reduceDBSpecial_conflict (s : Solver) (mid last : Nat) :
    (reduceDBSpecial s mid last).conflict = s.conflict := by
  unfold reduceDBSpecial
  dsimp only
  split <;> split <;> rfl

/-- The function `reduceDB` does not write the member `conflict`. -/
theorem reduceDB_conflict {o : Oracle} {s t : Solver} (h : reduceDB o s = some t) :
    t.conflict = s.conflict := by
  unfold reduceDB at h
  dsimp only at h
  split at h
  · next mid last _ _ =>
    split at h
    · simp at h
    · next kept s4 h4 =>
      simp only [Option.some.injEq] at h
      rw [← h]
      exact (checkGarbage_conflict _ _).trans
        (Eq.trans rfl ((reduceDBLoop_conflict _ _ _ _ _ _ h4).trans
          (reduceDBSpecial_conflict _ _ _)))
  · simp at h

theorem removeSatisfiedLoop_conflict : ∀ (cs kept : List Nat) (s : Solver)
    (r : List Nat × Solver),
    removeSatisfiedLoop cs kept s = some r → r.2.conflict = s.conflict := by
  intro cs
  induction cs with
  | nil =>
    intro kept s r h
    simp only [removeSatisfiedLoop, Option.some.injEq] at h
    rw [← h]
  | cons cr rest ih =>
    intro kept s r h
    rw [removeSatisfiedLoop] at h
    split at h
    · simp at h
    · split at h
      · simp at h
      · next s1 h1 => exact (ih _ _ _ h).trans (removeClause_conflict h1)
    · exact ih _ _ _ h

/-- The function `simplify` does not write the member `conflict`. -/
theorem simplify_conflict {o : Oracle} {s : Solver} {r : Bool × Solver}
    (h : simplify o s = some r) : r.2.conflict = s.conflict := by
  unfold simplify at h
  split at h
  · simp at h
  · split at h
    · simp only [Option.some.injEq] at h; rw [← h]
    · split at h
      · simp at h
      · next cr s1 h1 =>
        simp only [Option.some.injEq] at h
        rw [← h]
        exact Eq.trans rfl (propagate_conflict h1)
      · next s1 h1 =>
        have e1 : s1.conflict = s.conflict := propagate_conflict h1
        split at h
        · simp only [Option.some.injEq] at h; rw [← h]; exact e1
        · split at h
          · simp at h
          · next l2 s2 h2 =>
            dsimp only at h
            split at h
            · simp at h
            · next u2 s4 h4 =>
              split at h
              · simp at h
              · next s7 h7 =>
                have e2 : s2.conflict = s1.conflict := removeSatisfiedLoop_conflict _ _ _ _ h2
                have e4 : s4.conflict = s2.conflict :=
                  (removeSatisfiedLoop_conflict _ _ _ _ h4).trans rfl
                have e7 : s7.conflict = s4.conflict := by
                  split at h7
                  · split at h7
                    · simp at h7
                    · next c2 s6 h6 =>
                      simp only [Option.some.injEq] at h7
                      rw [← h7]
                      exact Eq.trans rfl ((removeSatisfiedLoop_conflict _ _ _ _ h6).trans rfl)
                  · simp only [Option.some.injEq] at h7; rw [← h7]
                simp only [Option.some.injEq] at h
                rw [← h]
                exact Eq.trans rfl ((checkGarbage_conflict o s7).trans
                  (e7.trans (e4.trans (e2.trans e1))))

end Glucose


namespace Glucose

/-! ## The invariant on the decisions along the loop of `search` -/

theorem core_fields {s t : Solver} (h : t.core = s.core) :
    t.assigns = s.assigns ∧ t.vardata = s.vardata ∧ t.trail = s.trail ∧
      t.trail_lim = s.trail_lim ∧ t.conflict = s.conflict := by
  simp only [Solver.core, Prod.mk.injEq] at h
  exact ⟨h.1, h.2.1, h.2.2.1, h.2.2.2.1, h.2.2.2.2.2.1⟩

theorem TrailOK.of_db {s t : Solver} (h : TrailOK s) (f : DBFrame s t) : TrailOK t := by
  obtain ⟨a, b, c, d, e, g⟩ := h
  refine ⟨?_, ?_, ?_, ?_, ?_, ?_⟩
  · intro l hl
    rw [f.trail] at hl
    rw [f.value_eq_db]
    exact a l hl
  · rw [f.assigns, f.trail]; exact b
  · rw [f.trail]; exact c
  · rw [f.trail_lim]; exact d
  · rw [f.trail, f.trail_lim]; exact e
  · intro i l hg
    rw [f.trail] at hg
    have := g i l hg
    unfold Solver.level at this ⊢
    rw [f.levels, f.trail_lim]
    exact this

/-- At level 0 there is no decision. -/
theorem DecisionsOK.of_level_zero {s : Solver} (hT : TrailOK s) (h0 : s.decisionLevel = 0) :
    DecisionsOK s := by
  refine ⟨hT, ?_⟩
  intro l hv _ hl _
  have := hT.toLevelsOK l.var (assigned_of_value (by rw [hv]; simp))
  omega

theorem DecisionsOK.dec_of_fields {s t : Solver} (h : DecisionsOK s)
    (h1 : t.assigns = s.assigns) (h2 : t.vardata = s.vardata) (h3 : t.trail = s.trail)
    (h4 : t.trail_lim = s.trail_lim) (h5 : t.assumptions = s.assumptions) :
    DecisionsOK t := by
  refine ⟨h.trail.trail_of_fields h1 h2 h3 h4, ?_⟩
  intro l hv hr hl hle
  unfold Solver.value at hv
  unfold Solver.reason at hr
  unfold Solver.level at hl hle
  rw [h1] at hv
  rw [h2] at hr hl hle
  rw [h5] at hle ⊢
  exact h.decisions l hv hr hl hle

theorem newDecisionLevel_decisionsOK {s : Solver} (h : DecisionsOK s) :
    DecisionsOK s.newDecisionLevel :=
  ⟨newDecisionLevel_trailOK h.trail, h.decisions⟩

/-- The function `cancelUntil` keeps the agreement of the trail and the assignment. -/
theorem cancelUntil_trailOK {s : Solver} (k : Nat) (hs : TrailOK s) :
    TrailOK (cancelUntil s k) := by
  by_cases hlt : k < s.decisionLevel
  · obtain ⟨e3, _, e4, e2, e1⟩ := cancelUntil_fields s k hlt
    generalize cancelUntil s k = t at e1 e2 e3 e4
    generalize hlim : s.trail_lim.getD k 0 = lim at e1 e3
    have hk2 : k < s.trail_lim.length := hlt
    have hk : s.trail_lim.get? k = some lim := by
      rw [← hlim, List.get?_eq_getElem?, List.getD_eq_getElem?_getD,
        List.getElem?_eq_getElem hk2]
      rfl
    have hsorted := hs.limsSorted
    have hlimmem : lim ∈ s.trail_lim := mem_of_get? hk
    have hlimlen : lim ≤ s.trail.length := hs.limsBound lim hlimmem
    have hnd : ((s.trail.take lim).map Lit.var ++ (s.trail.drop lim).map Lit.var).Nodup := by
      rw [← List.map_append, List.take_append_drop]
      exact hs.nodup
    have hdisj : ∀ l ∈ s.trail.take lim, l.var ∉ (s.trail.drop lim).map Lit.var := by
      intro l hl hv
      exact (List.nodup_append.mp hnd).2.2 (List.mem_map_of_mem _ hl) hv
    have hget_take : ∀ i l, t.trail.get? i = some l → i < lim ∧ s.trail.get? i = some l := by
      intro i l hg
      rw [e3, List.get?_eq_getElem?, List.getElem?_take] at hg
      split at hg
      · next hi => exact ⟨hi, by rw [List.get?_eq_getElem?]; exact hg⟩
      · simp at hg
    have hval : ∀ l ∈ s.trail.take lim, t.value l = s.value l := by
      intro l hl
      unfold Solver.value
      rw [(e1 l.var).2 (hdisj l hl)]
    have hlev : ∀ x, t.level x = s.level x := by
      intro x
      unfold Solver.level
      rw [e2]
    have hlimb : ∀ b ∈ s.trail_lim.take k, b ≤ lim :=
      fun b hb => (lims_split hsorted hk).1 b (mem_take_succ hb)
    refine ⟨?_, ?_, ?_, ?_, ?_, ?_⟩
    · intro l hl
      rw [e3] at hl
      rw [hval l hl]
      exact hs.allTrue l (List.mem_of_mem_take hl)
    · intro v hv
      by_cases hd : v ∈ (s.trail.drop lim).map Lit.var
      · exact absurd ((e1 v).1 hd) hv
      · rw [(e1 v).2 hd] at hv
        obtain ⟨l, hl, rfl⟩ := hs.onTrail v hv
        rw [← List.take_append_drop lim s.trail] at hl
        rcases List.mem_append.mp hl with h1 | h1
        · exact ⟨l, by rw [e3]; exact h1, rfl⟩
        · exact absurd (List.mem_map_of_mem _ h1) hd
    · rw [e3]
      exact (List.nodup_append.mp hnd).1
    · rw [e4]
      exact hsorted.sublist (List.take_sublist _ _)
    · intro b hb
      rw [e4] at hb
      rw [e3, List.length_take]
      have := hlimb b hb
      simp only [le_min_iff]
      omega
    · intro i l hg
      obtain ⟨hi, hg2⟩ := hget_take i l hg
      rw [hlev, e4, levelAt_take_of_lt hsorted hk hi]
      exact hs.levels i l hg2
  · rw [cancelUntil_of_le s k (by omega)]
    exact hs

/-- The function `cancelUntil` keeps the invariant on the decisions. -/
theorem cancelUntil_decisionsOK {s : Solver} (k : Nat) (hs : DecisionsOK s) :
    DecisionsOK (cancelUntil s k) := by
  by_cases hlt : k < s.decisionLevel
  · refine ⟨cancelUntil_trailOK k hs.trail, ?_⟩
    obtain ⟨_, _, _, e2, e1⟩ := cancelUntil_fields s k hlt
    have e5 := scalars_assumptions (cancelUntil_scalars s k)
    intro l hv hr hl hle
    unfold Solver.reason at hr
    unfold Solver.level at hl hle
    rw [e2] at hr hl hle
    rw [e5] at hle ⊢
    refine hs.decisions l ?_ hr hl hle
    by_cases hd : l.var ∈ (s.trail.drop (s.trail_lim.getD k 0)).map Lit.var
    · exfalso
      have := (e1 l.var).1 hd
      unfold Solver.value at hv
      rw [this] at hv
      cases hb : l.sign <;> rw [hb] at hv <;> simp [lbool.xor] at hv
    · unfold Solver.value at hv ⊢
      rw [← (e1 l.var).2 hd]
      exact hv
  · rw [cancelUntil_of_le s k (by omega)]
    exact hs

/-- The function `simplify` keeps the agreement of the trail and the assignment, and
runs at level 0 only. -/
theorem simplify_trailOK {o : Oracle} {s t : Solver} {b : Bool}
    (h : simplify o s = some (b, t)) (hs : TrailOK s) :
    TrailOK t ∧ t.decisionLevel = 0 := by
  obtain ⟨hl, h0⟩ := simplify_trail_lim h
  refine ⟨?_, by unfold Solver.decisionLevel at h0 ⊢; rw [hl]; exact h0⟩
  unfold simplify at h
  split at h
  · simp at h
  · split at h
    · simp only [Option.some.injEq, Prod.mk.injEq] at h
      rw [← h.2]
      exact hs.trail_of_fields rfl rfl rfl rfl
    · split at h
      · simp at h
      · next c s1 hp =>
        simp only [Option.some.injEq, Prod.mk.injEq] at h
        rw [← h.2]
        exact ((propagate_ext hp).trailOK hs).trail_of_fields rfl rfl rfl rfl
      · next s1 hp =>
        have h1 : TrailOK s1 := (propagate_ext hp).trailOK hs
        split at h
        · simp only [Option.some.injEq, Prod.mk.injEq] at h
          rw [← h.2]
          exact h1
        · split at h
          · simp at h
          · next l2 s2 hL1 =>
            obtain ⟨f1, _⟩ := removeSatisfiedLoop_spec _ _ _ _ _ hL1
            dsimp only at h
            split at h
            · simp at h
            · next u2 s4 hL2 =>
              obtain ⟨f2, _⟩ := removeSatisfiedLoop_spec _ _ _ _ _ hL2
              have h2 : TrailOK s2 := h1.of_db f1
              have h3 : TrailOK { s2 with learnts := l2 } :=
                h2.trail_of_fields rfl rfl rfl rfl
              have h4 : TrailOK s4 := h3.of_db f2
              have h5 : TrailOK { s4 with unaryWatchedClauses := u2 } :=
                h4.trail_of_fields rfl rfl rfl rfl
              split at h
              · simp at h
              · next s7 hr =>
                simp only [Option.some.injEq, Prod.mk.injEq] at h
                rw [← h.2]
                have g := checkGarbage_frame o s7
                have h7 : TrailOK s7 := by
                  split at hr
                  · split at hr
                    · simp at hr
                    · next c3 s6 hL3 =>
                      simp only [Option.some.injEq] at hr
                      obtain ⟨f3, _⟩ := removeSatisfiedLoop_spec _ _ _ _ _ hL3
                      rw [← hr]
                      exact (h5.of_db f3).trail_of_fields rfl rfl rfl rfl
                  · simp only [Option.some.injEq] at hr
                    rw [← hr]
                    exact h5
                exact h7.trail_of_fields g.1 g.2.1 g.2.2.2.2.1 g.2.2.2.2.2.1

/-- The function `reduceDB` writes neither the assignment, the reasons and levels nor
the trail. -/
theorem reduceDB_assigns {o : Oracle} {s t : Solver} (hne : s.learnts ≠ [])
    (h : reduceDB o s = some t) :
    t.assigns = s.assigns ∧ t.vardata = s.vardata ∧ t.trail = s.trail ∧
      t.trail_lim = s.trail_lim := by
  obtain ⟨mid, last, S2, kept, t4, _, _, a1, a2, _, _, _, a3, a4, _, hloop, hred⟩ :=
    reduceDB_parts o s hne
  obtain ⟨kept1, t1, hloop1, f, fv, _⟩ :=
    reduceDBLoop_db (sortLearnts o s) 0 ((sortLearnts o s).length / 2) [] S2
  rw [hloop] at hloop1
  simp only [Option.some.injEq, Prod.mk.injEq] at hloop1
  obtain ⟨_, rfl⟩ := hloop1
  rw [hred] at h
  simp only [Option.some.injEq] at h
  subst h
  have g := checkGarbage_frame o { t4 with learnts := kept }
  refine ⟨g.1.trans (f.assigns.trans a1), g.2.1.trans (fv.trans a2),
    g.2.2.2.2.1.trans (f.trail.trans a3), g.2.2.2.2.2.1.trans (f.trail_lim.trans a4)⟩

/-- The reduce-DB step of `search` keeps the invariant on the decisions. -/
theorem reduceStep_decisionsOK {o : Oracle} {s t : Solver} (h : reduceStep o s = some t)
    (hs : DecisionsOK s) :
    DecisionsOK t ∧ t.trail_lim = s.trail_lim ∧ t.assumptions = s.assumptions ∧
      t.conflict = s.conflict := by
  unfold reduceStep at h
  split at h
  · split at h
    · next hpos =>
      split at h
      · simp at h
      · dsimp only at h
        split at h
        · simp at h
        · next s2 hr =>
          simp only [Option.some.injEq] at h
          subst h
          have hne : ({ s with curRestart :=
              s.stats.conflicts / s.nbclausesbeforereduce + 1 } : Solver).learnts ≠ [] := by
            intro e
            have e2 : s.learnts = [] := e
            rw [e2] at hpos
            simp at hpos
          obtain ⟨b1, b2, b3, b4⟩ := reduceDB_assigns hne hr
          have b5 := scalars_assumptions (reduceDB_scalars hr)
          have b6 := reduceDB_conflict hr
          exact ⟨hs.dec_of_fields b1 b2 b3 b4 b5, b4, b5, b6⟩
    · simp only [Option.some.injEq] at h
      subst h
      exact ⟨hs, rfl, rfl, rfl⟩
  · simp only [Option.some.injEq] at h
    subst h
    exact ⟨hs, rfl, rfl, rfl⟩

/-! ## The final conflict -/

/-- The loop of `analyzeFinal` appends to the output only negations of literals of its
list that have no reason and a level above 0; it writes neither the assignment, the
reasons and levels nor the trail. -/
theorem analyzeFinalLoop_spec : ∀ (ls out : List Lit) (s : Solver) (out1 : List Lit)
    (t : Solver), analyzeFinalLoop ls out s = some (out1, t) →
    t.assigns = s.assigns ∧ t.vardata = s.vardata ∧ t.trail = s.trail ∧
      t.trail_lim = s.trail_lim ∧
      ∃ ext, out1 = out ++ ext ∧
        ∀ q ∈ ext, ∃ l ∈ ls, q = l.neg ∧ s.reason l.var = none ∧ 0 < s.level l.var := by
  intro ls
  induction ls with
  | nil =>
    intro out s out1 t h
    simp only [analyzeFinalLoop, Option.some.injEq, Prod.mk.injEq] at h
    obtain ⟨rfl, rfl⟩ := h
    exact ⟨rfl, rfl, rfl, rfl, [], by simp, by simp⟩
  | cons l rest ih =>
    intro out s out1 t h
    rw [analyzeFinalLoop] at h
    dsimp only at h
    split at h
    · split at h
      · next hr =>
        split at h
        · next hlv =>
          obtain ⟨a1, a2, a3, a4, ext, he, hx⟩ := ih _ _ _ _ h
          refine ⟨a1, a2, a3, a4, l.neg :: ext, by rw [he]; simp, ?_⟩
          intro q hq
          rcases List.mem_cons.mp hq with rfl | hq
          · exact ⟨l, List.mem_cons_self _ _, rfl, hr, hlv⟩
          · obtain ⟨l2, hl2, e, r2, v2⟩ := hx q hq
            exact ⟨l2, List.mem_cons_of_mem _ hl2, e, r2, v2⟩
        · simp at h
      · obtain ⟨a1, a2, a3, a4, ext, he, hx⟩ := ih _ _ _ _ h
        refine ⟨a1, a2, a3, a4, ext, he, ?_⟩
        intro q hq
        obtain ⟨l2, hl2, e, r2, v2⟩ := hx q hq
        exact ⟨l2, List.mem_cons_of_mem _ hl2, e, r2, v2⟩
    · obtain ⟨a1, a2, a3, a4, ext, he, hx⟩ := ih _ _ _ _ h
      refine ⟨a1, a2, a3, a4, ext, he, ?_⟩
      intro q hq
      obtain ⟨l2, hl2, e, r2, v2⟩ := hx q hq
      exact ⟨l2, List.mem_cons_of_mem _ hl2, e, r2, v2⟩

/-- The function `analyzeFinal(p, conflict)`: the vector starts with `p`, every other
element is the negation of a trail literal without reason at a level above 0, and at
level 0 the vector is `[p]`. -/
theorem analyzeFinal_spec {s t : Solver} {p : Lit} (h : analyzeFinal s p = some t) :
    t.assigns = s.assigns ∧ t.vardata = s.vardata ∧ t.trail = s.trail ∧
      t.trail_lim = s.trail_lim ∧
      ∃ rest, t.conflict = p :: rest ∧
        (∀ q ∈ rest, ∃ l ∈ s.trail, q = l.neg ∧ s.reason l.var = none ∧ 0 < s.level l.var) ∧
        (s.decisionLevel = 0 → rest = []) := by
  unfold analyzeFinal at h
  split at h
  · simp only [Option.some.injEq] at h
    subst h
    exact ⟨rfl, rfl, rfl, rfl, [], rfl, by simp, fun _ => rfl⟩
  · next hdl =>
    dsimp only at h
    split at h
    · simp at h
    · next out s2 h2 =>
      simp only [Option.some.injEq] at h
      subst h
      obtain ⟨a1, a2, a3, a4, ext, he, hx⟩ := analyzeFinalLoop_spec _ _ _ _ _ h2
      refine ⟨a1, a2, a3, a4, ext, by rw [he]; rfl, ?_, fun e => absurd e hdl⟩
      intro q hq
      obtain ⟨l, hl, e, r, v⟩ := hx q hq
      exact ⟨l, List.mem_of_mem_drop (List.mem_reverse.mp hl), e, r, v⟩

/-- The loop of `search` over the assumptions: the state in which it stops has the
assignment, the reasons, the levels and the trail of the state at its start, and the
invariant on the decisions; when it stops on an assumption `p`, the current level is
below the number of assumptions. -/
theorem assumeLoop_spec : ∀ (ps : List Lit) (s : Solver)
    (r : Solver ⊕ (Option Lit × Solver)), DecisionsOK s → assumeLoop ps s = some r →
    ∃ u, DecisionsOK u ∧ u.assigns = s.assigns ∧ u.vardata = s.vardata ∧
      u.trail = s.trail ∧ u.assumptions = s.assumptions ∧ u.conflict = s.conflict ∧
      (match r with
        | Sum.inl t => ∃ p ∈ ps, u.value p = lbool.l_False ∧
            analyzeFinal u p.neg = some t ∧ u.decisionLevel < s.decisionLevel + ps.length
        | Sum.inr (some p, t) => t = u ∧ p ∈ ps ∧ u.value p = lbool.l_Undef ∧
            u.decisionLevel < s.decisionLevel + ps.length
        | Sum.inr (none, t) => t = u ∧ u.decisionLevel = s.decisionLevel + ps.length) := by
  intro ps
  induction ps with
  | nil =>
    intro s r hs h
    simp only [assumeLoop, Option.some.injEq] at h
    subst h
    exact ⟨s, hs, rfl, rfl, rfl, rfl, rfl, rfl, rfl⟩
  | cons p rest ih =>
    intro s r hs h
    rw [assumeLoop] at h
    split at h
    · obtain ⟨u, hu, a1, a2, a3, a4, a5, hm⟩ := ih _ _ (newDecisionLevel_decisionsOK hs) h
      have hdl : s.newDecisionLevel.decisionLevel = s.decisionLevel + 1 := by
        simp [Solver.newDecisionLevel, Solver.decisionLevel]
      refine ⟨u, hu, a1, a2, a3, a4, a5, ?_⟩
      rcases r with t | ⟨_ | q, t⟩
      · obtain ⟨q, hq, b1, b2, b3⟩ := hm
        refine ⟨q, List.mem_cons_of_mem _ hq, b1, b2, ?_⟩
        rw [hdl] at b3
        simp only [List.length_cons]
        omega
      · obtain ⟨b1, b2⟩ := hm
        refine ⟨b1, ?_⟩
        rw [hdl] at b2
        simp only [List.length_cons]
        omega
      · obtain ⟨b1, b2, b3, b4⟩ := hm
        refine ⟨b1, List.mem_cons_of_mem _ b2, b3, ?_⟩
        rw [hdl] at b4
        simp only [List.length_cons]
        omega
    · next hnt =>
      split at h
      · next hf =>
        split at h
        · simp at h
        · next s1 h1 =>
          simp only [Option.some.injEq] at h
          subst h
          exact ⟨s, hs, rfl, rfl, rfl, rfl, rfl, p, List.mem_cons_self _ _, hf, h1,
            by simp⟩
      · next hnf =>
        simp only [Option.some.injEq] at h
        subst h
        refine ⟨s, hs, rfl, rfl, rfl, rfl, rfl, rfl, List.mem_cons_self _ _, ?_, by simp⟩
        cases hv : s.value p with
        | l_True => exact absurd hv hnt
        | l_False => exact absurd hv hnf
        | l_Undef => rfl

end Glucose


namespace Glucose

/-! ## The loop of `search` keeps the invariant on the decisions -/

/-- An enqueue keeps the invariant on the decisions when the literal has a reason, or is
enqueued at level 0, or at a level above the number of assumptions, or is an
assumption. -/
theorem uncheckedEnqueue_decisionsOK {s s1 : Solver} {p : Lit} {r : Option Nat}
    (h : uncheckedEnqueue s p r = some s1) (hs : DecisionsOK s)
    (hp : r = none → s.decisionLevel = 0 ∨ s.assumptions.length < s.decisionLevel ∨
      p ∈ s.assumptions) :
    DecisionsOK s1 ∧ s1.assumptions = s.assumptions ∧ s1.conflict = s.conflict := by
  have hT := (uncheckedEnqueue_ext h).trailOK hs.trail
  have hself := uncheckedEnqueue_value_self h
  obtain ⟨hu, he⟩ := uncheckedEnqueue_eq h
  have ea : s1.assigns = Function.update s.assigns p.var (lbool.ofBool (!p.sign)) := by
    rw [he]
  have ev : s1.vardata = Function.update s.vardata p.var ⟨r, s.decisionLevel⟩ := by
    rw [he]
  have eA : s1.assumptions = s.assumptions := by rw [he]
  have eC : s1.conflict = s.conflict := by rw [he]
  refine ⟨⟨hT, ?_⟩, eA, eC⟩
  intro l hv hr hl hle
  rw [eA] at hle ⊢
  by_cases e : l.var = p.var
  · have hlp : l = p := same_lit_of_true e hv hself
    subst hlp
    unfold Solver.reason at hr
    unfold Solver.level at hl hle
    rw [ev, Function.update_same] at hr hl hle
    dsimp only at hr hl hle
    rcases hp hr with h0 | h1 | h2
    · omega
    · omega
    · exact h2
  · refine hs.decisions l ?_ ?_ ?_ ?_
    · unfold Solver.value at hv ⊢
      rw [ea, Function.update_noteq e] at hv
      exact hv
    · unfold Solver.reason at hr ⊢
      rw [ev, Function.update_noteq e] at hr
      exact hr
    · unfold Solver.level at hl ⊢
      rw [ev, Function.update_noteq e] at hl
      exact hl
    · unfold Solver.level at hle ⊢
      rw [ev, Function.update_noteq e] at hle
      exact hle

/-- A learnt clause of one literal comes with the backtrack level 0. -/
theorem analyzeFinish_unit {s : Solver} {out sel : List Lit} {r : AnalyzeResult}
    (h : analyzeFinish s out sel = some r) (l : Lit) (hl : r.out_learnt = [l]) :
    r.out_btlevel = 0 := by
  unfold analyzeFinish at h
  dsimp only at h
  split at h
  · simp at h
  · next out2 btlevel hbt =>
    split at h
    · simp at h
    · next s2 hb =>
      simp only [Option.some.injEq] at h
      subst h
      dsimp only at hl ⊢
      split at hbt
      · simp at hbt
      · simp only [Option.some.injEq, Prod.mk.injEq] at hbt
        exact hbt.2.symm
      · next o0 o1 rest =>
        exfalso
        split at hbt
        · simp at hbt
        · split at hbt
          · simp at hbt
          · simp only [Option.some.injEq, Prod.mk.injEq] at hbt
            have hlen := congrArg List.length hbt.1
            rw [hl] at hlen
            simp at hlen

theorem analyze_unit {s : Solver} {confl : Nat} {r : AnalyzeResult}
    (h : analyze s confl = some r) (l : Lit) (hl : r.out_learnt = [l]) :
    r.out_btlevel = 0 := by
  unfold analyze at h
  split at h
  · simp at h
  · split at h
    · simp at h
    · exact analyzeFinish_unit h l hl

/-- The installation of the learnt clause keeps the invariant on the decisions, a unit
being enqueued at level 0. -/
theorem installLearnt_decisionsOK {r : AnalyzeResult} {s t : Solver}
    (h : installLearnt r s = some t) (hs : DecisionsOK s)
    (hu : ∀ l, r.out_learnt = [l] → s.decisionLevel = 0) :
    DecisionsOK t ∧ t.assumptions = s.assumptions ∧ t.conflict = s.conflict := by
  unfold installLearnt at h
  split at h
  · simp at h
  · next l hl =>
    split at h
    · simp at h
    · next s1 h1 =>
      obtain ⟨d1, d2, d3⟩ :=
        uncheckedEnqueue_decisionsOK h1 hs (fun _ => Or.inl (hu l hl))
      simp only [Option.some.injEq] at h
      subst h
      exact ⟨d1.dec_of_fields rfl rfl rfl rfl rfl, d2, d3⟩
  · dsimp only at h
    split at h
    · simp at h
    · next l x ls hl s2 h2 =>
      obtain ⟨a1, a2, a3, a4, a5, a6⟩ := attachClause_assigns h2
      have hs2 : DecisionsOK { s2 with lastLearntClause := some s.caSize } :=
        hs.dec_of_fields a1 a2 a3 a4 a5
      obtain ⟨d1, d2, d3⟩ := uncheckedEnqueue_decisionsOK h hs2 (fun e => by cases e)
      exact ⟨d1, d2.trans a5, d3.trans a6⟩

/-- The conflict branch of `search` keeps the invariant on the decisions and does not
write the final conflict. -/
theorem searchConflict_decisionsOK {confl conflictC : Nat} {blocked : Bool} {s : Solver}
    {out : SearchStep} (h : searchConflict confl conflictC blocked s = some out)
    (hs : DecisionsOK s) :
    DecisionsOK out.state ∧ out.state.assumptions = s.assumptions ∧
      out.state.conflict = s.conflict := by
  unfold searchConflict at h
  dsimp only at h
  split at h
  · simp only [Option.some.injEq] at h
    rw [← h]
    exact ⟨hs.dec_of_fields rfl rfl rfl rfl rfl, rfl, rfl⟩
  · split at h
    · simp at h
    · next r hr =>
      have hb : ∀ u : Solver, (blockRestartStep blocked u).core = u.core ∧
          (blockRestartStep blocked u).assumptions = u.assumptions := by
        intro u
        unfold blockRestartStep
        split
        · dsimp only
          split <;> exact ⟨rfl, rfl⟩
        · exact ⟨rfl, rfl⟩
      obtain ⟨hb1, hb2⟩ := hb { countConflict s with
          trailQueue := (countConflict s).trailQueue.push (countConflict s).trail.length }
      obtain ⟨b1, b2, b3, b4, b5⟩ := core_fields hb1
      obtain ⟨c1, c2, c3, c4, c5⟩ := core_fields (analyze_core hr)
      have c6 := scalars_assumptions (analyze_scalars hr)
      have hs4 : DecisionsOK r.state :=
        hs.dec_of_fields (c1.trans b1) (c2.trans b2) (c3.trans b3) (c4.trans b4)
          (c6.trans hb2)
      have key : ∀ (S5 s9 : Solver), installLearnt r (cancelUntil S5 r.out_btlevel) = some s9 →
          S5.assigns = r.state.assigns → S5.vardata = r.state.vardata →
          S5.trail = r.state.trail → S5.trail_lim = r.state.trail_lim →
          S5.assumptions = r.state.assumptions → S5.conflict = r.state.conflict →
            DecisionsOK s9 ∧ s9.assumptions = s.assumptions ∧ s9.conflict = s.conflict := by
        intro S5 s9 h9 g1 g2 g3 g4 g5 g6
        have hs5 : DecisionsOK S5 := hs4.dec_of_fields g1 g2 g3 g4 g5
        have hs6 := cancelUntil_decisionsOK r.out_btlevel hs5
        have e6a := scalars_assumptions (cancelUntil_scalars S5 r.out_btlevel)
        have e6c := cancelUntil_conflict S5 r.out_btlevel
        have hu : ∀ l, r.out_learnt = [l] →
            (cancelUntil S5 r.out_btlevel).decisionLevel = 0 := by
          intro l hl
          have h0 := analyze_unit hr l hl
          rw [h0]
          by_cases hlt : 0 < S5.decisionLevel
          · exact cancelUntil_decisionLevel S5 0 hlt
          · rw [cancelUntil_of_le S5 0 (by omega)]
            omega
        obtain ⟨d1, d2, d3⟩ := installLearnt_decisionsOK h9 hs6 hu
        exact ⟨d1, d2.trans (e6a.trans (g5.trans (c6.trans hb2))),
          d3.trans (e6c.trans (g6.trans (c5.trans b5)))⟩
      split at h
      · simp at h
      · next s9 h9 =>
        simp only [Option.some.injEq] at h
        rw [← h]
        exact key _ s9 h9 rfl rfl rfl rfl rfl rfl

/-- The decision heuristic keeps the invariant on the decisions. -/
theorem pickBranchLit_decisionsOK {o : Oracle} {s : Solver} {r : Option Lit × Solver}
    (h : pickBranchLit o s = some r) (hs : DecisionsOK s) :
    DecisionsOK r.2 ∧ r.2.assumptions = s.assumptions ∧ r.2.conflict = s.conflict ∧
      r.2.trail_lim = s.trail_lim := by
  obtain ⟨c1, c2, c3, c4, c5⟩ := core_fields (pickBranchLit_core h)
  have c6 := scalars_assumptions (pickBranchLit_scalars h)
  exact ⟨hs.dec_of_fields c1 c2 c3 c4 c6, c6, c5, c4⟩

theorem countDecision_decisionsOK {s t : Solver} {next : Lit}
    (h : countDecision s next = some t) (hs : DecisionsOK s) :
    DecisionsOK t ∧ t.assumptions = s.assumptions ∧ t.conflict = s.conflict ∧
      t.trail_lim = s.trail_lim := by
  obtain ⟨c1, c2, c3, c4, c5⟩ := core_fields (countDecision_core h)
  have c6 := scalars_assumptions (countDecision_scalars h)
  exact ⟨hs.dec_of_fields c1 c2 c3 c4 c6, c6, c5, c4⟩

/-- The restart of `search` keeps the invariant on the decisions. -/
theorem restart_decisionsOK {s : Solver} (S1 : Solver) (k : Nat) (hs : DecisionsOK s)
    (g1 : S1.assigns = s.assigns) (g2 : S1.vardata = s.vardata) (g3 : S1.trail = s.trail)
    (g4 : S1.trail_lim = s.trail_lim) (g5 : S1.assumptions = s.assumptions)
    (g6 : S1.conflict = s.conflict) :
    DecisionsOK (cancelUntil S1 k) ∧ (cancelUntil S1 k).assumptions = s.assumptions ∧
      (cancelUntil S1 k).conflict = s.conflict :=
  ⟨cancelUntil_decisionsOK k (hs.dec_of_fields g1 g2 g3 g4 g5),
    (scalars_assumptions (cancelUntil_scalars S1 k)).trans g5,
    (cancelUntil_conflict S1 k).trans g6⟩

/-- The loop of `search` over the assumptions, started at the position of the current
level in a state with the invariant on the decisions: when it stops on a false
assumption the final conflict is over the assumptions; when it stops on an unassigned
assumption, that assumption is next; when it runs to the end, the level is at least the
number of assumptions. -/
theorem assumeLoop_final {s : Solver} {r : Solver ⊕ (Option Lit × Solver)}
    (hs : DecisionsOK s) (h : assumeLoop (s.assumptions.drop s.decisionLevel) s = some r) :
    (match r with
      | Sum.inl t => DecisionsOK t ∧ t.assumptions = s.assumptions ∧
          FinalConflict s.assumptions t
      | Sum.inr (some p, t) => DecisionsOK t ∧ t.assumptions = s.assumptions ∧
          t.conflict = s.conflict ∧ p ∈ s.assumptions ∧ t.value p = lbool.l_Undef
      | Sum.inr (none, t) => DecisionsOK t ∧ t.assumptions = s.assumptions ∧
          t.conflict = s.conflict ∧ s.assumptions.length ≤ t.decisionLevel) := by
  obtain ⟨u, hu, a1, a2, a3, a4, a5, hm⟩ := assumeLoop_spec _ _ _ hs h
  rcases r with t | ⟨_ | p, t⟩
  · obtain ⟨p, hp, hf, hfin, hlev⟩ := hm
    obtain ⟨f1, f2, f3, f4, rest, hc, hall, hzero⟩ := analyzeFinal_spec hfin
    have f5 := scalars_assumptions (analyzeFinal_scalars hfin)
    have hlen : 0 < (s.assumptions.drop s.decisionLevel).length := List.length_pos_of_mem hp
    rw [List.length_drop] at hlen hlev
    refine ⟨hu.dec_of_fields f1 f2 f3 f4 f5, f5.trans a4, p, rest,
      List.mem_of_mem_drop hp, ?_, hc, ?_, ?_⟩
    · unfold Solver.value at hf ⊢
      rw [f1]
      exact hf
    · intro q hq
      obtain ⟨l, hl, e, hr, hv⟩ := hall q hq
      refine ⟨l, e, ?_, by rw [f3]; exact hl, ?_, ?_⟩
      · rw [← a4]
        refine hu.decisions l (hu.trail.allTrue l hl) hr hv ?_
        have h1 := hu.trail.toLevelsOK l.var
          (assigned_of_value (by rw [hu.trail.allTrue l hl]; simp))
        rw [a4]
        omega
      · unfold Solver.reason at hr ⊢
        rw [f2]
        exact hr
      · unfold Solver.level at hv ⊢
        rw [f2]
        exact hv
    · intro h0
      apply hzero
      unfold Solver.decisionLevel at h0 ⊢
      rw [← f4]
      exact h0
  · obtain ⟨rfl, hlev⟩ := hm
    refine ⟨hu, a4, a5, ?_⟩
    rw [List.length_drop] at hlev
    omega
  · obtain ⟨rfl, hp, hv, _⟩ := hm
    exact ⟨hu, a4, a5, List.mem_of_mem_drop hp, hv⟩

/-- The branch without conflict of `search` keeps the invariant on the decisions; it
writes the final conflict only when it returns `l_False` on a false assumption. -/
theorem searchNoConflict_decisionsOK {o : Oracle} {conflictC : Nat} {blocked : Bool}
    {s : Solver} {out : SearchStep} (h : searchNoConflict o conflictC blocked s = some out)
    (hs : DecisionsOK s) :
    DecisionsOK out.state ∧ out.state.assumptions = s.assumptions ∧
      (out.state.conflict = s.conflict ∨
        ∃ t, out = SearchStep.done lbool.l_False t ∧ FinalConflict s.assumptions t) := by
  unfold searchNoConflict at h
  split at h
  · simp only [Option.some.injEq] at h
    rw [← h]
    obtain ⟨k1, k2, k3⟩ := restart_decisionsOK { s with lbdQueue := s.lbdQueue.fastclear }
      (restartLevel { s with lbdQueue := s.lbdQueue.fastclear }) hs rfl rfl rfl rfl rfl rfl
    exact ⟨k1, k2, Or.inl k3⟩
  · dsimp only at h
    split at h
    · simp at h
    · next s1 h1 =>
      split at h1
      · obtain ⟨t1, t2⟩ := simplify_trailOK h1 hs.trail
        have t3 := scalars_assumptions (simplify_scalars h1)
        have t4 := simplify_conflict h1
        simp only [Option.some.injEq] at h
        rw [← h]
        exact ⟨DecisionsOK.of_level_zero t1 t2, t3, Or.inl t4⟩
      · simp at h1
    · next s1 h1 =>
      have e1 : DecisionsOK s1 ∧ s1.assumptions = s.assumptions ∧ s1.conflict = s.conflict := by
        split at h1
        · obtain ⟨t1, t2⟩ := simplify_trailOK h1 hs.trail
          exact ⟨DecisionsOK.of_level_zero t1 t2,
            scalars_assumptions (simplify_scalars h1), simplify_conflict h1⟩
        · simp only [Option.some.injEq, Prod.mk.injEq] at h1
          rw [← h1.2]
          exact ⟨hs, rfl, rfl⟩
      obtain ⟨e1d, e1a, e1c⟩ := e1
      split at h
      · simp at h
      · next s2 h2 =>
        obtain ⟨e2d, _, e2a, e2c⟩ := reduceStep_decisionsOK h2 e1d
        have hs3 : DecisionsOK ({ s2 with lastLearntClause := none } : Solver) :=
          e2d.dec_of_fields rfl rfl rfl rfl rfl
        have e3a : s2.assumptions = s.assumptions := e2a.trans e1a
        have e3c : s2.conflict = s.conflict := e2c.trans e1c
        split at h
        · simp at h
        · next s4 h4 =>
          have hf := assumeLoop_final hs3 h4
          dsimp only at hf
          obtain ⟨f1, f2, f3⟩ := hf
          simp only [Option.some.injEq] at h
          rw [← h]
          refine ⟨f1, f2.trans e3a, Or.inr ⟨s4, rfl, ?_⟩⟩
          rw [← e3a]
          exact f3
        · next p s4 h4 =>
          have hf := assumeLoop_final hs3 h4
          dsimp only at hf
          obtain ⟨f1, f2, f3, f4, f5⟩ := hf
          split at h
          · simp at h
          · next s5 h5 =>
            obtain ⟨d1, d2, d3⟩ := uncheckedEnqueue_decisionsOK h5
              (newDecisionLevel_decisionsOK f1)
              (fun _ => Or.inr (Or.inr (by
                show p ∈ s4.assumptions
                rw [f2]
                exact f4)))
            simp only [Option.some.injEq] at h
            rw [← h]
            exact ⟨d1, d2.trans (f2.trans e3a), Or.inl (d3.trans (f3.trans e3c))⟩
        · next s4 h4 =>
          have hf := assumeLoop_final hs3 h4
          dsimp only at hf
          obtain ⟨f1, f2, f3, f4⟩ := hf
          have f2s : s4.assumptions = s.assumptions := f2.trans e3a
          have f3s : s4.conflict = s.conflict := f3.trans e3c
          have f4s : s4.assumptions.length ≤ s4.decisionLevel := by
            rw [f2]
            exact f4
          split at h
          · simp at h
          · next s6 h6 =>
            obtain ⟨p1, p2, p3, p4⟩ := pickBranchLit_decisionsOK h6
              (f1.dec_of_fields rfl rfl rfl rfl rfl)
            simp only [Option.some.injEq] at h
            rw [← h]
            exact ⟨p1, p2.trans f2s, Or.inl (p3.trans f3s)⟩
          · next nx s6 h6 =>
            obtain ⟨p1, p2, p3, p4⟩ := pickBranchLit_decisionsOK h6
              (f1.dec_of_fields rfl rfl rfl rfl rfl)
            split at h
            · simp at h
            · next s7 h7 =>
              obtain ⟨q1, q2, q3, q4⟩ := countDecision_decisionsOK h7 p1
              split at h
              · simp at h
              · next s8 h8 =>
                have hl7 : s7.decisionLevel = s4.decisionLevel := by
                  unfold Solver.decisionLevel
                  rw [q4]
                  exact congrArg List.length p4
                have ha7 : s7.assumptions = s4.assumptions := q2.trans p2
                obtain ⟨d1, d2, d3⟩ := uncheckedEnqueue_decisionsOK h8
                  (newDecisionLevel_decisionsOK q1)
                  (fun _ => Or.inr (Or.inl (by
                    show s7.assumptions.length < (s7.trail_lim ++ [s7.trail.length]).length
                    rw [List.length_append, ha7]
                    unfold Solver.decisionLevel at hl7 f4s
                    rw [hl7]
                    simp only [List.length_singleton]
                    omega)))
                simp only [Option.some.injEq] at h
                rw [← h]
                exact ⟨d1, d2.trans (ha7.trans f2s),
                  Or.inl (d3.trans ((q3.trans p3).trans f3s))⟩

/-- One iteration of the loop of `search` keeps the invariant on the decisions; it
writes the final conflict only when it returns `l_False` on a false assumption. -/
theorem searchStep_decisionsOK {o : Oracle} {conflictC : Nat} {blocked : Bool}
    {s : Solver} {out : SearchStep} (h : searchStep o conflictC blocked s = some out)
    (hs : DecisionsOK s) :
    DecisionsOK out.state ∧ out.state.assumptions = s.assumptions ∧
      (out.state.conflict = s.conflict ∨
        ∃ t, out = SearchStep.done lbool.l_False t ∧ FinalConflict s.assumptions t) := by
  unfold searchStep at h
  split at h
  · simp at h
  · next confl s1 hp =>
    have h1 : DecisionsOK s1 := propagate_decisionsOK hp hs
    have a1 : s1.assumptions = s.assumptions := scalars_assumptions (propagate_scalars hp)
    have c1 : s1.conflict = s.conflict := propagate_conflict hp
    obtain ⟨d1, d2, d3⟩ := searchConflict_decisionsOK h h1
    exact ⟨d1, d2.trans a1, Or.inl (d3.trans c1)⟩
  · next s1 hp =>
    have h1 : DecisionsOK s1 := propagate_decisionsOK hp hs
    have a1 : s1.assumptions = s.assumptions := scalars_assumptions (propagate_scalars hp)
    have c1 : s1.conflict = s.conflict := propagate_conflict hp
    obtain ⟨d1, d2, d3⟩ := searchNoConflict_decisionsOK h h1
    refine ⟨d1, d2.trans a1, ?_⟩
    rcases d3 with d3 | ⟨t, e, f⟩
    · exact Or.inl (d3.trans c1)
    · right
      refine ⟨t, e, ?_⟩
      rw [← a1]
      exact f

/-- The loop of `search` keeps the invariant on the decisions; the final conflict is
either the one at the start or, with the answer `l_False`, a conflict over the
assumptions. -/
theorem searchLoop_decisionsOK (o : Oracle) : ∀ (fuel conflictC : Nat) (blocked : Bool)
    (s : Solver) (r : lbool) (t : Solver), DecisionsOK s →
    searchLoop o fuel conflictC blocked s = some (r, t) →
    DecisionsOK t ∧ t.assumptions = s.assumptions ∧
      (t.conflict = s.conflict ∨ (r = lbool.l_False ∧ FinalConflict s.assumptions t)) := by
  intro fuel
  induction fuel with
  | zero => intro c b s r t _ h; simp [searchLoop] at h
  | succ fuel ih =>
    intro c b s r t hs h
    rw [searchLoop] at h
    cases hst : searchStep o c b s with
    | none => rw [hst] at h; simp at h
    | some out =>
      rw [hst] at h
      obtain ⟨d1, d2, d3⟩ := searchStep_decisionsOK hst hs
      cases out with
      | done res s1 =>
        simp only [Option.some.injEq, Prod.mk.injEq] at h
        obtain ⟨rfl, rfl⟩ := h
        refine ⟨d1, d2, ?_⟩
        rcases d3 with d3 | ⟨u, e, f⟩
        · exact Or.inl d3
        · simp only [SearchStep.done.injEq] at e
          obtain ⟨rfl, rfl⟩ := e
          exact Or.inr ⟨rfl, f⟩
      | next c1 b1 s1 =>
        have d1s : DecisionsOK s1 := d1
        have d2s : s1.assumptions = s.assumptions := d2
        have d3s : s1.conflict = s.conflict := by
          rcases d3 with d3 | ⟨u, e, _⟩
          · exact d3
          · cases e
        obtain ⟨i1, i2, i3⟩ := ih c1 b1 s1 r t d1s h
        refine ⟨i1, i2.trans d2s, ?_⟩
        rcases i3 with i3 | ⟨e, f⟩
        · exact Or.inl (i3.trans d3s)
        · right
          refine ⟨e, ?_⟩
          rw [← d2s]
          exact f

end Glucose


namespace Glucose

/-! ## Conflict analysis and the reducer do not write the order heap -/

theorem computeLBDCore_heap (s : Solver) (lits : List Lit) (b : Int) :
    (computeLBDCore s lits b).2.order_heap = s.order_heap := rfl

theorem swapBinary_heap {s t : Solver} {cr : Nat} (h : swapBinary s cr = some t) :
    t.order_heap = s.order_heap := by
  unfold swapBinary at h
  split at h
  · split at h
    · split at h
      · simp only [Option.some.injEq] at h; rw [← h]; rfl
      · simp at h
    · simp only [Option.some.injEq] at h; rw [← h]
  · simp only [Option.some.injEq] at h; rw [← h]

theorem analyzeClause_heap {s t : Solver} {cr : Nat} {p : Option Lit}
    (h : analyzeClause s cr p = some t) : t.order_heap = s.order_heap := by
  unfold analyzeClause at h
  cases hs : (if p.isSome then swapBinary s cr else some s) with
  | none => rw [hs] at h; simp at h
  | some s1 =>
    rw [hs] at h
    have e1 : s1.order_heap = s.order_heap := by
      split at hs
      · exact swapBinary_heap hs
      · simp only [Option.some.injEq] at hs; rw [← hs]
    dsimp only at h
    have e2 : ∀ u : Solver, u = (if (s1.ca cr).learnt = true then s1
        else if (s1.ca cr).seen = false then
          { s1 with
            stats := { s1.stats with
              originalClausesSeen := s1.stats.originalClausesSeen + 1 },
            ca := Function.update s1.ca cr { s1.ca cr with seen := true } }
        else s1) → u.order_heap = s1.order_heap := by
      intro u hu
      rw [hu]
      split
      · rfl
      · split <;> rfl
    generalize hu : (if (s1.ca cr).learnt = true then s1
        else if (s1.ca cr).seen = false then
          { s1 with
            stats := { s1.stats with
              originalClausesSeen := s1.stats.originalClausesSeen + 1 },
            ca := Function.update s1.ca cr { s1.ca cr with seen := true } }
        else s1) = u at h
    have e3 := e2 u hu.symm
    split at h
    · split at h
      · simp only [Option.some.injEq] at h
        rw [← h]
        exact ((rfl : _ = (computeLBDClause u (u.ca cr)).2.order_heap).trans
          (computeLBDCore_heap _ _ _)).trans (e3.trans e1)
      · simp only [Option.some.injEq] at h
        rw [← h]
        exact (computeLBDCore_heap _ _ _).trans (e3.trans e1)
    · simp only [Option.some.injEq] at h
      rw [← h]
      exact e3.trans e1

theorem analyzeLit_heap {s : Solver} {q : Lit} {pathC : Int} {out sel : List Lit}
    {r : Solver × Int × List Lit × List Lit}
    (h : analyzeLit s q pathC out sel = some r) : r.1.order_heap = s.order_heap := by
  unfold analyzeLit at h
  have e1 : (if s.isSelector q.var = false then
          if s.highcenter q.var = true ∧ s.stats.decisions < 100000 then
            s.varBumpActivity q.var true
          else s.varBumpActivity q.var false
        else s).order_heap = s.order_heap := by
    split
    · split <;> rfl
    · rfl
  generalize (if s.isSelector q.var = false then
          if s.highcenter q.var = true ∧ s.stats.decisions < 100000 then
            s.varBumpActivity q.var true
          else s.varBumpActivity q.var false
        else s) = u at h e1
  split at h
  · split at h
    · simp only [Option.some.injEq] at h; rw [← h]
    · dsimp only at h
      split at h
      · split at h <;> (simp only [Option.some.injEq] at h; rw [← h]; exact e1)
      · split at h
        · split at h
          · simp only [Option.some.injEq] at h; rw [← h]; exact e1
          · simp at h
        · simp only [Option.some.injEq] at h; rw [← h]; exact e1
  · simp only [Option.some.injEq] at h; rw [← h]

theorem analyzeLits_heap : ∀ (qs : List Lit) (s : Solver) (pathC : Int)
    (out sel : List Lit) (r : Solver × Int × List Lit × List Lit),
    analyzeLits qs s pathC out sel = some r → r.1.order_heap = s.order_heap := by
  intro qs
  induction qs with
  | nil =>
    intro s pathC out sel r h
    simp only [analyzeLits, Option.some.injEq] at h
    rw [← h]
  | cons q qs ih =>
    intro s pathC out sel r h
    rw [analyzeLits] at h
    split at h
    · simp at h
    · next s1 p1 o1 sl1 h1 =>
      exact (ih _ _ _ _ _ h).trans (analyzeLit_heap h1)

theorem analyzeWalk_heap : ∀ (k : Nat) (s : Solver) (pathC : Int)
    (out sel : List Lit) (r : Solver × Lit × List Lit × List Lit),
    analyzeWalk k s pathC out sel = some r → r.1.order_heap = s.order_heap := by
  intro k
  induction k with
  | zero => intro s pathC out sel r h; simp [analyzeWalk] at h
  | succ k ih =>
    intro s pathC out sel r h
    rw [analyzeWalk] at h
    split at h
    · simp at h
    · next p hp =>
      split at h
      · dsimp only at h
        split at h
        · split at h
          · simp at h
          · next cr hcr =>
            split at h
            · simp at h
            · next s2 h2 =>
              split at h
              · simp at h
              · next s3 p3 o3 sl3 h3 =>
                exact ((ih _ _ _ _ _ h).trans (analyzeLits_heap _ _ _ _ _ _ h3)).trans
                  ((analyzeClause_heap h2).trans rfl)
        · simp only [Option.some.injEq] at h; rw [← h]
      · exact ih _ _ _ _ _ h

theorem analyzeResolve_heap {s : Solver} {confl : Nat}
    {r : Solver × Lit × List Lit × List Lit}
    (h : analyzeResolve s confl = some r) : r.1.order_heap = s.order_heap := by
  unfold analyzeResolve at h
  split at h
  · simp at h
  · next s1 h1 =>
    split at h
    · simp at h
    · next s2 p2 o2 sl2 h2 =>
      exact ((analyzeWalk_heap _ _ _ _ _ _ h).trans
        (analyzeLits_heap _ _ _ _ _ _ h2)).trans (analyzeClause_heap h1)

theorem redundantLits_heap (abs : List Nat) : ∀ (ps : List Lit) (s : Solver),
    (redundantLits abs ps s).2.order_heap = s.order_heap := by
  intro ps
  induction ps with
  | nil => intro s; rfl
  | cons p ps ih =>
    intro s
    rw [redundantLits]
    split
    · split
      · exact (ih _).trans rfl
      · rfl
    · exact ih s

theorem litRedundantLoop_heap (abs : List Nat) (top : Nat) : ∀ (fuel : Nat) (s : Solver)
    (r : Bool × Solver), litRedundantLoop abs top fuel s = some r →
    r.2.order_heap = s.order_heap := by
  intro fuel
  induction fuel with
  | zero => intro s r h; simp [litRedundantLoop] at h
  | succ fuel ih =>
    intro s r h
    rw [litRedundantLoop] at h
    split at h
    · simp only [Option.some.injEq] at h; rw [← h]
    · next q hq =>
      split at h
      · simp at h
      · next cr hcr =>
        dsimp only at h
        split at h
        · simp at h
        · next s2 h2 =>
          have e2 : s2.order_heap = s.order_heap := (swapBinary_heap h2).trans rfl
          have e3 := redundantLits_heap abs ((s2.ca cr).lits.drop 1) s2
          split at h
          · next s3 h3 =>
            rw [h3] at e3
            exact (ih _ _ h).trans (e3.trans e2)
          · next s3 h3 =>
            rw [h3] at e3
            simp only [Option.some.injEq] at h
            rw [← h]
            exact e3.trans e2

theorem litRedundant_heap {s : Solver} {p : Lit} {abs : List Nat} {r : Bool × Solver}
    (h : litRedundant s p abs = some r) : r.2.order_heap = s.order_heap :=
  (litRedundantLoop_heap _ _ _ _ _ h).trans rfl

theorem minimizeDeep_heap (abs : List Nat) : ∀ (ls kept : List Lit) (s : Solver)
    (r : List Lit × Solver), minimizeDeep abs ls kept s = some r →
    r.2.order_heap = s.order_heap := by
  intro ls
  induction ls with
  | nil =>
    intro kept s r h
    simp only [minimizeDeep, Option.some.injEq] at h
    rw [← h]
  | cons l ls ih =>
    intro kept s r h
    rw [minimizeDeep] at h
    split at h
    · exact ih _ _ _ h
    · split at h
      · simp at h
      · next s1 h1 => exact (ih _ _ _ h).trans (litRedundant_heap h1)
      · next s1 h1 => exact (ih _ _ _ h).trans (litRedundant_heap h1)

theorem minimisationWithBinaryResolution_heap {s : Solver} {out : List Lit}
    {r : List Lit × Solver} (h : minimisationWithBinaryResolution s out = some r) :
    r.2.order_heap = s.order_heap := by
  unfold minimisationWithBinaryResolution at h
  dsimp only at h
  split at h
  · simp at h
  · split at h
    · split at h
      · split at h
        · simp at h
        · split at h
          · simp only [Option.some.injEq] at h; rw [← h]; rfl
          · simp at h
      · simp only [Option.some.injEq] at h; rw [← h]; rfl
    · simp only [Option.some.injEq] at h; rw [← h]; rfl

theorem analyzeMinimize_heap {s : Solver} {p : Lit} {out sel : List Lit}
    {r : List Lit × Solver} (h : analyzeMinimize s p out sel = some r) :
    r.2.order_heap = s.order_heap := by
  unfold analyzeMinimize at h
  dsimp only at h
  split at h
  · simp at h
  · next kept s2 h2 =>
    have e2 : s2.order_heap = s.order_heap := by
      split at h2
      · exact (minimizeDeep_heap _ _ _ _ _ h2).trans rfl
      · split at h2
        · simp only [Option.some.injEq, Prod.mk.injEq] at h2; rw [← h2.2]
        · simp only [Option.some.injEq, Prod.mk.injEq] at h2; rw [← h2.2]
    split at h
    · exact (minimisationWithBinaryResolution_heap h).trans (Eq.trans rfl e2)
    · simp only [Option.some.injEq] at h; rw [← h]; exact Eq.trans rfl e2

theorem bumpLastDecisionLevel_heap (lbd : Nat) : ∀ (qs : List Lit) (s t : Solver),
    bumpLastDecisionLevel lbd qs s = some t → t.order_heap = s.order_heap := by
  intro qs
  induction qs with
  | nil =>
    intro s t h
    simp only [bumpLastDecisionLevel, Option.some.injEq] at h
    rw [← h]
  | cons q qs ih =>
    intro s t h
    rw [bumpLastDecisionLevel] at h
    split at h
    · simp at h
    · split at h
      · exact (ih _ _ h).trans rfl
      · exact ih _ _ h

theorem analyzeFinish_heap {s : Solver} {out sel : List Lit} {r : AnalyzeResult}
    (h : analyzeFinish s out sel = some r) : r.state.order_heap = s.order_heap := by
  unfold analyzeFinish at h
  dsimp only at h
  split at h
  · simp at h
  · next out2 bt hbt =>
    split at h
    · simp at h
    · next s2 h2 =>
      simp only [Option.some.injEq] at h
      rw [← h]
      exact Eq.trans rfl ((bumpLastDecisionLevel_heap _ _ _ _ h2).trans
        (computeLBDCore_heap _ _ _))

/-- The function `analyze` does not write the order heap. -/
theorem analyze_heap {s : Solver} {confl : Nat} {r : AnalyzeResult}
    (h : analyze s confl = some r) : r.state.order_heap = s.order_heap := by
  unfold analyze at h
  split at h
  · simp at h
  · next s1 p out sel h1 =>
    split at h
    · simp at h
    · next ol s2 h2 =>
      exact ((analyzeFinish_heap h).trans (analyzeMinimize_heap h2)).trans
        (analyzeResolve_heap h1)

theorem detachClause_heap {s t : Solver} {cr : Nat} {strict : Bool}
    (h : detachClause s cr strict = some t) : t.order_heap = s.order_heap := by
  unfold detachClause at h
  dsimp only at h
  split at h
  · next c0 c1 rest hl =>
    split at h
    · simp at h
    · next s2 h2 =>
      have e2 : s2.order_heap = s.order_heap := by
        split at h2
        · split at h2
          · split at h2
            · simp at h2
            · split at h2
              · simp at h2
              · simp only [Option.some.injEq] at h2; rw [← h2]
          · simp only [Option.some.injEq] at h2; rw [← h2]
        · split at h2
          · split at h2
            · simp at h2
            · split at h2
              · simp at h2
              · simp only [Option.some.injEq] at h2; rw [← h2]
          · simp only [Option.some.injEq] at h2; rw [← h2]
      simp only [Option.some.injEq] at h
      rw [← h]
      split <;> exact e2
  · simp at h

theorem detachClausePurgatory_heap {s t : Solver} {cr : Nat} {strict : Bool}
    (h : detachClausePurgatory s cr strict = some t) : t.order_heap = s.order_heap := by
  unfold detachClausePurgatory at h
  split at h
  · split at h
    · split at h
      · simp at h
      · simp only [Option.some.injEq] at h; rw [← h]
    · simp only [Option.some.injEq] at h; rw [← h]
  · simp at h

theorem removeClause_heap {s t : Solver} {cr : Nat} {b : Bool}
    (h : removeClause s cr b = some t) : t.order_heap = s.order_heap := by
  unfold removeClause at h
  split at h
  · simp at h
  · next s1 h1 =>
    have e1 : s1.order_heap = s.order_heap := by
      split at h1
      · exact detachClausePurgatory_heap h1
      · exact detachClause_heap h1
    simp only [Option.some.injEq] at h
    rw [← h]
    refine Eq.trans ?_ e1
    split
    · split <;> rfl
    · rfl

theorem checkGarbage_heap (o : Oracle) (s : Solver) :
    (checkGarbage o s).order_heap = s.order_heap := by
  unfold checkGarbage
  dsimp only
  split <;> rfl

theorem reduceDBLoop_heap : ∀ (sorted : List Nat) (i limit : Nat) (kept : List Nat)
    (s : Solver) (r : List Nat × Solver),
    reduceDBLoop sorted i limit kept s = some r → r.2.order_heap = s.order_heap := by
  intro sorted
  induction sorted with
  | nil =>
    intro i limit kept s r h
    simp only [reduceDBLoop, Option.some.injEq] at h
    rw [← h]
  | cons cr rest ih =>
    intro i limit kept s r h
    rw [reduceDBLoop] at h
    dsimp only at h
    split at h
    · split at h
      · simp at h
      · next s1 h1 =>
        have e1 : s1.order_heap = s.order_heap := removeClause_heap h1
        exact (ih _ _ _ _ _ h).trans (Eq.trans rfl e1)
    · exact (ih _ _ _ _ _ h).trans rfl

theorem reduceDBSpecial_heap (s : Solver) (mid last : Nat) :
    (reduceDBSpecial s mid last).order_heap = s.order_heap := by
  unfold reduceDBSpecial
  dsimp only
  split <;> split <;> rfl

/-- The function `reduceDB` does not write the order heap. -/
theorem reduceDB_heap {o : Oracle} {s t : Solver} (h : reduceDB o s = some t) :
    t.order_heap = s.order_heap := by
  unfold reduceDB at h
  dsimp only at h
  split at h
  · next mid last _ _ =>
    split at h
    · simp at h
    · next kept s4 h4 =>
      simp only [Option.some.injEq] at h
      rw [← h]
      exact (checkGarbage_heap _ _).trans
        (Eq.trans rfl ((reduceDBLoop_heap _ _ _ _ _ _ h4).trans
          (reduceDBSpecial_heap _ _ _)))
  · simp at h

theorem countDecision_heap {s t : Solver} {next : Lit}
    (h : countDecision s next = some t) : t.order_heap = s.order_heap := by
  unfold countDecision at h
  dsimp only at h
  split at h
  · simp only [Option.some.injEq] at h; rw [← h]
  · simp at h

theorem analyzeFinalLoop_heap : ∀ (ls out : List Lit) (s : Solver)
    (r : List Lit × Solver),
    analyzeFinalLoop ls out s = some r → r.2.order_heap = s.order_heap := by
  intro ls
  induction ls with
  | nil =>
    intro out s r h
    simp only [analyzeFinalLoop, Option.some.injEq] at h
    rw [← h]
  | cons l rest ih =>
    intro out s r h
    rw [analyzeFinalLoop] at h
    dsimp only at h
    split at h
    · split at h
      · split at h
        · exact (ih _ _ _ h).trans rfl
        · simp at h
      · exact (ih _ _ _ h).trans rfl
    · exact ih _ _ _ h

theorem analyzeFinal_heap {s t : Solver} {p : Lit} (h : analyzeFinal s p = some t) :
    t.order_heap = s.order_heap := by
  unfold analyzeFinal at h
  split at h
  · simp only [Option.some.injEq] at h; rw [← h]
  · dsimp only at h
    split at h
    · simp at h
    · next out s2 h2 =>
      simp only [Option.some.injEq] at h
      rw [← h]
      exact Eq.trans rfl ((analyzeFinalLoop_heap _ _ _ _ h2).trans rfl)

theorem assumeLoop_heap : ∀ (ps : List Lit) (s : Solver)
    (r : Solver ⊕ (Option Lit × Solver)), assumeLoop ps s = some r →
    (match r with
      | Sum.inl t => t.order_heap = s.order_heap
      | Sum.inr (_, t) => t.order_heap = s.order_heap) := by
  intro ps
  induction ps with
  | nil =>
    intro s r h
    simp only [assumeLoop, Option.some.injEq] at h
    rw [← h]
  | cons p rest ih =>
    intro s r h
    rw [assumeLoop] at h
    split at h
    · have := ih _ _ h
      cases r with
      | inl t => exact this.trans rfl
      | inr x => exact this.trans rfl
    · split at h
      · split at h
        · simp at h
        · next s1 h1 =>
          simp only [Option.some.injEq] at h
          rw [← h]
          exact analyzeFinal_heap h1
      · simp only [Option.some.injEq] at h
        rw [← h]

theorem analyzeFinalLoop_assignment : ∀ (ls out : List Lit) (s : Solver)
    (r : List Lit × Solver),
    analyzeFinalLoop ls out s = some r → r.2.assigns = s.assigns := by
  intro ls
  induction ls with
  | nil =>
    intro out s r h
    simp only [analyzeFinalLoop, Option.some.injEq] at h
    rw [← h]
  | cons l rest ih =>
    intro out s r h
    rw [analyzeFinalLoop] at h
    dsimp only at h
    split at h
    · split at h
      · split at h
        · exact (ih _ _ _ h).trans rfl
        · simp at h
      · exact (ih _ _ _ h).trans rfl
    · exact ih _ _ _ h

theorem analyzeFinal_assignment {s t : Solver} {p : Lit} (h : analyzeFinal s p = some t) :
    t.assigns = s.assigns := by
  unfold analyzeFinal at h
  split at h
  · simp only [Option.some.injEq] at h; rw [← h]
  · dsimp only at h
    split at h
    · simp at h
    · next out s2 h2 =>
      simp only [Option.some.injEq] at h
      rw [← h]
      exact Eq.trans rfl ((analyzeFinalLoop_assignment _ _ _ _ h2).trans rfl)

theorem assumeLoop_assignment : ∀ (ps : List Lit) (s : Solver)
    (r : Solver ⊕ (Option Lit × Solver)), assumeLoop ps s = some r →
    (match r with
      | Sum.inl t => t.assigns = s.assigns
      | Sum.inr (_, t) => t.assigns = s.assigns) := by
  intro ps
  induction ps with
  | nil =>
    intro s r h
    simp only [assumeLoop, Option.some.injEq] at h
    rw [← h]
  | cons p rest ih =>
    intro s r h
    rw [assumeLoop] at h
    split at h
    · have := ih _ _ h
      cases r with
      | inl t => exact this.trans rfl
      | inr x => exact this.trans rfl
    · split at h
      · split at h
        · simp at h
        · next s1 h1 =>
          simp only [Option.some.injEq] at h
          rw [← h]
          exact analyzeFinal_assignment h1
      · simp only [Option.some.injEq] at h
        rw [← h]

end Glucose


namespace Glucose

/-! ## The order heap holds every unassigned decision variable -/

/-- What `pickBranchLit` has done when it returns: the assignment, the eligibility and
the saved polarities are not written; a literal returned is on an unassigned decision
variable; without a literal the heap is empty; the heap loses only variables that cannot
be decided, and the variable returned. -/
theorem pickBranchLit_facts {o : Oracle} {s : Solver} {r : Option Lit} {t : Solver}
    (h : pickBranchLit o s = some (r, t)) :
    t.assigns = s.assigns ∧ t.decision = s.decision ∧ t.polarity = s.polarity ∧
      (∀ l, r = some l → s.valueVar l.var = lbool.l_Undef ∧ s.decision l.var = true ∧
        (s.opts.rnd_pol = false → l.sign = s.polarity l.var)) ∧
      (r = none → t.order_heap = []) ∧
      (∀ x ∈ s.order_heap, x ∉ t.order_heap →
        (∃ l, r = some l ∧ l.var = x) ∨ s.valueVar x ≠ lbool.l_Undef ∨
          s.decision x = false) ∧
      (∀ x ∈ t.order_heap, x ∈ s.order_heap) := by
  have hpick : ∀ x, s.notPickable (some x) = false →
      s.valueVar x = lbool.l_Undef ∧ s.decision x = true := by
    intro x hx
    unfold Solver.notPickable at hx
    simp only [Bool.or_eq_false_iff, decide_eq_false_iff_not, not_not,
      Bool.not_eq_false'] at hx
    exact hx
  have hnot : ∀ x, s.notPickable (some x) = true →
      s.valueVar x ≠ lbool.l_Undef ∨ s.decision x = false := by
    intro x hx
    unfold Solver.notPickable at hx
    simp only [Bool.or_eq_true, decide_eq_true_eq, Bool.not_eq_true'] at hx
    exact hx
  -- the choice of the sign
  have hC : ∀ pr : Option Nat × Solver,
      (pr.2.assigns = s.assigns ∧ pr.2.decision = s.decision ∧ pr.2.polarity = s.polarity ∧
      pr.2.opts = s.opts ∧
      (∀ x, pr.1 = some x → s.notPickable (some x) = false) ∧
      (pr.1 = none → pr.2.order_heap = []) ∧
      (∀ x ∈ s.order_heap, x ∉ pr.2.order_heap →
        pr.1 = some x ∨ s.notPickable (some x) = true) ∧
      (∀ x ∈ pr.2.order_heap, x ∈ s.order_heap)) →
      ∃ r t,
        (match pr.1 with
          | none => some (none, pr.2)
          | some x =>
            if pr.2.opts.rnd_pol = true then
              some (some (mkLit x (Frac.lt (o.drand pr.2.tick) (Frac.ratio 1 2))),
                { pr.2 with tick := pr.2.tick + 1 })
            else some (some (mkLit x (pr.2.polarity x)), pr.2)) = some (r, t) ∧
        t.assigns = s.assigns ∧ t.decision = s.decision ∧ t.polarity = s.polarity ∧
        (∀ l, r = some l → s.valueVar l.var = lbool.l_Undef ∧ s.decision l.var = true ∧
          (s.opts.rnd_pol = false → l.sign = s.polarity l.var)) ∧
        (r = none → t.order_heap = []) ∧
        (∀ x ∈ s.order_heap, x ∉ t.order_heap →
          (∃ l, r = some l ∧ l.var = x) ∨ s.valueVar x ≠ lbool.l_Undef ∨
            s.decision x = false) ∧
        (∀ x ∈ t.order_heap, x ∈ s.order_heap) := by
    rintro pr ⟨b1, b2, b3, b4, b5, b6, b7, b8⟩
    cases hp1 : pr.1 with
    | none =>
      dsimp only
      refine ⟨none, pr.2, rfl, b1, b2, b3, fun l hl => Option.noConfusion hl,
        fun _ => b6 hp1, ?_, b8⟩
      intro x hx hnx
      rcases b7 x hx hnx with h | h
      · rw [hp1] at h; cases h
      · exact Or.inr (hnot x h)
    | some x =>
      dsimp only
      have hxok := hpick x (b5 x hp1)
      split
      · next hrp =>
        refine ⟨_, _, rfl, b1, b2, b3, ?_, fun h => Option.noConfusion h, ?_, b8⟩
        · intro l hl
          simp only [Option.some.injEq] at hl
          subst hl
          refine ⟨hxok.1, hxok.2, ?_⟩
          intro hf
          rw [b4, hf] at hrp
          cases hrp
        · intro y hy hny
          rcases b7 y hy hny with h | h
          · left
            rw [hp1] at h
            simp only [Option.some.injEq] at h
            exact ⟨_, rfl, h⟩
          · exact Or.inr (hnot y h)
      · refine ⟨_, _, rfl, b1, b2, b3, ?_, fun h => Option.noConfusion h, ?_, b8⟩
        · intro l hl
          simp only [Option.some.injEq] at hl
          subst hl
          refine ⟨hxok.1, hxok.2, ?_⟩
          intro _
          show pr.2.polarity x = s.polarity x
          rw [b3]
        · intro y hy hny
          rcases b7 y hy hny with h | h
          · left
            rw [hp1] at h
            simp only [Option.some.injEq] at h
            exact ⟨_, rfl, h⟩
          · exact Or.inr (hnot y h)
  unfold pickBranchLit at h
  dsimp only at h
  split at h
  · simp at h
  · next next0 s2 heq =>
    have hs2 : s2.assigns = s.assigns ∧ s2.decision = s.decision ∧
        s2.polarity = s.polarity ∧ s2.order_heap = s.order_heap ∧ s2.opts = s.opts := by
      split at heq
      · split at heq
        · simp at heq
        · simp only [Option.some.injEq, Prod.mk.injEq] at heq
          rw [← heq.2]
          split <;> exact ⟨rfl, rfl, rfl, rfl, rfl⟩
      · simp only [Option.some.injEq, Prod.mk.injEq] at heq
        rw [← heq.2]
        exact ⟨rfl, rfl, rfl, rfl, rfl⟩
    obtain ⟨a1, a2, a3, a4, a5⟩ := hs2
    have hnp : ∀ x, s2.notPickable x = s.notPickable x := by
      intro x
      unfold Solver.notPickable Solver.valueVar
      rw [a1, a2]
    have hB : ∀ pr : Option Nat × Solver,
        pr = (if s2.notPickable next0 = true then
          ((pickLoop s2 (heapOrder o s2)).1,
            { s2 with order_heap := (pickLoop s2 (heapOrder o s2)).2, tick := s2.tick + 1 })
        else (next0, s2)) →
        pr.2.assigns = s.assigns ∧ pr.2.decision = s.decision ∧ pr.2.polarity = s.polarity ∧
        pr.2.opts = s.opts ∧
        (∀ x, pr.1 = some x → s.notPickable (some x) = false) ∧
        (pr.1 = none → pr.2.order_heap = []) ∧
        (∀ x ∈ s.order_heap, x ∉ pr.2.order_heap →
          pr.1 = some x ∨ s.notPickable (some x) = true) ∧
        (∀ x ∈ pr.2.order_heap, x ∈ s.order_heap) := by
      intro pr hpr
      rw [hpr]
      split
      · obtain ⟨pre, e, h1, h2, h3⟩ := pickLoop_spec s2 (heapOrder o s2)
        have hmem : ∀ x, x ∈ s.order_heap ↔
            x ∈ pre ∨ x ∈ (pickLoop s2 (heapOrder o s2)).1.toList ∨
              x ∈ (pickLoop s2 (heapOrder o s2)).2 := by
          intro x
          rw [← a4, ← (heapOrder_perm o s2).mem_iff]
          conv_lhs => rw [e]
          simp only [List.mem_append, or_assoc]
        refine ⟨a1, a2, a3, a5, ?_, h3, ?_, ?_⟩
        · intro x hx
          rw [← hnp]
          exact h2 x hx
        · intro x hx hnx
          rcases (hmem x).mp hx with h | h | h
          · right
            rw [← hnp]
            exact h1 x h
          · left
            simpa [Option.mem_toList] using h
          · exact absurd h hnx
        · intro x hx
          exact (hmem x).mpr (Or.inr (Or.inr hx))
      · next hc =>
        refine ⟨a1, a2, a3, a5, ?_, ?_, ?_, ?_⟩
        · intro x hx
          dsimp only at hx
          rw [hx, hnp] at hc
          simpa using hc
        · intro hx
          dsimp only at hx
          rw [hx] at hc
          simp [Solver.notPickable] at hc
        · intro x hx hnx
          dsimp only at hnx
          rw [a4] at hnx
          exact absurd hx hnx
        · intro x hx
          dsimp only at hx
          rw [a4] at hx
          exact hx
    obtain ⟨r2, t2, e, facts⟩ := hC _ (hB _ rfl)
    have e2 : some (r2, t2) = some (r, t) := e.symm.trans h
    simp only [Option.some.injEq, Prod.mk.injEq] at e2
    obtain ⟨rfl, rfl⟩ := e2
    exact facts

theorem scalars_vars {s t : Solver} (h : t.scalars = s.scalars) :
    t.nVars = s.nVars ∧ t.decision = s.decision := by
  simp only [Solver.scalars, Prod.mk.injEq] at h
  exact ⟨h.1, h.2.2.2.2.1⟩

/-- The invariant of the heap is kept when no variable loses its value, the heap loses
no variable, and the variables and their eligibility are the same. -/
theorem HeapOK.heap_of_fields {s t : Solver} (h : HeapOK s) (h1 : t.nVars = s.nVars)
    (h2 : t.decision = s.decision)
    (h3 : ∀ v, t.assigns v = lbool.l_Undef → s.assigns v = lbool.l_Undef)
    (h4 : ∀ v ∈ s.order_heap, v ∈ t.order_heap) : HeapOK t := by
  intro v hv hd ha
  rw [h1] at hv
  rw [h2] at hd
  exact h4 v (h v hv hd (h3 v ha))

theorem HeapOK.heap_of_eqs {s t : Solver} (h : HeapOK s) (h1 : t.scalars = s.scalars)
    (h3 : t.assigns = s.assigns) (h4 : t.order_heap = s.order_heap) : HeapOK t := by
  obtain ⟨a, b⟩ := scalars_vars h1
  exact h.heap_of_fields a b (fun v hv => by rw [← h3]; exact hv)
    (fun v hv => by rw [h4]; exact hv)

theorem propagate_heapOK {s : Solver} {r : Option Nat × Solver} (h : propagate s = some r)
    (hs : HeapOK s) : HeapOK r.2 := by
  obtain ⟨a, b⟩ := scalars_vars (propagate_scalars h)
  have hl := propagate_lists h
  simp only [Solver.lists, Prod.mk.injEq] at hl
  refine hs.heap_of_fields a b ?_ (fun v hv => by rw [hl.2.2.2.1]; exact hv)
  intro v hv
  by_contra hc
  rw [(propagate_ext h).assigns v hc] at hv
  exact hc hv

theorem uncheckedEnqueue_heapOK {s s1 : Solver} {p : Lit} {r : Option Nat}
    (h : uncheckedEnqueue s p r = some s1) (hs : HeapOK s) : HeapOK s1 := by
  obtain ⟨_, rfl⟩ := uncheckedEnqueue_eq h
  refine hs.heap_of_fields rfl rfl ?_ (fun v hv => hv)
  intro v hv
  by_cases e : v = p.var
  · subst e
    dsimp only at hv
    rw [Function.update_same] at hv
    cases hb : p.sign <;> rw [hb] at hv <;> simp [lbool.ofBool] at hv
  · dsimp only at hv
    rw [Function.update_noteq e] at hv
    exact hv

theorem insertVarOrder_heap_mem (s : Solver) (x : Nat) :
    (∀ v ∈ s.order_heap, v ∈ (s.insertVarOrder x).order_heap) ∧
      (s.decision x = true → x ∈ (s.insertVarOrder x).order_heap) ∧
      (s.insertVarOrder x).decision = s.decision := by
  unfold Solver.insertVarOrder
  split
  · next hc =>
    exact ⟨fun v hv => List.mem_append_left _ hv, fun _ => by simp, rfl⟩
  · next hc =>
    refine ⟨fun v hv => hv, ?_, rfl⟩
    intro hd
    by_contra hx
    exact hc ⟨hx, hd⟩

theorem cancelLoop_heap_mem (lastLim : Nat) : ∀ (removed : List (Nat × Lit)) (s : Solver),
    (∀ v ∈ s.order_heap, v ∈ (cancelLoop lastLim removed s).order_heap) ∧
      (∀ v ∈ removed.map (fun x => x.2.var), s.decision v = true →
        v ∈ (cancelLoop lastLim removed s).order_heap) ∧
      (cancelLoop lastLim removed s).decision = s.decision := by
  intro removed
  induction removed with
  | nil => intro s; exact ⟨fun v hv => hv, fun v hv => by simp at hv, rfl⟩
  | cons x rest ih =>
    intro s
    obtain ⟨c, l⟩ := x
    rw [cancelLoop]
    dsimp only
    have key : ∀ S2 : Solver, S2.order_heap = s.order_heap → S2.decision = s.decision →
        (∀ v ∈ s.order_heap, v ∈ (cancelLoop lastLim rest (S2.insertVarOrder l.var)).order_heap) ∧
        (∀ v ∈ ((c, l) :: rest).map (fun x => x.2.var), s.decision v = true →
          v ∈ (cancelLoop lastLim rest (S2.insertVarOrder l.var)).order_heap) ∧
        (cancelLoop lastLim rest (S2.insertVarOrder l.var)).decision = s.decision := by
      intro S2 e1 e2
      obtain ⟨i1, i2, i3⟩ := insertVarOrder_heap_mem S2 l.var
      obtain ⟨j1, j2, j3⟩ := ih (S2.insertVarOrder l.var)
      refine ⟨?_, ?_, ?_⟩
      · intro v hv
        rw [← e1] at hv
        exact j1 v (i1 v hv)
      · intro v hv hd
        simp only [List.map_cons, List.mem_cons] at hv
        rcases hv with rfl | hv
        · rw [← e2] at hd
          exact j1 _ (i2 hd)
        · apply j2 v hv
          rw [i3, e2]
          exact hd
      · rw [j3, i3, e2]
    apply key
    · split <;> rfl
    · split <;> rfl

/-- The function `cancelUntil` puts the variables it unassigns back in the heap. -/
theorem cancelUntil_heapOK {s : Solver} (k : Nat) (hs : HeapOK s) :
    HeapOK (cancelUntil s k) := by
  by_cases hlt : k < s.decisionLevel
  · obtain ⟨_, _, _, _, e1⟩ := cancelUntil_fields s k hlt
    obtain ⟨a, b⟩ := scalars_vars (cancelUntil_scalars s k)
    obtain ⟨c1, c2, _⟩ := cancelLoop_heap_mem (s.trail_lim.getLastD 0)
      (((s.trail.enum).drop (s.trail_lim.getD k 0)).reverse) s
    have hheap : (cancelUntil s k).order_heap = (cancelLoop (s.trail_lim.getLastD 0)
        (((s.trail.enum).drop (s.trail_lim.getD k 0)).reverse) s).order_heap := by
      unfold cancelUntil
      rw [if_pos hlt]
    intro v hv hd ha
    rw [a] at hv
    rw [b] at hd
    rw [hheap]
    by_cases hm : v ∈ (s.trail.drop (s.trail_lim.getD k 0)).map Lit.var
    · exact c2 v ((removed_vars _ _ _).mpr hm) hd
    · rw [(e1 v).2 hm] at ha
      exact c1 v (hs v hv hd ha)
  · rw [cancelUntil_of_le s k (by omega)]
    exact hs

/-- The function `simplify` keeps the invariant of the heap. -/
theorem simplify_heapOK {o : Oracle} {s t : Solver} {b : Bool}
    (h : simplify o s = some (b, t)) (hs : HeapOK s) : HeapOK t := by
  unfold simplify at h
  split at h
  · simp at h
  · split at h
    · simp only [Option.some.injEq, Prod.mk.injEq] at h
      rw [← h.2]
      exact hs.heap_of_eqs rfl rfl rfl
    · split at h
      · simp at h
      · next c s1 hp =>
        simp only [Option.some.injEq, Prod.mk.injEq] at h
        rw [← h.2]
        exact (propagate_heapOK hp hs).heap_of_eqs rfl rfl rfl
      · next s1 hp =>
        have h1 : HeapOK s1 := propagate_heapOK hp hs
        split at h
        · simp only [Option.some.injEq, Prod.mk.injEq] at h
          rw [← h.2]
          exact h1
        · split at h
          · simp at h
          · dsimp only at h
            split at h
            · simp at h
            · split at h
              · simp at h
              · next s7 hr =>
                simp only [Option.some.injEq, Prod.mk.injEq] at h
                rw [← h.2]
                intro v hv hd ha
                show v ∈ List.filter
                  (fun v => (checkGarbage o s7).decision v &&
                    decide ((checkGarbage o s7).valueVar v = lbool.l_Undef))
                  (List.range (checkGarbage o s7).nVars)
                rw [List.mem_filter]
                refine ⟨List.mem_range.mpr hv, ?_⟩
                simp only [Bool.and_eq_true, decide_eq_true_eq]
                exact ⟨hd, ha⟩

theorem installLearnt_heapOK {r : AnalyzeResult} {s t : Solver}
    (h : installLearnt r s = some t) (hs : HeapOK s) :
    HeapOK t ∧ t.nVars = s.nVars ∧ t.decision = s.decision := by
  unfold installLearnt at h
  split at h
  · simp at h
  · split at h
    · simp at h
    · next s1 h1 =>
      obtain ⟨a, b⟩ := scalars_vars (uncheckedEnqueue_scalars h1)
      simp only [Option.some.injEq] at h
      subst h
      exact ⟨(uncheckedEnqueue_heapOK h1 hs).heap_of_fields rfl rfl (fun _ hv => hv)
        (fun _ hv => hv), a, b⟩
  · dsimp only at h
    split at h
    · simp at h
    · next l x ls hl s2 h2 =>
      obtain ⟨a1, _⟩ := attachClause_assigns h2
      obtain ⟨a2, b2⟩ := scalars_vars (attachClause_scalars h2)
      have hl2 := attachClause_lists h2
      simp only [Solver.lists, Prod.mk.injEq] at hl2
      have hs2 : HeapOK { s2 with lastLearntClause := some s.caSize } :=
        hs.heap_of_fields a2 b2 (fun v hv => by rw [← a1]; exact hv)
          (fun v hv => by
            show v ∈ s2.order_heap
            rw [hl2.2.2.2.1]
            exact hv)
      obtain ⟨a3, b3⟩ := scalars_vars (uncheckedEnqueue_scalars h)
      exact ⟨uncheckedEnqueue_heapOK h hs2, a3.trans a2, b3.trans b2⟩

/-- The conflict branch of `search` keeps the invariant of the heap. -/
theorem searchConflict_heapOK {confl conflictC : Nat} {blocked : Bool} {s : Solver}
    {out : SearchStep} (h : searchConflict confl conflictC blocked s = some out)
    (hs : HeapOK s) :
    HeapOK out.state ∧ out.state.nVars = s.nVars ∧ out.state.decision = s.decision ∧
      ∀ t, out ≠ SearchStep.done lbool.l_True t := by
  unfold searchConflict at h
  dsimp only at h
  split at h
  · simp only [Option.some.injEq] at h
    rw [← h]
    exact ⟨hs.heap_of_fields rfl rfl (fun _ hv => hv) (fun _ hv => hv), rfl, rfl,
      fun t e => by cases e⟩
  · split at h
    · simp at h
    · next r hr =>
      have hb : ∀ u : Solver, (blockRestartStep blocked u).assigns = u.assigns ∧
          (blockRestartStep blocked u).order_heap = u.order_heap ∧
          (blockRestartStep blocked u).nVars = u.nVars ∧
          (blockRestartStep blocked u).decision = u.decision := by
        intro u
        unfold blockRestartStep
        split
        · dsimp only
          split <;> exact ⟨rfl, rfl, rfl, rfl⟩
        · exact ⟨rfl, rfl, rfl, rfl⟩
      obtain ⟨b1, b2, b3, b4⟩ := hb { countConflict s with
          trailQueue := (countConflict s).trailQueue.push (countConflict s).trail.length }
      obtain ⟨c1, _⟩ := core_fields (analyze_core hr)
      obtain ⟨c3, c4⟩ := scalars_vars (analyze_scalars hr)
      have c2 := analyze_heap hr
      have hs4 : HeapOK r.state :=
        hs.heap_of_fields (c3.trans b3) (c4.trans b4)
          (fun v hv => by rw [c1, b1] at hv; exact hv)
          (fun v hv => by rw [c2, b2]; exact hv)
      have key : ∀ (S5 s9 : Solver), installLearnt r (cancelUntil S5 r.out_btlevel) = some s9 →
          S5.assigns = r.state.assigns → S5.order_heap = r.state.order_heap →
          S5.nVars = r.state.nVars → S5.decision = r.state.decision →
          HeapOK s9 ∧ s9.nVars = s.nVars ∧ s9.decision = s.decision := by
        intro S5 s9 h9 g1 g2 g3 g4
        have hs5 : HeapOK S5 := hs4.heap_of_fields g3 g4
          (fun v hv => by rw [g1] at hv; exact hv) (fun v hv => by rw [g2]; exact hv)
        obtain ⟨d1, d2, d3⟩ := installLearnt_heapOK h9 (cancelUntil_heapOK r.out_btlevel hs5)
        obtain ⟨e1, e2⟩ := scalars_vars (cancelUntil_scalars S5 r.out_btlevel)
        exact ⟨d1, d2.trans (e1.trans (g3.trans (c3.trans b3))),
          d3.trans (e2.trans (g4.trans (c4.trans b4)))⟩
      split at h
      · simp at h
      · next s9 h9 =>
        simp only [Option.some.injEq] at h
        rw [← h]
        obtain ⟨k1, k2, k3⟩ := key _ s9 h9 rfl rfl rfl rfl
        exact ⟨k1, k2, k3, fun t e => by cases e⟩

/-- The reduce-DB step of `search` keeps the invariant of the heap. -/
theorem reduceStep_heapOK {o : Oracle} {s t : Solver} (h : reduceStep o s = some t)
    (hs : HeapOK s) : HeapOK t ∧ t.nVars = s.nVars ∧ t.decision = s.decision := by
  unfold reduceStep at h
  split at h
  · split at h
    · next hpos =>
      split at h
      · simp at h
      · dsimp only at h
        split at h
        · simp at h
        · next s2 hr =>
          simp only [Option.some.injEq] at h
          subst h
          have hne : ({ s with curRestart :=
              s.stats.conflicts / s.nbclausesbeforereduce + 1 } : Solver).learnts ≠ [] := by
            intro e
            have e2 : s.learnts = [] := e
            rw [e2] at hpos
            simp at hpos
          obtain ⟨b1, _⟩ := reduceDB_assigns hne hr
          obtain ⟨b2, b3⟩ := scalars_vars (reduceDB_scalars hr)
          have b4 := reduceDB_heap hr
          exact ⟨hs.heap_of_fields b2 b3 (fun v hv => by rw [b1] at hv; exact hv)
            (fun v hv => by
              show v ∈ s2.order_heap
              rw [b4]
              exact hv), b2, b3⟩
    · simp only [Option.some.injEq] at h
      subst h
      exact ⟨hs, rfl, rfl⟩
  · simp only [Option.some.injEq] at h
    subst h
    exact ⟨hs, rfl, rfl⟩

/-- The branch without conflict of `search` keeps the invariant of the heap, and when
it answers `l_True` every decision variable is assigned. -/
theorem searchNoConflict_heapOK {o : Oracle} {conflictC : Nat} {blocked : Bool}
    {s : Solver} {out : SearchStep} (h : searchNoConflict o conflictC blocked s = some out)
    (hs : HeapOK s) :
    HeapOK out.state ∧ out.state.nVars = s.nVars ∧ out.state.decision = s.decision ∧
      ∀ t, out = SearchStep.done lbool.l_True t →
        ∀ v, v < t.nVars → t.decision v = true → t.assigns v ≠ lbool.l_Undef := by
  unfold searchNoConflict at h
  split at h
  · simp only [Option.some.injEq] at h
    rw [← h]
    have key : ∀ (S1 : Solver) (k : Nat), S1.assigns = s.assigns →
        S1.order_heap = s.order_heap → S1.nVars = s.nVars → S1.decision = s.decision →
        HeapOK (cancelUntil S1 k) ∧ (cancelUntil S1 k).nVars = s.nVars ∧
          (cancelUntil S1 k).decision = s.decision := by
      intro S1 k g1 g2 g3 g4
      obtain ⟨e1, e2⟩ := scalars_vars (cancelUntil_scalars S1 k)
      exact ⟨cancelUntil_heapOK k (hs.heap_of_fields g3 g4
        (fun v hv => by rw [g1] at hv; exact hv) (fun v hv => by rw [g2]; exact hv)),
        e1.trans g3, e2.trans g4⟩
    obtain ⟨k1, k2, k3⟩ := key { s with lbdQueue := s.lbdQueue.fastclear }
      (restartLevel { s with lbdQueue := s.lbdQueue.fastclear }) rfl rfl rfl rfl
    exact ⟨k1, k2, k3, fun t e => by cases e⟩
  · dsimp only at h
    split at h
    · simp at h
    · next s1 h1 =>
      split at h1
      · obtain ⟨a, b⟩ := scalars_vars (simplify_scalars h1)
        have t1 := simplify_heapOK h1 hs
        simp only [Option.some.injEq] at h
        rw [← h]
        exact ⟨t1, a, b, fun t e => by cases e⟩
      · simp at h1
    · next s1 h1 =>
      have e1 : HeapOK s1 ∧ s1.nVars = s.nVars ∧ s1.decision = s.decision := by
        split at h1
        · obtain ⟨a, b⟩ := scalars_vars (simplify_scalars h1)
          exact ⟨simplify_heapOK h1 hs, a, b⟩
        · simp only [Option.some.injEq, Prod.mk.injEq] at h1
          rw [← h1.2]
          exact ⟨hs, rfl, rfl⟩
      obtain ⟨e1h, e1n, e1d⟩ := e1
      split at h
      · simp at h
      · next s2 h2 =>
        obtain ⟨e2h, e2n, e2d⟩ := reduceStep_heapOK h2 e1h
        have hs3 : HeapOK ({ s2 with lastLearntClause := none } : Solver) :=
          e2h.heap_of_fields rfl rfl (fun _ hv => hv) (fun _ hv => hv)
        have e3n : s2.nVars = s.nVars := e2n.trans e1n
        have e3d : s2.decision = s.decision := e2d.trans e1d
        have hloop : ∀ r, assumeLoop (s2.assumptions.drop s2.decisionLevel)
            ({ s2 with lastLearntClause := none } : Solver) = some r →
            ∀ u, (r = Sum.inl u ∨ ∃ p, r = Sum.inr (p, u)) →
              HeapOK u ∧ u.nVars = s.nVars ∧ u.decision = s.decision := by
          intro r hr u hu
          have f1 := assumeLoop_heap _ _ _ hr
          have f2 := assumeLoop_assignment _ _ _ hr
          have f3 := assumeLoop_scalars _ _ _ hr
          rcases hu with rfl | ⟨p, rfl⟩
          · dsimp only at f1 f2 f3
            obtain ⟨a, b⟩ := scalars_vars f3
            exact ⟨hs3.heap_of_eqs f3 f2 f1, a.trans e3n, b.trans e3d⟩
          · dsimp only at f1 f2 f3
            obtain ⟨a, b⟩ := scalars_vars f3
            exact ⟨hs3.heap_of_eqs f3 f2 f1, a.trans e3n, b.trans e3d⟩
        split at h
        · simp at h
        · next s4 h4 =>
          obtain ⟨f1, f2, f3⟩ := hloop _ h4 s4 (Or.inl rfl)
          simp only [Option.some.injEq] at h
          rw [← h]
          exact ⟨f1, f2, f3, fun t e => by cases e⟩
        · next p s4 h4 =>
          obtain ⟨f1, f2, f3⟩ := hloop _ h4 s4 (Or.inr ⟨_, rfl⟩)
          split at h
          · simp at h
          · next s5 h5 =>
            obtain ⟨a, b⟩ := scalars_vars (uncheckedEnqueue_scalars h5)
            have d1 := uncheckedEnqueue_heapOK h5
              (f1.heap_of_fields (t := s4.newDecisionLevel) rfl rfl (fun _ hv => hv)
                (fun _ hv => hv))
            simp only [Option.some.injEq] at h
            rw [← h]
            exact ⟨d1, a.trans f2, b.trans f3, fun t e => by cases e⟩
        · next s4 h4 =>
          obtain ⟨f1, f2, f3⟩ := hloop _ h4 s4 (Or.inr ⟨_, rfl⟩)
          split at h
          · simp at h
          · next s6 h6 =>
            obtain ⟨p1, p2, _, _, p5, p6, _⟩ := pickBranchLit_facts h6
            obtain ⟨p7, _⟩ := scalars_vars (pickBranchLit_scalars h6)
            have hall : ∀ v, v < s6.nVars → s6.decision v = true →
                s6.assigns v ≠ lbool.l_Undef := by
              intro v hv hd ha
              rw [p7] at hv
              rw [p2] at hd
              rw [p1] at ha
              have hmem := f1 v hv hd ha
              have hnot : v ∉ s6.order_heap := by
                rw [p5 rfl]
                simp
              rcases p6 v hmem hnot with ⟨l, e, _⟩ | h2 | h2
              · cases e
              · exact h2 ha
              · rw [hd] at h2
                cases h2
            simp only [Option.some.injEq] at h
            rw [← h]
            refine ⟨fun v hv hd ha => absurd ha (hall v hv hd), p7.trans f2,
              p2.trans f3, ?_⟩
            intro t e
            simp only [SearchStep.done.injEq, true_and] at e
            subst e
            exact hall
          · next nx s6 h6 =>
            obtain ⟨p1, p2, _, _, _, p6, _⟩ := pickBranchLit_facts h6
            obtain ⟨p7, _⟩ := scalars_vars (pickBranchLit_scalars h6)
            split at h
            · simp at h
            · next s7 h7 =>
              obtain ⟨q1, _⟩ := core_fields (countDecision_core h7)
              obtain ⟨q2, q3⟩ := scalars_vars (countDecision_scalars h7)
              have q4 := countDecision_heap h7
              split at h
              · simp at h
              · next s8 h8 =>
                obtain ⟨hu, he⟩ := uncheckedEnqueue_eq h8
                obtain ⟨a, b⟩ := scalars_vars (uncheckedEnqueue_scalars h8)
                have ea : s8.assigns = Function.update s7.assigns nx.var
                    (lbool.ofBool (!nx.sign)) := by rw [he]; rfl
                have eh : s8.order_heap = s7.order_heap := by rw [he]; rfl
                simp only [Option.some.injEq] at h
                rw [← h]
                refine ⟨?_, a.trans (q2.trans (p7.trans f2)),
                  b.trans (q3.trans (p2.trans f3)), fun t e => by cases e⟩
                intro v hv hd ha
                change v < s8.nVars at hv
                change s8.decision v = true at hd
                change s8.assigns v = lbool.l_Undef at ha
                have hv5 : v < s4.nVars := by
                  have e5 : s8.nVars = s4.nVars := a.trans (q2.trans p7)
                  rw [e5] at hv
                  exact hv
                have hd5 : s4.decision v = true := by
                  have e5 : s8.decision = s4.decision := b.trans (q3.trans p2)
                  rw [e5] at hd
                  exact hd
                have hne : v ≠ nx.var := by
                  intro e
                  subst e
                  rw [ea, Function.update_same] at ha
                  cases hb : nx.sign <;> rw [hb] at ha <;> simp [lbool.ofBool] at ha
                rw [ea, Function.update_noteq hne, q1, p1] at ha
                have hmem := f1 v hv5 hd5 ha
                show v ∈ s8.order_heap
                rw [eh, q4]
                by_contra hnot
                rcases p6 v hmem hnot with ⟨l, e, el⟩ | h2 | h2
                · simp only [Option.some.injEq] at e
                  subst e
                  exact hne el.symm
                · exact h2 ha
                · rw [hd5] at h2
                  cases h2

/-- One iteration of the loop of `search` keeps the invariant of the heap, and when it
answers `l_True` every decision variable is assigned. -/
theorem searchStep_heapOK {o : Oracle} {conflictC : Nat} {blocked : Bool}
    {s : Solver} {out : SearchStep} (h : searchStep o conflictC blocked s = some out)
    (hs : HeapOK s) :
    HeapOK out.state ∧ out.state.nVars = s.nVars ∧ out.state.decision = s.decision ∧
      ∀ t, out = SearchStep.done lbool.l_True t →
        ∀ v, v < t.nVars → t.decision v = true → t.assigns v ≠ lbool.l_Undef := by
  unfold searchStep at h
  split at h
  · simp at h
  · next confl s1 hp =>
    have h1 : HeapOK s1 := propagate_heapOK hp hs
    obtain ⟨a, b⟩ := scalars_vars (propagate_scalars hp)
    obtain ⟨d1, d2, d3, d4⟩ := searchConflict_heapOK h h1
    exact ⟨d1, d2.trans a, d3.trans b, fun t e => absurd e (d4 t)⟩
  · next s1 hp =>
    have h1 : HeapOK s1 := propagate_heapOK hp hs
    obtain ⟨a, b⟩ := scalars_vars (propagate_scalars hp)
    obtain ⟨d1, d2, d3, d4⟩ := searchNoConflict_heapOK h h1
    exact ⟨d1, d2.trans a, d3.trans b, d4⟩

theorem searchLoop_heapOK (o : Oracle) : ∀ (fuel conflictC : Nat) (blocked : Bool)
    (s : Solver) (r : lbool) (t : Solver), HeapOK s →
    searchLoop o fuel conflictC blocked s = some (r, t) →
    HeapOK t ∧ t.nVars = s.nVars ∧ t.decision = s.decision ∧
      (r = lbool.l_True →
        ∀ v, v < t.nVars → t.decision v = true → t.assigns v ≠ lbool.l_Undef) := by
  intro fuel
  induction fuel with
  | zero => intro c b s r t _ h; simp [searchLoop] at h
  | succ fuel ih =>
    intro c b s r t hs h
    rw [searchLoop] at h
    cases hst : searchStep o c b s with
    | none => rw [hst] at h; simp at h
    | some out =>
      rw [hst] at h
      obtain ⟨d1, d2, d3, d4⟩ := searchStep_heapOK hst hs
      cases out with
      | done res s1 =>
        simp only [Option.some.injEq, Prod.mk.injEq] at h
        obtain ⟨rfl, rfl⟩ := h
        exact ⟨d1, d2, d3, fun e => d4 s1 (by rw [e])⟩
      | next c1 b1 s1 =>
        obtain ⟨i1, i2, i3, i4⟩ := ih c1 b1 s1 r t d1 h
        exact ⟨i1, i2.trans d2, i3.trans d3, i4⟩

/-- A call of `search` keeps the invariant of the heap, and when it answers `l_True`
every decision variable is assigned. -/
theorem search_heapOK {o : Oracle} {fuel : Nat} {s t : Solver} {r : lbool}
    (h : search o fuel s = some (r, t)) (hs : HeapOK s) :
    HeapOK t ∧ t.nVars = s.nVars ∧ t.decision = s.decision ∧
      (r = lbool.l_True →
        ∀ v, v < t.nVars → t.decision v = true → t.assigns v ≠ lbool.l_Undef) := by
  unfold search at h
  split at h
  · simp at h
  · have key : ∀ S : Solver, searchLoop o fuel 0 false S = some (r, t) →
        S.nVars = s.nVars → S.decision = s.decision → S.assigns = s.assigns →
        S.order_heap = s.order_heap →
        HeapOK t ∧ t.nVars = s.nVars ∧ t.decision = s.decision ∧
          (r = lbool.l_True →
            ∀ v, v < t.nVars → t.decision v = true → t.assigns v ≠ lbool.l_Undef) := by
      intro S hS g1 g2 g3 g4
      obtain ⟨d1, d2, d3, d4⟩ := searchLoop_heapOK o fuel 0 false S r t
        (hs.heap_of_fields g1 g2 (fun v hv => by rw [g3] at hv; exact hv)
          (fun v hv => by rw [g4]; exact hv)) hS
      exact ⟨d1, d2.trans g1, d3.trans g2, d4⟩
    exact key _ h rfl rfl rfl rfl

theorem solveLoop_heapOK (o : Oracle) : ∀ (fuel sfuel : Nat) (s : Solver) (r : lbool)
    (t : Solver), HeapOK s → solveLoop o fuel sfuel s = some (r, t) →
    HeapOK t ∧ t.nVars = s.nVars ∧ t.decision = s.decision ∧
      (r = lbool.l_True →
        ∀ v, v < t.nVars → t.decision v = true → t.assigns v ≠ lbool.l_Undef) := by
  intro fuel
  induction fuel with
  | zero => intro sfuel s r t _ h; simp [solveLoop] at h
  | succ fuel ih =>
    intro sfuel s r t hs h
    rw [solveLoop] at h
    split at h
    · simp at h
    · next status s1 h1 =>
      obtain ⟨d1, d2, d3, d4⟩ := search_heapOK h1 hs
      split at h
      · simp only [Option.some.injEq, Prod.mk.injEq] at h
        obtain ⟨rfl, rfl⟩ := h
        exact ⟨d1, d2, d3, d4⟩
      · split at h
        · simp only [Option.some.injEq, Prod.mk.injEq] at h
          obtain ⟨rfl, rfl⟩ := h
          exact ⟨d1, d2, d3, d4⟩
        · obtain ⟨i1, i2, i3, i4⟩ := ih sfuel s1 r t d1 h
          exact ⟨i1, i2.trans d2, i3.trans d3, i4⟩

/-- When `solve_` answers `l_True`, the model is the list of the values of the variables
in the state `s3` in which the last call of `search` returned, and every decision
variable is assigned in that state. -/
theorem solve_model {o : Oracle} {fuel : Nat} {files : Files} {s t : Solver}
    (hH : HeapOK s) (h : solve_ o fuel files s = some (lbool.l_True, t)) :
    ∃ s0 s3, centralityInit files s = some s0 ∧
      solveLoop o fuel fuel (solveStart s0) = some (lbool.l_True, s3) ∧
      s3.nVars = s.nVars ∧ s3.decision = s.decision ∧ t.nVars = s.nVars ∧
      t.model = (List.range s3.nVars).map s3.valueVar ∧
      ∀ v, v < s3.nVars → s3.decision v = true → s3.assigns v ≠ lbool.l_Undef := by
  unfold solve_ at h
  split at h
  · simp at h
  · next s0 h0 =>
    have he := centralityInit_erase h0
    have f1 : s0.assigns = s.assigns := by
      have := congrArg Solver.assigns he
      exact this
    have f2 : s0.order_heap = s.order_heap := by
      have := congrArg Solver.order_heap he
      exact this
    have f3 : s0.nVars = s.nVars := by
      have := congrArg Solver.nVars he
      exact this
    have f4 : s0.decision = s.decision := by
      have := congrArg Solver.decision he
      exact this
    have hs0 : HeapOK (solveStart s0) :=
      hH.heap_of_fields f3 f4 (fun v hv => by rw [← f1]; exact hv)
        (fun v hv => by
          show v ∈ s0.order_heap
          rw [f2]
          exact hv)
    dsimp only at h
    split at h
    · simp at h
    · split at h
      · simp at h
      · next status s3 hl =>
        simp only [Option.some.injEq, Prod.mk.injEq] at h
        obtain ⟨rfl, ht⟩ := h
        have hl2 : solveLoop o fuel fuel (solveStart s0) = some (lbool.l_True, s3) := hl
        obtain ⟨d1, d2, d3, d4⟩ := solveLoop_heapOK o fuel fuel _ _ _ hs0 hl2
        have d2s : s3.nVars = s.nVars := d2.trans f3
        have d3s : s3.decision = s.decision := d3.trans f4
        refine ⟨s0, s3, h0, hl2, d2s, d3s, ?_, ?_, d4 rfl⟩
        · rw [← ht]
          simp only [if_true]
          have := cancelUntil_scalars { s3 with model := (List.range s3.nVars).map s3.valueVar } 0
          exact (scalars_vars this).1.trans d2s
        · rw [← ht]
          simp only [if_true]
          have := cancelUntil_scalars { s3 with model := (List.range s3.nVars).map s3.valueVar } 0
          simp only [Solver.scalars, Prod.mk.injEq] at this
          exact this.2.2.2.2.2.2.1

/-! ## The heap in the states built by `newVar` and `addClause_` -/

theorem newVar_heapOK (s : Solver) (sign dvar : Bool) (hs : HeapOK s) :
    HeapOK (newVar s sign dvar).2 := by
  have key : ∀ S : Solver, S.nVars = s.nVars + 1 →
      S.decision = Function.update s.decision s.nVars dvar →
      S.assigns = Function.update s.assigns s.nVars lbool.l_Undef →
      S.order_heap = s.order_heap → HeapOK (S.insertVarOrder s.nVars) := by
    intro S e1 e2 e3 e4
    obtain ⟨i1, i2, i3⟩ := insertVarOrder_heap_mem S s.nVars
    obtain ⟨j1, _, _, _, _, _, _, _, _, _, _, j12, _⟩ := insertVarOrder_fields S s.nVars
    intro v hv hd ha
    rw [j12, e1] at hv
    rw [i3, e2] at hd
    rw [j1, e3] at ha
    by_cases e : v = s.nVars
    · subst e
      apply i2
      rw [e2]
      exact hd
    · rw [Function.update_noteq e] at hd ha
      apply i1
      rw [e4]
      exact hs v (by omega) hd ha
  unfold newVar Solver.setDecisionVar
  dsimp only
  apply key <;> rfl

theorem addClause_heapOK {s t : Solver} {ps : List Lit} {b : Bool}
    (h : addClause_ s ps = some (b, t)) (hs : HeapOK s) : HeapOK t := by
  unfold addClause_ at h
  split at h
  · simp at h
  · split at h
    · simp only [Option.some.injEq, Prod.mk.injEq] at h
      rw [← h.2]
      exact hs
    · split at h
      · simp only [Option.some.injEq, Prod.mk.injEq] at h
        rw [← h.2]
        exact hs
      · simp only [Option.some.injEq, Prod.mk.injEq] at h
        rw [← h.2]
        exact hs.heap_of_fields rfl rfl (fun _ hv => hv) (fun _ hv => hv)
      · split at h
        · simp at h
        · next s1 h1 =>
          split at h
          · simp at h
          · next confl s2 hp =>
            simp only [Option.some.injEq, Prod.mk.injEq] at h
            rw [← h.2]
            exact (propagate_heapOK hp (uncheckedEnqueue_heapOK h1 hs)).heap_of_fields
              rfl rfl (fun _ hv => hv) (fun _ hv => hv)
      · dsimp only at h
        split at h
        · simp at h
        · next s2 h2 =>
          simp only [Option.some.injEq, Prod.mk.injEq] at h
          rw [← h.2]
          obtain ⟨a1, _⟩ := attachClause_assigns h2
          obtain ⟨a2, b2⟩ := scalars_vars (attachClause_scalars h2)
          have hl2 := attachClause_lists h2
          simp only [Solver.lists, Prod.mk.injEq] at hl2
          exact hs.heap_of_fields a2 b2 (fun v hv => by rw [← a1]; exact hv)
            (fun v hv => by rw [hl2.2.2.2.1]; exact hv)

/-- The states reached by `newVar`, `addClause_`, decisions, propagation and
backtracking have the invariant of the heap. -/
theorem Reach.heapOK {s : Solver} (h : Reach s) : HeapOK s := by
  induction h with
  | fresh => intro v hv; exact absurd hv (Nat.not_lt_zero v)
  | newVar s sign dvar _ ih => exact newVar_heapOK s sign dvar ih
  | addClause s s1 ps b _ _ ha _ ih => exact addClause_heapOK ha ih
  | decide s s1 p _ _ _ he ih =>
    exact uncheckedEnqueue_heapOK he
      (ih.heap_of_fields (t := s.newDecisionLevel) rfl rfl (fun _ hv => hv) (fun _ hv => hv))
  | cancel s k _ ih => exact cancelUntil_heapOK k ih
  | propagate s s1 _ hp ih => exact propagate_heapOK hp ih
  | conflict s s1 cr k _ hp _ ih => exact cancelUntil_heapOK k (propagate_heapOK hp ih)

end Glucose


namespace Glucose

/-! ## The steps of `search`, one by one -/

theorem blockRestartStep_body (blocked : Bool) (s : Solver) :
    (blockRestartStep blocked s).body = s.body := by
  unfold blockRestartStep
  split
  · dsimp only
    split <;> rfl
  · rfl

theorem pickBranchLit_body {o : Oracle} {s : Solver} {r : Option Lit × Solver}
    (h : pickBranchLit o s = some r) : r.2.body = s.body := by
  unfold pickBranchLit at h
  dsimp only at h
  split at h
  · simp at h
  · next next0 s2 h2 =>
    have e2 : s2.body = s.body := by
      split at h2
      · split at h2
        · simp at h2
        · simp only [Option.some.injEq, Prod.mk.injEq] at h2
          rw [← h2.2]
          split <;> rfl
      · simp only [Option.some.injEq, Prod.mk.injEq] at h2
        rw [← h2.2]
        rfl
    have e3 : (if s2.notPickable next0 = true then
          ((pickLoop s2 (heapOrder o s2)).1,
            { s2 with order_heap := (pickLoop s2 (heapOrder o s2)).2, tick := s2.tick + 1 })
        else (next0, s2)).2.body = s2.body := by
      split <;> rfl
    generalize (if s2.notPickable next0 = true then
          ((pickLoop s2 (heapOrder o s2)).1,
            ({ s2 with order_heap := (pickLoop s2 (heapOrder o s2)).2,
                       tick := s2.tick + 1 } : Solver))
        else (next0, s2)) = pr at h e3
    split at h
    · simp only [Option.some.injEq] at h; rw [← h]; exact e3.trans e2
    · split at h
      · simp only [Option.some.injEq] at h; rw [← h]; exact Eq.trans rfl (e3.trans e2)
      · simp only [Option.some.injEq] at h; rw [← h]; exact e3.trans e2

theorem countDecision_body {s t : Solver} {next : Lit}
    (h : countDecision s next = some t) : t.body = s.body := by
  unfold countDecision at h
  dsimp only at h
  split at h
  · simp only [Option.some.injEq] at h; rw [← h]; rfl
  · simp at h

/-- An iteration of the loop of `search` is a `propagate` followed by the conflict
branch or by the branch without conflict. -/
theorem searchStep_cases {o : Oracle} {conflictC : Nat} {blocked : Bool} {s : Solver}
    {out : SearchStep} (h : searchStep o conflictC blocked s = some out) :
    (∃ confl s1, propagate s = some (some confl, s1) ∧
      searchConflict confl conflictC blocked s1 = some out) ∨
    (∃ s1, propagate s = some (none, s1) ∧
      searchNoConflict o conflictC blocked s1 = some out) := by
  unfold searchStep at h
  split at h
  · simp at h
  · next confl s1 hp => exact Or.inl ⟨confl, s1, hp, h⟩
  · next s1 hp => exact Or.inr ⟨s1, hp, h⟩

/-- The conflict branch of `search`: at level 0 it returns `l_False`; above level 0 it
is `analyze`, `cancelUntil` to the backtrack level and the installation of the learnt
clause, between updates of counters and queues. -/
theorem searchConflict_cases {confl conflictC : Nat} {blocked : Bool} {s : Solver}
    {out : SearchStep} (h : searchConflict confl conflictC blocked s = some out) :
    (s.decisionLevel = 0 ∧ ∃ s1, s1.body = s.body ∧ out = SearchStep.done lbool.l_False s1) ∨
    (s.decisionLevel ≠ 0 ∧ ∃ s3 r s5 s9 c1 b1, s3.body = s.body ∧
      analyze s3 confl = some r ∧ s5.body = r.state.body ∧
      installLearnt r (cancelUntil s5 r.out_btlevel) = some s9 ∧
      out = SearchStep.next c1 b1 s9) := by
  unfold searchConflict at h
  dsimp only at h
  split at h
  · next h0 =>
    simp only [Option.some.injEq] at h
    refine Or.inl ⟨h0, _, ?_, h.symm⟩
    rfl
  · next h0 =>
    split at h
    · simp at h
    · next r hr =>
      split at h
      · simp at h
      · next s9 h9 =>
        simp only [Option.some.injEq] at h
        refine Or.inr ⟨h0, _, r, _, s9, _, _, ?_, hr, ?_, h9, h.symm⟩
        · exact (blockRestartStep_body blocked _).trans rfl
        · rfl

/-- The reduce-DB step of `search` does nothing or calls `reduceDB` on a non-empty list
of learnt clauses. -/
theorem reduceStep_cases {o : Oracle} {s t : Solver} (h : reduceStep o s = some t) :
    t = s ∨ (s.learnts ≠ [] ∧ ∃ s1 s2, s1.body = s.body ∧ reduceDB o s1 = some s2 ∧
      t.body = s2.body) := by
  unfold reduceStep at h
  split at h
  · split at h
    · next hpos =>
      split at h
      · simp at h
      · dsimp only at h
        split at h
        · simp at h
        · next s2 h2 =>
          simp only [Option.some.injEq] at h
          refine Or.inr ⟨?_, _, s2, ?_, h2, ?_⟩
          · intro e
            rw [e] at hpos
            simp at hpos
          · rfl
          · rw [← h]; rfl
    · simp only [Option.some.injEq] at h
      exact Or.inl h.symm
  · simp only [Option.some.injEq] at h
    exact Or.inl h.symm

/-- The branch of `search` without conflict: a restart; or `simplify` at level 0, the
reduce-DB step, the assumptions, and then the end of the search with `l_True` or a new
decision. -/
theorem searchNoConflict_cases {o : Oracle} {conflictC : Nat} {blocked : Bool}
    {s : Solver} {out : SearchStep} (h : searchNoConflict o conflictC blocked s = some out) :
    (∃ s1, s1.body = s.body ∧
      out = SearchStep.done lbool.l_Undef (cancelUntil s1 (restartLevel s1))) ∨
    (∃ s1, (if s.decisionLevel = 0 then simplify o s else some (true, s)) = some (false, s1) ∧
      out = SearchStep.done lbool.l_False s1) ∨
    (∃ s1 s2 s3, (if s.decisionLevel = 0 then simplify o s else some (true, s))
        = some (true, s1) ∧
      reduceStep o s1 = some s2 ∧ s3.body = s2.body ∧
      ((∃ s4, assumeLoop (s3.assumptions.drop s3.decisionLevel) s3 = some (Sum.inl s4) ∧
          out = SearchStep.done lbool.l_False s4) ∨
       (∃ p s4 s5, assumeLoop (s3.assumptions.drop s3.decisionLevel) s3
            = some (Sum.inr (some p, s4)) ∧
          uncheckedEnqueue s4.newDecisionLevel p none = some s5 ∧
          out = SearchStep.next conflictC blocked s5) ∨
       (∃ s4 s6, assumeLoop (s3.assumptions.drop s3.decisionLevel) s3
            = some (Sum.inr (none, s4)) ∧ s6.body = s4.body ∧
          (out = SearchStep.done lbool.l_True s6 ∨
           ∃ next s8, uncheckedEnqueue s6.newDecisionLevel next none = some s8 ∧
             out = SearchStep.next conflictC blocked s8)))) := by
  unfold searchNoConflict at h
  split at h
  · simp only [Option.some.injEq] at h
    refine Or.inl ⟨_, ?_, h.symm⟩
    rfl
  · dsimp only at h
    split at h
    · simp at h
    · next s1 h1 =>
      simp only [Option.some.injEq] at h
      exact Or.inr (Or.inl ⟨s1, h1, h.symm⟩)
    · next s1 h1 =>
      split at h
      · simp at h
      · next s2 h2 =>
        refine Or.inr (Or.inr ⟨s1, s2, ({ s2 with lastLearntClause := none } : Solver), h1, h2, rfl, ?_⟩)
        split at h
        · simp at h
        · next s4 h4 =>
          simp only [Option.some.injEq] at h
          exact Or.inl ⟨s4, h4, h.symm⟩
        · next p s4 h4 =>
          split at h
          · simp at h
          · next s5 h5 =>
            simp only [Option.some.injEq] at h
            exact Or.inr (Or.inl ⟨p, s4, s5, h4, h5, h.symm⟩)
        · next s4 h4 =>
          split at h
          · simp at h
          · next s6 h6 =>
            simp only [Option.some.injEq] at h
            refine Or.inr (Or.inr ⟨s4, s6, h4, ?_, Or.inl h.symm⟩)
            exact (pickBranchLit_body h6).trans rfl
          · next next s6 h6 =>
            split at h
            · simp at h
            · next s7 h7 =>
              split at h
              · simp at h
              · next s8 h8 =>
                simp only [Option.some.injEq] at h
                refine Or.inr (Or.inr ⟨s4, s7, h4, ?_, Or.inr ⟨next, s8, h8, h.symm⟩⟩)
                exact (countDecision_body h7).trans ((pickBranchLit_body h6).trans rfl)

/-- The loop of `search`, by induction: a property of the states at the head of the
loop that every iteration keeps, and that gives the property `R` of the result when an
iteration returns, gives `R` at the end. -/
theorem searchLoop_induct (o : Oracle) (P : Solver → Prop) (R : lbool → Solver → Prop)
    (hnext : ∀ c b s c1 b1 s1, P s → searchStep o c b s = some (SearchStep.next c1 b1 s1) →
      P s1)
    (hdone : ∀ c b s r s1, P s → searchStep o c b s = some (SearchStep.done r s1) → R r s1) :
    ∀ (fuel conflictC : Nat) (blocked : Bool) (s : Solver) (r : lbool) (t : Solver),
      P s → searchLoop o fuel conflictC blocked s = some (r, t) → R r t := by
  intro fuel
  induction fuel with
  | zero => intro c b s r t _ h; simp [searchLoop] at h
  | succ fuel ih =>
    intro c b s r t hP h
    unfold searchLoop at h
    split at h
    · simp at h
    · next r1 s1 hs =>
      simp only [Option.some.injEq, Prod.mk.injEq] at h
      rw [← h.1, ← h.2]
      exact hdone c b s r1 s1 hP hs
    · next c1 b1 s1 hs => exact ih c1 b1 s1 r t (hnext c b s c1 b1 s1 hP hs) h

end Glucose


namespace Glucose

/-! ## Propagation keeps the reasons correct -/

theorem scalars_opts {s t : Solver} (h : t.scalars = s.scalars) :
    t.nVars = s.nVars ∧ t.opts = s.opts ∧ t.assumptions = s.assumptions ∧
      t.caSize = s.caSize ∧ t.decision = s.decision := by
  unfold Solver.scalars at h
  simp only [Prod.mk.injEq] at h
  exact ⟨h.1, h.2.1, h.2.2.1, h.2.2.2.1, h.2.2.2.2.1⟩

theorem lists_scratch {s t : Solver} (h : t.lists = s.lists) :
    t.seen = s.seen ∧ t.permDiff = s.permDiff ∧ t.MYFLAG = s.MYFLAG ∧
      t.lastDecisionLevel = s.lastDecisionLevel ∧ t.clauses = s.clauses ∧
      t.learnts = s.learnts ∧ t.trail_lim = s.trail_lim := by
  unfold Solver.lists at h
  simp only [Prod.mk.injEq] at h
  exact ⟨h.2.2.2.2.1, h.2.2.2.2.2.1, h.2.2.2.2.2.2.1, h.2.2.2.2.2.2.2.2.2.1, h.1, h.2.1,
    h.2.2.2.2.2.2.2.2.2.2.2.2.2.2.2.2⟩

theorem TrailOK.index_of_false {s : Solver} (h : TrailOK s) {q : Lit}
    (hq : s.value q = lbool.l_False) :
    ∃ j, j < s.trail.length ∧ s.trail.get? j = some q.neg := by
  have hm : q.neg ∈ s.trail := h.mem_of_true (value_neg_true.mpr hq)
  obtain ⟨n, hn⟩ := List.get_of_mem hm
  refine ⟨n.1, n.2, ?_⟩
  rw [List.get?_eq_get n.2]
  exact congrArg some hn

theorem ReasonAt.mono {s t : Solver} {i : Nat} {l : Lit} {c : List Lit}
    (h : ReasonAt s i l c)
    (ht : ∀ j q, j < i → s.trail.get? j = some q → t.trail.get? j = some q) :
    ReasonAt t i l c := by
  rcases h with ⟨rest, e, hq⟩ | ⟨q, e, j, hj, hg⟩
  · refine Or.inl ⟨rest, e, ?_⟩
    intro q hqm
    obtain ⟨j, hj, hg⟩ := hq q hqm
    exact ⟨j, hj, ht j _ hj hg⟩
  · exact Or.inr ⟨q, e, j, hj, ht j _ hj hg⟩

theorem ReasonsOK.reasons_of_fields {s t : Solver} (h : ReasonsOK s) (h1 : t.trail = s.trail)
    (h2 : t.vardata = s.vardata) (h3 : ∀ cr, (t.ca cr).lits = (s.ca cr).lits) :
    ReasonsOK t := by
  intro i l r hg hr
  rw [h1] at hg
  have hr2 : s.reason l.var = some r := by
    unfold Solver.reason at hr ⊢
    rw [← h2]
    exact hr
  rw [h3]
  exact (h i l r hg hr2).mono (fun j q _ hq => by rw [h1]; exact hq)

/-- The literals of one clause are replaced by literals that are still a reason of every
trail literal that has this clause as reason. -/
theorem ReasonsOK.of_setLits {s : Solver} {cr : Nat} {ls : List Lit} (hR : ReasonsOK s)
    (hcr : ∀ i l, s.trail.get? i = some l → s.reason l.var = some cr → ReasonAt s i l ls) :
    ReasonsOK (s.setLits cr ls) := by
  intro i l r hg hr
  have hg2 : s.trail.get? i = some l := hg
  have hr2 : s.reason l.var = some r := hr
  by_cases e : r = cr
  · subst e
    have : ((s.setLits r ls).ca r).lits = ls := by
      simp [Solver.setLits]
    rw [this]
    exact hcr i l hg2 hr2
  · have : ((s.setLits cr ls).ca r) = s.ca r := by
      simp [Solver.setLits, Function.update_noteq e]
    rw [this]
    exact hR i l r hg2 hr2

/-- A visited clause that is the reason of a true literal has this literal as its other
watched literal, and the visit leaves it a reason. -/
theorem ReasonAt.visited {s : Solver} {i : Nat} {l p c0 c1 first : Lit} {rest : List Lit}
    (h : ReasonAt s i l (c0 :: c1 :: rest)) (hl : s.value l = lbool.l_True)
    (hp : s.value p = lbool.l_True)
    (hv : (c0 = p.neg ∧ first = c1) ∨ (c0 ≠ p.neg ∧ c1 = p.neg ∧ first = c0)) :
    first = l ∧ ReasonAt s i l (first :: p.neg :: rest) := by
  have hne : l ≠ p.neg := by
    intro e
    rw [e, value_neg_false.mpr hp] at hl
    cases hl
  rcases h with ⟨rest2, e, hq⟩ | ⟨q, e, hq⟩
  · simp only [List.cons.injEq] at e
    obtain ⟨e1, e2⟩ := e
    rcases hv with ⟨a, _⟩ | ⟨_, b, c⟩
    · exact absurd (e1.symm.trans a) hne
    · refine ⟨c.trans e1, Or.inl ⟨p.neg :: rest, by rw [c, e1], ?_⟩⟩
      intro x hx
      apply hq x
      rw [← e2, b]
      exact hx
  · simp only [List.cons.injEq] at e
    obtain ⟨e1, e2, e3⟩ := e
    rcases hv with ⟨a, b⟩ | ⟨_, b, _⟩
    · refine ⟨b.trans e2, Or.inl ⟨[p.neg], by rw [b, e2, e3], ?_⟩⟩
      intro x hx
      simp only [List.mem_singleton] at hx
      rw [hx, ← a, e1]
      exact hq
    · exact absurd (e2.symm.trans b) hne

theorem uncheckedEnqueue_reasonsOK {s s1 : Solver} {p : Lit} {r : Option Nat}
    (h : uncheckedEnqueue s p r = some s1) (hT : TrailOK s) (hR : ReasonsOK s)
    (hr : ∀ cr, r = some cr → ReasonAt s s.trail.length p (s.ca cr).lits) :
    ReasonsOK s1 := by
  obtain ⟨hu, rfl⟩ := uncheckedEnqueue_eq h
  intro i l r2 hg hr2
  have hg2 : (s.trail ++ [p]).get? i = some l := hg
  have hmono : ∀ (k : Nat) (x : Lit) (c : List Lit), ReasonAt s k x c →
      ReasonAt { s with
        assigns := Function.update s.assigns p.var (lbool.ofBool (!p.sign)),
        vardata := Function.update s.vardata p.var ⟨r, s.decisionLevel⟩,
        trail := s.trail ++ [p] } k x c := by
    intro k x c hc
    apply hc.mono
    intro j q _ hq
    show (s.trail ++ [p]).get? j = some q
    rw [List.get?_eq_getElem?] at hq ⊢
    have hj : j < s.trail.length := by
      by_contra hcon
      rw [List.getElem?_eq_none (Nat.le_of_not_lt hcon)] at hq
      cases hq
    rw [List.getElem?_append_left hj]
    exact hq
  rcases get?_append_cases hg2 with ⟨hi, hgs⟩ | ⟨hi, hl⟩
  · have hlt : l ∈ s.trail := mem_of_get? hgs
    have hne : l.var ≠ p.var := by
      intro e
      have h1 := hT.allTrue l hlt
      have h2 : s.assigns l.var ≠ lbool.l_Undef := assigned_of_value (by rw [h1]; simp)
      rw [e] at h2
      exact h2 (value_undef_iff.mp hu)
    have hr3 : s.reason l.var = some r2 := by
      have : (Function.update s.vardata p.var ⟨r, s.decisionLevel⟩ l.var).reason = some r2 := hr2
      rw [Function.update_noteq hne] at this
      exact this
    exact hmono _ _ _ (hR i l r2 hgs hr3)
  · simp only [List.mem_singleton] at hl
    subst hl
    have hlen : i = s.trail.length := by
      have : i < (s.trail ++ [l]).length := by
        by_contra hcon
        rw [List.get?_eq_getElem?, List.getElem?_eq_none (Nat.le_of_not_lt hcon)] at hg2
        cases hg2
      simp only [List.length_append, List.length_singleton] at this
      omega
    subst hlen
    have hr3 : r = some r2 := by
      have : (Function.update s.vardata l.var ⟨r, s.decisionLevel⟩ l.var).reason = some r2 := hr2
      rw [Function.update_same] at this
      exact this
    exact hmono _ _ _ (hr r2 hr3)

/-- The visit of a long watcher keeps the reasons correct. -/
theorem LongSpec.reasonsOK {p : Lit} {w : Watcher} {s : Solver} {out : WatchOutcome}
    (h : LongSpec p w s out) (hT : TrailOK s) (hR : ReasonsOK s)
    (hp : s.value p = lbool.l_True) : ReasonsOK out.state := by
  have key : ∀ (c0 c1 first : Lit) (rest ls : List Lit),
      Visited p w s c0 c1 rest first →
      (s.value first = lbool.l_True → ls = first :: p.neg :: rest) →
      ReasonsOK (s.setLits w.cref ls) := by
    intro c0 c1 first rest ls hv hls
    apply hR.of_setLits
    intro i l hg hr
    have h1 := hR i l w.cref hg hr
    rw [hv.2.2.1] at h1
    have hl := hT.allTrue l (mem_of_get? hg)
    obtain ⟨e, h2⟩ := h1.visited hl hp hv.2.2.2
    rw [hls (by rw [e]; exact hl)]
    exact h2
  cases h with
  | skip _ => exact hR
  | sat c0 c1 rest first hv _ _ => exact key c0 c1 first rest _ hv (fun _ => rfl)
  | moved c0 c1 rest first k x hv hnt hx _ _ =>
    exact key c0 c1 first rest _ hv (fun e => absurd e hnt)
  | conflict c0 c1 rest first hv _ hf =>
    exact key c0 c1 first rest _ hv (fun _ => rfl)
  | unit c0 c1 rest first s2 hv hall hu he =>
    have h1 : ReasonsOK (s.setLits w.cref (first :: p.neg :: rest)) :=
      key c0 c1 first rest _ hv (fun _ => rfl)
    have hT1 : TrailOK (s.setLits w.cref (first :: p.neg :: rest)) :=
      hT.trail_of_fields rfl rfl rfl rfl
    apply uncheckedEnqueue_reasonsOK he hT1 h1
    intro cr hcr
    simp only [Option.some.injEq] at hcr
    subst hcr
    have : ((s.setLits w.cref (first :: p.neg :: rest)).ca w.cref).lits
        = first :: p.neg :: rest := by
      simp [Solver.setLits]
    rw [this]
    refine Or.inl ⟨p.neg :: rest, rfl, ?_⟩
    intro q hq
    have hqf : s.value q = lbool.l_False := by
      simp only [List.mem_cons] at hq
      rcases hq with rfl | hq
      · exact value_neg_false.mpr hp
      · exact hall q hq
    exact hT.index_of_false hqf

theorem propagateLong_reasonsOK {p : Lit} {ws kept : List Watcher} {confl : Option Nat}
    {s : Solver} {r : Option Nat × List Watcher × Solver}
    (h : propagateLong p ws kept confl s = some r) (hT : TrailOK s) (hR : ReasonsOK s)
    (hp : s.value p = lbool.l_True) : ReasonsOK r.2.2 := by
  have := propagateLong_induct (p := p)
    (fun _ _ t => TrailOK t ∧ ReasonsOK t ∧ t.value p = lbool.l_True) ?_ ?_ ?_
    ws kept confl s r ⟨hT, hR, hp⟩ h
  · exact this.2.1
  · intro _ _ _ _ t _ t1 hI hs
    have he : Ext t t1 := longStep_ext hs
    exact ⟨he.trailOK hI.1, (longStep_spec hs).reasonsOK hI.1 hI.2.1 hI.2.2,
      by rw [he.value_of_assigned (by rw [hI.2.2]; simp), hI.2.2]⟩
  · intro _ _ _ _ t t1 hI hs
    have he : Ext t t1 := longStep_ext hs
    exact ⟨he.trailOK hI.1, (longStep_spec hs).reasonsOK hI.1 hI.2.1 hI.2.2,
      by rw [he.value_of_assigned (by rw [hI.2.2]; simp), hI.2.2]⟩
  · intro _ _ _ _ t _ _ t1 hI hs
    have he : Ext t t1 := longStep_ext hs
    exact ⟨he.trailOK hI.1, (longStep_spec hs).reasonsOK hI.1 hI.2.1 hI.2.2,
      by rw [he.value_of_assigned (by rw [hI.2.2]; simp), hI.2.2]⟩

theorem propagateBin_reasonsOK {p : Lit} {k : Nat} {ws : List Watcher} {s : Solver}
    {r : Option Nat × Solver} (h : propagateBin ws s = some r) (hT : TrailOK s)
    (hR : ReasonsOK s) (hk : s.trail.get? k = some p)
    (hws : ∀ w ∈ ws, (s.ca w.cref).lits = [p.neg, w.blocker] ∨
      (s.ca w.cref).lits = [w.blocker, p.neg]) : ReasonsOK r.2 := by
  induction ws generalizing s with
  | nil =>
    simp only [propagateBin, Option.some.injEq] at h
    subst h
    exact hR
  | cons w ws ih =>
    unfold propagateBin at h
    split at h
    · simp only [Option.some.injEq] at h
      subst h
      exact hR
    · split at h
      · split at h
        · simp at h
        · next s2 he =>
          have hx := uncheckedEnqueue_ext he
          obtain ⟨_, e2⟩ := uncheckedEnqueue_eq he
          have hklt : k < s.trail.length := by
            by_contra hcon
            rw [List.get?_eq_getElem?, List.getElem?_eq_none (Nat.le_of_not_lt hcon)] at hk
            cases hk
          apply ih h (hx.trailOK hT)
          · apply uncheckedEnqueue_reasonsOK he hT hR
            intro cr hcr
            simp only [Option.some.injEq] at hcr
            subst hcr
            rcases hws w (by simp) with e | e
            · rw [e]
              exact Or.inr ⟨p.neg, rfl, k, hklt, by rw [Lit.neg_neg]; exact hk⟩
            · rw [e]
              refine Or.inl ⟨[p.neg], rfl, ?_⟩
              intro q hq
              simp only [List.mem_singleton] at hq
              subst hq
              exact ⟨k, hklt, by rw [Lit.neg_neg]; exact hk⟩
          · rw [e2]
            show (s.trail ++ [w.blocker]).get? k = some p
            rw [List.get?_eq_getElem?, List.getElem?_append_left hklt, ← List.get?_eq_getElem?]
            exact hk
          · intro w2 hw2
            have : s2.ca = s.ca := by rw [e2]
            rw [this]
            exact hws w2 (List.mem_cons_of_mem _ hw2)
      · exact ih h hT hR hk (fun w2 hw2 => hws w2 (List.mem_cons_of_mem _ hw2))

/-! ## A conflicting clause has a literal of the current level -/

theorem Ext.ext_conflAt {s t : Solver} (h : Ext s t) {cr : Nat} (hc : ConflAt s cr) :
    ConflAt t cr := by
  obtain ⟨hf, l, hl, hlev⟩ := hc
  refine ⟨h.allFalse hf, l, (h.lits cr).mem_iff.mpr hl, ?_⟩
  have ha : s.assigns l.var ≠ lbool.l_Undef := assigned_of_value (by rw [hf l hl]; simp)
  rw [h.level_of_assigned ha, h.decisionLevel]
  exact hlev

theorem LongSpec.long_conflAt {p : Lit} {w : Watcher} {s s1 : Solver} {cr : Nat}
    {w1 : Watcher} (h : LongSpec p w s (WatchOutcome.conflict cr w1 s1))
    (hp : s.value p = lbool.l_True) (hl : s.level p.var = s.decisionLevel) :
    ConflAt s1 cr := by
  refine ⟨h.conflict_allFalse hp, ?_⟩
  cases h with
  | conflict c0 c1 rest first hv hall hf =>
    refine ⟨p.neg, ?_, hl⟩
    simp [Solver.setQhead, Solver.setLits]

theorem propagateLong_conflAt {p : Lit} {ws kept : List Watcher} {confl : Option Nat}
    {s : Solver} {r : Option Nat × List Watcher × Solver}
    (h : propagateLong p ws kept confl s = some r) (hp : s.value p = lbool.l_True)
    (hl : s.level p.var = s.decisionLevel)
    (hc : ∀ cr, confl = some cr → ConflAt s cr) :
    ∀ cr, r.1 = some cr → ConflAt r.2.2 cr := by
  have hstep : ∀ (t t1 : Solver), Ext t t1 → t.value p = lbool.l_True →
      t.level p.var = t.decisionLevel →
      t1.value p = lbool.l_True ∧ t1.level p.var = t1.decisionLevel := by
    intro t t1 he h1 h2
    have ha : t.assigns p.var ≠ lbool.l_Undef := assigned_of_value (by rw [h1]; simp)
    exact ⟨by rw [he.value_of_assigned (by rw [h1]; simp), h1],
      by rw [he.level_of_assigned ha, he.decisionLevel]; exact h2⟩
  have := propagateLong_induct (p := p)
    (fun c _ t => t.value p = lbool.l_True ∧ t.level p.var = t.decisionLevel ∧
      ∀ cr, c = some cr → ConflAt t cr) ?_ ?_ ?_
    ws kept confl s r ⟨hp, hl, hc⟩ h
  · exact this.2.2
  · intro _ _ _ _ t _ t1 hI hs
    have he : Ext t t1 := longStep_ext hs
    obtain ⟨a, b⟩ := hstep t t1 he hI.1 hI.2.1
    exact ⟨a, b, fun cr hcr => he.ext_conflAt (hI.2.2 cr hcr)⟩
  · intro _ _ _ _ t t1 hI hs
    have he : Ext t t1 := longStep_ext hs
    obtain ⟨a, b⟩ := hstep t t1 he hI.1 hI.2.1
    exact ⟨a, b, fun cr hcr => he.ext_conflAt (hI.2.2 cr hcr)⟩
  · intro _ _ _ _ t cr w1 t1 hI hs
    have he : Ext t t1 := longStep_ext hs
    obtain ⟨a, b⟩ := hstep t t1 he hI.1 hI.2.1
    refine ⟨a, b, ?_⟩
    intro cr2 hcr
    simp only [Option.some.injEq] at hcr
    subst hcr
    exact (longStep_spec hs).long_conflAt hI.1 hI.2.1

theorem propagateBin_conflAt {p : Lit} {ws : List Watcher} {s s1 : Solver} {cr : Nat}
    (h : propagateBin ws s = some (some cr, s1)) (hp : s.value p = lbool.l_True)
    (hl : s.level p.var = s.decisionLevel)
    (hws : ∀ w ∈ ws, (s.ca w.cref).lits = [p.neg, w.blocker] ∨
      (s.ca w.cref).lits = [w.blocker, p.neg]) : ConflAt s1 cr := by
  refine ⟨propagateBin_conflict h hp hws, ?_⟩
  induction ws generalizing s with
  | nil => simp [propagateBin] at h
  | cons w ws ih =>
    unfold propagateBin at h
    split at h
    · next hf =>
      simp only [Option.some.injEq, Prod.mk.injEq] at h
      obtain ⟨rfl, rfl⟩ := h
      refine ⟨p.neg, ?_, hl⟩
      rcases hws w (by simp) with e | e <;> rw [e] <;> simp
    · split at h
      · split at h
        · simp at h
        · next s2 he =>
          have hx := uncheckedEnqueue_ext he
          obtain ⟨_, e2⟩ := uncheckedEnqueue_eq he
          have ha : s.assigns p.var ≠ lbool.l_Undef := assigned_of_value (by rw [hp]; simp)
          apply ih h
          · rw [hx.value_of_assigned (by rw [hp]; simp), hp]
          · rw [hx.level_of_assigned ha, hx.decisionLevel]
            exact hl
          · intro w2 hw2
            have : s2.ca = s.ca := by rw [e2]
            rw [this]
            exact hws w2 (List.mem_cons_of_mem _ hw2)
      · exact ih h hp hl (fun w2 hw2 => hws w2 (List.mem_cons_of_mem _ hw2))

/-- The loop of `propagate` keeps the trail, the binary watchers and the reasons correct,
the literals from `n0` on at the current level, and a conflicting clause that it reports
is false with a literal of the current level. -/
theorem propagateLoop_reasons_ok (n0 fuel : Nat) (confl : Option Nat) (n : Nat) (s : Solver)
    (r : Option Nat × Solver) (hT : TrailOK s) (hB : BinWatchOK s) (hR : ReasonsOK s)
    (hQ : QueueFrom s n0) (hU : s.opts.useUnaryWatched = false) (hn : n0 ≤ s.qhead)
    (hle : s.qhead ≤ s.trail.length) (hc : ∀ cr, confl = some cr → ConflAt s cr)
    (h : propagateLoop fuel confl n s = some r) :
    TrailOK r.2 ∧ BinWatchOK r.2 ∧ ReasonsOK r.2 ∧ QueueFrom r.2 n0 ∧ n0 ≤ r.2.qhead ∧
      r.2.qhead ≤ r.2.trail.length ∧ (r.1 = none → r.2.trail.length ≤ r.2.qhead) ∧
      ∀ cr, r.1 = some cr → ConflAt r.2 cr := by
  refine propagateLoop_induct
    (fun c t => TrailOK t ∧ BinWatchOK t ∧ ReasonsOK t ∧ QueueFrom t n0 ∧
      t.opts.useUnaryWatched = false ∧ n0 ≤ t.qhead ∧ t.qhead ≤ t.trail.length ∧
      ∀ cr, c = some cr → ConflAt t cr)
    (fun c t => TrailOK t ∧ BinWatchOK t ∧ ReasonsOK t ∧ QueueFrom t n0 ∧ n0 ≤ t.qhead ∧
      t.qhead ≤ t.trail.length ∧ (c = none → t.trail.length ≤ t.qhead) ∧
      ∀ cr, c = some cr → ConflAt t cr) ?_ ?_ ?_ fuel confl n s r
    ⟨hT, hB, hR, hQ, hU, hn, hle, hc⟩ h
  · intro confl s p s1 confl1 kept s2 hI hq hp hb hl
    obtain ⟨hT, hB, hR, hQ, hU, hn, hle, hc⟩ := hI
    have hpv : s.value p = lbool.l_True := hT.allTrue p (mem_of_get? hp)
    have hpl : s.level p.var = s.decisionLevel := hQ s.qhead p hn hp
    have e0 : Ext s (s.setQhead (s.qhead + 1)) :=
      Ext.of_fields rfl rfl (fun _ => rfl) rfl rfl rfl
    have e1 : Ext (s.setQhead (s.qhead + 1)) s1 := propagateBin_ext hb
    have e2 : Ext s1 s2 := propagateLong_ext hl
    have e3 : Ext s2 { s2 with watches := s2.watches.set p kept } :=
      Ext.of_fields rfl rfl (fun _ => rfl) rfl rfl rfl
    have e01 := e0.trans e1
    have e03 := (e01.trans e2).trans e3
    have ha : s.assigns p.var ≠ lbool.l_Undef := assigned_of_value (by rw [hpv]; simp)
    have hpv1 : s1.value p = lbool.l_True := by
      rw [e01.value_of_assigned (by rw [hpv]; simp), hpv]
    have hpl1 : s1.level p.var = s1.decisionLevel := by
      rw [e01.level_of_assigned ha, e01.decisionLevel]
      exact hpl
    have hT0 : TrailOK (s.setQhead (s.qhead + 1)) := hT.trail_of_fields rfl rfl rfl rfl
    have hR0 : ReasonsOK (s.setQhead (s.qhead + 1)) :=
      hR.reasons_of_fields rfl rfl (fun _ => rfl)
    have hR1 : ReasonsOK s1 :=
      propagateBin_reasonsOK (p := p) (k := s.qhead) hb hT0 hR0 hp (fun w hw => hB p w hw)
    have hT1 : TrailOK s1 := e01.trailOK hT
    have hR2 : ReasonsOK s2 := propagateLong_reasonsOK hl hT1 hR1 hpv1
    have hR3 : ReasonsOK { s2 with watches := s2.watches.set p kept } :=
      hR2.reasons_of_fields rfl rfl (fun _ => rfl)
    have hc2 := propagateLong_conflAt hl hpv1 hpl1 (fun cr hcr => e01.ext_conflAt (hc cr hcr))
    obtain ⟨b1, b2, b3, b4, b5, b6⟩ := propagateBin_ca hb
    have ho1 : s1.opts = s.opts := b6
    have ho2 : s2.opts = s1.opts := (scalars_opts (propagateLong_scalars hl)).2.1
    have hU2 : s2.opts.useUnaryWatched = false := by rw [ho2, ho1]; exact hU
    have hq1 : s1.qhead = s.qhead + 1 := b5
    have hlen1 : s.trail.length ≤ s1.trail.length := by
      obtain ⟨added, ht, _⟩ := e01.trail
      rw [ht, List.length_append]
      omega
    have hlen2 : s1.trail.length ≤ s2.trail.length := by
      obtain ⟨added, ht, _⟩ := e2.trail
      rw [ht, List.length_append]
      omega
    have hq2 : n0 ≤ s2.qhead ∧ s2.qhead ≤ s2.trail.length := by
      rcases propagateLong_qhead hl with ⟨_, e⟩ | ⟨_, e⟩
      · have e5 : s2.qhead = s1.qhead := e
        constructor <;> omega
      · have e5 : s2.qhead = s2.trail.length := e
        constructor <;> omega
    refine ⟨⟨e03.trailOK hT, e03.binWatchOK hB, hR3, e03.queueFrom hT hQ, hU2, hq2.1, hq2.2,
      fun cr hcr => e3.ext_conflAt (hc2 cr hcr)⟩, ?_⟩
    intro confl2 s4 hu _ _
    rw [hU2] at hu
    cases hu
  · intro confl s p s1 cr hI hq hp hb
    obtain ⟨hT, hB, hR, hQ, hU, hn, hle, hc⟩ := hI
    have hpv : s.value p = lbool.l_True := hT.allTrue p (mem_of_get? hp)
    have hpl : s.level p.var = s.decisionLevel := hQ s.qhead p hn hp
    have e0 : Ext s (s.setQhead (s.qhead + 1)) :=
      Ext.of_fields rfl rfl (fun _ => rfl) rfl rfl rfl
    have e1 : Ext (s.setQhead (s.qhead + 1)) s1 := propagateBin_ext hb
    have e01 := e0.trans e1
    have hT0 : TrailOK (s.setQhead (s.qhead + 1)) := hT.trail_of_fields rfl rfl rfl rfl
    have hR0 : ReasonsOK (s.setQhead (s.qhead + 1)) :=
      hR.reasons_of_fields rfl rfl (fun _ => rfl)
    have hR1 : ReasonsOK s1 :=
      propagateBin_reasonsOK (p := p) (k := s.qhead) hb hT0 hR0 hp (fun w hw => hB p w hw)
    obtain ⟨b1, b2, b3, b4, b5, b6⟩ := propagateBin_ca hb
    have hq1 : s1.qhead = s.qhead + 1 := b5
    have hlen1 : s.trail.length ≤ s1.trail.length := by
      obtain ⟨added, ht, _⟩ := e01.trail
      rw [ht, List.length_append]
      omega
    refine ⟨e01.trailOK hT, e01.binWatchOK hB, hR1, e01.queueFrom hT hQ, (by omega), (by omega),
      (fun e => by cases e), ?_⟩
    intro cr2 hcr2
    simp only [Option.some.injEq] at hcr2
    subst hcr2
    exact propagateBin_conflAt (p := p) hb hpv hpl (fun w hw => hB p w hw)
  · intro confl s n hI hq
    obtain ⟨hT, hB, hR, hQ, hU, hn, hle, hc⟩ := hI
    have e : Ext s { s with
        stats := { s.stats with propagations := s.stats.propagations + n },
        simpDB_props := s.simpDB_props - n } :=
      Ext.of_fields rfl rfl (fun _ => rfl) rfl rfl rfl
    refine ⟨e.trailOK hT, e.binWatchOK hB, hR.reasons_of_fields rfl rfl (fun _ => rfl),
      e.queueFrom hT hQ, hn, hle, fun _ => Nat.le_of_not_lt hq, fun cr hcr => e.ext_conflAt (hc cr hcr)⟩

end Glucose


namespace Glucose

/-! ## The invariant of `search` at a conflict -/

theorem le_last_of_sorted {l : List Nat} {b x : Nat} (hs : l.Pairwise (fun a b => a ≤ b))
    (hb : l.getLast? = some b) (hx : x ∈ l) : x ≤ b := by
  obtain ⟨ys, rfl⟩ := List.getLast?_eq_some_iff.mp hb
  rw [List.pairwise_append] at hs
  rcases List.mem_append.mp hx with h | h
  · exact hs.2.2 x h b (by simp)
  · simp only [List.mem_singleton] at h
    omega

theorem levelAt_pos {lims : List Nat} {b i : Nat} (hb : b ∈ lims) (hi : b ≤ i) :
    0 < levelAt lims i := by
  unfold levelAt
  exact List.countP_pos_iff.mpr ⟨b, hb, by simpa using hi⟩

theorem AInv.toAnalysable {s : Solver} (h : AInv s) (hl : 0 < s.decisionLevel) :
    Analysable s := by
  refine ⟨h.trail, hl, h.reasons, ?_⟩
  intro i l b hg hb hbi hr
  have hbm : b ∈ s.trail_lim := by
    obtain ⟨ys, e⟩ := List.getLast?_eq_some_iff.mp hb
    rw [e]
    simp
  have hlev : 0 < s.level l.var := by
    rw [h.trail.levels i l hg]
    exact levelAt_pos hbm (Nat.le_of_lt hbi)
  have := le_last_of_sorted h.trail.limsSorted hb (h.fences i l hg hr hlev)
  omega

theorem AInv.conflictState {s : Solver} {confl : Nat} (h : AInv s)
    (hl : 0 < s.decisionLevel) (hc : ConflAt s confl) : ConflictState s confl :=
  ⟨h.toAnalysable hl, hc.1, hc.2, h.seen0, h.stamps, h.lastDL⟩

theorem AInv.ainv_of_fields {s t : Solver} (h : AInv s) (e1 : t.assigns = s.assigns)
    (e2 : t.vardata = s.vardata) (e3 : t.trail = s.trail) (e4 : t.trail_lim = s.trail_lim)
    (e5 : t.ca = s.ca) (e6 : t.caSize = s.caSize) (e7 : t.watchesBin = s.watchesBin)
    (e8 : t.opts = s.opts) (e9 : t.seen = s.seen) (e10 : t.permDiff = s.permDiff)
    (e11 : t.MYFLAG = s.MYFLAG) (e12 : t.lastDecisionLevel = s.lastDecisionLevel) :
    AInv t := by
  obtain ⟨a, b, c, d, e, f, g, h1, h2⟩ := h
  refine ⟨a.trail_of_fields e1 e2 e3 e4, b.reasons_of_fields e3 e2 (fun _ => by rw [e5]),
    ?_, ?_, ?_, ?_, ?_, ?_, ?_⟩
  · unfold FenceOK Solver.reason Solver.level at *
    rw [e2, e3, e4]
    exact c
  · unfold BinWatchOK at *
    rw [e5, e7]
    exact d
  · unfold Fresh at *
    rw [e5, e6]
    exact e
  · rw [e8]; exact f
  · rw [e9]; exact g
  · rw [e10, e11]; exact h1
  · rw [e12]; exact h2

theorem body_fields {s t : Solver} (h : t.body = s.body) :
    t.assigns = s.assigns ∧ t.vardata = s.vardata ∧ t.trail = s.trail ∧
      t.trail_lim = s.trail_lim ∧ t.ca = s.ca ∧ t.caSize = s.caSize ∧
      t.watchesBin = s.watchesBin ∧ t.opts = s.opts ∧ t.seen = s.seen ∧
      t.permDiff = s.permDiff ∧ t.MYFLAG = s.MYFLAG ∧
      t.lastDecisionLevel = s.lastDecisionLevel ∧ t.qhead = s.qhead ∧
      t.assumptions = s.assumptions ∧ t.ok = s.ok := by
  unfold Solver.body at h
  simp only [Prod.mk.injEq] at h
  obtain ⟨a1, a2, a3, a4, a5, a6, a7, a8, a9, a10, a11, a12, a13, a14, a15, a16, a17, a18,
    a19, a20, a21, a22, a23, a24⟩ := h
  exact ⟨a3, a4, a9, a10, a12, a13, a18, a24, a6, a7, a8, a22, a11, a23, a1⟩

theorem AInv.ainv_of_body {s t : Solver} (h : AInv s) (e : t.body = s.body) : AInv t := by
  obtain ⟨e1, e2, e3, e4, e5, e6, e7, e8, e9, e10, e11, e12, _⟩ := body_fields e
  exact h.ainv_of_fields e1 e2 e3 e4 e5 e6 e7 e8 e9 e10 e11 e12

theorem CInv.cinv_of_body {s t : Solver} (h : CInv s) (e : t.body = s.body) : CInv t := by
  obtain ⟨e1, e2, e3, e4, e5, e6, e7, e8, e9, e10, e11, e12, e13, _⟩ := body_fields e
  refine ⟨h.core.ainv_of_body e, ?_, ?_, ?_⟩
  · have := h.queue
    unfold QueueFrom Solver.level Solver.decisionLevel at *
    rw [e13, e2, e3, e4]
    exact this
  · rw [e13, e4]; exact h.lims
  · rw [e13, e3]; exact h.qle

theorem ConflAt.confl_of_body {s t : Solver} {cr : Nat} (h : ConflAt s cr)
    (e : t.body = s.body) : ConflAt t cr := by
  obtain ⟨e1, e2, e3, e4, e5, _⟩ := body_fields e
  unfold ConflAt AllFalse Solver.value Solver.level Solver.decisionLevel at *
  rw [e1, e2, e4, e5]
  exact h

/-- The function `propagate` keeps the invariant: in every case the invariant `AInv`
holds at return; without conflict the invariant of the head of the loop holds and the
queue is empty; a reported conflict is a false clause with a literal of the current
level. -/
theorem propagate_cinv {s t : Solver} {c : Option Nat} (h : propagate s = some (c, t))
    (hs : CInv s) :
    AInv t ∧ t.trail_lim = s.trail_lim ∧ (c = none → CInv t ∧ t.qhead = t.trail.length) ∧
      ∀ cr, c = some cr → ConflAt t cr := by
  have hext := propagate_ext h
  have hnd := propagate_nodecision h
  obtain ⟨g1, g2, g3, g4, g5, g6, g7⟩ := lists_scratch (propagate_lists h)
  obtain ⟨_, o2, _, o4, _⟩ := scalars_opts (propagate_scalars h)
  have hA := hs.core
  have e0 : Ext s s.cleanAllWatches := cleanAllWatches_ext s
  unfold propagate at h
  obtain ⟨k1, k2, k3, k4, k5, k6, k7, k8⟩ :=
    propagateLoop_reasons_ok s.qhead _ none 0 s.cleanAllWatches (c, t)
      (hA.trail.trail_of_fields rfl rfl rfl rfl) (e0.binWatchOK hA.bin)
      (hA.reasons.reasons_of_fields rfl rfl (fun _ => rfl)) (e0.queueFrom hA.trail hs.queue)
      hA.noUnary (le_refl _) hs.qle (fun cr hcr => by cases hcr) h
  have hF : FenceOK t := by
    intro i l hg hr hpos
    obtain ⟨a, b⟩ := hnd l.var hr
    have hlt : t.value l = lbool.l_True := k1.allTrue l (mem_of_get? hg)
    have hta : t.assigns l.var ≠ lbool.l_Undef := assigned_of_value (by rw [hlt]; simp)
    obtain ⟨added, ht, _, hfresh, _, _⟩ := hext.trail
    rw [ht] at hg
    rcases get?_append_cases hg with ⟨_, hgs⟩ | ⟨_, hl⟩
    · rw [hext.trail_lim]
      apply hA.fences i l hgs
      · unfold Solver.reason at hr ⊢
        rw [← b]
        exact hr
      · unfold Solver.level at hpos ⊢
        rw [← b]
        exact hpos
    · exact absurd (a.trans (hfresh l hl)) hta
  have hA2 : AInv t := by
    refine ⟨k1, k3, hF, k2, ?_, by rw [o2]; exact hA.noUnary, by rw [g1]; exact hA.seen0,
      by rw [g2, g3]; exact hA.stamps, by rw [g4]; exact hA.lastDL⟩
    intro cr hcr
    rw [o4] at hcr
    have := hext.lits cr
    rw [hA.fresh cr hcr] at this
    exact this.eq_nil
  refine ⟨hA2, hext.trail_lim, ?_, k8⟩
  intro hc
  have hq : t.trail.length ≤ t.qhead := k7 hc
  have k6b : t.qhead ≤ t.trail.length := k6
  refine ⟨⟨hA2, ?_, ?_, k6⟩, by omega⟩
  · intro i l hi hg
    exact k4 i l (le_trans k5 hi) hg
  · intro b hb
    rw [hext.trail_lim] at hb
    exact le_trans (hs.lims b hb) k5

/-! ## The scratch members after `analyze` -/

theorem analyzeFinish_scratch {s : Solver} {ol sel : List Lit} {r : AnalyzeResult}
    (hm : MinInv s) (h : analyzeFinish s ol sel = some r) :
    r.state.lastDecisionLevel = [] ∧ ∀ x, r.state.permDiff x ≤ r.state.MYFLAG := by
  unfold analyzeFinish at h
  dsimp only at h
  split at h
  · simp at h
  · next out2 btlevel _ =>
    have hq : QFrame s (computeLBD s out2 ((out2.length : Int) - (sel.length : Int))).2 :=
      computeLBDCore_qframe s out2 _
    have hmu := hm.min_of_qframe hq
    obtain ⟨t, et, qt⟩ := bumpLastDecisionLevel_spec
      (computeLBD s out2 ((out2.length : Int) - (sel.length : Int))).1 _ _ hmu.lastDL
    rw [et] at h
    simp only [Option.some.injEq] at h
    rw [← h]
    exact ⟨rfl, (hmu.min_of_qframe qt).stamps⟩

theorem analyze_scratch {s : Solver} {confl : Nat} {r : AnalyzeResult}
    (h : ConflictState s confl) (ha : analyze s confl = some r) :
    r.state.lastDecisionLevel = [] ∧ ∀ x, r.state.permDiff x ≤ r.state.MYFLAG := by
  obtain ⟨t, p, out, sel, e1, hw, f1, hp, hpl⟩ := analyzeResolve_spec h
  obtain ⟨ol, t2, e2, f2, m2, kept, hol, hk⟩ := analyzeMinimize_spec p hw
  unfold analyze at ha
  rw [e1] at ha
  dsimp only at ha
  rw [e2] at ha
  exact analyzeFinish_scratch m2 ha

/-- The function `analyze` on a conflict of the search loop: it returns, it keeps the
invariant, and the learnt clause is made of a false literal of the current level
followed by false literals of lower levels above 0; the backtrack level is the greatest
of these levels, found at the second position (0 for a unit clause). -/
theorem analyze_ainv {s : Solver} {confl : Nat} {r : AnalyzeResult} (hs : AInv s)
    (hl : 0 < s.decisionLevel) (hc : ConflAt s confl) (ha : analyze s confl = some r) :
    AInv r.state ∧ AFrame s r.state ∧ r.state.caSize = s.caSize ∧
      ∃ o0 rest, r.out_learnt = o0 :: rest ∧ s.value o0 = lbool.l_False ∧
        s.level o0.var = s.decisionLevel ∧
        (∀ x ∈ rest, s.value x = lbool.l_False ∧ 0 < s.level x.var ∧
          s.level x.var < s.decisionLevel) ∧
        (rest = [] → r.out_btlevel = 0) ∧
        (∀ o1 tl, rest = o1 :: tl → r.out_btlevel = s.level o1.var ∧
          ∀ x ∈ rest, s.level x.var ≤ s.level o1.var) := by
  have hcs := hs.conflictState hl hc
  obtain ⟨r2, e, f, hseen, rest⟩ := analyze_spec hcs
  rw [ha] at e
  simp only [Option.some.injEq] at e
  subst e
  obtain ⟨hld, hst⟩ := analyze_scratch hcs ha
  obtain ⟨_, _, _, o4, _⟩ := scalars_opts (analyze_scalars ha)
  refine ⟨⟨?_, ?_, ?_, ?_, ?_, ?_, hseen, hst, hld⟩, f, o4, rest⟩
  · exact hs.trail.trail_of_fields f.assigns f.vardata f.trail f.trail_lim
  · exact (f.analysable (hs.toAnalysable hl)).reasons
  · have := hs.fences
    unfold FenceOK Solver.reason Solver.level at *
    rw [f.vardata, f.trail, f.trail_lim]
    exact this
  · intro p w hw
    rw [f.watchesBin] at hw
    rcases f.lits w.cref with e | ⟨a, b, e1, e2⟩
    · rw [e]
      exact hs.bin p w hw
    · rw [e2]
      rcases hs.bin p w hw with e3 | e3
      · rw [e3] at e1
        simp only [List.cons.injEq, and_true] at e1
        right
        rw [← e1.1, ← e1.2]
      · rw [e3] at e1
        simp only [List.cons.injEq, and_true] at e1
        left
        rw [← e1.1, ← e1.2]
  · intro cr hcr
    rw [o4] at hcr
    rcases f.lits cr with e | ⟨a, b, e1, _⟩
    · rw [e]
      exact hs.fresh cr hcr
    · rw [hs.fresh cr hcr] at e1
      cases e1
  · rw [f.opts]
    exact hs.noUnary

end Glucose


namespace Glucose

/-! ## The functions of the clause database -/

theorem Pruned.pr_refl (s : Solver) : Pruned s s :=
  ⟨rfl, rfl, rfl, rfl, rfl, rfl, rfl, rfl, rfl, rfl, rfl, rfl, rfl, rfl, fun _ => rfl,
    fun _ => Or.inl rfl, fun _ => rfl, fun _ _ h => h, fun _ _ h => h, fun _ h => h,
    fun _ h => h⟩

theorem Pruned.pr_trans {s t u : Solver} (h1 : Pruned s t) (h2 : Pruned t u) : Pruned s u where
  assigns := h2.assigns.trans h1.assigns
  trail := h2.trail.trans h1.trail
  trail_lim := h2.trail_lim.trans h1.trail_lim
  qhead := h2.qhead.trans h1.qhead
  seen := h2.seen.trans h1.seen
  permDiff := h2.permDiff.trans h1.permDiff
  myflag := h2.myflag.trans h1.myflag
  lastDL := h2.lastDL.trans h1.lastDL
  nVars := h2.nVars.trans h1.nVars
  opts := h2.opts.trans h1.opts
  assumptions := h2.assumptions.trans h1.assumptions
  caSize := h2.caSize.trans h1.caSize
  decision := h2.decision.trans h1.decision
  ok := h2.ok.trans h1.ok
  levels := fun v => (h2.levels v).trans (h1.levels v)
  reasons := by
    intro v
    have hd : t.decisionLevel = s.decisionLevel := by
      unfold Solver.decisionLevel
      rw [h1.trail_lim]
    rcases h2.reasons v with e | ⟨e, d⟩
    · rcases h1.reasons v with e1 | ⟨e1, d1⟩
      · exact Or.inl (e.trans e1)
      · exact Or.inr ⟨e.trans e1, d1⟩
    · exact Or.inr ⟨e, hd ▸ d⟩
  lits := fun x => (h2.lits x).trans (h1.lits x)
  bin := fun p w h => h1.bin p w (h2.bin p w h)
  long := fun p w h => h1.long p w (h2.long p w h)
  clauses := fun cr h => h1.clauses cr (h2.clauses cr h)
  learnts := fun cr h => h1.learnts cr (h2.learnts cr h)

/-- A state change that writes none of the members read by the invariants, up to the
headers of the clauses and the smudge lists of the watch maps. -/
theorem Pruned.pr_of_eqs {s t : Solver} (e1 : t.assigns = s.assigns) (e2 : t.vardata = s.vardata)
    (e3 : t.trail = s.trail) (e4 : t.trail_lim = s.trail_lim) (e5 : t.qhead = s.qhead)
    (e6 : t.seen = s.seen) (e7 : t.permDiff = s.permDiff) (e8 : t.MYFLAG = s.MYFLAG)
    (e9 : t.lastDecisionLevel = s.lastDecisionLevel) (e10 : t.nVars = s.nVars)
    (e11 : t.opts = s.opts) (e12 : t.assumptions = s.assumptions)
    (e13 : t.caSize = s.caSize) (e14 : t.decision = s.decision) (e15 : t.ok = s.ok)
    (e16 : ∀ x, (t.ca x).lits = (s.ca x).lits)
    (e17 : t.watchesBin.occs = s.watchesBin.occs) (e18 : t.watches.occs = s.watches.occs)
    (e19 : ∀ cr ∈ t.clauses, cr ∈ s.clauses) (e20 : ∀ cr ∈ t.learnts, cr ∈ s.learnts) :
    Pruned s t :=
  ⟨e1, e3, e4, e5, e6, e7, e8, e9, e10, e11, e12, e13, e14, e15,
    fun v => by unfold Solver.level; rw [e2],
    fun v => Or.inl (by unfold Solver.reason; rw [e2]), e16,
    fun p w h => by rw [e17] at h; exact h, fun p w h => by rw [e18] at h; exact h, e19, e20⟩

theorem Pruned.pr_of_body {s t : Solver} (e : t.body = s.body) : Pruned s t := by
  unfold Solver.body at e
  simp only [Prod.mk.injEq] at e
  obtain ⟨a1, a2, a3, a4, a5, a6, a7, a8, a9, a10, a11, a12, a13, a14, a15, a16, a17, a18,
    a19, a20, a21, a22, a23, a24⟩ := e
  exact Pruned.pr_of_eqs a3 a4 a9 a10 a11 a6 a7 a8 a22 a2 a24 a23 a13 a5 a1
    (fun x => by rw [a12]) (by rw [a18]) (by rw [a17]) (fun cr h => by rw [a14] at h; exact h)
    (fun cr h => by rw [a15] at h; exact h)

theorem OccLists.smudge_occs (o : OccLists) (p : Lit) : (o.smudge p).occs = o.occs := by
  unfold OccLists.smudge
  split <;> rfl

theorem detachClause_lazy_pruned {s t : Solver} {cr : Nat}
    (h : detachClause s cr false = some t) :
    Pruned s t ∧ t.vardata = s.vardata ∧ t.ca = s.ca := by
  unfold detachClause at h
  simp only [Bool.false_eq_true, if_false] at h
  split at h
  · next c0 c1 rest _ =>
    split at h
    · simp at h
    · next s2 h2 =>
      have e2 : Pruned s s2 ∧ s2.vardata = s.vardata ∧ s2.ca = s.ca := by
        split at h2
        · simp only [Option.some.injEq] at h2
          rw [← h2]
          refine ⟨Pruned.pr_of_eqs rfl rfl rfl rfl rfl rfl rfl rfl rfl rfl rfl rfl rfl rfl rfl
            (fun _ => rfl) ?_ rfl (fun _ h => h) (fun _ h => h), rfl, rfl⟩
          show ((s.watchesBin.smudge c0.neg).smudge c1.neg).occs = s.watchesBin.occs
          rw [OccLists.smudge_occs, OccLists.smudge_occs]
        · simp only [Option.some.injEq] at h2
          rw [← h2]
          refine ⟨Pruned.pr_of_eqs rfl rfl rfl rfl rfl rfl rfl rfl rfl rfl rfl rfl rfl rfl rfl
            (fun _ => rfl) rfl ?_ (fun _ h => h) (fun _ h => h), rfl, rfl⟩
          show ((s.watches.smudge c0.neg).smudge c1.neg).occs = s.watches.occs
          rw [OccLists.smudge_occs, OccLists.smudge_occs]
      simp only [Option.some.injEq] at h
      rw [← h]
      obtain ⟨a, b, c⟩ := e2
      split
      · exact ⟨a.pr_trans (Pruned.pr_of_body rfl), b, c⟩
      · exact ⟨a.pr_trans (Pruned.pr_of_body rfl), b, c⟩
  · simp at h

theorem detachClausePurgatory_lazy_pruned {s t : Solver} {cr : Nat}
    (h : detachClausePurgatory s cr false = some t) :
    Pruned s t ∧ t.vardata = s.vardata ∧ t.ca = s.ca := by
  unfold detachClausePurgatory at h
  simp only [Bool.false_eq_true, if_false] at h
  split at h
  · simp only [Option.some.injEq] at h
    rw [← h]
    exact ⟨Pruned.pr_of_eqs rfl rfl rfl rfl rfl rfl rfl rfl rfl rfl rfl rfl rfl rfl rfl
      (fun _ => rfl) rfl rfl (fun _ h => h) (fun _ h => h), rfl, rfl⟩
  · simp at h

theorem mark_pruned (u : Solver) (cr : Nat) :
    Pruned u { u with ca := Function.update u.ca cr { u.ca cr with mark := 1 } } := by
  refine Pruned.pr_of_eqs rfl rfl rfl rfl rfl rfl rfl rfl rfl rfl rfl rfl rfl rfl rfl ?_
    rfl rfl (fun _ h => h) (fun _ h => h)
  intro x
  show (Function.update u.ca cr { u.ca cr with mark := 1 } x).lits = (u.ca x).lits
  by_cases e : x = cr
  · rw [e, Function.update_same]
  · rw [Function.update_noteq e]

theorem unlock_pruned (u : Solver) (v0 : Nat) (h0 : u.decisionLevel = 0) :
    Pruned u
      { u with vardata := Function.update u.vardata v0 { u.vardata v0 with reason := none } } := by
  refine ⟨rfl, rfl, rfl, rfl, rfl, rfl, rfl, rfl, rfl, rfl, rfl, rfl, rfl, rfl, ?_, ?_,
    fun _ => rfl, fun _ _ h => h, fun _ _ h => h, fun _ h => h, fun _ h => h⟩
  · intro v
    show (Function.update u.vardata v0 { u.vardata v0 with reason := none } v).level
      = (u.vardata v).level
    by_cases e : v = v0
    · rw [e, Function.update_same]
    · rw [Function.update_noteq e]
  · intro v
    show (Function.update u.vardata v0 { u.vardata v0 with reason := none } v).reason
      = (u.vardata v).reason ∨ _
    by_cases e : v = v0
    · right
      refine ⟨?_, h0⟩
      show (Function.update u.vardata v0 { u.vardata v0 with reason := none } v).reason = none
      rw [e, Function.update_same]
    · left
      rw [Function.update_noteq e]

/-- The function `removeClause`, on a clause that is not locked or at decision level 0. -/
theorem removeClause_pruned {s t : Solver} {cr : Nat} {b : Bool}
    (h : removeClause s cr b = some t) (hl : s.locked cr = false ∨ s.decisionLevel = 0) :
    Pruned s t ∧ t.clauses = s.clauses ∧ t.learnts = s.learnts := by
  obtain ⟨_, _, f3, f4, _⟩ := removeClause_frame h
  refine ⟨?_, f4, f3⟩
  unfold removeClause at h
  split at h
  · simp at h
  · next s1 h1 =>
    have e1 : Pruned s s1 ∧ s1.vardata = s.vardata ∧ s1.ca = s.ca := by
      split at h1
      · exact detachClausePurgatory_lazy_pruned h1
      · exact detachClause_lazy_pruned h1
    obtain ⟨p1, v1, c1⟩ := e1
    have hlk : s1.locked cr = s.locked cr := by
      unfold Solver.locked Solver.value Solver.reason
      rw [c1, v1, p1.assigns]
    have hd : s1.decisionLevel = s.decisionLevel := by
      unfold Solver.decisionLevel
      rw [p1.trail_lim]
    simp only [Option.some.injEq] at h
    rw [← h]
    refine (p1.pr_trans ?_).pr_trans (mark_pruned _ cr)
    split
    · next hk =>
      rw [hlk] at hk
      have h0 : s1.decisionLevel = 0 := by
        rcases hl with hl | hl
        · rw [hl] at hk
          cases hk
        · rw [hd]
          exact hl
      split
      · exact unlock_pruned s1 _ h0
      · exact Pruned.pr_refl s1
    · exact Pruned.pr_refl s1

theorem checkGarbage_pruned (o : Oracle) (s : Solver) : Pruned s (checkGarbage o s) := by
  unfold checkGarbage
  dsimp only
  split
  · refine ⟨rfl, rfl, rfl, rfl, rfl, rfl, rfl, rfl, rfl, rfl, rfl, rfl, rfl, rfl, fun _ => rfl,
      fun _ => Or.inl rfl, fun _ => rfl, ?_, ?_, fun _ h => h, fun _ h => h⟩
    · intro p w hw
      exact OccLists.mem_cleanAll (o := s.watchesBin) hw
    · intro p w hw
      exact OccLists.mem_cleanAll (o := s.watches) hw
  · exact Pruned.pr_of_body rfl

theorem reduceDBLoop_pruned : ∀ (sorted : List Nat) (i limit : Nat) (kept : List Nat)
    (s : Solver) (kept1 : List Nat) (t : Solver),
    reduceDBLoop sorted i limit kept s = some (kept1, t) →
    Pruned s t ∧ t.learnts = s.learnts ∧ ∀ cr ∈ kept1, cr ∈ kept ∨ cr ∈ sorted := by
  intro sorted
  induction sorted with
  | nil =>
    intro i limit kept s kept1 t h
    simp only [reduceDBLoop, Option.some.injEq, Prod.mk.injEq] at h
    rw [← h.1, ← h.2]
    exact ⟨Pruned.pr_refl s, rfl, fun cr h => Or.inl h⟩
  | cons cr rest ih =>
    intro i limit kept s kept1 t h
    rw [reduceDBLoop] at h
    dsimp only at h
    split at h
    · next hg =>
      split at h
      · simp at h
      · next s1 h1 =>
        obtain ⟨p1, _, l1⟩ := removeClause_pruned h1 (Or.inl hg.2.2.2.1)
        obtain ⟨p2, l2, k2⟩ := ih _ _ _ _ _ _ h
        refine ⟨p1.pr_trans (Pruned.pr_trans ?_ p2), l2.trans l1, ?_⟩
        · exact Pruned.pr_of_body rfl
        intro x hx
        rcases k2 x hx with a | a
        · exact Or.inl a
        · exact Or.inr (List.mem_cons_of_mem _ a)
    · obtain ⟨p2, l2, k2⟩ := ih _ _ _ _ _ _ h
      refine ⟨?_, l2, ?_⟩
      · refine Pruned.pr_trans ?_ p2
        refine Pruned.pr_of_eqs rfl rfl rfl rfl rfl rfl rfl rfl rfl rfl rfl rfl rfl rfl rfl ?_
          rfl rfl (fun _ h => h) (fun _ h => h)
        intro x
        show (Function.update s.ca cr { s.ca cr with canBeDel := true } x).lits = (s.ca x).lits
        by_cases e : x = cr
        · rw [e, Function.update_same]
        · rw [Function.update_noteq e]
      · intro x hx
        rcases k2 x hx with a | a
        · rcases List.mem_append.mp a with a | a
          · exact Or.inl a
          · simp only [List.mem_singleton] at a
            rw [a]
            exact Or.inr (List.mem_cons_self _ _)
        · exact Or.inr (List.mem_cons_of_mem _ a)

theorem reduceDBSpecial_body (s : Solver) (mid last : Nat) :
    (reduceDBSpecial s mid last).body = s.body := by
  unfold reduceDBSpecial
  dsimp only
  split <;> split <;> rfl

/-- The function `reduceDB` prunes the database. -/
theorem reduceDB_pruned {o : Oracle} {s t : Solver} (h : reduceDB o s = some t) :
    Pruned s t := by
  unfold reduceDB at h
  dsimp only at h
  split at h
  · next mid last _ _ =>
    split at h
    · simp at h
    · next kept s4 h4 =>
      simp only [Option.some.injEq] at h
      rw [← h]
      obtain ⟨p4, l4, k4⟩ := reduceDBLoop_pruned _ _ _ _ _ _ _ h4
      have pS := Pruned.pr_of_body (reduceDBSpecial_body
        { s with stats := { s.stats with nbReduceDB := s.stats.nbReduceDB + 1 },
                 learnts := sortLearnts o
                   { s with stats := { s.stats with nbReduceDB := s.stats.nbReduceDB + 1 } },
                 tick := s.tick + 1 } mid last)
      have p0 : Pruned s { s with
          stats := { s.stats with nbReduceDB := s.stats.nbReduceDB + 1 },
          learnts := sortLearnts o
            { s with stats := { s.stats with nbReduceDB := s.stats.nbReduceDB + 1 } },
          tick := s.tick + 1 } := by
        refine Pruned.pr_of_eqs rfl rfl rfl rfl rfl rfl rfl rfl rfl rfl rfl rfl rfl rfl rfl
          (fun _ => rfl) rfl rfl (fun _ h => h) ?_
        intro cr hcr
        exact mem_sortLearnts.mp hcr
      have p5 : Pruned s4 { s4 with learnts := kept } := by
        refine Pruned.pr_of_eqs rfl rfl rfl rfl rfl rfl rfl rfl rfl rfl rfl rfl rfl rfl rfl
          (fun _ => rfl) rfl rfl (fun _ h => h) ?_
        intro cr hcr
        rcases k4 cr hcr with a | a
        · cases a
        · rw [l4]
          have : (reduceDBSpecial { s with
              stats := { s.stats with nbReduceDB := s.stats.nbReduceDB + 1 },
              learnts := sortLearnts o
                { s with stats := { s.stats with nbReduceDB := s.stats.nbReduceDB + 1 } },
              tick := s.tick + 1 } mid last).learnts = sortLearnts o
                { s with stats := { s.stats with nbReduceDB := s.stats.nbReduceDB + 1 } } := by
            have := reduceDBSpecial_body { s with
              stats := { s.stats with nbReduceDB := s.stats.nbReduceDB + 1 },
              learnts := sortLearnts o
                { s with stats := { s.stats with nbReduceDB := s.stats.nbReduceDB + 1 } },
              tick := s.tick + 1 } mid last
            unfold Solver.body at this
            simp only [Prod.mk.injEq] at this
            exact this.2.2.2.2.2.2.2.2.2.2.2.2.2.2.1
          rw [this]
          exact a
      exact ((p0.pr_trans pS).pr_trans p4).pr_trans (p5.pr_trans (checkGarbage_pruned o _))
  · simp at h

theorem removeSatisfiedLoop_pruned : ∀ (cs kept : List Nat) (s : Solver) (kept1 : List Nat)
    (t : Solver), s.decisionLevel = 0 →
    removeSatisfiedLoop cs kept s = some (kept1, t) →
    Pruned s t ∧ t.clauses = s.clauses ∧ t.learnts = s.learnts ∧
      ∀ cr ∈ kept1, cr ∈ kept ∨ cr ∈ cs := by
  intro cs
  induction cs with
  | nil =>
    intro kept s kept1 t _ h
    simp only [removeSatisfiedLoop, Option.some.injEq, Prod.mk.injEq] at h
    rw [← h.1, ← h.2]
    exact ⟨Pruned.pr_refl s, rfl, rfl, fun cr h => Or.inl h⟩
  | cons cr rest ih =>
    intro kept s kept1 t h0 h
    rw [removeSatisfiedLoop] at h
    split at h
    · simp at h
    · split at h
      · simp at h
      · next s1 h1 =>
        obtain ⟨p1, c1, l1⟩ := removeClause_pruned h1 (Or.inr h0)
        have h01 : s1.decisionLevel = 0 := by
          unfold Solver.decisionLevel at h0 ⊢
          rw [p1.trail_lim]
          exact h0
        obtain ⟨p2, c2, l2, k2⟩ := ih _ _ _ _ h01 h
        refine ⟨p1.pr_trans p2, c2.trans c1, l2.trans l1, ?_⟩
        intro x hx
        rcases k2 x hx with a | a
        · exact Or.inl a
        · exact Or.inr (List.mem_cons_of_mem _ a)
    · obtain ⟨p2, c2, l2, k2⟩ := ih _ _ _ _ h0 h
      refine ⟨p2, c2, l2, ?_⟩
      intro x hx
      rcases k2 x hx with a | a
      · rcases List.mem_append.mp a with a | a
        · exact Or.inl a
        · simp only [List.mem_singleton] at a
          rw [a]
          exact Or.inr (List.mem_cons_self _ _)
      · exact Or.inr (List.mem_cons_of_mem _ a)

end Glucose


namespace Glucose

/-! ## The invariant through `simplify`, `reduceDB` and `cancelUntil` -/

/-- The function `simplify`: it answers `false` when `ok` is false or `propagate` finds
a conflict; it answers `true` after a `propagate` without conflict followed by a pruning
of the clause database. -/
theorem simplify_pruned {o : Oracle} {s t : Solver} {b : Bool}
    (h : simplify o s = some (b, t)) :
    s.decisionLevel = 0 ∧
    ((b = false ∧ (s.ok = false ∨ ∃ cr s1, propagate s = some (some cr, s1))) ∨
     (b = true ∧ s.ok = true ∧ ∃ s1, propagate s = some (none, s1) ∧ Pruned s1 t)) := by
  unfold simplify at h
  split at h
  · simp at h
  · next h0 =>
    have h0 : s.decisionLevel = 0 := by
      by_contra hc
      exact h0 hc
    refine ⟨h0, ?_⟩
    split at h
    · next hok =>
      simp only [Option.some.injEq, Prod.mk.injEq] at h
      exact Or.inl ⟨h.1.symm, Or.inl hok⟩
    · next hok =>
      have hok : s.ok = true := by
        cases hk : s.ok with
        | true => rfl
        | false => exact absurd hk hok
      split at h
      · simp at h
      · next cr s1 h1 =>
        simp only [Option.some.injEq, Prod.mk.injEq] at h
        exact Or.inl ⟨h.1.symm, Or.inr ⟨cr, s1, h1⟩⟩
      · next s1 h1 =>
        have hd1 : s1.decisionLevel = 0 := by
          unfold Solver.decisionLevel at h0 ⊢
          rw [(propagate_ext h1).trail_lim]
          exact h0
        split at h
        · simp only [Option.some.injEq, Prod.mk.injEq] at h
          rw [← h.2]
          exact Or.inr ⟨h.1.symm, hok, s1, h1, Pruned.pr_refl s1⟩
        · split at h
          · simp at h
          · next l2 s2 h2 =>
            dsimp only at h
            split at h
            · simp at h
            · next u2 s4 h4 =>
              split at h
              · simp at h
              · next s7 h7 =>
                obtain ⟨p2, _, g2, k2⟩ := removeSatisfiedLoop_pruned _ _ _ _ _ hd1 h2
                have q3 : Pruned s2 { s2 with learnts := l2 } := by
                  refine Pruned.pr_of_eqs rfl rfl rfl rfl rfl rfl rfl rfl rfl rfl rfl rfl rfl rfl
                    rfl (fun _ => rfl) rfl rfl (fun _ h => h) ?_
                  intro cr hcr
                  rcases k2 cr hcr with a | a
                  · cases a
                  · rw [g2]
                    exact a
                have hd3 : ({ s2 with learnts := l2 } : Solver).decisionLevel = 0 := by
                  unfold Solver.decisionLevel at hd1 ⊢
                  show s2.trail_lim.length = 0
                  rw [p2.trail_lim]
                  exact hd1
                obtain ⟨p4, _, _, _⟩ := removeSatisfiedLoop_pruned _ _ _ _ _ hd3 h4
                have q5 : Pruned s4 { s4 with unaryWatchedClauses := u2 } :=
                  Pruned.pr_of_eqs rfl rfl rfl rfl rfl rfl rfl rfl rfl rfl rfl rfl rfl rfl
                    rfl (fun _ => rfl) rfl rfl (fun _ h => h) (fun _ h => h)
                have hd5 : ({ s4 with unaryWatchedClauses := u2 } : Solver).decisionLevel
                    = 0 := by
                  unfold Solver.decisionLevel at hd3 ⊢
                  show s4.trail_lim.length = 0
                  rw [p4.trail_lim]
                  exact hd3
                have p7 : Pruned { s4 with unaryWatchedClauses := u2 } s7 := by
                  split at h7
                  · split at h7
                    · simp at h7
                    · next c2 s6 h6 =>
                      simp only [Option.some.injEq] at h7
                      rw [← h7]
                      obtain ⟨p6, c6, _, k6⟩ := removeSatisfiedLoop_pruned _ _ _ _ _ hd5 h6
                      refine p6.pr_trans ?_
                      refine Pruned.pr_of_eqs rfl rfl rfl rfl rfl rfl rfl rfl rfl rfl rfl rfl
                        rfl rfl rfl (fun _ => rfl) rfl rfl ?_ (fun _ h => h)
                      intro cr hcr
                      rcases k6 cr hcr with a | a
                      · cases a
                      · rw [c6]
                        exact a
                  · simp only [Option.some.injEq] at h7
                    rw [← h7]
                    exact Pruned.pr_refl _
                simp only [Option.some.injEq, Prod.mk.injEq] at h
                rw [← h.2]
                refine Or.inr ⟨h.1.symm, hok, s1, h1, ?_⟩
                refine (((((p2.pr_trans q3).pr_trans p4).pr_trans q5).pr_trans p7).pr_trans
                  (checkGarbage_pruned o s7)).pr_trans ?_
                exact Pruned.pr_of_body rfl

/-- Pruning the clause database keeps the invariant. -/
theorem AInv.ainv_pruned {s t : Solver} (h : AInv s) (p : Pruned s t) : AInv t := by
  have hT : TrailOK t := by
    obtain ⟨a, b, c, d, e, f⟩ := h.trail
    refine ⟨?_, ?_, ?_, ?_, ?_, ?_⟩
    · intro l hl
      rw [p.trail] at hl
      have := a l hl
      unfold Solver.value at this ⊢
      rw [p.assigns]
      exact this
    · rw [p.assigns, p.trail]; exact b
    · rw [p.trail]; exact c
    · rw [p.trail_lim]; exact d
    · rw [p.trail, p.trail_lim]; exact e
    · intro i l hg
      rw [p.trail] at hg
      rw [p.levels, p.trail_lim]
      exact f i l hg
  refine ⟨hT, ?_, ?_, ?_, ?_, ?_, ?_, ?_, ?_⟩
  · intro i l r hg hr
    rw [p.trail] at hg
    rcases p.reasons l.var with e | ⟨e, _⟩
    · rw [e] at hr
      rw [p.lits]
      exact (h.reasons i l r hg hr).mono (fun j q _ hq => by rw [p.trail]; exact hq)
    · rw [e] at hr
      cases hr
  · intro i l hg hr hpos
    rw [p.trail] at hg
    rw [p.levels] at hpos
    rw [p.trail_lim]
    rcases p.reasons l.var with e | ⟨_, d⟩
    · rw [e] at hr
      exact h.fences i l hg hr hpos
    · have hle := h.trail.toLevelsOK l.var
        (assigned_of_value (by rw [h.trail.allTrue l (mem_of_get? hg)]; simp))
      rw [d] at hle
      omega
  · intro q w hw
    rw [p.lits]
    exact h.bin q w (p.bin q w hw)
  · intro cr hcr
    rw [p.caSize] at hcr
    rw [p.lits]
    exact h.fresh cr hcr
  · rw [p.opts]; exact h.noUnary
  · rw [p.seen]; exact h.seen0
  · rw [p.permDiff, p.myflag]; exact h.stamps
  · rw [p.lastDL]; exact h.lastDL

theorem CInv.cinv_pruned {s t : Solver} (h : CInv s) (p : Pruned s t) : CInv t := by
  refine ⟨h.core.ainv_pruned p, ?_, ?_, ?_⟩
  · intro i l hi hg
    rw [p.qhead] at hi
    rw [p.trail] at hg
    have := h.queue i l hi hg
    unfold Solver.decisionLevel at this ⊢
    rw [p.levels, p.trail_lim]
    exact this
  · rw [p.qhead, p.trail_lim]; exact h.lims
  · rw [p.qhead, p.trail]; exact h.qle

/-! ### Backtracking -/

theorem insertVarOrder_body (s : Solver) (x : Nat) : (s.insertVarOrder x).body = s.body := by
  unfold Solver.insertVarOrder
  split <;> rfl

/-- The loop of `cancelUntil` writes the assignment, the saved polarities and the order
heap only. -/
theorem cancelLoop_body (lastLim : Nat) (a : Nat → lbool) :
    ∀ (removed : List (Nat × Lit)) (s : Solver),
    ({ cancelLoop lastLim removed s with assigns := a } : Solver).body
      = ({ s with assigns := a } : Solver).body := by
  intro removed
  induction removed with
  | nil => intro s; rfl
  | cons x rest ih =>
    intro s
    obtain ⟨c, l⟩ := x
    unfold cancelLoop
    dsimp only
    rw [ih]
    have h1 := insertVarOrder_body
      (if 1 < s.opts.phase_saving ∨ (s.opts.phase_saving = 1 ∧ lastLim < c) then
        ({ s with assigns := Function.update s.assigns l.var lbool.l_Undef,
                  polarity := Function.update s.polarity l.var l.sign } : Solver)
       else { s with assigns := Function.update s.assigns l.var lbool.l_Undef }) l.var
    unfold Solver.body at h1 ⊢
    simp only [Prod.mk.injEq] at h1 ⊢
    obtain ⟨a1, a2, a3, a4, a5, a6, a7, a8, a9, a10, a11, a12, a13, a14, a15, a16, a17, a18,
      a19, a20, a21, a22, a23, a24⟩ := h1
    refine ⟨?_, ?_, trivial, ?_, ?_, ?_, ?_, ?_, ?_, ?_, ?_, ?_, ?_, ?_, ?_, ?_, ?_, ?_, ?_,
      ?_, ?_, ?_, ?_, ?_⟩
    · rw [a1]; split <;> rfl
    · rw [a2]; split <;> rfl
    · rw [a4]; split <;> rfl
    · rw [a5]; split <;> rfl
    · rw [a6]; split <;> rfl
    · rw [a7]; split <;> rfl
    · rw [a8]; split <;> rfl
    · rw [a9]; split <;> rfl
    · rw [a10]; split <;> rfl
    · rw [a11]; split <;> rfl
    · rw [a12]; split <;> rfl
    · rw [a13]; split <;> rfl
    · rw [a14]; split <;> rfl
    · rw [a15]; split <;> rfl
    · rw [a16]; split <;> rfl
    · rw [a17]; split <;> rfl
    · rw [a18]; split <;> rfl
    · rw [a19]; split <;> rfl
    · rw [a20]; split <;> rfl
    · rw [a21]; split <;> rfl
    · rw [a22]; split <;> rfl
    · rw [a23]; split <;> rfl
    · rw [a24]; split <;> rfl

/-- The members that `cancelUntil` does not write. -/
theorem cancelUntil_frame (s : Solver) (k : Nat) :
    (cancelUntil s k).vardata = s.vardata ∧ (cancelUntil s k).ca = s.ca ∧
    (cancelUntil s k).caSize = s.caSize ∧ (cancelUntil s k).watchesBin = s.watchesBin ∧
    (cancelUntil s k).watches = s.watches ∧ (cancelUntil s k).opts = s.opts ∧
    (cancelUntil s k).seen = s.seen ∧ (cancelUntil s k).permDiff = s.permDiff ∧
    (cancelUntil s k).MYFLAG = s.MYFLAG ∧
    (cancelUntil s k).lastDecisionLevel = s.lastDecisionLevel ∧
    (cancelUntil s k).ok = s.ok ∧ (cancelUntil s k).nVars = s.nVars ∧
    (cancelUntil s k).clauses = s.clauses ∧ (cancelUntil s k).learnts = s.learnts ∧
    (cancelUntil s k).assumptions = s.assumptions ∧
    (cancelUntil s k).decision = s.decision := by
  unfold cancelUntil
  split
  · dsimp only
    have h := cancelLoop_body (s.trail_lim.getLastD 0) s.assigns
      (((s.trail.enum).drop (s.trail_lim.getD k 0)).reverse) s
    unfold Solver.body at h
    simp only [Prod.mk.injEq] at h
    obtain ⟨a1, a2, a3, a4, a5, a6, a7, a8, a9, a10, a11, a12, a13, a14, a15, a16, a17, a18,
      a19, a20, a21, a22, a23, a24⟩ := h
    exact ⟨a4, a12, a13, a18, a17, a24, a6, a7, a8, a22, a1, a2, a14, a15, a23, a5⟩
  · exact ⟨rfl, rfl, rfl, rfl, rfl, rfl, rfl, rfl, rfl, rfl, rfl, rfl, rfl, rfl, rfl, rfl⟩

theorem mem_take_of_sorted_lt {lims : List Nat} {k lim i : Nat}
    (hs : lims.Pairwise (fun a b => a ≤ b)) (hk : lims.get? k = some lim) (hi : i ∈ lims)
    (hlt : i < lim) : i ∈ lims.take k := by
  have h2 := (lims_split hs hk).2
  rw [← List.take_append_drop k lims] at hi
  rcases List.mem_append.mp hi with h | h
  · exact h
  · have := h2 i h
    omega

/-- Backtracking below the current level gives a state of the head of the loop, with an
empty queue. -/
theorem cancelUntil_ainv {s : Solver} {k : Nat} (hs : AInv s) (hk : k < s.decisionLevel) :
    CInv (cancelUntil s k) ∧ (cancelUntil s k).qhead = (cancelUntil s k).trail.length := by
  have hT := cancelUntil_trailOK k hs.trail
  obtain ⟨f1, f2, f3, f4, f5, f6, f7, f8, f9, f10, _⟩ := cancelUntil_frame s k
  obtain ⟨e3, e5, e4, _, e1⟩ := cancelUntil_fields s k hk
  generalize cancelUntil s k = t at *
  generalize hlim : s.trail_lim.getD k 0 = lim at *
  have hk2 : k < s.trail_lim.length := hk
  have hkg : s.trail_lim.get? k = some lim := by
    rw [← hlim, List.get?_eq_getElem?, List.getD_eq_getElem?_getD,
      List.getElem?_eq_getElem hk2]
    rfl
  have hlimlen : lim ≤ s.trail.length := hs.trail.limsBound lim (mem_of_get? hkg)
  have hget : ∀ i l, t.trail.get? i = some l → i < lim ∧ s.trail.get? i = some l := by
    intro i l hg
    rw [e3, List.get?_eq_getElem?, List.getElem?_take] at hg
    split at hg
    · next hi => exact ⟨hi, by rw [List.get?_eq_getElem?]; exact hg⟩
    · simp at hg
  have hget2 : ∀ i l, i < lim → s.trail.get? i = some l → t.trail.get? i = some l := by
    intro i l hi hg
    rw [e3, List.get?_eq_getElem?, List.getElem?_take, if_pos hi, ← List.get?_eq_getElem?]
    exact hg
  have hlen : t.trail.length = lim := by
    rw [e3, List.length_take]
    omega
  refine ⟨⟨⟨hT, ?_, ?_, ?_, ?_, ?_, ?_, ?_, ?_⟩, ?_, ?_, ?_⟩, ?_⟩
  · intro i l r hg hr
    obtain ⟨hi, hg2⟩ := hget i l hg
    have hr2 : s.reason l.var = some r := by
      unfold Solver.reason at hr ⊢
      rw [← f1]
      exact hr
    rw [f2]
    exact (hs.reasons i l r hg2 hr2).mono (fun j q hj hq => hget2 j q (by omega) hq)
  · intro i l hg hr hpos
    obtain ⟨hi, hg2⟩ := hget i l hg
    rw [e4]
    apply mem_take_of_sorted_lt hs.trail.limsSorted hkg _ hi
    apply hs.fences i l hg2
    · unfold Solver.reason at hr ⊢
      rw [← f1]
      exact hr
    · unfold Solver.level at hpos ⊢
      rw [← f1]
      exact hpos
  · intro p w hw
    rw [f2]
    rw [f4] at hw
    exact hs.bin p w hw
  · intro cr hcr
    rw [f3] at hcr
    rw [f2]
    exact hs.fresh cr hcr
  · rw [f6]; exact hs.noUnary
  · rw [f7]; exact hs.seen0
  · rw [f8, f9]; exact hs.stamps
  · rw [f10]; exact hs.lastDL
  · intro i l hi hg
    obtain ⟨hi2, _⟩ := hget i l hg
    rw [e5] at hi
    omega
  · intro b hb
    rw [e4] at hb
    rw [e5]
    exact (lims_split hs.trail.limsSorted hkg).1 b (mem_take_succ hb)
  · rw [e5, hlen]
  · rw [e5, hlen]

theorem cancelUntil_cinv {s : Solver} (k : Nat) (hs : CInv s)
    (hq : s.qhead = s.trail.length) :
    CInv (cancelUntil s k) ∧ (cancelUntil s k).qhead = (cancelUntil s k).trail.length := by
  by_cases hk : k < s.decisionLevel
  · exact cancelUntil_ainv hs.core hk
  · rw [cancelUntil_of_le s k (Nat.le_of_not_lt hk)]
    exact ⟨hs, hq⟩

end Glucose


namespace Glucose

/-! ## The invariant through the steps that assign a literal -/

theorem uncheckedEnqueue_cinv {s s1 : Solver} {p : Lit} {r : Option Nat}
    (h : uncheckedEnqueue s p r = some s1) (hs : CInv s)
    (hr : ∀ cr, r = some cr → ReasonAt s s.trail.length p (s.ca cr).lits)
    (hn : r = none → s.decisionLevel = 0 ∨ s.trail.length ∈ s.trail_lim) : CInv s1 := by
  have hx := uncheckedEnqueue_ext h
  have hT := hx.trailOK hs.core.trail
  have hR := uncheckedEnqueue_reasonsOK h hs.core.trail hs.core.reasons hr
  have hQ := hx.queueFrom hs.core.trail hs.queue
  obtain ⟨hu, e⟩ := uncheckedEnqueue_eq h
  subst e
  refine ⟨⟨hT, hR, ?_, hs.core.bin, hs.core.fresh, hs.core.noUnary, hs.core.seen0,
    hs.core.stamps, hs.core.lastDL⟩, hQ, hs.lims, ?_⟩
  · intro i l hg hrn hpos
    have hg2 : (s.trail ++ [p]).get? i = some l := hg
    show i ∈ s.trail_lim
    rcases get?_append_cases hg2 with ⟨hi, hgs⟩ | ⟨hi, hl⟩
    · have hlt : l ∈ s.trail := mem_of_get? hgs
      have hne : l.var ≠ p.var := by
        intro e
        have h1 := hs.core.trail.allTrue l hlt
        have h2 : s.assigns l.var ≠ lbool.l_Undef := assigned_of_value (by rw [h1]; simp)
        rw [e] at h2
        exact h2 (value_undef_iff.mp hu)
      have hv : Function.update s.vardata p.var ⟨r, s.decisionLevel⟩ l.var = s.vardata l.var :=
        Function.update_noteq hne _ _
      apply hs.core.fences i l hgs
      · have : (Function.update s.vardata p.var ⟨r, s.decisionLevel⟩ l.var).reason = none := hrn
        rw [hv] at this
        exact this
      · have : 0 < (Function.update s.vardata p.var ⟨r, s.decisionLevel⟩ l.var).level := hpos
        rw [hv] at this
        exact this
    · simp only [List.mem_singleton] at hl
      subst hl
      have hlen : i = s.trail.length := by
        have : i < (s.trail ++ [l]).length := by
          by_contra hcon
          rw [List.get?_eq_getElem?, List.getElem?_eq_none (Nat.le_of_not_lt hcon)] at hg2
          cases hg2
        simp only [List.length_append, List.length_singleton] at this
        omega
      have h1 : (Function.update s.vardata l.var ⟨r, s.decisionLevel⟩ l.var).reason = none := hrn
      have h2 : 0 < (Function.update s.vardata l.var ⟨r, s.decisionLevel⟩ l.var).level := hpos
      rw [Function.update_same] at h1 h2
      rcases hn h1 with h0 | hm
      · have : 0 < s.decisionLevel := h2
        omega
      · rw [hlen]
        exact hm
  · show s.qhead ≤ (s.trail ++ [p]).length
    rw [List.length_append]
    have := hs.qle
    omega

theorem newDecisionLevel_cinv {s : Solver} (hs : CInv s) (hq : s.qhead = s.trail.length) :
    CInv s.newDecisionLevel := by
  refine ⟨⟨newDecisionLevel_trailOK hs.core.trail, ?_, ?_, hs.core.bin, hs.core.fresh,
    hs.core.noUnary, hs.core.seen0, hs.core.stamps, hs.core.lastDL⟩, ?_, ?_, hs.qle⟩
  · exact hs.core.reasons.reasons_of_fields rfl rfl (fun _ => rfl)
  · intro i l hg hr hpos
    show i ∈ s.trail_lim ++ [s.trail.length]
    exact List.mem_append_left _ (hs.core.fences i l hg hr hpos)
  · intro i l hi hg
    have hg2 : s.trail.get? i = some l := hg
    have hi2 : s.qhead ≤ i := hi
    have : i < s.trail.length := by
      by_contra hcon
      rw [List.get?_eq_getElem?, List.getElem?_eq_none (Nat.le_of_not_lt hcon)] at hg2
      cases hg2
    omega
  · intro b hb
    have hb2 : b ∈ s.trail_lim ++ [s.trail.length] := hb
    show b ≤ s.qhead
    rcases List.mem_append.mp hb2 with h | h
    · exact hs.lims b h
    · simp only [List.mem_singleton] at h
      omega

/-- A decision keeps the invariant. -/
theorem decide_cinv {s t : Solver} {p : Lit} (hs : CInv s) (hq : s.qhead = s.trail.length)
    (h : uncheckedEnqueue s.newDecisionLevel p none = some t) : CInv t := by
  apply uncheckedEnqueue_cinv h (newDecisionLevel_cinv hs hq)
  · intro cr hcr
    cases hcr
  · intro _
    right
    show s.trail.length ∈ s.trail_lim ++ [s.trail.length]
    simp

theorem attachClause_frame2 {s t : Solver} {cr : Nat} (h : attachClause s cr = some t) :
    t.ca = s.ca ∧ t.caSize = s.caSize ∧ t.opts = s.opts ∧ t.seen = s.seen ∧
      t.permDiff = s.permDiff ∧ t.MYFLAG = s.MYFLAG ∧
      t.lastDecisionLevel = s.lastDecisionLevel ∧ t.qhead = s.qhead ∧ t.ok = s.ok := by
  unfold attachClause at h
  dsimp only at h
  split at h
  · simp only [Option.some.injEq] at h
    rw [← h]
    split <;> split <;> exact ⟨rfl, rfl, rfl, rfl, rfl, rfl, rfl, rfl, rfl⟩
  · simp at h

theorem CInv.cinv_of_eqs {s t : Solver} (h : CInv s) (e1 : t.assigns = s.assigns)
    (e2 : t.vardata = s.vardata) (e3 : t.trail = s.trail) (e4 : t.trail_lim = s.trail_lim)
    (e5 : t.qhead = s.qhead) (e6 : t.ca = s.ca) (e7 : t.caSize = s.caSize)
    (e8 : t.opts = s.opts) (e9 : t.seen = s.seen) (e10 : t.permDiff = s.permDiff)
    (e11 : t.MYFLAG = s.MYFLAG) (e12 : t.lastDecisionLevel = s.lastDecisionLevel)
    (hb : BinWatchOK t) : CInv t := by
  obtain ⟨⟨a, b, c, d, e, f, g, h1, h2⟩, q1, q2, q3⟩ := h
  refine ⟨⟨a.trail_of_fields e1 e2 e3 e4, b.reasons_of_fields e3 e2 (fun _ => by rw [e6]),
    ?_, hb, ?_, ?_, ?_, ?_, ?_⟩, ?_, ?_, ?_⟩
  · unfold FenceOK Solver.reason Solver.level at *
    rw [e2, e3, e4]
    exact c
  · unfold Fresh at *
    rw [e6, e7]
    exact e
  · rw [e8]; exact f
  · rw [e9]; exact g
  · rw [e10, e11]; exact h1
  · rw [e12]; exact h2
  · unfold QueueFrom Solver.level Solver.decisionLevel at *
    rw [e5, e2, e3, e4]
    exact q1
  · rw [e5, e4]; exact q2
  · rw [e5, e3]; exact q3

/-- The allocation of a clause at the end of the arena keeps the invariant. -/
theorem alloc_cinv {s S1 : Solver} (c : Clause) (hs : CInv s) (e1 : S1.assigns = s.assigns)
    (e2 : S1.vardata = s.vardata) (e3 : S1.trail = s.trail) (e4 : S1.trail_lim = s.trail_lim)
    (e5 : S1.qhead = s.qhead) (e6 : S1.ca = Function.update s.ca s.caSize c)
    (e7 : S1.caSize = s.caSize + 1) (e8 : S1.watchesBin = s.watchesBin)
    (e9 : S1.opts = s.opts) (e10 : S1.seen = s.seen) (e11 : S1.permDiff = s.permDiff)
    (e12 : S1.MYFLAG = s.MYFLAG) (e13 : S1.lastDecisionLevel = s.lastDecisionLevel) :
    CInv S1 := by
  have hA := hs.core
  have hne : ∀ cr, (s.ca cr).lits ≠ [] → cr ≠ s.caSize := by
    intro cr hcr e
    rw [e] at hcr
    exact hcr (hA.fresh s.caSize (le_refl _))
  refine ⟨⟨hA.trail.trail_of_fields e1 e2 e3 e4, ?_, ?_, ?_, ?_, ?_, ?_, ?_, ?_⟩,
    ?_, ?_, ?_⟩
  · intro i l cr hg hrr
    rw [e3] at hg
    have hrr2 : s.reason l.var = some cr := by
      unfold Solver.reason at hrr ⊢
      rw [← e2]
      exact hrr
    have h1 := hA.reasons i l cr hg hrr2
    have hcr : cr ≠ s.caSize := by
      apply hne
      rcases h1 with ⟨rest2, e, _⟩ | ⟨q, e, _⟩ <;> rw [e] <;> simp
    rw [e6, Function.update_noteq hcr]
    exact h1.mono (fun j q _ hq => by rw [e3]; exact hq)
  · have := hA.fences
    unfold FenceOK Solver.reason Solver.level at *
    rw [e2, e3, e4]
    exact this
  · intro p w hw
    rw [e8] at hw
    have h1 := hA.bin p w hw
    have hcr : w.cref ≠ s.caSize := by
      apply hne
      rcases h1 with e | e <;> rw [e] <;> simp
    rw [e6, Function.update_noteq hcr]
    exact h1
  · intro cr hcr
    rw [e7] at hcr
    have hcr2 : cr ≠ s.caSize := by omega
    rw [e6, Function.update_noteq hcr2]
    exact hA.fresh cr (by omega)
  · rw [e9]; exact hA.noUnary
  · rw [e10]; exact hA.seen0
  · rw [e11, e12]; exact hA.stamps
  · rw [e13]; exact hA.lastDL
  · have := hs.queue
    unfold QueueFrom Solver.level Solver.decisionLevel at *
    rw [e5, e2, e3, e4]
    exact this
  · rw [e5, e4]; exact hs.lims
  · rw [e5, e3]; exact hs.qle

theorem attachClause_cinv {s t : Solver} {cr : Nat} (h : attachClause s cr = some t)
    (hs : CInv s) : CInv t := by
  obtain ⟨a1, a2, a3, a4, _, _⟩ := attachClause_assigns h
  obtain ⟨b1, b2, b3, b4, b5, b6, b7, b8, _⟩ := attachClause_frame2 h
  exact hs.cinv_of_eqs a1 a2 a3 a4 b8 b1 b2 b3 b4 b5 b6 b7
    ((attachClause_ext h).binWatchOK hs.core.bin)

/-- The installation of the learnt clause keeps the invariant, when the literals of the
clause after the first are false and a unit clause is installed at level 0. -/
theorem installLearnt_cinv {r : AnalyzeResult} {s t : Solver} {o0 : Lit} {rest : List Lit}
    (h : installLearnt r s = some t) (hs : CInv s) (hr : r.out_learnt = o0 :: rest)
    (hf : ∀ x ∈ rest, s.value x = lbool.l_False)
    (hu : rest = [] → s.decisionLevel = 0) : CInv t := by
  unfold installLearnt at h
  rw [hr] at h
  cases rest with
  | nil =>
    dsimp only at h
    split at h
    · simp at h
    · next s1 h1 =>
      simp only [Option.some.injEq] at h
      rw [← h]
      have := uncheckedEnqueue_cinv h1 hs (fun cr hcr => by cases hcr)
        (fun _ => Or.inl (hu rfl))
      exact this.cinv_of_body rfl
  | cons o1 ls =>
    dsimp only at h
    have step : ∀ (S1 s2 : Solver), attachClause S1 s.caSize = some s2 →
        uncheckedEnqueue { s2 with lastLearntClause := some s.caSize } o0 (some s.caSize)
          = some t → S1.assigns = s.assigns → S1.trail = s.trail →
        S1.ca = Function.update s.ca s.caSize (learntClause r) → CInv S1 → CInv t := by
      intro S1 s2 h2 h3 e1 e3 e6 hS1
      have hs2 := attachClause_cinv h2 hS1
      obtain ⟨a1, _, a3, _⟩ := attachClause_assigns h2
      obtain ⟨b1, _⟩ := attachClause_frame2 h2
      have hs3 : CInv { s2 with lastLearntClause := some s.caSize } := hs2.cinv_of_body rfl
      apply uncheckedEnqueue_cinv h3 hs3
      · intro cr hcr
        simp only [Option.some.injEq] at hcr
        subst hcr
        have hl : (({ s2 with lastLearntClause := some s.caSize } : Solver).ca s.caSize).lits
            = o0 :: o1 :: ls := by
          show (s2.ca s.caSize).lits = o0 :: o1 :: ls
          rw [b1, e6, Function.update_same]
          exact hr
        rw [hl]
        refine Or.inl ⟨o1 :: ls, rfl, ?_⟩
        intro q hq
        apply hs3.core.trail.index_of_false
        show (s2.assigns q.var).xor q.sign = lbool.l_False
        rw [a1, e1]
        exact hf q hq
      · intro hcr
        cases hcr
    split at h
    · simp at h
    · next s2 h2 =>
      refine step _ s2 h2 h rfl rfl rfl ?_
      exact alloc_cinv (learntClause r) hs rfl rfl rfl rfl rfl rfl rfl rfl rfl rfl rfl rfl rfl

end Glucose


namespace Glucose

/-! ## The loop of `search` keeps the invariants -/

theorem LongSpec.long_ok {p : Lit} {w : Watcher} {s : Solver} {out : WatchOutcome}
    (h : LongSpec p w s out) : out.state.ok = s.ok := by
  cases h with
  | skip _ => rfl
  | sat c0 c1 rest first hv _ _ => rfl
  | moved c0 c1 rest first k x hv _ hx _ _ => rfl
  | conflict c0 c1 rest first hv _ _ => rfl
  | unit c0 c1 rest first s2 hv _ _ he =>
    obtain ⟨_, e2⟩ := uncheckedEnqueue_eq he
    subst e2
    rfl

theorem propagateLong_ok {p : Lit} {ws kept : List Watcher} {confl : Option Nat}
    {s : Solver} {r : Option Nat × List Watcher × Solver}
    (h : propagateLong p ws kept confl s = some r) : r.2.2.ok = s.ok := by
  refine propagateLong_induct (p := p) (fun _ _ t => t.ok = s.ok) ?_ ?_ ?_
    ws kept confl s r rfl h
  · intro _ _ _ _ t _ t1 hI hs
    exact (longStep_spec hs).long_ok.trans hI
  · intro _ _ _ _ t t1 hI hs
    exact (longStep_spec hs).long_ok.trans hI
  · intro _ _ _ _ t _ _ t1 hI hs
    exact (longStep_spec hs).long_ok.trans hI

theorem propagateBin_ok {ws : List Watcher} {s : Solver} {r : Option Nat × Solver}
    (h : propagateBin ws s = some r) : r.2.ok = s.ok := by
  induction ws generalizing s with
  | nil =>
    simp only [propagateBin, Option.some.injEq] at h
    subst h
    rfl
  | cons w ws ih =>
    unfold propagateBin at h
    split at h
    · simp only [Option.some.injEq] at h
      subst h
      rfl
    · split at h
      · split at h
        · simp at h
        · next s1 he =>
          obtain ⟨_, e2⟩ := uncheckedEnqueue_eq he
          rw [ih h, e2]
      · exact ih h

/-- The function `propagate` does not write the flag `ok`, when one-watched clauses are
not in use. -/
theorem propagate_ok {s : Solver} {r : Option Nat × Solver} (h : propagate s = some r)
    (hU : s.opts.useUnaryWatched = false) : r.2.ok = s.ok := by
  unfold propagate at h
  refine propagateLoop_induct
    (fun _ t => t.ok = s.ok ∧ t.opts.useUnaryWatched = false)
    (fun _ t => t.ok = s.ok) ?_ ?_ ?_ _ none 0 s.cleanAllWatches r ⟨rfl, hU⟩ h
  · intro confl s0 p s1 confl1 kept s2 hI hq hp hb hl
    obtain ⟨b1, b2, b3, b4, b5, b6⟩ := propagateBin_ca hb
    have ho2 : s2.opts = s1.opts := (scalars_opts (propagateLong_scalars hl)).2.1
    have hU2 : s2.opts.useUnaryWatched = false := by
      rw [ho2, b6]
      exact hI.2
    refine ⟨⟨?_, hU2⟩, ?_⟩
    · show s2.ok = s.ok
      rw [propagateLong_ok hl, propagateBin_ok hb]
      exact hI.1
    · intro confl2 s4 hu _ _
      rw [hU2] at hu
      cases hu
  · intro confl s0 p s1 cr hI hq hp hb
    show s1.ok = s.ok
    rw [propagateBin_ok hb]
    exact hI.1
  · intro confl s0 n hI hq
    exact hI.1

theorem installLearnt_flags {r : AnalyzeResult} {s t : Solver}
    (h : installLearnt r s = some t) : t.ok = s.ok ∧ t.assumptions = s.assumptions := by
  unfold installLearnt at h
  split at h
  · simp at h
  · split at h
    · simp at h
    · next s1 h1 =>
      obtain ⟨_, e⟩ := uncheckedEnqueue_eq h1
      simp only [Option.some.injEq] at h
      rw [← h, e]
      exact ⟨rfl, rfl⟩
  · dsimp only at h
    split at h
    · simp at h
    · next s2 h2 =>
      obtain ⟨_, e⟩ := uncheckedEnqueue_eq h
      obtain ⟨_, _, _, _, a5, _⟩ := attachClause_assigns h2
      obtain ⟨_, _, _, _, _, _, _, _, b9⟩ := attachClause_frame2 h2
      rw [e]
      exact ⟨b9, a5⟩

/-- A false literal at a level not above `k` is false after backtracking to `k`. -/
theorem false_after_cancel {s : Solver} {k : Nat} {x : Lit} (hT : TrailOK s)
    (hk : k < s.decisionLevel) (hx : s.value x = lbool.l_False) (hl : s.level x.var ≤ k) :
    (cancelUntil s k).value x = lbool.l_False := by
  obtain ⟨j, hj, hg⟩ := hT.index_of_false hx
  obtain ⟨_, _, _, _, e1⟩ := cancelUntil_fields s k hk
  have hk2 : k < s.trail_lim.length := hk
  have hkg : s.trail_lim.get? k = some (s.trail_lim.getD k 0) := by
    rw [List.get?_eq_getElem?, List.getD_eq_getElem?_getD, List.getElem?_eq_getElem hk2]
    rfl
  have hlev := hT.levels j x.neg hg
  rw [Lit.neg_var] at hlev
  have hjl : j < s.trail_lim.getD k 0 := by
    by_contra hcon
    have := levelAt_ge_of_le hT.limsSorted hkg (Nat.le_of_not_lt hcon)
    omega
  have hm : x.neg ∈ s.trail.take (s.trail_lim.getD k 0) := by
    rw [List.mem_take_iff_getElem]
    refine ⟨j, by omega, ?_⟩
    rw [List.get?_eq_getElem?] at hg
    exact (List.getElem?_eq_some_iff.mp hg).2
  have hnr := not_removed_of_kept hT.nodup hm
  rw [Lit.neg_var] at hnr
  unfold Solver.value at hx ⊢
  rw [(e1 x.var).2 hnr]
  exact hx

/-- The conflict branch of `search`. -/
theorem searchConflict_pass {o : Oracle} {X Y : Solver → Prop} (st : SearchInv o X Y)
    {confl conflictC : Nat} {blocked : Bool} {s : Solver} {out : SearchStep}
    (h : searchConflict confl conflictC blocked s = some out) (hs : AInv s)
    (hc : ConflAt s confl) (ha : s.assumptions = []) (hok : s.ok = true) (hY : Y s) :
    (∀ c b t, out = SearchStep.next c b t →
      CInv t ∧ t.assumptions = [] ∧ t.ok = true ∧ X t) ∧
    (∀ r t, out = SearchStep.done r t →
      r = lbool.l_False ∧ ∃ u cr, AInv u ∧ Y u ∧ ConflAt u cr ∧ u.decisionLevel = 0) := by
  rcases searchConflict_cases h with ⟨h0, s1, e1, rfl⟩ | ⟨h0, s3, r, s5, s9, c1, b1, e3, ha3, e5, h9, rfl⟩
  · refine ⟨(fun c b t e => by cases e), ?_⟩
    intro r t e
    simp only [SearchStep.done.injEq] at e
    exact ⟨e.1.symm, s, confl, hs, hY, hc, h0⟩
  · refine ⟨?_, fun r t e => by cases e⟩
    intro c b t e
    simp only [SearchStep.next.injEq] at e
    obtain ⟨_, _, e⟩ := e
    rw [← e]
    have hpos : 0 < s.decisionLevel := Nat.pos_of_ne_zero h0
    obtain ⟨g1, g2, g3, g4, _⟩ := body_fields e3
    have hd3 : s3.decisionLevel = s.decisionLevel := by
      unfold Solver.decisionLevel
      rw [g4]
    have hpos3 : 0 < s3.decisionLevel := by rw [hd3]; exact hpos
    have hs3 := hs.ainv_of_body e3
    have hc3 := hc.confl_of_body e3
    have hY3 := st.bodyC s s3 e3 hY
    obtain ⟨hA4, f4, _, o0, rest, hr, hv0, hl0, hrest, hb0, hb1⟩ :=
      analyze_ainv hs3 hpos3 hc3 ha3
    have hA5 := hA4.ainv_of_body e5
    obtain ⟨k1, k2, k3, k4, _, _, _, _, _, _, _, _, _, k14, k15⟩ := body_fields e5
    have hd5 : s5.decisionLevel = s3.decisionLevel := by
      unfold Solver.decisionLevel
      rw [k4, f4.trail_lim]
    have hval5 : ∀ x, s5.value x = s3.value x := by
      intro x
      unfold Solver.value
      rw [k1, f4.assigns]
    have hlev5 : ∀ v, s5.level v = s3.level v := by
      intro v
      unfold Solver.level
      rw [k2, f4.vardata]
    have hbt : r.out_btlevel < s5.decisionLevel := by
      rw [hd5]
      cases rest with
      | nil => rw [hb0 rfl]; exact hpos3
      | cons o1 tl =>
        rw [(hb1 o1 tl rfl).1]
        exact (hrest o1 (List.mem_cons_self _ _)).2.2
    obtain ⟨hC6, hq6⟩ := cancelUntil_ainv hA5 hbt
    have hC9 : CInv s9 := by
      apply installLearnt_cinv h9 hC6 hr
      · intro x hx
        apply false_after_cancel hA5.trail hbt
        · rw [hval5]
          exact (hrest x hx).1
        · rw [hlev5]
          cases rest with
          | nil => cases hx
          | cons o1 tl =>
            rw [(hb1 o1 tl rfl).1]
            exact (hb1 o1 tl rfl).2 x hx
      · intro e
        rw [cancelUntil_decisionLevel s5 _ hbt]
        exact hb0 e
    obtain ⟨i1, i2⟩ := installLearnt_flags h9
    obtain ⟨_, _, _, _, _, _, _, _, _, _, j11, _, _, _, j15, _⟩ :=
      cancelUntil_frame s5 r.out_btlevel
    obtain ⟨_, _, q3, _, _⟩ := scalars_opts (analyze_scalars ha3)
    have hok4 : r.state.ok = s3.ok := by
      have := analyze_core ha3
      unfold Solver.core at this
      simp only [Prod.mk.injEq] at this
      exact this.2.2.2.2.2.2.2.2.2.2.2.2
    obtain ⟨_, _, _, _, _, _, _, _, _, _, _, _, _, g14, g15⟩ := body_fields e3
    refine ⟨hC9, ?_, ?_, st.learn s3 confl r s5 s9 hs3 hpos3 hc3 hY3 ha3 e5 h9⟩
    · rw [i2, j15, k14, q3, g14]
      exact ha
    · rw [i1, j11, k15, hok4, g15]
      exact hok

/-- The branch of `search` without conflict. -/
theorem searchNoConflict_pass {o : Oracle} {X Y : Solver → Prop} (st : SearchInv o X Y)
    {conflictC : Nat} {blocked : Bool} {s : Solver} {out : SearchStep}
    (h : searchNoConflict o conflictC blocked s = some out) (hs : CInv s)
    (hq : s.qhead = s.trail.length) (ha : s.assumptions = []) (hok : s.ok = true)
    (hX : X s) :
    (∀ c b t, out = SearchStep.next c b t →
      CInv t ∧ t.assumptions = [] ∧ t.ok = true ∧ X t) ∧
    (∀ r t, out = SearchStep.done r t →
      (r ≠ lbool.l_False → CInv t ∧ t.qhead = t.trail.length ∧ t.assumptions = [] ∧
        t.ok = true ∧ X t) ∧
      (r = lbool.l_False → ∃ u cr, AInv u ∧ Y u ∧ ConflAt u cr ∧ u.decisionLevel = 0)) := by
  have hbody : ∀ (u v : Solver), v.body = u.body → CInv u → u.qhead = u.trail.length →
      u.assumptions = [] → u.ok = true → X u →
      CInv v ∧ v.qhead = v.trail.length ∧ v.assumptions = [] ∧ v.ok = true ∧ X v := by
    intro u v e hu hqu hau hoku hXu
    obtain ⟨_, _, g3, _, _, _, _, _, _, _, _, _, g13, g14, g15⟩ := body_fields e
    exact ⟨hu.cinv_of_body e, by rw [g13, g3]; exact hqu, by rw [g14]; exact hau,
      by rw [g15]; exact hoku, st.body u v e hXu⟩
  have hpr : ∀ (u v : Solver), Pruned u v → CInv u → u.qhead = u.trail.length →
      u.assumptions = [] → u.ok = true →
      CInv v ∧ v.qhead = v.trail.length ∧ v.assumptions = [] ∧ v.ok = true := by
    intro u v p hu hqu hau hoku
    exact ⟨hu.cinv_pruned p, by rw [p.qhead, p.trail]; exact hqu,
      by rw [p.assumptions]; exact hau, by rw [p.ok]; exact hoku⟩
  rcases searchNoConflict_cases h with ⟨s1, e1, rfl⟩ | ⟨s1, h1, rfl⟩ |
    ⟨s1, s2, s3, h1, h2, e3, hrest⟩
  · -- restart
    refine ⟨(fun c b t e => by cases e), ?_⟩
    intro r t e
    simp only [SearchStep.done.injEq] at e
    obtain ⟨rfl, rfl⟩ := e
    refine ⟨fun _ => ?_, fun e => by cases e⟩
    obtain ⟨a1, a2, a3, a4, a5⟩ := hbody s s1 e1 hs hq ha hok hX
    obtain ⟨c1, c2⟩ := cancelUntil_cinv (restartLevel s1) a1 a2
    obtain ⟨_, _, _, _, _, _, _, _, _, _, j11, _, _, _, j15, _⟩ :=
      cancelUntil_frame s1 (restartLevel s1)
    exact ⟨c1, c2, by rw [j15]; exact a3, by rw [j11]; exact a4,
      st.cancel s1 _ a1 a2 a5⟩
  · -- simplify answers false
    refine ⟨(fun c b t e => by cases e), ?_⟩
    intro r t e
    simp only [SearchStep.done.injEq] at e
    obtain ⟨rfl, rfl⟩ := e
    refine ⟨(fun e => absurd rfl e), fun _ => ?_⟩
    split at h1
    · obtain ⟨h0, hcase⟩ := simplify_pruned h1
      rcases hcase with ⟨_, hf | ⟨cr, u, hp⟩⟩ | ⟨hb, _⟩
      · rw [hok] at hf
        cases hf
      · obtain ⟨k1, k2, _, k4⟩ := propagate_cinv hp hs
        refine ⟨u, cr, k1, st.conflict s cr u hs hX hp, k4 cr rfl, ?_⟩
        unfold Solver.decisionLevel at h0 ⊢
        rw [k2]
        exact h0
      · cases hb
    · simp at h1
  · -- simplify answers true
    have hS1 : CInv s1 ∧ s1.qhead = s1.trail.length ∧ s1.assumptions = [] ∧ s1.ok = true ∧
        X s1 := by
      split at h1
      · obtain ⟨h0, hcase⟩ := simplify_pruned h1
        rcases hcase with ⟨hb, _⟩ | ⟨_, _, u, hp, p⟩
        · cases hb
        · obtain ⟨_, _, k3, _⟩ := propagate_cinv hp hs
          obtain ⟨k5, k6⟩ := k3 rfl
          obtain ⟨_, _, q3, _, _⟩ := scalars_opts (propagate_scalars hp)
          have hoku : u.ok = true := by
            rw [propagate_ok hp hs.core.noUnary]
            exact hok
          obtain ⟨a1, a2, a3, a4⟩ := hpr u s1 p k5 k6 (by rw [q3]; exact ha) hoku
          exact ⟨a1, a2, a3, a4, st.simp s s1 hs hq hok hX h1⟩
      · simp only [Option.some.injEq, Prod.mk.injEq, true_and] at h1
        rw [← h1]
        exact ⟨hs, hq, ha, hok, hX⟩
    obtain ⟨b1, b2, b3, b4, b5⟩ := hS1
    have hS2 : CInv s2 ∧ s2.qhead = s2.trail.length ∧ s2.assumptions = [] ∧ s2.ok = true ∧
        X s2 := by
      rcases reduceStep_cases h2 with e | ⟨hne, u1, u2, e1, hu, e2⟩
      · rw [e]
        exact ⟨b1, b2, b3, b4, b5⟩
      · obtain ⟨c1, c2, c3, c4, c5⟩ := hbody s1 u1 e1 b1 b2 b3 b4 b5
        have hne1 : u1.learnts ≠ [] := by
          have : u1.learnts = s1.learnts := by
            unfold Solver.body at e1
            simp only [Prod.mk.injEq] at e1
            exact e1.2.2.2.2.2.2.2.2.2.2.2.2.2.2.1
          rw [this]
          exact hne
        obtain ⟨d1, d2, d3, d4⟩ := hpr u1 u2 (reduceDB_pruned hu) c1 c2 c3 c4
        exact hbody u2 s2 e2 d1 d2 d3 d4 (st.reduce u1 u2 c1 c2 hne1 c5 hu)
    obtain ⟨c1, c2, c3, c4, c5⟩ := hS2
    obtain ⟨d1, d2, d3, d4, d5⟩ := hbody s2 s3 e3 c1 c2 c3 c4 c5
    have hal : assumeLoop (s3.assumptions.drop s3.decisionLevel) s3
        = some (Sum.inr (none, s3)) := by
      rw [d3, List.drop_nil]
      rfl
    rw [hal] at hrest
    rcases hrest with ⟨s4, e, _⟩ | ⟨p, s4, s5, e, _⟩ | ⟨s4, s6, e, e6, hlast⟩
    · simp at e
    · simp at e
    · simp only [Option.some.injEq, Sum.inr.injEq, Prod.mk.injEq, true_and] at e
      subst e
      obtain ⟨f1, f2, f3, f4, f5⟩ := hbody s3 s6 e6 d1 d2 d3 d4 d5
      rcases hlast with rfl | ⟨next, s8, h8, rfl⟩
      · refine ⟨(fun c b t e => by cases e), ?_⟩
        intro r t e
        simp only [SearchStep.done.injEq] at e
        obtain ⟨rfl, rfl⟩ := e
        exact ⟨fun _ => ⟨f1, f2, f3, f4, f5⟩, fun e => by cases e⟩
      · refine ⟨?_, fun r t e => by cases e⟩
        intro c b t e
        simp only [SearchStep.next.injEq] at e
        obtain ⟨_, _, e⟩ := e
        rw [← e]
        obtain ⟨_, e8⟩ := uncheckedEnqueue_eq h8
        refine ⟨decide_cinv f1 f2 h8, ?_, ?_, st.decide s6 next s8 f1 f2 f5 h8⟩
        · rw [e8]
          exact f3
        · rw [e8]
          exact f4

/-- One iteration of the loop of `search`. -/
theorem searchStep_pass {o : Oracle} {X Y : Solver → Prop} (st : SearchInv o X Y)
    {conflictC : Nat} {blocked : Bool} {s : Solver} {out : SearchStep}
    (h : searchStep o conflictC blocked s = some out) (hs : CInv s)
    (ha : s.assumptions = []) (hok : s.ok = true) (hX : X s) :
    (∀ c b t, out = SearchStep.next c b t →
      CInv t ∧ t.assumptions = [] ∧ t.ok = true ∧ X t) ∧
    (∀ r t, out = SearchStep.done r t →
      (r ≠ lbool.l_False → CInv t ∧ t.qhead = t.trail.length ∧ t.assumptions = [] ∧
        t.ok = true ∧ X t) ∧
      (r = lbool.l_False → ∃ u cr, AInv u ∧ Y u ∧ ConflAt u cr ∧ u.decisionLevel = 0)) := by
  rcases searchStep_cases h with ⟨confl, s1, hp, hc⟩ | ⟨s1, hp, hn⟩
  · obtain ⟨k1, _, _, k4⟩ := propagate_cinv hp hs
    obtain ⟨_, _, q3, _, _⟩ := scalars_opts (propagate_scalars hp)
    have hok1 : s1.ok = true := by
      rw [propagate_ok hp hs.core.noUnary]
      exact hok
    obtain ⟨a, b⟩ := searchConflict_pass st hc k1 (k4 confl rfl) (by rw [q3]; exact ha) hok1
      (st.conflict s confl s1 hs hX hp)
    refine ⟨a, ?_⟩
    intro r t e
    obtain ⟨b1, b2⟩ := b r t e
    exact ⟨fun hne => absurd b1 hne, fun _ => b2⟩
  · obtain ⟨_, _, k3, _⟩ := propagate_cinv hp hs
    obtain ⟨k5, k6⟩ := k3 rfl
    obtain ⟨_, _, q3, _, _⟩ := scalars_opts (propagate_scalars hp)
    have hok1 : s1.ok = true := by
      rw [propagate_ok hp hs.core.noUnary]
      exact hok
    exact searchNoConflict_pass st hn k5 k6 (by rw [q3]; exact ha) hok1
      (st.quiet s s1 hs hX hp)

/-- The loop of `search` keeps the invariant `CInv` and the predicate `X`; when it
answers `l_False`, `propagate` has reported a conflict at decision level 0. -/
theorem searchLoop_pass {o : Oracle} {X Y : Solver → Prop} (st : SearchInv o X Y) :
    ∀ (fuel conflictC : Nat) (blocked : Bool) (s : Solver) (r : lbool) (t : Solver),
    (CInv s ∧ s.assumptions = [] ∧ s.ok = true ∧ X s) →
    searchLoop o fuel conflictC blocked s = some (r, t) →
    (r ≠ lbool.l_False → CInv t ∧ t.qhead = t.trail.length ∧ t.assumptions = [] ∧
      t.ok = true ∧ X t) ∧
    (r = lbool.l_False → ∃ u cr, AInv u ∧ Y u ∧ ConflAt u cr ∧ u.decisionLevel = 0) := by
  refine searchLoop_induct o (fun s => CInv s ∧ s.assumptions = [] ∧ s.ok = true ∧ X s)
    (fun r t => (r ≠ lbool.l_False → CInv t ∧ t.qhead = t.trail.length ∧
        t.assumptions = [] ∧ t.ok = true ∧ X t) ∧
      (r = lbool.l_False → ∃ u cr, AInv u ∧ Y u ∧ ConflAt u cr ∧ u.decisionLevel = 0)) ?_ ?_
  · intro c b s c1 b1 s1 hP hs
    exact (searchStep_pass st hs hP.1 hP.2.1 hP.2.2.1 hP.2.2.2).1 c1 b1 s1 rfl
  · intro c b s r s1 hP hs
    exact (searchStep_pass st hs hP.1 hP.2.1 hP.2.2.1 hP.2.2.2).2 r s1 rfl

/-- The function `search`, and the loop of `solve_` that calls it. -/
theorem solveLoop_pass {o : Oracle} {X Y : Solver → Prop} (st : SearchInv o X Y) :
    ∀ (fuel sfuel : Nat) (s : Solver) (r : lbool) (t : Solver),
    (CInv s ∧ s.assumptions = [] ∧ s.ok = true ∧ X s) →
    solveLoop o fuel sfuel s = some (r, t) →
    (r ≠ lbool.l_False → CInv t ∧ t.qhead = t.trail.length ∧ t.assumptions = [] ∧
      t.ok = true ∧ X t) ∧
    (r = lbool.l_False → ∃ u cr, AInv u ∧ Y u ∧ ConflAt u cr ∧ u.decisionLevel = 0) := by
  intro fuel
  induction fuel with
  | zero => intro sfuel s r t _ h; simp [solveLoop] at h
  | succ fuel ih =>
    intro sfuel s r t hP h
    unfold solveLoop at h
    split at h
    · simp at h
    · next status s1 hs =>
      have hres : (status ≠ lbool.l_False → CInv s1 ∧ s1.qhead = s1.trail.length ∧
            s1.assumptions = [] ∧ s1.ok = true ∧ X s1) ∧
          (status = lbool.l_False →
            ∃ u cr, AInv u ∧ Y u ∧ ConflAt u cr ∧ u.decisionLevel = 0) := by
        unfold search at hs
        split at hs
        · simp at hs
        · refine searchLoop_pass st _ _ _ _ _ _ ?_ hs
          obtain ⟨a, b, c, d⟩ := hP
          exact ⟨a.cinv_of_body rfl, b, c, st.body s _ rfl d⟩
      split at h
      · simp only [Option.some.injEq, Prod.mk.injEq] at h
        rw [← h.1, ← h.2]
        exact hres
      · next hu =>
        have hu2 : status = lbool.l_Undef := by
          by_contra hc
          exact hu hc
        split at h
        · simp only [Option.some.injEq, Prod.mk.injEq] at h
          rw [← h.1, ← h.2]
          exact hres
        · obtain ⟨a, _, b, c, d⟩ := hres.1 (by rw [hu2]; intro e; cases e)
          exact ih sfuel s1 r t ⟨a, b, c, d⟩ h

end Glucose


namespace Glucose

/-! ## Conflict analysis only re-orders literals -/

theorem shape_update (s : Solver) (cr : Nat) (c : Clause)
    (h1 : c.lits.Perm (s.ca cr).lits) (h2 : c.mark = (s.ca cr).mark)
    (h3 : c.learnt = (s.ca cr).learnt) (t : Solver)
    (hca : t.ca = Function.update s.ca cr c) (h4 : t.caSize = s.caSize)
    (h5 : t.clauses = s.clauses) (h6 : t.learnts = s.learnts)
    (h7 : t.unaryWatchedClauses = s.unaryWatchedClauses) : t.shape = s.shape := by
  unfold Solver.shape
  rw [h4, h5, h6, h7, hca]
  congr 1
  funext x
  by_cases hx : x = cr
  · subst hx
    rw [Function.update_same, h2, h3]
    congr 1
    exact Quotient.sound h1
  · rw [Function.update_noteq hx]

theorem computeLBDCore_shape (s : Solver) (lits : List Lit) (b : Int) :
    (computeLBDCore s lits b).2.shape = s.shape := rfl

theorem swapBinary_shape {s t : Solver} {cr : Nat} (h : swapBinary s cr = some t) :
    t.shape = s.shape := by
  unfold swapBinary at h
  split at h
  · split at h
    · split at h
      · next c0 c1 hl _ _ =>
        simp only [Option.some.injEq] at h; rw [← h]
        refine shape_update s cr { s.ca cr with lits := [c1, c0] } ?_ rfl rfl _ rfl rfl rfl
          rfl rfl
        rw [hl]
        exact List.Perm.swap c0 c1 []
      · simp at h
    · simp only [Option.some.injEq] at h; rw [← h]
  · simp only [Option.some.injEq] at h; rw [← h]

theorem analyzeClause_shape {s t : Solver} {cr : Nat} {p : Option Lit}
    (h : analyzeClause s cr p = some t) : t.shape = s.shape := by
  unfold analyzeClause at h
  cases hs : (if p.isSome then swapBinary s cr else some s) with
  | none => rw [hs] at h; simp at h
  | some s1 =>
    rw [hs] at h
    have e1 : s1.shape = s.shape := by
      split at hs
      · exact swapBinary_shape hs
      · simp only [Option.some.injEq] at hs; rw [← hs]
    dsimp only at h
    have e2 : ∀ u : Solver, u = (if (s1.ca cr).learnt = true then s1
        else if (s1.ca cr).seen = false then
          { s1 with
            stats := { s1.stats with
              originalClausesSeen := s1.stats.originalClausesSeen + 1 },
            ca := Function.update s1.ca cr { s1.ca cr with seen := true } }
        else s1) → u.shape = s1.shape := by
      intro u hu
      rw [hu]
      split
      · rfl
      · split
        · exact shape_update s1 cr { s1.ca cr with seen := true } (List.Perm.refl _) rfl rfl _
            rfl rfl rfl rfl rfl
        · rfl
    generalize hu : (if (s1.ca cr).learnt = true then s1
        else if (s1.ca cr).seen = false then
          { s1 with
            stats := { s1.stats with
              originalClausesSeen := s1.stats.originalClausesSeen + 1 },
            ca := Function.update s1.ca cr { s1.ca cr with seen := true } }
        else s1) = u at h
    have e3 := e2 u hu.symm
    split at h
    · split at h
      · simp only [Option.some.injEq] at h
        rw [← h]
        refine Eq.trans ?_ (e3.trans e1)
        refine Eq.trans (shape_update (computeLBDClause u (u.ca cr)).2 cr _ ?_ ?_ ?_ _
          rfl rfl rfl rfl rfl) (computeLBDCore_shape _ _ _)
        · show List.Perm (if _ then _ else _ : Clause).lits _
          split <;> exact List.Perm.refl _
        · show (if _ then _ else _ : Clause).mark = _
          split <;> rfl
        · show (if _ then _ else _ : Clause).learnt = _
          split <;> rfl
      · simp only [Option.some.injEq] at h
        rw [← h]
        exact (computeLBDCore_shape _ _ _).trans (e3.trans e1)
    · simp only [Option.some.injEq] at h
      rw [← h]
      exact e3.trans e1

theorem analyzeLit_shape {s : Solver} {q : Lit} {pathC : Int} {out sel : List Lit}
    {r : Solver × Int × List Lit × List Lit}
    (h : analyzeLit s q pathC out sel = some r) : r.1.shape = s.shape := by
  unfold analyzeLit at h
  have e1 : (if s.isSelector q.var = false then
          if s.highcenter q.var = true ∧ s.stats.decisions < 100000 then
            s.varBumpActivity q.var true
          else s.varBumpActivity q.var false
        else s).shape = s.shape := by
    split
    · split <;> rfl
    · rfl
  generalize (if s.isSelector q.var = false then
          if s.highcenter q.var = true ∧ s.stats.decisions < 100000 then
            s.varBumpActivity q.var true
          else s.varBumpActivity q.var false
        else s) = u at h e1
  split at h
  · split at h
    · simp only [Option.some.injEq] at h; rw [← h]
    · dsimp only at h
      split at h
      · split at h <;> (simp only [Option.some.injEq] at h; rw [← h]; exact e1)
      · split at h
        · split at h
          · simp only [Option.some.injEq] at h; rw [← h]; exact e1
          · simp at h
        · simp only [Option.some.injEq] at h; rw [← h]; exact e1
  · simp only [Option.some.injEq] at h; rw [← h]

theorem analyzeLits_shape : ∀ (qs : List Lit) (s : Solver) (pathC : Int)
    (out sel : List Lit) (r : Solver × Int × List Lit × List Lit),
    analyzeLits qs s pathC out sel = some r → r.1.shape = s.shape := by
  intro qs
  induction qs with
  | nil =>
    intro s pathC out sel r h
    simp only [analyzeLits, Option.some.injEq] at h
    rw [← h]
  | cons q qs ih =>
    intro s pathC out sel r h
    rw [analyzeLits] at h
    split at h
    · simp at h
    · next s1 p1 o1 sl1 h1 =>
      exact (ih _ _ _ _ _ h).trans (analyzeLit_shape h1)

theorem analyzeWalk_shape : ∀ (k : Nat) (s : Solver) (pathC : Int)
    (out sel : List Lit) (r : Solver × Lit × List Lit × List Lit),
    analyzeWalk k s pathC out sel = some r → r.1.shape = s.shape := by
  intro k
  induction k with
  | zero => intro s pathC out sel r h; simp [analyzeWalk] at h
  | succ k ih =>
    intro s pathC out sel r h
    rw [analyzeWalk] at h
    split at h
    · simp at h
    · next p hp =>
      split at h
      · dsimp only at h
        split at h
        · split at h
          · simp at h
          · next cr hcr =>
            split at h
            · simp at h
            · next s2 h2 =>
              split at h
              · simp at h
              · next s3 p3 o3 sl3 h3 =>
                exact ((ih _ _ _ _ _ h).trans (analyzeLits_shape _ _ _ _ _ _ h3)).trans
                  ((analyzeClause_shape h2).trans rfl)
        · simp only [Option.some.injEq] at h; rw [← h]; rfl
      · exact ih _ _ _ _ _ h

theorem analyzeResolve_shape {s : Solver} {confl : Nat}
    {r : Solver × Lit × List Lit × List Lit}
    (h : analyzeResolve s confl = some r) : r.1.shape = s.shape := by
  unfold analyzeResolve at h
  split at h
  · simp at h
  · next s1 h1 =>
    split at h
    · simp at h
    · next s2 p2 o2 sl2 h2 =>
      exact ((analyzeWalk_shape _ _ _ _ _ _ h).trans
        (analyzeLits_shape _ _ _ _ _ _ h2)).trans (analyzeClause_shape h1)

theorem redundantLits_shape (abs : List Nat) : ∀ (ps : List Lit) (s : Solver),
    (redundantLits abs ps s).2.shape = s.shape := by
  intro ps
  induction ps with
  | nil => intro s; rfl
  | cons p ps ih =>
    intro s
    rw [redundantLits]
    split
    · split
      · exact (ih _).trans rfl
      · rfl
    · exact ih s

theorem litRedundantLoop_shape (abs : List Nat) (top : Nat) : ∀ (fuel : Nat) (s : Solver)
    (r : Bool × Solver), litRedundantLoop abs top fuel s = some r →
    r.2.shape = s.shape := by
  intro fuel
  induction fuel with
  | zero => intro s r h; simp [litRedundantLoop] at h
  | succ fuel ih =>
    intro s r h
    rw [litRedundantLoop] at h
    split at h
    · simp only [Option.some.injEq] at h; rw [← h]
    · next q hq =>
      split at h
      · simp at h
      · next cr hcr =>
        dsimp only at h
        split at h
        · simp at h
        · next s2 h2 =>
          have e2 : s2.shape = s.shape := (swapBinary_shape h2).trans rfl
          have e3 := redundantLits_shape abs ((s2.ca cr).lits.drop 1) s2
          split at h
          · next s3 h3 =>
            rw [h3] at e3
            exact (ih _ _ h).trans (e3.trans e2)
          · next s3 h3 =>
            rw [h3] at e3
            simp only [Option.some.injEq] at h
            rw [← h]
            exact e3.trans e2

theorem litRedundant_shape {s : Solver} {p : Lit} {abs : List Nat} {r : Bool × Solver}
    (h : litRedundant s p abs = some r) : r.2.shape = s.shape :=
  (litRedundantLoop_shape _ _ _ _ _ h).trans rfl

theorem minimizeDeep_shape (abs : List Nat) : ∀ (ls kept : List Lit) (s : Solver)
    (r : List Lit × Solver), minimizeDeep abs ls kept s = some r →
    r.2.shape = s.shape := by
  intro ls
  induction ls with
  | nil =>
    intro kept s r h
    simp only [minimizeDeep, Option.some.injEq] at h
    rw [← h]
  | cons l ls ih =>
    intro kept s r h
    rw [minimizeDeep] at h
    split at h
    · exact ih _ _ _ h
    · split at h
      · simp at h
      · next s1 h1 => exact (ih _ _ _ h).trans (litRedundant_shape h1)
      · next s1 h1 => exact (ih _ _ _ h).trans (litRedundant_shape h1)

theorem minimisationWithBinaryResolution_shape {s : Solver} {out : List Lit}
    {r : List Lit × Solver} (h : minimisationWithBinaryResolution s out = some r) :
    r.2.shape = s.shape := by
  unfold minimisationWithBinaryResolution at h
  dsimp only at h
  split at h
  · simp at h
  · split at h
    · split at h
      · split at h
        · simp at h
        · split at h
          · simp only [Option.some.injEq] at h; rw [← h]; rfl
          · simp at h
      · simp only [Option.some.injEq] at h; rw [← h]; rfl
    · simp only [Option.some.injEq] at h; rw [← h]; rfl

theorem analyzeMinimize_shape {s : Solver} {p : Lit} {out sel : List Lit}
    {r : List Lit × Solver} (h : analyzeMinimize s p out sel = some r) :
    r.2.shape = s.shape := by
  unfold analyzeMinimize at h
  dsimp only at h
  split at h
  · simp at h
  · next kept s2 h2 =>
    have e2 : s2.shape = s.shape := by
      split at h2
      · exact (minimizeDeep_shape _ _ _ _ _ h2).trans rfl
      · split at h2
        · simp only [Option.some.injEq, Prod.mk.injEq] at h2; rw [← h2.2]; rfl
        · simp only [Option.some.injEq, Prod.mk.injEq] at h2; rw [← h2.2]; rfl
    split at h
    · exact (minimisationWithBinaryResolution_shape h).trans (Eq.trans rfl e2)
    · simp only [Option.some.injEq] at h; rw [← h]; exact Eq.trans rfl e2

theorem bumpLastDecisionLevel_shape (lbd : Nat) : ∀ (qs : List Lit) (s t : Solver),
    bumpLastDecisionLevel lbd qs s = some t → t.shape = s.shape := by
  intro qs
  induction qs with
  | nil =>
    intro s t h
    simp only [bumpLastDecisionLevel, Option.some.injEq] at h
    rw [← h]
  | cons q qs ih =>
    intro s t h
    rw [bumpLastDecisionLevel] at h
    split at h
    · simp at h
    · split at h
      · exact (ih _ _ h).trans rfl
      · exact ih _ _ h

theorem analyzeFinish_shape {s : Solver} {out sel : List Lit} {r : AnalyzeResult}
    (h : analyzeFinish s out sel = some r) : r.state.shape = s.shape := by
  unfold analyzeFinish at h
  dsimp only at h
  split at h
  · simp at h
  · next out2 bt hbt =>
    split at h
    · simp at h
    · next s2 h2 =>
      simp only [Option.some.injEq] at h
      rw [← h]
      exact Eq.trans rfl ((bumpLastDecisionLevel_shape _ _ _ _ h2).trans
        (computeLBDCore_shape _ _ _))

/-- The function `analyze` keeps the multiset of literals, the deletion mark and the flag
`learnt` of every clause, the size of the arena and the lists of clause references. -/
theorem analyze_shape {s : Solver} {confl : Nat} {r : AnalyzeResult}
    (h : analyze s confl = some r) : r.state.shape = s.shape := by
  unfold analyze at h
  split at h
  · simp at h
  · next s1 p out sel h1 =>
    split at h
    · simp at h
    · next ol s2 h2 =>
      exact ((analyzeFinish_shape h).trans (analyzeMinimize_shape h2)).trans
        (analyzeResolve_shape h1)



/-- The function `propagate` keeps the multiset of literals, the deletion mark and the
flag `learnt` of every clause, the size of the arena and the lists of clause
references. -/
theorem propagate_shape {s : Solver} {r : Option Nat × Solver} (h : propagate s = some r) :
    r.2.shape = s.shape := by
  have h1 := (propagate_ext h).lits
  have h2 := propagate_marks h
  have h3 := propagate_scalars h
  have h4 := propagate_lists h
  simp only [Solver.scalars, Prod.mk.injEq] at h3
  simp only [Solver.lists, Prod.mk.injEq] at h4
  unfold Solver.shape
  rw [h3.2.2.2.1, h4.1, h4.2.1, h4.2.2.1]
  congr 1
  funext x
  have h5 := congrFun h2 x
  simp only [Solver.marks, Prod.mk.injEq] at h5
  rw [h5.1, h5.2.1]
  congr 1
  exact Quotient.sound (h1 x)

theorem shape_fields {s t : Solver} (h : t.shape = s.shape) :
    (∀ cr, (t.ca cr).lits.length = (s.ca cr).lits.length ∧
      Multiset.ofList (t.ca cr).lits = Multiset.ofList (s.ca cr).lits ∧
      (t.ca cr).mark = (s.ca cr).mark ∧ (t.ca cr).learnt = (s.ca cr).learnt) ∧
    t.caSize = s.caSize ∧ t.clauses = s.clauses ∧ t.learnts = s.learnts ∧
    t.unaryWatchedClauses = s.unaryWatchedClauses := by
  simp only [Solver.shape, Prod.mk.injEq] at h
  refine ⟨fun cr => ?_, h.2⟩
  have h1 := congrFun h.1 cr
  simp only [Prod.mk.injEq] at h1
  refine ⟨?_, h1⟩
  have h2 : (Multiset.ofList (t.ca cr).lits).card = (Multiset.ofList (s.ca cr).lits).card := by
    rw [h1.1]
  exact h2

end Glucose


namespace Glucose

/-! ## The marks that `litRedundant` sets and clears -/

theorem swapBinary_scratch {s t : Solver} {cr : Nat} (h : swapBinary s cr = some t) :
    t.seen = s.seen ∧ t.analyze_toclear = s.analyze_toclear := by
  unfold swapBinary at h
  split at h
  · split at h
    · split at h
      · simp only [Option.some.injEq] at h; rw [← h]; exact ⟨rfl, rfl⟩
      · simp at h
    · simp only [Option.some.injEq] at h; rw [← h]; exact ⟨rfl, rfl⟩
  · simp only [Option.some.injEq] at h; rw [← h]; exact ⟨rfl, rfl⟩

theorem SeenAdded.added_of_eqs {seen0 : Nat → Bool} {tc0 : List Lit} {s t : Solver}
    (h : SeenAdded seen0 tc0 s) (h1 : t.seen = s.seen)
    (h2 : t.analyze_toclear = s.analyze_toclear) : SeenAdded seen0 tc0 t := by
  obtain ⟨added, a, b, c⟩ := h
  exact ⟨added, by rw [h2, a], b, fun v => by rw [h1]; exact c v⟩

theorem redundantLits_added (abs : List Nat) (seen0 : Nat → Bool) (tc0 : List Lit) :
    ∀ (ps : List Lit) (s : Solver), SeenAdded seen0 tc0 s →
    SeenAdded seen0 tc0 (redundantLits abs ps s).2 := by
  intro ps
  induction ps with
  | nil => intro s h; exact h
  | cons p ps ih =>
    intro s h
    rw [redundantLits]
    split
    · next hp =>
      split
      · apply ih
        obtain ⟨added, a, b, c⟩ := h
        have hp0 : seen0 p.var = false := by
          by_contra hc
          simp only [Bool.not_eq_false] at hc
          have := (c p.var).mpr (Or.inl hc)
          rw [hp.1] at this
          cases this
        refine ⟨added ++ [p], ?_, ?_, ?_⟩
        · show s.analyze_toclear ++ [p] = _
          rw [a, List.append_assoc]
        · intro l hl
          rcases List.mem_append.mp hl with hl | hl
          · exact b l hl
          · rw [List.mem_singleton.mp hl]; exact hp0
        · intro v
          show Function.update s.seen p.var true v = true ↔ _
          by_cases hv : v = p.var
          · rw [hv, Function.update_same]
            exact ⟨fun _ => Or.inr ⟨p, by simp, rfl⟩, fun _ => rfl⟩
          · rw [Function.update_noteq hv, c v]
            constructor
            · rintro (h1 | ⟨l, hl, e⟩)
              · exact Or.inl h1
              · exact Or.inr ⟨l, List.mem_append_left _ hl, e⟩
            · rintro (h1 | ⟨l, hl, e⟩)
              · exact Or.inl h1
              · rcases List.mem_append.mp hl with hl | hl
                · exact Or.inr ⟨l, hl, e⟩
                · rw [List.mem_singleton.mp hl] at e
                  exact absurd e.symm hv
      · exact h
    · exact ih s h

/-- The loop of `litRedundant`, from a state related to the entry of the call by
`SeenAdded`: when the answer is `false`, `seen` and `analyze_toclear` are those of the
entry; when it is `true`, the final state is related to the entry by `SeenAdded`. -/
theorem litRedundantLoop_added (abs : List Nat) (seen0 : Nat → Bool) (tc0 : List Lit) :
    ∀ (fuel : Nat) (s : Solver) (b : Bool) (t : Solver), SeenAdded seen0 tc0 s →
    litRedundantLoop abs tc0.length fuel s = some (b, t) →
    (b = false → t.seen = seen0 ∧ t.analyze_toclear = tc0) ∧
    (b = true → SeenAdded seen0 tc0 t) := by
  intro fuel
  induction fuel with
  | zero => intro s b t _ h; simp [litRedundantLoop] at h
  | succ fuel ih =>
    intro s b t hs h
    rw [litRedundantLoop] at h
    split at h
    · simp only [Option.some.injEq, Prod.mk.injEq] at h
      rw [← h.1, ← h.2]
      exact ⟨(fun e => by cases e), fun _ => hs⟩
    · next q hq =>
      split at h
      · simp at h
      · next cr hcr =>
        dsimp only at h
        split at h
        · simp at h
        · next s2 h2 =>
          have e2 := swapBinary_scratch h2
          have hs2 : SeenAdded seen0 tc0 s2 := hs.added_of_eqs e2.1 e2.2
          have h3 := redundantLits_added abs seen0 tc0 ((s2.ca cr).lits.drop 1) s2 hs2
          split at h
          · next s3 e3 =>
            rw [e3] at h3
            exact ih _ _ _ h3 h
          · next s3 e3 =>
            rw [e3] at h3
            simp only [Option.some.injEq, Prod.mk.injEq] at h
            rw [← h.1, ← h.2]
            refine ⟨fun _ => ?_, fun e => by cases e⟩
            obtain ⟨added, a, b1, c⟩ := h3
            have hd : s3.analyze_toclear.drop tc0.length = added := by
              rw [a, List.drop_left]
            have ht : s3.analyze_toclear.take tc0.length = tc0 := by
              rw [a, List.take_left]
            refine ⟨?_, ht⟩
            show clearSeen (s3.analyze_toclear.drop tc0.length) s3.seen = seen0
            rw [hd]
            funext v
            by_cases hv : ∃ l ∈ added, l.var = v
            · obtain ⟨l, hl, e⟩ := hv
              rw [← e, clearSeen_of_mem _ _ _ hl, b1 l hl]
            · rw [clearSeen_of_not_mem _ _ _ (fun l hl e => hv ⟨l, hl, e⟩)]
              cases h5 : seen0 v with
              | true => exact (c v).mpr (Or.inl h5)
              | false =>
                by_contra hc
                simp only [Bool.not_eq_false] at hc
                rcases (c v).mp hc with h6 | h6
                · rw [h5] at h6; cases h6
                · exact hv h6

theorem litRedundant_added {s t : Solver} {p : Lit} {abs : List Nat} {b : Bool}
    (h : litRedundant s p abs = some (b, t)) :
    (b = false → t.seen = s.seen ∧ t.analyze_toclear = s.analyze_toclear) ∧
    (b = true → SeenAdded s.seen s.analyze_toclear t) := by
  unfold litRedundant at h
  refine litRedundantLoop_added abs s.seen s.analyze_toclear _ _ b t ?_ h
  exact ⟨[], by simp, by simp, fun v => by simp⟩

end Glucose


namespace Glucose

/-! ## The bubble sort is stable -/

theorem map_range_split {β : Type} (g : Nat → β) (j n : Nat) (h : j + 1 < n) :
    (List.range n).map g =
      (List.range j).map g ++ g j :: g (j + 1) ::
        (List.range' (j + 2) (n - (j + 2))).map g := by
  have e1 : List.range n = List.range' 0 j ++ (List.range' j 2 ++
      List.range' (j + 2) (n - (j + 2))) := by
    rw [List.range_eq_range']
    have a1 : List.range' j 2 ++ List.range' (j + 2) (n - (j + 2)) = List.range' j (n - j) := by
      rw [List.range'_append_1]
      congr 1
      omega
    rw [a1]
    have a2 := List.range'_append_1 0 j (n - j)
    rw [Nat.zero_add] at a2
    rw [a2]
    congr 1
    omega
  rw [e1, List.map_append, List.map_append, ← List.range_eq_range']
  rfl

theorem map_range_swapped {β : Type} (g : Nat → β) (j n : Nat) (h : j + 1 < n) :
    (List.range n).map (Function.update (Function.update g j (g (j + 1))) (j + 1) (g j)) =
      (List.range j).map g ++ g (j + 1) :: g j ::
        (List.range' (j + 2) (n - (j + 2))).map g := by
  rw [map_range_split _ j n h]
  have e1 : (List.range j).map
      (Function.update (Function.update g j (g (j + 1))) (j + 1) (g j)) =
      (List.range j).map g := by
    apply List.map_congr_left
    intro i hi
    have := List.mem_range.mp hi
    rw [Function.update_noteq (by omega), Function.update_noteq (by omega)]
  have e2 : (List.range' (j + 2) (n - (j + 2))).map
      (Function.update (Function.update g j (g (j + 1))) (j + 1) (g j)) =
      (List.range' (j + 2) (n - (j + 2))).map g := by
    apply List.map_congr_left
    intro i hi
    have := (List.mem_range'_1.mp hi).1
    rw [Function.update_noteq (by omega), Function.update_noteq (by omega)]
  rw [e1, e2, Function.update_same, Function.update_noteq (by omega : j ≠ j + 1),
    Function.update_same]

theorem filter_swap_adjacent {β : Type} (p : β → Bool) (A B : List β) (x y : β)
    (h : ¬ (p x = true ∧ p y = true)) :
    (A ++ y :: x :: B).filter p = (A ++ x :: y :: B).filter p := by
  rw [List.filter_append, List.filter_append]
  congr 1
  cases hx : p x <;> cases hy : p y
  · simp [List.filter_cons, hx, hy]
  · simp [List.filter_cons, hx, hy]
  · simp [List.filter_cons, hx, hy]
  · exact absurd ⟨hx, hy⟩ h

/-- One pass of the bubble sort keeps, in their order, the pairs that satisfy a test `p`
under which no key is greater than another. -/
theorem bubblePass_stable {α : Type} (gt : α → α → Bool) (p : α × Int → Bool)
    (hp : ∀ x y, p x = true → p y = true → gt x.1 y.1 = false) (n : Nat) :
    ∀ (count j : Nat) (st : (Nat → α) × (Nat → Int)), j + count < n →
      ((List.range n).map (fun i => ((bubblePass gt count j st).1 i,
          (bubblePass gt count j st).2 i))).filter p =
        ((List.range n).map (fun i => (st.1 i, st.2 i))).filter p := by
  intro count
  induction count with
  | zero => intro j st _; rfl
  | succ count ih =>
    intro j st hj
    rw [bubblePass]
    rw [ih _ _ (by omega)]
    split
    · next hgt =>
      have e : (fun i =>
          ((Function.update (Function.update st.1 j (st.1 (j + 1))) (j + 1) (st.1 j),
            Function.update (Function.update st.2 j (st.2 (j + 1))) (j + 1) (st.2 j)).1 i,
           (Function.update (Function.update st.1 j (st.1 (j + 1))) (j + 1) (st.1 j),
            Function.update (Function.update st.2 j (st.2 (j + 1))) (j + 1) (st.2 j)).2 i))
          = Function.update (Function.update (fun i => (st.1 i, st.2 i)) j
              ((fun i => (st.1 i, st.2 i)) (j + 1))) (j + 1)
              ((fun i => (st.1 i, st.2 i)) j) := by
        funext i
        by_cases h1 : i = j + 1
        · subst h1; simp
        · by_cases h2 : i = j
          · subst h2; simp
          · simp [Function.update_noteq h1, Function.update_noteq h2]
      rw [e, map_range_swapped _ j n (by omega), map_range_split _ j n (by omega)]
      apply filter_swap_adjacent
      rintro ⟨h1, h2⟩
      have := hp _ _ h1 h2
      rw [hgt] at this
      cases this
    · rfl

theorem bubblePasses_stable {α : Type} (gt : α → α → Bool) (p : α × Int → Bool)
    (hp : ∀ x y, p x = true → p y = true → gt x.1 y.1 = false) (n : Nat) :
    ∀ (k i : Nat) (st : (Nat → α) × (Nat → Int)), 1 ≤ i →
      ((List.range n).map (fun x =>
          (((List.range' i k).foldl (fun st i => bubblePass gt (n - i) 0 st) st).1 x,
           ((List.range' i k).foldl (fun st i => bubblePass gt (n - i) 0 st) st).2 x))).filter p
        = ((List.range n).map (fun x => (st.1 x, st.2 x))).filter p := by
  intro k
  induction k with
  | zero => intro i st _; rfl
  | succ k ih =>
    intro i st hi
    rw [List.range'_succ, List.foldl_cons, ih _ _ (by omega)]
    by_cases hn : n = 0
    · subst hn; rfl
    · exact bubblePass_stable gt p hp n (n - i) 0 st (by omega)

/-- The bubble sort `sortingtwoBy` is stable: the pairs that satisfy a test `p` under
which no key is greater than another are in the same order before and after. -/
theorem sortingtwoBy_stable {α : Type} (gt : α → α → Bool) (p : α × Int → Bool)
    (hp : ∀ x y, p x = true → p y = true → gt x.1 y.1 = false)
    (number : Nat → α) (pointnumber : Nat → Int) (n : Nat) :
    ((List.range n).map (fun x =>
        ((sortingtwoBy gt number pointnumber n).1 x,
         (sortingtwoBy gt number pointnumber n).2 x))).filter p =
      ((List.range n).map (fun x => (number x, pointnumber x))).filter p := by
  unfold sortingtwoBy
  exact bubblePasses_stable gt p hp n (n - 1) 1 (number, pointnumber) (le_refl _)

/-- The positions from `n` on are not written by the bubble sort. -/
theorem bubblePass_outside {α : Type} (gt : α → α → Bool) :
    ∀ (count j : Nat) (st : (Nat → α) × (Nat → Int)) (i : Nat), j + count < i →
      (bubblePass gt count j st).1 i = st.1 i ∧ (bubblePass gt count j st).2 i = st.2 i := by
  intro count
  induction count with
  | zero => intro j st i _; exact ⟨rfl, rfl⟩
  | succ count ih =>
    intro j st i hi
    rw [bubblePass]
    rw [(ih _ _ i (by omega)).1, (ih _ _ i (by omega)).2]
    split
    · dsimp only
      rw [Function.update_noteq (by omega), Function.update_noteq (by omega),
        Function.update_noteq (by omega), Function.update_noteq (by omega)]
      exact ⟨rfl, rfl⟩
    · exact ⟨rfl, rfl⟩

theorem sortingtwoBy_outside {α : Type} (gt : α → α → Bool)
    (number : Nat → α) (pointnumber : Nat → Int) (n : Nat) (i : Nat) (hi : n ≤ i) :
    (sortingtwoBy gt number pointnumber n).1 i = number i ∧
    (sortingtwoBy gt number pointnumber n).2 i = pointnumber i := by
  unfold sortingtwoBy
  have key : ∀ (k a : Nat) (st : (Nat → α) × (Nat → Int)), 1 ≤ a →
      ((List.range' a k).foldl (fun st i => bubblePass gt (n - i) 0 st) st).1 i = st.1 i ∧
      ((List.range' a k).foldl (fun st i => bubblePass gt (n - i) 0 st) st).2 i = st.2 i := by
    intro k
    induction k with
    | zero => intro a st _; exact ⟨rfl, rfl⟩
    | succ k ih =>
      intro a st ha
      rw [List.range'_succ, List.foldl_cons, (ih _ _ (by omega)).1, (ih _ _ (by omega)).2]
      by_cases hn : n = 0
      · subst hn; rw [Nat.zero_sub]; exact ⟨rfl, rfl⟩
      · exact bubblePass_outside gt (n - a) 0 st i (by omega)
  exact key (n - 1) 1 (number, pointnumber) (le_refl _)

end Glucose


namespace Glucose

/-! ## The literals dropped by the minimisation with binary resolution -/

/-- The stamps after the loop over the binary watchers: a variable keeps the stamp
`flag` exactly when it had it and no watcher visited has a true blocker on it. -/
theorem countBinImplied_stamp (s : Solver) (flag : Nat) (hflag : 0 < flag) :
    ∀ (ws : List Watcher) (pd : Nat → Nat) (nb : Nat) (v : Nat),
    (countBinImplied s flag ws pd nb).1 v = flag ↔
      (pd v = flag ∧ ¬ ∃ w ∈ ws, w.blocker.var = v ∧ s.value w.blocker = lbool.l_True) := by
  intro ws
  induction ws with
  | nil => intro pd nb v; simp [countBinImplied]
  | cons w ws ih =>
    intro pd nb v
    rw [countBinImplied]
    split
    · next hc =>
      rw [ih]
      by_cases e : v = w.blocker.var
      · subst e
        rw [Function.update_same]
        constructor
        · intro h; omega
        · intro h; exact absurd ⟨w, List.mem_cons_self _ _, rfl, hc.2⟩ h.2
      · rw [Function.update_noteq e]
        constructor
        · rintro ⟨h1, h2⟩
          refine ⟨h1, ?_⟩
          rintro ⟨w2, hw2, hv, ht⟩
          rcases List.mem_cons.mp hw2 with e2 | e2
          · rw [e2] at hv; exact e hv.symm
          · exact h2 ⟨w2, e2, hv, ht⟩
        · rintro ⟨h1, h2⟩
          exact ⟨h1, fun ⟨w2, hw2, hv, ht⟩ => h2 ⟨w2, List.mem_cons_of_mem _ hw2, hv, ht⟩⟩
    · next hc =>
      rw [ih]
      constructor
      · rintro ⟨h1, h2⟩
        refine ⟨h1, ?_⟩
        rintro ⟨w2, hw2, hv, ht⟩
        rcases List.mem_cons.mp hw2 with e2 | e2
        · rw [e2] at hv ht
          exact hc ⟨by rw [hv]; exact h1, ht⟩
        · exact h2 ⟨w2, e2, hv, ht⟩
      · rintro ⟨h1, h2⟩
        exact ⟨h1, fun ⟨w2, hw2, hv, ht⟩ => h2 ⟨w2, List.mem_cons_of_mem _ hw2, hv, ht⟩⟩

/-- A true literal on the variable of a false literal is its negation. -/
theorem eq_neg_of_true {s : Solver} {b l : Lit} (hv : b.var = l.var)
    (hb : s.value b = lbool.l_True) (hl : s.value l = lbool.l_False) : b = l.neg := by
  cases b with
  | mk v1 b1 =>
    cases l with
    | mk v2 b2 =>
      simp only at hv
      subst hv
      simp only [Solver.value] at hb hl
      simp only [Lit.neg, Lit.mk.injEq, true_and]
      cases b1 <;> cases b2 <;> cases h : s.assigns v1 <;> simp_all [lbool.xor]

/-- The swap loop of the minimisation with binary resolution, as in `binSwapLoop_spec`,
with the place of the literals that kept the stamp: all positions from 1 up to
`size - nb` hold such literals at the end. -/
theorem binSwapLoop_sorted (pd : Nat → Nat) (flag nb : Nat) :
    ∀ (fuel i L : Nat) (out : List Lit), 1 ≤ i → i ≤ L + 1 → L < out.length →
    (∀ j y, 1 ≤ j → j < i → out.get? j = some y → pd y.var = flag) →
    (∀ j y, L < j → out.get? j = some y → pd y.var ≠ flag) →
    (out.drop 1).countP (fun x => decide (pd x.var ≠ flag)) = nb →
    (out.length - i) + L < fuel →
    ∃ out2, binSwapLoop pd flag ((out.length : Int) - (nb : Int)) fuel i (L : Int) out
        = some out2 ∧ out2.Perm out ∧ out2.get? 0 = out.get? 0 ∧
      ∀ (j : Nat) (y : Lit), 1 ≤ j → (j : Int) < (out.length : Int) - (nb : Int) →
        out2.get? j = some y → pd y.var = flag := by
  intro fuel
  induction fuel with
  | zero => intro i L out _ _ _ _ _ _ hm; omega
  | succ fuel ih =>
    intro i L out h1 hiL hL hgood hbad hcount hm
    rw [binSwapLoop]
    by_cases hb : (i : Int) < (out.length : Int) - (nb : Int)
    · rw [if_pos hb]
      have hi : i < out.length := by omega
      have hgi : out.get? i = some (out.get ⟨i, hi⟩) := List.get?_eq_get hi
      generalize out.get ⟨i, hi⟩ = oi at hgi
      rw [hgi]
      dsimp only
      by_cases hx : pd oi.var ≠ flag
      · rw [if_pos hx]
        have hle : i ≤ L := by
          by_contra hc
          have hiL2 : i = L + 1 := by omega
          have e1 : (out.drop 1).countP (fun x => decide (pd x.var ≠ flag))
              = out.length - i := by
            rw [← List.take_append_drop (i - 1) (out.drop 1), List.countP_append]
            have z1 : ((out.drop 1).take (i - 1)).countP
                (fun x => decide (pd x.var ≠ flag)) = 0 := by
              rw [List.countP_eq_zero]
              intro y hy
              obtain ⟨j, hj, hg⟩ := get?_of_mem_take hy
              rw [List.get?_eq_getElem?, List.getElem?_drop, ← List.get?_eq_getElem?] at hg
              have := hgood (1 + j) y (by omega) (by omega) hg
              simp [this]
            have z2 : ((out.drop 1).drop (i - 1)).countP
                (fun x => decide (pd x.var ≠ flag)) = out.length - i := by
              have hd : (out.drop 1).drop (i - 1) = out.drop i := by
                rw [List.drop_drop]
                congr 1
                omega
              rw [hd, List.countP_eq_length.mpr]
              · rw [List.length_drop]
              · intro y hy
                obtain ⟨j, hg⟩ := List.mem_iff_get?.mp hy
                rw [List.get?_eq_getElem?, List.getElem?_drop, ← List.get?_eq_getElem?] at hg
                have := hbad (i + j) y (by omega) hg
                simp [this]
            rw [z1, z2]
            omega
          rw [e1] at hcount
          omega
        have hL0 : ¬ ((L : Int) < 0) := by omega
        rw [if_neg hL0]
        have hgl : out.get? L = some (out.get ⟨L, hL⟩) := List.get?_eq_get hL
        generalize out.get ⟨L, hL⟩ = ol at hgl
        rw [Int.toNat_ofNat, hgl]
        dsimp only
        have hL1 : ((L : Int) - 1) = ((L - 1 : Nat) : Int) := by omega
        rw [hL1]
        have hlen : ((out.set L oi).set i ol).length = out.length := by simp
        obtain ⟨pperm, phead⟩ := drop_one_swap out i L oi ol h1 hle hgi hgl
        have hstep := ih i (L - 1) ((out.set L oi).set i ol) h1 (by omega)
          (by rw [hlen]; omega) ?_ ?_ ?_ (by rw [hlen]; omega)
        · rw [hlen] at hstep
          obtain ⟨out2, e, p2, g2, k2⟩ := hstep
          exact ⟨out2, e, p2.trans (perm_swap_two out i L oi ol hle hgi hgl), g2.trans phead,
            k2⟩
        · intro j y hj1 hji hg
          rw [get?_swap_other out i L j oi ol (by omega) (by omega)] at hg
          exact hgood j y hj1 hji hg
        · intro j y hj hg
          by_cases ejL : j = L
          · subst ejL
            by_cases eji : i = j
            · subst eji
              rw [get?_swap_left out i i oi ol hi] at hg
              simp only [Option.some.injEq] at hg
              rw [hgi] at hgl
              simp only [Option.some.injEq] at hgl
              rw [← hg, ← hgl]
              exact hx
            · rw [get?_swap_right out i j oi ol hL eji] at hg
              simp only [Option.some.injEq] at hg
              rw [← hg]
              exact hx
          · rw [get?_swap_other out i L j oi ol (by omega) (by omega)] at hg
            exact hbad j y (by omega) hg
        · rw [pperm.countP_eq]
          exact hcount
      · rw [if_neg hx]
        have hle : i ≤ L := by
          by_contra hc
          exact hbad i oi (by omega) hgi (not_not.mp hx)
        have hgood2 : ∀ j y, 1 ≤ j → j < i + 1 → out.get? j = some y → pd y.var = flag := by
          intro j y hj1 hji hg
          by_cases e : j = i
          · subst e
            rw [hgi] at hg
            simp only [Option.some.injEq] at hg
            rw [← hg]
            exact not_not.mp hx
          · exact hgood j y hj1 (by omega) hg
        exact ih (i + 1) L out (by omega) (by omega) hL hgood2 hbad hcount (by omega)
    · rw [if_neg hb]
      exact ⟨out, rfl, List.Perm.refl _, rfl,
        fun j y hj1 hjb hg => hgood j y hj1 (by omega) hg⟩


/-- The function `minimisationWithBinaryResolution` on a clause `o0 :: rest` whose
literals after the first are false and have pairwise distinct variables, in a state
where no stamp of `permDiff` is above `MYFLAG`: it returns `o0 :: rest2`, where `rest2`
and the list `dropped` share out the literals of `rest`; when the LBD is at most
`lbLBDMinimizingClause`, the dropped literals are those whose negation is the blocker of
a binary watcher of `¬o0`. -/
theorem minimisationWithBinaryResolution_dropped {s : Solver} {o0 : Lit} {rest : List Lit}
    (hst : ∀ x, s.permDiff x ≤ s.MYFLAG) (hnd : (rest.map Lit.var).Nodup)
    (hfalse : ∀ l ∈ rest, s.value l = lbool.l_False) :
    ∃ rest2 dropped t,
      minimisationWithBinaryResolution s (o0 :: rest) = some (o0 :: rest2, t) ∧
      (rest2 ++ dropped).Perm rest ∧
      ((computeLBD s (o0 :: rest) (-1)).1 ≤ s.opts.lbLBDMinimizingClause →
        ∀ l ∈ rest, (l ∈ dropped ↔ ∃ w ∈ s.watchesBin.occs o0.neg, w.blocker = l.neg)) ∧
      (s.opts.lbLBDMinimizingClause < (computeLBD s (o0 :: rest) (-1)).1 →
        rest2 = rest ∧ dropped = []) := by
  have hq : QFrame s (computeLBD s (o0 :: rest) (-1)).2 := computeLBDCore_qframe s _ _
  have hst1 := hq.stamps hst
  have ho : (computeLBD s (o0 :: rest) (-1)).2.opts = s.opts := rfl
  have hw : (computeLBD s (o0 :: rest) (-1)).2.watchesBin = s.watchesBin := rfl
  have ha : (computeLBD s (o0 :: rest) (-1)).2.assigns = s.assigns := rfl
  unfold minimisationWithBinaryResolution
  dsimp only
  generalize computeLBD s (o0 :: rest) (-1) = r at hq hst1 ho hw ha ⊢
  obtain ⟨n, s1⟩ := r
  dsimp only at hq hst1 ho hw ha ⊢
  have hval : ∀ l, s1.value l = s.value l := by
    intro l; simp only [Solver.value, ha]
  by_cases hlbd : n ≤ s1.opts.lbLBDMinimizingClause
  · rw [if_pos hlbd]
    have hinit0 : ∀ l ∈ rest, markLits (s1.MYFLAG + 1) rest s1.permDiff l.var
        = s1.MYFLAG + 1 := by
      intro l hl
      rw [markLits_spec, if_pos (List.mem_map_of_mem _ hl)]
    have hinit1 : ∀ v, markLits (s1.MYFLAG + 1) rest s1.permDiff v = s1.MYFLAG + 1 →
        ∃ l ∈ rest, l.var = v := by
      intro v hv
      rw [markLits_spec] at hv
      split at hv
      · next hm =>
        obtain ⟨l, hl, e⟩ := List.mem_map.mp hm
        exact ⟨l, hl, e⟩
      · have := hst1 v
        omega
    have hinit2 : ∀ v, markLits (s1.MYFLAG + 1) rest s1.permDiff v ≤ s1.MYFLAG + 1 := by
      intro v
      rw [markLits_spec]
      split
      · exact le_refl _
      · have := hst1 v
        omega
    have hinit3 : rest.countP (fun x => decide
        (markLits (s1.MYFLAG + 1) rest s1.permDiff x.var ≠ s1.MYFLAG + 1)) = 0 := by
      rw [List.countP_eq_zero]
      intro x hx
      rw [hinit0 x hx]
      simp
    obtain ⟨hc1, hc2⟩ := countBinImplied_spec s1 (s1.MYFLAG + 1) rest hnd (by omega)
      (s1.watchesBin.occs o0.neg) _ 0 hinit1 hinit2 hinit3
    have hstamp := countBinImplied_stamp s1 (s1.MYFLAG + 1) (by omega)
      (s1.watchesBin.occs o0.neg) (markLits (s1.MYFLAG + 1) rest s1.permDiff) 0
    generalize countBinImplied s1 (s1.MYFLAG + 1) (s1.watchesBin.occs o0.neg)
      (markLits (s1.MYFLAG + 1) rest s1.permDiff) 0 = c at hc1 hc2 hstamp ⊢
    obtain ⟨pd, nb⟩ := c
    dsimp only at hc1 hc2 hstamp ⊢
    have hbad : ∀ l ∈ rest, (pd l.var ≠ s1.MYFLAG + 1 ↔
        ∃ w ∈ s.watchesBin.occs o0.neg, w.blocker = l.neg) := by
      intro l hl
      rw [← hw]
      constructor
      · intro h1
        have h2 : ¬ (markLits (s1.MYFLAG + 1) rest s1.permDiff l.var = s1.MYFLAG + 1 ∧
            ¬ ∃ w ∈ s1.watchesBin.occs o0.neg,
              w.blocker.var = l.var ∧ s1.value w.blocker = lbool.l_True) :=
          fun h3 => h1 ((hstamp l.var).mpr h3)
        have h4 : ∃ w ∈ s1.watchesBin.occs o0.neg,
            w.blocker.var = l.var ∧ s1.value w.blocker = lbool.l_True := by
          by_contra h5
          exact h2 ⟨hinit0 l hl, h5⟩
        obtain ⟨w, hw1, hv, ht⟩ := h4
        refine ⟨w, hw1, eq_neg_of_true hv ht ?_⟩
        rw [hval]; exact hfalse l hl
      · rintro ⟨w, hw1, e⟩ h1
        refine ((hstamp l.var).mp h1).2 ⟨w, hw1, by rw [e]; rfl, ?_⟩
        rw [e, hval]
        exact value_neg_true.mpr (hfalse l hl)
    by_cases hnb0 : 0 < nb
    · rw [if_pos hnb0]
      have hnb : nb ≤ rest.length := by
        rw [← hc2]
        exact List.countP_le_length _
      have hl1 : (((o0 :: rest).length : Int) - 1) = ((rest.length : Nat) : Int) := by
        simp
      rw [hl1]
      obtain ⟨out2, e, p2, g2, k2⟩ := binSwapLoop_sorted pd (s1.MYFLAG + 1) nb
        (2 * (o0 :: rest).length + 1) 1 rest.length (o0 :: rest) (le_refl _) (by omega)
        (by simp) (by intro j y h1 h2; omega)
        (by
          intro j y hj hg
          rw [List.get?_eq_getElem?, List.getElem?_eq_none (by simp; omega)] at hg
          cases hg)
        (by simpa using hc2) (by simp; omega)
      rw [e]
      dsimp only
      have hlen : out2.length = rest.length + 1 := by
        rw [p2.length_eq]
        simp
      rw [if_pos (by omega)]
      cases out2 with
      | nil => simp at hlen
      | cons a tl =>
        simp only [List.get?_cons_zero, Option.some.injEq] at g2
        subst g2
        have ptl : tl.Perm rest := List.Perm.cons_inv p2
        have hlen2 : tl.length = rest.length := ptl.length_eq
        obtain ⟨k, hk⟩ : ∃ k, (a :: tl).length - nb = k + 1 :=
          ⟨(a :: tl).length - nb - 1, by omega⟩
        have hk2 : k = tl.length - nb := by
          simp only [List.length_cons] at hk
          omega
        rw [hk, List.take_succ_cons]
        have hgood : ∀ y ∈ tl.take k, pd y.var = s1.MYFLAG + 1 := by
          intro y hy
          obtain ⟨j, hj, hg⟩ := get?_of_mem_take hy
          refine k2 (j + 1) y (by omega) ?_ (by rw [List.get?_cons_succ]; exact hg)
          simp only [List.length_cons]
          omega
        have hcnt : tl.countP (fun x => decide (pd x.var ≠ s1.MYFLAG + 1)) = nb := by
          rw [ptl.countP_eq]; exact hc2
        have hdropbad : ∀ y ∈ tl.drop k, pd y.var ≠ s1.MYFLAG + 1 := by
          have h1 : (tl.take k).countP (fun x => decide (pd x.var ≠ s1.MYFLAG + 1)) = 0 := by
            rw [List.countP_eq_zero]
            intro y hy
            simp [hgood y hy]
          have h2 : (tl.drop k).countP (fun x => decide (pd x.var ≠ s1.MYFLAG + 1))
              = (tl.drop k).length := by
            have h3 := hcnt
            rw [← List.take_append_drop k tl, List.countP_append, h1, Nat.zero_add] at h3
            rw [h3, List.length_drop]
            omega
          intro y hy
          have := (List.countP_eq_length.mp h2) y hy
          simpa using this
        refine ⟨tl.take k, tl.drop k, _, rfl, ?_, fun _ l hl => ?_, fun h => ?_⟩
        · rw [List.take_append_drop]; exact ptl
        · rw [← hbad l hl]
          constructor
          · exact fun h => hdropbad l h
          · intro h
            have hmem : l ∈ tl.take k ++ tl.drop k := by
              rw [List.take_append_drop]; exact ptl.symm.subset hl
            rcases List.mem_append.mp hmem with h1 | h1
            · exact absurd (hgood l h1) h
            · exact h1
        · rw [ho] at hlbd; omega
    · rw [if_neg hnb0]
      refine ⟨rest, [], _, rfl, by simp, fun _ l hl => ?_, fun h => ?_⟩
      · rw [← hbad l hl]
        have h0 : nb = 0 := by omega
        rw [h0, List.countP_eq_zero] at hc2
        have := hc2 l hl
        simp only [decide_eq_true_eq, not_not] at this
        simp [this]
      · rw [ho] at hlbd; omega
  · rw [if_neg hlbd]
    refine ⟨rest, [], _, rfl, by simp, fun h => ?_, fun _ => ⟨rfl, rfl⟩⟩
    rw [ho] at hlbd
    exact absurd h hlbd

end Glucose


namespace Glucose

/-! ## The count of the bridges -/

theorem countP_range_set (g : Nat → Bool) (J : Nat) : ∀ (N : Nat) (f : Nat → Bool), J < N →
    (List.range N).countP (fun v => Function.update f J true v && g v) =
      (List.range N).countP (fun v => f v && g v) +
        (if f J = false ∧ g J = true then 1 else 0) := by
  intro N
  induction N with
  | zero => intro f h; omega
  | succ N ih =>
    intro f h
    rw [List.range_succ, List.countP_append, List.countP_append]
    by_cases e : J = N
    · subst e
      have e1 : (List.range J).countP (fun v => Function.update f J true v && g v) =
          (List.range J).countP (fun v => f v && g v) := by
        apply List.countP_congr
        intro v hv
        have := List.mem_range.mp hv
        rw [Function.update_noteq (by omega)]
      rw [e1, Nat.add_assoc]
      congr 1
      simp only [List.countP_cons, List.countP_nil, Function.update_same, Nat.zero_add]
      cases f J <;> cases g J <;> simp
    · rw [ih f (by omega), Nat.add_right_comm]
      congr 1
      simp only [List.countP_cons, List.countP_nil, Nat.zero_add]
      rw [Function.update_noteq (fun h2 => e h2.symm)]

theorem update_if_add (f : Nat → Int) (cond : Prop) [Decidable cond] (k c : Nat) :
    (if cond then Function.update f k (f k + 1) else f) c =
      f c + (if cond ∧ c = k then 1 else 0) := by
  by_cases h1 : cond
  · rw [if_pos h1]
    by_cases h2 : c = k
    · rw [h2, Function.update_same, if_pos ⟨h1, rfl⟩]
    · rw [Function.update_noteq h2, if_neg (fun h => h2 h.2), add_zero]
  · rw [if_neg h1, if_neg (fun h => h1 h.1), add_zero]

theorem crossPair_same {cm : Nat → Int} {a b : Lit} (h : cm a.var = cm b.var) (v : Nat) :
    crossPair cm v (a, b) = false := by
  simp [crossPair, h]

theorem crossPair_cross {cm : Nat → Int} {a b : Lit} (h : cm a.var ≠ cm b.var) (v : Nat) :
    crossPair cm v (a, b) = true ↔ (v = a.var ∨ v = b.var) := by
  simp only [crossPair, Bool.and_eq_true, Bool.or_eq_true, decide_eq_true_eq]
  constructor
  · rintro ⟨h1 | h1, _⟩
    · exact Or.inl h1.symm
    · exact Or.inr h1.symm
  · rintro (h1 | h1)
    · exact ⟨Or.inl h1.symm, h⟩
    · exact ⟨Or.inr h1.symm, h⟩

/-- One visit of a pair of literals keeps the invariant of the count. -/
theorem bridgePair_inv {s0 s s1 : Solver} {ps : List (Lit × Lit)} {a b : Lit}
    (hi : BridgeInv s0 ps s) (ha : a.var < s0.nVars) (hb : b.var < s0.nVars)
    (h : bridgePair s a.var b.var = some s1) : BridgeInv s0 (ps ++ [(a, b)]) s1 := by
  unfold bridgePair at h
  by_cases hc : s.cmtys a.var ≠ s.cmtys b.var
  · rw [if_pos hc] at h
    split at h
    · next htab =>
      simp only [Option.some.injEq] at h
      have hc0 : s0.cmtys a.var ≠ s0.cmtys b.var := by rw [← hi.cmtys]; exact hc
      have hab : a.var ≠ b.var := fun e => hc (by rw [e])
      have hta := inTable_iff.mp htab.1
      have htb := inTable_iff.mp htab.2
      have hbr : s1.bridges =
          Function.update (Function.update s.bridges a.var true) b.var true := by
        rw [← h]
      have hnb : s1.numbridges = Function.update
          (Function.update s.numbridges a.var (s.numbridges a.var + 1)) b.var
          (Function.update s.numbridges a.var (s.numbridges a.var + 1) b.var + 1) := by
        rw [← h]
      have hcb : s1.cmtybridges =
          (if s.bridges b.var = false then
            Function.update
              (if s.bridges a.var = false then
                Function.update s.cmtybridges (s.cmtys a.var).toNat
                  (s.cmtybridges (s.cmtys a.var).toNat + 1) else s.cmtybridges)
              (s.cmtys b.var).toNat
              ((if s.bridges a.var = false then
                Function.update s.cmtybridges (s.cmtys a.var).toNat
                  (s.cmtybridges (s.cmtys a.var).toNat + 1) else s.cmtybridges)
                (s.cmtys b.var).toNat + 1)
          else (if s.bridges a.var = false then
                Function.update s.cmtybridges (s.cmtys a.var).toNat
                  (s.cmtybridges (s.cmtys a.var).toNat + 1) else s.cmtybridges)) := by
        rw [← h]
      have e1 : s1.cmtys = s.cmtys := by rw [← h]
      have e2 : s1.nVars = s.nVars := by rw [← h]
      have e3 : s1.ca = s.ca := by rw [← h]
      have e4 : s1.clauses = s.clauses := by rw [← h]
      refine ⟨e1.trans hi.cmtys, e2.trans hi.nVars, e3.trans hi.ca, e4.trans hi.clauses,
        fun v => ?_, fun v => ?_, fun c => ?_⟩
      · rw [hbr]
        have hx : (∃ p ∈ ps ++ [(a, b)], crossPair s0.cmtys v p = true) ↔
            ((∃ p ∈ ps, crossPair s0.cmtys v p = true) ∨ (v = a.var ∨ v = b.var)) := by
          constructor
          · rintro ⟨p, hp, hcp⟩
            rcases List.mem_append.mp hp with h1 | h1
            · exact Or.inl ⟨p, h1, hcp⟩
            · rw [List.mem_singleton.mp h1] at hcp
              exact Or.inr ((crossPair_cross hc0 v).mp hcp)
          · rintro (⟨p, hp, hcp⟩ | h1)
            · exact ⟨p, List.mem_append_left _ hp, hcp⟩
            · exact ⟨(a, b), by simp, (crossPair_cross hc0 v).mpr h1⟩
        rw [hx]
        by_cases hvb : v = b.var
        · rw [hvb, Function.update_same]
          simp
        · rw [Function.update_noteq hvb]
          by_cases hva : v = a.var
          · rw [hva, Function.update_same]
            simp
          · rw [Function.update_noteq hva, hi.bridges v]
            simp [hva, hvb]
      · rw [hnb, List.countP_append]
        have hone : List.countP (crossPair s0.cmtys v) [(a, b)] =
            if v = a.var ∨ v = b.var then 1 else 0 := by
          simp only [List.countP_cons, List.countP_nil, Nat.zero_add]
          by_cases h1 : v = a.var ∨ v = b.var
          · rw [if_pos h1, if_pos ((crossPair_cross hc0 v).mpr h1)]
          · rw [if_neg h1, if_neg (fun h2 => h1 ((crossPair_cross hc0 v).mp h2))]
        rw [hone]
        by_cases hvb : v = b.var
        · rw [hvb, Function.update_same, Function.update_noteq (fun e => hab e.symm),
            hi.numbridges b.var, if_pos (Or.inr rfl)]
          omega
        · rw [Function.update_noteq hvb]
          by_cases hva : v = a.var
          · rw [hva, Function.update_same, hi.numbridges a.var, if_pos (Or.inl rfl)]
            omega
          · rw [Function.update_noteq hva, hi.numbridges v, if_neg (by simp [hva, hvb])]
            omega
      · have hcnt : bridgesInCmty s1 c = bridgesInCmty s c +
            (if s.bridges a.var = false ∧ s.cmtys a.var = (c : Int) then 1 else 0) +
            (if s.bridges b.var = false ∧ s.cmtys b.var = (c : Int) then 1 else 0) := by
          unfold bridgesInCmty
          rw [e2, e1, hbr]
          rw [countP_range_set (fun v => decide (s.cmtys v = (c : Int))) b.var s.nVars _
            (by rw [hi.nVars]; exact hb)]
          rw [countP_range_set (fun v => decide (s.cmtys v = (c : Int))) a.var s.nVars _
            (by rw [hi.nVars]; exact ha)]
          rw [Function.update_noteq (fun e => hab e.symm)]
          simp only [decide_eq_true_eq]
        have ka : (s.cmtys a.var = (c : Int)) ↔ c = (s.cmtys a.var).toNat := by omega
        have kb : (s.cmtys b.var = (c : Int)) ↔ c = (s.cmtys b.var).toNat := by omega
        simp only [ka, kb] at hcnt
        rw [hcb, update_if_add, update_if_add, hcnt, hi.cmtybridges c]
        push_cast
        rfl
    · simp at h
  · rw [if_neg hc] at h
    simp only [Option.some.injEq] at h
    subst h
    have hc0 : s0.cmtys a.var = s0.cmtys b.var := by
      rw [← hi.cmtys]; exact not_not.mp hc
    refine ⟨hi.cmtys, hi.nVars, hi.ca, hi.clauses, fun v => ?_, fun v => ?_, hi.cmtybridges⟩
    · rw [hi.bridges v]
      constructor
      · rintro (h1 | ⟨p, hp, hcp⟩)
        · exact Or.inl h1
        · exact Or.inr ⟨p, List.mem_append_left _ hp, hcp⟩
      · rintro (h1 | ⟨p, hp, hcp⟩)
        · exact Or.inl h1
        · rcases List.mem_append.mp hp with h2 | h2
          · exact Or.inr ⟨p, h2, hcp⟩
          · rw [List.mem_singleton.mp h2, crossPair_same hc0] at hcp
            cases hcp
    · rw [hi.numbridges v, List.countP_append]
      simp [crossPair_same hc0]

theorem bridgeInner_inv {s0 : Solver} {a : Lit} (ha : a.var < s0.nVars) :
    ∀ (rest : List Lit) (ps : List (Lit × Lit)) (s s1 : Solver), BridgeInv s0 ps s →
    (∀ l ∈ rest, l.var < s0.nVars) → bridgeInner a.var rest s = some s1 →
    BridgeInv s0 (ps ++ rest.map (fun x => (a, x))) s1 := by
  intro rest
  induction rest with
  | nil =>
    intro ps s s1 hi _ h
    simp only [bridgeInner, Option.some.injEq] at h
    subst h
    simpa using hi
  | cons l rest ih =>
    intro ps s s1 hi hv h
    rw [bridgeInner] at h
    split at h
    · simp at h
    · next s2 h2 =>
      have := ih (ps ++ [(a, l)]) s2 s1
        (bridgePair_inv hi ha (hv l (List.mem_cons_self _ _)) h2)
        (fun x hx => hv x (List.mem_cons_of_mem _ hx)) h
      simpa using this

theorem bridgeClause_inv {s0 : Solver} :
    ∀ (ls : List Lit) (ps : List (Lit × Lit)) (s s1 : Solver), BridgeInv s0 ps s →
    (∀ l ∈ ls, l.var < s0.nVars) → bridgeClause ls s = some s1 →
    BridgeInv s0 (ps ++ litPairs ls) s1 := by
  intro ls
  induction ls with
  | nil =>
    intro ps s s1 hi _ h
    simp only [bridgeClause, Option.some.injEq] at h
    subst h
    simpa [litPairs] using hi
  | cons l rest ih =>
    intro ps s s1 hi hv h
    rw [bridgeClause] at h
    split at h
    · simp at h
    · next s2 h2 =>
      have h3 := bridgeInner_inv (hv l (List.mem_cons_self _ _)) rest ps s s2 hi
        (fun x hx => hv x (List.mem_cons_of_mem _ hx)) h2
      have := ih _ s2 s1 h3 (fun x hx => hv x (List.mem_cons_of_mem _ hx)) h
      rw [litPairs, ← List.append_assoc]
      exact this

theorem bridgeClauses_inv {s0 : Solver} :
    ∀ (cs : List Nat) (ps : List (Lit × Lit)) (s s1 : Solver), BridgeInv s0 ps s →
    (∀ cr ∈ cs, ∀ l ∈ (s0.ca cr).lits, l.var < s0.nVars) → bridgeClauses cs s = some s1 →
    BridgeInv s0 (ps ++ (cs.map (fun cr => litPairs (s0.ca cr).lits)).flatten) s1 := by
  intro cs
  induction cs with
  | nil =>
    intro ps s s1 hi _ h
    simp only [bridgeClauses, Option.some.injEq] at h
    subst h
    simpa using hi
  | cons cr rest ih =>
    intro ps s s1 hi hv h
    rw [bridgeClauses] at h
    split at h
    · simp at h
    · next s2 h2 =>
      rw [hi.ca] at h2
      have h3 := bridgeClause_inv (s0.ca cr).lits ps s s2 hi
        (hv cr (List.mem_cons_self _ _)) h2
      have := ih _ s2 s1 h3 (fun x hx => hv x (List.mem_cons_of_mem _ hx)) h
      rw [List.map_cons, List.flatten_cons, ← List.append_assoc]
      exact this

/-- The pairs of literals of a clause: both members are literals of the clause, and two
literals of the clause with different variables make a pair, in one order or the
other. -/
theorem mem_litPairs : ∀ (ls : List Lit) (a b : Lit),
    ((a, b) ∈ litPairs ls → a ∈ ls ∧ b ∈ ls) ∧
    (a ∈ ls → b ∈ ls → a ≠ b → ((a, b) ∈ litPairs ls ∨ (b, a) ∈ litPairs ls)) := by
  intro ls
  induction ls with
  | nil => intro a b; simp [litPairs]
  | cons l rest ih =>
    intro a b
    constructor
    · intro h
      rw [litPairs] at h
      rcases List.mem_append.mp h with h1 | h1
      · obtain ⟨x, hx, e⟩ := List.mem_map.mp h1
        simp only [Prod.mk.injEq] at e
        rw [← e.1, ← e.2]
        exact ⟨List.mem_cons_self _ _, List.mem_cons_of_mem _ hx⟩
      · have := (ih a b).1 h1
        exact ⟨List.mem_cons_of_mem _ this.1, List.mem_cons_of_mem _ this.2⟩
    · intro ha hb hab
      rw [litPairs]
      rcases List.mem_cons.mp ha with ea | ha2 <;> rcases List.mem_cons.mp hb with eb | hb2
      · exact absurd (ea.trans eb.symm) hab
      · left
        exact List.mem_append_left _ (List.mem_map.mpr ⟨b, hb2, by rw [ea]⟩)
      · right
        exact List.mem_append_left _ (List.mem_map.mpr ⟨a, ha2, by rw [eb]⟩)
      · rcases (ih a b).2 ha2 hb2 hab with h1 | h1
        · exact Or.inl (List.mem_append_right _ h1)
        · exact Or.inr (List.mem_append_right _ h1)

theorem countP_flatten_sum {α : Type} (p : α → Bool) : ∀ (L : List (List α)),
    L.flatten.countP p = (L.map (fun l => l.countP p)).sum := by
  intro L
  induction L with
  | nil => rfl
  | cons l rest ih =>
    rw [List.flatten_cons, List.countP_append, List.map_cons, List.sum_cons, ih]

/-- The count of the bridges of `solve_`, from a state in which no bridge is counted. -/
theorem bridgeClauses_spec {s t : Solver} (h : bridgeClauses s.clauses s = some t)
    (hb : ∀ v, s.bridges v = false) (hn : ∀ v, s.numbridges v = 0)
    (hc : ∀ c, s.cmtybridges c = 0)
    (hv : ∀ cr ∈ s.clauses, ∀ l ∈ (s.ca cr).lits, l.var < s.nVars) :
    BridgeInv s ((s.clauses.map (fun cr => litPairs (s.ca cr).lits)).flatten) t := by
  have h0 : BridgeInv s [] s := by
    refine ⟨rfl, rfl, rfl, rfl, fun v => by simp, fun v => by simp, fun c => ?_⟩
    have hz : bridgesInCmty s c = 0 := by
      unfold bridgesInCmty
      rw [List.countP_eq_zero]
      intro v _
      simp [hb v]
    rw [hc, hz]
    rfl
  have := bridgeClauses_inv s.clauses [] s t h0 hv h
  simpa using this

end Glucose


namespace Glucose

/-! ## The conflict branch of `search` -/

theorem ConflictState.conflict_of_body {s t : Solver} {confl : Nat}
    (h : ConflictState s confl) (e : t.body = s.body) : ConflictState t confl := by
  obtain ⟨e1, e2, e3, e4, e5, _, e7, e8, e9, e10, e11, e12, _⟩ := body_fields e
  have f : AFrame s t := AFrame.of_eqs e1 e2 e3 e4 e8 e7 (fun cr => by rw [e5])
  refine ⟨f.analysable h.ok, ?_, ?_, ?_, ?_, ?_⟩
  · intro l hl
    rw [e5] at hl
    rw [f.value_eq]
    exact h.conflFalse l hl
  · obtain ⟨l, hl, hv⟩ := h.conflCur
    refine ⟨l, by rw [e5]; exact hl, ?_⟩
    rw [f.level_eq, f.decisionLevel_eq]
    exact hv
  · rw [e9]; exact h.seen0
  · rw [e10, e11]; exact h.stamps
  · rw [e12]; exact h.lastDL

/-- A false literal at a level above `k` is unassigned after backtracking to `k`. -/
theorem undef_after_cancel {s : Solver} {k : Nat} {x : Lit} (hT : TrailOK s)
    (hk : k < s.decisionLevel) (hx : s.value x = lbool.l_False) (hl : k < s.level x.var) :
    (cancelUntil s k).value x = lbool.l_Undef := by
  obtain ⟨j, hj, hg⟩ := hT.index_of_false hx
  obtain ⟨_, _, _, _, e1⟩ := cancelUntil_fields s k hk
  have hk2 : k < s.trail_lim.length := hk
  have hkg : s.trail_lim.get? k = some (s.trail_lim.getD k 0) := by
    rw [List.get?_eq_getElem?, List.getD_eq_getElem?_getD, List.getElem?_eq_getElem hk2]
    rfl
  have hlev := hT.levels j x.neg hg
  rw [Lit.neg_var] at hlev
  have hjl : s.trail_lim.getD k 0 ≤ j := by
    by_contra hcon
    have h1 := levelAt_take_of_lt hT.limsSorted hkg (Nat.lt_of_not_le hcon)
    have h2 := levelAt_le (s.trail_lim.take k) j
    rw [List.length_take] at h2
    omega
  have hm : x.var ∈ (s.trail.drop (s.trail_lim.getD k 0)).map Lit.var := by
    refine List.mem_map.mpr ⟨x.neg, ?_, Lit.neg_var x⟩
    rw [List.get?_eq_getElem?] at hg
    obtain ⟨hj2, hg2⟩ := List.getElem?_eq_some_iff.mp hg
    rw [List.mem_iff_getElem]
    refine ⟨j - s.trail_lim.getD k 0, by rw [List.length_drop]; omega, ?_⟩
    rw [List.getElem_drop]
    have : s.trail_lim.getD k 0 + (j - s.trail_lim.getD k 0) = j := by omega
    simp only [this]
    exact hg2
  exact value_undef_iff.mpr ((e1 x.var).1 hm)

/-- The function `attachClause` on a clause of at least two literals returns, with a
watcher of the clause in the list of the negation of each of the first two literals:
in the binary watch lists for a clause of two literals, in the long ones otherwise. -/
theorem attachClause_watchers {s : Solver} {cr : Nat} {c0 c1 : Lit} {rest : List Lit}
    (hl : (s.ca cr).lits = c0 :: c1 :: rest) :
    ∃ t, attachClause s cr = some t ∧ t.learnts = s.learnts ∧
      (rest = [] → (⟨cr, c1⟩ : Watcher) ∈ t.watchesBin.occs c0.neg ∧
        (⟨cr, c0⟩ : Watcher) ∈ t.watchesBin.occs c1.neg) ∧
      (rest ≠ [] → (⟨cr, c1⟩ : Watcher) ∈ t.watches.occs c0.neg ∧
        (⟨cr, c0⟩ : Watcher) ∈ t.watches.occs c1.neg) := by
  unfold attachClause
  dsimp only
  rw [hl]
  dsimp only
  refine ⟨_, rfl, ?_, ?_, ?_⟩
  · split <;> split <;> rfl
  · intro hr
    rw [if_pos hr]
    have k1 : (⟨cr, c1⟩ : Watcher) ∈
        ((s.watchesBin.push c0.neg ⟨cr, c1⟩).push c1.neg ⟨cr, c0⟩).occs c0.neg :=
      OccLists.mem_push.mpr (Or.inl (OccLists.mem_push.mpr (Or.inr ⟨rfl, rfl⟩)))
    have k2 : (⟨cr, c0⟩ : Watcher) ∈
        ((s.watchesBin.push c0.neg ⟨cr, c1⟩).push c1.neg ⟨cr, c0⟩).occs c1.neg :=
      OccLists.mem_push.mpr (Or.inr ⟨rfl, rfl⟩)
    split <;> exact ⟨k1, k2⟩
  · intro hr
    rw [if_neg hr]
    have k1 : (⟨cr, c1⟩ : Watcher) ∈
        ((s.watches.push c0.neg ⟨cr, c1⟩).push c1.neg ⟨cr, c0⟩).occs c0.neg :=
      OccLists.mem_push.mpr (Or.inl (OccLists.mem_push.mpr (Or.inr ⟨rfl, rfl⟩)))
    have k2 : (⟨cr, c0⟩ : Watcher) ∈
        ((s.watches.push c0.neg ⟨cr, c1⟩).push c1.neg ⟨cr, c0⟩).occs c1.neg :=
      OccLists.mem_push.mpr (Or.inr ⟨rfl, rfl⟩)
    split <;> exact ⟨k1, k2⟩

theorem value_update_self (a : Nat → lbool) (p : Lit) :
    (Function.update a p.var (lbool.ofBool (!p.sign)) p.var).xor p.sign = lbool.l_True := by
  rw [Function.update_same]
  cases p.sign <;> rfl

/-- The installation of the learnt clause `o0 :: rest` in a state in which `o0` is
unassigned and the literals of `rest` are false: it returns; the decision level is the
same; `o0` is true at that level and the literals of `rest` are false; a unit clause
adds no clause and `o0` has no reason; a longer clause is stored at the end of the
arena with the LBD of the analysis, appended to `learnts`, attached through its first
two literals, and is the reason of `o0`. -/
theorem installLearnt_spec {r : AnalyzeResult} {u : Solver} {o0 : Lit} {rest : List Lit}
    (hr : r.out_learnt = o0 :: rest) (h0 : u.value o0 = lbool.l_Undef)
    (hf : ∀ x ∈ rest, u.value x = lbool.l_False) :
    ∃ t, installLearnt r u = some t ∧ t.decisionLevel = u.decisionLevel ∧
      t.value o0 = lbool.l_True ∧ t.level o0.var = u.decisionLevel ∧
      (∀ x ∈ rest, t.value x = lbool.l_False) ∧
      (rest = [] → t.reason o0.var = none ∧ t.learnts = u.learnts ∧
        t.caSize = u.caSize ∧ t.ca = u.ca) ∧
      (∀ o1 tl, rest = o1 :: tl →
        t.learnts = u.learnts ++ [u.caSize] ∧ t.caSize = u.caSize + 1 ∧
        t.ca = Function.update u.ca u.caSize (learntClause r) ∧
        t.reason o0.var = some u.caSize ∧
        (tl = [] → (⟨u.caSize, o1⟩ : Watcher) ∈ t.watchesBin.occs o0.neg ∧
          (⟨u.caSize, o0⟩ : Watcher) ∈ t.watchesBin.occs o1.neg) ∧
        (tl ≠ [] → (⟨u.caSize, o1⟩ : Watcher) ∈ t.watches.occs o0.neg ∧
          (⟨u.caSize, o0⟩ : Watcher) ∈ t.watches.occs o1.neg)) := by
  have hne : ∀ x ∈ rest, x.var ≠ o0.var := by
    intro x hx e
    have h1 := value_undef_iff.mp h0
    rw [← e] at h1
    have h2 := value_undef_iff.mpr h1
    rw [hf x hx] at h2
    cases h2
  have henq : ∀ (w : Solver) (c : Option Nat), w.value o0 = lbool.l_Undef →
      uncheckedEnqueue w o0 c = some { w with
        assigns := Function.update w.assigns o0.var (lbool.ofBool (!o0.sign)),
        vardata := Function.update w.vardata o0.var ⟨c, w.decisionLevel⟩,
        trail := w.trail ++ [o0] } := by
    intro w c hw
    unfold uncheckedEnqueue
    rw [if_pos hw]
  unfold installLearnt
  rw [hr]
  cases rest with
  | nil =>
    dsimp only
    rw [henq u none h0]
    dsimp only
    refine ⟨_, rfl, rfl, ?_, ?_, (fun x hx => by cases hx), fun _ => ⟨?_, rfl, rfl, rfl⟩,
      (fun o1 tl e => by cases e)⟩
    · exact value_update_self u.assigns o0
    · show (Function.update u.vardata o0.var ⟨none, u.decisionLevel⟩ o0.var).level = _
      rw [Function.update_same]
    · show (Function.update u.vardata o0.var ⟨none, u.decisionLevel⟩ o0.var).reason = _
      rw [Function.update_same]
  | cons o1 tl =>
    dsimp only
    have hlits : (({ u with
        ca := Function.update u.ca u.caSize (learntClause r),
        caSize := u.caSize + 1,
        stats := { u.stats with
          nbDL2 := if r.lbd ≤ 2 then u.stats.nbDL2 + 1 else u.stats.nbDL2,
          nbBin := if tl = [] then u.stats.nbBin + 1 else u.stats.nbBin },
        learnts := u.learnts ++ [u.caSize] } : Solver).ca u.caSize).lits
        = o0 :: o1 :: tl := by
      show (Function.update u.ca u.caSize (learntClause r) u.caSize).lits = _
      rw [Function.update_same]
      exact hr
    obtain ⟨s2, h2, hl2, hb2, hw2⟩ := attachClause_watchers hlits
    rw [h2]
    dsimp only
    obtain ⟨a1, a2, a3, a4, _, _⟩ := attachClause_assigns h2
    obtain ⟨b1, b2, _⟩ := attachClause_frame2 h2
    have hv2 : ({ s2 with lastLearntClause := some u.caSize } : Solver).value o0
        = lbool.l_Undef := by
      show (s2.assigns o0.var).xor o0.sign = _
      rw [a1]
      exact h0
    rw [henq _ _ hv2]
    refine ⟨_, rfl, ?_, ?_, ?_, ?_, (fun e => by cases e), ?_⟩
    · show s2.trail_lim.length = u.trail_lim.length
      rw [a4]
    · exact value_update_self s2.assigns o0
    · show (Function.update s2.vardata o0.var ⟨some u.caSize, s2.trail_lim.length⟩
        o0.var).level = _
      rw [Function.update_same]
      show s2.trail_lim.length = u.trail_lim.length
      rw [a4]
    · intro x hx
      show (Function.update s2.assigns o0.var (lbool.ofBool (!o0.sign)) x.var).xor x.sign = _
      rw [Function.update_noteq (hne x hx), a1]
      exact hf x hx
    · intro p1 t1 e
      simp only [List.cons.injEq] at e
      obtain ⟨e1, e2⟩ := e
      subst e1 e2
      refine ⟨hl2, b2, b1, ?_, hb2, hw2⟩
      show (Function.update s2.vardata o0.var ⟨some u.caSize, s2.trail_lim.length⟩
        o0.var).reason = _
      rw [Function.update_same]

end Glucose


namespace Glucose

/-! ## The life of an original clause

The invariant `Tracked` of the original clauses is kept by every function that the
sequences of `Calls` are made of. -/

/-! ### Steps that assign, decide and allocate -/

theorem Grows.grows_refl (s : Solver) : Grows s s :=
  ⟨fun _ _ => rfl, ⟨[], by simp, fun _ h => by cases h⟩, ⟨[], by simp, fun _ h => by cases h⟩,
    fun _ _ => List.Perm.refl _, fun _ _ => rfl, rfl, fun _ h => Or.inl h, le_refl _, rfl⟩

theorem Grows.grows_trans {s t u : Solver} (h1 : Grows s t) (h2 : Grows t u) : Grows s u := by
  obtain ⟨t1, a1, e1⟩ := h1.trail
  obtain ⟨t2, a2, e2⟩ := h2.trail
  obtain ⟨l1, m1, f1⟩ := h1.trail_lim
  obtain ⟨l2, m2, g2⟩ := h2.trail_lim
  have hkeep : ∀ v, s.assigns v ≠ lbool.l_Undef → t.assigns v ≠ lbool.l_Undef := by
    intro v hv
    rw [h1.assigns v hv]
    exact hv
  refine ⟨?_, ⟨t1 ++ t2, ?_, ?_⟩, ⟨l1 ++ l2, ?_, ?_⟩, ?_, ?_, ?_, ?_, ?_, ?_⟩
  · intro v hv
    rw [h2.assigns v (hkeep v hv), h1.assigns v hv]
  · rw [a2, a1, List.append_assoc]
  · intro x hx
    rcases List.mem_append.mp hx with hx | hx
    · exact e1 x hx
    · by_contra hc
      exact hkeep x.var hc (e2 x hx)
  · rw [m2, m1, List.append_assoc]
  · intro b hb
    rcases List.mem_append.mp hb with hb | hb
    · exact f1 b hb
    · have := g2 b hb
      rw [a1, List.length_append] at this
      omega
  · intro cr hcr
    exact (h2.lits cr (lt_of_lt_of_le hcr h1.caSize)).trans (h1.lits cr hcr)
  · intro cr hcr
    rw [h2.mark cr (lt_of_lt_of_le hcr h1.caSize), h1.mark cr hcr]
  · rw [h2.clauses, h1.clauses]
  · intro x hx
    rcases h2.learnts x hx with h | ⟨h, h3⟩
    · rcases h1.learnts x h with h | ⟨h, h4⟩
      · exact Or.inl h
      · exact Or.inr ⟨h, lt_of_lt_of_le h4 h2.caSize⟩
    · exact Or.inr ⟨le_trans h1.caSize h, h3⟩
  · exact le_trans h1.caSize h2.caSize
  · rw [h2.nVars, h1.nVars]

theorem store_fields {s t : Solver} (h : t.store = s.store) :
    t.assigns = s.assigns ∧ t.trail = s.trail ∧ t.trail_lim = s.trail_lim ∧ t.ca = s.ca ∧
      t.caSize = s.caSize ∧ t.clauses = s.clauses ∧ t.learnts = s.learnts ∧
      t.nVars = s.nVars := by
  simp only [Solver.store, Prod.mk.injEq] at h
  exact h

theorem Grows.of_store {s t : Solver} (h : t.store = s.store) : Grows s t := by
  obtain ⟨e1, e2, e3, e4, e5, e6, e7, e8⟩ := store_fields h
  refine ⟨fun v _ => by rw [e1], ⟨[], by rw [e2]; simp, fun _ h => by cases h⟩,
    ⟨[], by rw [e3]; simp, fun _ h => by cases h⟩, fun cr _ => by rw [e4],
    fun cr _ => by rw [e4], e6, fun x hx => Or.inl (by rw [← e7]; exact hx),
    le_of_eq e5.symm, e8⟩

theorem body_store {s t : Solver} (h : t.body = s.body) : t.store = s.store := by
  simp only [Solver.body, Prod.mk.injEq] at h
  obtain ⟨a1, a2, a3, a4, a5, a6, a7, a8, a9, a10, a11, a12, a13, a14, a15, a16, a17, a18,
    a19, a20, a21, a22, a23, a24⟩ := h
  simp only [Solver.store, Prod.mk.injEq]
  exact ⟨a3, a9, a10, a12, a13, a14, a15, a2⟩

theorem Grows.of_body {s t : Solver} (h : t.body = s.body) : Grows s t :=
  Grows.of_store (body_store h)

/-- The function `propagate` assigns and re-orders literals inside clauses. -/
theorem propagate_grows {s : Solver} {r : Option Nat × Solver} (h : propagate s = some r) :
    Grows s r.2 := by
  have hx := propagate_ext h
  obtain ⟨hc, e5, e6, e7, _⟩ := shape_fields (propagate_shape h)
  have hn := (scalars_opts (propagate_scalars h)).1
  obtain ⟨added, a1, _, a3, _⟩ := hx.trail
  refine ⟨hx.assigns, ⟨added, a1, a3⟩, ⟨[], by rw [hx.trail_lim]; simp, fun _ h => by cases h⟩,
    fun cr _ => hx.lits cr, fun cr _ => (hc cr).2.2.1, e6,
    fun x hx => Or.inl (by rw [← e7]; exact hx), le_of_eq e5.symm, hn⟩

/-- Conflict analysis re-orders literals inside clauses. -/
theorem analyze_grows {s : Solver} {confl : Nat} {r : AnalyzeResult}
    (h : analyze s confl = some r) : Grows s r.state := by
  obtain ⟨c1, _, c3, c4, _⟩ := core_fields (analyze_core h)
  obtain ⟨hc, e5, e6, e7, _⟩ := shape_fields (analyze_shape h)
  have hn := (scalars_opts (analyze_scalars h)).1
  refine ⟨fun v _ => by rw [c1], ⟨[], by rw [c3]; simp, fun _ h => by cases h⟩,
    ⟨[], by rw [c4]; simp, fun _ h => by cases h⟩,
    fun cr _ => Multiset.coe_eq_coe.mp (hc cr).2.1, fun cr _ => (hc cr).2.2.1, e6,
    fun x hx => Or.inl (by rw [← e7]; exact hx), le_of_eq e5.symm, hn⟩

theorem uncheckedEnqueue_grows {s s1 : Solver} {p : Lit} {r : Option Nat}
    (h : uncheckedEnqueue s p r = some s1) : Grows s s1 := by
  have ho := uncheckedEnqueue_assigns_other h
  obtain ⟨hu, rfl⟩ := uncheckedEnqueue_eq h
  refine ⟨ho, ⟨[p], rfl, ?_⟩, ⟨[], by simp, fun _ h => by cases h⟩,
    fun _ _ => List.Perm.refl _, fun _ _ => rfl, rfl, fun _ h => Or.inl h, le_refl _, rfl⟩
  intro x hx
  simp only [List.mem_singleton] at hx
  subst hx
  exact value_undef_iff.mp hu

theorem newDecisionLevel_grows (s : Solver) : Grows s s.newDecisionLevel :=
  ⟨fun _ _ => rfl, ⟨[], by simp [Solver.newDecisionLevel], fun _ h => by cases h⟩,
    ⟨[s.trail.length], rfl, fun b hb => by
      simp only [List.mem_singleton] at hb
      omega⟩,
    fun _ _ => List.Perm.refl _, fun _ _ => rfl, rfl, fun _ h => Or.inl h, le_refl _, rfl⟩

theorem attachClause_store {s t : Solver} {cr : Nat} (h : attachClause s cr = some t) :
    t.store = s.store := by
  unfold attachClause at h
  dsimp only at h
  split at h
  · simp only [Option.some.injEq] at h
    rw [← h]
    split <;> split <;> rfl
  · simp at h

/-- The installation of the learnt clause allocates a new clause reference, pushes it
on `learnts` and assigns the first literal. -/
theorem installLearnt_grows {r : AnalyzeResult} {s t : Solver}
    (h : installLearnt r s = some t) : Grows s t := by
  unfold installLearnt at h
  split at h
  · simp at h
  · split at h
    · simp at h
    · next s1 h1 =>
      simp only [Option.some.injEq] at h
      rw [← h]
      exact (uncheckedEnqueue_grows h1).grows_trans (Grows.of_store rfl)
  · next l l2 ls _ =>
    dsimp only at h
    split at h
    · simp at h
    · next s2 h2 =>
      have g1 : Grows s { s with
          ca := Function.update s.ca s.caSize (learntClause r),
          caSize := s.caSize + 1,
          stats := { s.stats with
            nbDL2 := if r.lbd ≤ 2 then s.stats.nbDL2 + 1 else s.stats.nbDL2,
            nbBin := if ls = [] then s.stats.nbBin + 1 else s.stats.nbBin },
          learnts := s.learnts ++ [s.caSize] } := by
        refine ⟨fun _ _ => rfl, ⟨[], by simp, fun _ h => by cases h⟩,
          ⟨[], by simp, fun _ h => by cases h⟩, ?_, ?_, rfl, ?_, Nat.le_succ _, rfl⟩
        · intro cr hcr
          show ((Function.update s.ca s.caSize (learntClause r) cr).lits).Perm _
          rw [Function.update_noteq (by omega)]
        · intro cr hcr
          show (Function.update s.ca s.caSize (learntClause r) cr).mark = _
          rw [Function.update_noteq (by omega)]
        · intro x hx
          rcases List.mem_append.mp hx with hx | hx
          · exact Or.inl hx
          · simp only [List.mem_singleton] at hx
            subst hx
            exact Or.inr ⟨le_refl _, Nat.lt_succ_self _⟩
      have g2 : Grows _ s2 := Grows.of_store (attachClause_store h2)
      have g3 : Grows s2 { s2 with lastLearntClause := some s.caSize } := Grows.of_store rfl
      exact ((g1.grows_trans g2).grows_trans g3).grows_trans (uncheckedEnqueue_grows h)

/-! ### What the steps keep -/

theorem value_of_assigns {s t : Solver} {l : Lit} (h : t.assigns l.var = s.assigns l.var) :
    t.value l = s.value l := by
  unfold Solver.value
  rw [h]

theorem assigned_of_true {s : Solver} {l : Lit} (h : s.value l = lbool.l_True) :
    s.assigns l.var ≠ lbool.l_Undef :=
  assigned_of_value (by rw [h]; simp)

/-- A literal true at level 0 stays true at level 0 when the state grows. -/
theorem Grows.rootTrue_grows {s t : Solver} (g : Grows s t) {l : Lit} (h : s.rootTrue l) :
    t.rootTrue l := by
  obtain ⟨hv, hn, hpos⟩ := h
  have ha := assigned_of_true hv
  obtain ⟨added, a1, a2⟩ := g.trail
  obtain ⟨more, m1, m2⟩ := g.trail_lim
  refine ⟨by rw [value_of_assigns (g.assigns l.var ha)]; exact hv, by rw [g.nVars]; exact hn, ?_⟩
  intro i x b hi hx hb
  rw [a1] at hi
  rw [m1] at hb
  by_cases hlt : i < s.trail.length
  · rw [List.get?_eq_getElem?, List.getElem?_append_left hlt, ← List.get?_eq_getElem?] at hi
    rcases List.mem_append.mp hb with hb | hb
    · exact hpos i x b hi hx hb
    · have := m2 b hb
      omega
  · exfalso
    rw [List.get?_eq_getElem?, List.getElem?_append_right (by omega)] at hi
    have hm : x ∈ added := by
      obtain ⟨hh, he⟩ := List.getElem?_eq_some_iff.mp hi
      rw [← he]
      exact List.getElem_mem _
    have := a2 x hm
    rw [hx] at this
    exact ha this

/-- The invariant of the original clauses is kept when the state grows. -/
theorem Tracked.of_grows {orig : List Nat} {s t : Solver} (h : Tracked orig s)
    (g : Grows s t) : Tracked orig t := by
  refine ⟨fun cr hcr => lt_of_lt_of_le (h.refs cr hcr) g.caSize, ?_, ?_, ?_, ?_⟩
  · intro x hx
    rcases g.learnts x hx with h1 | ⟨_, h1⟩
    · exact lt_of_lt_of_le (h.allocated x h1) g.caSize
    · exact h1
  · intro cr hcr hx
    rcases g.learnts cr hx with h1 | ⟨h1, _⟩
    · exact h.disjoint cr hcr h1
    · have := h.refs cr hcr
      omega
  · intro cr hcr l hl
    rw [g.nVars]
    exact h.vars cr hcr l ((g.lits cr (h.refs cr hcr)).mem_iff.mp hl)
  · intro cr hcr
    rcases h.kept cr hcr with ⟨h1, h2⟩ | ⟨l, hl, hr⟩
    · left
      rw [g.clauses, g.mark cr (h.refs cr hcr)]
      exact ⟨h1, h2⟩
    · right
      exact ⟨l, (g.lits cr (h.refs cr hcr)).mem_iff.mpr hl, g.rootTrue_grows hr⟩

/-! ### The assumptions -/

theorem analyzeFinalLoop_store : ∀ (ls out : List Lit) (s : Solver)
    (r : List Lit × Solver),
    analyzeFinalLoop ls out s = some r → r.2.store = s.store := by
  intro ls
  induction ls with
  | nil =>
    intro out s r h
    simp only [analyzeFinalLoop, Option.some.injEq] at h
    rw [← h]
  | cons l rest ih =>
    intro out s r h
    rw [analyzeFinalLoop] at h
    dsimp only at h
    split at h
    · split at h
      · split at h
        · exact (ih _ _ _ h).trans rfl
        · simp at h
      · exact (ih _ _ _ h).trans rfl
    · exact ih _ _ _ h

theorem analyzeFinal_store {s t : Solver} {p : Lit} (h : analyzeFinal s p = some t) :
    t.store = s.store := by
  unfold analyzeFinal at h
  split at h
  · simp only [Option.some.injEq] at h; rw [← h]; rfl
  · dsimp only at h
    split at h
    · simp at h
    · next out s2 h2 =>
      simp only [Option.some.injEq] at h
      rw [← h]
      exact Eq.trans rfl ((analyzeFinalLoop_store _ _ _ _ h2).trans rfl)

/-- The loop of `search` over the assumptions opens decision levels and, on a false
assumption, computes the final conflict. -/
theorem assumeLoop_grows : ∀ (ps : List Lit) (s : Solver)
    (r : Solver ⊕ (Option Lit × Solver)), assumeLoop ps s = some r →
    (match r with
      | Sum.inl t => Grows s t
      | Sum.inr (_, t) => Grows s t) := by
  intro ps
  induction ps with
  | nil =>
    intro s r h
    simp only [assumeLoop, Option.some.injEq] at h
    rw [← h]
    exact Grows.grows_refl s
  | cons p rest ih =>
    intro s r h
    rw [assumeLoop] at h
    split at h
    · have := ih _ _ h
      cases r with
      | inl t => exact (newDecisionLevel_grows s).grows_trans this
      | inr x => exact (newDecisionLevel_grows s).grows_trans this
    · split at h
      · split at h
        · simp at h
        · next s1 h1 =>
          simp only [Option.some.injEq] at h
          rw [← h]
          exact Grows.of_store (analyzeFinal_store h1)
      · simp only [Option.some.injEq] at h
        rw [← h]
        exact Grows.grows_refl s

/-! ### Backtracking -/

/-- A literal true at level 0 stays true at level 0 after `cancelUntil`. -/
theorem cancelUntil_rootTrue (s : Solver) (k : Nat) {l : Lit} (h : s.rootTrue l) :
    (cancelUntil s k).rootTrue l := by
  by_cases hk : k < s.decisionLevel
  · obtain ⟨hv, hn, hpos⟩ := h
    obtain ⟨c1, _, c3, _, c5⟩ := cancelUntil_fields s k hk
    have hnv : (cancelUntil s k).nVars = s.nVars := (cancelUntil_frame s k).2.2.2.2.2.2.2.2.2.2.2.1
    have hk2 : k < s.trail_lim.length := hk
    have hlim : s.trail_lim.getD k 0 ∈ s.trail_lim := by
      rw [List.getD_eq_getElem?_getD, List.getElem?_eq_getElem hk2]
      exact List.getElem_mem _
    have hnot : l.var ∉ (s.trail.drop (s.trail_lim.getD k 0)).map Lit.var := by
      intro hm
      obtain ⟨x, hx, hxv⟩ := List.mem_map.mp hm
      obtain ⟨j, hj⟩ := List.mem_iff_get?.mp hx
      rw [List.get?_eq_getElem?, List.getElem?_drop, ← List.get?_eq_getElem?] at hj
      have := hpos _ x _ hj hxv hlim
      omega
    refine ⟨?_, by rw [hnv]; exact hn, ?_⟩
    · rw [value_of_assigns ((c5 l.var).2 hnot)]
      exact hv
    · intro i x b hi hx hb
      rw [c1] at hi
      rw [c3] at hb
      rw [List.get?_eq_getElem?] at hi
      have hi2 : s.trail.get? i = some x := by
        rw [List.get?_eq_getElem?]
        rw [List.getElem?_take] at hi
        split at hi
        · exact hi
        · cases hi
      exact hpos i x b hi2 hx (List.mem_of_mem_take hb)
  · rw [cancelUntil_of_le s k (by omega)]
    exact h

/-- The function `cancelUntil` keeps the invariant of the original clauses. -/
theorem cancelUntil_tracked {orig : List Nat} (s : Solver) (k : Nat) (h : Tracked orig s) :
    Tracked orig (cancelUntil s k) := by
  obtain ⟨_, f2, f3, _, _, _, _, _, _, _, _, f12, f13, f14, _, _⟩ := cancelUntil_frame s k
  refine ⟨by rw [f3]; exact h.refs, by rw [f14, f3]; exact h.allocated,
    by rw [f14]; exact h.disjoint, by rw [f2, f12]; exact h.vars, ?_⟩
  intro cr hcr
  rcases h.kept cr hcr with h1 | ⟨l, hl, hr⟩
  · left
    rw [f13, f2]
    exact h1
  · right
    rw [f2]
    exact ⟨l, hl, cancelUntil_rootTrue s k hr⟩

/-! ### The sweeps of `simplify` -/

theorem rootTrue_of_eqs {s t : Solver} {l : Lit} (e1 : t.assigns = s.assigns)
    (e2 : t.trail = s.trail) (e3 : t.trail_lim = s.trail_lim) (e4 : t.nVars = s.nVars)
    (h : s.rootTrue l) : t.rootTrue l := by
  unfold Solver.rootTrue Solver.value at h ⊢
  rw [e1, e2, e3, e4]
  exact h

theorem Swept.swept_of_store {s t : Solver} (h : t.store = s.store) : Swept s t := by
  obtain ⟨e1, e2, e3, e4, e5, e6, e7, e8⟩ := store_fields h
  exact ⟨e1, e2, e3, e8, e5, fun x => by rw [e4], fun x hx => by rw [← e7]; exact hx,
    fun cr => Or.inl ⟨fun hcr => by rw [e6]; exact hcr, by rw [e4]⟩⟩

theorem Swept.swept_trans {s t u : Solver} (h1 : Swept s t) (h2 : Swept t u) : Swept s u := by
  refine ⟨h2.assigns.trans h1.assigns, h2.trail.trans h1.trail,
    h2.trail_lim.trans h1.trail_lim, h2.nVars.trans h1.nVars, h2.caSize.trans h1.caSize,
    fun x => (h2.lits x).trans (h1.lits x), fun x hx => h1.learnts x (h2.learnts x hx), ?_⟩
  intro cr
  rcases h1.marks cr with ⟨a1, a2⟩ | hs
  · rcases h2.marks cr with ⟨b1, b2⟩ | ⟨l, hl, hv⟩
    · exact Or.inl ⟨fun hcr => b1 (a1 hcr), b2.trans a2⟩
    · right
      refine ⟨l, by rw [← h1.lits]; exact hl, ?_⟩
      unfold Solver.value at hv ⊢
      rw [← h1.assigns]
      exact hv
  · exact Or.inr hs

/-- One sweep of `removeSatisfied` over a list of clause references. -/
theorem removeSatisfiedLoop_swept {cs kept1 : List Nat} {s t : Solver}
    (h : removeSatisfiedLoop cs [] s = some (kept1, t)) :
    Swept s t ∧ t.clauses = s.clauses ∧ t.learnts = s.learnts ∧ (∀ x ∈ kept1, x ∈ cs) ∧
      (∀ cr ∈ cs, cr ∈ kept1 ∨ ∃ l ∈ (s.ca cr).lits, s.value l = lbool.l_True) ∧
      (∀ x, (t.ca x).mark ≠ (s.ca x).mark →
        ∃ l ∈ (s.ca x).lits, s.value l = lbool.l_True) := by
  obtain ⟨f, c, l, _, _, _, k2, k3, m⟩ := removeSatisfiedLoop_spec _ _ _ _ _ h
  obtain ⟨n1, _, _, n4, _⟩ := scalars_opts (removeSatisfiedLoop_scalars _ _ _ _ h)
  refine ⟨⟨f.assigns, f.trail, f.trail_lim, n1, n4, f.lits,
    fun x hx => by rw [← l]; exact hx, ?_⟩, c, l, ?_, k3, fun x hx => (m x hx).2⟩
  · intro cr
    by_cases hm : (t.ca cr).mark = (s.ca cr).mark
    · exact Or.inl ⟨fun hcr => by rw [c]; exact hcr, hm⟩
    · exact Or.inr (m cr hm).2
  · intro x hx
    rcases k2 x hx with h1 | h1
    · cases h1
    · exact h1

/-- The function `simplify`: a propagation, followed by sweeps of `removeSatisfied` at
level 0. -/
theorem simplify_swept {o : Oracle} {s t : Solver} {b : Bool}
    (h : simplify o s = some (b, t)) :
    s.trail_lim = [] ∧ ∃ s1, Grows s s1 ∧ Swept s1 t := by
  have h0 : s.trail_lim = [] := List.length_eq_zero.mp (simplify_trail_lim h).2
  refine ⟨h0, ?_⟩
  unfold simplify at h
  split at h
  · simp at h
  · split at h
    · simp only [Option.some.injEq, Prod.mk.injEq] at h
      rw [← h.2]
      exact ⟨s, Grows.grows_refl s, Swept.swept_of_store rfl⟩
    · split at h
      · simp at h
      · next c s1 hp =>
        simp only [Option.some.injEq, Prod.mk.injEq] at h
        rw [← h.2]
        exact ⟨s1, propagate_grows hp, Swept.swept_of_store rfl⟩
      · next s1 hp =>
        refine ⟨s1, propagate_grows hp, ?_⟩
        split at h
        · simp only [Option.some.injEq, Prod.mk.injEq] at h
          rw [← h.2]
          exact Swept.swept_of_store rfl
        · split at h
          · simp at h
          · next l2 s2 hL1 =>
            obtain ⟨w1, c1, l1, k1, _, _⟩ := removeSatisfiedLoop_swept hL1
            dsimp only at h
            split at h
            · simp at h
            · next u2 s4 hL2 =>
              obtain ⟨w2, c2, l2e, _, _, _⟩ := removeSatisfiedLoop_swept hL2
              have w3 : Swept s2 { s2 with learnts := l2 } :=
                ⟨rfl, rfl, rfl, rfl, rfl, fun _ => rfl,
                  fun x hx => by rw [l1]; exact k1 x hx,
                  fun cr => Or.inl ⟨fun hcr => hcr, rfl⟩⟩
              have w5 : Swept s4 { s4 with unaryWatchedClauses := u2 } :=
                Swept.swept_of_store rfl
              have w15 : Swept s1 { s4 with unaryWatchedClauses := u2 } :=
                ((w1.swept_trans w3).swept_trans w2).swept_trans w5
              split at h
              · simp at h
              · next s7 hr =>
                simp only [Option.some.injEq, Prod.mk.injEq] at h
                have w7 : Swept { s4 with unaryWatchedClauses := u2 } s7 := by
                  split at hr
                  · split at hr
                    · simp at hr
                    · next c3 s6 hL3 =>
                      simp only [Option.some.injEq] at hr
                      obtain ⟨w6, c6, l6, _, k6, m6⟩ := removeSatisfiedLoop_swept hL3
                      rw [← hr]
                      refine ⟨w6.assigns, w6.trail, w6.trail_lim, w6.nVars, w6.caSize,
                        w6.lits, w6.learnts, ?_⟩
                      intro cr
                      by_cases hm : (s6.ca cr).mark
                          = (({ s4 with unaryWatchedClauses := u2 } : Solver).ca cr).mark
                      · by_cases hcr :
                            cr ∈ ({ s4 with unaryWatchedClauses := u2 } : Solver).clauses
                        · rcases k6 cr hcr with h1 | h1
                          · exact Or.inl ⟨fun _ => h1, hm⟩
                          · exact Or.inr h1
                        · exact Or.inl ⟨fun hc => absurd hc hcr, hm⟩
                      · exact Or.inr (m6 cr hm)
                  · simp only [Option.some.injEq] at hr
                    rw [← hr]
                    exact Swept.swept_of_store rfl
                have g := checkGarbage_frame o s7
                obtain ⟨n1, _, _, n4, _⟩ := scalars_opts (checkGarbage_scalars o s7)
                have w8 : Swept s7 t := by
                  rw [← h.2]
                  refine Swept.swept_of_store ?_
                  show (checkGarbage o s7).store = s7.store
                  simp only [Solver.store, Prod.mk.injEq]
                  exact ⟨g.1, g.2.2.2.2.1, g.2.2.2.2.2.1, g.2.2.1, n4, g.2.2.2.2.2.2.1,
                    g.2.2.2.1, n1⟩
                exact (w15.swept_trans w7).swept_trans w8

/-- The function `simplify` keeps the invariant of the original clauses. -/
theorem simplify_tracked {o : Oracle} {orig : List Nat} {s t : Solver} {b : Bool}
    (h : simplify o s = some (b, t)) (hs : Tracked orig s) : Tracked orig t := by
  obtain ⟨h0, s1, g, w⟩ := simplify_swept h
  have h1 : Tracked orig s1 := hs.of_grows g
  have hl1 : s1.trail_lim = [] := by
    have ht := (simplify_trail_lim h).1
    rw [← w.trail_lim, ht]
    exact h0
  have hvars : ∀ cr ∈ orig, ∀ l ∈ (t.ca cr).lits, l.var < t.nVars := by
    intro cr hcr l hl
    rw [w.nVars]
    rw [w.lits] at hl
    exact h1.vars cr hcr l hl
  refine ⟨by rw [w.caSize]; exact h1.refs,
    fun x hx => by rw [w.caSize]; exact h1.allocated x (w.learnts x hx),
    fun cr hcr hx => h1.disjoint cr hcr (w.learnts cr hx), hvars, ?_⟩
  intro cr hcr
  have hsat : (∃ l ∈ (s1.ca cr).lits, s1.value l = lbool.l_True) →
      ∃ l ∈ (t.ca cr).lits, t.rootTrue l := by
    rintro ⟨l, hl, hv⟩
    refine ⟨l, by rw [w.lits]; exact hl, ?_, hvars cr hcr l (by rw [w.lits]; exact hl), ?_⟩
    · unfold Solver.value at hv ⊢
      rw [w.assigns]
      exact hv
    · intro i x b _ _ hb
      rw [w.trail_lim, hl1] at hb
      cases hb
  rcases h1.kept cr hcr with ⟨a1, a2⟩ | ⟨l, hl, hr⟩
  · rcases w.marks cr with ⟨b1, b2⟩ | hsome
    · left
      rw [b2]
      exact ⟨b1 a1, a2⟩
    · exact Or.inr (hsat hsome)
  · right
    exact ⟨l, by rw [w.lits]; exact hl,
      rootTrue_of_eqs w.assigns w.trail w.trail_lim w.nVars hr⟩

/-- The function `reduceDB` keeps the invariant of the original clauses: it removes
learnt clauses only. -/
theorem reduceDB_tracked {o : Oracle} {orig : List Nat} {s t : Solver}
    (h : reduceDB o s = some t) (hs : Tracked orig s) : Tracked orig t := by
  have p := reduceDB_pruned h
  obtain ⟨hc, hm⟩ := reduceDB_clauses h
  refine ⟨by rw [p.caSize]; exact hs.refs,
    fun x hx => by rw [p.caSize]; exact hs.allocated x (p.learnts x hx),
    fun cr hcr hx => hs.disjoint cr hcr (p.learnts cr hx), ?_, ?_⟩
  · intro cr hcr l hl
    rw [p.nVars]
    rw [p.lits] at hl
    exact hs.vars cr hcr l hl
  · intro cr hcr
    rcases hs.kept cr hcr with ⟨a1, a2⟩ | ⟨l, hl, hr⟩
    · left
      rw [hc, hm cr (hs.disjoint cr hcr)]
      exact ⟨a1, a2⟩
    · right
      exact ⟨l, by rw [p.lits]; exact hl,
        rootTrue_of_eqs p.assigns p.trail p.trail_lim p.nVars hr⟩

/-! ### New variables and new clauses -/

theorem newVar_store (s : Solver) (sign dvar : Bool) :
    (newVar s sign dvar).2.store =
      (Function.update s.assigns s.nVars lbool.l_Undef, s.trail, s.trail_lim, s.ca, s.caSize,
        s.clauses, s.learnts, s.nVars + 1) := by
  unfold newVar Solver.setDecisionVar Solver.insertVarOrder
  dsimp only
  split <;> rfl

/-- The function `newVar` keeps the invariant of the original clauses. -/
theorem newVar_tracked {orig : List Nat} (s : Solver) (sign dvar : Bool)
    (h : Tracked orig s) : Tracked orig (newVar s sign dvar).2 := by
  have e := newVar_store s sign dvar
  simp only [Solver.store, Prod.mk.injEq] at e
  obtain ⟨e1, e2, e3, e4, e5, e6, e7, e8⟩ := e
  refine ⟨by rw [e5]; exact h.refs, by rw [e7, e5]; exact h.allocated,
    by rw [e7]; exact h.disjoint, ?_, ?_⟩
  · intro cr hcr l hl
    rw [e4] at hl
    rw [e8]
    exact Nat.lt_succ_of_lt (h.vars cr hcr l hl)
  · intro cr hcr
    rcases h.kept cr hcr with h1 | ⟨l, hl, hv, hn, hpos⟩
    · left
      rw [e6, e4]
      exact h1
    · right
      refine ⟨l, by rw [e4]; exact hl, ?_, by rw [e8]; exact Nat.lt_succ_of_lt hn, ?_⟩
      · unfold Solver.value at hv ⊢
        rw [e1, Function.update_noteq (by omega)]
        exact hv
      · rw [e2, e3]
        exact hpos

/-- The function `addClause_` keeps the invariant of the original clauses, with the
clause reference that it pushes to `clauses`, if any, as a new original clause. -/
theorem addClause_tracked {orig : List Nat} {s t : Solver} {ps : List Lit} {b : Bool}
    (hs : Tracked orig s) (hps : ∀ l ∈ ps, l.var < s.nVars)
    (h : addClause_ s ps = some (b, t)) :
    Tracked (orig ++ t.clauses.drop s.clauses.length) t := by
  have same : ∀ u : Solver, Grows s u → Tracked (orig ++ u.clauses.drop s.clauses.length) u := by
    intro u g
    rw [g.clauses, List.drop_length, List.append_nil]
    exact hs.of_grows g
  unfold addClause_ at h
  split at h
  · simp at h
  · split at h
    · simp only [Option.some.injEq, Prod.mk.injEq] at h
      rw [← h.2]
      exact same s (Grows.grows_refl s)
    · split at h
      · simp only [Option.some.injEq, Prod.mk.injEq] at h
        rw [← h.2]
        exact same s (Grows.grows_refl s)
      · simp only [Option.some.injEq, Prod.mk.injEq] at h
        rw [← h.2]
        exact same _ (Grows.of_store rfl)
      · split at h
        · simp at h
        · next l s1 h1 =>
          split at h
          · simp at h
          · next confl s2 h2 =>
            simp only [Option.some.injEq, Prod.mk.injEq] at h
            rw [← h.2]
            exact same _ (((uncheckedEnqueue_grows h1).grows_trans
              (propagate_grows h2)).grows_trans (Grows.of_store rfl))
      · next out hne1 hne2 hout =>
        dsimp only at h
        split at h
        · simp at h
        · next s2 h2 =>
          simp only [Option.some.injEq, Prod.mk.injEq] at h
          rw [← h.2]
          have e := store_fields (attachClause_store h2)
          obtain ⟨e1, e2, e3, e4, e5, e6, e7, e8⟩ := e
          have e4a : s2.ca = Function.update s.ca s.caSize (Clause.alloc out false) := e4
          have e5a : s2.caSize = s.caSize + 1 := e5
          have e6a : s2.clauses = s.clauses ++ [s.caSize] := e6
          have e1a : s2.assigns = s.assigns := e1
          have e2a : s2.trail = s.trail := e2
          have e3a : s2.trail_lim = s.trail_lim := e3
          have e7a : s2.learnts = s.learnts := e7
          have e8a : s2.nVars = s.nVars := e8
          have hd : s2.clauses.drop s.clauses.length = [s.caSize] := by
            rw [e6a, List.drop_left]
          rw [hd]
          have hold : ∀ cr ∈ orig, s2.ca cr = s.ca cr := by
            intro cr hcr
            have := hs.refs cr hcr
            rw [e4a, Function.update_noteq (by omega)]
          refine ⟨?_, ?_, ?_, ?_, ?_⟩
          · intro cr hcr
            rw [e5a]
            rcases List.mem_append.mp hcr with hcr | hcr
            · exact Nat.lt_succ_of_lt (hs.refs cr hcr)
            · simp only [List.mem_singleton] at hcr
              omega
          · intro x hx
            rw [e7a] at hx
            rw [e5a]
            exact Nat.lt_succ_of_lt (hs.allocated x hx)
          · intro cr hcr hx
            rw [e7a] at hx
            rcases List.mem_append.mp hcr with hcr | hcr
            · exact hs.disjoint cr hcr hx
            · simp only [List.mem_singleton] at hcr
              have := hs.allocated cr hx
              omega
          · intro cr hcr l hl
            rw [e8a]
            rcases List.mem_append.mp hcr with hcr | hcr
            · rw [hold cr hcr] at hl
              exact hs.vars cr hcr l hl
            · simp only [List.mem_singleton] at hcr
              subst hcr
              rw [e4a, Function.update_same] at hl
              exact hps l ((addClauseLoop_kept hout).2.2 l hl)
          · intro cr hcr
            rcases List.mem_append.mp hcr with hcr | hcr
            · rw [hold cr hcr]
              rcases hs.kept cr hcr with ⟨a1, a2⟩ | ⟨l, hl, hr⟩
              · left
                rw [e6a]
                exact ⟨List.mem_append_left _ a1, a2⟩
              · right
                exact ⟨l, hl, rootTrue_of_eqs e1a e2a e3a e8a hr⟩
            · simp only [List.mem_singleton] at hcr
              subst hcr
              left
              rw [e6a, e4a, Function.update_same]
              exact ⟨List.mem_append_right _ (List.mem_singleton_self _), by
                simp [Clause.alloc]⟩

/-! ### The loop of `search` -/

theorem reduceStep_tracked {o : Oracle} {orig : List Nat} {s t : Solver}
    (h : reduceStep o s = some t) (hs : Tracked orig s) : Tracked orig t := by
  rcases reduceStep_cases h with e | ⟨_, s1, s2, e1, hr, e2⟩
  · rw [e]
    exact hs
  · exact (reduceDB_tracked hr (hs.of_grows (Grows.of_body e1))).of_grows (Grows.of_body e2)

theorem searchConflict_tracked {orig : List Nat} {confl conflictC : Nat} {blocked : Bool}
    {s : Solver} {out : SearchStep} (h : searchConflict confl conflictC blocked s = some out)
    (hs : Tracked orig s) : Tracked orig out.state := by
  rcases searchConflict_cases h with ⟨_, s1, e1, rfl⟩ |
    ⟨_, s3, r, s5, s9, c1, b1, e3, ha, e5, hi, rfl⟩
  · exact hs.of_grows (Grows.of_body e1)
  · have h3 : Tracked orig s3 := hs.of_grows (Grows.of_body e3)
    have h4 : Tracked orig r.state := h3.of_grows (analyze_grows ha)
    have h5 : Tracked orig s5 := h4.of_grows (Grows.of_body e5)
    have h6 := cancelUntil_tracked s5 r.out_btlevel h5
    exact h6.of_grows (installLearnt_grows hi)

theorem searchNoConflict_tracked {o : Oracle} {orig : List Nat} {conflictC : Nat}
    {blocked : Bool} {s : Solver} {out : SearchStep}
    (h : searchNoConflict o conflictC blocked s = some out) (hs : Tracked orig s) :
    Tracked orig out.state := by
  have hsimp : ∀ (b : Bool) (s1 : Solver),
      (if s.decisionLevel = 0 then simplify o s else some (true, s)) = some (b, s1) →
      Tracked orig s1 := by
    intro b s1 h1
    split at h1
    · exact simplify_tracked h1 hs
    · simp only [Option.some.injEq, Prod.mk.injEq] at h1
      rw [← h1.2]
      exact hs
  rcases searchNoConflict_cases h with ⟨s1, e1, rfl⟩ | ⟨s1, h1, rfl⟩ |
    ⟨s1, s2, s3, h1, h2, e3, hrest⟩
  · exact cancelUntil_tracked s1 _ (hs.of_grows (Grows.of_body e1))
  · exact hsimp false s1 h1
  · have t1 : Tracked orig s1 := hsimp true s1 h1
    have t2 : Tracked orig s2 := reduceStep_tracked h2 t1
    have t3 : Tracked orig s3 := t2.of_grows (Grows.of_body e3)
    rcases hrest with ⟨s4, h4, rfl⟩ | ⟨p, s4, s5, h4, h5, rfl⟩ | ⟨s4, s6, h4, e6, hout⟩
    · exact t3.of_grows (assumeLoop_grows _ _ _ h4)
    · have t4 : Tracked orig s4 := t3.of_grows (assumeLoop_grows _ _ _ h4)
      exact (t4.of_grows (newDecisionLevel_grows s4)).of_grows (uncheckedEnqueue_grows h5)
    · have t4 : Tracked orig s4 := t3.of_grows (assumeLoop_grows _ _ _ h4)
      have t6 : Tracked orig s6 := t4.of_grows (Grows.of_body e6)
      rcases hout with rfl | ⟨next, s8, h8, rfl⟩
      · exact t6
      · exact (t6.of_grows (newDecisionLevel_grows s6)).of_grows (uncheckedEnqueue_grows h8)

/-- One iteration of the loop of `search` keeps the invariant of the original
clauses. -/
theorem searchStep_tracked {o : Oracle} {orig : List Nat} {conflictC : Nat} {blocked : Bool}
    {s : Solver} {out : SearchStep} (h : searchStep o conflictC blocked s = some out)
    (hs : Tracked orig s) : Tracked orig out.state := by
  rcases searchStep_cases h with ⟨confl, s1, hp, hc⟩ | ⟨s1, hp, hn⟩
  · exact searchConflict_tracked hc (hs.of_grows (propagate_grows hp))
  · exact searchNoConflict_tracked hn (hs.of_grows (propagate_grows hp))

/-- The function `search` keeps the invariant of the original clauses. -/
theorem search_tracked {o : Oracle} {orig : List Nat} {fuel : Nat} {s t : Solver}
    {r : lbool} (h : search o fuel s = some (r, t)) (hs : Tracked orig s) :
    Tracked orig t := by
  unfold search at h
  split at h
  · simp at h
  · refine searchLoop_induct o (Tracked orig) (fun _ u => Tracked orig u) ?_ ?_ _ _ _ _ _ _
      ?_ h
    · intro c b s0 c1 b1 s1 h0 hstep
      exact searchStep_tracked hstep h0
    · intro c b s0 r1 s1 h0 hstep
      exact searchStep_tracked hstep h0
    · exact hs.of_grows (Grows.of_store rfl)

/-- Every sequence of calls keeps the invariant of the original clauses. -/
theorem Calls.tracked {o : Oracle} {orig : List Nat} {s : Solver} (h : Calls o orig s) :
    Tracked orig s := by
  induction h with
  | start s hl =>
    exact ⟨(fun _ h => by cases h), hl, (fun _ h => by cases h), (fun _ h => by cases h),
      (fun _ h => by cases h)⟩
  | newVar orig s sign dvar _ ih => exact newVar_tracked s sign dvar ih
  | addClause orig s t ps b _ hps h ih => exact addClause_tracked ih hps h
  | simplify orig s t b _ h ih => exact simplify_tracked h ih
  | reduceDB orig s t _ h ih => exact reduceDB_tracked h ih
  | cancelUntil orig s level _ ih => exact cancelUntil_tracked s level ih
  | search orig s t fuel r _ h ih => exact search_tracked h ih
  | searchStep orig s conflictC blocked out _ h ih => exact searchStep_tracked h ih

/-- In a state whose trail and assignment agree, a literal that is true at level 0 in
the sense of `rootTrue` has the level 0. -/
theorem rootTrue_level {s : Solver} {l : Lit} (hT : TrailOK s) (h : s.rootTrue l) :
    s.level l.var = 0 := by
  obtain ⟨hv, _, hpos⟩ := h
  obtain ⟨x, hx, hxv⟩ := hT.onTrail l.var (assigned_of_true hv)
  obtain ⟨i, hi⟩ := List.mem_iff_get?.mp hx
  have hlev := hT.levels i x hi
  rw [hxv] at hlev
  rw [hlev]
  unfold levelAt
  rw [List.countP_eq_zero]
  intro b hb
  have := hpos i x b hi hxv hb
  simp only [decide_eq_true_eq]
  omega

end Glucose


namespace Glucose

/-! ## The claims on `propagate` -/

theorem exBinState_trailTrue : TrailTrue exBinState := by
  intro l hl
  simp only [exBinState, List.mem_singleton] at hl
  subst hl
  decide

theorem exBinState_binWatchOK : BinWatchOK exBinState := by
  intro p w hw
  simp only [exBinState] at hw
  split at hw
  · next h =>
    subst h
    simp only [List.mem_cons, List.mem_singleton, List.not_mem_nil, or_false] at hw
    rcases hw with rfl | rfl <;> decide
  · split at hw
    · next h =>
      subst h
      simp only [List.mem_singleton] at hw
      subst hw
      decide
    · split at hw
      · next h =>
        subst h
        simp only [List.mem_singleton] at hw
        subst hw
        decide
      · simp at hw

theorem exBinState_levelsOK : LevelsOK exBinState := by
  intro v hv
  simp only [exBinState, Solver.level, Solver.decisionLevel]
  split <;> simp

theorem eq_some_getD {α : Type} {o : Option α} (d : α) (h : o.isSome = true) :
    o = some (o.getD d) := by
  cases o with
  | none => simp at h
  | some x => rfl

theorem propagate_exBinState :
    propagate exBinState
      = some (some 1, ((propagate exBinState).getD (none, exBinState)).2) := by
  have hs : (propagate exBinState).isSome = true := by decide
  have h1 : ((propagate exBinState).getD (none, exBinState)).1 = some 1 := by decide
  rw [← h1]
  exact eq_some_getD (none, exBinState) hs

/-- **C4 (the code departs from the claim).**  On the solver built by two `newVar`,
`addClause_ [¬x0, x1]`, `addClause_ [¬x0, ¬x1]` and the decision `x0`, `propagate`
returns the second clause as conflict through the binary watchers of `x0`, with
`qhead = 1` while the trail has two literals: the queue is not empty at this return. -/
theorem propagate_binary_conflict_keeps_queue :
    (exTwoBinary.bind propagate).map (fun r => (r.1, r.2.qhead, r.2.trail.length))
      = some (some 1, 1, 2) := by
  decide

/-- Witness of C5: in `exBinState` the clause `[¬x0, ¬x1]` is returned and all its
literals are false. -/
theorem propagate_conflict_all_false_witness :
    TrailTrue exBinState ∧ BinWatchOK exBinState ∧
    ∃ s1, propagate exBinState = some (some 1, s1) ∧ AllFalse s1 1 := by
  have h := propagate_exBinState
  exact ⟨exBinState_trailTrue, exBinState_binWatchOK, _, h,
    propagate_conflict_all_false exBinState _ 1 exBinState_trailTrue exBinState_binWatchOK h⟩

/-- Counterexample to C6 as stated: after `addClause_ [x0, x1]` and the decision `¬x0`,
`propagate` enqueues `x1` with the clause `[x0, x1]` as reason, and the first literal
of that reason is `x0`, not the enqueued literal. -/
theorem propagate_binary_reason_not_first :
    (exOneBinary.bind propagate).map
      (fun r => (r.1, r.2.trail, r.2.reason 1, (r.2.ca 0).lits))
      = some (none, [mkLit 0 true, mkLit 1 false], some 0, [mkLit 0 false, mkLit 1 false]) := by
  decide

/-- **C6 (amended).**  In every state whose trail literals are true, whose binary
watchers are well formed and in which no assigned variable has a level above the
current one: on every return of `propagate`, every literal `l` that the call enqueued
is true at the current decision level and has a reason clause `r` such that either
`r[0] = l`, or `r` is a binary clause with `r[1] = l`; every other literal of `r` is
false at a level not above the level of `l`. -/
theorem propagate_enqueued_reasons (s s1 : Solver) (confl : Option Nat)
    (hT : TrailTrue s) (hB : BinWatchOK s) (hL : LevelsOK s)
    (h : propagate s = some (confl, s1)) :
    ∀ l ∈ s1.trail.drop s.trail.length,
      s1.value l = lbool.l_True ∧ s1.level l.var = s1.decisionLevel ∧
      ∃ r, s1.reason l.var = some r ∧
        ((∃ rest, (s1.ca r).lits = l :: rest ∧
            ∀ q ∈ rest, s1.value q = lbool.l_False ∧ s1.level q.var ≤ s1.level l.var) ∨
         (∃ q, (s1.ca r).lits = [q, l] ∧ s1.value q = lbool.l_False ∧
            s1.level q.var ≤ s1.level l.var)) :=
  propagate_reasons s s1 confl hT hB hL h

/-- Witness of C6 (amended): in `exBinState` the call enqueues `x1`. -/
theorem propagate_enqueued_reasons_witness :
    TrailTrue exBinState ∧ BinWatchOK exBinState ∧ LevelsOK exBinState ∧
    ∃ s1, propagate exBinState = some (some 1, s1) ∧
      s1.trail.drop exBinState.trail.length = [mkLit 1 false] ∧
      s1.value (mkLit 1 false) = lbool.l_True := by
  have h := propagate_exBinState
  have ht : ((propagate exBinState).getD (none, exBinState)).2.trail.drop
      exBinState.trail.length = [mkLit 1 false] := by decide
  refine ⟨exBinState_trailTrue, exBinState_binWatchOK, exBinState_levelsOK, _, h, ht, ?_⟩
  exact (propagate_enqueued_reasons exBinState _ (some 1) exBinState_trailTrue
    exBinState_binWatchOK exBinState_levelsOK h (mkLit 1 false) (by rw [ht]; simp)).1

/-- **C7.**  Watch consistency is an invariant of `attachClause` and of `propagate`.
A clause is watch-consistent when, if it has at least three literals, exactly one long
watcher references it in the list of `¬c[0]`, exactly one in the list of `¬c[1]`, and
none in any other long list.  (1) `attachClause(cr)` on a clause with pairwise distinct
literals that no long watcher references yet makes `cr` watch-consistent and keeps
every other clause watch-consistent.  (2) `propagate`, whatever it returns (no
conflict, or a conflict found through any kind of watcher), keeps watch-consistent
every clause of a set of attached clauses, an attached clause being one with pairwise
distinct literals that is neither one-watched nor marked deleted; the property is
about the literals `c[0]`, `c[1]` as reordered by the call. -/
theorem watch_consistency_invariant :
    (∀ (s s1 : Solver) (cr : Nat), attachClause s cr = some s1 →
      (s.ca cr).lits.Nodup → (∀ p, crefCount (s.watches.occs p) cr = 0) →
      WatchConsistent s1 cr ∧
        ∀ cr2, cr2 ≠ cr → WatchConsistent s cr2 → WatchConsistent s1 cr2) ∧
    (∀ (s s1 : Solver) (confl : Option Nat) (attached : Nat → Prop),
      propagate s = some (confl, s1) →
      (∀ cr, attached cr →
        (s.ca cr).lits.Nodup ∧ (s.ca cr).oneWatched = false ∧ (s.ca cr).mark ≠ 1) →
      (∀ cr, attached cr → WatchConsistent s cr) →
      ∀ cr, attached cr → WatchConsistent s1 cr) := by
  constructor
  · intro s s1 cr h hN hF
    refine ⟨attachClause_new_watched h hN hF, ?_⟩
    intro cr2 hne hW
    obtain ⟨hca, hc⟩ := attachClause_counts h hne
    unfold WatchConsistent at hW ⊢
    rw [hca]
    exact hW.congr hc
  · intro s s1 confl attached h hA hW cr hcr
    obtain ⟨hN, hO, hM⟩ := hA cr hcr
    exact (propagate_attached h ⟨hW cr hcr, hN, hO, hM⟩).1

theorem attachClause_exUnattached : attachClause exUnattached 0 = some exAttached := by
  have hs : (attachClause exUnattached 0).isSome = true := by decide
  exact eq_some_getD exUnattached hs

/-- Witness of C7: attaching `[x0, x1, x2]` and then propagating the decision `¬x0`,
which moves the watch from `x0` to `x2`, leaves the clause watch-consistent. -/
theorem watch_consistency_invariant_witness :
    WatchConsistent exAttached 0 ∧
    ∃ s1, propagate exTernaryDecided = some (none, s1) ∧
      (s1.ca 0).lits = [mkLit 1 false, mkLit 2 false, mkLit 0 false] ∧
      WatchConsistent s1 0 := by
  have hW : WatchConsistent exAttached 0 :=
    (watch_consistency_invariant.1 exUnattached exAttached 0 attachClause_exUnattached
      (by decide) (fun _ => rfl)).1
  have hs : (propagate exTernaryDecided).isSome = true := by decide
  have h1 : ((propagate exTernaryDecided).getD (none, exTernaryDecided)).1 = none := by decide
  have h : propagate exTernaryDecided
      = some (none, ((propagate exTernaryDecided).getD (none, exTernaryDecided)).2) := by
    rw [← h1]
    exact eq_some_getD (none, exTernaryDecided) hs
  refine ⟨hW, _, h, by decide, ?_⟩
  exact watch_consistency_invariant.2 exTernaryDecided _ none (fun cr => cr = 0) h
    (by intro cr hcr; subst hcr; decide) (by intro cr hcr; subst hcr; exact hW) 0 rfl

/-! ## Completeness of unit propagation -/

/-- Counterexample to C8 as stated, on states reached by the listed operations outside
the order of the search loop.  (1) On the clauses `[¬x0, x1, x2]` and `[¬x0, x1, ¬x2]`,
after the decision `¬x1` and `propagate`, the decision `x0` and `propagate` (which
returns the second clause as conflict, with an empty queue), a further `propagate`
returns `CRef_Undef` while every literal of the attached second clause is false.
(2) On the clause `[x0, x1]`, after the decision `¬x0`, the decision `x2` taken before
any `propagate`, and `cancelUntil(1)` (which sets `qhead` to the size of the trail),
`propagate` returns `CRef_Undef` while the attached clause has `x0` false and `x1`
unassigned. -/
theorem propagate_incomplete_outside_search_loop :
    exAfterConflict.map (fun r => r.1) = some (some 1) ∧
    (exAfterConflict.bind (fun r => propagate r.2)).map
      (fun r => (r.1, r.2.clauses, (r.2.ca 1).lits.map r.2.value))
      = some (none, [0, 1], [lbool.l_False, lbool.l_False, lbool.l_False]) ∧
    (exCancelled.bind propagate).map
      (fun r => (r.1, r.2.clauses, (r.2.ca 0).lits.map r.2.value))
      = some (none, [0], [lbool.l_False, lbool.l_Undef]) := by
  refine ⟨?_, ?_, ?_⟩ <;> decide

/-- **C8 (amended).**  Unit propagation is complete on the states of the search loop.
For every state reached from a fresh solver (non-incremental mode, unary watches
disabled) by `newVar`, by `addClause_` on literals of created variables that leaves
`ok` set, by decisions (`newDecisionLevel` and `uncheckedEnqueue`) taken when the
propagation queue is empty, by `cancelUntil`, and by `propagate`, a `propagate` that
returns a conflict being followed by `cancelUntil` to a lower level: if `propagate`
returns `CRef_Undef`, then no attached clause has all its literals false, no attached
clause has all literals false except one unassigned literal, and the two watched
literals of an attached clause are not both false. -/
theorem unit_propagation_complete (s s1 : Solver) (hR : Reach s)
    (hp : propagate s = some (none, s1)) :
    ∀ cr ∈ s1.clauses ++ s1.learnts,
      ¬ (∀ l ∈ (s1.ca cr).lits, s1.value l = lbool.l_False) ∧
      (¬ ∃ l ∈ (s1.ca cr).lits, s1.value l = lbool.l_Undef ∧
          ∀ l2 ∈ (s1.ca cr).lits, l2 ≠ l → s1.value l2 = lbool.l_False) ∧
      ∀ c0 c1 rest, (s1.ca cr).lits = c0 :: c1 :: rest →
        ¬ (s1.value c0 = lbool.l_False ∧ s1.value c1 = lbool.l_False) :=
  Reach.propagate_complete hR hp

theorem exTernaryReached_reach : Reach exTernaryReached := by
  have h3 : Reach exThreeVars :=
    Reach.newVar _ true true (Reach.newVar _ true true (Reach.newVar _ true true Reach.fresh))
  have ha : addClause_ exThreeVars [mkLit 0 false, mkLit 1 false, mkLit 2 false]
      = some (true, exOneTernary) := by
    have hs : (addClause_ exThreeVars [mkLit 0 false, mkLit 1 false, mkLit 2 false]).isSome
        = true := by decide
    have h1 : ((addClause_ exThreeVars [mkLit 0 false, mkLit 1 false, mkLit 2 false]).getD
        (true, exThreeVars)).1 = true := by decide
    have := eq_some_getD (true, exThreeVars) hs
    rw [this]
    exact congrArg some (Prod.ext h1 rfl)
  have h4 : Reach exOneTernary :=
    Reach.addClause exThreeVars exOneTernary _ true h3 (by decide) ha (by decide)
  have he : uncheckedEnqueue exOneTernary.newDecisionLevel (mkLit 0 true) none
      = some exTernaryReached :=
    eq_some_getD exOneTernary (by decide)
  exact Reach.decide exOneTernary exTernaryReached (mkLit 0 true) h4 (by decide) (by decide) he

/-- Witness of C8 (amended): after `addClause_ [x0, x1, x2]` and the decision `¬x0`,
`propagate` returns no conflict and the clause, now `[x1, x2, x0]`, is neither falsified
nor unit. -/
theorem unit_propagation_complete_witness :
    Reach exTernaryReached ∧
    ∃ s1, propagate exTernaryReached = some (none, s1) ∧ 0 ∈ s1.clauses ++ s1.learnts ∧
      (s1.ca 0).lits = [mkLit 1 false, mkLit 2 false, mkLit 0 false] ∧
      ¬ (∀ l ∈ (s1.ca 0).lits, s1.value l = lbool.l_False) := by
  have hs : (propagate exTernaryReached).isSome = true := by decide
  have h1 : ((propagate exTernaryReached).getD (none, exTernaryReached)).1 = none := by decide
  have h : propagate exTernaryReached
      = some (none, ((propagate exTernaryReached).getD (none, exTernaryReached)).2) := by
    rw [← h1]
    exact eq_some_getD (none, exTernaryReached) hs
  have hm : 0 ∈ ((propagate exTernaryReached).getD (none, exTernaryReached)).2.clauses
      ++ ((propagate exTernaryReached).getD (none, exTernaryReached)).2.learnts := by decide
  exact ⟨exTernaryReached_reach, _, h, hm, by decide,
    (unit_propagation_complete exTernaryReached _ exTernaryReached_reach h 0 hm).1⟩

end Glucose


namespace Glucose

/-! ## The claims on `computeLBD`, `cancelUntil` and `addClause_` -/

/-- **C11.**  In non-incremental mode with `reduceOnSize = false` and every entry of
`permDiff` not above `MYFLAG` at entry, both overloads of `computeLBD` (for a literal
vector with any `end`, and for a clause) return the number of distinct decision levels
of the variables of the literals; hence the result is at most the number of literals,
and it is 1 when there is exactly one literal. -/
theorem computeLBD_counts_distinct_levels (s : Solver) (lits : List Lit) (endIdx : Int)
    (c : Clause) (hinc : s.opts.incremental = false) (hred : s.opts.reduceOnSize = false)
    (hpd : ∀ x, s.permDiff x ≤ s.MYFLAG) :
    (computeLBD s lits endIdx).1 = (lits.map (fun l => s.level l.var)).toFinset.card ∧
    (computeLBDClause s c).1 = (c.lits.map (fun l => s.level l.var)).toFinset.card ∧
    (computeLBD s lits endIdx).1 ≤ lits.length ∧
    (computeLBDClause s c).1 ≤ c.size ∧
    (lits.length = 1 → (computeLBD s lits endIdx).1 = 1) ∧
    (c.size = 1 → (computeLBDClause s c).1 = 1) := by
  have key : ∀ (ls : List Lit) (b : Int),
      (computeLBDCore s ls b).1 = (ls.map (fun l => s.level l.var)).toFinset.card :=
    fun ls b => computeLBDCore_default s ls b hinc hred hpd
  have hle : ∀ ls : List Lit, (ls.map (fun l => s.level l.var)).toFinset.card ≤ ls.length :=
    fun ls => le_trans (List.toFinset_card_le _) (by simp)
  have hone : ∀ ls : List Lit, ls.length = 1 →
      (ls.map (fun l => s.level l.var)).toFinset.card = 1 := by
    intro ls h1
    match ls, h1 with
    | [l], _ => simp
  refine ⟨key _ _, key _ _, ?_, ?_, ?_, ?_⟩
  · rw [computeLBD, key]; exact hle _
  · rw [computeLBDClause, key]; exact hle _
  · intro h1; rw [computeLBD, key]; exact hone _ h1
  · intro h1; rw [computeLBDClause, key]; exact hone _ h1

/-- Witness of C11: in `exBinState` (`x0` decided at level 1, `x1` unassigned with level
entry 0) the clause `[¬x0, x1]` has two distinct levels. -/
theorem computeLBD_counts_distinct_levels_witness :
    exBinState.opts.incremental = false ∧ exBinState.opts.reduceOnSize = false ∧
    (∀ x, exBinState.permDiff x ≤ exBinState.MYFLAG) ∧
    (computeLBD exBinState [mkLit 0 true, mkLit 1 false] (-1)).1 = 2 ∧
    (computeLBDClause exBinState (exBinState.ca 0)).1 = 2 := by
  have hpd : ∀ x, exBinState.permDiff x ≤ exBinState.MYFLAG := fun _ => Nat.le_refl 0
  have h := computeLBD_counts_distinct_levels exBinState [mkLit 0 true, mkLit 1 false] (-1)
    (exBinState.ca 0) rfl rfl hpd
  refine ⟨rfl, rfl, hpd, ?_, ?_⟩
  · rw [h.1]; decide
  · rw [h.2.1]; decide

/-- **C13.**  In a state whose trail holds no variable twice, for every level `k` below
the current one, after `cancelUntil(k)`: the trail is the first `trail_lim[k]` entries of
the old trail, `qhead` is the old `trail_lim[k]`, the decision level is `k`, every
variable removed from the trail is `l_Undef`, and every literal still on the trail keeps
its value, its level and its reason; for `k` not below the current level the call
changes nothing. -/
theorem cancelUntil_backtracks_to_level (s : Solver) (k : Nat)
    (hnd : (s.trail.map Lit.var).Nodup) :
    (k < s.decisionLevel →
      (cancelUntil s k).trail = s.trail.take (s.trail_lim.getD k 0) ∧
      (cancelUntil s k).qhead = s.trail_lim.getD k 0 ∧
      (cancelUntil s k).decisionLevel = k ∧
      (∀ l ∈ s.trail.drop (s.trail_lim.getD k 0),
        (cancelUntil s k).valueVar l.var = lbool.l_Undef) ∧
      (∀ l ∈ (cancelUntil s k).trail,
        (cancelUntil s k).valueVar l.var = s.valueVar l.var ∧
        (cancelUntil s k).value l = s.value l ∧
        (cancelUntil s k).level l.var = s.level l.var ∧
        (cancelUntil s k).reason l.var = s.reason l.var)) ∧
    (s.decisionLevel ≤ k → cancelUntil s k = s) := by
  refine ⟨fun hk => ?_, cancelUntil_of_le s k⟩
  obtain ⟨f1, f2, _, f4, f5⟩ := cancelUntil_fields s k hk
  refine ⟨f1, f2, cancelUntil_decisionLevel s k hk, ?_, ?_⟩
  · intro l hl
    exact (f5 l.var).1 (List.mem_map_of_mem Lit.var hl)
  · intro l hl
    rw [f1] at hl
    have ha : (cancelUntil s k).assigns l.var = s.assigns l.var :=
      (f5 l.var).2 (not_removed_of_kept hnd hl)
    refine ⟨ha, ?_, ?_, ?_⟩
    · simp only [Solver.value, ha]
    · simp only [Solver.level, f4]
    · simp only [Solver.reason, f4]

/-- Witness of C13: after the unit `x0` at level 0 and the decision `x1`,
`cancelUntil(0)` keeps `x0` on the trail with its value and unassigns `x1`. -/
theorem cancelUntil_backtracks_to_level_witness :
    (exUnitDecided.trail.map Lit.var).Nodup ∧ 0 < exUnitDecided.decisionLevel ∧
    exUnitDecided.trail = [mkLit 0 false, mkLit 1 false] ∧
    (cancelUntil exUnitDecided 0).trail = [mkLit 0 false] ∧
    (cancelUntil exUnitDecided 0).qhead = 1 ∧
    (cancelUntil exUnitDecided 0).decisionLevel = 0 ∧
    (cancelUntil exUnitDecided 0).valueVar 1 = lbool.l_Undef ∧
    (cancelUntil exUnitDecided 0).value (mkLit 0 false) = lbool.l_True := by
  have hnd : (exUnitDecided.trail.map Lit.var).Nodup := by decide
  have hk : 0 < exUnitDecided.decisionLevel := by decide
  obtain ⟨h1, h2, h3, h4, h5⟩ := (cancelUntil_backtracks_to_level exUnitDecided 0 hnd).1 hk
  refine ⟨hnd, hk, by decide, ?_, ?_, h3, ?_, ?_⟩
  · rw [h1]; decide
  · rw [h2]; decide
  · exact h4 (mkLit 1 false) (by decide)
  · rw [(h5 (mkLit 0 false) (by rw [h1]; decide)).2.1]; decide

/-- **C14.**  In a state whose level fences lie inside the trail and in which, at
level 0, the propagation queue is empty (the level-0 segment was propagated):
`cancelUntil(0)` followed by `propagate` returns `CRef_Undef` and leaves as trail the
level-0 segment of the old trail, the entries before the first fence, in the same
order; and `cancelUntil(k)` applied twice gives the state of one application. -/
theorem restart_reproduces_level0_trail (s : Solver) (k : Nat)
    (hb : ∀ b ∈ s.trail_lim, b ≤ s.trail.length)
    (h0 : s.decisionLevel = 0 → s.trail.length ≤ s.qhead) :
    (∃ s1, propagate (cancelUntil s 0) = some (none, s1) ∧
      s1.trail = s.trail.take (s.trail_lim.headD s.trail.length)) ∧
    cancelUntil (cancelUntil s k) k = cancelUntil s k := by
  refine ⟨?_, cancelUntil_idem s k⟩
  by_cases hk : 0 < s.decisionLevel
  · obtain ⟨f1, f2, _⟩ := cancelUntil_fields s 0 hk
    have hlim : s.trail_lim.getD 0 0 = s.trail_lim.headD s.trail.length := by
      unfold Solver.decisionLevel at hk
      match hs : s.trail_lim, hk with
      | b :: bs, _ => rfl
    have hle : s.trail_lim.getD 0 0 ≤ s.trail.length := by
      unfold Solver.decisionLevel at hk
      match hs : s.trail_lim, hk with
      | b :: bs, _ => exact hb b (by rw [hs]; simp)
    obtain ⟨s1, h1, h2, _⟩ := propagate_of_empty_queue (cancelUntil s 0) (by
      rw [f1, f2, List.length_take]; exact min_le_left _ _)
    exact ⟨s1, h1, by rw [h2, f1, hlim]⟩
  · have hz : s.decisionLevel = 0 := by omega
    rw [cancelUntil_of_le s 0 (by omega)]
    obtain ⟨s1, h1, h2, _⟩ := propagate_of_empty_queue s (h0 hz)
    refine ⟨s1, h1, ?_⟩
    have hnil : s.trail_lim = [] := List.length_eq_zero.mp hz
    rw [h2, hnil]
    simp

/-- Witness of C14: after the unit `x0` at level 0 and the decision `x1`, backtracking
to level 0 and propagating gives the trail `[x0]` again. -/
theorem restart_reproduces_level0_trail_witness :
    (∀ b ∈ exUnitDecided.trail_lim, b ≤ exUnitDecided.trail.length) ∧
    (exUnitDecided.decisionLevel = 0 → exUnitDecided.trail.length ≤ exUnitDecided.qhead) ∧
    (∃ s1, propagate (cancelUntil exUnitDecided 0) = some (none, s1) ∧
      s1.trail = [mkLit 0 false]) ∧
    cancelUntil (cancelUntil exUnitDecided 0) 0 = cancelUntil exUnitDecided 0 := by
  have hb : ∀ b ∈ exUnitDecided.trail_lim, b ≤ exUnitDecided.trail.length := by decide
  have h0 : exUnitDecided.decisionLevel = 0 →
      exUnitDecided.trail.length ≤ exUnitDecided.qhead := by decide
  obtain ⟨⟨s1, h1, h2⟩, h3⟩ := restart_reproduces_level0_trail exUnitDecided 0 hb h0
  refine ⟨hb, h0, ⟨s1, h1, ?_⟩, h3⟩
  rw [h2]
  decide

/-- **C15.**  At level 0 with `ok = true`, for every input without a true literal and
without a complementary pair that holds two different literals that are not false:
`addClause_` returns true and appends exactly one clause reference to `clauses`; the
literals of that clause are strictly increasing in the literal order (sorted, without
duplicates) and are exactly the input literals that are not false; the clause is
attached through its first two literals `c0`, `c1`: the watcher with blocker `c1` is
added to the list of `¬c0` and the watcher with blocker `c0` to the list of `¬c1`, in the
binary watch lists for a clause of two literals and in the long ones otherwise, and no
other watcher is added. -/
theorem addClause_attaches_simplified_clause (s : Solver) (ps : List Lit)
    (hlev : s.decisionLevel = 0) (hok : s.ok = true)
    (hnt : ∀ x ∈ ps, s.value x ≠ lbool.l_True) (hnc : ∀ x ∈ ps, x.neg ∉ ps)
    (h2 : ∃ a ∈ ps, ∃ b ∈ ps, a ≠ b ∧ s.value a ≠ lbool.l_False ∧
      s.value b ≠ lbool.l_False) :
    ∃ s1 c0 c1 rest, addClause_ s ps = some (true, s1) ∧
      s1.clauses = s.clauses ++ [s.caSize] ∧
      (s1.ca s.caSize).lits = c0 :: c1 :: rest ∧
      (c0 :: c1 :: rest).Pairwise (fun a b => a.toInt < b.toInt) ∧
      (∀ x, x ∈ c0 :: c1 :: rest ↔ x ∈ ps ∧ s.value x ≠ lbool.l_False) ∧
      (∀ q w, w ∈ s1.watches.occs q ↔ w ∈ s.watches.occs q ∨
        (rest ≠ [] ∧ ((q = c0.neg ∧ w = ⟨s.caSize, c1⟩) ∨
          (q = c1.neg ∧ w = ⟨s.caSize, c0⟩)))) ∧
      (∀ q w, w ∈ s1.watchesBin.occs q ↔ w ∈ s.watchesBin.occs q ∨
        (rest = [] ∧ ((q = c0.neg ∧ w = ⟨s.caSize, c1⟩) ∨
          (q = c1.neg ∧ w = ⟨s.caSize, c0⟩)))) := by
  obtain ⟨s1, c0, c1, rest, h⟩ := addClause_long hlev hok hnt hnc h2
  exact ⟨s1, c0, c1, rest, h.1, h.2.1, h.2.2.1, h.2.2.2.1, h.2.2.2.2.1, h.2.2.2.2.2.1,
    h.2.2.2.2.2.2.1⟩

/-- Witness of C15: with `x0` true at level 0, the input `[x2, ¬x0, x1, x2]` gives the
clause `[x1, x2]`, watched in the binary lists of `¬x1` and `¬x2`. -/
theorem addClause_attaches_simplified_clause_witness :
    exThreeUnit.decisionLevel = 0 ∧ exThreeUnit.ok = true ∧
    (∃ s1, addClause_ exThreeUnit [mkLit 2 false, mkLit 0 true, mkLit 1 false, mkLit 2 false]
        = some (true, s1) ∧
      s1.clauses = [0] ∧ (s1.ca 0).lits = [mkLit 1 false, mkLit 2 false] ∧
      (⟨0, mkLit 2 false⟩ : Watcher) ∈ s1.watchesBin.occs (mkLit 1 true) ∧
      (⟨0, mkLit 1 false⟩ : Watcher) ∈ s1.watchesBin.occs (mkLit 2 true)) := by
  obtain ⟨s1, c0, c1, rest, h1, h2, h3, _, _, _, h7⟩ :=
    addClause_attaches_simplified_clause exThreeUnit
      [mkLit 2 false, mkLit 0 true, mkLit 1 false, mkLit 2 false]
      (by decide) (by decide) (by decide) (by decide)
      ⟨mkLit 1 false, by decide, mkLit 2 false, by decide, by decide, by decide, by decide⟩
  have hd : (addClause_ exThreeUnit
      [mkLit 2 false, mkLit 0 true, mkLit 1 false, mkLit 2 false]).map
        (fun r => (r.2.ca 0).lits) = some [mkLit 1 false, mkLit 2 false] := by decide
  rw [h1] at hd
  simp only [Option.map_some', Option.some.injEq] at hd
  have hsz : exThreeUnit.caSize = 0 := by decide
  have hcl : exThreeUnit.clauses = [] := by decide
  rw [hsz] at h2 h3 h7
  rw [hcl] at h2
  rw [hd] at h3
  simp only [List.cons.injEq] at h3
  obtain ⟨e0, e1, e2⟩ := h3
  subst e0 e1 e2
  refine ⟨by decide, by decide, s1, h1, h2, hd, ?_, ?_⟩
  · exact (h7 _ _).mpr (Or.inr ⟨rfl, Or.inl ⟨rfl, rfl⟩⟩)
  · exact (h7 _ _).mpr (Or.inr ⟨rfl, Or.inr ⟨rfl, rfl⟩⟩)

/-- **C16.**  At level 0 with `ok = true`, for every input that holds a true literal, or
that holds both a literal and its negation (anywhere in the input, whatever the values
of the other literals): `addClause_` returns true and the whole state, in particular
`clauses`, the watch lists, the trail, the assignment and `ok`, is unchanged. -/
theorem addClause_satisfied_or_tautology (s : Solver) (ps : List Lit)
    (hlev : s.decisionLevel = 0) (hok : s.ok = true)
    (h : (∃ x ∈ ps, s.value x = lbool.l_True) ∨ (∃ x ∈ ps, x.neg ∈ ps)) :
    addClause_ s ps = some (true, s) := by
  unfold addClause_
  rw [if_neg (by simp [hlev]), if_neg (by simp [hok]), addClauseLoop_none_of_sat_or_taut h]

/-- Witness of C16: the tautology `[x1, x2, ¬x1]` on the fresh solver with three
variables. -/
theorem addClause_satisfied_or_tautology_witness :
    exThreeVars.decisionLevel = 0 ∧ exThreeVars.ok = true ∧
    addClause_ exThreeVars [mkLit 1 false, mkLit 2 false, mkLit 1 true]
      = some (true, exThreeVars) :=
  ⟨by decide, by decide,
    addClause_satisfied_or_tautology exThreeVars [mkLit 1 false, mkLit 2 false, mkLit 1 true]
      (by decide) (by decide)
      (Or.inr ⟨mkLit 1 false, by decide, by decide⟩)⟩

/-- **C12.**  On every non-empty list of learnt clauses, under every assignment,
`reduceDB` returns and removes no locked clause: the clauses that are removed are
tested with `!locked(c)` and a removal does not change whether another clause is locked,
so every clause of `learnts` that is locked at the call is in `learnts` after the call,
with its literals and its deletion mark unchanged, and is still locked. -/
theorem reduceDB_never_removes_locked (o : Oracle) (s : Solver) (hne : s.learnts ≠ []) :
    ∃ s1, reduceDB o s = some s1 ∧
      ∀ cr ∈ s.learnts, s.locked cr = true →
        cr ∈ s1.learnts ∧ (s1.ca cr).mark = (s.ca cr).mark ∧
        (s1.ca cr).lits = (s.ca cr).lits ∧ s1.locked cr = true := by
  obtain ⟨s1, h1, hF, h3, _⟩ := reduceDB_locked o s hne
  refine ⟨s1, h1, fun cr hcr hl => ⟨h3 cr hcr hl, hF.mark cr hl, hF.lits cr, ?_⟩⟩
  rw [hF.locked cr]
  exact hl

/-- Witness of C12: of the two learnt clauses of `exLockedLearnt` the clause 1 is
removed and the locked clause 0 is kept. -/
theorem reduceDB_never_removes_locked_witness :
    exLockedLearnt.learnts ≠ [] ∧ exLockedLearnt.locked 0 = true ∧
    ∃ s1, reduceDB exOracle exLockedLearnt = some s1 ∧
      s1.learnts = [0] ∧ (s1.ca 0).mark = 0 ∧ (s1.ca 1).mark = 1 := by
  have hne : exLockedLearnt.learnts ≠ [] := by decide
  obtain ⟨s1, h1, h2⟩ := reduceDB_never_removes_locked exOracle exLockedLearnt hne
  have hd : (reduceDB exOracle exLockedLearnt).map
      (fun r => (r.learnts, (r.ca 0).mark, (r.ca 1).mark)) = some ([0], 0, 1) := by decide
  rw [h1] at hd
  simp only [Option.map_some', Option.some.injEq, Prod.mk.injEq] at hd
  exact ⟨hne, by decide, s1, h1, hd.1, hd.2.1, hd.2.2⟩

/-- **C17.**  The flag `ok` is latched.  At level 0 with `ok` set, `addClause_` clears
`ok` and returns false when every literal of the input is false (the empty input
included), and when the input reduces to one literal `l` (no true literal, every other
literal false) whose propagation returns a conflict.  With `ok` cleared, `addClause_`
returns false with the state unchanged, `simplify` returns false with `ok` cleared and
`clauses` and the trail unchanged, and `solve_` returns nothing but `l_False`, with `ok`
cleared, and does return it whenever its first part, the reading of the community and
centrality files, is through. -/
theorem ok_flag_is_latched (o : Oracle) (fuel : Nat) (files : Files) (s : Solver)
    (ps : List Lit) (hlev : s.decisionLevel = 0) :
    (s.ok = true → (∀ x ∈ ps, s.value x = lbool.l_False) →
      addClause_ s ps = some (false, { s with ok := false })) ∧
    (s.ok = true → ∀ l ∈ ps, (∀ x ∈ ps, s.value x ≠ lbool.l_True) →
      s.value l ≠ lbool.l_False → (∀ x ∈ ps, x = l ∨ s.value x = lbool.l_False) →
      ∃ s1, uncheckedEnqueue s l none = some s1 ∧
        ∀ confl s2, propagate s1 = some (some confl, s2) →
          addClause_ s ps = some (false, { s2 with ok := false })) ∧
    (s.ok = false →
      addClause_ s ps = some (false, s) ∧
      (∃ s1, simplify o s = some (false, s1) ∧ s1.ok = false ∧
        s1.clauses = s.clauses ∧ s1.trail = s.trail) ∧
      (∀ r, solve_ o fuel files s = some r → r.1 = lbool.l_False ∧ r.2.ok = false) ∧
      (∀ s0, centralityInit files s = some s0 →
        ∃ s1, solve_ o fuel files s = some (lbool.l_False, s1) ∧ s1.ok = false)) := by
  refine ⟨?_, ?_, ?_⟩
  · intro hok hall
    unfold addClause_
    rw [if_neg (by simp [hlev]), if_neg (by simp [hok]), addClauseLoop_all_false hall]
  · intro hok l hl hnt hlu hall
    have hu : s.value l = lbool.l_Undef := value_undef_of_ne (hnt l hl) hlu
    refine ⟨_, by unfold uncheckedEnqueue; rw [if_pos hu], ?_⟩
    intro confl s2 hp
    unfold addClause_
    rw [if_neg (by simp [hlev]), if_neg (by simp [hok]), addClauseLoop_unit hnt hl hlu hall]
    simp only [uncheckedEnqueue, hu, if_true, hp]
    simp
  · intro hok
    refine ⟨addClause_of_not_ok ps hlev hok, ⟨_, simplify_of_not_ok o hlev hok, rfl, rfl, rfl⟩,
      ?_, ?_⟩
    · intro r hr
      obtain ⟨h1, h2, _⟩ := solve_result_of_not_ok o fuel files hok r hr
      exact ⟨h1, h2⟩
    · intro s0 h0
      obtain ⟨h1, h2, _⟩ := solve_of_not_ok o fuel hok h0
      exact ⟨_, h1, h2⟩

/-- Witness of C17: in the state `exChain3`, where `ok` is cleared, `addClause_ [x0]`
returns false and changes nothing, and `solve_` returns `l_False`. -/
theorem ok_flag_is_latched_witness :
    exChain3.decisionLevel = 0 ∧ exChain3.ok = false ∧
    addClause_ exChain3 [mkLit 0 false] = some (false, exChain3) ∧
    ∃ s1, solve_ exOracle 1 exFiles2 exChain3 = some (lbool.l_False, s1) ∧
      s1.ok = false := by
  have hlev : exChain3.decisionLevel = 0 := by decide
  have hok : exChain3.ok = false := by decide
  have h := (ok_flag_is_latched exOracle 1 exFiles2 exChain3 [mkLit 0 false] hlev).2.2 hok
  have hi : (centralityInit exFiles2 exChain3).isSome = true := by decide
  exact ⟨hlev, hok, h.1, h.2.2.2 _ (eq_some_getD exChain3 hi)⟩

/-- **C18.**  On the fresh solver with two variables, `addClause_ [x0, x1]` and
`addClause_ [¬x0, x1]` return true and `addClause_ [¬x1]` returns false and leaves `ok`
cleared, with no decision and no conflict counted: the contradiction comes from the
propagation of the unit `¬x1` inside `addClause_`.  After that `solve_` returns `l_False`
on the files `exFiles2`, and returns nothing else on any files. -/
theorem two_clause_chain_is_unsat (o : Oracle) (fuel : Nat) (files : Files) :
    addClause_ exTwoVars [mkLit 0 false, mkLit 1 false] = some (true, exChain1) ∧
    addClause_ exChain1 [mkLit 0 true, mkLit 1 false] = some (true, exChain2) ∧
    addClause_ exChain2 [mkLit 1 true] = some (false, exChain3) ∧
    exChain3.ok = false ∧ exChain3.stats.decisions = 0 ∧ exChain3.stats.conflicts = 0 ∧
    (solve_ exOracle 1 exFiles2 exChain3).map Prod.fst = some lbool.l_False ∧
    ∀ r, solve_ o fuel files exChain3 = some r → r.1 = lbool.l_False ∧ r.2.ok = false := by
  have hok : exChain3.ok = false := by decide
  have e1 : ((addClause_ exTwoVars [mkLit 0 false, mkLit 1 false]).getD
      (true, exTwoVars)).1 = true := by decide
  have e2 : ((addClause_ exChain1 [mkLit 0 true, mkLit 1 false]).getD
      (true, exChain1)).1 = true := by decide
  have e3 : ((addClause_ exChain2 [mkLit 1 true]).getD (true, exChain2)).1 = false := by
    decide
  refine ⟨?_, ?_, ?_, hok, by decide, by decide, ?_, ?_⟩
  · rw [eq_some_getD (true, exTwoVars) (by decide :
      (addClause_ exTwoVars [mkLit 0 false, mkLit 1 false]).isSome = true)]
    exact congrArg some (Prod.ext e1 rfl)
  · rw [eq_some_getD (true, exChain1) (by decide :
      (addClause_ exChain1 [mkLit 0 true, mkLit 1 false]).isSome = true)]
    exact congrArg some (Prod.ext e2 rfl)
  · rw [eq_some_getD (true, exChain2) (by decide :
      (addClause_ exChain2 [mkLit 1 true]).isSome = true)]
    exact congrArg some (Prod.ext e3 rfl)
  · have hi : (centralityInit exFiles2 exChain3).isSome = true := by decide
    rw [(solve_of_not_ok exOracle 1 hok (eq_some_getD exChain3 hi)).1]
    rfl
  · intro r hr
    obtain ⟨h1, h2, _⟩ := solve_result_of_not_ok o fuel files hok r hr
    exact ⟨h1, h2⟩

/-- Witness of C18: the statement for the oracle and the files of the examples. -/
theorem two_clause_chain_is_unsat_witness :
    addClause_ exChain2 [mkLit 1 true] = some (false, exChain3) ∧
    (solve_ exOracle 1 exFiles2 exChain3).map Prod.fst = some lbool.l_False :=
  ⟨(two_clause_chain_is_unsat exOracle 1 exFiles2).2.2.1,
    (two_clause_chain_is_unsat exOracle 1 exFiles2).2.2.2.2.2.2.1⟩

/-- Counterexample to C19 as stated: in the incremental state `exRestart` the decision
level is 2 and there is one assumption; the restart test holds, `search` returns
`l_Undef` at decision level 1, the smaller of the two numbers, and not at level 2, the
greater one. -/
theorem search_restart_goes_below_greater_level :
    exRestart.opts.incremental = true ∧ exRestart.decisionLevel = 2 ∧
    exRestart.assumptions.length = 1 ∧
    max exRestart.decisionLevel exRestart.assumptions.length = 2 ∧
    (search exOracle 1 exRestart).map (fun r => (r.1, r.2.decisionLevel))
      = some (lbool.l_Undef, 1) := by
  refine ⟨?_, ?_, ?_, ?_, ?_⟩ <;> decide

/-- **C19 (amended).**  When the restart test of `search` holds in an iteration in which
`propagate` found no conflict, `search` returns `l_Undef` after `cancelUntil(bt)`, with
`bt = 0` in non-incremental mode and, in incremental mode, `bt` the smaller of the
current decision level and the number of assumptions; the decision level at the return
is `bt`.  The state `s` is the state at the head of the iteration, `s1` the state after
`propagate`, which has the decision level, the assumptions and the options of `s`. -/
theorem search_restart_backtracks (o : Oracle) (fuel conflictC : Nat) (blocked : Bool)
    (s s1 : Solver) (hp : propagate s = some (none, s1)) (hr : restartDue s1 = true) :
    ∃ t, searchLoop o (fuel + 1) conflictC blocked s = some (lbool.l_Undef, t) ∧
      t = cancelUntil { s1 with lbdQueue := s1.lbdQueue.fastclear }
        (if s1.opts.incremental then min s1.decisionLevel s1.assumptions.length else 0) ∧
      t.decisionLevel =
        (if s.opts.incremental then min s.decisionLevel s.assumptions.length else 0) ∧
      s1.decisionLevel = s.decisionLevel ∧ s1.assumptions = s.assumptions ∧
      s1.opts = s.opts := by
  have hsc := propagate_scalars hp
  simp only [Solver.scalars, Prod.mk.injEq] at hsc
  have hopts : s1.opts = s.opts := hsc.2.1
  have hass : s1.assumptions = s.assumptions := hsc.2.2.1
  have hlev : s1.decisionLevel = s.decisionLevel := by
    unfold Solver.decisionLevel
    rw [(propagate_ext hp).trail_lim]
  have hrl := restartLevel_eq { s1 with lbdQueue := s1.lbdQueue.fastclear }
  have hrl2 : restartLevel { s1 with lbdQueue := s1.lbdQueue.fastclear } =
      if s1.opts.incremental then min s1.decisionLevel s1.assumptions.length else 0 := hrl
  refine ⟨_, ?_, rfl, ?_, hlev, hass, hopts⟩
  · rw [searchLoop]
    unfold searchStep
    rw [hp]
    dsimp only
    rw [searchNoConflict_restart o conflictC blocked s1 hr, hrl2]
  · rw [← hopts, ← hass, ← hlev]
    generalize hbt : (if s1.opts.incremental then
      min s1.decisionLevel s1.assumptions.length else 0) = bt
    have hle : bt ≤ s1.decisionLevel := by
      rw [← hbt]
      split
      · exact min_le_left _ _
      · exact Nat.zero_le _
    by_cases hlt : bt < s1.decisionLevel
    · exact cancelUntil_decisionLevel { s1 with lbdQueue := s1.lbdQueue.fastclear } bt hlt
    · rw [cancelUntil_of_le _ _ (by
        show s1.decisionLevel ≤ bt
        omega)]
      show s1.decisionLevel = bt
      omega

/-- Witness of C19 (amended): the restart of `exRestart` backtracks to level 1. -/
theorem search_restart_backtracks_witness :
    ∃ s1, propagate exRestart = some (none, s1) ∧ restartDue s1 = true ∧
      ∃ t, searchLoop exOracle 1 0 false exRestart = some (lbool.l_Undef, t) ∧
        t.decisionLevel = 1 := by
  have hs : (propagate exRestart).isSome = true := by decide
  have h1 : ((propagate exRestart).getD (none, exRestart)).1 = none := by decide
  have hp : propagate exRestart
      = some (none, ((propagate exRestart).getD (none, exRestart)).2) := by
    rw [← h1]
    exact eq_some_getD (none, exRestart) hs
  have hr : restartDue ((propagate exRestart).getD (none, exRestart)).2 = true := by decide
  obtain ⟨t, ht, _, hl, _⟩ := search_restart_backtracks exOracle 0 0 false exRestart _ hp hr
  refine ⟨_, hp, hr, t, ht, ?_⟩
  rw [hl]
  decide

/-- Counterexample to C20 as stated: in `exRestart` the restart test holds with
`conflictsRestarts = 100`; `search` restarts and returns with `conflictsRestarts = 100`,
and the next iteration of `search`, entered after this restart, works with the value 100
and not with 0. -/
theorem search_restart_keeps_conflictsRestarts :
    (search exOracle 1 exRestart).map
      (fun r => (r.1, r.2.stats.conflictsRestarts,
        (searchStep exOracle 0 false r.2).map
          (fun out => out.state.stats.conflictsRestarts)))
      = some (lbool.l_Undef, 100, some 100) := by
  decide

/-- **C20 (amended).**  The counter `conflictsRestarts` counts the conflicts since the
solver was created, like `conflicts`: an iteration of `search` in which `propagate`
returns a conflict adds one to it, an iteration without conflict leaves it unchanged,
also when it restarts, and a call of `search` or of `solve_` adds to it the number that
it adds to `conflicts`; nothing resets it. -/
theorem conflictsRestarts_counts_all_conflicts (o : Oracle) (fuel conflictC : Nat)
    (blocked : Bool) (files : Files) (s : Solver) :
    (∀ out, searchStep o conflictC blocked s = some out →
      (∀ confl s1, propagate s = some (some confl, s1) →
        out.state.stats.conflictsRestarts = s.stats.conflictsRestarts + 1) ∧
      (∀ s1, propagate s = some (none, s1) →
        out.state.stats.conflictsRestarts = s.stats.conflictsRestarts)) ∧
    (∀ r, search o fuel s = some r →
      ∃ k, r.2.stats.conflicts = s.stats.conflicts + k ∧
        r.2.stats.conflictsRestarts = s.stats.conflictsRestarts + k) ∧
    (∀ r, solve_ o fuel files s = some r →
      ∃ k, r.2.stats.conflicts = s.stats.conflicts + k ∧
        r.2.stats.conflictsRestarts = s.stats.conflictsRestarts + k) := by
  refine ⟨?_, fun r h => search_counters h, fun r h => solve_counters h⟩
  intro out h
  obtain ⟨h1, h2⟩ := searchStep_counters h
  exact ⟨fun confl s1 hp => (h1 confl s1 hp).2, fun s1 hp => (h2 s1 hp).2⟩

/-- Witness of C20 (amended): the call of `search` on `exRestart` returns, and adds 0
to both counters. -/
theorem conflictsRestarts_counts_all_conflicts_witness :
    ∃ r, search exOracle 1 exRestart = some r ∧
      ∃ k, r.2.stats.conflicts = exRestart.stats.conflicts + k ∧
        r.2.stats.conflictsRestarts = exRestart.stats.conflictsRestarts + k := by
  have hs : (search exOracle 1 exRestart).isSome = true := by decide
  have h := eq_some_getD (lbool.l_Undef, exRestart) hs
  exact ⟨_, h,
    (conflictsRestarts_counts_all_conflicts exOracle 1 0 false exFiles2 exRestart).2.1 _ h⟩

end Glucose


namespace Glucose

/-! ## The claims on the bump rule and on `reduceDB` -/

/-- **C24.**  The body of the loop of `analyze` over the literals of a clause, for a
literal `q`: if `q` is met for the first time (`seen` is 0), is not at level 0 and is not
on a selector variable, the body returns and has recorded exactly one bump of `var(q)`,
with the inflated increment `var_inc * 1.1` exactly when `highcenter[var(q)]` holds and
`decisions < 100000` (so with the plain increment when `decisions = 100000`); in every
other case (already seen, level 0, or a selector variable) no bump is recorded. -/
theorem analyze_bumps_first_met_literal (s : Solver) (q : Lit) (pathC : Int)
    (out sel : List Lit) :
    (s.seen q.var = false ∧ s.level q.var ≠ 0 ∧ s.isSelector q.var = false →
      ∃ t pc out2 sel2, analyzeLit s q pathC out sel = some (t, pc, out2, sel2) ∧
        t.bumps = s.bumps ++
          [(q.var, decide (s.highcenter q.var = true ∧ s.stats.decisions < 100000))]) ∧
    (¬ (s.seen q.var = false ∧ s.level q.var ≠ 0 ∧ s.isSelector q.var = false) →
      ∀ r, analyzeLit s q pathC out sel = some r → r.1.bumps = s.bumps) ∧
    (s.seen q.var = false → s.level q.var ≠ 0 → s.isSelector q.var = false →
      s.stats.decisions = 100000 →
      ∃ t pc out2 sel2, analyzeLit s q pathC out sel = some (t, pc, out2, sel2) ∧
        t.bumps = s.bumps ++ [(q.var, false)]) := by
  have main : s.seen q.var = false ∧ s.level q.var ≠ 0 ∧ s.isSelector q.var = false →
      ∃ t pc out2 sel2, analyzeLit s q pathC out sel = some (t, pc, out2, sel2) ∧
        t.bumps = s.bumps ++
          [(q.var, decide (s.highcenter q.var = true ∧ s.stats.decisions < 100000))] := by
    rintro ⟨h1, h2, h3⟩
    unfold analyzeLit
    rw [if_pos h1, if_neg h2]
    dsimp only
    simp only [h3, if_true, Bool.false_eq_true, false_and, if_false]
    by_cases hh : s.highcenter q.var = true ∧ s.stats.decisions < 100000
    · simp only [hh, and_self, if_true, decide_True]
      split
      · split <;> exact ⟨_, _, _, _, rfl, rfl⟩
      · exact ⟨_, _, _, _, rfl, rfl⟩
    · simp only [hh, if_false, decide_False]
      split
      · split <;> exact ⟨_, _, _, _, rfl, rfl⟩
      · exact ⟨_, _, _, _, rfl, rfl⟩
  refine ⟨main, ?_, ?_⟩
  · intro hn r h
    unfold analyzeLit at h
    by_cases h1 : s.seen q.var = false
    · rw [if_pos h1] at h
      by_cases h2 : s.level q.var = 0
      · rw [if_pos h2] at h
        simp only [Option.some.injEq] at h
        rw [← h]
      · have h3 : s.isSelector q.var = true := by
          by_contra hc
          simp only [Bool.not_eq_true] at hc
          exact hn ⟨h1, h2, hc⟩
        rw [if_neg h2] at h
        dsimp only at h
        simp only [h3, Bool.true_eq_false, if_false, false_and, if_true] at h
        split at h
        · simp only [Option.some.injEq] at h
          rw [← h]
        · split at h
          · simp only [Option.some.injEq] at h
            rw [← h]
          · simp at h
    · rw [if_neg h1] at h
      simp only [Option.some.injEq] at h
      rw [← h]
  · intro h1 h2 h3 h4
    obtain ⟨t, pc, o2, s2, e, hb⟩ := main ⟨h1, h2, h3⟩
    refine ⟨t, pc, o2, s2, e, ?_⟩
    rw [hb, h4]
    simp

/-- Counterexample to C27 as stated: in `exLockedLearnt` the two learnt clauses have the
LBD 3, so that both tests of `reduceDB` hold; `nbclausesbeforereduce` grows from 2000 to
4000, by twice `specialIncReduceDB = 1000`. -/
theorem reduceDB_special_increment_twice :
    exLockedLearnt.nbclausesbeforereduce = 2000 ∧
    exLockedLearnt.opts.specialIncReduceDB = 1000 ∧
    (sortLearnts exOracle exLockedLearnt).map (fun cr => (exLockedLearnt.ca cr).lbd)
      = [3, 3] ∧
    (reduceDB exOracle exLockedLearnt).map (fun t => t.nbclausesbeforereduce)
      = some 4000 := by
  decide

/-- **C27 (amended).**  In one call of `reduceDB` on a non-empty list of learnt
clauses, `nbclausesbeforereduce` grows by `specialIncReduceDB` once for each of the two
tests that holds: the clause at the index `size / RATIOREMOVECLAUSES` of the sorted list
has an LBD of at most 3, the last clause of the sorted list has an LBD of at most 5; it
grows by twice `specialIncReduceDB` when both hold and does not change when none
holds. -/
theorem reduceDB_special_increments (o : Oracle) (s : Solver) (hne : s.learnts ≠ []) :
    ∃ mid last t,
      (sortLearnts o s).get? ((sortLearnts o s).length / RATIOREMOVECLAUSES) = some mid ∧
      (sortLearnts o s).getLast? = some last ∧
      reduceDB o s = some t ∧
      t.nbclausesbeforereduce = s.nbclausesbeforereduce +
        (if (s.ca mid).lbd ≤ 3 then s.opts.specialIncReduceDB else 0) +
        (if (s.ca last).lbd ≤ 5 then s.opts.specialIncReduceDB else 0) := by
  obtain ⟨mid, last, S2, kept, t4, h1, h2, _, _, _, _, _, _, _, h10, h11, h12⟩ :=
    reduceDB_parts o s hne
  obtain ⟨_, t1, hl, hf, _⟩ := reduceDBLoop_db (sortLearnts o s) 0
    ((sortLearnts o s).length / 2) [] S2
  rw [h11] at hl
  simp only [Option.some.injEq, Prod.mk.injEq] at hl
  refine ⟨mid, last, _, h1, h2, h12, ?_⟩
  rw [(checkGarbage_frame o _).2.2.2.2.2.2.2.2.2.2]
  show t4.nbclausesbeforereduce = _
  rw [hl.2, hf.nbc, h10]

/-- Witness of C27 (amended): the call on `exLockedLearnt`. -/
theorem reduceDB_special_increments_witness :
    exLockedLearnt.learnts ≠ [] ∧
    ∃ mid last t,
      (sortLearnts exOracle exLockedLearnt).get?
        ((sortLearnts exOracle exLockedLearnt).length / RATIOREMOVECLAUSES) = some mid ∧
      (sortLearnts exOracle exLockedLearnt).getLast? = some last ∧
      reduceDB exOracle exLockedLearnt = some t ∧
      t.nbclausesbeforereduce = exLockedLearnt.nbclausesbeforereduce +
        (if (exLockedLearnt.ca mid).lbd ≤ 3 then exLockedLearnt.opts.specialIncReduceDB
         else 0) +
        (if (exLockedLearnt.ca last).lbd ≤ 5 then exLockedLearnt.opts.specialIncReduceDB
         else 0) :=
  ⟨by decide, reduceDB_special_increments exOracle exLockedLearnt (by decide)⟩

/-- **C28.**  The function `reduceDB` on a non-empty list of learnt clauses without
repeated reference returns, and with `sorted` the list sorted by `reduceDB_lt`: the
clause at the index `i` of `sorted` is removed (it is not in `learnts` afterwards, and
it is marked deleted) if and only if its LBD is above 2, its size is above 2, `canBeDel`
is true, it is not locked, and `i < n / 2 + ` the number of clauses at indices below `i`
whose `canBeDel` was false; the clauses that remain are in `learnts` in the order of
`sorted`, and each of them has `canBeDel = true`. -/
theorem reduceDB_removal_rule (o : Oracle) (s : Solver) (hne : s.learnts ≠ [])
    (hnd : s.learnts.Nodup) :
    ∃ t, reduceDB o s = some t ∧
      t.learnts.Sublist (sortLearnts o s) ∧
      (∀ i cr, (sortLearnts o s).get? i = some cr →
        (cr ∉ t.learnts ↔ removedAt s (sortLearnts o s) i cr = true) ∧
        (removedAt s (sortLearnts o s) i cr = true → (t.ca cr).mark = 1)) ∧
      (∀ cr ∈ t.learnts, (t.ca cr).canBeDel = true) := by
  obtain ⟨mid, last, S2, kept, t4, _, _, a1, a2, a3, _, _, _, _, _, h11, h12⟩ :=
    reduceDB_parts o s hne
  have hnd2 : (sortLearnts o s).Nodup := (sortLearnts_perm o s).nodup_iff.mpr hnd
  obtain ⟨kept1, t1, hl, ext, e1, e2, e3, e4, e5, _⟩ :=
    reduceDBLoop_exact s (sortLearnts o s) hnd2 (sortLearnts o s) [] [] S2
      ((sortLearnts o s).length / 2) rfl a1 a2 (fun x _ => by rw [a3]) (by simp)
  simp only [List.length_nil] at hl
  rw [h11] at hl
  simp only [Option.some.injEq, Prod.mk.injEq] at hl
  obtain ⟨hk, ht⟩ := hl
  subst hk ht
  simp only [List.nil_append] at e1
  subst e1
  have g := checkGarbage_frame o { t4 with learnts := kept }
  have gl : (checkGarbage o { t4 with learnts := kept }).learnts = kept := g.2.2.2.1
  have gc : (checkGarbage o { t4 with learnts := kept }).ca = t4.ca := g.2.2.1
  refine ⟨_, h12, ?_, ?_, ?_⟩
  · rw [gl]; exact e2
  · intro i cr hi
    have h := e3 i cr hi
    simp only [List.length_nil, Nat.zero_add] at h
    rw [gl, gc]
    refine ⟨?_, ?_⟩
    · rw [h]
      simp
    · intro hr
      apply e5 cr (mem_of_get? hi)
      rw [h, hr]
      simp
  · intro cr hcr
    rw [gl] at hcr
    rw [gc]
    exact e4 cr hcr

/-- Witness of C28: the call on `exLockedLearnt`, with the learnt clauses 1 and 0. -/
theorem reduceDB_removal_rule_witness :
    exLockedLearnt.learnts ≠ [] ∧ exLockedLearnt.learnts.Nodup ∧
    ∃ t, reduceDB exOracle exLockedLearnt = some t ∧
      t.learnts.Sublist (sortLearnts exOracle exLockedLearnt) ∧
      (∀ i cr, (sortLearnts exOracle exLockedLearnt).get? i = some cr →
        (cr ∉ t.learnts ↔
          removedAt exLockedLearnt (sortLearnts exOracle exLockedLearnt) i cr = true) ∧
        (removedAt exLockedLearnt (sortLearnts exOracle exLockedLearnt) i cr = true →
          (t.ca cr).mark = 1)) ∧
      (∀ cr ∈ t.learnts, (t.ca cr).canBeDel = true) :=
  ⟨by decide, by decide,
    reduceDB_removal_rule exOracle exLockedLearnt (by decide) (by decide)⟩

/-- Counterexample to C29 as stated: in `exReduce` (2000 conflicts, `curRestart = 1`,
`nbclausesbeforereduce = 2000`) the reduce-DB step of `search` runs; `reduceDB` applies
the special increment twice, so that `N = 4000` afterwards and `nbclausesbeforereduce =
4300` in the end, while `curRestart = 2`, which is not `2000 / 4000 + 1 = 1`. -/
theorem reduceStep_curRestart_from_old_threshold :
    exReduce.curRestart * exReduce.nbclausesbeforereduce ≤ exReduce.stats.conflicts ∧
    exReduce.learnts ≠ [] ∧
    (reduceDB exOracle
        { exReduce with curRestart :=
            exReduce.stats.conflicts / exReduce.nbclausesbeforereduce + 1 }).map
      (fun t => t.nbclausesbeforereduce) = some 4000 ∧
    (reduceStep exOracle exReduce).map
      (fun t => (t.curRestart, t.nbclausesbeforereduce, t.stats.conflicts))
      = some (2, 4300, 2000) ∧
    2000 / 4000 + 1 ≠ 2 := by
  decide

/-- **C29 (amended).**  When the reduce-DB step of `search` runs (the trigger holds,
`learnts` is not empty, `nbclausesbeforereduce` is not 0), then on completion
`curRestart = conflicts / N0 + 1` where `N0` is the value of `nbclausesbeforereduce`
before `reduceDB` is called (`curRestart` is assigned first), and
`nbclausesbeforereduce = N + incReduceDB` where `N` is its value after `reduceDB` has
finished, including the special increments that `reduceDB` applied. -/
theorem reduceStep_sets_curRestart (o : Oracle) (s : Solver)
    (htrig : s.curRestart * s.nbclausesbeforereduce ≤ s.stats.conflicts)
    (hne : s.learnts ≠ []) (hpos : s.nbclausesbeforereduce ≠ 0) :
    ∃ s2 t,
      reduceDB o { s with curRestart := s.stats.conflicts / s.nbclausesbeforereduce + 1 }
        = some s2 ∧
      reduceStep o s = some t ∧
      t.curRestart = s.stats.conflicts / s.nbclausesbeforereduce + 1 ∧
      t.nbclausesbeforereduce = s2.nbclausesbeforereduce + s.opts.incReduceDB ∧
      t.stats.conflicts = s.stats.conflicts := by
  obtain ⟨s2, h2, _⟩ := reduceDB_locked o
    { s with curRestart := s.stats.conflicts / s.nbclausesbeforereduce + 1 } hne
  have hsc := reduceDB_scalars h2
  simp only [Solver.scalars, Prod.mk.injEq] at hsc
  have hlen : 0 < s.learnts.length := List.length_pos.mpr hne
  refine ⟨s2, { s2 with nbclausesbeforereduce :=
                     s2.nbclausesbeforereduce + s2.opts.incReduceDB }, h2, ?_, ?_, ?_, ?_⟩
  · unfold reduceStep
    rw [if_pos htrig, if_pos hlen, if_neg hpos]
    dsimp only
    rw [h2]
  · exact hsc.2.2.2.2.2.2.2.2.2.2.2.2.2.2.2.1
  · show s2.nbclausesbeforereduce + s2.opts.incReduceDB = _
    rw [hsc.2.1]
  · exact hsc.2.2.2.2.2.2.2.1

/-- Witness of C29 (amended): the reduce-DB step on `exReduce`. -/
theorem reduceStep_sets_curRestart_witness :
    exReduce.curRestart * exReduce.nbclausesbeforereduce ≤ exReduce.stats.conflicts ∧
    exReduce.learnts ≠ [] ∧ exReduce.nbclausesbeforereduce ≠ 0 ∧
    ∃ s2 t,
      reduceDB exOracle
          { exReduce with curRestart :=
              exReduce.stats.conflicts / exReduce.nbclausesbeforereduce + 1 }
        = some s2 ∧
      reduceStep exOracle exReduce = some t ∧
      t.curRestart = exReduce.stats.conflicts / exReduce.nbclausesbeforereduce + 1 ∧
      t.nbclausesbeforereduce = s2.nbclausesbeforereduce + exReduce.opts.incReduceDB ∧
      t.stats.conflicts = exReduce.stats.conflicts :=
  ⟨by decide, by decide, by decide,
    reduceStep_sets_curRestart exOracle exReduce (by decide) (by decide) (by decide)⟩

/-- **C30.**  For every non-empty list of learnt clauses, in any order and with any
flags `canBeDel`, `reduceDB` returns and removes at most half of them (the length of
`learnts` afterwards plus `n / 2` is at least `n`, and nothing is added to `learnts`); a
clause of at most two literals or with an LBD of at most 2 stays in `learnts` and keeps
its deletion mark. -/
theorem reduceDB_removes_at_most_half (o : Oracle) (s : Solver) (hne : s.learnts ≠ []) :
    ∃ t, reduceDB o s = some t ∧
      s.learnts.length ≤ s.learnts.length / 2 + t.learnts.length ∧
      (∀ cr ∈ t.learnts, cr ∈ s.learnts) ∧
      (∀ cr ∈ s.learnts, ((s.ca cr).size ≤ 2 ∨ (s.ca cr).lbd ≤ 2) →
        cr ∈ t.learnts ∧ (t.ca cr).mark = (s.ca cr).mark) := by
  obtain ⟨mid, last, S2, kept, t4, _, _, _, _, a3, _, _, _, _, _, h11, h12⟩ :=
    reduceDB_parts o s hne
  obtain ⟨kept1, t1, hl, _, _, _, _, b1, b2, _, b4⟩ := reduceDBLoop_db (sortLearnts o s) 0
    ((sortLearnts o s).length / 2) [] S2
  rw [h11] at hl
  simp only [Option.some.injEq, Prod.mk.injEq] at hl
  obtain ⟨hk, ht⟩ := hl
  subst hk ht
  have hcount := reduceDBLoop_count ((sortLearnts o s).length / 2) (sortLearnts o s) 0
    ((sortLearnts o s).length / 2) [] S2 0 kept t4 (by simp) (by simp) (Nat.zero_le _) h11
  have hlen := (sortLearnts_perm o s).length_eq
  have g := checkGarbage_frame o { t4 with learnts := kept }
  have gl : (checkGarbage o { t4 with learnts := kept }).learnts = kept := g.2.2.2.1
  have gc : (checkGarbage o { t4 with learnts := kept }).ca = t4.ca := g.2.2.1
  refine ⟨_, h12, ?_, ?_, ?_⟩
  · rw [gl]
    rw [hlen] at hcount
    omega
  · intro cr hcr
    rw [gl] at hcr
    rcases b4 cr hcr with h | h
    · simp at h
    · exact (mem_sortLearnts).mp h
  · intro cr hcr hsmall
    rw [gl, gc]
    have hcs : cr ∈ sortLearnts o s := mem_sortLearnts.mpr hcr
    constructor
    · by_contra hn
      obtain ⟨c1, c2, _⟩ := b2 cr hcs hn
      rw [a3] at c1 c2
      omega
    · by_contra hn
      obtain ⟨_, c1, c2⟩ := b1 cr (by rw [a3]; exact hn)
      rw [a3] at c1 c2
      omega

/-- Witness of C30: the call on `exLockedLearnt`. -/
theorem reduceDB_removes_at_most_half_witness :
    exLockedLearnt.learnts ≠ [] ∧
    ∃ t, reduceDB exOracle exLockedLearnt = some t ∧
      exLockedLearnt.learnts.length ≤ exLockedLearnt.learnts.length / 2 + t.learnts.length ∧
      (∀ cr ∈ t.learnts, cr ∈ exLockedLearnt.learnts) ∧
      (∀ cr ∈ exLockedLearnt.learnts,
        ((exLockedLearnt.ca cr).size ≤ 2 ∨ (exLockedLearnt.ca cr).lbd ≤ 2) →
        cr ∈ t.learnts ∧ (t.ca cr).mark = (exLockedLearnt.ca cr).mark) :=
  ⟨by decide, reduceDB_removes_at_most_half exOracle exLockedLearnt (by decide)⟩

/-! ## The claim on `pickBranchLit` -/

/-- **C21.**  For every solver state and every random generator whose numbers are below
1 (the contract of `drand`, by which the index computed by `irand` is inside the heap),
`pickBranchLit` returns either `lit_Undef` or a literal whose variable is unassigned and
decision-eligible (the function writes neither the assignment nor the eligibility) and,
when `rnd_pol` is false, whose sign is the saved `polarity[var]`; it returns `lit_Undef`
only with the order heap empty at return; and every variable that it removed from the
heap without returning it was assigned or not decision-eligible. -/
theorem pickBranchLit_returns_eligible_literal (o : Oracle) (s : Solver)
    (hr : ∀ t, (o.drand t).num < ((o.drand t).den : Int) + 1) :
    ∃ r t, pickBranchLit o s = some (r, t) ∧
      t.assigns = s.assigns ∧ t.decision = s.decision ∧ t.polarity = s.polarity ∧
      (∀ l, r = some l → s.valueVar l.var = lbool.l_Undef ∧ s.decision l.var = true ∧
        (s.opts.rnd_pol = false → l.sign = s.polarity l.var)) ∧
      (r = none → t.order_heap = []) ∧
      (∀ x ∈ s.order_heap, x ∉ t.order_heap →
        (∃ l, r = some l ∧ l.var = x) ∨ s.valueVar x ≠ lbool.l_Undef ∨
          s.decision x = false) ∧
      (∀ x ∈ t.order_heap, x ∈ s.order_heap) :=
  pickBranchLit_spec o s hr

/-- Witness of C21: the call on `exUnit` (two variables in the heap, `x0` assigned) with
the generator that always gives 0. -/
theorem pickBranchLit_returns_eligible_literal_witness :
    (∀ t, (exOracle.drand t).num < ((exOracle.drand t).den : Int) + 1) ∧
    ∃ r t, pickBranchLit exOracle exUnit = some (r, t) ∧
      t.assigns = exUnit.assigns ∧ t.decision = exUnit.decision ∧
      t.polarity = exUnit.polarity ∧
      (∀ l, r = some l → exUnit.valueVar l.var = lbool.l_Undef ∧
        exUnit.decision l.var = true ∧
        (exUnit.opts.rnd_pol = false → l.sign = exUnit.polarity l.var)) ∧
      (r = none → t.order_heap = []) ∧
      (∀ x ∈ exUnit.order_heap, x ∉ t.order_heap →
        (∃ l, r = some l ∧ l.var = x) ∨ exUnit.valueVar x ≠ lbool.l_Undef ∨
          exUnit.decision x = false) ∧
      (∀ x ∈ t.order_heap, x ∈ exUnit.order_heap) :=
  ⟨fun _ => by simp [exOracle, Frac.ofNat],
    pickBranchLit_returns_eligible_literal exOracle exUnit
      (fun _ => by simp [exOracle, Frac.ofNat])⟩

/-! ## The claim on the lifetime of original clauses -/

/-- Counterexample to C26 as stated: in `exSatisfied` the clause `[x0, x1, x2]`, pushed
to `clauses` by `addClause_` at reference 0 and not marked, is satisfied by the unit
`x0`; `simplify` returns true with `clauses` empty and the clause marked deleted. -/
theorem simplify_frees_satisfied_original :
    exOneTernary.clauses = [0] ∧ exSatisfied.clauses = [0] ∧
    (exSatisfied.ca 0).lits = [mkLit 0 false, mkLit 1 false, mkLit 2 false] ∧
    (exSatisfied.ca 0).mark = 0 ∧
    (simplify exOracle exSatisfied).map (fun r => (r.1, r.2.clauses, (r.2.ca 0).mark))
      = some (true, [], 1) := by
  decide

/-- **C26 (amended).**  An original clause is freed only when it is satisfied at
decision level 0.  For every sequence of calls of `newVar`, `addClause_` (on literals
over variables of the solver), `simplify`, `reduceDB`, `cancelUntil` and `search`, and of
iterations of the loop of `search`, that starts in a state in which the learnt clauses
are allocated (a fresh solver for one), and for every clause reference `cr` that a call
of `addClause_` of the sequence pushed to `clauses`: in the state reached, `cr` is still
in `clauses` and not marked deleted, or one of its literals is true at decision level 0
(it is true and on the trail only below the level fences, so that no backtracking
unassigns it; its level is 0 when the trail and the assignment agree). -/
theorem original_clause_freed_only_if_satisfied (o : Oracle) (orig : List Nat) (s : Solver)
    (h : Calls o orig s) :
    ∀ cr ∈ orig, (cr ∈ s.clauses ∧ (s.ca cr).mark ≠ 1) ∨
      ∃ l ∈ (s.ca cr).lits, s.rootTrue l ∧ (TrailOK s → s.level l.var = 0) := by
  intro cr hcr
  rcases h.tracked.kept cr hcr with h1 | ⟨l, hl, hr⟩
  · exact Or.inl h1
  · exact Or.inr ⟨l, hl, hr, fun hT => rootTrue_level hT hr⟩

/-- Witness of C26 (amended): the sequence `newVar` three times, `addClause_` of
`[x0, x1, x2]`, `addClause_` of `[x0]`, `simplify` from the fresh solver.  The first
`addClause_` pushes the reference 0 to `clauses`; after `simplify` the clause has left
`clauses` and is marked deleted, and its literal `x0` is true at level 0. -/
theorem original_clause_freed_only_if_satisfied_witness :
    ∃ b t, simplify exOracle exSatisfied = some (b, t) ∧ Calls exOracle [0] t ∧
      ((0 ∈ t.clauses ∧ (t.ca 0).mark ≠ 1) ∨
        ∃ l ∈ (t.ca 0).lits, t.rootTrue l ∧ (TrailOK t → t.level l.var = 0)) ∧
      t.clauses = [] ∧ (t.ca 0).mark = 1 := by
  have c0 : Calls exOracle [] Solver.init :=
    Calls.start Solver.init (fun x hx => by simp [Solver.init] at hx)
  have c3 : Calls exOracle [] exThreeVars :=
    Calls.newVar _ _ true true (Calls.newVar _ _ true true (Calls.newVar _ _ true true c0))
  have a1 : (addClause_ exThreeVars [mkLit 0 false, mkLit 1 false, mkLit 2 false]).isSome
      = true := by decide
  have c4 := Calls.addClause [] exThreeVars exOneTernary
    [mkLit 0 false, mkLit 1 false, mkLit 2 false] _ c3 (by decide)
    (eq_some_getD (true, exThreeVars) a1)
  have e4 : ([] ++ exOneTernary.clauses.drop exThreeVars.clauses.length : List Nat) = [0] := by
    decide
  rw [e4] at c4
  have a2 : (addClause_ exOneTernary [mkLit 0 false]).isSome = true := by decide
  have c5 := Calls.addClause [0] exOneTernary exSatisfied [mkLit 0 false] _ c4 (by decide)
    (eq_some_getD (true, exOneTernary) a2)
  have e5 : ([0] ++ exSatisfied.clauses.drop exOneTernary.clauses.length : List Nat) = [0] := by
    decide
  rw [e5] at c5
  have hs : (simplify exOracle exSatisfied).isSome = true := by decide
  have h := eq_some_getD (true, exSatisfied) hs
  have c6 := Calls.simplify [0] exSatisfied _ _ c5 h
  exact ⟨_, _, h, c6,
    original_clause_freed_only_if_satisfied exOracle [0] _ c6 0 (List.mem_singleton_self 0),
    by decide, by decide⟩

/-! ## The claims on the centrality heuristic -/

/-- Counterexample to C22 as stated: four fresh variables with the files `exFilesNan`,
which give the centralities 3, 3, NaN and 1.  No comparison with NaN holds, so the
bubble sort swaps nothing; the variable 3, of centrality 1, is the one marked, and the
variable 0, of the greater centrality 3, is not. -/
theorem highcenter_marks_lower_score_with_nan :
    ∃ t, centralityInit exFilesNan exFourVars = some t ∧
      (List.range 4).map exFourVars.highcenter = [false, false, false, false] ∧
      (List.range 4).map t.centrality
        = [Double.ofNat 3, Double.ofNat 3, Double.nan, Double.ofNat 1] ∧
      (List.range 4).map t.highcenter = [false, false, false, true] ∧
      t.highcenter 3 = true ∧ t.highcenter 0 = false ∧
      Double.gt (t.centrality 0) (t.centrality 3) = true := by
  have hs : (centralityInit exFilesNan exFourVars).isSome = true := by decide
  exact ⟨(centralityInit exFilesNan exFourVars).getD exFourVars,
    eq_some_getD exFourVars hs, by decide, by decide, by decide, by decide,
    by decide, by decide⟩

/-- **C22.**  After the centrality initialisation at the start of `solve_` on a solver
with `n` variables and no mark `highcenter` yet (the first call), exactly `n / 3`
variables have `highcenter = true` (only indices below `n` are marked); and when no
variable has the centrality NaN, no unmarked variable has a centrality greater than
that of a marked variable. -/
theorem highcenter_marks_top_third (files : Files) (s t : Solver)
    (h : centralityInit files s = some t) (h0 : ∀ v, s.highcenter v = false) :
    t.nVars = s.nVars ∧
    (∀ v, t.highcenter v = true → v < s.nVars) ∧
    ((List.range s.nVars).filter (fun v => t.highcenter v)).length = s.nVars / 3 ∧
    ((∀ v, v < s.nVars → t.centrality v ≠ Double.nan) →
      ∀ a b, a < s.nVars → b < s.nVars → t.highcenter a = true → t.highcenter b = false →
        Double.gt (t.centrality b) (t.centrality a) = false) := by
  obtain ⟨h1, h2, h3⟩ := centralityInit_highcenter h h0
  obtain ⟨cl, zl, _, _, _, _, _, hcl, hzl, _⟩ := centralityInit_parts h
  refine ⟨(centralityInit_centrality h hcl hzl).1, h1, ?_,
    fun hnan a b _ hb => h3 hnan a b hb⟩
  rw [← List.countP_eq_length_filter]
  exact h2

/-- Witness of C22: three fresh variables with the files `exFiles3`, which give the
centralities 1/2, 3/4 and 1/2; the variable 1 is the one marked. -/
theorem highcenter_marks_top_third_witness :
    ∃ t, centralityInit exFiles3 exThreeVars = some t ∧
      (∀ v, exThreeVars.highcenter v = false) ∧
      (∀ v, v < exThreeVars.nVars → t.centrality v ≠ Double.nan) ∧
      t.nVars = exThreeVars.nVars ∧
      (∀ v, t.highcenter v = true → v < exThreeVars.nVars) ∧
      ((List.range exThreeVars.nVars).filter (fun v => t.highcenter v)).length
        = exThreeVars.nVars / 3 ∧
      (∀ a b, a < exThreeVars.nVars → b < exThreeVars.nVars → t.highcenter a = true →
        t.highcenter b = false → Double.gt (t.centrality b) (t.centrality a) = false) ∧
      (List.range 3).map t.highcenter = [false, true, false] := by
  have hs : (centralityInit exFiles3 exThreeVars).isSome = true := by decide
  have h := eq_some_getD exThreeVars hs
  have h0 : ∀ v, exThreeVars.highcenter v = false := by
    intro v
    simp [exThreeVars, newVar, Solver.setDecisionVar, Solver.insertVarOrder, Solver.init,
      Function.update_apply]
  have hn : ∀ v, v < exThreeVars.nVars →
      ((centralityInit exFiles3 exThreeVars).getD exThreeVars).centrality v
        ≠ Double.nan := by
    have e : exThreeVars.nVars = 3 := by decide
    rw [e]
    intro v hv
    interval_cases v <;> decide
  obtain ⟨a, b, c, d⟩ := highcenter_marks_top_third exFiles3 exThreeVars _ h h0
  exact ⟨_, h, h0, hn, a, b, c, d hn, by decide⟩

/-- **C23.**  For every community file and every centrality file with which the first
part of `solve_` runs to its end, and every variable `v`: with `k` the community of `v`
in the community file (`lastEntry`: the last line for `v`, and the entry of `cmtys`
before the call, 0 in a fresh solver, when `v` is not listed), `k + 1` is an index of
the per-community table and the centrality of `v` is the score of the community `k + 1`
in the centrality file (the last such line, and the entry of `cmtycentrality` before
the call, 0 in a fresh solver, when there is none). -/
theorem centrality_is_score_of_next_community (files : Files) (s t : Solver)
    (cl : List (Int × Int)) (zl : List (Int × Double))
    (h : centralityInit files s = some t) (hc : files.cmty = some cl)
    (hz : files.center = some zl) :
    (∀ v, v < s.nVars →
      s.inTable (lastEntry cl (v : Int) (s.cmtys v) + 1) = true ∧
      t.centrality v = lastEntry zl (lastEntry cl (v : Int) (s.cmtys v) + 1)
        (s.cmtycentrality (lastEntry cl (v : Int) (s.cmtys v) + 1).toNat)) ∧
    ((∀ v, s.cmtys v = 0) → (∀ c, s.cmtycentrality c = Double.ofNat 0) →
      ∀ v, v < s.nVars →
        t.centrality v = lastEntry zl (lastEntry cl (v : Int) 0 + 1) (Double.ofNat 0)) := by
  have h1 := (centralityInit_centrality h hc hz).2
  refine ⟨h1, ?_⟩
  intro h0 hz0 v hv
  have := (h1 v hv).2
  rw [h0 v, hz0] at this
  exact this

/-- Witness of C23: three fresh variables with the files `exFiles3`; the variables 0 and
2 of the community 0 get the score 1/2 of the community 1, the variable 1 of the
community 1 gets the score 3/4 of the community 2. -/
theorem centrality_is_score_of_next_community_witness :
    ∃ t, centralityInit exFiles3 exThreeVars = some t ∧
      (∀ v, v < exThreeVars.nVars →
        t.centrality v
          = lastEntry [(1, Double.num ⟨1, 1⟩), (2, Double.num ⟨3, 3⟩)]
              (lastEntry [(0, 0), (1, 1), (2, 0)] (v : Int) 0 + 1) (Double.ofNat 0)) ∧
      (List.range 3).map t.centrality
        = [Double.num ⟨1, 1⟩, Double.num ⟨3, 3⟩, Double.num ⟨1, 1⟩] := by
  have hs : (centralityInit exFiles3 exThreeVars).isSome = true := by decide
  have h := eq_some_getD exThreeVars hs
  have h0 : ∀ v, exThreeVars.cmtys v = 0 := by
    intro v
    simp [exThreeVars, newVar, Solver.setDecisionVar, Solver.insertVarOrder, Solver.init,
      Function.update_apply]
  have h1 : ∀ c, exThreeVars.cmtycentrality c = Double.ofNat 0 := by
    intro v
    simp [exThreeVars, newVar, Solver.setDecisionVar, Solver.insertVarOrder, Solver.init,
      Function.update_apply]
  exact ⟨_, h,
    (centrality_is_score_of_next_community exFiles3 exThreeVars _ _ _ h rfl rfl).2 h0 h1,
    by decide⟩

/-! ## C25: the final conflict is over the assumptions -/

/-- **C25.**  The invariant `DecisionsOK` of the loop of `search` says that the trail and
the assignment agree and that a true literal without reason at a level from 1 to
`assumptions.size()` is an assumption; it holds at level 0 and is kept by every
iteration.  First conjunct, the `return l_False` of the loop over the assumptions: in a
state `u` with the invariant, when the loop started at the position `decisionLevel()`
finds an assumption false and returns after `analyzeFinal`, the vector `conflict` of the
state `v` returned reads `¬p :: rest` for an assumption `p` that is false, every element
of `rest` is the negation of an assumption that is on the trail without reason at a level
above 0, and `rest` is empty when the decision level is 0.  Second conjunct, the call of
`search` from a state `s` with the invariant: the state `t` returned has the invariant
and the assumptions of `s`, and its vector `conflict` is either the one of `s` (which
`solve_` has cleared) or, with the answer `l_False`, a vector of this form. -/
theorem search_final_conflict_over_assumptions (o : Oracle) (fuel : Nat) (s t : Solver)
    (r : lbool) (hs : DecisionsOK s) (h : search o fuel s = some (r, t)) :
    (∀ u v, DecisionsOK u →
      assumeLoop (u.assumptions.drop u.decisionLevel) u = some (Sum.inl v) →
      ∃ p rest, p ∈ u.assumptions ∧ v.value p = lbool.l_False ∧
        v.conflict = p.neg :: rest ∧
        (∀ q ∈ rest, ∃ l, q = l.neg ∧ l ∈ u.assumptions ∧ l ∈ v.trail ∧
          v.reason l.var = none ∧ 0 < v.level l.var) ∧
        (v.decisionLevel = 0 → rest = [])) ∧
    DecisionsOK t ∧ t.assumptions = s.assumptions ∧
    (t.conflict = s.conflict ∨
      (r = lbool.l_False ∧
        ∃ p rest, p ∈ s.assumptions ∧ t.value p = lbool.l_False ∧
          t.conflict = p.neg :: rest ∧
          (∀ q ∈ rest, ∃ l, q = l.neg ∧ l ∈ s.assumptions ∧ l ∈ t.trail ∧
            t.reason l.var = none ∧ 0 < t.level l.var) ∧
          (t.decisionLevel = 0 → rest = []))) := by
  refine ⟨?_, ?_⟩
  · intro u v hu hl
    have hf := assumeLoop_final hu hl
    exact hf.2.2
  · unfold search at h
    split at h
    · simp at h
    · have key : ∀ S : Solver, searchLoop o fuel 0 false S = some (r, t) →
          S.assigns = s.assigns → S.vardata = s.vardata → S.trail = s.trail →
          S.trail_lim = s.trail_lim → S.assumptions = s.assumptions →
          S.conflict = s.conflict →
          DecisionsOK t ∧ t.assumptions = s.assumptions ∧
            (t.conflict = s.conflict ∨ (r = lbool.l_False ∧ FinalConflict s.assumptions t)) := by
        intro S hS g1 g2 g3 g4 g5 g6
        obtain ⟨d1, d2, d3⟩ :=
          searchLoop_decisionsOK o fuel 0 false S r t (hs.dec_of_fields g1 g2 g3 g4 g5) hS
        rw [g5, g6] at d3
        exact ⟨d1, d2.trans g5, d3⟩
      exact key _ h rfl rfl rfl rfl rfl rfl

/-- Witness of C25: in the state `exAssume`, at level 0 with an empty trail, `search`
decides the assumption `¬x0`, the clause `[x0, x1]` implies `x1`, the assumption `¬x1`
is false, and `search` returns `l_False` with `conflict = [x1, x0]`. -/
theorem search_final_conflict_over_assumptions_witness :
    DecisionsOK exAssume ∧
    (search exOracle 2 exAssume).map (fun x => (x.1, x.2.conflict))
      = some (lbool.l_False, [mkLit 1 false, mkLit 0 false]) ∧
    ∃ t, search exOracle 2 exAssume = some (lbool.l_False, t) ∧
      ∃ p rest, p ∈ exAssume.assumptions ∧ t.value p = lbool.l_False ∧
        t.conflict = p.neg :: rest ∧
        (∀ q ∈ rest, ∃ l, q = l.neg ∧ l ∈ exAssume.assumptions ∧ l ∈ t.trail ∧
          t.reason l.var = none ∧ 0 < t.level l.var) ∧
        (t.decisionLevel = 0 → rest = []) := by
  have h2 : Reach exTwoVars :=
    Reach.newVar _ true true (Reach.newVar _ true true Reach.fresh)
  have ha : addClause_ exTwoVars [mkLit 0 false, mkLit 1 false] = some (true, exChain1) := by
    have hs : (addClause_ exTwoVars [mkLit 0 false, mkLit 1 false]).isSome = true := by
      decide
    have h1 : ((addClause_ exTwoVars [mkLit 0 false, mkLit 1 false]).getD
        (true, exTwoVars)).1 = true := by decide
    rw [eq_some_getD (true, exTwoVars) hs]
    exact congrArg some (Prod.ext h1 rfl)
  have h3 : Reach exChain1 :=
    Reach.addClause exTwoVars exChain1 _ true h2 (by decide) ha (by decide)
  have hT : TrailOK exAssume := h3.rinv.inv.trail.trail_of_fields rfl rfl rfl rfl
  have hD : DecisionsOK exAssume := DecisionsOK.of_level_zero hT (by decide)
  have hsome : (search exOracle 2 exAssume).isSome = true := by decide
  have hr : ((search exOracle 2 exAssume).getD (lbool.l_Undef, exAssume)).1
      = lbool.l_False := by decide
  have hc : ((search exOracle 2 exAssume).getD (lbool.l_Undef, exAssume)).2.conflict
      ≠ exAssume.conflict := by decide
  have hsearch : search exOracle 2 exAssume = some (lbool.l_False,
      ((search exOracle 2 exAssume).getD (lbool.l_Undef, exAssume)).2) := by
    rw [← hr]
    exact eq_some_getD (lbool.l_Undef, exAssume) hsome
  refine ⟨hD, by decide, _, hsearch, ?_⟩
  rcases (search_final_conflict_over_assumptions exOracle 2 exAssume _ lbool.l_False hD
    hsearch).2.2.2 with e | ⟨_, hp⟩
  · exact absurd e hc
  · exact hp

/-! ## C9 and C10: the learnt clause and the scratch marks of `analyze` -/

theorem exBinState_trailOK : TrailOK exBinState := by
  refine ⟨exBinState_trailTrue, ?_, by decide, by decide, by decide, ?_⟩
  · intro v hv
    by_cases e : v = 0
    · subst e
      exact ⟨mkLit 0 false, by decide, rfl⟩
    · exfalso
      apply hv
      simp [exBinState, e]
  · intro i l hg
    match i, hg with
    | 0, hg =>
      simp only [exBinState, List.get?_cons_zero, Option.some.injEq] at hg
      subst hg
      decide
    | i + 1, hg => simp [exBinState] at hg

/-- The state `exConflict` with the clause 1 is a conflict state. -/
theorem exConflict_conflictState : ConflictState exConflict 1 := by
  have hp : propagate exBinState = some (some 1, exConflict) := propagate_exBinState
  have hl := propagate_lists hp
  simp only [Solver.lists, Prod.mk.injEq] at hl
  have ht : exConflict.trail = [mkLit 0 false, mkLit 1 false] := by decide
  have hlim : exConflict.trail_lim = [0] := by decide
  have hr0 : exConflict.reason 0 = none := by decide
  have hr1 : exConflict.reason 1 = some 0 := by decide
  have hc0 : (exConflict.ca 0).lits = [mkLit 0 true, mkLit 1 false] := by decide
  refine ⟨⟨(propagate_ext hp).trailOK exBinState_trailOK, by decide, ?_, ?_⟩, ?_, ?_, ?_, ?_,
    ?_⟩
  · intro i l r hg hr
    rw [ht] at hg
    match i, hg with
    | 0, hg =>
      simp only [List.get?_cons_zero, Option.some.injEq] at hg
      subst hg
      rw [show (mkLit 0 false).var = 0 from rfl, hr0] at hr
      cases hr
    | 1, hg =>
      simp only [List.get?_cons_succ, List.get?_cons_zero, Option.some.injEq] at hg
      subst hg
      rw [show (mkLit 1 false).var = 1 from rfl, hr1] at hr
      simp only [Option.some.injEq] at hr
      subst hr
      right
      refine ⟨mkLit 0 true, hc0, 0, by omega, ?_⟩
      rw [ht]
      rfl
    | i + 2, hg => simp at hg
  · intro i l b hg hb hlt
    rw [ht] at hg
    rw [hlim] at hb
    simp only [List.getLast?_singleton, Option.some.injEq] at hb
    subst hb
    match i, hg with
    | 0, hg => omega
    | 1, hg =>
      simp only [List.get?_cons_succ, List.get?_cons_zero, Option.some.injEq] at hg
      subst hg
      rw [show (mkLit 1 false).var = 1 from rfl, hr1]
      simp
    | i + 2, hg => simp at hg
  · unfold AllFalse
    decide
  · exact ⟨mkLit 1 true, by decide, by decide⟩
  · intro v
    rw [hl.2.2.2.2.1]
    rfl
  · intro x
    rw [hl.2.2.2.2.2.1, hl.2.2.2.2.2.2.1]
    exact Nat.le_refl _
  · rw [hl.2.2.2.2.2.2.2.2.2.1]
    rfl

/-- **C9.**  In every conflict state `s` with the conflicting clause `confl`
(`ConflictState`: the trail and the assignment agree, the decision level is above 0,
every reason is correct, at the current level only the decision has no reason, every
literal of `confl` is false and one of them is at the current level, `seen` is all
zero, no stamp of `permDiff` is above `MYFLAG`, `lastDecisionLevel` is empty), `analyze`
returns: the literals of the learnt clause are false, at entry and in the state
returned; its first literal is at the current level `d` and every other literal at a
level below `d`; a clause of one literal comes with `out_btlevel = 0`; otherwise no
literal after the first has a greater level than `out_learnt[1]`, `out_btlevel` is the
level of `out_learnt[1]`, and it is below `d`. -/
theorem analyze_learnt_clause (s : Solver) (confl : Nat) (h : ConflictState s confl) :
    ∃ r, analyze s confl = some r ∧
      (∀ l ∈ r.out_learnt, s.value l = lbool.l_False ∧ r.state.value l = lbool.l_False) ∧
      (∃ o0 rest, r.out_learnt = o0 :: rest ∧ s.level o0.var = s.decisionLevel ∧
        ∀ x ∈ rest, s.level x.var < s.decisionLevel) ∧
      (r.out_learnt.length = 1 → r.out_btlevel = 0) ∧
      (∀ o0 o1 tl, r.out_learnt = o0 :: o1 :: tl →
        (∀ x ∈ o1 :: tl, s.level x.var ≤ s.level o1.var) ∧
        r.out_btlevel = s.level o1.var ∧ r.out_btlevel < s.decisionLevel) := by
  obtain ⟨r, e, f, _, o0, rest, hr, hv, hl, hrest, hb0, hb1⟩ := analyze_spec h
  refine ⟨r, e, ?_, ⟨o0, rest, hr, hl, fun x hx => (hrest x hx).2.2⟩, ?_, ?_⟩
  · intro l hl2
    rw [f.value_eq]
    rw [hr] at hl2
    rcases List.mem_cons.mp hl2 with rfl | hl2
    · exact ⟨hv, hv⟩
    · exact ⟨(hrest l hl2).1, (hrest l hl2).1⟩
  · intro hlen
    apply hb0
    rw [hr] at hlen
    simp only [List.length_cons, Nat.add_left_eq_self, List.length_eq_zero] at hlen
    exact hlen
  · intro a o1 tl e2
    rw [hr] at e2
    simp only [List.cons.injEq] at e2
    obtain ⟨_, e3⟩ := e2
    obtain ⟨g1, g2⟩ := hb1 o1 tl e3
    rw [← e3]
    refine ⟨g2, g1, ?_⟩
    rw [g1]
    exact (hrest o1 (by rw [e3]; exact List.mem_cons_self _ _)).2.2

/-- Witness of C9: in the conflict state `exConflict`, with the decision `x0` and the
implied `x1` at level 1 and the conflicting clause `[¬x0, ¬x1]`, `analyze` returns the
clause `[¬x0]` and the backtrack level 0. -/
theorem analyze_learnt_clause_witness :
    ConflictState exConflict 1 ∧
    (analyze exConflict 1).map (fun r => (r.out_learnt, r.out_btlevel))
      = some ([mkLit 0 true], 0) ∧
    ∃ r, analyze exConflict 1 = some r ∧
      (∀ l ∈ r.out_learnt,
        exConflict.value l = lbool.l_False ∧ r.state.value l = lbool.l_False) ∧
      (r.out_learnt.length = 1 → r.out_btlevel = 0) := by
  obtain ⟨r, e, h1, _, h3, _⟩ := analyze_learnt_clause exConflict 1 exConflict_conflictState
  exact ⟨exConflict_conflictState, by decide, r, e, h1, h3⟩

/-- **C10.**  In every conflict state (`ConflictState`, in which `seen` is all zero),
whatever the minimisation mode `ccmin_mode` and the other options are, `analyze`
returns and `seen` is all zero in the state returned. -/
theorem analyze_restores_seen (s : Solver) (confl : Nat) (h : ConflictState s confl) :
    (∀ v, s.seen v = false) ∧
    ∃ r, analyze s confl = some r ∧ ∀ v, r.state.seen v = false := by
  obtain ⟨r, e, _, hs, _⟩ := analyze_spec h
  exact ⟨h.seen0, r, e, hs⟩

/-- Witness of C10: the conflict state `exConflict`, in the default mode
`ccmin_mode = 2`. -/
theorem analyze_restores_seen_witness :
    ConflictState exConflict 1 ∧ exConflict.opts.ccmin_mode = 2 ∧
    ∃ r, analyze exConflict 1 = some r ∧ ∀ v, r.state.seen v = false :=
  ⟨exConflict_conflictState, by decide,
    (analyze_restores_seen exConflict 1 exConflict_conflictState).2⟩

/-! ## C3: the model is total -/

/-- **C3.**  In a state `s` in which every variable is a decision variable and every
unassigned one is in the order heap (`HeapOK`, which holds in every state built by
`newVar` and `addClause_` and is kept by `search`), when `solve_` answers `l_True`:
`model` has `nVars` entries; its entry `i` is the value of the variable `i` in the state
`s3` in which the last call of `search` returned; and no entry is `l_Undef`, since
`search` answers `l_True` only when `pickBranchLit` has emptied the heap without
finding an unassigned decision variable. -/
theorem solve_model_is_total (o : Oracle) (fuel : Nat) (files : Files) (s t : Solver)
    (hH : HeapOK s) (hd : ∀ v, v < s.nVars → s.decision v = true)
    (h : solve_ o fuel files s = some (lbool.l_True, t)) :
    t.model.length = t.nVars ∧
    (∃ s0 s3, centralityInit files s = some s0 ∧
      solveLoop o fuel fuel (solveStart s0) = some (lbool.l_True, s3) ∧
      ∀ i, i < t.nVars → t.model.get? i = some (s3.valueVar i)) ∧
    (∀ x ∈ t.model, x ≠ lbool.l_Undef) := by
  obtain ⟨s0, s3, h0, hl, e1, e2, e3, e4, hall⟩ := solve_model hH h
  refine ⟨?_, ⟨s0, s3, h0, hl, ?_⟩, ?_⟩
  · rw [e4, List.length_map, List.length_range, e1, e3]
  · intro i hi
    rw [e3, ← e1] at hi
    rw [e4, List.get?_eq_getElem?, List.getElem?_map, List.getElem?_range hi]
    rfl
  · intro x hx
    rw [e4] at hx
    obtain ⟨v, hv, rfl⟩ := List.mem_map.mp hx
    have hv2 : v < s3.nVars := List.mem_range.mp hv
    apply hall v hv2
    rw [e2]
    exact hd v (by rw [← e1]; exact hv2)

/-- Witness of C3: on the solver with two variables and the unit clause `[x0]`, `solve_`
answers `l_True` with the model `x0 = True`, `x1 = False`. -/
theorem solve_model_is_total_witness :
    HeapOK exUnit ∧ (∀ v, v < exUnit.nVars → exUnit.decision v = true) ∧
    (solve_ exOracle 2 exFiles2 exUnit).map (fun r => (r.1, r.2.model))
      = some (lbool.l_True, [lbool.l_True, lbool.l_False]) ∧
    ∃ t, solve_ exOracle 2 exFiles2 exUnit = some (lbool.l_True, t) ∧
      t.model.length = t.nVars ∧ ∀ x ∈ t.model, x ≠ lbool.l_Undef := by
  have h2 : Reach exTwoVars :=
    Reach.newVar _ true true (Reach.newVar _ true true Reach.fresh)
  have ha : addClause_ exTwoVars [mkLit 0 false] = some (true, exUnit) := by
    have hs : (addClause_ exTwoVars [mkLit 0 false]).isSome = true := by decide
    have h1 : ((addClause_ exTwoVars [mkLit 0 false]).getD (true, exTwoVars)).1 = true := by
      decide
    rw [eq_some_getD (true, exTwoVars) hs]
    exact congrArg some (Prod.ext h1 rfl)
  have hR : Reach exUnit := Reach.addClause exTwoVars exUnit _ true h2 (by decide) ha (by decide)
  have hd : ∀ v, v < exUnit.nVars → exUnit.decision v = true := by
    intro v hv
    have hn : exUnit.nVars = 2 := by decide
    rw [hn] at hv
    interval_cases v <;> decide
  have hsome : (solve_ exOracle 2 exFiles2 exUnit).isSome = true := by decide
  have hr : ((solve_ exOracle 2 exFiles2 exUnit).getD (lbool.l_Undef, exUnit)).1
      = lbool.l_True := by decide
  have hsolve : solve_ exOracle 2 exFiles2 exUnit = some (lbool.l_True,
      ((solve_ exOracle 2 exFiles2 exUnit).getD (lbool.l_Undef, exUnit)).2) := by
    rw [← hr]
    exact eq_some_getD (lbool.l_Undef, exUnit) hsome
  obtain ⟨g1, _, g3⟩ :=
    solve_model_is_total exOracle 2 exFiles2 exUnit _ hR.heapOK hd hsolve
  exact ⟨hR.heapOK, hd, by decide, _, hsolve, g1, g3⟩

end Glucose


namespace Glucose

/-! ## C31: the update of the LBD of a learnt clause met by `analyze` -/

theorem swapBinary_header {s t : Solver} {cr : Nat} (h : swapBinary s cr = some t) :
    t.opts = s.opts ∧ ∀ x, (t.ca x).learnt = (s.ca x).learnt ∧ (t.ca x).lbd = (s.ca x).lbd ∧
      (t.ca x).canBeDel = (s.ca x).canBeDel := by
  have key : ∀ ls, ((s.setLits cr ls).opts = s.opts ∧
      ∀ x, ((s.setLits cr ls).ca x).learnt = (s.ca x).learnt ∧
        ((s.setLits cr ls).ca x).lbd = (s.ca x).lbd ∧
        ((s.setLits cr ls).ca x).canBeDel = (s.ca x).canBeDel) := by
    intro ls
    refine ⟨rfl, fun x => ?_⟩
    unfold Solver.setLits
    by_cases hx : x = cr
    · subst hx; simp
    · simp [Function.update_noteq hx]
  unfold swapBinary at h
  split at h
  · split at h
    · split at h
      · simp only [Option.some.injEq] at h; rw [← h]; exact key _
      · simp at h
    · simp only [Option.some.injEq] at h; rw [← h]; exact ⟨rfl, fun _ => ⟨rfl, rfl, rfl⟩⟩
  · simp only [Option.some.injEq] at h; rw [← h]; exact ⟨rfl, fun _ => ⟨rfl, rfl, rfl⟩⟩

/-- **C31.**  The head of the loop body of `analyze` for the clause `cr` (reached as the
conflicting clause, `p = none`, or as the reason of `p`), with `L` the stored LBD of the
clause and `n` the LBD that `computeLBD` recomputes for it: a learnt clause with
`L > 2` and `n + 1 < L` gets the LBD `n`, and its flag `canBeDel` is cleared when
`L <= lbLBDFrozenClause`; a learnt clause with `L > 2` and `n + 1 >= L` keeps its LBD
and `canBeDel`; so does a clause with `L <= 2` and an original clause; and the LBD and
`canBeDel` of every other clause are as before. -/
theorem analyze_updates_lbd_on_reduction (s t : Solver) (cr : Nat) (p : Option Lit)
    (h : analyzeClause s cr p = some t) :
    ∃ s1, (if p.isSome then swapBinary s cr else some s) = some s1 ∧
      ((s.ca cr).learnt = true → 2 < (s.ca cr).lbd →
        (computeLBDClause s1 (s1.ca cr)).1 + 1 < (s.ca cr).lbd →
        (t.ca cr).lbd = (computeLBDClause s1 (s1.ca cr)).1 ∧
        (t.ca cr).canBeDel =
          (if (s.ca cr).lbd ≤ s.opts.lbLBDFrozenClause then false
           else (s.ca cr).canBeDel)) ∧
      ((s.ca cr).learnt = true → 2 < (s.ca cr).lbd →
        (s.ca cr).lbd ≤ (computeLBDClause s1 (s1.ca cr)).1 + 1 →
        (t.ca cr).lbd = (s.ca cr).lbd ∧ (t.ca cr).canBeDel = (s.ca cr).canBeDel) ∧
      ((s.ca cr).learnt = false ∨ (s.ca cr).lbd ≤ 2 →
        (t.ca cr).lbd = (s.ca cr).lbd ∧ (t.ca cr).canBeDel = (s.ca cr).canBeDel) ∧
      (∀ x, x ≠ cr →
        (t.ca x).lbd = (s.ca x).lbd ∧ (t.ca x).canBeDel = (s.ca x).canBeDel) ∧
      ∀ x, (t.ca x).learnt = (s.ca x).learnt := by
  unfold analyzeClause at h
  cases hs : (if p.isSome then swapBinary s cr else some s) with
  | none => rw [hs] at h; simp at h
  | some s1 =>
    rw [hs] at h
    have e1 : s1.opts = s.opts ∧ ∀ x, (s1.ca x).learnt = (s.ca x).learnt ∧
        (s1.ca x).lbd = (s.ca x).lbd ∧ (s1.ca x).canBeDel = (s.ca x).canBeDel := by
      split at hs
      · exact swapBinary_header hs
      · simp only [Option.some.injEq] at hs; rw [← hs]; exact ⟨rfl, fun _ => ⟨rfl, rfl, rfl⟩⟩
    obtain ⟨eo, e1⟩ := e1
    refine ⟨s1, rfl, ?_⟩
    dsimp only at h
    by_cases hl : (s1.ca cr).learnt = true
    · rw [if_pos hl] at h
      have hl0 : (s.ca cr).learnt = true := by rw [← (e1 cr).1]; exact hl
      by_cases h2 : 2 < (s1.ca cr).lbd
      · rw [if_pos ⟨hl, h2⟩] at h
        by_cases h3 : (computeLBDClause s1 (s1.ca cr)).1 + 1 < (s1.ca cr).lbd
        · rw [if_pos h3] at h
          simp only [Option.some.injEq] at h
          have hca : t.ca = Function.update s1.ca cr
              { (if (s1.ca cr).lbd ≤ s1.opts.lbLBDFrozenClause then
                  { s1.ca cr with canBeDel := false } else s1.ca cr) with
                lbd := (computeLBDClause s1 (s1.ca cr)).1 } := by
            rw [← h]; rfl
          have hcr : t.ca cr = { (if (s1.ca cr).lbd ≤ s1.opts.lbLBDFrozenClause then
                  { s1.ca cr with canBeDel := false } else s1.ca cr) with
                lbd := (computeLBDClause s1 (s1.ca cr)).1 } := by
            rw [hca, Function.update_same]
          have hx : ∀ x, x ≠ cr → t.ca x = s1.ca x := by
            intro x hx; rw [hca, Function.update_noteq hx]
          refine ⟨fun _ _ _ => ⟨by rw [hcr], ?_⟩, fun _ _ h4 => ?_, fun h4 => ?_,
            fun x hx2 => ?_, fun x => ?_⟩
          · rw [hcr, ← (e1 cr).2.1, ← eo, ← (e1 cr).2.2]
            split <;> rfl
          · rw [← (e1 cr).2.1] at h4; omega
          · rcases h4 with h4 | h4
            · rw [hl0] at h4; cases h4
            · rw [← (e1 cr).2.1] at h4; omega
          · rw [hx x hx2]; exact (e1 x).2
          · by_cases hx2 : x = cr
            · subst hx2
              rw [hcr, ← (e1 x).1]
              split <;> rfl
            · rw [hx x hx2]; exact (e1 x).1
        · rw [if_neg h3] at h
          simp only [Option.some.injEq] at h
          have hca : t.ca = s1.ca := by rw [← h]; rfl
          refine ⟨fun _ _ h4 => ?_, fun _ _ _ => ?_, fun _ => ?_, fun x _ => ?_, fun x => ?_⟩
          · rw [← (e1 cr).2.1] at h4; exact absurd h4 h3
          · rw [hca]; exact (e1 cr).2
          · rw [hca]; exact (e1 cr).2
          · rw [hca]; exact (e1 x).2
          · rw [hca]; exact (e1 x).1
      · have h5 : ¬ ((s1.ca cr).learnt = true ∧ 2 < (s1.ca cr).lbd) := fun h6 => h2 h6.2
        rw [if_neg h5] at h
        simp only [Option.some.injEq] at h
        have hca : t.ca = s1.ca := by rw [← h]
        refine ⟨fun _ h4 _ => ?_, fun _ h4 _ => ?_, fun _ => ?_, fun x _ => ?_, fun x => ?_⟩
        · rw [← (e1 cr).2.1] at h4; exact absurd h4 h2
        · rw [← (e1 cr).2.1] at h4; exact absurd h4 h2
        · rw [hca]; exact (e1 cr).2
        · rw [hca]; exact (e1 x).2
        · rw [hca]; exact (e1 x).1
    · rw [if_neg hl] at h
      have hl0 : ¬ (s.ca cr).learnt = true := by rw [← (e1 cr).1]; exact hl
      have key : ∀ u : Solver, (∀ x, (u.ca x).learnt = (s1.ca x).learnt ∧
          (u.ca x).lbd = (s1.ca x).lbd ∧ (u.ca x).canBeDel = (s1.ca x).canBeDel) →
          (if (u.ca cr).learnt = true ∧ 2 < (u.ca cr).lbd then
            (if (computeLBDClause u (u.ca cr)).1 + 1 < (u.ca cr).lbd then
              some { (computeLBDClause u (u.ca cr)).2 with
                ca := Function.update (computeLBDClause u (u.ca cr)).2.ca cr
                  { (if (u.ca cr).lbd ≤ (computeLBDClause u (u.ca cr)).2.opts.lbLBDFrozenClause
                      then { u.ca cr with canBeDel := false } else u.ca cr) with
                    lbd := (computeLBDClause u (u.ca cr)).1 } }
            else some (computeLBDClause u (u.ca cr)).2)
          else some u) = some t →
          ∀ x, (t.ca x).learnt = (s1.ca x).learnt ∧
          (t.ca x).lbd = (s1.ca x).lbd ∧ (t.ca x).canBeDel = (s1.ca x).canBeDel := by
        intro u hu h6
        have h7 : ¬ ((u.ca cr).learnt = true ∧ 2 < (u.ca cr).lbd) := by
          rw [(hu cr).1]; exact fun h8 => hl h8.1
        rw [if_neg h7] at h6
        simp only [Option.some.injEq] at h6
        rw [← h6]; exact hu
      have hall : ∀ x, (t.ca x).learnt = (s1.ca x).learnt ∧
          (t.ca x).lbd = (s1.ca x).lbd ∧ (t.ca x).canBeDel = (s1.ca x).canBeDel := by
        refine key _ ?_ h
        intro x
        split
        · by_cases hx : x = cr
          · subst hx; simp
          · simp [Function.update_noteq hx]
        · exact ⟨rfl, rfl, rfl⟩
      have hall2 : ∀ x, (t.ca x).learnt = (s.ca x).learnt ∧
          (t.ca x).lbd = (s.ca x).lbd ∧ (t.ca x).canBeDel = (s.ca x).canBeDel := fun x =>
        ⟨(hall x).1.trans (e1 x).1, (hall x).2.1.trans (e1 x).2.1,
          (hall x).2.2.trans (e1 x).2.2⟩
      exact ⟨fun h4 => absurd h4 hl0, fun h4 => absurd h4 hl0, fun _ => (hall2 cr).2,
        fun x _ => (hall2 x).2, fun x => (hall2 x).1⟩

/-- Witness of C31: the learnt clause 0 of `exLbd`, with the stored LBD 5 and literals on
two decision levels, gets the LBD 2 and loses `canBeDel`. -/
theorem analyze_updates_lbd_on_reduction_witness :
    analyzeClause exLbd 0 (some (mkLit 0 false)) = some exLbdAfter ∧
    (exLbd.ca 0).learnt = true ∧ (exLbd.ca 0).lbd = 5 ∧
    (exLbdAfter.ca 0).lbd = 2 ∧ (exLbdAfter.ca 0).canBeDel = false := by
  have h : analyzeClause exLbd 0 (some (mkLit 0 false)) = some exLbdAfter :=
    eq_some_getD exLbd (by decide)
  obtain ⟨s1, h1, h2, -⟩ :=
    analyze_updates_lbd_on_reduction exLbd exLbdAfter 0 (some (mkLit 0 false)) h
  have e1 : s1 = exLbd := by
    have : (if (some (mkLit 0 false)).isSome then swapBinary exLbd 0 else some exLbd)
        = some exLbd := rfl
    rw [this] at h1
    exact (Option.some.inj h1).symm
  subst e1
  have h3 := h2 (by decide) (by decide) (by decide)
  refine ⟨h, by decide, by decide, ?_, ?_⟩
  · rw [h3.1]; decide
  · rw [h3.2]; decide


/-! ## C40: the reduce-DB step of `search` -/

theorem reduceDB_threshold (o : Oracle) (s : Solver) (hne : s.learnts ≠ []) :
    ∃ t, reduceDB o s = some t ∧ s.nbclausesbeforereduce ≤ t.nbclausesbeforereduce ∧
      t.stats.conflicts = s.stats.conflicts ∧ t.curRestart = s.curRestart ∧
      t.opts = s.opts := by
  obtain ⟨mid, last, S2, kept, t4, h1, h2, _, _, _, _, _, _, _, h10, h11, h12⟩ :=
    reduceDB_parts o s hne
  obtain ⟨_, t1, hl, hf, _⟩ := reduceDBLoop_db (sortLearnts o s) 0
    ((sortLearnts o s).length / 2) [] S2
  rw [h11] at hl
  simp only [Option.some.injEq, Prod.mk.injEq] at hl
  have hsc := reduceDB_scalars h12
  simp only [Solver.scalars, Prod.mk.injEq] at hsc
  refine ⟨_, h12, ?_, hsc.2.2.2.2.2.2.2.1, hsc.2.2.2.2.2.2.2.2.2.2.2.2.2.2.2.1, hsc.2.1⟩
  rw [(checkGarbage_frame o _).2.2.2.2.2.2.2.2.2.2]
  show _ ≤ t4.nbclausesbeforereduce
  rw [hl.2, hf.nbc, h10]
  omega

/-- **C40.**  The reduce-DB step of `search` on a non-empty list of learnt clauses.
When `nbclausesbeforereduce >= 1` and the trigger `conflicts >= curRestart *
nbclausesbeforereduce` holds, the step completes (the division is defined), it does
not change `conflicts`, and afterwards `conflicts < curRestart *
nbclausesbeforereduce`: the trigger is false until a further conflict.  When
`nbclausesbeforereduce = 0` (the value `firstReduceDB = 0` gives it) the trigger holds
whatever `conflicts` and `curRestart` are, and the step aborts in the division by
zero. -/
theorem reduceStep_trigger_false_afterwards (o : Oracle) (s : Solver)
    (hne : s.learnts ≠ []) :
    (1 ≤ s.nbclausesbeforereduce →
      s.curRestart * s.nbclausesbeforereduce ≤ s.stats.conflicts →
      ∃ t, reduceStep o s = some t ∧ t.stats.conflicts = s.stats.conflicts ∧
        t.stats.conflicts < t.curRestart * t.nbclausesbeforereduce) ∧
    (s.nbclausesbeforereduce = 0 →
      s.curRestart * s.nbclausesbeforereduce ≤ s.stats.conflicts ∧
      reduceStep o s = none) := by
  have hlen : 0 < s.learnts.length := List.length_pos.mpr hne
  constructor
  · intro hpos htrig
    obtain ⟨s2, h2, hge, hc, hr, _⟩ := reduceDB_threshold o
      { s with curRestart := s.stats.conflicts / s.nbclausesbeforereduce + 1 } hne
    refine ⟨{ s2 with nbclausesbeforereduce :=
                     s2.nbclausesbeforereduce + s2.opts.incReduceDB }, ?_, hc, ?_⟩
    · unfold reduceStep
      rw [if_pos htrig, if_pos hlen, if_neg (by omega)]
      dsimp only
      rw [h2]
    · show s2.stats.conflicts < s2.curRestart *
        (s2.nbclausesbeforereduce + s2.opts.incReduceDB)
      rw [hc, hr]
      show s.stats.conflicts < (s.stats.conflicts / s.nbclausesbeforereduce + 1) * _
      have hge2 : s.nbclausesbeforereduce ≤ s2.nbclausesbeforereduce := hge
      have k1 : s.stats.conflicts <
          (s.stats.conflicts / s.nbclausesbeforereduce + 1) * s.nbclausesbeforereduce := by
        have := Nat.lt_succ_iff.mpr (le_refl (s.stats.conflicts / s.nbclausesbeforereduce))
        rw [Nat.div_lt_iff_lt_mul (by omega)] at this
        exact this
      exact lt_of_lt_of_le k1 (Nat.mul_le_mul_left _ (by omega))
  · intro h0
    refine ⟨by rw [h0]; simp, ?_⟩
    unfold reduceStep
    rw [if_pos (by rw [h0]; simp), if_pos hlen, if_pos h0]

/-- Witness of C40: the step on `exReduce` (2000 conflicts, threshold 2000), and on the
same state with the threshold 0. -/
theorem reduceStep_trigger_false_afterwards_witness :
    exReduce.learnts ≠ [] ∧ exReduceZero.learnts ≠ [] ∧
    (∃ t, reduceStep exOracle exReduce = some t ∧
        t.stats.conflicts = exReduce.stats.conflicts ∧
        t.stats.conflicts < t.curRestart * t.nbclausesbeforereduce) ∧
    reduceStep exOracle exReduceZero = none :=
  ⟨by decide, by decide,
    (reduceStep_trigger_false_afterwards exOracle exReduce (by decide)).1
      (by decide) (by decide),
    ((reduceStep_trigger_false_afterwards exOracle exReduceZero (by decide)).2
      (by decide)).2⟩


/-! ## C37: the index `cmtys[i] + 1` of the table `cmtycentrality` -/

theorem fillCentrality_isSome : ∀ (l : List Nat) (s : Solver),
    (fillCentrality l s).isSome = true ↔ ∀ i ∈ l, s.inTable (s.cmtys i + 1) = true := by
  intro l
  induction l with
  | nil => intro s; simp [fillCentrality]
  | cons i rest ih =>
    intro s
    rw [fillCentrality]
    by_cases hi : s.inTable (s.cmtys i + 1) = true
    · rw [if_pos hi]
      dsimp only
      rw [ih]
      constructor
      · intro h j hj
        rcases List.mem_cons.mp hj with e | hj
        · rw [e]; exact hi
        · exact h j hj
      · intro h j hj
        exact h j (List.mem_cons_of_mem _ hj)
    · rw [if_neg hi]
      constructor
      · intro h; simp at h
      · intro h; exact absurd (h i (List.mem_cons_self _ _)) hi

/-- **C37.**  The loop of `solve_` that reads `cmtycentrality[cmtys[i] + 1]` for every
variable `i` (the table has `nVars` entries) completes exactly when every index
`cmtys[i] + 1` is inside the table; for community identifiers that are not negative, as
the community file and `newVar` give them, exactly when every community identifier is at
most `nVars - 2`.  The loop aborts for one variable in the community 0, and whenever a
variable has the community identifier `nVars - 1`: the index is then `nVars`, one past
the end of the table. -/
theorem centrality_lookup_in_bounds_iff (s : Solver) :
    ((fillCentrality (List.range s.nVars) s).isSome = true ↔
      ∀ i, i < s.nVars → 0 ≤ s.cmtys i + 1 ∧ s.cmtys i ≤ (s.nVars : Int) - 2) ∧
    ((∀ i, i < s.nVars → 0 ≤ s.cmtys i) →
      ((fillCentrality (List.range s.nVars) s).isSome = true ↔
        ∀ i, i < s.nVars → s.cmtys i ≤ (s.nVars : Int) - 2)) ∧
    (s.nVars = 1 → s.cmtys 0 = 0 →
      s.cmtys 0 + 1 = (s.nVars : Int) ∧ fillCentrality (List.range s.nVars) s = none) ∧
    (∀ i, i < s.nVars → s.cmtys i = (s.nVars : Int) - 1 →
      s.cmtys i + 1 = (s.nVars : Int) ∧ fillCentrality (List.range s.nVars) s = none) := by
  have main : (fillCentrality (List.range s.nVars) s).isSome = true ↔
      ∀ i, i < s.nVars → 0 ≤ s.cmtys i + 1 ∧ s.cmtys i ≤ (s.nVars : Int) - 2 := by
    rw [fillCentrality_isSome]
    constructor
    · intro h i hi
      have := h i (List.mem_range.mpr hi)
      simp only [Solver.inTable, decide_eq_true_eq] at this
      omega
    · intro h i hi
      have := h i (List.mem_range.mp hi)
      simp only [Solver.inTable, decide_eq_true_eq]
      omega
  have last : ∀ i, i < s.nVars → s.cmtys i = (s.nVars : Int) - 1 →
      s.cmtys i + 1 = (s.nVars : Int) ∧ fillCentrality (List.range s.nVars) s = none := by
    intro i hi hc
    refine ⟨by omega, ?_⟩
    cases hf : fillCentrality (List.range s.nVars) s with
    | none => rfl
    | some t =>
      have h1 := main.mp (by rw [hf]; rfl) i hi
      omega
  refine ⟨main, fun hc => ?_, fun h1 h0 => ?_, last⟩
  · rw [main]
    constructor
    · intro h i hi; exact (h i hi).2
    · intro h i hi
      have := hc i hi
      exact ⟨by omega, h i hi⟩
  · exact last 0 (by omega) (by rw [h0, h1]; rfl)

/-- Witness of C37: with one variable in the community 0 the loop aborts; with two
variables in the community 0 it completes. -/
theorem centrality_lookup_in_bounds_iff_witness :
    exOneVar.nVars = 1 ∧ exOneVar.cmtys 0 = 0 ∧
    fillCentrality (List.range exOneVar.nVars) exOneVar = none ∧
    ((fillCentrality (List.range exTwoVars.nVars) exTwoVars).isSome = true ↔
      ∀ i, i < exTwoVars.nVars → exTwoVars.cmtys i ≤ (exTwoVars.nVars : Int) - 2) :=
  ⟨by decide, by decide,
    ((centrality_lookup_in_bounds_iff exOneVar).2.2.1 (by decide) (by decide)).2,
    (centrality_lookup_in_bounds_iff exTwoVars).2.1
      (fun i hi => by
        have h2 : i < 2 := hi
        interval_cases i <;> decide)⟩


/-! ## C34: the reason of a literal implied by a binary clause outlives the clause -/

/-- **C34 (the code does not do this).**  In the state `exBinReason`, reached by
`newVar`, `newVar`, `addClause_ [x0, x1]` and `addClause_ [¬x0]` (which propagates), the
clause 0 reads `[x0, x1]` and is the reason of `x1`, the literal at its position 1.
The clause is not locked, and `removeClause` only ever resets the reason of the variable
of the first literal, `x0`: after `removeClause(0)`, and after `simplify`, which removes
the satisfied clause 0 from `clauses`, the clause is marked deleted and the reason of
the variable 1 is still the clause 0. -/
theorem removeClause_leaves_binary_reason :
    (addClause_ exChain1 [mkLit 0 true]).isSome = true ∧
    (exBinReason.ca 0).lits = [mkLit 0 false, mkLit 1 false] ∧
    exBinReason.clauses = [0] ∧
    exBinReason.decisionLevel = 0 ∧
    exBinReason.value (mkLit 1 false) = lbool.l_True ∧
    exBinReason.reason 1 = some 0 ∧
    exBinReason.locked 0 = false ∧
    (removeClause exBinReason 0 false).map (fun t => ((t.ca 0).mark, t.reason 1))
      = some (1, some 0) ∧
    (simplify exOracle exBinReason).map
      (fun r => (r.1, r.2.clauses, (r.2.ca 0).mark, r.2.reason 1))
      = some (true, [], 1, some 0) := by
  decide


/-! ## C38: propagation and conflict analysis only re-order literals -/

/-- **C38.**  When `t` is the state in which `propagate`, `analyze` or `litRedundant`
returns from the state `s`: for every clause reference the clause has the same size and
the same multiset of literals in `t` as in `s`, the same deletion mark (no clause is
deleted) and the same flag `learnt`; the arena has the same size and the lists
`clauses`, `learnts` and `unaryWatchedClauses` are the same (no clause is created). -/
theorem propagate_analyze_only_reorder (s t : Solver)
    (h : (∃ confl, propagate s = some (confl, t)) ∨
      (∃ confl r, analyze s confl = some r ∧ r.state = t) ∨
      (∃ p abs b, litRedundant s p abs = some (b, t))) :
    (∀ cr, (t.ca cr).lits.length = (s.ca cr).lits.length ∧
      Multiset.ofList (t.ca cr).lits = Multiset.ofList (s.ca cr).lits ∧
      (t.ca cr).mark = (s.ca cr).mark ∧ (t.ca cr).learnt = (s.ca cr).learnt) ∧
    t.caSize = s.caSize ∧ t.clauses = s.clauses ∧ t.learnts = s.learnts ∧
    t.unaryWatchedClauses = s.unaryWatchedClauses := by
  apply shape_fields
  rcases h with ⟨confl, h⟩ | ⟨confl, r, h, e⟩ | ⟨p, abs, b, h⟩
  · exact propagate_shape h
  · rw [← e]; exact analyze_shape h
  · exact litRedundant_shape h

/-- Witness of C38: `propagate` on `exBinState`, which returns a conflict; `analyze` on
that conflict; and `litRedundant` for the literal `x0` of `exLockedLearnt`, implied by
the clause 0. -/
theorem propagate_analyze_only_reorder_witness :
    (∃ t, (∃ confl, propagate exBinState = some (confl, t)) ∧
      ∀ cr, Multiset.ofList (t.ca cr).lits = Multiset.ofList (exBinState.ca cr).lits) ∧
    (∃ t, (∃ r, analyze exConflict 1 = some r ∧ r.state = t) ∧
      ∀ cr, Multiset.ofList (t.ca cr).lits = Multiset.ofList (exConflict.ca cr).lits) ∧
    (∃ t, (∃ b, litRedundant exLockedLearnt (mkLit 0 false) [] = some (b, t)) ∧
      ∀ cr, Multiset.ofList (t.ca cr).lits =
        Multiset.ofList (exLockedLearnt.ca cr).lits) := by
  have h1 : propagate exBinState = some ((propagate exBinState).getD (none, exBinState)) :=
    eq_some_getD _ (by decide)
  have h2 : ∃ r, analyze exConflict 1 = some r :=
    Option.isSome_iff_exists.mp (by decide)
  have h3 : litRedundant exLockedLearnt (mkLit 0 false) [] =
      some ((litRedundant exLockedLearnt (mkLit 0 false) []).getD (false, exLockedLearnt)) :=
    eq_some_getD _ (by decide)
  obtain ⟨r, h2⟩ := h2
  refine ⟨⟨_, ⟨_, h1⟩, fun cr => ?_⟩, ⟨_, ⟨r, h2, rfl⟩, fun cr => ?_⟩,
    ⟨_, ⟨_, h3⟩, fun cr => ?_⟩⟩
  · exact ((propagate_analyze_only_reorder _ _ (Or.inl ⟨_, h1⟩)).1 cr).2.1
  · exact ((propagate_analyze_only_reorder _ _ (Or.inr (Or.inl ⟨1, r, h2, rfl⟩))).1 cr).2.1
  · exact ((propagate_analyze_only_reorder _ _ (Or.inr (Or.inr ⟨_, _, _, h3⟩))).1 cr).2.1


/-! ## C32: the marks of `litRedundant` -/

/-- **C32.**  For every state `s`, every literal `p` and every `abstract_levels`, when
`litRedundant(p, abstract_levels)` returns in the state `t`: if the answer is `false`,
`seen` and `analyze_toclear` are in `t` exactly as in `s`; if the answer is `true`,
`analyze_toclear` has grown by a list `added` of literals, and the variables whose mark
in `seen` went from 0 to 1 are exactly the variables of the literals of `added`; no mark
went from 1 to 0. -/
theorem litRedundant_marks_are_toclear (s t : Solver) (p : Lit) (abs : List Nat) (b : Bool)
    (h : litRedundant s p abs = some (b, t)) :
    (b = false → t.seen = s.seen ∧ t.analyze_toclear = s.analyze_toclear) ∧
    (b = true → ∃ added, t.analyze_toclear = s.analyze_toclear ++ added ∧
      (∀ v, (s.seen v = false ∧ t.seen v = true) ↔ ∃ l ∈ added, l.var = v) ∧
      ∀ v, s.seen v = true → t.seen v = true) := by
  have h1 := litRedundant_added h
  refine ⟨h1.1, fun hb => ?_⟩
  obtain ⟨added, a, b1, c⟩ := h1.2 hb
  refine ⟨added, a, fun v => ?_, fun v hv => (c v).mpr (Or.inl hv)⟩
  constructor
  · rintro ⟨h2, h3⟩
    rcases (c v).mp h3 with h4 | h4
    · rw [h2] at h4; cases h4
    · exact h4
  · rintro ⟨l, hl, e⟩
    exact ⟨by rw [← e]; exact b1 l hl, (c v).mpr (Or.inr ⟨l, hl, e⟩)⟩

/-- Witness of C32.  In `exRedChain` the literal `x0` is redundant: the call marks the
variable 1 and adds `¬x1` to `analyze_toclear`.  In `exLockedLearnt` the literal `x0` is
not redundant, its reason holding a decision. -/
theorem litRedundant_marks_are_toclear_witness :
    (∃ t, litRedundant exRedChain (mkLit 0 false) [1] = some (true, t) ∧
      ∃ added, t.analyze_toclear = exRedChain.analyze_toclear ++ added ∧
        (∀ v, (exRedChain.seen v = false ∧ t.seen v = true) ↔ ∃ l ∈ added, l.var = v) ∧
        ∀ v, exRedChain.seen v = true → t.seen v = true) ∧
    (∃ t, litRedundant exLockedLearnt (mkLit 0 false) [] = some (false, t) ∧
      t.seen = exLockedLearnt.seen ∧
      t.analyze_toclear = exLockedLearnt.analyze_toclear) := by
  obtain ⟨⟨b1, t1⟩, h1⟩ := Option.isSome_iff_exists.mp
    (by decide : (litRedundant exRedChain (mkLit 0 false) [1]).isSome = true)
  have e1 : (litRedundant exRedChain (mkLit 0 false) [1]).map Prod.fst = some true := by
    decide
  rw [h1] at e1
  simp only [Option.map_some', Option.some.injEq] at e1
  subst e1
  obtain ⟨⟨b2, t2⟩, h2⟩ := Option.isSome_iff_exists.mp
    (by decide : (litRedundant exLockedLearnt (mkLit 0 false) []).isSome = true)
  have e2 : (litRedundant exLockedLearnt (mkLit 0 false) []).map Prod.fst = some false := by
    decide
  rw [h2] at e2
  simp only [Option.map_some', Option.some.injEq] at e2
  subst e2
  exact ⟨⟨t1, h1,
      (litRedundant_marks_are_toclear exRedChain t1 (mkLit 0 false) [1] true h1).2 rfl⟩,
    ⟨t2, h2,
      (litRedundant_marks_are_toclear exLockedLearnt t2 (mkLit 0 false) [] false h2).1 rfl⟩⟩


/-! ## C39: `wsortingtwo` sorts, permutes and is stable -/

/-- **C39.**  For all tables `number` and `pointnumber` and every length `n`, after
`wsortingtwo(number, pointnumber, n)`: when the keys are compared in a total order (no
key below `n` is NaN), the first `n` keys are in ascending order (no key is greater than
a later one); the list of the pairs `(number[i], pointnumber[i])`, `i < n`, is a
permutation of the list before the call; for every key `k`, the pairs whose key equals
`k` are the same and in the same order before and after the call; and the entries from
`n` on are not written. -/
theorem wsortingtwo_sorted_perm_stable (number : Nat → Double) (pointnumber : Nat → Int)
    (n : Nat) :
    ((∀ i, i < n → number i ≠ Double.nan) → ∀ a b, a < b → b < n →
      Double.gt ((wsortingtwo number pointnumber n).1 a)
        ((wsortingtwo number pointnumber n).1 b) = false) ∧
    ((List.range n).map (fun i =>
        ((wsortingtwo number pointnumber n).1 i,
         (wsortingtwo number pointnumber n).2 i))).Perm
      ((List.range n).map (fun i => (number i, pointnumber i))) ∧
    (∀ k : Double,
      ((List.range n).map (fun i =>
          ((wsortingtwo number pointnumber n).1 i,
           (wsortingtwo number pointnumber n).2 i))).filter
          (fun x => Double.eq x.1 k) =
        ((List.range n).map (fun i => (number i, pointnumber i))).filter
          (fun x => Double.eq x.1 k)) ∧
    (∀ i, n ≤ i → (wsortingtwo number pointnumber n).1 i = number i ∧
      (wsortingtwo number pointnumber n).2 i = pointnumber i) := by
  obtain ⟨hperm, hsorted⟩ := wsortingtwo_spec number pointnumber n
  refine ⟨hsorted, hperm, fun k => ?_, fun i hi => ?_⟩
  · unfold wsortingtwo
    apply sortingtwoBy_stable
    intro x y hx hy
    exact Double.not_gt_of_eq x.1 y.1 k hx hy
  · unfold wsortingtwo
    exact sortingtwoBy_outside _ number pointnumber n i hi

/-- Witness of C39: the keys 2, 1, 2 with the variables 10, 11, 12 are sorted to the
keys 1, 2, 2 with the variables 11, 10, 12; the two pairs of key 2 keep their order. -/
theorem wsortingtwo_sorted_perm_stable_witness :
    (∀ i, i < 3 → exKeys i ≠ Double.nan) ∧
    (∀ a b, a < b → b < 3 →
      Double.gt ((wsortingtwo exKeys exPtrs 3).1 a) ((wsortingtwo exKeys exPtrs 3).1 b)
        = false) ∧
    (List.range 3).map (fun i =>
        ((wsortingtwo exKeys exPtrs 3).1 i, (wsortingtwo exKeys exPtrs 3).2 i))
      = [(Double.ofNat 1, 11), (Double.ofNat 2, 10), (Double.ofNat 2, 12)] := by
  have hn : ∀ i, i < 3 → exKeys i ≠ Double.nan := by
    intro i hi
    interval_cases i <;> decide
  exact ⟨hn, (wsortingtwo_sorted_perm_stable exKeys exPtrs 3).1 hn, by decide⟩


/-! ## C33: the literals dropped by the minimisation with binary resolution -/

/-- **C33.**  In a state where no stamp of `permDiff` is above `MYFLAG` (as in every
state of the solver), for every clause `o0 :: rest` with pairwise distinct variables
whose literals after the first are false: `minimisationWithBinaryResolution` returns a
clause `o0 :: rest2`, the first literal in place, where `rest2` together with a list
`dropped` is a permutation of `rest` (a sub-multiset is returned).  When the LBD of the
clause is at most `lbLBDMinimizingClause`, a literal `l` of `rest` is dropped if and
only if the binary watch list of `¬o0` holds a watcher whose blocker is `¬l`; when the
LBD is greater, the clause is returned unchanged.  And in `analyze`, when the clause
left by the minimisation according to `ccmin_mode` has more than
`lbSizeMinimizingClause` literals, that clause and state are the result: the routine is
not called. -/
theorem binary_minimisation_drops_exactly (s : Solver) (o0 : Lit) (rest : List Lit)
    (hst : ∀ x, s.permDiff x ≤ s.MYFLAG) (hnd : ((o0 :: rest).map Lit.var).Nodup)
    (hfalse : ∀ l ∈ rest, s.value l = lbool.l_False) :
    (∃ rest2 dropped t,
      minimisationWithBinaryResolution s (o0 :: rest) = some (o0 :: rest2, t) ∧
      (rest2 ++ dropped).Perm rest ∧
      ((computeLBD s (o0 :: rest) (-1)).1 ≤ s.opts.lbLBDMinimizingClause →
        ∀ l ∈ rest, ((l ∉ rest2 ↔ ∃ w ∈ s.watchesBin.occs o0.neg, w.blocker = l.neg) ∧
          (l ∈ dropped ↔ l ∉ rest2))) ∧
      (s.opts.lbLBDMinimizingClause < (computeLBD s (o0 :: rest) (-1)).1 →
        rest2 = rest)) ∧
    (∀ (p : Lit) (out sel kept : List Lit) (s2 : Solver),
      (if s.opts.ccmin_mode = 2 then
          minimizeDeep (abstractLevels { s with analyze_toclear := p.neg :: (out ++ sel) }
            (out ++ sel)) (out ++ sel) [] { s with analyze_toclear := p.neg :: (out ++ sel) }
        else if s.opts.ccmin_mode = 1 then
          some (minimizeBasic { s with analyze_toclear := p.neg :: (out ++ sel) }
            (out ++ sel), { s with analyze_toclear := p.neg :: (out ++ sel) })
        else some (out ++ sel, { s with analyze_toclear := p.neg :: (out ++ sel) }))
        = some (kept, s2) →
      s2.opts.lbSizeMinimizingClause < (p.neg :: kept).length →
      analyzeMinimize s p out sel = some (p.neg :: kept,
        { s2 with stats := { s2.stats with
            max_literals := s2.stats.max_literals + (p.neg :: (out ++ sel)).length,
            tot_literals := s2.stats.tot_literals + (kept.length + 1) } })) := by
  constructor
  · have hnd2 : (rest.map Lit.var).Nodup := by
      simp only [List.map_cons, List.nodup_cons] at hnd
      exact hnd.2
    have hnd3 : rest.Nodup := List.Nodup.of_map _ hnd2
    obtain ⟨rest2, dropped, t, h1, h2, h3, h4⟩ :=
      minimisationWithBinaryResolution_dropped hst hnd2 hfalse
    have hnd4 : (rest2 ++ dropped).Nodup := h2.nodup_iff.mpr hnd3
    have hiff : ∀ l ∈ rest, (l ∈ dropped ↔ l ∉ rest2) := by
      intro l hl
      have hmem : l ∈ rest2 ++ dropped := h2.symm.subset hl
      constructor
      · intro hd hr
        exact (List.nodup_append.mp hnd4).2.2 hr hd
      · intro hr
        rcases List.mem_append.mp hmem with h5 | h5
        · exact absurd h5 hr
        · exact h5
    refine ⟨rest2, dropped, t, h1, h2, fun hl l hm => ⟨?_, hiff l hm⟩, fun hl => (h4 hl).1⟩
    rw [← hiff l hm]
    exact h3 hl l hm
  · intro p out sel kept s2 hr hsize
    unfold analyzeMinimize
    dsimp only
    rw [hr]
    dsimp only
    rw [if_neg]
    intro hc
    simp only [List.length_cons] at hsize
    have := hc.2
    omega

/-- Witness of C33: in `exBinMin` the clause `[x0, x1, x2]` loses `x1`, the binary
clause `[x0, ¬x1]` being attached. -/
theorem binary_minimisation_drops_exactly_witness :
    (minimisationWithBinaryResolution exBinMin
        [mkLit 0 false, mkLit 1 false, mkLit 2 false]).map Prod.fst
      = some [mkLit 0 false, mkLit 2 false] ∧
    ∃ rest2 dropped t,
      minimisationWithBinaryResolution exBinMin
        (mkLit 0 false :: [mkLit 1 false, mkLit 2 false]) = some (mkLit 0 false :: rest2, t) ∧
      (rest2 ++ dropped).Perm [mkLit 1 false, mkLit 2 false] ∧
      ((computeLBD exBinMin (mkLit 0 false :: [mkLit 1 false, mkLit 2 false]) (-1)).1
          ≤ exBinMin.opts.lbLBDMinimizingClause →
        ∀ l ∈ [mkLit 1 false, mkLit 2 false],
          ((l ∉ rest2 ↔ ∃ w ∈ exBinMin.watchesBin.occs (mkLit 0 false).neg,
              w.blocker = l.neg) ∧
            (l ∈ dropped ↔ l ∉ rest2))) ∧
      (exBinMin.opts.lbLBDMinimizingClause <
          (computeLBD exBinMin (mkLit 0 false :: [mkLit 1 false, mkLit 2 false]) (-1)).1 →
        rest2 = [mkLit 1 false, mkLit 2 false]) :=
  ⟨by decide,
    (binary_minimisation_drops_exactly exBinMin (mkLit 0 false)
      [mkLit 1 false, mkLit 2 false] (fun _ => Nat.zero_le _) (by decide) (by decide)).1⟩


/-! ## C36: the count of the bridges -/

/-- **C36.**  When the loops of `solve_` over the clauses of `clauses` run to the end
from a state `s` in which no bridge is counted yet (`bridges` all false, `numbridges` and
`cmtybridges` all zero, as `newVar` leaves them) and the variables of the clauses are
below `nVars`: for every variable `v`, `bridges[v]` is true if and only if some clause
of `clauses` contains a literal of `v` together with a literal whose variable is in
another community; `numbridges[v]` is the number of pairs of positions `j < k`, over all
clauses, in which `v` is a member and the communities of the two variables differ; and
for every community `c`, `cmtybridges[c]` is the number of variables of the community
`c` with `bridges` true.  The communities and the clauses are not written. -/
theorem bridges_count_cross_community (s t : Solver)
    (h : bridgeClauses s.clauses s = some t)
    (hb : ∀ v, s.bridges v = false) (hn : ∀ v, s.numbridges v = 0)
    (hc : ∀ c, s.cmtybridges c = 0)
    (hv : ∀ cr ∈ s.clauses, ∀ l ∈ (s.ca cr).lits, l.var < s.nVars) :
    (∀ v, t.bridges v = true ↔
      ∃ cr ∈ s.clauses, ∃ l1 ∈ (s.ca cr).lits, ∃ l2 ∈ (s.ca cr).lits,
        l1.var = v ∧ s.cmtys l2.var ≠ s.cmtys v) ∧
    (∀ v, t.numbridges v = (bridgePairCount s v : Int)) ∧
    (∀ c : Nat, t.cmtybridges c = (bridgesInCmty t c : Int)) ∧
    t.cmtys = s.cmtys ∧ t.nVars = s.nVars ∧ t.clauses = s.clauses ∧ t.ca = s.ca := by
  have hi := bridgeClauses_spec h hb hn hc hv
  refine ⟨fun v => ?_, fun v => ?_, hi.cmtybridges, hi.cmtys, hi.nVars, hi.clauses, hi.ca⟩
  · rw [hi.bridges v]
    constructor
    · rintro (h1 | ⟨⟨a, b⟩, hp, hcp⟩)
      · rw [hb v] at h1; cases h1
      · obtain ⟨L, hL, hpL⟩ := List.mem_flatten.mp hp
        obtain ⟨cr, hcr, e⟩ := List.mem_map.mp hL
        rw [← e] at hpL
        obtain ⟨ma, mb⟩ := (mem_litPairs _ a b).1 hpL
        simp only [crossPair, Bool.and_eq_true, Bool.or_eq_true, decide_eq_true_eq] at hcp
        rcases hcp.1 with h1 | h1
        · exact ⟨cr, hcr, a, ma, b, mb, h1, by rw [← h1]; exact fun e2 => hcp.2 e2.symm⟩
        · exact ⟨cr, hcr, b, mb, a, ma, h1, by rw [← h1]; exact hcp.2⟩
    · rintro ⟨cr, hcr, l1, m1, l2, m2, e, hne⟩
      right
      have hne2 : l1 ≠ l2 := by
        intro e2
        apply hne
        rw [← e, e2]
      rcases (mem_litPairs _ l1 l2).2 m1 m2 hne2 with h1 | h1
      · refine ⟨(l1, l2), List.mem_flatten.mpr ⟨_, List.mem_map.mpr ⟨cr, hcr, rfl⟩, h1⟩, ?_⟩
        simp only [crossPair, Bool.and_eq_true, Bool.or_eq_true, decide_eq_true_eq]
        exact ⟨Or.inl e, by rw [e]; exact fun e2 => hne e2.symm⟩
      · refine ⟨(l2, l1), List.mem_flatten.mpr ⟨_, List.mem_map.mpr ⟨cr, hcr, rfl⟩, h1⟩, ?_⟩
        simp only [crossPair, Bool.and_eq_true, Bool.or_eq_true, decide_eq_true_eq]
        exact ⟨Or.inr e, by rw [e]; exact hne⟩
  · rw [hi.numbridges v, hn v, countP_flatten_sum, List.map_map, zero_add]
    rfl

/-- Witness of C36: the clause `[x0, x1, x2]` with `x1` alone in the community 1.  All
three variables are bridges; `x1` is in two pairs across communities, `x0` and `x2` in
one; the community 0 has two bridges and the community 1 has one. -/
theorem bridges_count_cross_community_witness :
    (bridgeClauses exBridge.clauses exBridge).map
      (fun t => ([0, 1, 2].map t.bridges, [0, 1, 2].map t.numbridges,
        [0, 1].map t.cmtybridges))
      = some ([true, true, true], [1, 2, 1], [2, 1]) ∧
    ∃ t, bridgeClauses exBridge.clauses exBridge = some t ∧
      (∀ v, t.bridges v = true ↔
        ∃ cr ∈ exBridge.clauses, ∃ l1 ∈ (exBridge.ca cr).lits,
          ∃ l2 ∈ (exBridge.ca cr).lits,
            l1.var = v ∧ exBridge.cmtys l2.var ≠ exBridge.cmtys v) ∧
      (∀ v, t.numbridges v = (bridgePairCount exBridge v : Int)) ∧
      (∀ c : Nat, t.cmtybridges c = (bridgesInCmty t c : Int)) := by
  have h : bridgeClauses exBridge.clauses exBridge =
      some ((bridgeClauses exBridge.clauses exBridge).getD exBridge) :=
    eq_some_getD _ (by decide)
  have h2 := bridges_count_cross_community exBridge _ h (fun _ => rfl) (fun _ => rfl)
    (fun _ => rfl) (by decide)
  exact ⟨by decide, _, h, h2.1, h2.2.1, h2.2.2.1⟩


/-! ## C35: the conflict branch of `search` -/

/-- **C35.**  In a conflict state `s` (decision level above 0, `ConflictState`) the
conflict branch of `search` runs to the end: `analyze` returns a learnt clause
`o0 :: rest` and a backtrack level `b` below the current level, and in the state `t` in
which the branch ends: `decisionLevel() = b`; `o0` is true at the level `b`; the
literals of `rest` are false.  For a unit clause `o0` has no reason and `learnts`, the
arena and its size are those left by `analyze`.  Otherwise one clause is stored at the
end of the arena, a learnt clause with the literals `o0 :: rest` and the LBD of the
analysis; its reference is appended to `learnts`; the watch lists (the binary ones for
a clause of two literals) of the negations of its first two literals hold a watcher of
it; and it is the reason of `o0`. -/
theorem search_conflict_installs_asserting_clause (confl conflictC : Nat) (blocked : Bool)
    (s : Solver) (h : ConflictState s confl) :
    ∃ r t,
      analyze (blockRestartStep blocked
        { countConflict s with
          trailQueue := (countConflict s).trailQueue.push (countConflict s).trail.length })
        confl = some r ∧
      (∃ b1, searchConflict confl conflictC blocked s
        = some (SearchStep.next (conflictC + 1) b1 t)) ∧
      ∃ o0 rest, r.out_learnt = o0 :: rest ∧ r.out_btlevel < s.decisionLevel ∧
        t.decisionLevel = r.out_btlevel ∧
        t.value o0 = lbool.l_True ∧ t.level o0.var = r.out_btlevel ∧
        (∀ x ∈ rest, t.value x = lbool.l_False) ∧
        (rest = [] → t.reason o0.var = none ∧ t.learnts = s.learnts ∧
          t.caSize = s.caSize ∧ t.ca = r.state.ca) ∧
        (∀ o1 tl, rest = o1 :: tl →
          t.learnts = s.learnts ++ [s.caSize] ∧ t.caSize = s.caSize + 1 ∧
          (∀ x, x ≠ s.caSize → t.ca x = r.state.ca x) ∧
          (t.ca s.caSize).lits = o0 :: rest ∧ (t.ca s.caSize).lbd = r.lbd ∧
          (t.ca s.caSize).learnt = true ∧ (t.ca s.caSize).mark = 0 ∧
          t.reason o0.var = some s.caSize ∧
          (tl = [] → (⟨s.caSize, o1⟩ : Watcher) ∈ t.watchesBin.occs o0.neg ∧
            (⟨s.caSize, o0⟩ : Watcher) ∈ t.watchesBin.occs o1.neg) ∧
          (tl ≠ [] → (⟨s.caSize, o1⟩ : Watcher) ∈ t.watches.occs o0.neg ∧
            (⟨s.caSize, o0⟩ : Watcher) ∈ t.watches.occs o1.neg)) := by
  have e3 : (blockRestartStep blocked
      { countConflict s with
        trailQueue := (countConflict s).trailQueue.push (countConflict s).trail.length }).body
      = s.body := (blockRestartStep_body blocked _).trans rfl
  generalize hs3 : blockRestartStep blocked
      { countConflict s with
        trailQueue := (countConflict s).trailQueue.push (countConflict s).trail.length }
      = s3 at e3
  have hb3 := e3
  unfold Solver.body at hb3
  simp only [Prod.mk.injEq] at hb3
  obtain ⟨_, _, a3, a4, _, _, _, _, a9, a10, _, a12, a13, _, a15, _⟩ := hb3
  have hcs3 := h.conflict_of_body e3
  have hd3 : s3.decisionLevel = s.decisionLevel := by
    unfold Solver.decisionLevel
    rw [a10]
  obtain ⟨r, ha, f, _, o0, rest, hr, hv0, hl0, hrest, hb0, hb1⟩ := analyze_spec hcs3
  have hcore := analyze_core ha
  unfold Solver.core at hcore
  simp only [Prod.mk.injEq] at hcore
  obtain ⟨_, _, _, q3, _⟩ := scalars_opts (analyze_scalars ha)
  have hbt3 : r.out_btlevel < s3.decisionLevel := by
    cases rest with
    | nil => rw [hb0 rfl]; exact hcs3.ok.level
    | cons o1 tl =>
      rw [(hb1 o1 tl rfl).1]
      exact (hrest o1 (List.mem_cons_self _ _)).2.2
  have hT5 : TrailOK ({ r.state with lbdQueue := r.state.lbdQueue.push r.lbd, sumLBD := r.state.sumLBD + r.lbd } : Solver) :=
    (f.analysable hcs3.ok).trail.trail_of_fields rfl rfl rfl rfl
  have hd5 : ({ r.state with lbdQueue := r.state.lbdQueue.push r.lbd, sumLBD := r.state.sumLBD + r.lbd } : Solver).decisionLevel = s3.decisionLevel :=
    f.decisionLevel_eq
  have hbt : r.out_btlevel < ({ r.state with lbdQueue := r.state.lbdQueue.push r.lbd, sumLBD := r.state.sumLBD + r.lbd } : Solver).decisionLevel := by
    rw [hd5]; exact hbt3
  have hval5 : ∀ x, ({ r.state with lbdQueue := r.state.lbdQueue.push r.lbd, sumLBD := r.state.sumLBD + r.lbd } : Solver).value x = s3.value x := f.value_eq
  have hlev5 : ∀ v, ({ r.state with lbdQueue := r.state.lbdQueue.push r.lbd, sumLBD := r.state.sumLBD + r.lbd } : Solver).level v = s3.level v := f.level_eq
  have hfr := cancelUntil_frame ({ r.state with lbdQueue := r.state.lbdQueue.push r.lbd, sumLBD := r.state.sumLBD + r.lbd } : Solver) r.out_btlevel
  have hdl := cancelUntil_decisionLevel _ _ hbt
  have hu0 := undef_after_cancel hT5 hbt (by rw [hval5]; exact hv0)
    (by rw [hlev5, hl0]; exact hbt3)
  have huf : ∀ x ∈ rest, (cancelUntil ({ r.state with lbdQueue := r.state.lbdQueue.push r.lbd, sumLBD := r.state.sumLBD + r.lbd } : Solver) r.out_btlevel).value x
      = lbool.l_False := by
    intro x hx
    apply false_after_cancel hT5 hbt
    · rw [hval5]
      exact (hrest x hx).1
    · rw [hlev5]
      cases rest with
      | nil => cases hx
      | cons o1 tl =>
        rw [(hb1 o1 tl rfl).1]
        exact (hb1 o1 tl rfl).2 x hx
  generalize hu : cancelUntil ({ r.state with lbdQueue := r.state.lbdQueue.push r.lbd, sumLBD := r.state.sumLBD + r.lbd } : Solver) r.out_btlevel = u
      at hfr hdl hu0 huf
  obtain ⟨_, f2, f3, _, _, _, _, _, _, _, _, _, _, f14, _⟩ := hfr
  have hca : u.ca = r.state.ca := f2
  have hsz : u.caSize = s.caSize := by
    rw [f3]
    show r.state.caSize = _
    rw [q3, a13]
  have hle : u.learnts = s.learnts := by
    rw [f14]
    show r.state.learnts = _
    rw [hcore.2.2.2.2.2.2.2.2.2.2.1, a15]
  obtain ⟨t, hi, i1, i2, i3, i4, i5, i6⟩ := installLearnt_spec hr hu0 huf
  have hsc : ∃ b1, searchConflict confl conflictC blocked s
      = some (SearchStep.next (conflictC + 1) b1 t) := by
    refine ⟨blocked || blockRestart { countConflict s with trailQueue := (countConflict s).trailQueue.push (countConflict s).trail.length }, ?_⟩
    unfold searchConflict
    dsimp only
    rw [if_neg (by
      show ¬ s.trail_lim.length = 0
      have := h.ok.level
      unfold Solver.decisionLevel at this
      omega)]
    rw [hs3, ha]
    dsimp only
    rw [hu, hi]
  refine ⟨r, t, ha, hsc, o0, rest, hr, by rw [← hd3]; exact hbt3, by rw [i1, hdl], i2,
    by rw [i3, hdl], i4, ?_, ?_⟩
  · intro e
    obtain ⟨j1, j2, j3, j4⟩ := i5 e
    exact ⟨j1, j2.trans hle, j3.trans hsz, j4.trans hca⟩
  · intro o1 tl e
    obtain ⟨j1, j2, j3, j4, j5, j6⟩ := i6 o1 tl e
    rw [hsz] at j1 j2 j3 j4 j5 j6
    rw [hle] at j1
    rw [hca] at j3
    refine ⟨j1, j2, fun x hx => ?_, ?_, ?_, ?_, ?_, j4, j5, j6⟩
    · rw [j3, Function.update_noteq hx]
    · rw [j3, Function.update_same]; exact hr
    · rw [j3, Function.update_same]; rfl
    · rw [j3, Function.update_same]; rfl
    · rw [j3, Function.update_same]; rfl

/-- Witness of C35: the conflict state `exConflict` with the conflicting clause 1. -/
theorem search_conflict_installs_asserting_clause_witness :
    ConflictState exConflict 1 ∧
    ∃ (r : AnalyzeResult) (t : Solver),
      (∃ b1, searchConflict 1 0 false exConflict = some (SearchStep.next (0 + 1) b1 t)) ∧
      ∃ o0 rest, r.out_learnt = o0 :: rest ∧ r.out_btlevel < exConflict.decisionLevel ∧
        t.decisionLevel = r.out_btlevel ∧
        t.value o0 = lbool.l_True ∧ t.level o0.var = r.out_btlevel ∧
        (∀ x ∈ rest, t.value x = lbool.l_False) := by
  obtain ⟨r, t, _, h2, o0, rest, h3, h4, h5, h6, h7, h8, _⟩ :=
    search_conflict_installs_asserting_clause 1 0 false exConflict exConflict_conflictState
  exact ⟨exConflict_conflictState, r, t, h2, o0, rest, h3, h4, h5, h6, h7, h8⟩

end Glucose
